import Mathlib

/-!
# Hybrid LMS / SPHINCS+ signer: shallow embedding

Byte buffers are lists of naturals (every byte the code writes is reduced
modulo 256).  SHA-256 and AES-256 are external primitives and enter as the
fields of `Prims`; the system random callback is an argument of the
operations that use it.  The compile-time switches of `tune.h` are the
fields of `Tune`; `tune` is the setting the header ships with.
-/

namespace SphincsHybrid

/-! ## Buffers -/

/-- The first `n` bytes found at a pointer: the list cut to `n` entries
(padded with zero bytes when the model list is shorter). -/
def bytesN (n : Nat) (src : List Nat) : List Nat :=
  (src ++ List.replicate n 0).take n

/-- Overwrite `dst` from offset `off` on with the bytes `src`. -/
def blit (dst : List Nat) (off : Nat) (src : List Nat) : List Nat :=
  dst.take off ++ src ++ dst.drop (off + src.length)

/-- `memcpy( dst + off, src, n )`. -/
def memcpy (dst : List Nat) (off : Nat) (src : List Nat) (n : Nat) : List Nat :=
  blit dst off (bytesN n src)

/-- The `n` bytes at `src + off`. -/
def slice (src : List Nat) (off n : Nat) : List Nat :=
  bytesN n (src.drop off)

/-- `memset( p, 0, n )` over a whole buffer of `n` bytes. -/
def zeros (n : Nat) : List Nat := List.replicate n 0

/-- `memcmp( a, b, n ) == 0`. -/
def memeq (a b : List Nat) (n : Nat) : Bool :=
  decide (bytesN n a = bytesN n b)

/-- Byte-wise exclusive or of two buffers over `n` bytes. -/
def xorBytes (a b : List Nat) (n : Nat) : List Nat :=
  List.zipWith (fun x y => (x ^^^ y) % 256) (bytesN n a) (bytesN n b)

/-! ## tune.h -/

/-- The compile-time switches of `tune.h` that change what the code computes.
(`USE_OPENSSL`, `DUMMY_LOAD`, `PROFILE` and `DUMP_SIG` only change timing and
diagnostics.) -/
structure Tune where
  SPEED_SETTING : Nat
  KEYGEN_STRATEGY : Nat
  FAULT_STRATEGY : Nat
  deriving DecidableEq, Repr

/-- The settings `tune.h` ships with: fast LMS (W=2), AES key generation, no
fault protection. -/
def tune : Tune := { SPEED_SETTING := 1, KEYGEN_STRATEGY := 1, FAULT_STRATEGY := 0 }

/-! ## lm_ots_param.h -/

def LM_OTS_W4_PARAM_ID : Nat := 0xe0000023
def LM_OTS_W4_W : Nat := 4
def LM_OTS_W4_P : Nat := 51
def LM_OTS_W4_LS : Nat := 4
def LM_OTS_W2_PARAM_ID : Nat := 0xe0000022
def LM_OTS_W2_W : Nat := 2
def LM_OTS_W2_P : Nat := 101
def LM_OTS_W2_LS : Nat := 6

def LM_OTS_PARAM_ID (T : Tune) : Nat :=
  if T.SPEED_SETTING ≠ 0 then LM_OTS_W2_PARAM_ID else LM_OTS_W4_PARAM_ID
def LM_OTS_W (T : Tune) : Nat :=
  if T.SPEED_SETTING ≠ 0 then LM_OTS_W2_W else LM_OTS_W4_W
def LM_OTS_P (T : Tune) : Nat :=
  if T.SPEED_SETTING ≠ 0 then LM_OTS_W2_P else LM_OTS_W4_P
def LM_OTS_LS (T : Tune) : Nat :=
  if T.SPEED_SETTING ≠ 0 then LM_OTS_W2_LS else LM_OTS_W4_LS

/-! ## sh_signer.h constants -/

def LMS_H : Nat := 20
def LMS_FAKE (T : Tune) : Nat :=
  7 - (if T.SPEED_SETTING ≠ 0 then 1 else 0) - T.FAULT_STRATEGY
def LMS_ACTUAL (T : Tune) : Nat := LMS_H - LMS_FAKE T
def LMS_TOP (T : Tune) : Nat := (LMS_ACTUAL T + 1) / 2
def LMS_BOTTOM (T : Tune) : Nat := LMS_ACTUAL T / 2
def LEN_LMS_PUBLIC_KEY : Nat := 4 + 4 + 4 + 16 + 24
def SPH_K : Nat := 14
def SPH_A : Nat := 16
def SPH_H : Nat := 64
def SPH_D : Nat := 8
def SPH_T : Nat := SPH_H / SPH_D
def SPH_DLEN : Nat := SPH_D * 51
def LEN_SPHINCS_SIG : Nat := 24 * (1 + SPH_K * (SPH_A + 1) + (SPH_H + SPH_DLEN))
def MAX_HASH_LEN : Nat := 32
def LMS_LEAF_PER_ITER : Nat := 2
def FORS_LEAFS_PER_ITER (T : Tune) : Nat := if T.SPEED_SETTING ≠ 0 then 220 else 410
def MERKLE_CHAINS_PER_ITER (T : Tune) : Nat := if T.SPEED_SETTING ≠ 0 then 1 else 2

/-! ## hash.h, adr.h -/

def HASH_LEN_192 : Nat := 0x01
def HASH_LEN_MASK : Nat := 0x03
def HASH_TYPE_SHA256 : Nat := 0x04
def HASH_TYPE_SHIFT : Nat := 2
def LEN_ADR : Nat := 22
def ADR_CONST_FOR_TREE : Nat := 9
def WOTS_HASH_ADDRESS : Nat := 0
def WOTS_KEY_COMPRESSION : Nat := 1
def HASH_TREE_ADDRESS : Nat := 2
def FORS_TREE_ADDRESS : Nat := 3
def FORS_TREE_ROOT_COMPRESS : Nat := 4

/-! ## External primitives -/

/-- The primitives taken from outside the repository: the SHA-256 digest of a
byte string and the AES-256 encryption of one block under a 32-byte key. -/
structure Prims where
  sha256 : List Nat → List Nat
  aes256 : List Nat → List Nat → List Nat

/-- `SHA256_Init; SHA256_Update(m); SHA256_Final`: the 32 digest bytes. -/
def SHA256 (P : Prims) (m : List Nat) : List Nat :=
  bytesN 32 ((P.sha256 m).map (fun b => b % 256))

/-- `AES_encrypt( blk, out, key )`: the 16 bytes of the encrypted block. -/
def AES_encrypt (P : Prims) (key blk : List Nat) : List Nat :=
  bytesN 16 ((P.aes256 (bytesN 32 key) (bytesN 16 blk)).map (fun b => b % 256))

/-- Modelled from the spec: `SHA256_set_first_block` (its source file is not
part of the repository sources at hand).  The snapshot is the state after one
64-byte block, the zero-padded `pk_seed`; a context started from it has
absorbed exactly those 64 bytes. -/
def SHA256_set_first_block (data : List Nat) (data_len : Nat) : List Nat :=
  bytesN 64 (bytesN data_len data)

/-! ## endian.c -/

/-- `put_bigendian( target, value, bytes )`: the `bytes` bytes written. -/
def put_bigendian : Nat → Nat → List Nat
  | _, 0 => []
  | value, bytes + 1 => put_bigendian (value / 256) bytes ++ [value % 256]

/-- `get_bigendian( target, bytes )`. -/
def get_bigendian (target : List Nat) (bytes : Nat) : Nat :=
  (bytesN bytes target).foldl (fun result b => (256 * result + b % 256) % 2 ^ 64) 0

/-! ## adr.c -/

/-- Store one byte (`adr[i] = v` with `unsigned char` truncation). -/
def setByte (adr : List Nat) (i v : Nat) : List Nat := adr.set i (v % 256)

def set_layer_address (adr : List Nat) (layer_address : Nat) : List Nat :=
  setByte adr 0 layer_address

def set_tree_address (adr : List Nat) (tree_address : Nat) : List Nat :=
  memcpy adr 1 (put_bigendian (tree_address % 2 ^ 64) 8) 8

def set_type (adr : List Nat) (type : Nat) : List Nat :=
  memcpy (setByte adr 9 type) 10 (zeros (LEN_ADR - 10)) (LEN_ADR - 10)

def set_key_pair_address (adr : List Nat) (key_pair_address : Nat) : List Nat :=
  setByte adr 13 key_pair_address

def set_chain_address (adr : List Nat) (chain_address : Nat) : List Nat :=
  setByte adr 17 chain_address

def set_hash_address (adr : List Nat) (hash_address : Nat) : List Nat :=
  setByte (setByte (setByte adr 19 0) 20 0) 21 hash_address

def set_tree_height (adr : List Nat) (tree_height : Nat) : List Nat :=
  setByte adr 17 tree_height

def set_tree_index (adr : List Nat) (tree_index : Nat) : List Nat :=
  setByte (setByte (setByte adr 19 (tree_index / 2 ^ 16)) 20 (tree_index / 2 ^ 8)) 21 tree_index

/-! ## sphincs_hash.c -/

/-- `hash_len( hash )`: table lookup on the two low bits. -/
def hash_len (hash : Nat) : Nat :=
  [16, 24, 32, 0].getD (hash % 4) 0

/-- `do_thash( dest, hash, pk_seed, adr, in, in_len )`: `none` where the C
function returns false (and leaves `dest` alone), otherwise the `n` bytes it
copies to `dest`. -/
def do_thash (P : Prims) (hash : Nat) (pk_seed adr inp : List Nat) (in_len : Nat) :
    Option (List Nat) :=
  let n := hash_len hash
  if n = 0 then none
  else if hash / 2 ^ HASH_TYPE_SHIFT = HASH_TYPE_SHA256 / 2 ^ HASH_TYPE_SHIFT then
    some (bytesN n (SHA256 P (pk_seed ++ bytesN LEN_ADR adr ++ bytesN in_len inp)))
  else none

/-- `do_F( dest, hash, pk_seed, adr, m )`. -/
def do_F (P : Prims) (hash : Nat) (pk_seed adr m : List Nat) : Option (List Nat) :=
  let n := hash_len hash
  if n = 0 then none
  else if hash / 2 ^ HASH_TYPE_SHIFT = HASH_TYPE_SHA256 / 2 ^ HASH_TYPE_SHIFT then
    some (bytesN n (SHA256 P (pk_seed ++ bytesN LEN_ADR adr ++ bytesN n m)))
  else none

/-- `do_H( dest, hash, pk_seed, adr, m1, m2 )`. -/
def do_H (P : Prims) (hash : Nat) (pk_seed adr m1 m2 : List Nat) : Option (List Nat) :=
  let n := hash_len hash
  if n = 0 then none
  else do_thash P hash pk_seed adr (bytesN n m1 ++ bytesN n m2) (2 * n)

/-- A hash call whose boolean result the caller ignores: on failure the
destination keeps its `n` old bytes. -/
def hashInto (r : Option (List Nat)) (old : List Nat) (n : Nat) : List Nat :=
  r.getD (bytesN n old)

/-- The bit reader of `sphincs_hash.c`: the bytes from `p` on and the
position inside the current byte. -/
structure bit_extract where
  p : List Nat
  len : Int
  bit_pos : Nat

def init_bit_extract (p : List Nat) (len : Nat) : bit_extract :=
  { p := p, len := len, bit_pos := 8 }

/-- The `while (num_bit >= bit->bit_pos)` loop of `do_bit_extract`; the
counter bounds the iterations (each one consumes at least one bit). -/
def do_bit_extract_loop (reverse : Bool) :
    Nat → bit_extract → Nat → Nat → Nat → bit_extract × Nat × Nat × Nat
  | 0, bit, num_bit, r, count_bits => (bit, num_bit, r, count_bits)
  | fuel + 1, bit, num_bit, r, count_bits =>
    if num_bit ≥ bit.bit_pos then
      let num_bit := num_bit - bit.bit_pos
      let mask := 2 ^ bit.bit_pos - 1
      let c := bit.p.headD 0 % 256
      let r := if reverse then (r + (c &&& mask) * 2 ^ count_bits) % 2 ^ 64
               else (r + (c &&& mask) * 2 ^ num_bit) % 2 ^ 64
      let count_bits := count_bits + bit.bit_pos
      do_bit_extract_loop reverse fuel
        { p := bit.p.tail, len := bit.len - 1, bit_pos := 8 } num_bit r count_bits
    else (bit, num_bit, r, count_bits)

/-- `do_bit_extract( bit, num_bit, reverse )`: the advanced reader and the
extracted value. -/
def do_bit_extract (bit : bit_extract) (num_bit : Nat) (reverse : Bool) : bit_extract × Nat :=
  let w := do_bit_extract_loop reverse (num_bit + 1) bit num_bit 0 0
  let bit := w.1
  let num_bit := w.2.1
  let r := w.2.2.1
  let count_bits := w.2.2.2
  if num_bit > 0 then
    let bit := { bit with bit_pos := bit.bit_pos - num_bit }
    let mask := 2 ^ num_bit - 1
    let c := bit.p.headD 0 % 256
    let last_bits := (c / 2 ^ bit.bit_pos) &&& mask
    let r := if reverse then (r + last_bits * 2 ^ count_bits) % 2 ^ 64
             else (r + last_bits) % 2 ^ 64
    (bit, r)
  else (bit, r)

def round_bit_extract (bit : bit_extract) : bit_extract :=
  if bit.bit_pos ≠ 8 then { p := bit.p.tail, len := bit.len - 1, bit_pos := 8 } else bit

/-- The MGF1 loop of `do_compute_digest_index`: block `index` goes to
`buffer[32*index ..]` while `32*index < m`. -/
def mgf1_loop (P : Prims) (hash : List Nat) (m : Nat) : Nat → Nat → List Nat → List Nat
  | 0, _, buffer => buffer
  | fuel + 1, index, buffer =>
    if 32 * index < m then
      mgf1_loop P hash m fuel (index + 1)
        (memcpy buffer (32 * index) (SHA256 P (bytesN 32 hash ++ [0, 0, 0, index % 256])) 32)
    else buffer

/-- The `for (i=0; i<k; i++) md[i] = do_bit_extract( &bit, a, true )` loop. -/
def md_loop (a : Nat) : Nat → bit_extract → List Nat → bit_extract × List Nat
  | 0, bit, md => (bit, md)
  | k + 1, bit, md =>
    let w := do_bit_extract bit a true
    md_loop a k w.1 (md ++ [w.2 % 2 ^ 32])

/-- `do_compute_digest_index`: the triple `(md, idx_tree, idx_leaf)`. -/
def do_compute_digest_index (P : Prims) (n : Nat) (r seed root message : List Nat)
    (k a h d : Nat) : List Nat × Nat × Nat :=
  let hash := SHA256 P (bytesN n r ++ bytesN n seed ++ bytesN n root ++ message)
  let m := (k * a + 7) / 8 + (h - h / d + 7) / 8 + (h / d + 7) / 8
  let buffer := mgf1_loop P hash m (m / 32 + 1) 0 (zeros (m + 31))
  let bit := init_bit_extract buffer m
  let w1 := md_loop a k bit []
  let md := w1.2
  let bit := round_bit_extract w1.1
  let w2 := do_bit_extract bit (h - h / d) false
  let idx_tree := w2.2
  let bit := round_bit_extract w2.1
  let idx_leaf := (do_bit_extract bit (h / d) false).2
  (md, idx_tree, idx_leaf % 2 ^ 32)

/-! ## wots.c -/

/-- The digit loop of `expand_wots_digits`: two digits per hash byte and the
running checksum. -/
def wots_digit_loop : List Nat → List Nat → Nat → List Nat × Nat
  | [], digits, csum => (digits, csum)
  | x :: rest, digits, csum =>
    let x := x % 256
    let d1 := x / 16
    let d2 := x % 16
    wots_digit_loop rest (digits ++ [d1, d2]) (csum + (15 - d1) + (15 - d2))

/-- `expand_wots_digits( digits, digit_buffer_size, hash, hash_len )`: the
returned count and the digits written. -/
def expand_wots_digits (digit_buffer_size : Nat) (hash : List Nat) (hash_len : Nat) :
    Nat × List Nat :=
  if digit_buffer_size < 2 * hash_len then (0, [])
  else
    let w := wots_digit_loop (bytesN hash_len hash) [] 0
    let digits := w.1
    let csum := w.2
    if digit_buffer_size - 2 * hash_len < 3 then (0, digits)
    else (2 * hash_len + 3,
          digits ++ [(csum / 2 ^ 8) % 16, (csum / 2 ^ 4) % 16, csum % 16])

/-! ## lm_ots_common.c -/

/-- `lm_ots_coef( Q, i, w )`. -/
def lm_ots_coef (Q : List Nat) (i w : Nat) : Nat :=
  let index := (i * w) / 8
  let digits_per_byte := 8 / w
  let shift := w * ((digits_per_byte - 1) - i % digits_per_byte)
  let mask := 2 ^ w - 1
  ((Q.getD index 0 % 256) / 2 ^ shift) &&& mask

/-- `lm_ots_compute_checksum( Q, Q_len, w, ls )`. -/
def lm_ots_compute_checksum (Q : List Nat) (Q_len w ls : Nat) : Nat :=
  let u := 8 * Q_len / w
  let max_digit := 2 ^ w - 1
  let sum := (List.range u).foldl (fun sum i => sum + (max_digit - lm_ots_coef Q i w)) 0
  (sum * 2 ^ ls) % 2 ^ 32

/-! ## private_key_gen.c -/

/-- The state of the private key generator: the CBC-MAC chaining value and
the AES key (`KEYGEN_STRATEGY` 1), or the pre-hash (`KEYGEN_STRATEGY` 0). -/
structure private_key_generator where
  init : List Nat
  expanded_key : List Nat
  hash : List Nat

/-- The absorbing loop of `init_private_key_gen` (AES mode): 16 bytes of
`extra` at a time are xored into `init`, which is then encrypted. -/
def init_absorb (P : Prims) (key : List Nat) : Nat → List Nat → Nat → List Nat → List Nat
  | 0, _, _, init => init
  | fuel + 1, extra, len_extra, init =>
    if len_extra > 0 then
      let this_len := min 16 len_extra
      let init := xorBytes init (bytesN 16 (bytesN this_len extra)) 16
      init_absorb P key fuel (extra.drop this_len) (len_extra - this_len)
        (AES_encrypt P key init)
    else init

/-- `init_private_key_gen( gen, secret_key, len_secret_key, extra, len_extra )`. -/
def init_private_key_gen (T : Tune) (P : Prims) (secret_key : List Nat) (len_secret_key : Nat)
    (extra : List Nat) (len_extra : Nat) : private_key_generator :=
  if T.KEYGEN_STRATEGY ≠ 0 then
    let key := if len_secret_key ≥ 32 then bytesN 32 secret_key
               else bytesN 32 (bytesN len_secret_key secret_key)
    { init := init_absorb P key len_extra extra len_extra (zeros 16),
      expanded_key := key, hash := [] }
  else
    { init := [], expanded_key := [],
      hash := SHA256 P (bytesN len_secret_key secret_key ++ bytesN len_extra extra) }

/-- The output loop of `do_private_key_gen` (AES mode): the buffer is
encrypted again for every further 16 bytes of output. -/
def key_gen_loop (P : Prims) (key : List Nat) : Nat → Nat → List Nat → List Nat → List Nat
  | 0, _, _, out => out
  | fuel + 1, n, buffer, out =>
    if n > 0 then
      let buffer := AES_encrypt P key buffer
      let this_len := if n > 16 then 16 else n
      key_gen_loop P key fuel (n - this_len) buffer (out ++ bytesN this_len buffer)
    else out

/-- `do_private_key_gen( dest, n, gen, state )`: the `n` bytes written. -/
def do_private_key_gen (T : Tune) (P : Prims) (n : Nat) (gen : private_key_generator)
    (state : List Nat) : List Nat :=
  if T.KEYGEN_STRATEGY ≠ 0 then
    key_gen_loop P gen.expanded_key n n (xorBytes state gen.init 16) []
  else
    bytesN n (SHA256 P (bytesN 32 gen.hash ++ bytesN 16 state))

/-! ## hmac.c -/

/-- `init_hmac( engine, key, key_len )`: the bytes the inner hash has absorbed. -/
def init_hmac (key : List Nat) (key_len : Nat) : List Nat :=
  xorBytes (List.replicate 64 0x36) (bytesN 64 (bytesN key_len key)) 64

def update_hmac (engine data : List Nat) (len_data : Nat) : List Nat :=
  engine ++ bytesN len_data data

/-- `final_hmac( output, engine, key, key_len )`: the 32 bytes of output. -/
def final_hmac (P : Prims) (engine key : List Nat) (key_len : Nat) : List Nat :=
  SHA256 P (xorBytes (List.replicate 64 0x5c) (bytesN 64 (bytesN key_len key)) 64
            ++ SHA256 P engine)

/-! ## hmac_drbg.c -/

structure hmac_drbg where
  v : List Nat
  key : List Nat
  reseed_counter : Nat

/-- `update_drbg( drbg, data, len_data )`; `data = none` is the null pointer. -/
def update_drbg (P : Prims) (drbg : hmac_drbg) (data : Option (List Nat)) (len_data : Nat) :
    hmac_drbg :=
  let e := update_hmac (update_hmac (init_hmac drbg.key 32) drbg.v 32) [0] 1
  let e := if data.isSome then update_hmac e (data.getD []) len_data else e
  let key := final_hmac P e drbg.key 32
  let v := final_hmac P (update_hmac (init_hmac key 32) drbg.v 32) key 32
  if data.isSome then
    let e := update_hmac (update_hmac (update_hmac (init_hmac key 32) v 32) [1] 1)
      (data.getD []) len_data
    let key2 := final_hmac P e key 32
    let v2 := final_hmac P (update_hmac (init_hmac key2 32) v 32) key2 32
    { drbg with key := key2, v := v2 }
  else { drbg with key := key, v := v }

/-- `seed_drbg( drbg, rand )`: `none` when the random callback fails. -/
def seed_drbg (P : Prims) (drbg : hmac_drbg) (rand : Nat → Option (List Nat)) :
    Option hmac_drbg :=
  match rand 48 with
  | none => none
  | some entropy =>
    let d := update_drbg P { drbg with key := zeros 32, v := List.replicate 32 1 }
               (some (bytesN 48 entropy)) 48
    some { d with reseed_counter := 1 }

/-- The conversion of a `size_t` to `int` in `int len = len_buffer` (line 74 of
`hmac_drbg.c`): the low 32 bits, read as a two's complement number. -/
def int_of_size_t (x : Nat) : Int :=
  if x % 2 ^ 32 < 2 ^ 31 then ((x % 2 ^ 32 : Nat) : Int) else ((x % 2 ^ 32 : Nat) : Int) - 2 ^ 32

/-- The output loop `while (len_buffer)` of `read_drbg`, run for at most `fuel`
rounds; `len` is the `int` of the source.  The result is `none` when the
rounds run out with bytes still to write, or when `memcpy` is called with a
negative `len` (as a `size_t` a length above 2^63, beyond every buffer). -/
def read_drbg_loop (P : Prims) (key : List Nat) : Nat → Nat → List Nat → List Nat →
    Option (List Nat × List Nat)
  | 0, len_buffer, v, out => if len_buffer ≠ 0 then none else some (v, out)
  | fuel + 1, len_buffer, v, out =>
    if len_buffer ≠ 0 then
      let v := final_hmac P (update_hmac (init_hmac key 32) v 32) key 32
      let len := int_of_size_t len_buffer
      let len := if len > 32 then 32 else len
      if len < 0 then none
      else read_drbg_loop P key fuel (len_buffer - len.toNat) v (out ++ bytesN len.toNat v)
    else some (v, out)

/-- `read_drbg( buffer, len_buffer, drbg )`: the returned flag, the contents
of `buffer` afterwards (untouched when the function returns false) and the
generator afterwards.  The loop is given `len_buffer` rounds, which is enough
whenever the C loop ends: it ends exactly for `len_buffer < 2^31`
(`read_drbg_loop_spec`, `read_drbg_loop_large`), as in every call of
`step_next` (lengths 16, 24, 32 and `24 * LMS_FAKE`).  For a length from 2^31
on the C function does not return normally, and the value this total
function has there (computed from an empty output stream) describes no run
of the program. -/
def read_drbg (P : Prims) (buffer : List Nat) (len_buffer : Nat) (drbg : hmac_drbg) :
    Bool × List Nat × hmac_drbg :=
  if drbg.reseed_counter ≥ 2 ^ 48 then (false, buffer, drbg)
  else
    let w := (read_drbg_loop P drbg.key len_buffer len_buffer drbg.v []).getD (drbg.v, [])
    let d := update_drbg P { drbg with v := w.1 } none 0
    (true, memcpy buffer 0 w.2 len_buffer,
     { d with reseed_counter := (d.reseed_counter + 1) % 2 ^ 64 })

/-! ## lms_common_defs.h, lms_compute.c -/

/-- Modelled from the spec: `I_LEN` of `lms_common_defs.h` (the header is
not among the sources); the identifier `I` has 16 bytes. -/
def I_LEN : Nat := 16
/-- Modelled from the spec: the domain separation values of
`lms_common_defs.h`, a single byte at the `D` slot of each hashed block. -/
def D_PBLC : Nat := 0x80
/-- Modelled from the spec: see `D_PBLC`. -/
def D_MESG : Nat := 0x81
/-- Modelled from the spec: see `D_PBLC`. -/
def D_LEAF : Nat := 0x82
/-- Modelled from the spec: see `D_PBLC`. -/
def D_INTR : Nat := 0x83

/-- Modelled from the spec: the block layouts of `lms_common_defs.h`.  The
message block is `I || BE32(q) || D_MESG || C`, followed by the message. -/
def mesgBlock (I : List Nat) (q : Nat) (C : List Nat) (n : Nat) : List Nat :=
  bytesN I_LEN I ++ put_bigendian q 4 ++ [D_MESG] ++ bytesN n C

/-- Modelled from the spec: the block `I || BE32(q) || D_PBLC` that starts
the hash of the chain tops. -/
def pblcBlock (I : List Nat) (q : Nat) : List Nat :=
  bytesN I_LEN I ++ put_bigendian q 4 ++ [D_PBLC]

/-- Modelled from the spec: the chain block `I || BE32(q) || BE16(i) || j ||
prev` of `ITER_LEN(n)` bytes. -/
def iterBlock (I : List Nat) (q i j : Nat) (prev : List Nat) (n : Nat) : List Nat :=
  bytesN I_LEN I ++ put_bigendian q 4 ++ put_bigendian i 2 ++ [j % 256] ++ bytesN n prev

/-- Modelled from the spec: the leaf block `I || BE32(r) || D_LEAF || pk`. -/
def leafBlock (I : List Nat) (r : Nat) (pk : List Nat) (n : Nat) : List Nat :=
  bytesN I_LEN I ++ put_bigendian r 4 ++ [D_LEAF] ++ bytesN n pk

/-- Modelled from the spec: the inner node block `I || BE32(r) || D_INTR ||
left || right`. -/
def intrBlock (I : List Nat) (r : Nat) (left right : List Nat) (n : Nat) : List Nat :=
  bytesN I_LEN I ++ put_bigendian r 4 ++ [D_INTR] ++ bytesN n left ++ bytesN n right

/-- `lms_combine_internal_nodes( dest, left, right, I, hash_size, node_num )`:
the `hash_size` bytes written to `dest`. -/
def lms_combine_internal_nodes (P : Prims) (left_node right_node I : List Nat)
    (hash_size node_num : Nat) : List Nat :=
  bytesN hash_size (SHA256 P (intrBlock I (node_num % 2 ^ 32) left_node right_node hash_size))

/-! ## lm_ots_sign.c -/

/-- The 16-byte `priv_image` handed to the key generator: `BE32(q)`, the
word `i | (i << 24)` (stored in machine order; it reads the same in either
byte order), the word `mark` and a zero word. -/
def priv_image (q i mark : Nat) : List Nat :=
  let w1 := (i ||| (i * 2 ^ 24)) % 2 ^ 32
  put_bigendian (q % 2 ^ 32) 4 ++
    [w1 % 256, (w1 / 2 ^ 8) % 256, (w1 / 2 ^ 16) % 256, (w1 / 2 ^ 24) % 256] ++
    [mark % 256, (mark / 2 ^ 8) % 256, (mark / 2 ^ 16) % 256, (mark / 2 ^ 24) % 256] ++
    [0, 0, 0, 0]

/-- The Winternitz chain loop `for (j = ...; j < ...; j++)`: `cnt` steps from
position `j`, each replacing `prev` by the hash of the chain block. -/
def lm_ots_chain (P : Prims) (I : List Nat) (q i n : Nat) : Nat → Nat → List Nat → List Nat
  | 0, _, prev => prev
  | cnt + 1, j, prev =>
    lm_ots_chain P I q i n cnt (j + 1) (bytesN n (SHA256 P (iterBlock I q i j prev n)))

/-- The chain tops of `lm_ots_generate_public_key`, concatenated in the order
in which they enter the running hash. -/
def lm_ots_pk_tops (T : Tune) (P : Prims) (I : List Nat) (q : Nat)
    (gen : private_key_generator) (n w : Nat) : Nat → Nat → List Nat
  | 0, _ => []
  | cnt + 1, i =>
    bytesN n (lm_ots_chain P I q i n (2 ^ w - 1) 0
        (do_private_key_gen T P n gen (priv_image q i 0)))
      ++ lm_ots_pk_tops T P I q gen n w cnt (i + 1)

/-- `lm_ots_generate_public_key( I, q, seed, public_key )`: the 24 bytes of
the leaf hash left in `public_key`. -/
def lm_ots_generate_public_key (T : Tune) (P : Prims) (I : List Nat) (q : Nat)
    (seed : List Nat) : List Nat :=
  let n := 24
  let w := LM_OTS_W T
  let p := LM_OTS_P T
  let q := q % 2 ^ 32
  let gen := init_private_key_gen T P seed 32 [] 0
  let temp := SHA256 P (pblcBlock I q ++ lm_ots_pk_tops T P I q gen n w p 0)
  let public_key := bytesN n temp
  bytesN n (SHA256 P (leafBlock I ((q + 2 ^ 20) % 2 ^ 32) public_key n))

/-- The signature chains of `lm_ots_generate_signature`: chain `i` is run
`lm_ots_coef( Q, i, w )` steps. -/
def lm_ots_sig_chains (T : Tune) (P : Prims) (I : List Nat) (q : Nat)
    (gen : private_key_generator) (Q : List Nat) (n w : Nat) : Nat → Nat → List Nat
  | 0, _ => []
  | cnt + 1, i =>
    bytesN n (lm_ots_chain P I q i n (lm_ots_coef Q i w) 0
        (do_private_key_gen T P n gen (priv_image q i 0)))
      ++ lm_ots_sig_chains T P I q gen Q n w cnt (i + 1)

/-- `lm_ots_generate_signature( I, q, seed, message, message_len, signature )`:
the returned length and the bytes written to `signature`. -/
def lm_ots_generate_signature (T : Tune) (P : Prims) (I : List Nat) (q : Nat)
    (seed message : List Nat) : Nat × List Nat :=
  let n := 24
  let w := LM_OTS_W T
  let ls := LM_OTS_LS T
  let p := LM_OTS_P T
  let q := q % 2 ^ 32
  let gen := init_private_key_gen T P seed 32 [] 0
  let C := do_private_key_gen T P n gen (priv_image q 0 (2 ^ 32 - 1))
  let Q := SHA256 P (mesgBlock I q C n ++ message)
  let Q := memcpy (bytesN (MAX_HASH_LEN + 2) Q) n
             (put_bigendian (lm_ots_compute_checksum Q n w ls) 2) 2
  (4 + n + p * n,
   put_bigendian (LM_OTS_PARAM_ID T) 4 ++ bytesN n C ++ lm_ots_sig_chains T P I q gen Q n w p 0)

/-! ## build_merkle.c -/

/-- The Merkle builder.  `sk_seed` and `pk_seed` hold the bytes the two
pointers refer to (they do not change during a build).  `auth_path` is the
offset of the authentication path inside the buffer the caller passes along
(`none` for a null pointer); `root` is `none` for a null pointer and
otherwise names the buffer the pointer refers to (the caller passes that
buffer along). -/
structure build_merkle_state where
  sk_seed : List Nat
  pk_seed : List Nat
  pk_seed_pre : List Nat
  hash : Nat
  n : Nat
  wots_digits : Nat
  tree_height : Nat
  target_node : Nat
  adr : List Nat
  auth_path : Option Nat
  root : Option Nat
  current_node : Nat
  stack : List Nat

/-- `init_build_merkle`: the returned flag and the state; fields that the C
function does not assign keep their old contents. -/
def init_build_merkle (state : build_merkle_state) (sk_seed pk_seed : List Nat) (hash : Nat)
    (tree_height layer tree target_node : Nat) (auth_path : Option Nat) (root : Option Nat) :
    Bool × build_merkle_state :=
  let state := { state with
    sk_seed := sk_seed, pk_seed := pk_seed,
    pk_seed_pre := SHA256_set_first_block pk_seed (hash_len hash),
    hash := hash, n := hash_len hash }
  if hash_len hash = 16 ∨ hash_len hash = 24 ∨ hash_len hash = 32 then
    (true, { state with
      wots_digits :=
        if hash_len hash = 16 then 32 + 3 else if hash_len hash = 24 then 48 + 3 else 64 + 3,
      tree_height := tree_height, target_node := target_node,
      adr := set_tree_address (set_layer_address state.adr layer) tree,
      auth_path := auth_path, root := root, current_node := 0 })
  else (false, state)

/-- The inner loop `for (j=0; j<15; j++)` of the WOTS+ chain: `cnt` steps of
`F` from hash address `j`. -/
def wots_chain (P : Prims) (hash : Nat) (pk_seed_pre : List Nat) (n : Nat) :
    Nat → Nat → List Nat → List Nat → List Nat × List Nat
  | 0, _, adr, digit => (adr, digit)
  | cnt + 1, j, adr, digit =>
    let adr := set_hash_address adr j
    wots_chain P hash pk_seed_pre n cnt (j + 1) adr
      (hashInto (do_F P hash pk_seed_pre adr digit) digit n)

/-- The loop over the 51 chains of one leaf in `step_build_merkle`: the
address and the buffer of chain tops. -/
def wots_leaf_loop (T : Tune) (P : Prims) (state : build_merkle_state)
    (gen : private_key_generator) :
    Nat → Nat → List Nat → List Nat → List Nat × List Nat
  | 0, _, adr, wots_buffer => (adr, wots_buffer)
  | cnt + 1, i, adr, wots_buffer =>
    let adr := set_chain_address adr i
    let adr := set_hash_address adr 0
    let digit := do_private_key_gen T P state.n gen (slice adr (LEN_ADR - 16) 16)
    let c := wots_chain P state.hash state.pk_seed_pre state.n 15 0 adr digit
    wots_leaf_loop T P state gen cnt (i + 1) c.1
      (memcpy wots_buffer (4 * (state.n / 4 * i)) c.2 state.n)

/-- The result of walking one leaf up the tree. -/
structure merkle_walk where
  state : build_merkle_state
  authMem : List Nat
  rootMem : List Nat
  all_done_flag : Bool

/-- The loop `for (h = 0;; h++)` of `step_build_merkle`; the counter bounds
the levels (bit `h` of a 31-bit node number is clear for some `h`). -/
def merkle_up (P : Prims) (current_node : Nat) :
    Nat → Nat → build_merkle_state → List Nat → List Nat → List Nat → merkle_walk
  | 0, _, state, authMem, rootMem, _ =>
    { state := state, authMem := authMem, rootMem := rootMem, all_done_flag := false }
  | fuel + 1, h, state, authMem, rootMem, buffer =>
    let n := state.n
    let authMem :=
      if state.auth_path.isSome ∧ (state.target_node ^^^ current_node) / 2 ^ h = 1 then
        memcpy authMem (state.auth_path.getD 0 + h * n) buffer n
      else authMem
    if current_node &&& 2 ^ h ≠ 0 then
      let adr := set_type state.adr HASH_TREE_ADDRESS
      let adr := set_tree_height adr (h + 1)
      let adr := set_tree_index adr (current_node / 2 ^ (h + 1))
      let buffer := hashInto
        (do_H P state.hash state.pk_seed_pre adr (slice state.stack (h * n) n) buffer) buffer n
      merkle_up P current_node fuel (h + 1) { state with adr := adr } authMem rootMem buffer
    else if h = state.tree_height then
      { state := state, authMem := authMem,
        rootMem := if state.root.isSome then memcpy rootMem 0 buffer n else rootMem,
        all_done_flag := true }
    else
      { state := { state with stack := memcpy state.stack (h * n) buffer n },
        authMem := authMem, rootMem := rootMem, all_done_flag := false }

/-- The loop `for (m=0; m<MERKLE_CHAINS_PER_ITER; m++)` of `step_build_merkle`. -/
def merkle_leaves (T : Tune) (P : Prims) :
    Nat → build_merkle_state → List Nat → List Nat → Bool → merkle_walk
  | 0, state, authMem, rootMem, flag =>
    { state := state, authMem := authMem, rootMem := rootMem, all_done_flag := flag }
  | m + 1, state, authMem, rootMem, flag =>
    let current_node := state.current_node
    if current_node ≥ 2 ^ state.tree_height then
      { state := state, authMem := authMem, rootMem := rootMem, all_done_flag := true }
    else
      let gen := init_private_key_gen T P state.sk_seed state.n state.adr ADR_CONST_FOR_TREE
      let adr := set_type state.adr WOTS_HASH_ADDRESS
      let adr := set_key_pair_address adr current_node
      let n := state.n
      let wl := wots_leaf_loop T P state gen 51 0 adr (zeros (MAX_HASH_LEN * 51))
      let wots_buffer := wl.2
      let adr := set_type wl.1 WOTS_KEY_COMPRESSION
      let adr := set_key_pair_address adr current_node
      let buffer := hashInto
        (do_thash P state.hash state.pk_seed_pre adr wots_buffer (n * state.wots_digits))
        (zeros MAX_HASH_LEN) n
      let w := merkle_up P current_node 32 0 { state with adr := adr } authMem rootMem buffer
      merkle_leaves T P m { w.state with current_node := w.state.current_node + 1 }
        w.authMem w.rootMem (flag || w.all_done_flag)

/-- `step_build_merkle( state, ret_hc )`: the returned flag together with the
builder, the buffer holding the authentication path and the root buffer. -/
def step_build_merkle (T : Tune) (P : Prims) (state : build_merkle_state)
    (authMem rootMem : List Nat) : merkle_walk :=
  merkle_leaves T P (MERKLE_CHAINS_PER_ITER T) state authMem rootMem false

/-! ## verify.c -/

/-- The chain tops the verifier recomputes: chain `i` continues the
signature value `y + i*n` from digit `lm_ots_coef( buffer, i, w )` up to
`max_digit`. -/
def verify_ots_tops (P : Prims) (I : List Nat) (lms_leaf : Nat) (buffer y : List Nat)
    (n w : Nat) : Nat → Nat → List Nat
  | 0, _ => []
  | cnt + 1, i =>
    let a := lm_ots_coef buffer i w
    let max_digit := 2 ^ w - 1
    bytesN n (lm_ots_chain P I lms_leaf i n (max_digit - a) a (slice y (i * n) n))
      ++ verify_ots_tops P I lms_leaf buffer y n w cnt (i + 1)

/-- The loop `while (node_num > 1)` of the verifier's walk up the LMS
authentication path; the counter bounds the levels of a 32-bit node number. -/
def verify_lms_walk (P : Prims) (I : List Nat) (n : Nat) :
    Nat → Nat → List Nat → List Nat → List Nat
  | 0, _, _, buffer => buffer
  | fuel + 1, node_num, y, buffer =>
    if node_num > 1 then
      let block :=
        if node_num % 2 ≠ 0 then intrBlock I (node_num / 2) y buffer n
        else intrBlock I (node_num / 2) buffer y n
      verify_lms_walk P I n fuel (node_num / 2) (y.drop n) (SHA256 P block)
    else buffer

/-- The loop over the levels of one FORS tree in the verifier. -/
def verify_fors_levels (P : Prims) (pk_seed_pre : List Nat) :
    Nat → Nat → Nat → List Nat → List Nat → List Nat → List Nat × List Nat × List Nat
  | 0, _, _, adr, sphincs_sig, buffer => (adr, sphincs_sig, buffer)
  | cnt + 1, level, node, adr, sphincs_sig, buffer =>
    let adr := set_tree_index adr (node / 2)
    let adr := set_tree_height adr (level + 1)
    let buffer :=
      if node % 2 ≠ 0 then
        hashInto (do_H P (HASH_TYPE_SHA256 ||| HASH_LEN_192) pk_seed_pre adr sphincs_sig buffer)
          buffer 24
      else
        hashInto (do_H P (HASH_TYPE_SHA256 ||| HASH_LEN_192) pk_seed_pre adr buffer sphincs_sig)
          buffer 24
    verify_fors_levels P pk_seed_pre cnt (level + 1) (node / 2) adr (sphincs_sig.drop 24) buffer

/-- The loop over the FORS trees in the verifier: the address, the rest of
the signature and the roots collected. -/
def verify_fors_trees (P : Prims) (pk_seed_pre buffer2 : List Nat) :
    Nat → Nat → List Nat → List Nat → List Nat → List Nat × List Nat × List Nat
  | 0, _, adr, sphincs_sig, fors_roots => (adr, sphincs_sig, fors_roots)
  | cnt + 1, i, adr, sphincs_sig, fors_roots =>
    let node := (buffer2.getD i 0 + i * 2 ^ SPH_A) % 2 ^ 32
    let adr := set_tree_index adr node
    let adr := set_tree_height adr 0
    let buffer := hashInto
      (do_F P (HASH_TYPE_SHA256 ||| HASH_LEN_192) pk_seed_pre adr sphincs_sig)
      (slice fors_roots (4 * (i * 24 / 4)) 24) 24
    let sphincs_sig := sphincs_sig.drop 24
    let w := verify_fors_levels P pk_seed_pre SPH_A 0 node adr sphincs_sig buffer
    verify_fors_trees P pk_seed_pre buffer2 cnt (i + 1) w.1 w.2.1
      (memcpy fors_roots (4 * (i * 24 / 4)) w.2.2 24)

/-- The loop over the 51 WOTS+ chains of one hypertree layer in the verifier. -/
def verify_wots_chains (P : Prims) (pk_seed_pre digits : List Nat) :
    Nat → Nat → List Nat → List Nat → List Nat → List Nat × List Nat × List Nat
  | 0, _, adr, sphincs_sig, wots_root => (adr, sphincs_sig, wots_root)
  | cnt + 1, i, adr, sphincs_sig, wots_root =>
    let p := bytesN 24 sphincs_sig
    let sphincs_sig := sphincs_sig.drop 24
    let adr := set_chain_address adr i
    let d := digits.getD i 0
    let w := wots_chain P (HASH_TYPE_SHA256 ||| HASH_LEN_192) pk_seed_pre 24 (15 - d) d adr p
    verify_wots_chains P pk_seed_pre digits cnt (i + 1) w.1 sphincs_sig
      (memcpy wots_root (4 * (i * 24 / 4)) w.2 24)

/-- The loop up one Merkle tree of the hypertree in the verifier. -/
def verify_merkle_levels (P : Prims) (pk_seed_pre : List Nat) :
    Nat → Nat → Nat → List Nat → List Nat → List Nat → List Nat × List Nat × List Nat × Nat
  | 0, _, idx_leaf, adr, sphincs_sig, buffer => (adr, sphincs_sig, buffer, idx_leaf)
  | cnt + 1, i, idx_leaf, adr, sphincs_sig, buffer =>
    let adr := set_tree_height adr (i + 1)
    let adr := set_tree_index adr (idx_leaf / 2)
    let buffer :=
      if idx_leaf % 2 ≠ 0 then
        hashInto (do_H P (HASH_TYPE_SHA256 ||| HASH_LEN_192) pk_seed_pre adr sphincs_sig buffer)
          buffer 24
      else
        hashInto (do_H P (HASH_TYPE_SHA256 ||| HASH_LEN_192) pk_seed_pre adr buffer sphincs_sig)
          buffer 24
    verify_merkle_levels P pk_seed_pre cnt (i + 1) (idx_leaf / 2) adr (sphincs_sig.drop 24) buffer

/-- The loop over the layers of the hypertree in the verifier. -/
def verify_hypertree (P : Prims) (pk_seed_pre : List Nat) :
    Nat → Nat → Nat → Nat → List Nat → List Nat → List Nat → List Nat
  | 0, _, _, _, _, _, buffer => buffer
  | cnt + 1, level, idx_tree, idx_leaf, adr, sphincs_sig, buffer =>
    let digits := (expand_wots_digits 51 buffer 24).2
    let adr := set_layer_address adr level
    let adr := set_tree_address adr idx_tree
    let adr := set_type adr WOTS_HASH_ADDRESS
    let adr := set_key_pair_address adr idx_leaf
    let wc := verify_wots_chains P pk_seed_pre digits 51 0 adr sphincs_sig (zeros (51 * 24))
    let adr := set_type wc.1 WOTS_KEY_COMPRESSION
    let adr := set_key_pair_address adr idx_leaf
    let buffer := hashInto
      (do_thash P (HASH_TYPE_SHA256 ||| HASH_LEN_192) pk_seed_pre adr wc.2.2 (24 * 51))
      buffer 24
    let adr := set_type adr HASH_TREE_ADDRESS
    let wm := verify_merkle_levels P pk_seed_pre SPH_D 0 idx_leaf adr wc.2.1 buffer
    let idx_leaf := (idx_tree % 2 ^ 32) &&& (2 ^ SPH_T - 1)
    let idx_tree := idx_tree / 2 ^ SPH_T
    verify_hypertree P pk_seed_pre cnt (level + 1) idx_tree idx_leaf wm.1 wm.2.1 wm.2.2.1

/-- The first half of the LMS part of `sh_verify`: the randomized message
hash with its checksum, the LM-OTS public key rebuilt from the chains and the
leaf hash; the result is `buffer` as it stands before the walk up the
authentication path. -/
def verify_lms_leaf (P : Prims) (message I lm_ots_sig : List Nat)
    (n w p ls lms_leaf : Nat) : List Nat :=
  let buffer := SHA256 P (mesgBlock I lms_leaf (slice lm_ots_sig 12 n) n ++ message)
  let buffer := memcpy (bytesN (MAX_HASH_LEN + 2) buffer) n
    (put_bigendian (lm_ots_compute_checksum buffer n w ls) 2) 2
  let y := lm_ots_sig.drop (12 + n)
  let buffer := memcpy buffer 0
    (SHA256 P (pblcBlock I lms_leaf ++ verify_ots_tops P I lms_leaf buffer y n w p 0)) 32
  let node_num := (lms_leaf + 2 ^ LMS_H) % 2 ^ 32
  memcpy buffer 0 (SHA256 P (leafBlock I node_num buffer n)) 32

/-- The LMS part of `sh_verify`: `verify_lms_leaf`, then the walk up the
authentication path; the result is `buffer` as it stands when it is compared
with the root in the LMS public key. -/
def verify_lms_root (P : Prims) (message I lm_ots_sig lm_sig : List Nat)
    (n w p ls lms_leaf : Nat) : List Nat :=
  let buffer := verify_lms_leaf P message I lm_ots_sig n w p ls lms_leaf
  let y := lm_sig.drop 4
  let node_num := (lms_leaf + 2 ^ LMS_H) % 2 ^ 32
  memcpy buffer 0 (verify_lms_walk P I n 32 node_num y buffer) 32

/-- The SPHINCS+ part of `sh_verify`: the verification of the SPHINCS+
signature of the LMS public key, from `const unsigned char *r = sphincs_sig`
to the final comparison with the root in the public key. -/
def verify_sphincs (P : Prims) (buffer sphincs_sig lm_pk public_key : List Nat) : Bool :=
  let n := 24
  let r := sphincs_sig
  let sphincs_sig := sphincs_sig.drop n
  let s_pk_seed := public_key.drop 4
  let pk_seed_pre := SHA256_set_first_block s_pk_seed n
  let s_root := public_key.drop (4 + n)
  let dg := do_compute_digest_index P 24 r s_pk_seed s_root (bytesN LEN_LMS_PUBLIC_KEY lm_pk)
    SPH_K SPH_A SPH_H SPH_D
  let buffer2 := dg.1
  let idx_tree := dg.2.1
  let idx_leaf := dg.2.2
  let adr := zeros LEN_ADR
  let adr := set_layer_address adr 0
  let adr := set_tree_address adr idx_tree
  let adr := set_type adr FORS_TREE_ADDRESS
  let adr := set_key_pair_address adr idx_leaf
  let wf := verify_fors_trees P pk_seed_pre buffer2 SPH_K 0 adr sphincs_sig (zeros (SPH_K * 24))
  let adr := set_type wf.1 FORS_TREE_ROOT_COMPRESS
  let adr := set_key_pair_address adr idx_leaf
  let buffer := memcpy buffer 0
    (hashInto (do_thash P (HASH_TYPE_SHA256 ||| HASH_LEN_192) pk_seed_pre adr wf.2.2
      (SPH_K * 24)) buffer 24) 24
  let buffer := verify_hypertree P pk_seed_pre SPH_D 0 idx_tree idx_leaf (zeros LEN_ADR)
    wf.2.1 buffer
  memeq buffer s_root 24

/-- `sh_verify( message, len_message, signature, len_signature, public_key )`;
the lengths are the lengths of the lists.  The body is cut in three: the
parsing and the checks of the fixed words here, then `verify_lms_root` and
`verify_sphincs`. -/
def sh_verify (P : Prims) (message signature public_key : List Nat) : Bool :=
  let len_signature := signature.length
  let off_sphincs_sig := 0
  let off_lm_pk := off_sphincs_sig + 17064
  if len_signature < off_lm_pk + 12 then false else
  let n := 24
  let param := get_bigendian (signature.drop (off_lm_pk + 8)) 4
  if param ≠ LM_OTS_W4_PARAM_ID ∧ param ≠ LM_OTS_W2_PARAM_ID then false else
  let type := if param = LM_OTS_W4_PARAM_ID then LM_OTS_W4_PARAM_ID else LM_OTS_W2_PARAM_ID
  let w := if param = LM_OTS_W4_PARAM_ID then LM_OTS_W4_W else LM_OTS_W2_W
  let p := if param = LM_OTS_W4_PARAM_ID then LM_OTS_W4_P else LM_OTS_W2_P
  let ls := if param = LM_OTS_W4_PARAM_ID then LM_OTS_W4_LS else LM_OTS_W2_LS
  let off_ots_sig := off_lm_pk + 52
  let off_lm_sig := off_ots_sig + 12 + 24 * (1 + p)
  let off_end := off_lm_sig + 4 + 24 * LMS_H
  if len_signature < off_end then false else
  let sphincs_sig := signature.drop off_sphincs_sig
  let lm_pk := signature.drop off_lm_pk
  let lm_ots_sig := signature.drop off_ots_sig
  let lm_sig := signature.drop off_lm_sig
  let I := slice lm_pk 12 I_LEN
  let lm_type := 0xe0000028
  if 0 ≠ get_bigendian (lm_ots_sig.drop 0) 4 ∨
     type ≠ get_bigendian (lm_ots_sig.drop 8) 4 ∨
     lm_type ≠ get_bigendian (lm_sig.drop 0) 4 ∨
     1 ≠ get_bigendian (lm_pk.drop 0) 4 ∨
     lm_type ≠ get_bigendian (lm_pk.drop 4) 4 then false else
  let lms_leaf := get_bigendian (lm_ots_sig.drop 4) 4 % 2 ^ 32
  if lms_leaf ≥ 2 ^ LMS_H then false else
  let buffer := verify_lms_root P message I lm_ots_sig lm_sig n w p ls lms_leaf
  let lms_root_hash := lm_pk.drop 28
  if ¬ memeq buffer lms_root_hash n then false else
  verify_sphincs P buffer sphincs_sig lm_pk public_key

/-! ## sh_signer.h -/

/-- The build states; `b_count` also stands for every value outside the
enumeration (the `default` label of the switch). -/
inductive BuildState where
  | b_init
  | b_do_lms
  | b_lms_finished
  | b_fors
  | b_complete_fors
  | b_hypertree
  | b_done
  | b_count
  deriving DecidableEq, Repr

open BuildState

/-- The signer.  The members of the union `temp` are separate fields named
`do_lms_*`, `do_fors_*` and `do_hyper_*`.  The pointers `current_*` and
`next_*` into the two storage areas of each kind are represented by the
contents of the area they point to, so that a pointer swap exchanges the two
fields.  `merkle_index_t` is taken to be an unsigned 32-bit integer. -/
structure sh_signer where
  initialized : Bool
  got_fatal_error : Bool
  drbg : hmac_drbg
  hash : Nat
  n : Nat
  sk_seed : List Nat
  pk_seed : List Nat
  pk_seed_pre : List Nat
  sk_prf : List Nat
  root : List Nat
  build_state : BuildState
  idx_tree : Nat
  idx_leaf : Nat
  do_lms_leaf : Nat
  do_lms_stack : List Nat
  do_fors_md : List Nat
  do_fors_tree : Nat
  do_fors_leaf : Nat
  do_fors_redundant_pass : Bool
  do_fors_stack : List Nat
  do_fors_fors_roots : List Nat
  do_hyper_prev_root : List Nat
  do_hyper_next_root : List Nat
  do_hyper_redundant_root : List Nat
  do_hyper_level : Nat
  do_hyper_do_tree : Nat
  do_hyper_save_sphincs_sig_index : Nat
  do_hyper_merk : build_merkle_state
  current_lms_index : Nat
  current_lms_seed : List Nat
  next_lms_seed : List Nat
  current_lms_I : List Nat
  next_lms_I : List Nat
  current_lms_top_subtree : List Nat
  current_lms_bottom_subtree : List Nat
  next_lms_top_subtree : List Nat
  next_lms_bottom_subtree : List Nat
  current_lms_pub_key : List Nat
  next_lms_pub_key : List Nat
  next_lms_root : List Nat
  current_fake : List Nat
  next_fake : List Nat
  current_sphincs_sig : List Nat
  next_sphincs_sig : List Nat
  sphincs_sig_index : Nat

/-! ## step.c -/

/-- The place `lms_storage` points to: an offset into the next bottom
subtree, into the stack of `do_lms`, into the next top subtree, the root
buffer, or the null pointer. -/
inductive LmsLoc where
  | bottom (off : Nat)
  | stack (off : Nat)
  | top (off : Nat)
  | root
  | null
  deriving DecidableEq, Repr

/-- `lms_storage( sign, hash_len, height, orig_leaf, node_id, for_write )`. -/
def lms_storage (T : Tune) (hash_len height orig_leaf node_id for_write : Nat) : LmsLoc :=
  if height < LMS_BOTTOM T then
    if orig_leaf < 2 ^ LMS_BOTTOM T then
      LmsLoc.bottom (hash_len * (node_id + 2 ^ (LMS_BOTTOM T - height) - 2))
    else if node_id &&& for_write ≠ 0 then LmsLoc.null
    else LmsLoc.stack (hash_len * height)
  else
    let height := height - LMS_BOTTOM T
    if height < LMS_TOP T then
      LmsLoc.top (hash_len * (node_id + 2 ^ (LMS_TOP T - height) - 2))
    else LmsLoc.root

/-- `memcpy( dest, buffer, 24 )` through a pointer obtained from `lms_storage`. -/
def lms_store (s : sh_signer) (loc : LmsLoc) (buffer : List Nat) : sh_signer :=
  match loc with
  | LmsLoc.bottom off =>
    { s with next_lms_bottom_subtree := memcpy s.next_lms_bottom_subtree off buffer 24 }
  | LmsLoc.stack off => { s with do_lms_stack := memcpy s.do_lms_stack off buffer 24 }
  | LmsLoc.top off =>
    { s with next_lms_top_subtree := memcpy s.next_lms_top_subtree off buffer 24 }
  | LmsLoc.root => { s with next_lms_root := memcpy s.next_lms_root 0 buffer 24 }
  | LmsLoc.null => s

/-- The 24 bytes behind a pointer obtained from `lms_storage`. -/
def lms_load (s : sh_signer) (loc : LmsLoc) : List Nat :=
  match loc with
  | LmsLoc.bottom off => slice s.next_lms_bottom_subtree off 24
  | LmsLoc.stack off => slice s.do_lms_stack off 24
  | LmsLoc.top off => slice s.next_lms_top_subtree off 24
  | LmsLoc.root => slice s.next_lms_root 0 24
  | LmsLoc.null => zeros 24

/-- The loop `for (level = 0;; level++, node >>= 1, q >>= 1)` of `b_do_lms`:
the signer afterwards and whether the tree was completed.  The counter bounds
the levels of a 32-bit node number. -/
def lms_walk (T : Tune) (P : Prims) (leaf : Nat) :
    Nat → Nat → Nat → Nat → sh_signer → List Nat → sh_signer × Bool
  | 0, _, _, _, s, _ => (s, false)
  | fuel + 1, level, node, q, s, buffer =>
    let s := lms_store s (lms_storage T 24 level leaf node 1) buffer
    if node % 2 = 0 then
      if level = LMS_H - LMS_FAKE T then ({ s with build_state := b_lms_finished }, true)
      else (s, false)
    else
      let left := lms_load s (lms_storage T 24 level leaf (node ^^^ 1) 0)
      let buffer := lms_combine_internal_nodes P left buffer s.next_lms_I 24 (q / 2)
      lms_walk T P leaf fuel (level + 1) (node / 2) (q / 2) s buffer

/-- The loop `for (i=0; i<LMS_LEAF_PER_ITER; i++)` of `b_do_lms`. -/
def do_lms_loop (T : Tune) (P : Prims) : Nat → sh_signer → sh_signer
  | 0, s => s
  | cnt + 1, s =>
    let leaf := s.do_lms_leaf
    let s := { s with do_lms_leaf := leaf + 1 }
    let buffer := lm_ots_generate_public_key T P s.next_lms_I leaf s.next_lms_seed
    let node := leaf % 2 ^ 32
    let q := node ||| 2 ^ LMS_H
    let w := lms_walk T P leaf 33 0 node q s buffer
    if w.2 then w.1 else do_lms_loop T P cnt w.1

/-- The loop `for (height = LMS_FAKE-1; height >= 0; height--)` of
`b_lms_finished`, run in place on the root buffer. -/
def fake_walk (T : Tune) (P : Prims) (next_fake I : List Nat) : Nat → List Nat → List Nat
  | 0, buffer => buffer
  | height + 1, buffer =>
    fake_walk T P next_fake I height
      (memcpy buffer 0
        (lms_combine_internal_nodes P buffer
          (slice next_fake ((LMS_FAKE T - 1 - height) * 24) 24) I 24 (2 ^ height)) 24)

/-- The case `b_lms_finished` of `step_next`. -/
def step_lms_finished (T : Tune) (P : Prims) (signer : sh_signer) : sh_signer :=
  let rf := read_drbg P signer.next_fake (24 * LMS_FAKE T) signer.drbg
  let signer :=
    if LMS_FAKE T ≠ 0 then { signer with drbg := rf.2.2, next_fake := rf.2.1 } else signer
  let buffer :=
    if LMS_FAKE T ≠ 0 then
      fake_walk T P signer.next_fake signer.next_lms_I (LMS_FAKE T) signer.next_lms_root
    else signer.next_lms_root
  let signer := { signer with next_lms_root := buffer }
  let pub := signer.next_lms_pub_key
  let pub := memcpy pub 0 (put_bigendian 1 4) 4
  let pub := memcpy pub 4 (put_bigendian 0xe0000028 4) 4
  let pub := memcpy pub 8 (put_bigendian (LM_OTS_PARAM_ID T) 4) 4
  let pub := memcpy pub 12 signer.next_lms_I 16
  let pub := memcpy pub (12 + 16) buffer 24
  let signer := { signer with next_lms_pub_key := pub }
  let hmac := init_hmac signer.sk_prf 24
  let rr := read_drbg P (zeros 32) 24 signer.drbg
  let r := rr.2.1
  let signer := { signer with drbg := rr.2.2 }
  let hmac := update_hmac hmac r 24
  let hmac := update_hmac hmac signer.next_lms_pub_key LEN_LMS_PUBLIC_KEY
  let r := final_hmac P hmac signer.sk_prf 24
  let signer := { signer with
    next_sphincs_sig := memcpy signer.next_sphincs_sig 0 r 24, sphincs_sig_index := 24 }
  let dg := do_compute_digest_index P 24 r signer.pk_seed signer.root
    (bytesN LEN_LMS_PUBLIC_KEY signer.next_lms_pub_key) SPH_K SPH_A SPH_H SPH_D
  { signer with
    do_fors_md := dg.1, idx_tree := dg.2.1, idx_leaf := dg.2.2,
    do_fors_tree := 0, do_fors_leaf := 0, do_fors_redundant_pass := false,
    build_state := b_fors }

/-- The loop `for (level = 0; level < SPH_A; )` of `b_fors`: one leaf is
walked up the FORS tree. -/
def fors_walk (P : Prims) (target : Nat) :
    Nat → Nat → Nat → Nat → sh_signer → List Nat → List Nat →
      sh_signer × List Nat × List Nat
  | 0, _, _, _, s, adr, buffer => (s, adr, buffer)
  | cnt + 1, level, node, full_node_name, s, adr, buffer =>
    let s :=
      if node ^^^ 1 = target / 2 ^ level then
        { s with next_sphincs_sig :=
            memcpy s.next_sphincs_sig (s.sphincs_sig_index + 24 * (1 + level)) buffer 24 }
      else s
    if node % 2 ≠ 0 then
      let node := node / 2
      let full_node_name := full_node_name / 2
      let adr := set_tree_index adr full_node_name
      let adr := set_tree_height adr (level + 1)
      let buffer := memcpy buffer 0
        (hashInto (do_H P (HASH_TYPE_SHA256 ||| HASH_LEN_192) s.pk_seed_pre adr
          (slice s.do_fors_stack (level * 24) 24) buffer) buffer 24) 24
      fors_walk P target cnt (level + 1) node full_node_name s adr buffer
    else
      ({ s with do_fors_stack := memcpy s.do_fors_stack (level * 24) buffer 24 }, adr, buffer)

/-- The loop `for (i = 0; i < FORS_LEAFS_PER_ITER; i++)` of `b_fors`: the
signer, the local `leaf` and whether the loop left through `failure_state`. -/
def fors_loop (T : Tune) (P : Prims) (gen : private_key_generator) (target : Nat) :
    Nat → sh_signer → List Nat → Nat → List Nat → sh_signer × Nat × Bool
  | 0, s, _, leaf, _ => (s, leaf, false)
  | cnt + 1, s, adr, leaf, buffer =>
    let adr := set_tree_height adr 0
    let adr := set_tree_index adr 0
    let node := leaf
    let full_node_name := (leaf + s.do_fors_tree * 2 ^ SPH_A) % 2 ^ 32
    let adr := set_tree_index adr full_node_name
    let buffer := memcpy buffer 0
      (do_private_key_gen T P 24 gen (slice adr (LEN_ADR - 16) 16)) 24
    let s :=
      if leaf = target then
        { s with next_sphincs_sig := memcpy s.next_sphincs_sig s.sphincs_sig_index buffer 24 }
      else s
    let buffer := memcpy buffer 0
      (hashInto (do_F P (HASH_TYPE_SHA256 ||| HASH_LEN_192) s.pk_seed_pre adr buffer) buffer 24)
      24
    let fw := fors_walk P target SPH_A 0 node full_node_name s adr buffer
    let s := fw.1
    let adr := fw.2.1
    let buffer := fw.2.2
    let leaf := (leaf + 1) % 2 ^ 32
    if leaf = 2 ^ SPH_A then
      let tgt := 4 * (24 / 4 * s.do_fors_tree)
      let leaf := 0
      let advance (s : sh_signer) : sh_signer :=
        { s with do_fors_tree := s.do_fors_tree + 1,
                 sphincs_sig_index := (s.sphincs_sig_index + 24 * (1 + SPH_A)) % 2 ^ 32,
                 do_fors_redundant_pass := false }
      if T.FAULT_STRATEGY ≠ 0 then
        if ¬ s.do_fors_redundant_pass then
          ({ s with do_fors_fors_roots := memcpy s.do_fors_fors_roots tgt buffer 24,
                    do_fors_redundant_pass := true }, leaf, false)
        else if ¬ memeq (s.do_fors_fors_roots.drop tgt) buffer 24 then
          if T.FAULT_STRATEGY = 2 then
            ({ s with do_fors_redundant_pass := false }, leaf, false)
          else (s, leaf, true)
        else (advance s, leaf, false)
      else
        (advance { s with do_fors_fors_roots := memcpy s.do_fors_fors_roots tgt buffer 24 },
         leaf, false)
    else fors_loop T P gen target cnt s adr leaf buffer

/-- The loop `for (i=0; i<51; i++)` of the WOTS+ signature in `b_hypertree`:
chain `i` is written at `target + 24*i` inside the next SPHINCS+ signature. -/
def hyper_wots_loop (T : Tune) (P : Prims) (gen : private_key_generator) (pk_seed_pre : List Nat)
    (digits : List Nat) (target : Nat) :
    Nat → Nat → List Nat → List Nat → List Nat × List Nat
  | 0, _, adr, sig => (adr, sig)
  | cnt + 1, i, adr, sig =>
    let adr := set_chain_address adr i
    let adr := set_hash_address adr 0
    let v := do_private_key_gen T P 24 gen (slice adr (LEN_ADR - 16) 16)
    let w :=
      wots_chain P (HASH_TYPE_SHA256 ||| HASH_LEN_192) pk_seed_pre 24 (digits.getD i 0) 0 adr v
    hyper_wots_loop T P gen pk_seed_pre digits target cnt (i + 1) w.1
      (memcpy sig (target + 24 * i) w.2 24)

/-- The state `failure_state` of `step_next`. -/
def failure_state (signer : sh_signer) : Bool × sh_signer :=
  (true, { signer with got_fatal_error := true })

/-- The case `b_hypertree` of `step_next`. -/
def step_hypertree (T : Tune) (P : Prims) (signer : sh_signer) : Bool × sh_signer :=
  if signer.do_hyper_do_tree = 0 then
    let signer := { signer with do_hyper_save_sphincs_sig_index := signer.sphincs_sig_index }
    let ex := expand_wots_digits 51 signer.do_hyper_prev_root 24
    let digits := ex.2
    if 51 ≠ ex.1 then failure_state signer
    else
      let adr := zeros LEN_ADR
      let adr := set_layer_address adr signer.do_hyper_level
      let adr := set_tree_address adr signer.idx_tree
      let adr := set_type adr WOTS_HASH_ADDRESS
      let adr := set_key_pair_address adr signer.idx_leaf
      let gen := init_private_key_gen T P signer.sk_seed 24 adr ADR_CONST_FOR_TREE
      let sig := (hyper_wots_loop T P gen signer.pk_seed_pre digits signer.sphincs_sig_index
        51 0 adr signer.next_sphincs_sig).2
      let signer := { signer with
        next_sphincs_sig := sig,
        sphincs_sig_index := (signer.sphincs_sig_index + 51 * 24) % 2 ^ 32,
        do_hyper_do_tree := 1 }
      let merk := (init_build_merkle signer.do_hyper_merk signer.sk_seed signer.pk_seed
        (HASH_TYPE_SHA256 ||| HASH_LEN_192) SPH_T signer.do_hyper_level signer.idx_tree
        signer.idx_leaf (some signer.sphincs_sig_index) (some 0)).2
      (false, { signer with do_hyper_merk := merk })
  else
    let to_redundant := signer.do_hyper_merk.root = some 1
    let w := step_build_merkle T P signer.do_hyper_merk signer.next_sphincs_sig
      (if to_redundant then signer.do_hyper_redundant_root else signer.do_hyper_next_root)
    let signer := { signer with
      do_hyper_merk := w.state, next_sphincs_sig := w.authMem,
      do_hyper_next_root := if to_redundant then signer.do_hyper_next_root else w.rootMem,
      do_hyper_redundant_root :=
        if to_redundant then w.rootMem else signer.do_hyper_redundant_root }
    if w.all_done_flag then
      let accept (signer : sh_signer) : Bool × sh_signer :=
        let signer := { signer with
          do_hyper_prev_root := memcpy signer.do_hyper_prev_root 0 signer.do_hyper_next_root 24,
          sphincs_sig_index := (signer.sphincs_sig_index + SPH_T * 24) % 2 ^ 32,
          idx_leaf := (signer.idx_tree &&& (2 ^ SPH_T - 1)) % 2 ^ 32,
          idx_tree := signer.idx_tree / 2 ^ SPH_T,
          do_hyper_do_tree := 0,
          do_hyper_level := signer.do_hyper_level + 1 }
        if signer.do_hyper_level = SPH_D then (false, { signer with build_state := b_done })
        else (false, signer)
      if T.FAULT_STRATEGY ≠ 0 then
        if signer.do_hyper_do_tree = 1 then
          let merk := (init_build_merkle signer.do_hyper_merk signer.sk_seed signer.pk_seed
            (HASH_TYPE_SHA256 ||| HASH_LEN_192) SPH_T signer.do_hyper_level signer.idx_tree
            signer.idx_leaf none (some 1)).2
          (false, { signer with do_hyper_do_tree := 2, do_hyper_merk := merk })
        else if ¬ memeq signer.do_hyper_next_root signer.do_hyper_redundant_root 24 then
          if T.FAULT_STRATEGY = 2 then
            (false, { signer with
              sphincs_sig_index := signer.do_hyper_save_sphincs_sig_index,
              do_hyper_do_tree := 0 })
          else failure_state signer
        else accept signer
      else accept signer
    else (false, signer)

/-- `step_next( signer, do_dummy )`: the returned flag and the signer
afterwards.  (`dummy_load` computes throw-away hashes and changes nothing, so
`do_dummy` does not enter.) -/
def step_next (T : Tune) (P : Prims) (signer : sh_signer) : Bool × sh_signer :=
  if signer.got_fatal_error then (true, signer)
  else
    match signer.build_state with
    | b_init =>
      let r1 := read_drbg P signer.next_lms_seed 32 signer.drbg
      let signer := { signer with next_lms_seed := r1.2.1, drbg := r1.2.2 }
      if ¬ r1.1 then failure_state signer
      else
        let r2 := read_drbg P signer.next_lms_I 16 signer.drbg
        let signer := { signer with next_lms_I := r2.2.1, drbg := r2.2.2 }
        if ¬ r2.1 then failure_state signer
        else
          let signer := { signer with build_state := b_do_lms, do_lms_leaf := 0 }
          (false, do_lms_loop T P LMS_LEAF_PER_ITER signer)
    | b_do_lms => (false, do_lms_loop T P LMS_LEAF_PER_ITER signer)
    | b_lms_finished => (false, step_lms_finished T P signer)
    | b_fors =>
      let adr := zeros LEN_ADR
      let adr := set_layer_address adr 0
      let adr := set_tree_address adr signer.idx_tree
      let adr := set_type adr FORS_TREE_ADDRESS
      let gen := init_private_key_gen T P signer.sk_seed 24 adr ADR_CONST_FOR_TREE
      let leaf := signer.do_fors_leaf % 2 ^ 32
      let target := signer.do_fors_md.getD signer.do_fors_tree 0
      let adr := set_key_pair_address adr signer.idx_leaf
      let fl := fors_loop T P gen target (FORS_LEAFS_PER_ITER T) signer adr leaf (zeros 32)
      let s := fl.1
      if fl.2.2 then failure_state s
      else
        let s := { s with do_fors_leaf := fl.2.1 }
        if s.do_fors_tree = SPH_K then (false, { s with build_state := b_complete_fors })
        else (false, s)
    | b_complete_fors =>
      let adr := zeros LEN_ADR
      let adr := set_layer_address adr 0
      let adr := set_tree_address adr signer.idx_tree
      let adr := set_type adr FORS_TREE_ROOT_COMPRESS
      let adr := set_key_pair_address adr signer.idx_leaf
      let buffer := hashInto
        (do_thash P (HASH_TYPE_SHA256 ||| HASH_LEN_192) signer.pk_seed_pre adr
          signer.do_fors_fors_roots (SPH_K * 24)) (zeros MAX_HASH_LEN) 24
      let buffer2 := hashInto
        (do_thash P (HASH_TYPE_SHA256 ||| HASH_LEN_192) signer.pk_seed_pre adr
          signer.do_fors_fors_roots (SPH_K * 24)) (zeros MAX_HASH_LEN) 24
      if ¬ memeq buffer buffer2 24 then
        if T.FAULT_STRATEGY = 2 then (false, signer) else failure_state signer
      else
        (false, { signer with
          do_hyper_prev_root := memcpy signer.do_hyper_prev_root 0 buffer 24,
          do_hyper_level := 0, do_hyper_do_tree := 0, build_state := b_hypertree })
    | b_hypertree => step_hypertree T P signer
    | b_done =>
      (true, { signer with
        current_lms_seed := memcpy signer.current_lms_seed 0 signer.next_lms_seed 32,
        current_lms_I := memcpy signer.current_lms_I 0 signer.next_lms_I 16,
        current_lms_top_subtree := signer.next_lms_top_subtree,
        next_lms_top_subtree := signer.current_lms_top_subtree,
        current_lms_bottom_subtree := signer.next_lms_bottom_subtree,
        next_lms_bottom_subtree := signer.current_lms_bottom_subtree,
        current_sphincs_sig := signer.next_sphincs_sig,
        next_sphincs_sig := signer.current_sphincs_sig,
        current_lms_pub_key :=
          memcpy signer.current_lms_pub_key 0 signer.next_lms_pub_key LEN_LMS_PUBLIC_KEY,
        current_fake :=
          if LMS_FAKE T ≠ 0 then memcpy signer.current_fake 0 signer.next_fake (24 * LMS_FAKE T)
          else signer.current_fake,
        current_lms_index := 0,
        build_state := b_init })
    | b_count => failure_state signer

/-! ## sign.c -/

/-- `sh_sig_len( signer )`. -/
def sh_sig_len (T : Tune) : Nat :=
  LEN_SPHINCS_SIG + LEN_LMS_PUBLIC_KEY + 12 + 24 * (1 + LM_OTS_P T) + 4 + 24 * 20

/-- The loop that copies the bottom part of the authentication path: the
nodes gathered, in order. -/
def sign_bottom_path (subtree : List Nat) (which : Nat) : Nat → Nat → List Nat
  | 0, _ => []
  | cnt + 1, node_offset =>
    let node_index := (node_offset ^^^ 1) ^^^ which
    slice subtree (24 * node_index) 24 ++
      sign_bottom_path subtree which cnt (node_offset / 2 - 1)

/-- The loop that copies the top part of the authentication path. -/
def sign_top_path (subtree : List Nat) : Nat → Nat → List Nat
  | 0, _ => []
  | cnt + 1, node_offset =>
    let node_index := node_offset ^^^ 1
    slice subtree (24 * node_index) 24 ++ sign_top_path subtree cnt (node_offset / 2 - 1)

/-- The loop `for (;;)` that refreshes the current bottom subtree after a
signature; the counter bounds the levels of a 32-bit index. -/
def sign_refresh (P : Prims) (I : List Nat) (which : Nat) :
    Nat → Nat → Nat → List Nat → List Nat → List Nat
  | 0, _, _, subtree, _ => subtree
  | fuel + 1, index, q, subtree, buffer =>
    let subtree := memcpy subtree (24 * ((index ^^^ which) ^^^ 1)) buffer 24
    if index % 2 = 0 then subtree
    else if index ≤ 1 then subtree
    else
      let left := slice subtree (24 * (index ^^^ which)) 24
      let q := q / 2
      let buffer := lms_combine_internal_nodes P left buffer I 24 q
      sign_refresh P I which fuel (index / 2 - 1) q subtree buffer

/-- The first half of the body of `sh_sign`, after the LM-OTS signature
`ots` of length `ots_sig_len` has been produced: everything the function
writes through `signature`, in program order. -/
def sign_write (T : Tune) (sigbuf : List Nat) (sg : sh_signer) (ots_sig_len : Nat)
    (ots : List Nat) : List Nat :=
  let off_sphincs_sig := 0
  let off_lm_pk := off_sphincs_sig + LEN_SPHINCS_SIG
  let off_lm_sig := off_lm_pk + LEN_LMS_PUBLIC_KEY
  let lm_sig := off_lm_sig
  let sigbuf := memcpy sigbuf lm_sig (put_bigendian 0 4) 4
  let lm_sig := lm_sig + 4
  let sigbuf := memcpy sigbuf lm_sig (put_bigendian sg.current_lms_index 4) 4
  let lm_sig := lm_sig + 4
  let sigbuf := memcpy sigbuf lm_sig ots ots_sig_len
  let lm_sig := lm_sig + ots_sig_len
  let n := 24
  let sigbuf := memcpy sigbuf lm_sig (put_bigendian 0xe0000028 4) 4
  let lm_sig := lm_sig + 4
  let which := (sg.current_lms_index / 2 ^ LMS_BOTTOM T) % 2
  let bottom := sign_bottom_path sg.current_lms_bottom_subtree which (LMS_BOTTOM T)
    (sg.current_lms_index % 2 ^ LMS_BOTTOM T + 2 ^ LMS_BOTTOM T - 2)
  let sigbuf := memcpy sigbuf lm_sig bottom (n * LMS_BOTTOM T)
  let lm_sig := lm_sig + n * LMS_BOTTOM T
  let top := sign_top_path sg.current_lms_top_subtree (LMS_TOP T)
    (sg.current_lms_index / 2 ^ LMS_BOTTOM T + 2 ^ LMS_TOP T - 2)
  let sigbuf := memcpy sigbuf lm_sig top (n * LMS_TOP T)
  let lm_sig := lm_sig + n * LMS_TOP T
  let sigbuf :=
    if LMS_FAKE T ≠ 0 then memcpy sigbuf lm_sig sg.current_fake (LMS_FAKE T * n)
    else sigbuf
  let sigbuf := memcpy sigbuf off_lm_pk sg.current_lms_pub_key LEN_LMS_PUBLIC_KEY
  memcpy sigbuf off_sphincs_sig sg.current_sphincs_sig LEN_SPHINCS_SIG

/-- The bottom subtree after the refresh block of `sh_sign`. -/
def sign_refreshed (T : Tune) (P : Prims) (sg : sh_signer) : List Nat :=
  let which := (sg.current_lms_index / 2 ^ LMS_BOTTOM T) % 2
  let leaf := (sg.current_lms_index + 2 ^ LMS_BOTTOM T) % 2 ^ 32
  let buffer := lm_ots_generate_public_key T P sg.current_lms_I leaf sg.current_lms_seed
  let q := leaf ||| 2 ^ LMS_H
  let index := (leaf % 2 ^ LMS_BOTTOM T + 2 ^ LMS_BOTTOM T - 2) % 2 ^ 32
  sign_refresh P sg.current_lms_I which 32 index q sg.current_lms_bottom_subtree buffer

/-- The second half of the body of `sh_sign`: the bottom subtree is
refreshed, the index is stepped and `step_next` is run once (its result is
ignored). -/
def sign_advance (T : Tune) (P : Prims) (sg : sh_signer) : sh_signer :=
  let sg := { sg with current_lms_bottom_subtree := sign_refreshed T P sg }
  let sg := { sg with current_lms_index := (sg.current_lms_index + 1) % 2 ^ 32 }
  (step_next T P sg).2

/-- `sh_sign( signature, len_signature_buf, signer, message, len_message )`:
the returned flag, the output buffer and the signer afterwards.  `none`
stands for a null pointer; `len_signature_buf` is the length of the buffer. -/
def sh_sign (T : Tune) (P : Prims) (signature : Option (List Nat)) (signer : Option sh_signer)
    (message : List Nat) : Bool × Option (List Nat) × Option sh_signer :=
  match signature with
  | none => (false, none, signer)
  | some sigbuf =>
    let len_signature_buf := sigbuf.length
    let failed : Bool × Option (List Nat) × Option sh_signer :=
      (false, some (zeros len_signature_buf), signer)
    match signer with
    | none => failed
    | some sg =>
      if ¬ sg.initialized ∨ sg.got_fatal_error then failed
      else
        let off_sphincs_sig := 0
        let off_lm_pk := off_sphincs_sig + LEN_SPHINCS_SIG
        let off_lm_sig := off_lm_pk + LEN_LMS_PUBLIC_KEY
        let off_end := off_lm_sig + 12 + 24 * (1 + LM_OTS_P T) + 4 + 24 * 20
        if len_signature_buf < off_end then failed
        else
          let ots := lm_ots_generate_signature T P sg.current_lms_I
            sg.current_lms_index sg.current_lms_seed message
          if ots.1 = 0 then failed
          else (true, some (sign_write T sigbuf sg ots.1 ots.2), some (sign_advance T P sg))

/-! ## load.c -/

/-- The loop `while (!step_next( signer, PROFILE ))` of `sh_load_signer`;
`none` when the counter runs out before `step_next` returns true. -/
def load_loop (T : Tune) (P : Prims) : Nat → sh_signer → Option sh_signer
  | 0, _ => none
  | fuel + 1, signer =>
    let w := step_next T P signer
    if w.1 then some w.2 else load_loop T P fuel w.2

/-- Lines 67 to 100 of `sh_load_signer`: the build loop
`while (!step_next( signer, PROFILE ))` and the two statements behind it,
`signer->initialized = true; return signer;`, run from the signer as line 66
leaves it.  The state the loop ends in is returned as it is: `got_fatal_error`
is not tested. -/
def load_build (T : Tune) (P : Prims) (fuel : Nat) (signer : sh_signer) :
    Option (Option sh_signer) :=
  (load_loop T P fuel signer).map (fun signer => some { signer with initialized := true })

/-- `sh_load_signer( sk_buffer, do_rand )`.  `mem` is what `malloc` returns
(`none` for a null pointer, otherwise the uninitialised memory).  The outer
`none` means that the build loop did not end within `fuel` steps; the inner
value is the pointer returned. -/
def sh_load_signer (T : Tune) (P : Prims) (fuel : Nat) (mem : Option sh_signer)
    (sk_buffer : List Nat) (do_rand : Nat → Option (List Nat)) : Option (Option sh_signer) :=
  match mem with
  | none => some none
  | some signer =>
    let signer := { signer with initialized := false, got_fatal_error := false }
    match seed_drbg P signer.drbg do_rand with
    | none => some none
    | some drbg =>
      let signer := { signer with drbg := drbg }
      let sk := sk_buffer
      let hash := sk.getD 3 0 % 256
      let n := hash_len hash
      let signer := { signer with hash := hash, n := n }
      if n = 0 then some none
      else
        let signer := { signer with
          sk_seed := memcpy signer.sk_seed 0 (sk.drop 4) n,
          sk_prf := memcpy signer.sk_prf 0 (sk.drop (4 + n)) n,
          pk_seed := memcpy signer.pk_seed 0 (sk.drop (4 + 2 * n)) n,
          root := memcpy signer.root 0 (sk.drop (4 + 3 * n)) n }
        let signer := { signer with
          pk_seed_pre := SHA256_set_first_block signer.pk_seed n,
          build_state := b_init }
        load_build T P fuel signer

/-! ## param.c, keygen.c -/

/-- `lookup_hypertree_geometry( n, fast, &d, &t )`: `none` for false. -/
def lookup_hypertree_geometry (n fast : Nat) : Option (Nat × Nat) :=
  if 2 * n + fast = 2 * 16 + 0 then some (8, 8)
  else if 2 * n + fast = 2 * 16 + 1 then some (20, 3)
  else if 2 * n + fast = 2 * 24 + 0 then some (8, 8)
  else if 2 * n + fast = 2 * 24 + 1 then some (22, 3)
  else if 2 * n + fast = 2 * 32 + 0 then some (8, 8)
  else if 2 * n + fast = 2 * 32 + 1 then some (17, 4)
  else none

/-- The loop `while (!step_build_merkle( &state, 0 ))` of `sh_keygen`; `none`
when the counter runs out first. -/
def keygen_loop (T : Tune) (P : Prims) : Nat → build_merkle_state → List Nat → Option (List Nat)
  | 0, _, _ => none
  | fuel + 1, state, rootMem =>
    let w := step_build_merkle T P state [] rootMem
    if w.all_done_flag then some w.rootMem else keygen_loop T P fuel w.state w.rootMem

/-- The outcome of `sh_keygen`: the returned flag, the two buffers and the
two size outputs. -/
structure keygen_result where
  ok : Bool
  sk_buffer : List Nat
  pk_buffer : List Nat
  size_sk : Option Nat
  size_pk : Option Nat

/-- `sh_keygen`.  The buffer lengths are the lengths of the lists; `size_sk`
and `size_pk` are `none` for null pointers, otherwise the old contents;
`state0` is the uninitialised builder on the stack.  The outer `none` means
that the Merkle loop did not end within `fuel` steps. -/
def sh_keygen (T : Tune) (P : Prims) (fuel : Nat) (state0 : build_merkle_state)
    (hash_function hash_size time_space : Int)
    (do_rand : Option (Nat → Option (List Nat)))
    (sk_buffer : List Nat) (size_sk : Option Nat)
    (pk_buffer : List Nat) (size_pk : Option Nat) : Option keygen_result :=
  let unchanged : keygen_result :=
    { ok := false, sk_buffer := sk_buffer, pk_buffer := pk_buffer,
      size_sk := size_sk, size_pk := size_pk }
  if hash_function ≠ 1 then some unchanged
  else if hash_size ≠ 192 then some unchanged
  else if time_space ≠ 1 then some unchanged
  else
    let hash := HASH_TYPE_SHA256 ||| HASH_LEN_192
    let fast := 0
    let n := 192 / 8
    match lookup_hypertree_geometry n fast with
    | none => some unchanged
    | some (d, tree_height) =>
      let sk_len := 4 + 4 * n
      let pk_len := 4 + 2 * n
      if sk_len > sk_buffer.length then some unchanged
      else if pk_len > pk_buffer.length then some unchanged
      else
        let size_sk := size_sk.map (fun _ => sk_len)
        let size_pk := size_pk.map (fun _ => pk_len)
        let tag := [1, n, fast, hash]
        let sk := memcpy sk_buffer 0 tag 4
        let pk := memcpy pk_buffer 0 tag 4
        let failed (sk pk : List Nat) : keygen_result :=
          { ok := false, sk_buffer := memcpy sk 0 (zeros sk_len) sk_len,
            pk_buffer := memcpy pk 0 (zeros pk_len) pk_len,
            size_sk := size_sk, size_pk := size_pk }
        match do_rand with
        | none => some (failed sk pk)
        | some rand =>
          match rand (3 * n) with
          | none => some (failed sk pk)
          | some bytes =>
            let sk := memcpy sk 4 bytes (3 * n)
            let pk := memcpy pk 4 (sk.drop (4 + 2 * n)) n
            let ib := init_build_merkle state0 (slice sk 4 n) (slice sk (4 + 2 * n) n)
              hash tree_height (d - 1) 0 0 none (some 0)
            if ¬ ib.1 then some (failed sk pk)
            else
              (keygen_loop T P fuel ib.2 (slice pk (4 + n) n)).map (fun root =>
                let pk := memcpy pk (4 + n) root n
                let sk := memcpy sk (4 + 3 * n) (pk.drop (4 + n)) n
                { ok := true, sk_buffer := sk, pk_buffer := pk,
                  size_sk := size_sk, size_pk := size_pk })

/-! ## Concrete inputs for witnesses and counterexamples -/

/-- Primitives whose every output is empty (read as all-zero digests and
blocks by `SHA256` and `AES_encrypt`). -/
def zero_prims : Prims := { sha256 := fun _ => [], aes256 := fun _ _ => [] }

/-- A Merkle builder whose memory is all zero. -/
def blank_merkle : build_merkle_state :=
  { sk_seed := [], pk_seed := [], pk_seed_pre := [], hash := 0, n := 0, wots_digits := 0,
    tree_height := 0, target_node := 0, adr := zeros 22, auth_path := none, root := none,
    current_node := 0, stack := zeros 256 }

/-- Zero-filled memory of the size of a signer. -/
def blank_signer : sh_signer :=
  { initialized := false, got_fatal_error := false,
    drbg := { v := zeros 32, key := zeros 32, reseed_counter := 0 },
    hash := 0, n := 0, sk_seed := zeros 32, pk_seed := zeros 32, pk_seed_pre := zeros 64,
    sk_prf := zeros 32, root := zeros 32, build_state := b_init, idx_tree := 0, idx_leaf := 0,
    do_lms_leaf := 0, do_lms_stack := zeros (7 * 24), do_fors_md := zeros 14,
    do_fors_tree := 0, do_fors_leaf := 0, do_fors_redundant_pass := false,
    do_fors_stack := zeros (16 * 24), do_fors_fors_roots := zeros (14 * 24),
    do_hyper_prev_root := zeros 32, do_hyper_next_root := zeros 32,
    do_hyper_redundant_root := zeros 32, do_hyper_level := 0, do_hyper_do_tree := 0,
    do_hyper_save_sphincs_sig_index := 0, do_hyper_merk := blank_merkle,
    current_lms_index := 0, current_lms_seed := zeros 32, next_lms_seed := zeros 32,
    current_lms_I := zeros 16, next_lms_I := zeros 16,
    current_lms_top_subtree := zeros (24 * 254), current_lms_bottom_subtree := zeros (24 * 254),
    next_lms_top_subtree := zeros (24 * 254), next_lms_bottom_subtree := zeros (24 * 254),
    current_lms_pub_key := zeros 52, next_lms_pub_key := zeros 52, next_lms_root := zeros 24,
    current_fake := zeros (6 * 24), next_fake := zeros (6 * 24),
    current_sphincs_sig := zeros 17064, next_sphincs_sig := zeros 17064,
    sphincs_sig_index := 0 }

/-- The random callback of `test.c`: byte `i` of the output is `i mod 256`. -/
def test_rand (len : Nat) : Option (List Nat) :=
  some ((List.range len).map (fun i => i % 256))

/-- Zero-filled signer memory in build state `b` whose DRBG has reached the
reseed limit of `read_drbg`. -/
def exhausted_signer (b : BuildState) : sh_signer :=
  { blank_signer with
    build_state := b, drbg := { v := zeros 32, key := zeros 32, reseed_counter := 2 ^ 48 } }

/-! ## The build cycle: auxiliary definitions for the statements -/

/-- The signer with the four buffers of the LMS build blanked: two signers
with the same image agree on every other field. -/
def lmsErase (s : sh_signer) : sh_signer :=
  { s with next_lms_bottom_subtree := [], do_lms_stack := [], next_lms_top_subtree := [],
           next_lms_root := [] }

/-- The signer with the three buffers of the FORS build blanked. -/
def forsErase (s : sh_signer) : sh_signer :=
  { s with next_sphincs_sig := [], do_fors_stack := [], do_fors_fors_roots := [] }

/-- The Merkle builder with its address and its stack blanked. -/
def merkErase (st : build_merkle_state) : build_merkle_state :=
  { st with adr := [], stack := [] }

/-- The current working set of a signer: what `sh_sign` reads to produce a
signature (index, seed, `I`, public key, faked path, the two current subtrees
and the current SPHINCS+ signature). -/
def working_set (s : sh_signer) :
    Nat × List Nat × List Nat × List Nat × List Nat × List Nat × List Nat × List Nat :=
  (s.current_lms_index, s.current_lms_seed, s.current_lms_I, s.current_lms_pub_key,
   s.current_fake, s.current_lms_top_subtree, s.current_lms_bottom_subtree,
   s.current_sphincs_sig)

/-- The number of `step_next` calls that build one FORS tree. -/
def fors_steps (T : Tune) : Nat :=
  (2 ^ SPH_A + FORS_LEAFS_PER_ITER T - 1) / FORS_LEAFS_PER_ITER T

/-- The number of `step_build_merkle` calls that build one hypertree layer. -/
def merkle_steps (T : Tune) : Nat :=
  (2 ^ SPH_T + MERKLE_CHAINS_PER_ITER T - 1) / MERKLE_CHAINS_PER_ITER T

/-- The number of `step_next` calls of one build cycle without fault
protection: the LMS tree, `b_lms_finished`, the 14 FORS trees,
`b_complete_fors`, the 8 hypertree layers (one WOTS+ signature and one Merkle
tree each) and `b_done`. -/
def build_steps (T : Tune) : Nat :=
  2 ^ (LMS_ACTUAL T - 1) + 1 + SPH_K * fors_steps T + 1 + SPH_D * (1 + merkle_steps T) + 1

/-- The number of `step_next` calls a build cycle has made when it is in the
state of `s`. -/
def build_pos (T : Tune) (s : sh_signer) : Nat :=
  match s.build_state with
  | b_init => 0
  | b_do_lms => s.do_lms_leaf / 2
  | b_lms_finished => 2 ^ (LMS_ACTUAL T - 1)
  | b_fors =>
    2 ^ (LMS_ACTUAL T - 1) + 1 + s.do_fors_tree * fors_steps T
      + s.do_fors_leaf / FORS_LEAFS_PER_ITER T
  | b_complete_fors => 2 ^ (LMS_ACTUAL T - 1) + 1 + SPH_K * fors_steps T
  | b_hypertree =>
    2 ^ (LMS_ACTUAL T - 1) + 1 + SPH_K * fors_steps T + 1
      + s.do_hyper_level * (1 + merkle_steps T)
      + (if s.do_hyper_do_tree = 0 then 0
         else 1 + s.do_hyper_merk.current_node / MERKLE_CHAINS_PER_ITER T)
  | b_done => build_steps T - 1
  | b_count => 0

/-- The states a build cycle passes through: no fatal error, and the
counters of the current phase at the start of a `step_next` call. -/
def build_inv (T : Tune) (s : sh_signer) : Prop :=
  s.got_fatal_error = false ∧
  match s.build_state with
  | b_init => True
  | b_do_lms =>
    s.do_lms_leaf % 2 = 0 ∧ 2 ≤ s.do_lms_leaf ∧ s.do_lms_leaf + 2 ≤ 2 ^ LMS_ACTUAL T
  | b_lms_finished => True
  | b_fors =>
    s.do_fors_tree < SPH_K ∧ s.do_fors_leaf % FORS_LEAFS_PER_ITER T = 0 ∧
      s.do_fors_leaf < 2 ^ SPH_A
  | b_complete_fors => True
  | b_hypertree =>
    s.do_hyper_level < SPH_D ∧
      (s.do_hyper_do_tree = 0 ∨
        (s.do_hyper_do_tree = 1 ∧ s.do_hyper_merk.tree_height = SPH_T ∧
          s.do_hyper_merk.current_node % MERKLE_CHAINS_PER_ITER T = 0 ∧
          s.do_hyper_merk.current_node < 2 ^ SPH_T))
  | b_done => True
  | b_count => False

instance (T : Tune) (s : sh_signer) : Decidable (build_inv T s) := by
  unfold build_inv
  cases s.build_state <;> simp only <;> infer_instance

/-- The signer after `k` calls of `step_next`. -/
def run (T : Tune) (P : Prims) : Nat → sh_signer → sh_signer
  | 0, s => s
  | k + 1, s => run T P k (step_next T P s).2

/-- What no build phase other than `b_done` touches: the current working set
and the flag `initialized`. -/
def kept (s : sh_signer) :
    (Nat × List Nat × List Nat × List Nat × List Nat × List Nat × List Nat × List Nat) × Bool :=
  (working_set s, s.initialized)


/-- The builder, the authentication-path buffer and the root buffer after `k`
calls of `step_build_merkle`. -/
def merkle_after (T : Tune) (P : Prims) :
    Nat → build_merkle_state → List Nat → List Nat → build_merkle_state × List Nat × List Nat
  | 0, st, a, r => (st, a, r)
  | k + 1, st, a, r =>
    let w := step_build_merkle T P st a r
    merkle_after T P k w.state w.authMem w.rootMem


/-- The signer after `k` successful calls of `sh_sign` (the messages and the
output buffers do not enter). -/
def sign_run (T : Tune) (P : Prims) : Nat → sh_signer → sh_signer
  | 0, s => s
  | k + 1, s => sign_run T P k (sign_advance T P s)

/-- The relation between the LMS index and the build cycle that `sh_sign`
maintains: without fatal error the index counts the `step_next` calls of the
running cycle; in the fatal state it is below the size of the tree. -/
def cycle_inv (T : Tune) (s : sh_signer) : Prop :=
  (s.got_fatal_error = true → s.current_lms_index < 2 ^ LMS_ACTUAL T) ∧
  (s.got_fatal_error = false → build_inv T s ∧ s.current_lms_index = build_pos T s)

/-- The signer `sh_load_signer` hands to its build loop: the memory `m` with
the seeded generator `d`, the parameters and keys read from the secret key
and `build_state = b_init`. -/
def load_state (m : sh_signer) (d : hmac_drbg) (sk : List Nat) : sh_signer :=
  let n := hash_len (sk.getD 3 0 % 256)
  { m with
    initialized := false, got_fatal_error := false, drbg := d,
    hash := sk.getD 3 0 % 256, n := n,
    sk_seed := memcpy m.sk_seed 0 (sk.drop 4) n,
    sk_prf := memcpy m.sk_prf 0 (sk.drop (4 + n)) n,
    pk_seed := memcpy m.pk_seed 0 (sk.drop (4 + 2 * n)) n,
    root := memcpy m.root 0 (sk.drop (4 + 3 * n)) n,
    pk_seed_pre := SHA256_set_first_block (memcpy m.pk_seed 0 (sk.drop (4 + 2 * n)) n) n,
    build_state := b_init }


/-- A freshly loaded signer: what `sh_load_signer` returns when it does not
return null. -/
def fresh (T : Tune) (s : sh_signer) : Prop :=
  s.initialized = true ∧ s.got_fatal_error = false ∧ s.build_state = b_init ∧
  s.current_lms_index = 0 ∧ s.drbg.reseed_counter ≤ 1 + 2 * build_steps T


/-- A usable signer about to execute `b_done`: zero-filled memory marked
initialized, in `b_done`, with the LMS index the cycle has reached there. -/
def done_signer : sh_signer :=
  { blank_signer with initialized := true, build_state := b_done, current_lms_index := 14422 }

/-- One call of a field setter of `adr.c` that is used after `set_type`, with
its argument. -/
inductive AdrCall where
  | key_pair (v : Nat)
  | chain (v : Nat)
  | hash (v : Nat)
  | height (v : Nat)
  | index (v : Nat)

/-- Execute one setter call on an address. -/
def AdrCall.run : AdrCall → List Nat → List Nat
  | AdrCall.key_pair v, adr => set_key_pair_address adr v
  | AdrCall.chain v, adr => set_chain_address adr v
  | AdrCall.hash v, adr => set_hash_address adr v
  | AdrCall.height v, adr => set_tree_height adr v
  | AdrCall.index v, adr => set_tree_index adr v

/-- Execute a sequence of setter calls, first call first. -/
def run_calls (adr : List Nat) (cs : List AdrCall) : List Nat :=
  cs.foldl (fun a c => c.run a) adr

/-- The last argument given to `set_tree_index` (mod 2^24) or
`set_hash_address` (mod 2^8) in a sequence of calls, `x` if there is none. -/
def last_hash_or_index (x : Nat) (cs : List AdrCall) : Nat :=
  cs.foldl (fun x c =>
    match c with
    | AdrCall.index v => v % 2 ^ 24
    | AdrCall.hash v => v % 2 ^ 8
    | _ => x) x

/-- The last argument (mod 2^8) given to `set_chain_address` or
`set_tree_height` in a sequence of calls, `x` if there is none. -/
def last_chain_or_height (x : Nat) (cs : List AdrCall) : Nat :=
  cs.foldl (fun x c =>
    match c with
    | AdrCall.chain v => v % 2 ^ 8
    | AdrCall.height v => v % 2 ^ 8
    | _ => x) x

/-- The last argument (mod 2^8) given to `set_key_pair_address` in a sequence
of calls, `x` if there is none. -/
def last_key_pair (x : Nat) (cs : List AdrCall) : Nat :=
  cs.foldl (fun x c =>
    match c with
    | AdrCall.key_pair v => v % 2 ^ 8
    | _ => x) x

/-- The root of the whole LMS tree as the specification words it: start from
the root of the real subtree and, for k = 0, 1, ..., F-1, combine the running
value as the left child with `next_fake[k]` as the right sibling under node
number 2^(F-1-k). -/
def fake_root_spec (P : Prims) (next_fake I : List Nat) (F : Nat) (root : List Nat) :
    List Nat :=
  (List.range F).foldl (fun r k =>
    lms_combine_internal_nodes P r (slice next_fake (k * 24) 24) I 24 (2 ^ (F - 1 - k))) root

/-- The offset `off_end` that `sh_verify` computes for a signature: the end
of the part it reads, 17064 + 52 + 12 + 24*(1+p) + 4 + 24*20 with `p` chosen
by the LM-OTS parameter id at offset 17064 + 8. -/
def verify_off_end (signature : List Nat) : Nat :=
  17064 + 52 + 12 +
    24 * (1 + (if get_bigendian (signature.drop (17064 + 8)) 4 = LM_OTS_W4_PARAM_ID
      then LM_OTS_W4_P else LM_OTS_W2_P)) + 4 + 24 * LMS_H

/-- The framing `sh_verify` checks before it hashes anything: the length
needed to read the LM-OTS parameter id, a known id, the length `off_end`,
the five fixed words and a leaf index below 2^20. -/
def well_framed (signature : List Nat) : Prop :=
  17064 + 12 ≤ signature.length ∧
  (get_bigendian (signature.drop (17064 + 8)) 4 = LM_OTS_W4_PARAM_ID ∨
    get_bigendian (signature.drop (17064 + 8)) 4 = LM_OTS_W2_PARAM_ID) ∧
  verify_off_end signature ≤ signature.length ∧
  get_bigendian (signature.drop (17064 + 52)) 4 = 0 ∧
  get_bigendian (signature.drop (17064 + 52 + 8)) 4
    = get_bigendian (signature.drop (17064 + 8)) 4 ∧
  get_bigendian (signature.drop (verify_off_end signature - 4 - 480)) 4 = 0xe0000028 ∧
  get_bigendian (signature.drop 17064) 4 = 1 ∧
  get_bigendian (signature.drop (17064 + 4)) 4 = 0xe0000028 ∧
  get_bigendian (signature.drop (17064 + 52 + 4)) 4 < 2 ^ 20

/-- Flip bit `k` of byte `i` of a buffer. -/
def flip_bit (l : List Nat) (i k : Nat) : List Nat :=
  l.set i (l.getD i 0 ^^^ 2 ^ k)

/-- A well-framed signature of 20060 bytes (LM-OTS W=2, leaf 0) whose other
bytes are all zero. -/
def zero_signature : List Nat :=
  zeros 17064 ++ (put_bigendian 1 4 ++ put_bigendian 0xe0000028 4 ++ put_bigendian 0xe0000022 4
    ++ zeros 16 ++ zeros 24) ++ (put_bigendian 0 4 ++ put_bigendian 0 4
    ++ put_bigendian 0xe0000022 4 ++ zeros (24 * 102)) ++ put_bigendian 0xe0000028 4
    ++ zeros 480

/-- The node indices (`node_index`) that the bottom loop of the authentication
path in `sh_sign` reads from `current_lms_bottom_subtree`, in order. -/
def sign_bottom_indices (which : Nat) : Nat → Nat → List Nat
  | 0, _ => []
  | cnt + 1, node_offset =>
    ((node_offset ^^^ 1) ^^^ which) :: sign_bottom_indices which cnt (node_offset / 2 - 1)

/-- The node indices that the top loop of the authentication path in
`sh_sign` reads from `current_lms_top_subtree`, in order. -/
def sign_top_indices : Nat → Nat → List Nat
  | 0, _ => []
  | cnt + 1, node_offset => (node_offset ^^^ 1) :: sign_top_indices cnt (node_offset / 2 - 1)

/-- The loop `for (;;)` of the refresh block of `sh_sign` (`sign_refresh`)
together with the node indices of `current_lms_bottom_subtree` it touches, in
program order: the index written, then the index read as `left`. -/
def sign_refresh_acc (P : Prims) (I : List Nat) (which : Nat) :
    Nat → Nat → Nat → List Nat → List Nat → List Nat × List Nat
  | 0, _, _, subtree, _ => (subtree, [])
  | fuel + 1, index, q, subtree, buffer =>
    let subtree := memcpy subtree (24 * ((index ^^^ which) ^^^ 1)) buffer 24
    if index % 2 = 0 then (subtree, [(index ^^^ which) ^^^ 1])
    else if index ≤ 1 then (subtree, [(index ^^^ which) ^^^ 1])
    else
      let left := slice subtree (24 * (index ^^^ which)) 24
      let q := q / 2
      let buffer := lms_combine_internal_nodes P left buffer I 24 q
      let r := sign_refresh_acc P I which fuel (index / 2 - 1) q subtree buffer
      (r.1, ((index ^^^ which) ^^^ 1) :: (index ^^^ which) :: r.2)

/-- The loop of `b_do_lms` that walks one leaf up (`lms_walk`) together with
the pointers `lms_storage` returns, in program order. -/
def lms_walk_acc (T : Tune) (P : Prims) (leaf : Nat) :
    Nat → Nat → Nat → Nat → sh_signer → List Nat → (sh_signer × Bool) × List LmsLoc
  | 0, _, _, _, s, _ => ((s, false), [])
  | fuel + 1, level, node, q, s, buffer =>
    let dest := lms_storage T 24 level leaf node 1
    let s := lms_store s dest buffer
    if node % 2 = 0 then
      if level = LMS_H - LMS_FAKE T then (({ s with build_state := b_lms_finished }, true), [dest])
      else ((s, false), [dest])
    else
      let lloc := lms_storage T 24 level leaf (node ^^^ 1) 0
      let left := lms_load s lloc
      let buffer := lms_combine_internal_nodes P left buffer s.next_lms_I 24 (q / 2)
      let r := lms_walk_acc T P leaf fuel (level + 1) (node / 2) (q / 2) s buffer
      (r.1, dest :: lloc :: r.2)

/-- A pointer returned by `lms_storage` with room for 24 bytes inside the area
it points into: `next_lms_bottom_subtree` (`24 * ((2 << LMS_BOTTOM) - 2)`
bytes), the stack of `do_lms` (`LMS_BOTTOM*24` bytes), `next_lms_top_subtree`
(`24 * ((2 << LMS_TOP) - 2)` bytes) or `next_lms_root` (24 bytes). -/
def loc_in_bounds (T : Tune) : LmsLoc → Prop
  | LmsLoc.bottom off => off + 24 ≤ 24 * (2 * 2 ^ LMS_BOTTOM T - 2)
  | LmsLoc.stack off => off + 24 ≤ LMS_BOTTOM T * 24
  | LmsLoc.top off => off + 24 ≤ 24 * (2 * 2 ^ LMS_TOP T - 2)
  | LmsLoc.root => True
  | LmsLoc.null => False

/-- The position bookkeeping of the next SPHINCS+ signature during a build:
`sphincs_sig_index` stands where the phase the signer is in has got to (24
bytes of randomizer, 17 fields of 24 bytes for each finished FORS tree, 51 + 8
fields for each finished hypertree layer and 51 fields once the WOTS+
signature of the running layer is written); from `b_fors` on `idx_leaf` is
below `2^SPH_T`, and while a layer's Merkle tree is built the builder writes
its authentication path at `sphincs_sig_index`. -/
def sig_fields (s : sh_signer) : Prop :=
  match s.build_state with
  | b_fors =>
    s.sphincs_sig_index = 24 + s.do_fors_tree * (24 * (1 + SPH_A)) ∧ s.idx_leaf < 2 ^ SPH_T
  | b_complete_fors =>
    s.sphincs_sig_index = 24 + SPH_K * (24 * (1 + SPH_A)) ∧ s.idx_leaf < 2 ^ SPH_T
  | b_hypertree =>
    s.idx_leaf < 2 ^ SPH_T ∧
    s.sphincs_sig_index = 24 + SPH_K * (24 * (1 + SPH_A))
      + s.do_hyper_level * (24 * (51 + SPH_T))
      + (if s.do_hyper_do_tree = 0 then 0 else 24 * 51) ∧
    (s.do_hyper_do_tree ≠ 0 →
      s.do_hyper_merk.auth_path = some s.sphincs_sig_index ∧ s.do_hyper_merk.n = 24 ∧
      s.do_hyper_merk.target_node < 2 ^ SPH_T)
  | b_done => s.sphincs_sig_index = LEN_SPHINCS_SIG
  | _ => True

/-- The bookkeeping of the next SPHINCS+ signature during a build: the buffer
has `LEN_SPHINCS_SIG` bytes (a `memcpy` keeps the length of the buffer exactly
when it stays inside it) and the positions are as `sig_fields` says. -/
def sig_inv (s : sh_signer) : Prop :=
  s.next_sphincs_sig.length = LEN_SPHINCS_SIG ∧ sig_fields s


/-! ## Hypertree WOTS+ signatures: auxiliary definitions -/

/-- A 22-byte address in the form every WOTS+ address has after `set_type`:
the ten bytes `p` (layer, tree, type) followed by the three 4-byte fields, of
which only the low bytes `k` (key pair), `c` (chain) and `j` (hash) are set. -/
def wadr (p : List Nat) (k c j : Nat) : List Nat :=
  p ++ [0, 0, 0, k % 256, 0, 0, 0, c % 256, 0, 0, 0, j % 256]

/-- The WOTS+ part of one iteration of the loop over the layers in
`sh_verify` (the first half of the body of `verify_hypertree`): the address,
the rest of the signature and `buffer`, which holds the compressed WOTS+
public key. -/
def verify_wots_leaf (P : Prims) (pk_seed_pre : List Nat) (level idx_tree idx_leaf : Nat)
    (adr sphincs_sig buffer : List Nat) : List Nat × List Nat × List Nat :=
  let digits := (expand_wots_digits 51 buffer 24).2
  let adr := set_layer_address adr level
  let adr := set_tree_address adr idx_tree
  let adr := set_type adr WOTS_HASH_ADDRESS
  let adr := set_key_pair_address adr idx_leaf
  let wc := verify_wots_chains P pk_seed_pre digits 51 0 adr sphincs_sig (zeros (51 * 24))
  let adr := set_type wc.1 WOTS_KEY_COMPRESSION
  let adr := set_key_pair_address adr idx_leaf
  let buffer := hashInto
    (do_thash P (HASH_TYPE_SHA256 ||| HASH_LEN_192) pk_seed_pre adr wc.2.2 (24 * 51))
    buffer 24
  (adr, wc.2.1, buffer)

/-- The leaf that `step_build_merkle` computes for `state->current_node` (the
body of the loop in `merkle_leaves` up to the walk up the tree): the address
afterwards and `buffer`, which holds the compressed WOTS+ public key. -/
def merkle_leaf (T : Tune) (P : Prims) (state : build_merkle_state) : List Nat × List Nat :=
  let current_node := state.current_node
  let gen := init_private_key_gen T P state.sk_seed state.n state.adr ADR_CONST_FOR_TREE
  let adr := set_type state.adr WOTS_HASH_ADDRESS
  let adr := set_key_pair_address adr current_node
  let n := state.n
  let wl := wots_leaf_loop T P state gen 51 0 adr (zeros (MAX_HASH_LEN * 51))
  let wots_buffer := wl.2
  let adr := set_type wl.1 WOTS_KEY_COMPRESSION
  let adr := set_key_pair_address adr current_node
  (adr, hashInto
    (do_thash P state.hash state.pk_seed_pre adr wots_buffer (n * state.wots_digits))
    (zeros MAX_HASH_LEN) n)

/-- The WOTS+ signature of one hypertree layer as `b_hypertree` writes it
(`step_hypertree` with `do_tree = 0`): the next SPHINCS+ signature after the
51 chains have been stored from `sphincs_sig_index` on. -/
def hyper_wots_sig (T : Tune) (P : Prims) (signer : sh_signer) : List Nat :=
  let digits := (expand_wots_digits 51 signer.do_hyper_prev_root 24).2
  let adr := zeros LEN_ADR
  let adr := set_layer_address adr signer.do_hyper_level
  let adr := set_tree_address adr signer.idx_tree
  let adr := set_type adr WOTS_HASH_ADDRESS
  let adr := set_key_pair_address adr signer.idx_leaf
  let gen := init_private_key_gen T P signer.sk_seed 24 adr ADR_CONST_FOR_TREE
  (hyper_wots_loop T P gen signer.pk_seed_pre digits signer.sphincs_sig_index
    51 0 adr signer.next_sphincs_sig).2

/-- The values a WOTS+ signature holds for the chains `i .. i+cnt-1`: chain
`i` is the secret advanced `digits[i]` steps. -/
def wots_sig_vals (T : Tune) (P : Prims) (gen : private_key_generator) (pre digits p : List Nat)
    (k : Nat) : Nat → Nat → List Nat
  | 0, _ => []
  | cnt + 1, i =>
    bytesN 24 (wots_chain P (HASH_TYPE_SHA256 ||| HASH_LEN_192) pre 24 (digits.getD i 0) 0
        (wadr p k i 0)
        (do_private_key_gen T P 24 gen (slice (wadr p k i 0) (LEN_ADR - 16) 16))).2
      ++ wots_sig_vals T P gen pre digits p k cnt (i + 1)

/-- The tops of the WOTS+ chains `i .. i+cnt-1`: the secret advanced 15 steps. -/
def wots_tops (T : Tune) (P : Prims) (gen : private_key_generator) (pre p : List Nat)
    (k : Nat) : Nat → Nat → List Nat
  | 0, _ => []
  | cnt + 1, i =>
    bytesN 24 (wots_chain P (HASH_TYPE_SHA256 ||| HASH_LEN_192) pre 24 15 0 (wadr p k i 0)
        (do_private_key_gen T P 24 gen (slice (wadr p k i 0) (LEN_ADR - 16) 16))).2
      ++ wots_tops T P gen pre p k cnt (i + 1)


/-! ## zeroize.h, load.c: teardown -/

/-- Modelled from the spec: `zeroize( area, len )`, which `zeroize.h` declares
and whose definition (`zeroize.c`) is not among the sources.  The spec calls it
the secure zeroization of a byte region, and the header says that it scrubs
the area from holding any potentially secret information: the `len` bytes at
`area` are set to zero. -/
def zeroize (area : List Nat) (len : Nat) : List Nat :=
  blit area 0 (zeros len)

/-- `sh_delete_signer( signer )`, on the bytes of the region `*signer` (`none`
for a null pointer, for which nothing is done): the contents of the region
when it is handed to `free`; `sizeof *signer` is the length of the region. -/
def sh_delete_signer (signer : Option (List Nat)) : Option (List Nat) :=
  match signer with
  | none => none
  | some region => some (zeroize region region.length)


/-! ## The LMS tree: the recursive definition and the builder invariant -/

/-- The nodes of the LMS tree by recursion on the level, the definition the
streaming builder is compared with: a leaf is the leaf hash that
`lm_ots_generate_public_key` leaves for that index, and node `j` of level
`h+1` is `lms_combine_internal_nodes` of nodes `2j` and `2j+1` of level `h`
with the LMS node number `2^(LMS_H-(h+1)) + j`. -/
def lms_node (T : Tune) (P : Prims) (I seed : List Nat) : Nat → Nat → List Nat
  | 0, j => lm_ots_generate_public_key T P I j seed
  | h + 1, j =>
    lms_combine_internal_nodes P (lms_node T P I seed h (2 * j))
      (lms_node T P I seed h (2 * j + 1)) I 24 (2 ^ (LMS_H - (h + 1)) + j)

/-- A subtree buffer of `E` levels (level `h` has `2^(E-h)` nodes, node `j`
of level `h` at slot `j + 2^(E-h) - 2`) holds the value `val h j` wherever
`ok h j` says that the node has been computed. -/
def sub_inv (E : Nat) (buf : List Nat) (val : Nat → Nat → List Nat)
    (ok : Nat → Nat → Prop) : Prop :=
  ∀ h j, h < E → j < 2 ^ (E - h) → ok h j →
    slice buf (24 * (j + 2 ^ (E - h) - 2)) 24 = val h j

/-- Node `j` of level `h` is complete once the leaves `0 .. c-1` have been
walked up, or it is one of the nodes below level `l` on the path of leaf `c`
(the nodes a walk has stored when it is at level `l`). -/
def lms_ok (c l h j : Nat) : Prop :=
  (j + 1) * 2 ^ h ≤ c ∨ (h < l ∧ (j + 1) * 2 ^ h = c + 1)

/-- The invariant of the LMS build while leaf `c` is walked up and the walk
stands at level `l` (`l = 0`: between two leaves): the buffers have their
sizes, the next bottom subtree holds the complete nodes of the first bottom
subtree, the stack holds the pending left nodes of the later ones, the next
top subtree holds the complete nodes of the levels from `LMS_BOTTOM` on, and
the root buffer holds the root once all leaves are done. -/
def lms_mid (T : Tune) (P : Prims) (I seed : List Nat) (c l : Nat) (s : sh_signer) : Prop :=
  s.next_lms_I = I ∧ s.next_lms_seed = seed ∧
  24 * (2 ^ (LMS_BOTTOM T + 1) - 2) ≤ s.next_lms_bottom_subtree.length ∧
  24 * LMS_BOTTOM T ≤ s.do_lms_stack.length ∧
  24 * (2 ^ (LMS_TOP T + 1) - 2) ≤ s.next_lms_top_subtree.length ∧
  24 ≤ s.next_lms_root.length ∧
  sub_inv (LMS_BOTTOM T) s.next_lms_bottom_subtree (lms_node T P I seed) (lms_ok c l) ∧
  (∀ h, h < LMS_BOTTOM T → 2 ^ LMS_BOTTOM T < c → c / 2 ^ h % 2 = 1 →
    slice s.do_lms_stack (24 * h) 24 = lms_node T P I seed h (c / 2 ^ h - 1)) ∧
  sub_inv (LMS_TOP T) s.next_lms_top_subtree
    (fun h j => lms_node T P I seed (LMS_BOTTOM T + h) j)
    (fun h j => lms_ok c l (LMS_BOTTOM T + h) j) ∧
  (c = 2 ^ LMS_ACTUAL T → slice s.next_lms_root 0 24 = lms_node T P I seed (LMS_ACTUAL T) 0)


/-! ## The Merkle trees of the hypertree: the recursive definition -/

/-- Leaf `i` of a Merkle tree of the hypertree by definition: the T-hash (type
`WOTS_KEY_COMPRESSION`, key pair `i`) of the 51 WOTS+ chain tops of key pair
`i`; `q` holds the nine address bytes of the layer and the tree. -/
def wots_pk (T : Tune) (P : Prims) (sk pre q : List Nat) (i : Nat) : List Nat :=
  hashInto
    (do_thash P (HASH_TYPE_SHA256 ||| HASH_LEN_192) pre
      (set_key_pair_address (set_type (q ++ zeros 13) WOTS_KEY_COMPRESSION) i)
      (wots_tops T P (init_private_key_gen T P sk 24 (q ++ zeros 13) ADR_CONST_FOR_TREE) pre
        (q ++ [WOTS_HASH_ADDRESS % 256]) i 51 0)
      (24 * 51))
    (zeros 24) 24

/-- The nodes of a Merkle tree of the hypertree by recursion on the height,
the definition the streaming builder is compared with: `node(0, i)` is leaf
`i`, and `node(h+1, j)` is `H` of `node(h, 2j)` and `node(h, 2j+1)` under the
address of type `HASH_TREE_ADDRESS` with tree height `h+1` and tree index
`j`. -/
def merkle_node (T : Tune) (P : Prims) (sk pre q : List Nat) : Nat → Nat → List Nat
  | 0, i => wots_pk T P sk pre q i
  | h + 1, j =>
    hashInto
      (do_H P (HASH_TYPE_SHA256 ||| HASH_LEN_192) pre
        (set_tree_index (set_tree_height (set_type (q ++ zeros 13) HASH_TREE_ADDRESS) (h + 1)) j)
        (merkle_node T P sk pre q h (2 * j)) (merkle_node T P sk pre q h (2 * j + 1)))
      (zeros 24) 24

/-- The builder called until it returns true: `step_build_merkle` again and
again (the loop of `sh_keygen`; in `b_hypertree` one call per `step_next`),
at most `fuel` times; `none` when the counter runs out first. -/
def merkle_run (T : Tune) (P : Prims) :
    Nat → build_merkle_state → List Nat → List Nat → Option merkle_walk
  | 0, _, _, _ => none
  | fuel + 1, state, authMem, rootMem =>
    let w := step_build_merkle T P state authMem rootMem
    if w.all_done_flag then some w else merkle_run T P fuel w.state w.authMem w.rootMem

/-- A 22-byte address in the form every tree address has after `set_type`,
`set_tree_height` and `set_tree_index`: the ten bytes `p` (layer, tree,
type), a zero key pair, the height byte and the three low bytes of the
index. -/
def tadr (p : List Nat) (h i : Nat) : List Nat :=
  p ++ [0, 0, 0, 0, 0, 0, 0, h % 256, 0, i / 2 ^ 16 % 256, i / 2 ^ 8 % 256, i % 256]

/-- The invariant of the Merkle builder while leaf `c` is walked up and the
walk stands at height `l` (`l = 0`: between two leaves): the stack holds the
pending left nodes, the authentication path holds the siblings that are
complete, and the root buffer holds the root once all leaves are done. -/
def merkle_mid (T : Tune) (P : Prims) (sk pre q : List Nat) (Th t : Nat) (ap rt : Option Nat)
    (c l : Nat) (st : build_merkle_state) (authMem rootMem : List Nat) : Prop :=
  st.sk_seed = sk ∧ st.pk_seed_pre = pre ∧ st.n = 24 ∧
  st.hash = HASH_TYPE_SHA256 ||| HASH_LEN_192 ∧ st.wots_digits = 51 ∧
  st.tree_height = Th ∧ st.target_node = t ∧ st.auth_path = ap ∧ st.root = rt ∧
  st.adr.length = 22 ∧ st.adr.take 9 = q ∧
  24 * Th ≤ st.stack.length ∧
  (∀ o, ap = some o → o + 24 * Th ≤ authMem.length) ∧
  (rt.isSome → 24 ≤ rootMem.length) ∧
  (∀ h, h < Th → c / 2 ^ h % 2 = 1 →
    slice st.stack (24 * h) 24 = merkle_node T P sk pre q h (c / 2 ^ h - 1)) ∧
  (∀ o h, ap = some o → h < Th → lms_ok c l h (t / 2 ^ h ^^^ 1) →
    slice authMem (o + 24 * h) 24 = merkle_node T P sk pre q h (t / 2 ^ h ^^^ 1)) ∧
  (rt.isSome → c = 2 ^ Th → slice rootMem 0 24 = merkle_node T P sk pre q Th 0)

/-! ## sh_verify: the two comparisons -/

/-- The buffer `sh_verify` compares with the root in the LMS public key:
`verify_lms_root` on the fields of the signature (the LM-OTS parameters chosen
by the parameter id at offset 17064 + 8, `I` from the LMS public key, the
leaf index from the LM-OTS signature). -/
def verify_lms_buffer (P : Prims) (message signature : List Nat) : List Nat :=
  verify_lms_root P message (slice (signature.drop 17064) 12 I_LEN)
    (signature.drop (17064 + 52))
    (signature.drop (17064 + 52 + 12 + 24 * (1 +
      (if get_bigendian (signature.drop (17064 + 8)) 4 = LM_OTS_W4_PARAM_ID
        then LM_OTS_W4_P else LM_OTS_W2_P))))
    24
    (if get_bigendian (signature.drop (17064 + 8)) 4 = LM_OTS_W4_PARAM_ID
      then LM_OTS_W4_W else LM_OTS_W2_W)
    (if get_bigendian (signature.drop (17064 + 8)) 4 = LM_OTS_W4_PARAM_ID
      then LM_OTS_W4_P else LM_OTS_W2_P)
    (if get_bigendian (signature.drop (17064 + 8)) 4 = LM_OTS_W4_PARAM_ID
      then LM_OTS_W4_LS else LM_OTS_W2_LS)
    (get_bigendian (signature.drop (17064 + 52 + 4)) 4 % 2 ^ 32)

/-- A 22-byte address in the form a FORS address has after `set_type`,
`set_key_pair_address`, `set_tree_height` and `set_tree_index`: the ten bytes
`p` (layer, tree, type), the low byte of the key pair, the height byte and
the three low bytes of the index. -/
def fadr (p : List Nat) (k h i : Nat) : List Nat :=
  p ++ [0, 0, 0, k % 256, 0, 0, 0, h % 256, 0, i / 2 ^ 16 % 256, i / 2 ^ 8 % 256, i % 256]

/-- The address of the node of height `h` and index `i` in the FORS trees of
the signature with hypertree indices `idx_tree`, `idx_leaf`: layer 0, tree
`idx_tree`, type `FORS_TREE_ADDRESS`, key pair `idx_leaf`. -/
def fors_adr (idx_tree idx_leaf h i : Nat) : List Nat :=
  set_tree_height
    (set_tree_index
      (set_key_pair_address
        (set_type (set_tree_address (set_layer_address (zeros LEN_ADR) 0) idx_tree)
          FORS_TREE_ADDRESS) idx_leaf) i) h

/-- The PRF secret of leaf `i` of FORS tree `tr`: what `do_private_key_gen`
gives for the address of the leaf (height 0, index `i + tr * 2^SPH_A`). -/
def fors_sk (T : Tune) (P : Prims) (sk : List Nat) (idx_tree idx_leaf tr i : Nat) : List Nat :=
  bytesN 24
    (do_private_key_gen T P 24
      (init_private_key_gen T P sk 24
        (set_type (set_tree_address (set_layer_address (zeros LEN_ADR) 0) idx_tree)
          FORS_TREE_ADDRESS) ADR_CONST_FOR_TREE)
      (slice (fors_adr idx_tree idx_leaf 0 (i + tr * 2 ^ SPH_A)) (LEN_ADR - 16) 16))

/-- The nodes of FORS tree `tr` by recursion on the height, the definition
the streaming builder is compared with: `node(0, i)` is `F` of the PRF secret
of leaf `i`, and `node(h+1, j)` is `H` of `node(h, 2j)` and `node(h, 2j+1)`
under the address with tree height `h+1` and tree index
`j + tr * 2^(SPH_A-(h+1))`. -/
def fors_node (T : Tune) (P : Prims) (sk pre : List Nat) (idx_tree idx_leaf tr : Nat) :
    Nat → Nat → List Nat
  | 0, i =>
    hashInto
      (do_F P (HASH_TYPE_SHA256 ||| HASH_LEN_192) pre
        (fors_adr idx_tree idx_leaf 0 (i + tr * 2 ^ SPH_A))
        (fors_sk T P sk idx_tree idx_leaf tr i))
      (zeros 24) 24
  | h + 1, j =>
    hashInto
      (do_H P (HASH_TYPE_SHA256 ||| HASH_LEN_192) pre
        (fors_adr idx_tree idx_leaf (h + 1) (j + tr * 2 ^ (SPH_A - (h + 1))))
        (fors_node T P sk pre idx_tree idx_leaf tr h (2 * j))
        (fors_node T P sk pre idx_tree idx_leaf tr h (2 * j + 1)))
      (zeros 24) 24

/-- The invariant of `b_fors` while leaf `c` of tree `tr` is walked up and the
walk stands at height `l` (`l = 0`: between two leaves): the stack holds the
pending left nodes, the signature holds at `base + 24*(1+h)` the siblings of
the path to `tg` that are complete and at `base` the secret of leaf `tg` once
that leaf is passed; `R` are the FORS roots collected so far. -/
def fors_mid (T : Tune) (P : Prims) (sk pre : List Nat) (it il tr tg base : Nat) (R : List Nat)
    (c l : Nat) (s : sh_signer) : Prop :=
  s.pk_seed_pre = pre ∧ s.sphincs_sig_index = base ∧ s.do_fors_tree = tr ∧
  s.do_fors_fors_roots = R ∧
  base + 24 * (1 + SPH_A) ≤ s.next_sphincs_sig.length ∧
  24 * SPH_A ≤ s.do_fors_stack.length ∧
  (∀ h, h < SPH_A → c / 2 ^ h % 2 = 1 →
    slice s.do_fors_stack (24 * h) 24 = fors_node T P sk pre it il tr h (c / 2 ^ h - 1)) ∧
  (∀ h, h < SPH_A → lms_ok c l h (tg / 2 ^ h ^^^ 1) →
    slice s.next_sphincs_sig (base + 24 + 24 * h) 24
      = fors_node T P sk pre it il tr h (tg / 2 ^ h ^^^ 1)) ∧
  (tg < c → slice s.next_sphincs_sig base 24 = fors_sk T P sk it il tr tg)

/-- What `b_fors` leaves behind for tree `tr`: the secret of leaf `tg` at
`base`, the sibling of height `h` of the path to `tg` at `base + 24*(1+h)`
and the root of the tree in `fors_roots[tr]`. -/
def fors_done (T : Tune) (P : Prims) (sk pre : List Nat) (it il tr tg base : Nat)
    (s : sh_signer) : Prop :=
  slice s.next_sphincs_sig base 24 = fors_sk T P sk it il tr tg ∧
  (∀ h, h < SPH_A →
    slice s.next_sphincs_sig (base + 24 * (1 + h)) 24
      = fors_node T P sk pre it il tr h (tg / 2 ^ h ^^^ 1)) ∧
  slice s.do_fors_fors_roots (24 * tr) 24 = fors_node T P sk pre it il tr SPH_A 0

/-- The state of `b_fors` at the start of a `step_next` call: no fatal
error, tree `tr` under construction with `c` leaves done in the pass `rp`
(`true`: the second pass of the fault-detecting configurations, during which
`R` already holds the root found by the first pass), and the invariant
`fors_mid` between two leaves. -/
def fors_at (T : Tune) (P : Prims) (sk pre : List Nat) (it il tr tg base : Nat) (R : List Nat)
    (rp : Bool) (c : Nat) (s : sh_signer) : Prop :=
  s.got_fatal_error = false ∧ s.build_state = BuildState.b_fors ∧ s.sk_seed = sk ∧
  s.idx_tree = it ∧ s.idx_leaf = il ∧ s.do_fors_md.getD tr 0 = tg ∧ s.do_fors_leaf = c ∧
  s.do_fors_redundant_pass = rp ∧ fors_mid T P sk pre it il tr tg base R c 0 s ∧
  24 * (tr + 1) ≤ R.length ∧
  (rp = true → slice R (24 * tr) 24 = fors_node T P sk pre it il tr SPH_A 0)

/-- The number of `step_next` calls that build one FORS tree: `fors_steps`
calls walk the `2^SPH_A` leaves once, and the fault-detecting configurations
walk them a second time. -/
def fors_calls (T : Tune) : Nat :=
  fors_steps T * (if T.FAULT_STRATEGY = 0 then 1 else 2)

/-- Zero-filled signer memory at the start of FORS tree 0: build state
`b_fors`, the signature cursor behind the 24 bytes of the randomizer. -/
def fors_start : sh_signer :=
  { blank_signer with build_state := BuildState.b_fors, sphincs_sig_index := 24 }

/-! ## The current LMS tree while it is signed with -/

/-- Node `j` of level `h` of bottom window `w` of the LMS tree: the subtree of
`2^LMS_BOTTOM` leaves that starts at leaf `w * 2^LMS_BOTTOM`. -/
def win_node (T : Tune) (P : Prims) (I seed : List Nat) (w h j : Nat) : List Nat :=
  lms_node T P I seed h (w * 2 ^ (LMS_BOTTOM T - h) + j)

/-- The rolled bottom subtree while window `w` is signed with, `r` leaves of
the next window refreshed and the refresh walk at level `l` (`l = 0`: between
two signatures).  With `which = w mod 2`, slot `k` of level `h` holds node
`k xor which` of window `w` as long as the refresh has not completed node
`k xor which xor 1` of the next window, and holds that node of window `w+1`
once it has (as long as window `w+1` lies within the `2^LMS_H` leaves). -/
def roll_inv (T : Tune) (P : Prims) (I seed : List Nat) (w r l : Nat) (buf : List Nat) : Prop :=
  sub_inv (LMS_BOTTOM T) buf (fun h k => win_node T P I seed w h (k ^^^ (w % 2)))
    (fun h k => ¬ lms_ok r l h ((k ^^^ (w % 2)) ^^^ 1)) ∧
  ((w + 2) * 2 ^ LMS_BOTTOM T ≤ 2 ^ LMS_H →
    sub_inv (LMS_BOTTOM T) buf
      (fun h k => win_node T P I seed (w + 1) h ((k ^^^ (w % 2)) ^^^ 1))
      (fun h k => lms_ok r l h ((k ^^^ (w % 2)) ^^^ 1)))

/-- The authentication path by definition: the siblings of the ancestors of
node `j` of level `h`, `cnt` levels up, 24 bytes each. -/
def lms_auth_path (T : Tune) (P : Prims) (I seed : List Nat) : Nat → Nat → Nat → List Nat
  | 0, _, _ => []
  | cnt + 1, h, j =>
    lms_node T P I seed h (j ^^^ 1) ++ lms_auth_path T P I seed cnt (h + 1) (j / 2)

/-- The current LMS tree of a signer at leaf index `q`: the rolled bottom
subtree is in the state `roll_inv` for window `q / 2^LMS_BOTTOM` with
`q mod 2^LMS_BOTTOM` leaves of the next window refreshed, the top subtree
holds every node of the levels `LMS_BOTTOM .. LMS_ACTUAL-1`, and the root in
`current_lms_pub_key` is the root of the tree combined with the faked nodes
of `current_fake`. -/
def lms_cur (T : Tune) (P : Prims) (q : Nat) (s : sh_signer) : Prop :=
  s.current_lms_index = q ∧ q < 2 ^ LMS_ACTUAL T ∧
  24 * (2 ^ (LMS_BOTTOM T + 1) - 2) ≤ s.current_lms_bottom_subtree.length ∧
  24 * (2 ^ (LMS_TOP T + 1) - 2) ≤ s.current_lms_top_subtree.length ∧
  roll_inv T P s.current_lms_I s.current_lms_seed (q / 2 ^ LMS_BOTTOM T) (q % 2 ^ LMS_BOTTOM T) 0
    s.current_lms_bottom_subtree ∧
  sub_inv (LMS_TOP T) s.current_lms_top_subtree
    (fun h j => lms_node T P s.current_lms_I s.current_lms_seed (LMS_BOTTOM T + h) j)
    (fun _ _ => True) ∧
  LMS_FAKE T * 24 ≤ s.current_fake.length ∧
  slice s.current_lms_pub_key 28 24
    = bytesN 24 (fake_walk T P s.current_fake s.current_lms_I (LMS_FAKE T)
        (lms_node T P s.current_lms_I s.current_lms_seed (LMS_ACTUAL T) 0))

/-- The fields of the next LMS tree that the build phases after
`b_lms_finished` leave alone. -/
def lms_next_view (s : sh_signer) :
    List Nat × List Nat × List Nat × List Nat × List Nat × List Nat × List Nat × List Nat :=
  (s.next_lms_I, s.next_lms_seed, s.next_lms_bottom_subtree, s.next_lms_top_subtree,
   s.next_lms_root, s.next_lms_pub_key, s.next_fake, s.do_lms_stack)

/-- The next LMS tree is complete (the state of the build from `b_fors` to
`b_done`): the next bottom subtree holds every node of the first window, the
next top subtree every node of the levels `LMS_BOTTOM .. LMS_ACTUAL-1`, and
the root in `next_lms_pub_key` is the root of the tree combined with the
faked nodes of `next_fake`. -/
def lms_next_done (T : Tune) (P : Prims) (s : sh_signer) : Prop :=
  24 * (2 ^ (LMS_BOTTOM T + 1) - 2) ≤ s.next_lms_bottom_subtree.length ∧
  24 * LMS_BOTTOM T ≤ s.do_lms_stack.length ∧
  24 * (2 ^ (LMS_TOP T + 1) - 2) ≤ s.next_lms_top_subtree.length ∧
  24 ≤ s.next_lms_root.length ∧
  sub_inv (LMS_BOTTOM T) s.next_lms_bottom_subtree
    (lms_node T P s.next_lms_I s.next_lms_seed) (fun _ _ => True) ∧
  sub_inv (LMS_TOP T) s.next_lms_top_subtree
    (fun h j => lms_node T P s.next_lms_I s.next_lms_seed (LMS_BOTTOM T + h) j)
    (fun _ _ => True) ∧
  LMS_FAKE T * 24 ≤ s.next_fake.length ∧
  slice s.next_lms_pub_key 28 24
    = bytesN 24 (fake_walk T P s.next_fake s.next_lms_I (LMS_FAKE T)
        (lms_node T P s.next_lms_I s.next_lms_seed (LMS_ACTUAL T) 0))

/-- How far the build of the next LMS tree has come, by build state:
`next_fake` has its size, and the
buffers have their sizes (`b_init`), the builder invariant `lms_mid` holds for
the leaves done so far (`b_do_lms`, `b_lms_finished`), or the tree is complete
(`lms_next_done`, from `b_fors` on). -/
def build_prog (T : Tune) (P : Prims) (s : sh_signer) : Prop :=
  LMS_FAKE T * 24 ≤ s.next_fake.length ∧
  match s.build_state with
  | BuildState.b_init =>
    24 * (2 ^ (LMS_BOTTOM T + 1) - 2) ≤ s.next_lms_bottom_subtree.length ∧
    24 * LMS_BOTTOM T ≤ s.do_lms_stack.length ∧
    24 * (2 ^ (LMS_TOP T + 1) - 2) ≤ s.next_lms_top_subtree.length ∧
    24 ≤ s.next_lms_root.length
  | BuildState.b_do_lms => lms_mid T P s.next_lms_I s.next_lms_seed s.do_lms_leaf 0 s
  | BuildState.b_lms_finished =>
    s.do_lms_leaf = 2 ^ LMS_ACTUAL T ∧
    lms_mid T P s.next_lms_I s.next_lms_seed s.do_lms_leaf 0 s
  | BuildState.b_count => False
  | _ => lms_next_done T P s

/-- The invariant of a signer between two signatures: initialized, no fatal
error, the index in step with the build cycle (`cycle_inv`), the current LMS
tree as `lms_cur` describes it at the current index, and the next tree as far
as `build_prog` says. -/
def sign_inv (T : Tune) (P : Prims) (s : sh_signer) : Prop :=
  s.initialized = true ∧ s.got_fatal_error = false ∧ cycle_inv T s ∧
  lms_cur T P s.current_lms_index s ∧ build_prog T P s

/-! ## The SPHINCS+ signature and the signer that emits it: auxiliary definitions -/

/-- The hypertree indices of layer `L`: layer 0 has the indices of the
digest, and every further layer takes the low `SPH_T` bits of the tree index
below as its leaf and the rest as its tree (the updates of `b_hypertree` and
of the loop over the layers in `sh_verify`). -/
def ht_idx (it il : Nat) : Nat → Nat × Nat
  | 0 => (it, il)
  | L + 1 => ((ht_idx it il L).1 / 2 ^ SPH_T, ((ht_idx it il L).1 &&& (2 ^ SPH_T - 1)) % 2 ^ 32)

/-- The nine address bytes (layer, tree) of the Merkle tree of layer `L`. -/
def ht_q (it il L : Nat) : List Nat :=
  (L % 256) :: put_bigendian ((ht_idx it il L).1 % 2 ^ 64) 8

/-- The roots of the FORS trees `0 .. t-1`, one after the other. -/
def fors_roots (T : Tune) (P : Prims) (sk pre : List Nat) (it il : Nat) : Nat → List Nat
  | 0 => []
  | t + 1 => fors_roots T P sk pre it il t ++ fors_node T P sk pre it il t SPH_A 0

/-- The FORS public key: the T-hash of the `SPH_K` roots under the address of
type `FORS_TREE_ROOT_COMPRESS`. -/
def fors_pk (T : Tune) (P : Prims) (sk pre : List Nat) (it il : Nat) : List Nat :=
  hashInto
    (do_thash P (HASH_TYPE_SHA256 ||| HASH_LEN_192) pre
      (set_key_pair_address
        (set_type (set_tree_address (set_layer_address (zeros LEN_ADR) 0) it)
          FORS_TREE_ROOT_COMPRESS) il)
      (fors_roots T P sk pre it il SPH_K) (SPH_K * 24))
    (zeros 24) 24

/-- The value layer `L` of the hypertree signs: the FORS public key at layer
0, the root of the Merkle tree of the layer below otherwise. -/
def ht_msg (T : Tune) (P : Prims) (sk pre : List Nat) (it il : Nat) : Nat → List Nat
  | 0 => fors_pk T P sk pre it il
  | L + 1 => merkle_node T P sk pre (ht_q it il L) SPH_T 0

/-- The WOTS+ signature of layer `L`: chain `i` of the key pair of the leaf
of the layer, advanced by digit `i` of the value signed. -/
def ht_wots (T : Tune) (P : Prims) (sk pre : List Nat) (it il L : Nat) : List Nat :=
  wots_sig_vals T P
    (init_private_key_gen T P sk 24
      (wadr (ht_q it il L ++ [WOTS_HASH_ADDRESS % 256]) (ht_idx it il L).2 0 0)
      ADR_CONST_FOR_TREE)
    pre (expand_wots_digits 51 (ht_msg T P sk pre it il L) 24).2
    (ht_q it il L ++ [WOTS_HASH_ADDRESS % 256]) (ht_idx it il L).2 51 0

/-- The fields of FORS tree `t` in a signature: the secret of leaf `md[t]` at
`24 + 408*t` and the sibling of height `h` of its path behind it. -/
def sph_fors_at (T : Tune) (P : Prims) (sk pre md : List Nat) (it il : Nat) (sig : List Nat)
    (t : Nat) : Prop :=
  slice sig (24 + 408 * t) 24 = fors_sk T P sk it il t (md.getD t 0) ∧
  ∀ h, h < SPH_A →
    slice sig (24 + 408 * t + 24 * (1 + h)) 24
      = fors_node T P sk pre it il t h (md.getD t 0 / 2 ^ h ^^^ 1)

/-- The fields of hypertree layer `L` in a signature: the WOTS+ signature at
`5736 + 1416*L` and the authentication path of the leaf behind it. -/
def sph_ht_at (T : Tune) (P : Prims) (sk pre : List Nat) (it il : Nat) (sig : List Nat)
    (L : Nat) : Prop :=
  (sig.drop (5736 + 1416 * L)).take 1224 = ht_wots T P sk pre it il L ∧
  ∀ h, h < SPH_T →
    slice sig (5736 + 1416 * L + 1224 + 24 * h) 24
      = merkle_node T P sk pre (ht_q it il L) h ((ht_idx it il L).2 / 2 ^ h ^^^ 1)

/-- What one call of the FORS loops leaves alone, seen from the signer `s0`
the call started with: the signature below the cursor, the length of the
signature, and the cursor and the tree counter themselves. -/
def fors_frame (s0 s : sh_signer) : Prop :=
  s.sphincs_sig_index = s0.sphincs_sig_index ∧ s.do_fors_tree = s0.do_fors_tree ∧
  s.next_sphincs_sig.take s0.sphincs_sig_index = s0.next_sphincs_sig.take s0.sphincs_sig_index ∧
  s.next_sphincs_sig.length = s0.next_sphincs_sig.length ∧
  s.do_fors_fors_roots = s0.do_fors_fors_roots ∧
  s.do_fors_stack.length = s0.do_fors_stack.length

/-- What one `step_next` call in `b_fors` leaves alone, seen from the signer
`s0` it started with: the signature below the cursor of `s0`, the FORS roots
of the trees before the one of `s0`, and the lengths of both buffers. -/
def fors_after (s0 s : sh_signer) : Prop :=
  s.next_sphincs_sig.take s0.sphincs_sig_index = s0.next_sphincs_sig.take s0.sphincs_sig_index ∧
  s.next_sphincs_sig.length = s0.next_sphincs_sig.length ∧
  s.do_fors_fors_roots.take (24 * s0.do_fors_tree)
    = s0.do_fors_fors_roots.take (24 * s0.do_fors_tree) ∧
  s.do_fors_fors_roots.length = s0.do_fors_fors_roots.length ∧
  s.do_fors_stack.length = s0.do_fors_stack.length

/-- The digest, with the two hypertree indices, of the signature under
construction: what `b_lms_finished` computes from the randomizer at the start
of the signature, the public seed and root of the signer and the next LMS
public key. -/
def sph_dg (P : Prims) (s : sh_signer) : List Nat × Nat × Nat :=
  do_compute_digest_index P 24 s.next_sphincs_sig s.pk_seed s.root
    (bytesN LEN_LMS_PUBLIC_KEY s.next_lms_pub_key) SPH_K SPH_A SPH_H SPH_D

/-- What the phases from `b_fors` to `b_hypertree` read and never write: the
keys of the signer, the next LMS public key and the FORS digits. -/
def sph_view (s : sh_signer) :
    List Nat × List Nat × List Nat × List Nat × List Nat × List Nat :=
  (s.sk_seed, s.pk_seed, s.pk_seed_pre, s.root, s.next_lms_pub_key, s.do_fors_md)

/-- The sizes of the buffers the SPHINCS+ phases work in (the arrays of the
signer structure), and the pre-hashed public seed. -/
def sph_mem (s : sh_signer) : Prop :=
  24 * SPH_A ≤ s.do_fors_stack.length ∧ 24 * SPH_K ≤ s.do_fors_fors_roots.length ∧
  24 ≤ s.do_hyper_next_root.length ∧ s.do_hyper_merk.adr.length = 22 ∧
  24 * SPH_T ≤ s.do_hyper_merk.stack.length ∧
  s.pk_seed_pre = SHA256_set_first_block s.pk_seed 24

/-- The FORS trees `0 .. t-1` stand in the signature under construction. -/
def sph_fors_done (T : Tune) (P : Prims) (s : sh_signer) (t : Nat) : Prop :=
  ∀ t', t' < t →
    sph_fors_at T P s.sk_seed s.pk_seed_pre (sph_dg P s).1 (sph_dg P s).2.1 (sph_dg P s).2.2
      s.next_sphincs_sig t'

/-- The roots of the FORS trees `0 .. t-1` stand in `fors_roots`. -/
def sph_roots_done (T : Tune) (P : Prims) (s : sh_signer) (t : Nat) : Prop :=
  ∀ t', t' < t →
    slice s.do_fors_fors_roots (24 * t') 24
      = fors_node T P s.sk_seed s.pk_seed_pre (sph_dg P s).2.1 (sph_dg P s).2.2 t' SPH_A 0

/-- The hypertree layers `0 .. L-1` stand in the signature under
construction. -/
def sph_ht_done (T : Tune) (P : Prims) (s : sh_signer) (L : Nat) : Prop :=
  ∀ K, K < L →
    sph_ht_at T P s.sk_seed s.pk_seed_pre (sph_dg P s).2.1 (sph_dg P s).2.2
      s.next_sphincs_sig K

/-- The invariant of the SPHINCS+ phases of a build cycle, by build state:
what of the next SPHINCS+ signature stands already, and where the phase under
way has got to. -/
def sph_prog (T : Tune) (P : Prims) (s : sh_signer) : Prop :=
  sph_mem s ∧
  match s.build_state with
  | BuildState.b_fors =>
    s.do_fors_md = (sph_dg P s).1 ∧ s.idx_tree = (sph_dg P s).2.1 ∧
    s.idx_leaf = (sph_dg P s).2.2 ∧ s.do_fors_redundant_pass = false ∧
    sph_fors_done T P s s.do_fors_tree ∧ sph_roots_done T P s s.do_fors_tree ∧
    fors_mid T P s.sk_seed s.pk_seed_pre s.idx_tree s.idx_leaf s.do_fors_tree
      (s.do_fors_md.getD s.do_fors_tree 0) s.sphincs_sig_index s.do_fors_fors_roots
      s.do_fors_leaf 0 s
  | BuildState.b_complete_fors =>
    s.idx_tree = (sph_dg P s).2.1 ∧ s.idx_leaf = (sph_dg P s).2.2 ∧
    sph_fors_done T P s SPH_K ∧ sph_roots_done T P s SPH_K
  | BuildState.b_hypertree =>
    sph_fors_done T P s SPH_K ∧ sph_ht_done T P s s.do_hyper_level ∧
    s.idx_tree = (ht_idx (sph_dg P s).2.1 (sph_dg P s).2.2 s.do_hyper_level).1 ∧
    s.idx_leaf = (ht_idx (sph_dg P s).2.1 (sph_dg P s).2.2 s.do_hyper_level).2 ∧
    bytesN 24 s.do_hyper_prev_root
      = ht_msg T P s.sk_seed s.pk_seed_pre (sph_dg P s).2.1 (sph_dg P s).2.2 s.do_hyper_level ∧
    (s.do_hyper_do_tree ≠ 0 →
      (s.next_sphincs_sig.drop (5736 + 1416 * s.do_hyper_level)).take 1224
        = ht_wots T P s.sk_seed s.pk_seed_pre (sph_dg P s).2.1 (sph_dg P s).2.2
            s.do_hyper_level ∧
      merkle_mid T P s.sk_seed s.pk_seed_pre
        (ht_q (sph_dg P s).2.1 (sph_dg P s).2.2 s.do_hyper_level) SPH_T s.idx_leaf
        (some s.sphincs_sig_index) (some 0) s.do_hyper_merk.current_node 0 s.do_hyper_merk
        s.next_sphincs_sig s.do_hyper_next_root)
  | BuildState.b_done => sph_fors_done T P s SPH_K ∧ sph_ht_done T P s SPH_D
  | _ => True

/-- What a `step_next` call in `b_fors` never writes besides the keys: the
hypertree indices and the working set of `b_hypertree`. -/
def fors_keep (s : sh_signer) :
    Nat × Nat × List Nat × List Nat × build_merkle_state × Nat × Nat :=
  (s.idx_tree, s.idx_leaf, s.do_hyper_prev_root, s.do_hyper_next_root, s.do_hyper_merk,
   s.do_hyper_level, s.do_hyper_do_tree)

/-- The key material of a signer: the secret seed, the public seed, its
padded first block and the root of the hypertree. -/
def key_view (s : sh_signer) : List Nat × List Nat × List Nat × List Nat :=
  (s.sk_seed, s.pk_seed, s.pk_seed_pre, s.root)

/-- The signer holds the keys of the public key `pk`: its public seed and its
root are those of `pk`, and the root is the root of the top Merkle tree of the
hypertree (layer `SPH_D - 1`, tree 0) under the signer's secret seed. -/
def sph_keys (T : Tune) (P : Prims) (pk : List Nat) (s : sh_signer) : Prop :=
  bytesN 24 s.pk_seed = slice pk 4 24 ∧ bytesN 24 s.root = slice pk 28 24 ∧
  slice pk 28 24
    = merkle_node T P s.sk_seed s.pk_seed_pre ((7 % 256) :: put_bigendian (0 % 2 ^ 64) 8) SPH_T 0

/-- The first 28 bytes of an LMS public key `pub` for the identifier `I`: the
level count 1, the LMS type, the LM-OTS type and `I`. -/
def pub_hdr (T : Tune) (I pub : List Nat) : Prop :=
  bytesN 28 pub
    = put_bigendian 1 4 ++ (put_bigendian 0xe0000028 4 ++
        (put_bigendian (LM_OTS_PARAM_ID T) 4 ++ bytesN I_LEN I))

/-- From `b_fors` on the next LMS public key has its header. -/
def pub_prog (T : Tune) (s : sh_signer) : Prop :=
  match s.build_state with
  | BuildState.b_fors => pub_hdr T s.next_lms_I s.next_lms_pub_key
  | BuildState.b_complete_fors => pub_hdr T s.next_lms_I s.next_lms_pub_key
  | BuildState.b_hypertree => pub_hdr T s.next_lms_I s.next_lms_pub_key
  | BuildState.b_done => pub_hdr T s.next_lms_I s.next_lms_pub_key
  | _ => True

/-- The current SPHINCS+ signature of a signer is complete: it has its length,
the current LMS public key has its header, and the signature holds every FORS
tree and every hypertree layer of the digest of the current LMS public key. -/
def sph_cur (T : Tune) (P : Prims) (s : sh_signer) : Prop :=
  s.current_sphincs_sig.length = LEN_SPHINCS_SIG ∧
  pub_hdr T s.current_lms_I s.current_lms_pub_key ∧
  (∀ t, t < SPH_K → sph_fors_at T P s.sk_seed s.pk_seed_pre
    (do_compute_digest_index P 24 s.current_sphincs_sig s.pk_seed s.root
      (bytesN LEN_LMS_PUBLIC_KEY s.current_lms_pub_key) SPH_K SPH_A SPH_H SPH_D).1
    (do_compute_digest_index P 24 s.current_sphincs_sig s.pk_seed s.root
      (bytesN LEN_LMS_PUBLIC_KEY s.current_lms_pub_key) SPH_K SPH_A SPH_H SPH_D).2.1
    (do_compute_digest_index P 24 s.current_sphincs_sig s.pk_seed s.root
      (bytesN LEN_LMS_PUBLIC_KEY s.current_lms_pub_key) SPH_K SPH_A SPH_H SPH_D).2.2
    s.current_sphincs_sig t) ∧
  (∀ L, L < SPH_D → sph_ht_at T P s.sk_seed s.pk_seed_pre
    (do_compute_digest_index P 24 s.current_sphincs_sig s.pk_seed s.root
      (bytesN LEN_LMS_PUBLIC_KEY s.current_lms_pub_key) SPH_K SPH_A SPH_H SPH_D).2.1
    (do_compute_digest_index P 24 s.current_sphincs_sig s.pk_seed s.root
      (bytesN LEN_LMS_PUBLIC_KEY s.current_lms_pub_key) SPH_K SPH_A SPH_H SPH_D).2.2
    s.current_sphincs_sig L)

/-- The invariant of a signer for the public key `pk` between two calls of
`sh_sign`: the LMS side (`sign_inv`), the bookkeeping of the next SPHINCS+
signature, its progress, the header of the next LMS public key, the complete
current SPHINCS+ signature and the keys. -/
def hybrid_inv (T : Tune) (P : Prims) (pk : List Nat) (s : sh_signer) : Prop :=
  sign_inv T P s ∧ sig_inv s ∧ sph_prog T P s ∧ pub_prog T s ∧ sph_cur T P s ∧
  sph_keys T P pk s

/-! # Theorems -/

/-! ## Buffers and lengths -/

@[simp] theorem bytesN_length (n : Nat) (l : List Nat) : (bytesN n l).length = n := by
  simp [bytesN]

theorem bytesN_of_length {n : Nat} {l : List Nat} (h : l.length = n) : bytesN n l = l := by
  subst h
  simp [bytesN]

@[simp] theorem bytesN_bytesN (n : Nat) (l : List Nat) : bytesN n (bytesN n l) = bytesN n l :=
  bytesN_of_length (bytesN_length n l)

@[simp] theorem zeros_length (n : Nat) : (zeros n).length = n := by
  simp [zeros]

theorem blit_length (dst src : List Nat) (off : Nat) (h : off + src.length ≤ dst.length) :
    (blit dst off src).length = dst.length := by
  simp only [blit, List.length_append, List.length_take, List.length_drop]; omega

theorem memcpy_length (dst src : List Nat) (off n : Nat) (h : off + n ≤ dst.length) :
    (memcpy dst off src n).length = dst.length := by
  simp only [memcpy]
  exact blit_length _ _ _ (by simpa using h)

@[simp] theorem put_bigendian_length (v n : Nat) : (put_bigendian v n).length = n := by
  induction n generalizing v with
  | zero => simp [put_bigendian]
  | succ k ih => simp [put_bigendian, ih]

@[simp] theorem SHA256_length (P : Prims) (m : List Nat) : (SHA256 P m).length = 32 := by
  simp [SHA256]

theorem two_pow_pred {a : Nat} (h : 1 ≤ a) : 2 ^ a = 2 * 2 ^ (a - 1) := by
  obtain ⟨b, rfl⟩ : ∃ b, a = b + 1 := ⟨a - 1, by omega⟩
  simp [pow_succ']

/-! ## endian.c -/

theorem get_bigendian_eq (b : List Nat) (n : Nat) (h : b.length = n) :
    get_bigendian b n = b.foldl (fun result x => (256 * result + x % 256) % 2 ^ 64) 0 := by
  simp only [get_bigendian, bytesN_of_length h]

theorem be_fold_put (n : Nat) : ∀ v : Nat, n ≤ 8 →
    (put_bigendian v n).foldl (fun result x => (256 * result + x % 256) % 2 ^ 64) 0
      = v % 2 ^ (8 * n) := by
  induction n with
  | zero => intro v _; simp [put_bigendian, Nat.mod_one]
  | succ k ih =>
    intro v hk
    simp only [put_bigendian, List.foldl_append, List.foldl_cons, List.foldl_nil]
    rw [ih (v / 256) (by omega)]
    have e1 : 2 ^ (8 * (k + 1)) = 256 * 2 ^ (8 * k) := by
      rw [Nat.mul_add, pow_add]; norm_num; ring
    have e2 : v % (256 * 2 ^ (8 * k)) = v % 256 + 256 * (v / 256 % 2 ^ (8 * k)) := Nat.mod_mul
    have e3 : v % 2 ^ (8 * (k + 1)) < 2 ^ (8 * (k + 1)) := Nat.mod_lt _ (Nat.pow_pos (by norm_num))
    have e4 : 2 ^ (8 * (k + 1)) ≤ 2 ^ 64 := Nat.pow_le_pow_right (by norm_num) (by omega)
    have e5 : v % 256 % 256 = v % 256 := Nat.mod_mod _ _
    rw [e5, e1, e2]
    rw [e1, e2] at e3
    rw [e1] at e4
    rw [Nat.add_comm (256 * (v / 256 % 2 ^ (8 * k))) (v % 256)]
    apply Nat.mod_eq_of_lt
    omega

theorem be_fold_lt (b : List Nat) : b.length ≤ 8 →
    b.foldl (fun result x => (256 * result + x % 256) % 2 ^ 64) 0 < 2 ^ (8 * b.length) := by
  induction b using List.reverseRecOn with
  | nil => intro _; simp
  | append_singleton l x ih =>
    intro h
    simp only [List.length_append, List.length_singleton] at h
    simp only [List.foldl_append, List.foldl_cons, List.foldl_nil, List.length_append,
      List.length_singleton]
    have h1 := ih (by omega)
    have e1 : 2 ^ (8 * (l.length + 1)) = 256 * 2 ^ (8 * l.length) := by
      rw [Nat.mul_add, pow_add]; norm_num; ring
    have hx : x % 256 < 256 := Nat.mod_lt _ (by norm_num)
    have h2 : 256 * List.foldl (fun result x => (256 * result + x % 256) % 2 ^ 64) 0 l + x % 256
        < 256 * 2 ^ (8 * l.length) := by omega
    rw [e1]
    exact lt_of_le_of_lt (Nat.mod_le _ _) h2

theorem put_be_fold (b : List Nat) : b.length ≤ 8 → (∀ x ∈ b, x < 256) →
    put_bigendian (b.foldl (fun result x => (256 * result + x % 256) % 2 ^ 64) 0) b.length
      = b := by
  induction b using List.reverseRecOn with
  | nil => intro _ _; simp [put_bigendian]
  | append_singleton l x ih =>
    intro h hb
    simp only [List.length_append, List.length_singleton] at h
    have hx : x < 256 := hb x (by simp)
    have hl : ∀ y ∈ l, y < 256 := fun y hy => hb y (by simp [hy])
    have h1 := be_fold_lt l (by omega)
    have h3 : 2 ^ (8 * l.length) ≤ 2 ^ 56 := Nat.pow_le_pow_right (by norm_num) (by omega)
    simp only [List.foldl_append, List.foldl_cons, List.foldl_nil, List.length_append,
      List.length_singleton, put_bigendian]
    have hxm : x % 256 = x := Nat.mod_eq_of_lt hx
    have hm : (256 * List.foldl (fun result x => (256 * result + x % 256) % 2 ^ 64) 0 l + x % 256)
        % 2 ^ 64 = 256 * List.foldl (fun result x => (256 * result + x % 256) % 2 ^ 64) 0 l + x := by
      rw [hxm]; apply Nat.mod_eq_of_lt; omega
    rw [hm]
    have d1 : (256 * List.foldl (fun result x => (256 * result + x % 256) % 2 ^ 64) 0 l + x) / 256
        = List.foldl (fun result x => (256 * result + x % 256) % 2 ^ 64) 0 l := by omega
    have d2 : (256 * List.foldl (fun result x => (256 * result + x % 256) % 2 ^ 64) 0 l + x) % 256
        = x := by omega
    rw [d1, d2, ih (by omega) hl]

/-- C20: for a byte count `n` in 1..8 and a 64-bit value `v`, reading back
what `put_bigendian` wrote gives `v mod 2^(8n)`, `put_bigendian` writes
exactly `n` bytes, and writing back what `get_bigendian` read from `n` bytes
`b` reproduces `b`. -/
theorem bigendian_round_trip (n v : Nat) (_hn1 : 1 ≤ n) (hn8 : n ≤ 8) (_hv : v < 2 ^ 64) :
    get_bigendian (put_bigendian v n) n = v % 2 ^ (8 * n) ∧
    (put_bigendian v n).length = n ∧
    (v < 2 ^ (8 * n) → get_bigendian (put_bigendian v n) n = v) ∧
    get_bigendian (put_bigendian (2 ^ (8 * n) - 1) n) n = 2 ^ (8 * n) - 1 ∧
    ∀ b : List Nat, b.length = n → (∀ x ∈ b, x < 256) →
      put_bigendian (get_bigendian b n) n = b := by
  have hg : ∀ w : Nat, get_bigendian (put_bigendian w n) n = w % 2 ^ (8 * n) := by
    intro w
    rw [get_bigendian_eq _ _ (put_bigendian_length w n)]
    exact be_fold_put n w hn8
  have hpos : 0 < 2 ^ (8 * n) := Nat.pow_pos (by norm_num)
  refine ⟨hg v, put_bigendian_length v n, ?_, ?_, ?_⟩
  · intro h; rw [hg v]; exact Nat.mod_eq_of_lt h
  · rw [hg]; exact Nat.mod_eq_of_lt (by omega)
  · intro b hb hx
    rw [get_bigendian_eq b n hb]
    subst hb
    exact put_be_fold b hn8 hx

/-- Witness for `bigendian_round_trip`: four bytes and the value 0xe0000028. -/
theorem bigendian_round_trip_witness :
    get_bigendian (put_bigendian 0xe0000028 4) 4 = 0xe0000028 % 2 ^ (8 * 4) ∧
    (put_bigendian 0xe0000028 4).length = 4 :=
  ⟨(bigendian_round_trip 4 0xe0000028 (by decide) (by decide) (by norm_num)).1,
   (bigendian_round_trip 4 0xe0000028 (by decide) (by decide) (by norm_num)).2.1⟩

/-! ## adr.c -/

theorem list_of_length_22 (l : List Nat) (h : l.length = 22) :
    ∃ a0 a1 a2 a3 a4 a5 a6 a7 a8 a9 a10 a11 a12 a13 a14 a15 a16 a17 a18 a19 a20 a21 : Nat,
      l = [a0, a1, a2, a3, a4, a5, a6, a7, a8, a9, a10, a11, a12, a13, a14, a15, a16, a17, a18, a19, a20, a21] := by
  rcases l with _ | ⟨a0, l⟩
  · simp at h
  rcases l with _ | ⟨a1, l⟩
  · simp at h
  rcases l with _ | ⟨a2, l⟩
  · simp at h
  rcases l with _ | ⟨a3, l⟩
  · simp at h
  rcases l with _ | ⟨a4, l⟩
  · simp at h
  rcases l with _ | ⟨a5, l⟩
  · simp at h
  rcases l with _ | ⟨a6, l⟩
  · simp at h
  rcases l with _ | ⟨a7, l⟩
  · simp at h
  rcases l with _ | ⟨a8, l⟩
  · simp at h
  rcases l with _ | ⟨a9, l⟩
  · simp at h
  rcases l with _ | ⟨a10, l⟩
  · simp at h
  rcases l with _ | ⟨a11, l⟩
  · simp at h
  rcases l with _ | ⟨a12, l⟩
  · simp at h
  rcases l with _ | ⟨a13, l⟩
  · simp at h
  rcases l with _ | ⟨a14, l⟩
  · simp at h
  rcases l with _ | ⟨a15, l⟩
  · simp at h
  rcases l with _ | ⟨a16, l⟩
  · simp at h
  rcases l with _ | ⟨a17, l⟩
  · simp at h
  rcases l with _ | ⟨a18, l⟩
  · simp at h
  rcases l with _ | ⟨a19, l⟩
  · simp at h
  rcases l with _ | ⟨a20, l⟩
  · simp at h
  rcases l with _ | ⟨a21, l⟩
  · simp at h
  rcases l with _ | ⟨x, l⟩
  · exact ⟨a0, a1, a2, a3, a4, a5, a6, a7, a8, a9, a10, a11, a12, a13, a14, a15, a16, a17, a18, a19, a20, a21, rfl⟩
  · simp at h

/-- C18: on a 22-byte address `set_type` stores the type at byte 9 (as an
`unsigned char`), clears bytes 10..21 and keeps bytes 0..8. -/
theorem set_type_spec (adr : List Nat) (t : Nat) (h : adr.length = 22) :
    set_type adr t = adr.take 9 ++ [t % 256] ++ List.replicate 12 0 ∧
    (set_type adr t).length = 22 ∧
    (t < 256 → (set_type adr t).getD 9 0 = t) := by
  obtain ⟨a0, a1, a2, a3, a4, a5, a6, a7, a8, a9, a10, a11, a12, a13, a14, a15, a16, a17, a18,
    a19, a20, a21, rfl⟩ := list_of_length_22 adr h
  refine ⟨rfl, rfl, ?_⟩
  intro ht
  show t % 256 = t
  exact Nat.mod_eq_of_lt ht

/-- Witness for `set_type_spec`: the all-zero address and the type
`FORS_TREE_ADDRESS`. -/
theorem set_type_spec_witness :
    set_type (zeros 22) FORS_TREE_ADDRESS
      = (zeros 22).take 9 ++ [FORS_TREE_ADDRESS % 256] ++ List.replicate 12 0 :=
  (set_type_spec (zeros 22) FORS_TREE_ADDRESS (by decide)).1

/-- C19: on a 22-byte address the five field setters keep bytes 0..9 (layer,
tree, type) whatever the argument, `set_layer_address` changes byte 0 only,
and `set_tree_address` changes bytes 1..8 only, to the big-endian 64-bit
value. -/
theorem adr_setters_frame (adr : List Nat) (v : Nat) (h : adr.length = 22) :
    (set_key_pair_address adr v).take 10 = adr.take 10 ∧
    (set_chain_address adr v).take 10 = adr.take 10 ∧
    (set_hash_address adr v).take 10 = adr.take 10 ∧
    (set_tree_height adr v).take 10 = adr.take 10 ∧
    (set_tree_index adr v).take 10 = adr.take 10 ∧
    set_layer_address adr v = (v % 256) :: adr.drop 1 ∧
    set_tree_address adr v = adr.take 1 ++ put_bigendian (v % 2 ^ 64) 8 ++ adr.drop 9 := by
  obtain ⟨a0, a1, a2, a3, a4, a5, a6, a7, a8, a9, a10, a11, a12, a13, a14, a15, a16, a17, a18,
    a19, a20, a21, rfl⟩ := list_of_length_22 adr h
  exact ⟨rfl, rfl, rfl, rfl, rfl, rfl, rfl⟩

/-- Witness for `adr_setters_frame`: the all-zero address. -/
theorem adr_setters_frame_witness :
    (set_key_pair_address (zeros 22) 7).take 10 = (zeros 22).take 10 :=
  (adr_setters_frame (zeros 22) 7 (by decide)).1

/-! ## wots.c -/

/-- The two base-16 digits of every byte of a hash, high digit first. -/
theorem wots_digit_loop_spec (hash : List Nat) : ∀ (digits : List Nat) (csum : Nat),
    (wots_digit_loop hash digits csum).1
      = digits ++ (hash.map (fun x => [x % 256 / 16, x % 256 % 16])).flatten ∧
    (wots_digit_loop hash digits csum).2
      = csum + ((hash.map (fun x => [x % 256 / 16, x % 256 % 16])).flatten.map
          (fun d => 15 - d)).sum := by
  induction hash with
  | nil => intro digits csum; simp [wots_digit_loop]
  | cons x rest ih =>
    intro digits csum
    simp only [wots_digit_loop]
    obtain ⟨h1, h2⟩ := ih (digits ++ [x % 256 / 16, x % 256 % 16])
      (csum + (15 - x % 256 / 16) + (15 - x % 256 % 16))
    rw [h1, h2]
    simp [List.flatten, Nat.add_assoc]

theorem nibbles_length (hash : List Nat) :
    ((hash.map (fun x => [x % 256 / 16, x % 256 % 16])).flatten).length = 2 * hash.length := by
  induction hash with
  | nil => simp
  | cons x rest ih => simp only [List.map_cons, List.flatten_cons, List.length_append, ih]; simp; omega

theorem nibbles_lt (hash : List Nat) :
    ∀ d ∈ (hash.map (fun x => [x % 256 / 16, x % 256 % 16])).flatten, d < 16 := by
  induction hash with
  | nil => simp
  | cons x rest ih =>
    intro d hd
    simp only [List.map_cons, List.flatten_cons, List.mem_append, List.mem_cons,
      List.mem_singleton, List.not_mem_nil, or_false] at hd
    rcases hd with (h | h) | h
    · subst h; omega
    · subst h; omega
    · exact ih d h

theorem nibbles_getD (hash : List Nat) : ∀ i, i < hash.length →
    ((hash.map (fun x => [x % 256 / 16, x % 256 % 16])).flatten).getD (2 * i) 0
      = hash.getD i 0 % 256 / 16 ∧
    ((hash.map (fun x => [x % 256 / 16, x % 256 % 16])).flatten).getD (2 * i + 1) 0
      = hash.getD i 0 % 256 % 16 := by
  induction hash with
  | nil => intro i h; simp at h
  | cons x rest ih =>
    intro i h
    cases i with
    | zero => simp
    | succ j =>
      have := ih j (by simpa using h)
      simp only [List.map_cons, List.flatten_cons]
      have e1 : 2 * (j + 1) = (2 * j) + 1 + 1 := by ring
      rw [e1]
      simp only [List.cons_append, List.nil_append, List.getD_cons_succ]
      exact this

theorem checksum_sum_le (l : List Nat) : (l.map (fun d => 15 - d)).sum ≤ 15 * l.length := by
  induction l with
  | nil => simp
  | cons x rest ih => simp only [List.map_cons, List.sum_cons, List.length_cons]; omega

theorem expand_wots_digits_eq (size : Nat) (H : List Nat) (hH : H.length = 24) (hs : 51 ≤ size) :
    expand_wots_digits size H 24 =
      (51, (H.map (fun x => [x % 256 / 16, x % 256 % 16])).flatten ++
        [(((H.map (fun x => [x % 256 / 16, x % 256 % 16])).flatten.map
            (fun d => 15 - d)).sum / 2 ^ 8) % 16,
         (((H.map (fun x => [x % 256 / 16, x % 256 % 16])).flatten.map
            (fun d => 15 - d)).sum / 2 ^ 4) % 16,
         ((H.map (fun x => [x % 256 / 16, x % 256 % 16])).flatten.map
            (fun d => 15 - d)).sum % 16]) := by
  have h1 : ¬ size < 2 * 24 := by omega
  have h2 : ¬ size - 2 * 24 < 3 := by omega
  obtain ⟨a, b⟩ := wots_digit_loop_spec H [] 0
  simp only [expand_wots_digits, h1, h2, if_false, bytesN_of_length hH, a, b,
    List.nil_append, Nat.zero_add]

/-- The count returned by `expand_wots_digits` for a 24-byte hash and a
buffer of 51 digits: always 51. -/
theorem expand_wots_digits_count (H : List Nat) : (expand_wots_digits 51 H 24).1 = 51 := by
  simp [expand_wots_digits]

/-- C21: for a 24-byte hash and a buffer of at least 51 digits,
`expand_wots_digits` returns 51 and writes 51 digits below 16: the 48 nibbles
of the hash, high nibble first, then the three base-16 digits of the
checksum `sum (15 - d_i)`; with a buffer smaller than `2*hash_len + 3` it
returns 0. -/
theorem expand_wots_digits_spec (size : Nat) (H : List Nat) (hH : H.length = 24)
    (hb : ∀ x ∈ H, x < 256) (hs : 51 ≤ size) :
    (expand_wots_digits size H 24).1 = 51 ∧
    (expand_wots_digits size H 24).2.length = 51 ∧
    (∀ d ∈ (expand_wots_digits size H 24).2, d < 16) ∧
    (∀ i, i < 24 →
      (expand_wots_digits size H 24).2.getD (2 * i) 0 = H.getD i 0 / 16 ∧
      (expand_wots_digits size H 24).2.getD (2 * i + 1) 0 = H.getD i 0 % 16) ∧
    256 * (expand_wots_digits size H 24).2.getD 48 0
        + 16 * (expand_wots_digits size H 24).2.getD 49 0
        + (expand_wots_digits size H 24).2.getD 50 0
      = (((expand_wots_digits size H 24).2.take 48).map (fun d => 15 - d)).sum ∧
    (∀ (size2 hash_len : Nat) (hash : List Nat), size2 < 2 * hash_len + 3 →
      (expand_wots_digits size2 hash hash_len).1 = 0) := by
  rw [expand_wots_digits_eq size H hH hs]
  have hl := nibbles_length H
  rw [hH] at hl
  have hlt := nibbles_lt H
  have hsum := checksum_sum_le ((H.map (fun x => [x % 256 / 16, x % 256 % 16])).flatten)
  rw [hl] at hsum
  generalize hN : (H.map (fun x => [x % 256 / 16, x % 256 % 16])).flatten = N at hl hlt hsum
  generalize hc : (N.map (fun d => 15 - d)).sum = c at hsum
  refine ⟨rfl, ?_, ?_, ?_, ?_, ?_⟩
  · simp [hl]
  · intro d hd
    simp only [List.mem_append, List.mem_cons, List.mem_singleton, List.not_mem_nil,
      or_false] at hd
    rcases hd with h | h | h | h
    · exact hlt d h
    · subst h; exact Nat.mod_lt _ (by norm_num)
    · subst h; exact Nat.mod_lt _ (by norm_num)
    · subst h; exact Nat.mod_lt _ (by norm_num)
  · intro i hi
    have hg := nibbles_getD H i (by omega)
    rw [hN] at hg
    have hx : H.getD i 0 < 256 := by
      have : i < H.length := by omega
      rw [List.getD_eq_getElem _ _ this]
      exact hb _ (List.getElem_mem _)
    have hxm : H.getD i 0 % 256 = H.getD i 0 := Nat.mod_eq_of_lt hx
    rw [hxm] at hg
    simp only []
    rw [List.getD_append _ _ _ _ (by omega), List.getD_append _ _ _ _ (by omega)]
    exact hg
  · simp only []
    rw [List.getD_append_right _ _ _ _ (by omega), List.getD_append_right _ _ _ _ (by omega),
      List.getD_append_right _ _ _ _ (by omega)]
    have t48 : List.take 48 (N ++ [c / 2 ^ 8 % 16, c / 2 ^ 4 % 16, c % 16]) = N := by
      rw [List.take_append_of_le_length (by omega)]
      exact List.take_of_length_le (by omega)
    rw [t48, hc, hl]
    simp
    omega
  · intro size2 hash_len hash h
    simp only [expand_wots_digits]
    split
    · rfl
    · split
      · rfl
      · omega

/-- Witness for `expand_wots_digits_spec`: the all-zero hash. -/
theorem expand_wots_digits_spec_witness :
    (expand_wots_digits 51 (zeros 24) 24).1 = 51 :=
  (expand_wots_digits_spec 51 (zeros 24) (by decide) (by decide) (by decide)).1

/-! ## Copies into buffers -/

theorem memcpy_zero_take (d src : List Nat) (n : Nat) :
    (memcpy d 0 src n).take n = bytesN n src := by
  simp only [memcpy, blit, List.take_zero, List.nil_append, Nat.zero_add]
  rw [List.take_append_of_le_length (by simp)]
  exact List.take_of_length_le (by simp)

theorem memcpy_full (d src : List Nat) (n : Nat) (hd : d.length = n) (hs : src.length = n) :
    memcpy d 0 src n = src := by
  simp only [memcpy, blit, List.take_zero, List.nil_append, Nat.zero_add, bytesN_length,
    bytesN_of_length hs]
  rw [List.drop_of_length_le (by omega)]
  simp

theorem memcpy_take_before (d src : List Nat) (off n k : Nat) (hk : k ≤ off)
    (ho : off ≤ d.length) : (memcpy d off src n).take k = d.take k := by
  simp only [memcpy, blit, List.append_assoc]
  rw [List.take_append_of_le_length (by simp; omega)]
  rw [List.take_take]
  congr 1
  omega

theorem memcpy_drop_after (d src : List Nat) (off n k : Nat) (hk : off + n ≤ k)
    (ho : off + n ≤ d.length) : (memcpy d off src n).drop k = d.drop k := by
  simp only [memcpy, blit, bytesN_length, List.append_assoc]
  have h1 : (List.take off d).length = off := by simp; omega
  have e1 : k = (List.take off d).length + (k - off) := by omega
  rw [e1, List.drop_append]
  have e2 : k - off = (bytesN n src).length + (k - off - n) := by simp; omega
  rw [e2, List.drop_append, List.drop_drop, h1]
  congr 1
  simp
  omega

theorem bytesN_append_left (l r : List Nat) (n : Nat) (h : l.length = n) :
    bytesN n (l ++ r) = l := by
  simp only [bytesN, List.append_assoc]
  exact List.take_left' h

theorem slice_memcpy_same (d src : List Nat) (off n : Nat) (ho : off ≤ d.length) :
    slice (memcpy d off src n) off n = bytesN n src := by
  simp only [slice, memcpy, blit, List.append_assoc]
  have h1 : (List.take off d).length = off := by simp; omega
  have e1 : List.drop off (List.take off d ++ (bytesN n src ++ List.drop (off + (bytesN n src).length) d))
      = bytesN n src ++ List.drop (off + (bytesN n src).length) d := by
    exact List.drop_left' h1
  rw [e1]
  exact bytesN_append_left _ _ _ (bytesN_length n src)

/-! ## keygen.c -/

theorem lookup_geometry_192s : lookup_hypertree_geometry (192 / 8) 0 = some (8, 8) := by
  decide

/-- C12: with an unsupported parameter or a buffer that is too small,
`sh_keygen` returns false and leaves both buffers and both size outputs as
they were. -/
theorem sh_keygen_argument_violation (T : Tune) (P : Prims) (fuel : Nat)
    (state0 : build_merkle_state) (hash_function hash_size time_space : Int)
    (do_rand : Option (Nat → Option (List Nat)))
    (sk_buffer : List Nat) (size_sk : Option Nat) (pk_buffer : List Nat) (size_pk : Option Nat)
    (h : hash_function ≠ 1 ∨ hash_size ≠ 192 ∨ time_space ≠ 1 ∨ sk_buffer.length < 100 ∨
      pk_buffer.length < 52) :
    sh_keygen T P fuel state0 hash_function hash_size time_space do_rand
        sk_buffer size_sk pk_buffer size_pk =
      some { ok := false, sk_buffer := sk_buffer, pk_buffer := pk_buffer,
             size_sk := size_sk, size_pk := size_pk } := by
  simp only [sh_keygen, lookup_geometry_192s]
  by_cases h1 : hash_function ≠ 1
  · rw [if_pos h1]
  · rw [if_neg h1]
    by_cases h2 : hash_size ≠ 192
    · rw [if_pos h2]
    · rw [if_neg h2]
      by_cases h3 : time_space ≠ 1
      · rw [if_pos h3]
      · rw [if_neg h3]
        have h4 : sk_buffer.length < 100 ∨ pk_buffer.length < 52 := by tauto
        by_cases h5 : 4 + 4 * (192 / 8) > sk_buffer.length
        · rw [if_pos h5]
        · rw [if_neg h5]
          have h6 : 4 + 2 * (192 / 8) > pk_buffer.length := by
            norm_num at h5 ⊢; omega
          rw [if_pos h6]

/-- Witness for `sh_keygen_argument_violation`: the unsupported hash function 0. -/
theorem sh_keygen_argument_violation_witness :
    sh_keygen tune zero_prims 0 blank_merkle 0 192 1 (some test_rand)
        (zeros 100) (some 0) (zeros 52) (some 0) =
      some { ok := false, sk_buffer := zeros 100, pk_buffer := zeros 52,
             size_sk := some 0, size_pk := some 0 } :=
  sh_keygen_argument_violation tune zero_prims 0 blank_merkle 0 192 1 (some test_rand)
    (zeros 100) (some 0) (zeros 52) (some 0) (Or.inl (by decide))

/-- C13: with valid parameters and buffers but a random callback that is
null or fails, `sh_keygen` returns false and the first 100 bytes of the
secret key buffer and the first 52 bytes of the public key buffer are zero. -/
theorem sh_keygen_entropy_failure (T : Tune) (P : Prims) (fuel : Nat)
    (state0 : build_merkle_state) (do_rand : Option (Nat → Option (List Nat)))
    (sk_buffer : List Nat) (size_sk : Option Nat) (pk_buffer : List Nat) (size_pk : Option Nat)
    (hsk : 100 ≤ sk_buffer.length) (hpk : 52 ≤ pk_buffer.length)
    (hr : do_rand = none ∨ ∃ rand, do_rand = some rand ∧ rand 72 = none) :
    ∃ r, sh_keygen T P fuel state0 1 192 1 do_rand sk_buffer size_sk pk_buffer size_pk = some r ∧
      r.ok = false ∧ r.sk_buffer.take 100 = zeros 100 ∧ r.pk_buffer.take 52 = zeros 52 ∧
      r.sk_buffer.length = sk_buffer.length ∧ r.pk_buffer.length = pk_buffer.length := by
  have h5 : ¬ 4 + 4 * (192 / 8) > sk_buffer.length := by norm_num; omega
  have h6 : ¬ 4 + 2 * (192 / 8) > pk_buffer.length := by norm_num; omega
  have hz1 : ∀ d : List Nat, (memcpy d 0 (zeros 100) 100).take 100 = zeros 100 := by
    intro d; rw [memcpy_zero_take]; exact bytesN_of_length (zeros_length 100)
  have hz2 : ∀ d : List Nat, (memcpy d 0 (zeros 52) 52).take 52 = zeros 52 := by
    intro d; rw [memcpy_zero_take]; exact bytesN_of_length (zeros_length 52)
  have hl1 : (memcpy (memcpy sk_buffer 0 [1, 192 / 8, 0, HASH_TYPE_SHA256 ||| HASH_LEN_192] 4) 0
      (zeros 100) 100).length = sk_buffer.length := by
    rw [memcpy_length _ _ _ _ (by rw [memcpy_length _ _ _ _ (by omega)]; omega),
      memcpy_length _ _ _ _ (by omega)]
  have hl2 : (memcpy (memcpy pk_buffer 0 [1, 192 / 8, 0, HASH_TYPE_SHA256 ||| HASH_LEN_192] 4) 0
      (zeros 52) 52).length = pk_buffer.length := by
    rw [memcpy_length _ _ _ _ (by rw [memcpy_length _ _ _ _ (by omega)]; omega),
      memcpy_length _ _ _ _ (by omega)]
  have q1 : ¬ ((1 : Int) ≠ 1) := by decide
  have q2 : ¬ ((192 : Int) ≠ 192) := by decide
  rcases hr with hr | ⟨rand, hr, hn⟩
  · subst hr
    simp only [sh_keygen, lookup_geometry_192s]
    rw [if_neg q1, if_neg q2, if_neg q1, if_neg h5, if_neg h6]
    exact ⟨_, rfl, rfl, hz1 _, hz2 _, hl1, hl2⟩
  · subst hr
    have hn' : rand (3 * (192 / 8)) = none := hn
    simp only [sh_keygen, lookup_geometry_192s]
    rw [if_neg q1, if_neg q2, if_neg q1, if_neg h5, if_neg h6]
    simp only [hn']
    exact ⟨_, rfl, rfl, hz1 _, hz2 _, hl1, hl2⟩

/-- Witness for `sh_keygen_entropy_failure`: a null random callback. -/
theorem sh_keygen_entropy_failure_witness :
    ∃ r, sh_keygen tune zero_prims 0 blank_merkle 1 192 1 none (zeros 100) none (zeros 52) none
        = some r ∧
      r.ok = false ∧ r.sk_buffer.take 100 = zeros 100 ∧ r.pk_buffer.take 52 = zeros 52 ∧
      r.sk_buffer.length = (zeros 100).length ∧ r.pk_buffer.length = (zeros 52).length :=
  sh_keygen_entropy_failure tune zero_prims 0 blank_merkle none (zeros 100) none (zeros 52) none
    (by decide) (by decide) (Or.inl rfl)

/-! ## hmac_drbg.c -/

theorem update_drbg_counter (P : Prims) (d : hmac_drbg) (data : Option (List Nat)) (n : Nat) :
    (update_drbg P d data n).reseed_counter = d.reseed_counter := by
  simp only [update_drbg]
  split <;> rfl

theorem read_drbg_fail (P : Prims) (b : List Nat) (n : Nat) (d : hmac_drbg)
    (h : 2 ^ 48 ≤ d.reseed_counter) : read_drbg P b n d = (false, b, d) := by
  simp only [read_drbg]
  rw [if_pos h]

theorem read_drbg_ok (P : Prims) (b : List Nat) (n : Nat) (d : hmac_drbg)
    (h : d.reseed_counter < 2 ^ 48) :
    (read_drbg P b n d).1 = true ∧
    (read_drbg P b n d).2.2.reseed_counter = d.reseed_counter + 1 := by
  have h' : ¬ d.reseed_counter ≥ 2 ^ 48 := by omega
  simp only [read_drbg]
  rw [if_neg h']
  refine ⟨rfl, ?_⟩
  simp only [update_drbg_counter]
  apply Nat.mod_eq_of_lt
  omega

/-! ## step.c: the failure latch and the switch -/

theorem step_next_fatal (T : Tune) (P : Prims) (s : sh_signer) (h : s.got_fatal_error = true) :
    step_next T P s = (true, s) := by
  simp only [step_next, h, if_true]

/-- C16: once `got_fatal_error` is set, `step_next` returns true and changes
nothing, and `sh_sign` returns false, zeroes the output buffer and changes
nothing; so the flag is never cleared. -/
theorem fatal_error_latch (T : Tune) (P : Prims) (s : sh_signer)
    (h : s.got_fatal_error = true) :
    step_next T P s = (true, s) ∧
    ∀ (buf message : List Nat),
      sh_sign T P (some buf) (some s) message = (false, some (zeros buf.length), some s) := by
  refine ⟨step_next_fatal T P s h, ?_⟩
  intro buf message
  simp only [sh_sign, h, or_true, if_true]

/-- Witness for `fatal_error_latch`: zero-filled signer memory with the flag set. -/
theorem fatal_error_latch_witness :
    step_next tune zero_prims { blank_signer with got_fatal_error := true }
      = (true, { blank_signer with got_fatal_error := true }) :=
  (fatal_error_latch tune zero_prims { blank_signer with got_fatal_error := true } rfl).1

theorem step_hypertree_true (T : Tune) (P : Prims) (s : sh_signer)
    (h : (step_hypertree T P s).1 = true) : (step_hypertree T P s).2.got_fatal_error = true := by
  revert h
  simp only [step_hypertree, failure_state]
  split_ifs <;> simp

theorem step_next_true (T : Tune) (P : Prims) (s : sh_signer)
    (hb : s.build_state ≠ b_done) (h : (step_next T P s).1 = true) :
    (step_next T P s).2.got_fatal_error = true := by
  revert h
  by_cases hf : s.got_fatal_error = true
  · rw [step_next_fatal T P s hf]; intro _; exact hf
  · simp only [step_next, hf, failure_state]
    have hh := step_hypertree_true T P s
    cases hs : s.build_state <;> simp only [hs] at hb ⊢
    · split_ifs <;> first | contradiction | simp
    · simp
    · simp
    · split_ifs <;> first | contradiction | simp
    · split_ifs <;> first | contradiction | simp
    · simpa using hh
    · exact absurd rfl hb
    · simp

/-- C22: for a signer in `b_done` without fatal error (its arrays having the
sizes declared in `sh_signer.h`), one `step_next` call returns true, makes
`current_lms_seed`, `current_lms_I`, `current_lms_pub_key` and `current_fake`
equal to the former `next_*` values, exchanges the current and next LMS top
subtree, LMS bottom subtree and SPHINCS+ signature buffer, and sets
`current_lms_index = 0` and `build_state = b_init`; in every other build state
`step_next` returns true only with `got_fatal_error` set. -/
theorem b_done_transition (T : Tune) (P : Prims) (s : sh_signer)
    (hf : s.got_fatal_error = false)
    (h1 : s.current_lms_seed.length = 32) (h2 : s.next_lms_seed.length = 32)
    (h3 : s.current_lms_I.length = 16) (h4 : s.next_lms_I.length = 16)
    (h5 : s.current_lms_pub_key.length = LEN_LMS_PUBLIC_KEY)
    (h6 : s.next_lms_pub_key.length = LEN_LMS_PUBLIC_KEY)
    (h7 : s.current_fake.length = 24 * LMS_FAKE T)
    (h8 : s.next_fake.length = 24 * LMS_FAKE T) :
    (s.build_state = b_done →
      (step_next T P s).1 = true ∧
      (step_next T P s).2.current_lms_seed = s.next_lms_seed ∧
      (step_next T P s).2.current_lms_I = s.next_lms_I ∧
      (step_next T P s).2.current_lms_pub_key = s.next_lms_pub_key ∧
      (step_next T P s).2.current_fake = s.next_fake ∧
      (step_next T P s).2.current_lms_top_subtree = s.next_lms_top_subtree ∧
      (step_next T P s).2.next_lms_top_subtree = s.current_lms_top_subtree ∧
      (step_next T P s).2.current_lms_bottom_subtree = s.next_lms_bottom_subtree ∧
      (step_next T P s).2.next_lms_bottom_subtree = s.current_lms_bottom_subtree ∧
      (step_next T P s).2.current_sphincs_sig = s.next_sphincs_sig ∧
      (step_next T P s).2.next_sphincs_sig = s.current_sphincs_sig ∧
      (step_next T P s).2.current_lms_index = 0 ∧
      (step_next T P s).2.build_state = b_init ∧
      (step_next T P s).2.got_fatal_error = false) ∧
    (s.build_state ≠ b_done → (step_next T P s).1 = true →
      (step_next T P s).2.got_fatal_error = true) := by
  refine ⟨?_, fun hb h => step_next_true T P s hb h⟩
  intro hb
  have hfake : (if LMS_FAKE T ≠ 0 then memcpy s.current_fake 0 s.next_fake (24 * LMS_FAKE T)
      else s.current_fake) = s.next_fake := by
    split
    · exact memcpy_full _ _ _ h7 h8
    · rename_i h0
      have h0 : LMS_FAKE T = 0 := by simpa using h0
      rw [h0] at h7 h8
      simp only [Nat.mul_zero, List.length_eq_zero] at h7 h8
      rw [h7, h8]
  simp only [step_next, hf, hb, Bool.false_eq_true, if_false, hfake,
    memcpy_full _ _ _ h1 h2, memcpy_full _ _ _ h3 h4, memcpy_full _ _ _ h5 h6, and_self]

/-- Witness for `b_done_transition`: zero-filled signer memory in `b_done`. -/
theorem b_done_transition_witness :
    (step_next tune zero_prims { blank_signer with build_state := b_done }).1 = true ∧
    (step_next tune zero_prims { blank_signer with build_state := b_done }).2.build_state
      = b_init :=
  have h := (b_done_transition tune zero_prims { blank_signer with build_state := b_done }
    rfl (by decide) (by decide) (by decide) (by decide) (by decide) (by decide) (by decide)
    (by decide)).1 rfl
  ⟨h.1, h.2.2.2.2.2.2.2.2.2.2.2.2.1⟩

/-! ## step.c: the DRBG draws -/

theorem step_lms_finished_fatal (T : Tune) (P : Prims) (s : sh_signer) :
    (step_lms_finished T P s).got_fatal_error = s.got_fatal_error := by
  simp only [step_lms_finished]
  split <;> rfl

theorem step_lms_finished_state (T : Tune) (P : Prims) (s : sh_signer) :
    (step_lms_finished T P s).build_state = b_fors := by
  simp only [step_lms_finished]

theorem step_next_lms_finished (T : Tune) (P : Prims) (s : sh_signer)
    (hf : s.got_fatal_error = false) (hb : s.build_state = b_lms_finished) :
    step_next T P s = (false, step_lms_finished T P s) := by
  simp only [step_next, hf, hb, Bool.false_eq_true, if_false]

/-- C17 (counterexample): with the DRBG at its reseed limit in `b_lms_finished`
the draw of the faked path fails, yet `step_next` returns false and leaves
`got_fatal_error` clear. -/
theorem exhausted_drbg_ignored :
    (read_drbg zero_prims (exhausted_signer b_lms_finished).next_fake (24 * LMS_FAKE tune)
      (exhausted_signer b_lms_finished).drbg).1 = false ∧
    (step_next tune zero_prims (exhausted_signer b_lms_finished)).1 = false ∧
    (step_next tune zero_prims (exhausted_signer b_lms_finished)).2.got_fatal_error = false := by
  refine ⟨?_, ?_, ?_⟩
  · rw [read_drbg_fail _ _ _ _ (Nat.le_refl _)]
  · rw [step_next_lms_finished _ _ _ rfl rfl]
  · rw [step_next_lms_finished _ _ _ rfl rfl, step_lms_finished_fatal]
    rfl

/-- C17 (amended): in `b_init` a failing `read_drbg` (the draw of the seed, or
the draw of `I` after a successful draw of the seed) makes `step_next` return
true with `got_fatal_error` set; in `b_lms_finished` the results of the two
`read_drbg` calls are discarded, so `step_next` returns false, leaves
`got_fatal_error` clear and goes on to `b_fors` whatever they return. -/
theorem drbg_exhaustion (T : Tune) (P : Prims) (s : sh_signer)
    (hf : s.got_fatal_error = false) :
    (s.build_state = b_init →
      ((read_drbg P s.next_lms_seed 32 s.drbg).1 = false ∨
       (read_drbg P s.next_lms_I 16 (read_drbg P s.next_lms_seed 32 s.drbg).2.2).1 = false) →
      (step_next T P s).1 = true ∧ (step_next T P s).2.got_fatal_error = true) ∧
    (s.build_state = b_init → 2 ^ 48 ≤ s.drbg.reseed_counter + 1 →
      (step_next T P s).1 = true ∧ (step_next T P s).2.got_fatal_error = true) ∧
    (s.build_state = b_lms_finished →
      (step_next T P s).1 = false ∧ (step_next T P s).2.got_fatal_error = false ∧
      (step_next T P s).2.build_state = b_fors) := by
  have key : s.build_state = b_init →
      ((read_drbg P s.next_lms_seed 32 s.drbg).1 = false ∨
       (read_drbg P s.next_lms_I 16 (read_drbg P s.next_lms_seed 32 s.drbg).2.2).1 = false) →
      (step_next T P s).1 = true ∧ (step_next T P s).2.got_fatal_error = true := by
    intro hb h
    simp only [step_next, hf, hb, Bool.false_eq_true, if_false, failure_state]
    by_cases h1 : (read_drbg P s.next_lms_seed 32 s.drbg).1 = true
    · have h2 : (read_drbg P s.next_lms_I 16 (read_drbg P s.next_lms_seed 32 s.drbg).2.2).1
          = false := by
        rcases h with h | h
        · rw [h] at h1; cases h1
        · exact h
      simp [h1, h2]
    · simp [h1]
  refine ⟨key, ?_, ?_⟩
  · intro hb hc
    apply key hb
    by_cases h1 : 2 ^ 48 ≤ s.drbg.reseed_counter
    · left
      rw [read_drbg_fail _ _ _ _ h1]
    · right
      have h1 : s.drbg.reseed_counter < 2 ^ 48 := by omega
      have h2 := (read_drbg_ok P s.next_lms_seed 32 s.drbg h1).2
      rw [read_drbg_fail]
      omega
  · intro hb
    rw [step_next_lms_finished T P s hf hb, step_lms_finished_fatal, step_lms_finished_state]
    exact ⟨rfl, hf, rfl⟩

/-- Witness for `drbg_exhaustion`: zero-filled signer memory in `b_init` with
an exhausted DRBG. -/
theorem drbg_exhaustion_witness :
    (step_next tune zero_prims (exhausted_signer b_init)).1 = true ∧
    (step_next tune zero_prims (exhausted_signer b_init)).2.got_fatal_error = true :=
  (drbg_exhaustion tune zero_prims (exhausted_signer b_init) rfl).2.1 rfl (by decide)

/-! ## sign.c: the failure contract -/

theorem lm_ots_sig_len (T : Tune) (P : Prims) (I : List Nat) (q : Nat) (seed msg : List Nat) :
    (lm_ots_generate_signature T P I q seed msg).1 = 4 + 24 + LM_OTS_P T * 24 := by
  simp only [lm_ots_generate_signature]

theorem sh_sign_ok (T : Tune) (P : Prims) (buf : List Nat) (sg : sh_signer) (message : List Nat)
    (h1 : sg.initialized = true) (h2 : sg.got_fatal_error = false)
    (h3 : sh_sig_len T ≤ buf.length) :
    sh_sign T P (some buf) (some sg) message =
      (true,
       some (sign_write T buf sg (4 + 24 + LM_OTS_P T * 24)
         (lm_ots_generate_signature T P sg.current_lms_I sg.current_lms_index
           sg.current_lms_seed message).2),
       some (sign_advance T P sg)) := by
  have h4 : ¬ buf.length < 0 + LEN_SPHINCS_SIG + LEN_LMS_PUBLIC_KEY + 12 +
      24 * (1 + LM_OTS_P T) + 4 + 24 * 20 := by
    simp only [sh_sig_len] at h3; omega
  have h5 := lm_ots_sig_len T P sg.current_lms_I sg.current_lms_index sg.current_lms_seed message
  have h6 : ¬ (4 + 24 + LM_OTS_P T * 24 = 0) := by omega
  simp only [sh_sign, h1, h2, h4, h5, h6, if_false, not_true_eq_false, Bool.false_eq_true,
    or_self]

theorem sh_sign_small (T : Tune) (P : Prims) (buf : List Nat) (sg : Option sh_signer)
    (message : List Nat) (h3 : buf.length < sh_sig_len T) :
    sh_sign T P (some buf) sg message = (false, some (zeros buf.length), sg) := by
  have h4 : buf.length < 0 + LEN_SPHINCS_SIG + LEN_LMS_PUBLIC_KEY + 12 +
      24 * (1 + LM_OTS_P T) + 4 + 24 * 20 := by
    simp only [sh_sig_len] at h3; omega
  cases sg with
  | none => simp only [sh_sign]
  | some sg =>
    simp only [sh_sign, h4, if_true]
    split <;> rfl

theorem sh_sign_unusable (T : Tune) (P : Prims) (buf : List Nat) (sg : sh_signer)
    (message : List Nat) (h : sg.initialized = false ∨ sg.got_fatal_error = true) :
    sh_sign T P (some buf) (some sg) message = (false, some (zeros buf.length), some sg) := by
  have h' : ¬ sg.initialized = true ∨ sg.got_fatal_error = true := by
    rcases h with h | h
    · left; rw [h]; exact Bool.false_ne_true
    · right; exact h
  simp only [sh_sign, h', if_true]

/-- C5: `sh_sign` returns false exactly when the signature pointer is null, or
the signer is null, not initialized or in the fatal state, or the buffer is
shorter than `sh_sig_len`; a failing call leaves the signer as it was, and
with a non-null buffer all `len_signature_buf` bytes are zero afterwards. -/
theorem sh_sign_failure_contract (T : Tune) (P : Prims) (signature : Option (List Nat))
    (signer : Option sh_signer) (message : List Nat) :
    ((sh_sign T P signature signer message).1 = false ↔
      (signature = none ∨ signer = none ∨
        (∃ sg, signer = some sg ∧ (sg.initialized = false ∨ sg.got_fatal_error = true)) ∨
        (∃ buf, signature = some buf ∧ buf.length < sh_sig_len T))) ∧
    ((sh_sign T P signature signer message).1 = false →
      (sh_sign T P signature signer message).2.2 = signer ∧
      (sh_sign T P signature signer message).2.1 = signature.map (fun buf => zeros buf.length))
    := by
  cases signature with
  | none => simp [sh_sign]
  | some buf =>
    by_cases h3 : buf.length < sh_sig_len T
    · rw [sh_sign_small T P buf signer message h3]
      simp [h3]
    · cases signer with
      | none => simp [sh_sign]
      | some sg =>
        by_cases h : sg.initialized = false ∨ sg.got_fatal_error = true
        · rw [sh_sign_unusable T P buf sg message h]
          simp [h]
        · have h1 : sg.initialized = true := by
            cases hi : sg.initialized
            · exact absurd (Or.inl hi) h
            · rfl
          have h2 : sg.got_fatal_error = false := by
            cases hi : sg.got_fatal_error
            · rfl
            · exact absurd (Or.inr hi) h
          rw [sh_sign_ok T P buf sg message h1 h2 (by omega)]
          simp [h1, h2, h3]

/-! ## sign.c: the layout of the signature -/

theorem memcpy_mid (a b c src : List Nat) (n off : Nat) (ha : a.length = off)
    (hb : b.length = n) : memcpy (a ++ b ++ c) off src n = a ++ bytesN n src ++ c := by
  subst ha
  simp only [memcpy, blit, bytesN_length]
  rw [List.append_assoc a b c, List.take_left' rfl]
  have : (a ++ (b ++ c)).drop (a.length + n) = c := by
    rw [← List.append_assoc]
    apply List.drop_left'
    simp [hb]
  rw [this]

theorem split_at (l : List Nat) (n : Nat) (h : n ≤ l.length) :
    ∃ a b, l = a ++ b ∧ a.length = n ∧ b = l.drop n :=
  ⟨l.take n, l.drop n, (List.take_append_drop n l).symm, by simp [h], rfl⟩

theorem lm_ots_sig_chains_length (T : Tune) (P : Prims) (I : List Nat) (q : Nat)
    (gen : private_key_generator) (Q : List Nat) (n w : Nat) :
    ∀ (cnt i : Nat), (lm_ots_sig_chains T P I q gen Q n w cnt i).length = cnt * n := by
  intro cnt
  induction cnt with
  | zero => intro i; simp [lm_ots_sig_chains]
  | succ k ih =>
    intro i
    simp only [lm_ots_sig_chains, List.length_append, bytesN_length, ih]
    rw [Nat.succ_mul, Nat.add_comm]

theorem sign_bottom_path_length (subtree : List Nat) (which : Nat) :
    ∀ (cnt off : Nat), (sign_bottom_path subtree which cnt off).length = 24 * cnt := by
  intro cnt
  induction cnt with
  | zero => intro off; simp [sign_bottom_path]
  | succ k ih =>
    intro off
    simp only [sign_bottom_path, List.length_append, slice, bytesN_length, ih]
    omega

theorem sign_top_path_length (subtree : List Nat) :
    ∀ (cnt off : Nat), (sign_top_path subtree cnt off).length = 24 * cnt := by
  intro cnt
  induction cnt with
  | zero => intro off; simp [sign_top_path]
  | succ k ih =>
    intro off
    simp only [sign_top_path, List.length_append, slice, bytesN_length, ih]
    omega

theorem lms_levels (T : Tune) : LMS_BOTTOM T + LMS_TOP T + LMS_FAKE T = 20 := by
  simp only [LMS_BOTTOM, LMS_TOP, LMS_ACTUAL, LMS_H, LMS_FAKE]
  split <;> omega
theorem memcpy_len_zero (d src : List Nat) (off : Nat) : memcpy d off src 0 = d := by
  simp [memcpy, blit, bytesN]

theorem sign_write_pieces (T : Tune) (sg : sh_signer) (n : Nat) (ots : List Nat)
    (b0 b1 b2 b3 b4 b5 b6 b7 b8 tail : List Nat)
    (h0 : b0.length = LEN_SPHINCS_SIG) (h1 : b1.length = LEN_LMS_PUBLIC_KEY)
    (h2 : b2.length = 4) (h3 : b3.length = 4) (h4 : b4.length = n) (h5 : b5.length = 4)
    (h6 : b6.length = 24 * LMS_BOTTOM T) (h7 : b7.length = 24 * LMS_TOP T)
    (h8 : b8.length = LMS_FAKE T * 24) :
    sign_write T (b0 ++ (b1 ++ (b2 ++ (b3 ++ (b4 ++ (b5 ++ (b6 ++ (b7 ++ (b8 ++ tail)))))))))
        sg n ots =
      bytesN LEN_SPHINCS_SIG sg.current_sphincs_sig ++
      (bytesN LEN_LMS_PUBLIC_KEY sg.current_lms_pub_key ++
      (put_bigendian 0 4 ++ (put_bigendian sg.current_lms_index 4 ++ (bytesN n ots ++
      (put_bigendian 0xe0000028 4 ++
      (bytesN (24 * LMS_BOTTOM T)
        (sign_bottom_path sg.current_lms_bottom_subtree
          ((sg.current_lms_index / 2 ^ LMS_BOTTOM T) % 2) (LMS_BOTTOM T)
          (sg.current_lms_index % 2 ^ LMS_BOTTOM T + 2 ^ LMS_BOTTOM T - 2)) ++
      (bytesN (24 * LMS_TOP T)
        (sign_top_path sg.current_lms_top_subtree (LMS_TOP T)
          (sg.current_lms_index / 2 ^ LMS_BOTTOM T + 2 ^ LMS_TOP T - 2)) ++
      (bytesN (LMS_FAKE T * 24) sg.current_fake ++ tail)))))))) := by
  simp only [sign_write]
  generalize sign_bottom_path sg.current_lms_bottom_subtree _ _ _ = bot
  generalize sign_top_path sg.current_lms_top_subtree _ _ = top
  have hbi : (put_bigendian sg.current_lms_index 4).length = 4 := put_bigendian_length _ 4
  generalize put_bigendian sg.current_lms_index 4 = bidx at hbi ⊢
  have hb0 : (put_bigendian 0 4).length = 4 := put_bigendian_length 0 4
  have hb3 : (put_bigendian 3758096424 4).length = 4 := put_bigendian_length _ 4
  generalize put_bigendian 0 4 = z4 at hb0 ⊢
  generalize put_bigendian 3758096424 4 = h28 at hb3 ⊢
  have e1 : ∀ R, memcpy (b0 ++ (b1 ++ (b2 ++ R))) (0 + LEN_SPHINCS_SIG + LEN_LMS_PUBLIC_KEY) z4 4
      = b0 ++ (b1 ++ (bytesN 4 z4 ++ R)) := by
    intro R
    have := memcpy_mid (b0 ++ b1) b2 R z4 4 (0 + LEN_SPHINCS_SIG + LEN_LMS_PUBLIC_KEY)
      (by simp only [List.length_append, h0, h1]; omega) h2
    simpa only [List.append_assoc] using this
  have e2 : ∀ x R, x.length = 4 →
      memcpy (b0 ++ (b1 ++ (x ++ (b3 ++ R)))) (0 + LEN_SPHINCS_SIG + LEN_LMS_PUBLIC_KEY + 4) bidx 4
      = b0 ++ (b1 ++ (x ++ (bytesN 4 bidx ++ R))) := by
    intro x R hx
    have := memcpy_mid (b0 ++ b1 ++ x) b3 R bidx 4 (0 + LEN_SPHINCS_SIG + LEN_LMS_PUBLIC_KEY + 4)
      (by simp only [List.length_append, h0, h1, hx]; omega) h3
    simpa only [List.append_assoc] using this
  have e3 : ∀ x y R, x.length = 4 → y.length = 4 →
      memcpy (b0 ++ (b1 ++ (x ++ (y ++ (b4 ++ R)))))
        (0 + LEN_SPHINCS_SIG + LEN_LMS_PUBLIC_KEY + 4 + 4) ots n
      = b0 ++ (b1 ++ (x ++ (y ++ (bytesN n ots ++ R)))) := by
    intro x y R hx hy
    have := memcpy_mid (b0 ++ b1 ++ x ++ y) b4 R ots n
      (0 + LEN_SPHINCS_SIG + LEN_LMS_PUBLIC_KEY + 4 + 4)
      (by simp only [List.length_append, h0, h1, hx, hy]; omega) h4
    simpa only [List.append_assoc] using this
  have e4 : ∀ x y z R, x.length = 4 → y.length = 4 → z.length = n →
      memcpy (b0 ++ (b1 ++ (x ++ (y ++ (z ++ (b5 ++ R))))))
        (0 + LEN_SPHINCS_SIG + LEN_LMS_PUBLIC_KEY + 4 + 4 + n) h28 4
      = b0 ++ (b1 ++ (x ++ (y ++ (z ++ (bytesN 4 h28 ++ R))))) := by
    intro x y z R hx hy hz
    have := memcpy_mid (b0 ++ b1 ++ x ++ y ++ z) b5 R h28 4
      (0 + LEN_SPHINCS_SIG + LEN_LMS_PUBLIC_KEY + 4 + 4 + n)
      (by simp only [List.length_append, h0, h1, hx, hy, hz]; omega) h5
    simpa only [List.append_assoc] using this
  have e5 : ∀ x y z u R, x.length = 4 → y.length = 4 → z.length = n → u.length = 4 →
      memcpy (b0 ++ (b1 ++ (x ++ (y ++ (z ++ (u ++ (b6 ++ R)))))))
        (0 + LEN_SPHINCS_SIG + LEN_LMS_PUBLIC_KEY + 4 + 4 + n + 4) bot (24 * LMS_BOTTOM T)
      = b0 ++ (b1 ++ (x ++ (y ++ (z ++ (u ++ (bytesN (24 * LMS_BOTTOM T) bot ++ R)))))) := by
    intro x y z u R hx hy hz hu
    have := memcpy_mid (b0 ++ b1 ++ x ++ y ++ z ++ u) b6 R bot (24 * LMS_BOTTOM T)
      (0 + LEN_SPHINCS_SIG + LEN_LMS_PUBLIC_KEY + 4 + 4 + n + 4)
      (by simp only [List.length_append, h0, h1, hx, hy, hz, hu]; omega) h6
    simpa only [List.append_assoc] using this
  have e6 : ∀ x y z u v R, x.length = 4 → y.length = 4 → z.length = n → u.length = 4 →
      v.length = 24 * LMS_BOTTOM T →
      memcpy (b0 ++ (b1 ++ (x ++ (y ++ (z ++ (u ++ (v ++ (b7 ++ R))))))))
        (0 + LEN_SPHINCS_SIG + LEN_LMS_PUBLIC_KEY + 4 + 4 + n + 4 + 24 * LMS_BOTTOM T)
        top (24 * LMS_TOP T)
      = b0 ++ (b1 ++ (x ++ (y ++ (z ++ (u ++ (v ++ (bytesN (24 * LMS_TOP T) top ++ R))))))) := by
    intro x y z u v R hx hy hz hu hv
    have := memcpy_mid (b0 ++ b1 ++ x ++ y ++ z ++ u ++ v) b7 R top (24 * LMS_TOP T)
      (0 + LEN_SPHINCS_SIG + LEN_LMS_PUBLIC_KEY + 4 + 4 + n + 4 + 24 * LMS_BOTTOM T)
      (by simp only [List.length_append, h0, h1, hx, hy, hz, hu, hv]; omega) h7
    simpa only [List.append_assoc] using this
  have e7 : ∀ x y z u v w R, x.length = 4 → y.length = 4 → z.length = n → u.length = 4 →
      v.length = 24 * LMS_BOTTOM T → w.length = 24 * LMS_TOP T →
      memcpy (b0 ++ (b1 ++ (x ++ (y ++ (z ++ (u ++ (v ++ (w ++ (b8 ++ R)))))))))
        (0 + LEN_SPHINCS_SIG + LEN_LMS_PUBLIC_KEY + 4 + 4 + n + 4 + 24 * LMS_BOTTOM T
          + 24 * LMS_TOP T)
        sg.current_fake (LMS_FAKE T * 24)
      = b0 ++ (b1 ++ (x ++ (y ++ (z ++ (u ++ (v ++ (w ++
          (bytesN (LMS_FAKE T * 24) sg.current_fake ++ R)))))))) := by
    intro x y z u v w R hx hy hz hu hv hw
    have := memcpy_mid (b0 ++ b1 ++ x ++ y ++ z ++ u ++ v ++ w) b8 R sg.current_fake
      (LMS_FAKE T * 24)
      (0 + LEN_SPHINCS_SIG + LEN_LMS_PUBLIC_KEY + 4 + 4 + n + 4 + 24 * LMS_BOTTOM T
        + 24 * LMS_TOP T)
      (by simp only [List.length_append, h0, h1, hx, hy, hz, hu, hv, hw]; omega) h8
    simpa only [List.append_assoc] using this
  have e8 : ∀ R, memcpy (b0 ++ (b1 ++ R)) (0 + LEN_SPHINCS_SIG) sg.current_lms_pub_key
      LEN_LMS_PUBLIC_KEY = b0 ++ (bytesN LEN_LMS_PUBLIC_KEY sg.current_lms_pub_key ++ R) := by
    intro R
    have := memcpy_mid b0 b1 R sg.current_lms_pub_key LEN_LMS_PUBLIC_KEY (0 + LEN_SPHINCS_SIG)
      (by rw [h0]; omega) h1
    simpa only [List.append_assoc] using this
  have e9 : ∀ R, memcpy (b0 ++ R) 0 sg.current_sphincs_sig LEN_SPHINCS_SIG
      = bytesN LEN_SPHINCS_SIG sg.current_sphincs_sig ++ R := by
    intro R
    have := memcpy_mid [] b0 R sg.current_sphincs_sig LEN_SPHINCS_SIG 0 rfl h0
    simpa only [List.nil_append] using this
  have hif : ∀ (X : List Nat) (off : Nat),
      (if LMS_FAKE T ≠ 0 then memcpy X off sg.current_fake (LMS_FAKE T * 24) else X)
        = memcpy X off sg.current_fake (LMS_FAKE T * 24) := by
    intro X off
    split
    · rfl
    · rename_i h
      have h : LMS_FAKE T = 0 := by simpa using h
      rw [h, Nat.zero_mul, memcpy_len_zero]
  rw [hif, e1, e2 _ _ (bytesN_length _ _), e3 _ _ _ (bytesN_length _ _) (bytesN_length _ _),
    e4 _ _ _ _ (bytesN_length _ _) (bytesN_length _ _) (bytesN_length _ _),
    e5 _ _ _ _ _ (bytesN_length _ _) (bytesN_length _ _) (bytesN_length _ _) (bytesN_length _ _),
    e6 _ _ _ _ _ _ (bytesN_length _ _) (bytesN_length _ _) (bytesN_length _ _)
      (bytesN_length _ _) (bytesN_length _ _),
    e7 _ _ _ _ _ _ _ (bytesN_length _ _) (bytesN_length _ _) (bytesN_length _ _)
      (bytesN_length _ _) (bytesN_length _ _) (bytesN_length _ _), e8, e9,
    bytesN_of_length hb0, bytesN_of_length hb3, bytesN_of_length hbi]

theorem take_drop_step (l : List Nat) (a n : Nat) :
    (l.drop a).take n ++ l.drop (a + n) = l.drop a := by
  rw [← List.drop_drop]
  exact List.take_append_drop n (l.drop a)

theorem take_drop_length (l : List Nat) (a n : Nat) (h : a + n ≤ l.length) :
    ((l.drop a).take n).length = n := by
  rw [List.length_take, List.length_drop]
  omega

theorem exists_split9 (buf : List Nat) (n0 n1 n2 n3 n4 n5 n6 n7 n8 : Nat)
    (h : n0 + n1 + n2 + n3 + n4 + n5 + n6 + n7 + n8 ≤ buf.length) :
    ∃ b0 b1 b2 b3 b4 b5 b6 b7 b8 : List Nat,
      buf = b0 ++ (b1 ++ (b2 ++ (b3 ++ (b4 ++ (b5 ++ (b6 ++ (b7 ++ (b8 ++
        buf.drop (n0 + n1 + n2 + n3 + n4 + n5 + n6 + n7 + n8))))))))) ∧
      b0.length = n0 ∧ b1.length = n1 ∧ b2.length = n2 ∧ b3.length = n3 ∧ b4.length = n4 ∧
      b5.length = n5 ∧ b6.length = n6 ∧ b7.length = n7 ∧ b8.length = n8 := by
  refine ⟨(buf.drop 0).take n0, (buf.drop n0).take n1, (buf.drop (n0 + n1)).take n2,
    (buf.drop (n0 + n1 + n2)).take n3, (buf.drop (n0 + n1 + n2 + n3)).take n4,
    (buf.drop (n0 + n1 + n2 + n3 + n4)).take n5,
    (buf.drop (n0 + n1 + n2 + n3 + n4 + n5)).take n6,
    (buf.drop (n0 + n1 + n2 + n3 + n4 + n5 + n6)).take n7,
    (buf.drop (n0 + n1 + n2 + n3 + n4 + n5 + n6 + n7)).take n8, ?_,
    take_drop_length _ _ _ (by omega), take_drop_length _ _ _ (by omega),
    take_drop_length _ _ _ (by omega), take_drop_length _ _ _ (by omega),
    take_drop_length _ _ _ (by omega), take_drop_length _ _ _ (by omega),
    take_drop_length _ _ _ (by omega), take_drop_length _ _ _ (by omega),
    take_drop_length _ _ _ (by omega)⟩
  rw [take_drop_step, take_drop_step, take_drop_step, take_drop_step, take_drop_step,
    take_drop_step, take_drop_step, take_drop_step]
  have := take_drop_step buf 0 n0
  rw [Nat.zero_add] at this
  rw [this, List.drop_zero]

theorem sign_write_eq (T : Tune) (sg : sh_signer) (buf : List Nat) (n : Nat) (ots : List Nat)
    (hlen : LEN_SPHINCS_SIG + LEN_LMS_PUBLIC_KEY + 12 + n + 24 * 20 ≤ buf.length) :
    sign_write T buf sg n ots =
      bytesN LEN_SPHINCS_SIG sg.current_sphincs_sig ++
      (bytesN LEN_LMS_PUBLIC_KEY sg.current_lms_pub_key ++
      (put_bigendian 0 4 ++ (put_bigendian sg.current_lms_index 4 ++ (bytesN n ots ++
      (put_bigendian 0xe0000028 4 ++
      (bytesN (24 * LMS_BOTTOM T)
        (sign_bottom_path sg.current_lms_bottom_subtree
          ((sg.current_lms_index / 2 ^ LMS_BOTTOM T) % 2) (LMS_BOTTOM T)
          (sg.current_lms_index % 2 ^ LMS_BOTTOM T + 2 ^ LMS_BOTTOM T - 2)) ++
      (bytesN (24 * LMS_TOP T)
        (sign_top_path sg.current_lms_top_subtree (LMS_TOP T)
          (sg.current_lms_index / 2 ^ LMS_BOTTOM T + 2 ^ LMS_TOP T - 2)) ++
      (bytesN (LMS_FAKE T * 24) sg.current_fake ++
        buf.drop (LEN_SPHINCS_SIG + LEN_LMS_PUBLIC_KEY + 12 + n + 24 * 20))))))))) := by
  have hl := lms_levels T
  obtain ⟨b0, b1, b2, b3, b4, b5, b6, b7, b8, hbuf, l0, l1, l2, l3, l4, l5, l6, l7, l8⟩ :=
    exists_split9 buf LEN_SPHINCS_SIG LEN_LMS_PUBLIC_KEY 4 4 n 4 (24 * LMS_BOTTOM T)
      (24 * LMS_TOP T) (LMS_FAKE T * 24) (by omega)
  have hsum : LEN_SPHINCS_SIG + LEN_LMS_PUBLIC_KEY + 4 + 4 + n + 4 + 24 * LMS_BOTTOM T +
      24 * LMS_TOP T + LMS_FAKE T * 24 = LEN_SPHINCS_SIG + LEN_LMS_PUBLIC_KEY + 12 + n + 24 * 20
      := by omega
  rw [hsum] at hbuf
  generalize buf.drop (LEN_SPHINCS_SIG + LEN_LMS_PUBLIC_KEY + 12 + n + 24 * 20) = tail at hbuf ⊢
  rw [hbuf]
  exact sign_write_pieces T sg n ots b0 b1 b2 b3 b4 b5 b6 b7 b8 tail l0 l1 l2 l3 l4 l5 l6 l7 l8

theorem lm_ots_signature_parts (T : Tune) (P : Prims) (I : List Nat) (q : Nat)
    (seed msg : List Nat) :
    ∃ C chains : List Nat,
      (lm_ots_generate_signature T P I q seed msg).2
        = put_bigendian (LM_OTS_PARAM_ID T) 4 ++ C ++ chains ∧
      C.length = 24 ∧ chains.length = 24 * LM_OTS_P T := by
  refine ⟨_, _, rfl, bytesN_length _ _, ?_⟩
  rw [lm_ots_sig_chains_length, Nat.mul_comm]

theorem lm_ots_signature_length (T : Tune) (P : Prims) (I : List Nat) (q : Nat)
    (seed msg : List Nat) :
    (lm_ots_generate_signature T P I q seed msg).2.length = 4 + 24 + LM_OTS_P T * 24 := by
  obtain ⟨C, chains, e, hC, hch⟩ := lm_ots_signature_parts T P I q seed msg
  rw [e, List.length_append, List.length_append, put_bigendian_length, hC, hch]
  omega

/-- C9: a successful `sh_sign` writes exactly `sh_sig_len` bytes at the start
of the buffer and nothing beyond them: the pre-call `current_sphincs_sig`
(17064 bytes), the pre-call `current_lms_pub_key` (52), BE32(0), BE32(index),
the LM-OTS signature (parameter id, C and p chain values), BE32(0xe0000028)
and the 20 authentication-path nodes of 24 bytes (bottom, top and faked
part); `sh_sig_len` is 17064 + 52 + (12 + 24(1+p)) + (4 + 24*20), which is
20060 for p = 101 and 18860 for p = 51. -/
theorem sh_sign_layout (T : Tune) (P : Prims) (buf : List Nat) (sg : sh_signer)
    (message : List Nat)
    (h1 : sg.initialized = true) (h2 : sg.got_fatal_error = false)
    (h3 : sh_sig_len T ≤ buf.length)
    (h4 : sg.current_sphincs_sig.length = LEN_SPHINCS_SIG)
    (h5 : sg.current_lms_pub_key.length = LEN_LMS_PUBLIC_KEY)
    (h6 : sg.current_fake.length = LMS_FAKE T * 24) :
    sh_sign T P (some buf) (some sg) message =
      (true,
       some (sg.current_sphincs_sig ++ (sg.current_lms_pub_key ++ (put_bigendian 0 4 ++
         (put_bigendian sg.current_lms_index 4 ++
         ((lm_ots_generate_signature T P sg.current_lms_I sg.current_lms_index
             sg.current_lms_seed message).2 ++
         (put_bigendian 0xe0000028 4 ++
         (sign_bottom_path sg.current_lms_bottom_subtree
             ((sg.current_lms_index / 2 ^ LMS_BOTTOM T) % 2) (LMS_BOTTOM T)
             (sg.current_lms_index % 2 ^ LMS_BOTTOM T + 2 ^ LMS_BOTTOM T - 2) ++
         (sign_top_path sg.current_lms_top_subtree (LMS_TOP T)
             (sg.current_lms_index / 2 ^ LMS_BOTTOM T + 2 ^ LMS_TOP T - 2) ++
         (sg.current_fake ++ buf.drop (sh_sig_len T)))))))))),
       some (sign_advance T P sg)) ∧
    sg.current_sphincs_sig.length = 17064 ∧ sg.current_lms_pub_key.length = 52 ∧
    (∃ C chains : List Nat,
      (lm_ots_generate_signature T P sg.current_lms_I sg.current_lms_index
          sg.current_lms_seed message).2
        = put_bigendian (LM_OTS_PARAM_ID T) 4 ++ C ++ chains ∧
      C.length = 24 ∧ chains.length = 24 * LM_OTS_P T) ∧
    (sign_bottom_path sg.current_lms_bottom_subtree
        ((sg.current_lms_index / 2 ^ LMS_BOTTOM T) % 2) (LMS_BOTTOM T)
        (sg.current_lms_index % 2 ^ LMS_BOTTOM T + 2 ^ LMS_BOTTOM T - 2) ++
      (sign_top_path sg.current_lms_top_subtree (LMS_TOP T)
        (sg.current_lms_index / 2 ^ LMS_BOTTOM T + 2 ^ LMS_TOP T - 2) ++
      sg.current_fake)).length = 24 * 20 ∧
    sh_sig_len T = 17064 + 52 + (12 + 24 * (1 + LM_OTS_P T)) + (4 + 24 * 20) ∧
    (LM_OTS_P T = 101 → sh_sig_len T = 20060) ∧ (LM_OTS_P T = 51 → sh_sig_len T = 18860) := by
  have hlen : sh_sig_len T = 17064 + 52 + (12 + 24 * (1 + LM_OTS_P T)) + (4 + 24 * 20) := by
    simp only [sh_sig_len, LEN_SPHINCS_SIG, LEN_LMS_PUBLIC_KEY, SPH_K, SPH_A, SPH_H, SPH_DLEN,
      SPH_D]
    omega
  have hS : LEN_SPHINCS_SIG = 17064 := by decide
  have hK : LEN_LMS_PUBLIC_KEY = 52 := by decide
  have hl := lms_levels T
  refine ⟨?_, by rw [h4, hS], by rw [h5, hK], lm_ots_signature_parts _ _ _ _ _ _, ?_, hlen,
    fun h => by rw [hlen, h], fun h => by rw [hlen, h]⟩
  · rw [sh_sign_ok T P buf sg message h1 h2 h3,
      sign_write_eq T sg buf _ _ (by rw [hS, hK]; omega),
      bytesN_of_length h4, bytesN_of_length h5, bytesN_of_length h6,
      bytesN_of_length (lm_ots_signature_length _ _ _ _ _ _),
      bytesN_of_length (sign_bottom_path_length _ _ _ _),
      bytesN_of_length (sign_top_path_length _ _ _)]
    have e : LEN_SPHINCS_SIG + LEN_LMS_PUBLIC_KEY + 12 + (4 + 24 + LM_OTS_P T * 24) + 24 * 20
        = sh_sig_len T := by rw [hlen, hS, hK]; omega
    rw [e]
  · rw [List.length_append, List.length_append, sign_bottom_path_length,
      sign_top_path_length, h6]
    omega

/-- Witness for `sh_sign_layout`: zero-filled signer memory marked
initialized, a buffer of 20060 bytes and an empty message. -/
theorem sh_sign_layout_witness :
    (sh_sign tune zero_prims (some (zeros 20060))
      (some { blank_signer with initialized := true }) []).1 = true :=
  congrArg Prod.fst (sh_sign_layout tune zero_prims (zeros 20060)
    { blank_signer with initialized := true } [] rfl rfl
    (by rw [zeros_length]; decide) (zeros_length 17064) (zeros_length 52)
    (zeros_length (6 * 24))).1

/-! ## Sizes of the LMS tree -/

theorem LMS_ACTUAL_ge (T : Tune) : 13 ≤ LMS_ACTUAL T := by
  simp only [LMS_ACTUAL, LMS_FAKE, LMS_H]; split <;> omega

theorem LMS_ACTUAL_le (T : Tune) : LMS_ACTUAL T ≤ 20 := by
  simp only [LMS_ACTUAL, LMS_FAKE, LMS_H]; omega

/-! ## The LMS build phase -/

theorem lms_store_erase (s : sh_signer) (loc : LmsLoc) (b : List Nat) :
    lmsErase (lms_store s loc b) = lmsErase s := by
  cases loc <;> rfl

theorem lmsErase_build_state {x s : sh_signer} (b : BuildState) (h : lmsErase x = lmsErase s) :
    lmsErase { x with build_state := b } = lmsErase { s with build_state := b } := by
  have := congrArg (fun t : sh_signer => { t with build_state := b }) h
  exact this

theorem lmsErase_bs {x s : sh_signer} (h : lmsErase x = lmsErase s) :
    x.build_state = s.build_state := by
  have := congrArg sh_signer.build_state h
  exact this

theorem lmsErase_leaf {x s : sh_signer} (h : lmsErase x = lmsErase s) :
    x.do_lms_leaf = s.do_lms_leaf := by
  have := congrArg sh_signer.do_lms_leaf h
  exact this

/-- The walk of one leaf up the LMS tree reports completion exactly for the
node whose remaining bits are all ones, and touches only the four build
buffers and, on completion, the build state. -/
theorem lms_walk_spec (T : Tune) (P : Prims) (leaf : Nat) (A : Nat) (hA : LMS_H - LMS_FAKE T = A) :
    ∀ (fuel level node q : Nat) (s : sh_signer) (buffer : List Nat),
      level ≤ A → node < 2 ^ (A - level) → A - level < fuel →
      (lms_walk T P leaf fuel level node q s buffer).2 = decide (node = 2 ^ (A - level) - 1) ∧
      lmsErase (lms_walk T P leaf fuel level node q s buffer).1 =
        lmsErase { s with build_state :=
          if node = 2 ^ (A - level) - 1 then b_lms_finished else s.build_state } := by
  intro fuel
  induction fuel with
  | zero => intro level node q s buffer _ _ h; omega
  | succ fuel ih =>
    intro level node q s buffer hl hn hf
    simp only [lms_walk, hA]
    by_cases hev : node % 2 = 0
    · simp only [hev, if_true]
      by_cases hlv : level = A
      · subst hlv
        simp at hn
        subst hn
        simp only [if_true, Nat.sub_self, pow_zero, decide_True, true_and]
        exact lmsErase_build_state _ (lms_store_erase _ _ _)
      · have hne : node ≠ 2 ^ (A - level) - 1 := by
          intro h
          have h2 : 2 ^ (A - level) = 2 * 2 ^ (A - level - 1) := by
            exact two_pow_pred (by omega)
          omega
        simp only [hlv, hne, if_false, decide_False, true_and]
        exact lms_store_erase _ _ _
    · simp only [hev, if_false]
      have hlt : level < A := by
        rcases Nat.lt_or_ge level A with h | h
        · exact h
        · have : A - level = 0 := by omega
          rw [this] at hn; simp at hn; omega
      have h2 : 2 ^ (A - level) = 2 * 2 ^ (A - (level + 1)) := by
        exact two_pow_pred (by omega)
      have hpos : 0 < 2 ^ (A - (level + 1)) := Nat.pow_pos (by norm_num)
      obtain ⟨h1, h3⟩ := ih (level + 1) (node / 2) (q / 2)
        (lms_store s (lms_storage T 24 level leaf node 1) buffer)
        (lms_combine_internal_nodes P
          (lms_load (lms_store s (lms_storage T 24 level leaf node 1) buffer)
            (lms_storage T 24 level leaf (node ^^^ 1) 0)) buffer
          (lms_store s (lms_storage T 24 level leaf node 1) buffer).next_lms_I 24 (q / 2))
        (by omega) (by omega) (by omega)
      have hiff : (node / 2 = 2 ^ (A - (level + 1)) - 1) ↔ (node = 2 ^ (A - level) - 1) := by
        constructor <;> intro h <;> omega
      constructor
      · rw [h1]; simp only [hiff]
      · rw [h3]
        simp only [hiff]
        have hs := lms_store_erase s (lms_storage T 24 level leaf node 1) buffer
        have hb : (lms_store s (lms_storage T 24 level leaf node 1) buffer).build_state
            = s.build_state := lmsErase_bs hs
        rw [hb]
        exact lmsErase_build_state _ hs

/-- One pass of the loop body of `b_do_lms` for a leaf below the tree size. -/
theorem lms_leaf_spec (T : Tune) (P : Prims) (s : sh_signer) (leaf : Nat) (q : Nat)
    (buffer : List Nat) (h : leaf < 2 ^ LMS_ACTUAL T) :
    (lms_walk T P leaf 33 0 (leaf % 2 ^ 32) q s buffer).2
        = decide (leaf + 1 = 2 ^ LMS_ACTUAL T) ∧
    lmsErase (lms_walk T P leaf 33 0 (leaf % 2 ^ 32) q s buffer).1 =
      lmsErase { s with build_state :=
        if leaf + 1 = 2 ^ LMS_ACTUAL T then b_lms_finished else s.build_state } := by
  have hA := LMS_ACTUAL_le T
  have h20 : 2 ^ LMS_ACTUAL T ≤ 2 ^ 20 := Nat.pow_le_pow_right (by norm_num) hA
  have hmod : leaf % 2 ^ 32 = leaf := Nat.mod_eq_of_lt (by omega)
  have hpos : 0 < 2 ^ LMS_ACTUAL T := Nat.pow_pos (by norm_num)
  obtain ⟨h1, h2⟩ := lms_walk_spec T P leaf (LMS_ACTUAL T) rfl 33 0 leaf q s buffer
    (by omega) (by simpa using h) (by omega)
  have hiff : (leaf = 2 ^ (LMS_ACTUAL T - 0) - 1) ↔ (leaf + 1 = 2 ^ LMS_ACTUAL T) := by
    simp only [Nat.sub_zero]; omega
  rw [hmod]
  simp only [hiff] at h1 h2
  exact ⟨h1, h2⟩

/-- A step of `b_do_lms` builds two leaves; it ends the LMS phase exactly when
the leaf counter reaches the size of the tree. -/
theorem do_lms_loop_spec (T : Tune) (P : Prims) (s : sh_signer)
    (hev : s.do_lms_leaf % 2 = 0) (hlt : s.do_lms_leaf + 2 ≤ 2 ^ LMS_ACTUAL T) :
    lmsErase (do_lms_loop T P LMS_LEAF_PER_ITER s) =
      lmsErase { s with
        do_lms_leaf := s.do_lms_leaf + 2,
        build_state :=
          if s.do_lms_leaf + 2 = 2 ^ LMS_ACTUAL T then b_lms_finished else s.build_state } := by
  have hA := LMS_ACTUAL_ge T
  have hp : 2 ^ LMS_ACTUAL T = 2 * 2 ^ (LMS_ACTUAL T - 1) := two_pow_pred (by omega)
  simp only [LMS_LEAF_PER_ITER, do_lms_loop]
  obtain ⟨a1, a2⟩ := lms_leaf_spec T P { s with do_lms_leaf := s.do_lms_leaf + 1 } s.do_lms_leaf
    (s.do_lms_leaf % 2 ^ 32 ||| 2 ^ LMS_H)
    (lm_ots_generate_public_key T P s.next_lms_I s.do_lms_leaf s.next_lms_seed) (by omega)
  have hne : ¬ (s.do_lms_leaf + 1 = 2 ^ LMS_ACTUAL T) := by omega
  simp only [hne, decide_False, if_false] at a1 a2
  simp only [a1, Bool.false_eq_true, if_false]
  generalize (lms_walk T P s.do_lms_leaf 33 0 (s.do_lms_leaf % 2 ^ 32)
    (s.do_lms_leaf % 2 ^ 32 ||| 2 ^ LMS_H) { s with do_lms_leaf := s.do_lms_leaf + 1 }
    (lm_ots_generate_public_key T P s.next_lms_I s.do_lms_leaf s.next_lms_seed)).1 = s1 at a2 ⊢
  have hleaf1 : s1.do_lms_leaf = s.do_lms_leaf + 1 := by
    have := congrArg sh_signer.do_lms_leaf a2
    exact this
  have hbs1 : s1.build_state = s.build_state := by
    have := congrArg sh_signer.build_state a2
    exact this
  obtain ⟨b1, b2⟩ := lms_leaf_spec T P { s1 with do_lms_leaf := s1.do_lms_leaf + 1 } s1.do_lms_leaf
    (s1.do_lms_leaf % 2 ^ 32 ||| 2 ^ LMS_H)
    (lm_ots_generate_public_key T P s1.next_lms_I s1.do_lms_leaf s1.next_lms_seed) (by omega)
  have key : lmsErase { s1 with
      do_lms_leaf := s1.do_lms_leaf + 1,
      build_state :=
        if s1.do_lms_leaf + 1 = 2 ^ LMS_ACTUAL T then b_lms_finished else s1.build_state } =
    lmsErase { s with
      do_lms_leaf := s.do_lms_leaf + 2,
      build_state :=
        if s.do_lms_leaf + 2 = 2 ^ LMS_ACTUAL T then b_lms_finished else s.build_state } := by
    rw [hleaf1, hbs1]
    have := congrArg (fun t : sh_signer => { t with
      do_lms_leaf := s.do_lms_leaf + 1 + 1,
      build_state :=
        if s.do_lms_leaf + 1 + 1 = 2 ^ LMS_ACTUAL T then b_lms_finished else s.build_state }) a2
    exact this
  rw [← key, ← b2]
  split <;> rfl

/-! ## The FORS phase -/

theorem fors_walk_erase (P : Prims) (target : Nat) :
    ∀ (cnt level node name : Nat) (s : sh_signer) (adr buffer : List Nat),
      forsErase (fors_walk P target cnt level node name s adr buffer).1 = forsErase s := by
  intro cnt
  induction cnt with
  | zero => intro level node name s adr buffer; rfl
  | succ k ih =>
    intro level node name s adr buffer
    simp only [fors_walk]
    split
    · rw [ih]
      split <;> rfl
    · split <;> rfl

theorem fors_loop_spec (T : Tune) (P : Prims) (gen : private_key_generator) (target : Nat)
    (hF : T.FAULT_STRATEGY = 0) :
    ∀ (cnt : Nat) (s : sh_signer) (adr : List Nat) (leaf : Nat) (buffer : List Nat),
      leaf < 2 ^ SPH_A →
      (fors_loop T P gen target cnt s adr leaf buffer).2.2 = false ∧
      (fors_loop T P gen target cnt s adr leaf buffer).2.1
        = (if leaf + cnt < 2 ^ SPH_A then leaf + cnt else 0) ∧
      forsErase (fors_loop T P gen target cnt s adr leaf buffer).1 =
        (if leaf + cnt < 2 ^ SPH_A then forsErase s
         else forsErase { s with
           do_fors_tree := s.do_fors_tree + 1,
           sphincs_sig_index := (s.sphincs_sig_index + 24 * (1 + SPH_A)) % 2 ^ 32,
           do_fors_redundant_pass := false }) := by
  intro cnt
  induction cnt with
  | zero =>
    intro s adr leaf buffer hl
    simp only [fors_loop, Nat.add_zero, hl, if_true, and_self]
  | succ k ih =>
    intro s adr leaf buffer hl
    have h16 : 2 ^ SPH_A = 65536 := by decide
    rw [h16] at hl
    have hmod : (leaf + 1) % 2 ^ 32 = leaf + 1 := Nat.mod_eq_of_lt (by omega)
    simp only [fors_loop, hmod, hF]
    generalize hw : fors_walk P target SPH_A 0 leaf _ _ _ _ = fw
    have he2 : forsErase fw.1 = forsErase s := by
      rw [← hw, fors_walk_erase]
      split <;> rfl
    by_cases hend : leaf + 1 = 2 ^ SPH_A
    · have h1 : ¬ (leaf + (k + 1) < 2 ^ SPH_A) := by omega
      simp only [hend, h1, if_true, if_false, ne_eq, not_true_eq_false, true_and]
      have := congrArg (fun t : sh_signer => { t with
        do_fors_tree := t.do_fors_tree + 1,
        sphincs_sig_index := (t.sphincs_sig_index + 24 * (1 + SPH_A)) % 2 ^ 32,
        do_fors_redundant_pass := false }) he2
      exact this
    · simp only [hend, if_false]
      obtain ⟨a1, a2, a3⟩ := ih fw.1 fw.2.1 (leaf + 1) fw.2.2 (by omega)
      have hc : leaf + 1 + k = leaf + (k + 1) := by omega
      rw [hc] at a2 a3
      refine ⟨a1, a2, ?_⟩
      rw [a3]
      split
      · exact he2
      · have := congrArg (fun t : sh_signer => { t with
          do_fors_tree := t.do_fors_tree + 1,
          sphincs_sig_index := (t.sphincs_sig_index + 24 * (1 + SPH_A)) % 2 ^ 32,
          do_fors_redundant_pass := false }) he2
        exact this

/-! ## The Merkle builder -/

theorem and_two_pow_ne_zero (c h : Nat) : c &&& 2 ^ h ≠ 0 ↔ c / 2 ^ h % 2 = 1 := by
  have hb : c.testBit h = decide (c / 2 ^ h % 2 = 1) := Nat.testBit_to_div_mod
  constructor
  · intro hne
    by_contra hc
    apply hne
    apply Nat.eq_of_testBit_eq
    intro i
    rw [Nat.testBit_and, Nat.testBit_two_pow, Nat.zero_testBit]
    by_cases hi : h = i
    · subst hi
      rw [hb]
      simp [hc]
    · simp [hi]
  · intro h1 h0
    have := congrArg (fun x => Nat.testBit x h) h0
    simp only [Nat.testBit_and, Nat.testBit_two_pow, Nat.zero_testBit, hb, h1, decide_True,
      Bool.and_self] at this
    exact Bool.noConfusion this

theorem top_bit_split (c h : Nat) : c % 2 ^ (h + 1) = c % 2 ^ h + 2 ^ h * (c / 2 ^ h % 2) := by
  rw [pow_succ, Nat.mod_mul]

theorem merkle_up_spec (P : Prims) (c : Nat) :
    ∀ (fuel h : Nat) (st : build_merkle_state) (a r buf : List Nat),
      c < 2 ^ st.tree_height → c % 2 ^ h = 2 ^ h - 1 → st.tree_height - h < fuel →
      (merkle_up P c fuel h st a r buf).all_done_flag = decide (c + 1 = 2 ^ st.tree_height) ∧
      merkErase (merkle_up P c fuel h st a r buf).state = merkErase st ∧
      ∃ b, (merkle_up P c fuel h st a r buf).rootMem =
        if c + 1 = 2 ^ st.tree_height ∧ st.root.isSome then memcpy r 0 b st.n else r := by
  intro fuel
  induction fuel with
  | zero => intro h st a r buf _ _ hf; omega
  | succ fuel ih =>
    intro h st a r buf hc hm hf
    have hpos : 0 < 2 ^ h := Nat.pow_pos (by norm_num)
    have hle : h ≤ st.tree_height := by
      by_contra hgt
      have h1 : 2 ^ (st.tree_height + 1) ≤ 2 ^ h := Nat.pow_le_pow_right (by norm_num) (by omega)
      have h2 : 2 ^ (st.tree_height + 1) = 2 * 2 ^ st.tree_height := by rw [pow_succ]; omega
      have h3 := Nat.mod_eq_of_lt (Nat.lt_of_lt_of_le hc (by omega : 2 ^ st.tree_height ≤ 2 ^ h))
      omega
    have hsplit := top_bit_split c h
    simp only [merkle_up]
    by_cases hbit : c / 2 ^ h % 2 = 1
    · have hb := (and_two_pow_ne_zero c h).mpr hbit
      simp only [hb, if_true, ne_eq, not_false_eq_true]
      have hlt : h < st.tree_height := by
        rcases Nat.lt_or_ge h st.tree_height with hh | hh
        · exact hh
        · have he : h = st.tree_height := by omega
          rw [← he] at hc
          have := Nat.div_eq_of_lt hc
          rw [this] at hbit
          simp at hbit
      have hm' : c % 2 ^ (h + 1) = 2 ^ (h + 1) - 1 := by
        rw [hsplit, hm, hbit, pow_succ]
        omega
      obtain ⟨h1, h2, h3⟩ := ih (h + 1)
        { st with adr := set_tree_index (set_tree_height (set_type st.adr HASH_TREE_ADDRESS)
            (h + 1)) (c / 2 ^ (h + 1)) }
        (if st.auth_path.isSome ∧ (st.target_node ^^^ c) / 2 ^ h = 1 then
          memcpy a (st.auth_path.getD 0 + h * st.n) buf st.n else a) r
        (hashInto (do_H P st.hash st.pk_seed_pre
          (set_tree_index (set_tree_height (set_type st.adr HASH_TREE_ADDRESS) (h + 1))
            (c / 2 ^ (h + 1))) (slice st.stack (h * st.n) st.n) buf) buf st.n)
        hc hm' (by simp only; omega)
      exact ⟨h1, h2, h3⟩
    · have hb : ¬ (c &&& 2 ^ h ≠ 0) := fun x => hbit ((and_two_pow_ne_zero c h).mp x)
      have hbit0 : c / 2 ^ h % 2 = 0 := by omega
      simp only [hb, if_false]
      by_cases he : h = st.tree_height
      · simp only [he, if_true]
        rw [← he]
        rw [← he] at hc
        have := Nat.mod_eq_of_lt hc
        have : c + 1 = 2 ^ h := by omega
        refine ⟨by simp [this], trivial, buf, ?_⟩
        simp only [this, true_and]
      · simp only [he, if_false]
        have hlt : h < st.tree_height := by omega
        have hne : c + 1 ≠ 2 ^ st.tree_height := by
          intro heq
          have hd : 2 ^ st.tree_height = 2 ^ (h + 1) * 2 ^ (st.tree_height - (h + 1)) := by
            rw [← pow_add]
            congr 1
            omega
          have h3 : c % 2 ^ (h + 1) = 2 ^ h - 1 := by
            rw [hsplit, hm, hbit0]
            omega
          have h4 : (c + 1) % 2 ^ (h + 1) = 0 := by
            rw [heq, hd]
            exact Nat.mul_mod_right _ _
          have h5 : (c + 1) % 2 ^ (h + 1) = (c % 2 ^ (h + 1) + 1) % 2 ^ (h + 1) := by
            rw [Nat.add_mod]
            simp
          rw [h5, h3] at h4
          have h6 : 2 ^ (h + 1) = 2 * 2 ^ h := by rw [pow_succ]; omega
          have h7 : (2 ^ h - 1 + 1) % 2 ^ (h + 1) = 2 ^ h := by
            have h8 : 2 ^ h - 1 + 1 = 2 ^ h := by omega
            rw [h8]
            exact Nat.mod_eq_of_lt (by omega)
          omega
        refine ⟨by simp [hne], rfl, buf, ?_⟩
        simp only [hne, false_and, if_false]

theorem merkle_leaves_done (T : Tune) (P : Prims) (m : Nat) (st : build_merkle_state)
    (a r : List Nat) (flag : Bool) (h : 2 ^ st.tree_height ≤ st.current_node) :
    merkle_leaves T P (m + 1) st a r flag =
      { state := st, authMem := a, rootMem := r, all_done_flag := true } := by
  have h' : st.current_node ≥ 2 ^ st.tree_height := h
  simp only [merkle_leaves, h', if_true]

theorem merkErase_with {x y : build_merkle_state} (h : merkErase x = merkErase y) (c : Nat) :
    merkErase { x with current_node := c } = merkErase { y with current_node := c } := by
  have := congrArg (fun t : build_merkle_state => { t with current_node := c }) h
  exact this

theorem merkle_up_adr (P : Prims) (c fuel h : Nat) (st : build_merkle_state)
    (adr a r buf : List Nat) (hc : c < 2 ^ st.tree_height) (hm : c % 2 ^ h = 2 ^ h - 1)
    (hf : st.tree_height - h < fuel) :
    (merkle_up P c fuel h { st with adr := adr } a r buf).all_done_flag
      = decide (c + 1 = 2 ^ st.tree_height) ∧
    merkErase (merkle_up P c fuel h { st with adr := adr } a r buf).state = merkErase st ∧
    ∃ b, (merkle_up P c fuel h { st with adr := adr } a r buf).rootMem =
      if c + 1 = 2 ^ st.tree_height ∧ st.root.isSome then memcpy r 0 b st.n else r :=
  merkle_up_spec P c fuel h { st with adr := adr } a r buf hc hm hf

theorem merkle_leaves_spec (T : Tune) (P : Prims) :
    ∀ (m : Nat) (st : build_merkle_state) (a r : List Nat) (flag : Bool),
      st.tree_height ≤ 30 →
      (merkle_leaves T P m st a r flag).all_done_flag
        = (flag || decide (0 < m ∧ 2 ^ st.tree_height ≤ st.current_node + m)) ∧
      merkErase (merkle_leaves T P m st a r flag).state =
        merkErase { st with
          current_node :=
            if 2 ^ st.tree_height ≤ st.current_node then st.current_node
            else min (st.current_node + m) (2 ^ st.tree_height) } ∧
      ∃ b, (merkle_leaves T P m st a r flag).rootMem =
        if (st.current_node < 2 ^ st.tree_height ∧ 2 ^ st.tree_height ≤ st.current_node + m) ∧
            st.root.isSome then memcpy r 0 b st.n
        else r := by
  intro m
  induction m with
  | zero =>
    intro st a r flag _
    refine ⟨by simp [merkle_leaves], ?_, [], ?_⟩
    · simp only [merkle_leaves, Nat.add_zero]
      have : (if 2 ^ st.tree_height ≤ st.current_node then st.current_node
          else min st.current_node (2 ^ st.tree_height)) = st.current_node := by
        split
        · rfl
        · omega
      rw [this]
    · have : ¬ ((st.current_node < 2 ^ st.tree_height ∧
          2 ^ st.tree_height ≤ st.current_node + 0) ∧ st.root.isSome) := by
        intro h
        omega
      simp only [merkle_leaves, this, if_false]
  | succ m ih =>
    intro st a r flag hh
    by_cases hd : 2 ^ st.tree_height ≤ st.current_node
    · rw [merkle_leaves_done T P m st a r flag hd]
      have h1 : ¬ (st.current_node < 2 ^ st.tree_height) := by omega
      refine ⟨by simp; right; omega, ?_, [], ?_⟩
      · simp only [hd, if_true]
      · simp only [h1, false_and, if_false]
    · have hd' : ¬ (st.current_node ≥ 2 ^ st.tree_height) := hd
      have hc : st.current_node < 2 ^ st.tree_height := by omega
      simp only [merkle_leaves, hd', if_false]
      generalize hw : merkle_up P st.current_node 32 0 _ a r _ = w
      obtain ⟨u1, u2, b1, u3⟩ :
          w.all_done_flag = decide (st.current_node + 1 = 2 ^ st.tree_height) ∧
          merkErase w.state = merkErase st ∧
          ∃ b, w.rootMem =
            if st.current_node + 1 = 2 ^ st.tree_height ∧ st.root.isSome then memcpy r 0 b st.n
            else r := by
        rw [← hw]
        have h0 : st.current_node % 2 ^ 0 = 2 ^ 0 - 1 := by rw [pow_zero, Nat.mod_one, Nat.sub_self]
        have h32 : st.tree_height - 0 < 32 := by omega
        exact merkle_up_adr P st.current_node 32 0 st _ a r _ hc h0 h32
      have e2 : merkErase w.state = merkErase st := u2
      have hth : w.state.tree_height = st.tree_height := by
        have := congrArg build_merkle_state.tree_height e2
        exact this
      have hcn : w.state.current_node = st.current_node := by
        have := congrArg build_merkle_state.current_node e2
        exact this
      have hrt : w.state.root = st.root := by
        have := congrArg build_merkle_state.root e2
        exact this
      have hn : w.state.n = st.n := by
        have := congrArg build_merkle_state.n e2
        exact this
      obtain ⟨v1, v2, b2, v3⟩ := ih { w.state with current_node := w.state.current_node + 1 }
        w.authMem w.rootMem (flag || w.all_done_flag) (by simp only [hth]; exact hh)
      generalize merkle_leaves T P m _ _ _ _ = res at v1 v2 v3 ⊢
      simp only [hth, hcn, hrt, hn] at v1 v3
      refine ⟨?_, ?_, ?_⟩
      · rw [v1, u1]
        by_cases hl : st.current_node + 1 = 2 ^ st.tree_height
        · have : 2 ^ st.tree_height ≤ st.current_node + (m + 1) := by omega
          simp [hl, this]
        · have : (0 < m ∧ 2 ^ st.tree_height ≤ st.current_node + 1 + m) ↔
              (0 < m + 1 ∧ 2 ^ st.tree_height ≤ st.current_node + (m + 1)) := by
            constructor <;> intro ⟨_, _⟩ <;> constructor <;> omega
          simp [hl, this]
      · rw [v2]
        have hX : (if 2 ^ w.state.tree_height ≤ w.state.current_node + 1
              then w.state.current_node + 1
            else min (w.state.current_node + 1 + m) (2 ^ w.state.tree_height))
            = min (st.current_node + (m + 1)) (2 ^ st.tree_height) := by
          rw [hth, hcn]
          split <;> omega
        refine Eq.trans (merkErase_with e2 _) ?_
        exact congrArg (fun c => merkErase { st with current_node := c }) hX
      · by_cases hl : st.current_node + 1 = 2 ^ st.tree_height
        · refine ⟨b1, ?_⟩
          have c1 : ¬ (st.current_node + 1 < 2 ^ st.tree_height) := by omega
          have c2 : 2 ^ st.tree_height ≤ st.current_node + (m + 1) := by omega
          have k1 : ¬ ((st.current_node + 1 < 2 ^ st.tree_height ∧
              2 ^ st.tree_height ≤ st.current_node + 1 + m) ∧ st.root.isSome = true) := by
            intro h
            omega
          have k2 : (st.current_node + 1 = 2 ^ st.tree_height ∧ st.root.isSome = true) ↔
              ((st.current_node < 2 ^ st.tree_height ∧
                2 ^ st.tree_height ≤ st.current_node + (m + 1)) ∧ st.root.isSome = true) := by
            constructor
            · intro h; exact ⟨⟨hc, c2⟩, h.2⟩
            · intro h; exact ⟨hl, h.2⟩
          rw [v3, u3, if_neg k1]
          simp only [k2]
        · refine ⟨b2, ?_⟩
          have c1 : st.current_node + 1 < 2 ^ st.tree_height := by omega
          have c2 : st.current_node + 1 + m = st.current_node + (m + 1) := by omega
          have k1 : ¬ (st.current_node + 1 = 2 ^ st.tree_height ∧ st.root.isSome = true) := by
            intro h
            omega
          rw [v3, u3, if_neg k1]
          simp only [c1, c2, hc, true_and]

/-! ## The frame of the build phases -/

theorem lms_store_kept (s : sh_signer) (loc : LmsLoc) (b : List Nat) :
    kept (lms_store s loc b) = kept s ∧ (lms_store s loc b).drbg = s.drbg := by
  cases loc <;> exact ⟨rfl, rfl⟩

theorem lms_walk_kept (T : Tune) (P : Prims) (leaf : Nat) :
    ∀ (fuel level node q : Nat) (s : sh_signer) (buffer : List Nat),
      kept (lms_walk T P leaf fuel level node q s buffer).1 = kept s ∧
      (lms_walk T P leaf fuel level node q s buffer).1.drbg = s.drbg := by
  intro fuel
  induction fuel with
  | zero => intro level node q s buffer; exact ⟨rfl, rfl⟩
  | succ k ih =>
    intro level node q s buffer
    have hs := lms_store_kept s (lms_storage T 24 level leaf node 1) buffer
    simp only [lms_walk]
    split
    · split
      · exact hs
      · exact hs
    · obtain ⟨h1, h2⟩ := ih (level + 1) (node / 2) (q / 2)
        (lms_store s (lms_storage T 24 level leaf node 1) buffer)
        (lms_combine_internal_nodes P
          (lms_load (lms_store s (lms_storage T 24 level leaf node 1) buffer)
            (lms_storage T 24 level leaf (node ^^^ 1) 0)) buffer
          (lms_store s (lms_storage T 24 level leaf node 1) buffer).next_lms_I 24 (q / 2))
      exact ⟨h1.trans hs.1, h2.trans hs.2⟩

theorem do_lms_loop_kept (T : Tune) (P : Prims) :
    ∀ (cnt : Nat) (s : sh_signer),
      kept (do_lms_loop T P cnt s) = kept s ∧ (do_lms_loop T P cnt s).drbg = s.drbg := by
  intro cnt
  induction cnt with
  | zero => intro s; exact ⟨rfl, rfl⟩
  | succ k ih =>
    intro s
    simp only [do_lms_loop]
    generalize hw : lms_walk T P s.do_lms_leaf 33 0 _ _ _ _ = w
    have hk : kept w.1 = kept s ∧ w.1.drbg = s.drbg := by
      rw [← hw]
      exact lms_walk_kept T P _ _ _ _ _ _ _
    split
    · exact hk
    · obtain ⟨h1, h2⟩ := ih w.1
      exact ⟨h1.trans hk.1, h2.trans hk.2⟩

theorem fors_walk_kept (P : Prims) (target : Nat) :
    ∀ (cnt level node name : Nat) (s : sh_signer) (adr buffer : List Nat),
      kept (fors_walk P target cnt level node name s adr buffer).1 = kept s ∧
      (fors_walk P target cnt level node name s adr buffer).1.drbg = s.drbg := by
  intro cnt level node name s adr buffer
  have h := fors_walk_erase P target cnt level node name s adr buffer
  constructor
  · have := congrArg kept h
    exact this
  · have := congrArg sh_signer.drbg h
    exact this

theorem fors_loop_kept (T : Tune) (P : Prims) (gen : private_key_generator) (target : Nat) :
    ∀ (cnt : Nat) (s : sh_signer) (adr : List Nat) (leaf : Nat) (buffer : List Nat),
      kept (fors_loop T P gen target cnt s adr leaf buffer).1 = kept s ∧
      (fors_loop T P gen target cnt s adr leaf buffer).1.drbg = s.drbg := by
  intro cnt
  induction cnt with
  | zero => intro s adr leaf buffer; exact ⟨rfl, rfl⟩
  | succ k ih =>
    intro s adr leaf buffer
    simp only [fors_loop]
    generalize hw : fors_walk P target SPH_A 0 leaf _ _ _ _ = fw
    have hk : kept fw.1 = kept s ∧ fw.1.drbg = s.drbg := by
      rw [← hw]
      obtain ⟨h1, h2⟩ := fors_walk_kept P target SPH_A 0 leaf
        ((leaf + s.do_fors_tree * 2 ^ SPH_A) % 2 ^ 32) _ _ _
      refine ⟨h1.trans ?_, h2.trans ?_⟩
      · split <;> rfl
      · split <;> rfl
    split
    · split
      · split
        · exact hk
        · split
          · split
            · exact hk
            · exact hk
          · exact hk
      · exact hk
    · obtain ⟨h1, h2⟩ := ih fw.1 fw.2.1 ((leaf + 1) % 2 ^ 32) fw.2.2
      exact ⟨h1.trans hk.1, h2.trans hk.2⟩

theorem step_lms_finished_kept (T : Tune) (P : Prims) (s : sh_signer) :
    kept (step_lms_finished T P s) = kept s := by
  simp only [step_lms_finished, kept, working_set]
  split <;> rfl

theorem step_hypertree_kept (T : Tune) (P : Prims) (s : sh_signer) :
    kept (step_hypertree T P s).2 = kept s := by
  simp only [step_hypertree, failure_state]
  split_ifs <;> rfl

theorem step_next_kept (T : Tune) (P : Prims) (s : sh_signer) (hb : s.build_state ≠ b_done) :
    kept (step_next T P s).2 = kept s := by
  by_cases hf : s.got_fatal_error = true
  · rw [step_next_fatal T P s hf]
  · have hf : s.got_fatal_error = false := by simpa using hf
    simp only [step_next, hf, failure_state, Bool.false_eq_true, if_false]
    cases hs : s.build_state <;> simp only [hs] at hb ⊢
    · split_ifs <;> first | rfl | exact (do_lms_loop_kept T P _ _).1
    · exact (do_lms_loop_kept T P _ _).1
    · exact step_lms_finished_kept T P s
    · split_ifs <;> exact (fors_loop_kept T P _ _ _ _ _ _ _).1
    · split_ifs <;> rfl
    · exact step_hypertree_kept T P s
    · exact absurd rfl hb
    · rfl

/-- C23: a `step_next` call in a build state other than `b_done` leaves the
current working set as it was: `current_lms_index`, `current_lms_seed`,
`current_lms_I`, `current_lms_pub_key`, `current_fake` and the contents of
the current LMS top subtree, the current LMS bottom subtree and the current
SPHINCS+ signature buffer. -/
theorem b_done_sole_switch (T : Tune) (P : Prims) (s : sh_signer)
    (hb : s.build_state ≠ b_done) :
    (step_next T P s).2.current_lms_index = s.current_lms_index ∧
    (step_next T P s).2.current_lms_seed = s.current_lms_seed ∧
    (step_next T P s).2.current_lms_I = s.current_lms_I ∧
    (step_next T P s).2.current_lms_pub_key = s.current_lms_pub_key ∧
    (step_next T P s).2.current_fake = s.current_fake ∧
    (step_next T P s).2.current_lms_top_subtree = s.current_lms_top_subtree ∧
    (step_next T P s).2.current_lms_bottom_subtree = s.current_lms_bottom_subtree ∧
    (step_next T P s).2.current_sphincs_sig = s.current_sphincs_sig := by
  have h := congrArg Prod.fst (step_next_kept T P s hb)
  simp only [kept, working_set, Prod.mk.injEq] at h
  exact h

/-- Witness for `b_done_sole_switch`: zero-filled signer memory in `b_init`. -/
theorem b_done_sole_switch_witness :
    (step_next tune zero_prims blank_signer).2.current_lms_index
      = blank_signer.current_lms_index :=
  (b_done_sole_switch tune zero_prims blank_signer (by decide)).1

/-! ## Completion of the Merkle builder -/

theorem MERKLE_CHAINS_pos (T : Tune) : 0 < MERKLE_CHAINS_PER_ITER T := by
  simp only [MERKLE_CHAINS_PER_ITER]
  split <;> omega

theorem merkle_after_succ (T : Tune) (P : Prims) (k : Nat) (st : build_merkle_state)
    (a r : List Nat) :
    merkle_after T P (k + 1) st a r =
      ((step_build_merkle T P (merkle_after T P k st a r).1 (merkle_after T P k st a r).2.1
          (merkle_after T P k st a r).2.2).state,
       (step_build_merkle T P (merkle_after T P k st a r).1 (merkle_after T P k st a r).2.1
          (merkle_after T P k st a r).2.2).authMem,
       (step_build_merkle T P (merkle_after T P k st a r).1 (merkle_after T P k st a r).2.1
          (merkle_after T P k st a r).2.2).rootMem) := by
  induction k generalizing st a r with
  | zero => rfl
  | succ k ih =>
    have e : merkle_after T P (k + 1 + 1) st a r =
        merkle_after T P (k + 1) (step_build_merkle T P st a r).state
          (step_build_merkle T P st a r).authMem (step_build_merkle T P st a r).rootMem := rfl
    have e1 : merkle_after T P (k + 1) st a r =
        merkle_after T P k (step_build_merkle T P st a r).state
          (step_build_merkle T P st a r).authMem (step_build_merkle T P st a r).rootMem := rfl
    rw [e, ih, e1]

theorem merkle_after_state (T : Tune) (P : Prims) (st : build_merkle_state) (a r : List Nat)
    (hh : st.tree_height ≤ 30) (hc : st.current_node = 0) :
    ∀ k, merkErase (merkle_after T P k st a r).1 =
      merkErase { st with
        current_node := min (k * MERKLE_CHAINS_PER_ITER T) (2 ^ st.tree_height) } := by
  intro k
  have hM := MERKLE_CHAINS_pos T
  have hpos : 0 < 2 ^ st.tree_height := Nat.pow_pos (by norm_num)
  induction k with
  | zero =>
    have : min (0 * MERKLE_CHAINS_PER_ITER T) (2 ^ st.tree_height) = st.current_node := by
      rw [hc]; omega
    rw [this]
    rfl
  | succ k ih =>
    rw [merkle_after_succ]
    generalize merkle_after T P k st a r = m at ih ⊢
    have hth : m.1.tree_height = st.tree_height := by
      have := congrArg build_merkle_state.tree_height ih
      exact this
    have hcn : m.1.current_node = min (k * MERKLE_CHAINS_PER_ITER T) (2 ^ st.tree_height) := by
      have := congrArg build_merkle_state.current_node ih
      exact this
    obtain ⟨_, v2, _⟩ := merkle_leaves_spec T P (MERKLE_CHAINS_PER_ITER T) m.1 m.2.1 m.2.2 false
      (by rw [hth]; exact hh)
    simp only [step_build_merkle]
    rw [v2]
    have hX : (if 2 ^ m.1.tree_height ≤ m.1.current_node then m.1.current_node
        else min (m.1.current_node + MERKLE_CHAINS_PER_ITER T) (2 ^ m.1.tree_height))
        = min ((k + 1) * MERKLE_CHAINS_PER_ITER T) (2 ^ st.tree_height) := by
      rw [hth, hcn, Nat.succ_mul]
      split <;> omega
    refine Eq.trans (merkErase_with ih _) ?_
    exact congrArg (fun c => merkErase { st with current_node := c }) hX

theorem MERKLE_CHAINS_cases (T : Tune) :
    MERKLE_CHAINS_PER_ITER T = 1 ∨ MERKLE_CHAINS_PER_ITER T = 2 := by
  simp only [MERKLE_CHAINS_PER_ITER]
  split
  · left; rfl
  · right; rfl

theorem merkle_after_root (T : Tune) (P : Prims) (st : build_merkle_state) (a r : List Nat)
    (hh : st.tree_height ≤ 30) (hc : st.current_node = 0) :
    ∀ k, k * MERKLE_CHAINS_PER_ITER T < 2 ^ st.tree_height →
      (merkle_after T P k st a r).2.2 = r := by
  intro k
  induction k with
  | zero => intro _; rfl
  | succ k ih =>
    intro hk
    have hk' : k * MERKLE_CHAINS_PER_ITER T < 2 ^ st.tree_height := by
      rw [Nat.succ_mul] at hk; omega
    have ih := ih hk'
    have hs := merkle_after_state T P st a r hh hc k
    rw [merkle_after_succ]
    generalize merkle_after T P k st a r = m at ih hs ⊢
    have hth : m.1.tree_height = st.tree_height := by
      have := congrArg build_merkle_state.tree_height hs
      exact this
    have hcn : m.1.current_node = min (k * MERKLE_CHAINS_PER_ITER T) (2 ^ st.tree_height) := by
      have := congrArg build_merkle_state.current_node hs
      exact this
    obtain ⟨_, _, b, v3⟩ := merkle_leaves_spec T P (MERKLE_CHAINS_PER_ITER T) m.1 m.2.1 m.2.2
      false (by rw [hth]; exact hh)
    simp only [step_build_merkle]
    rw [v3, hth, hcn, ih]
    have : ¬ ((min (k * MERKLE_CHAINS_PER_ITER T) (2 ^ st.tree_height) < 2 ^ st.tree_height ∧
        2 ^ st.tree_height ≤ min (k * MERKLE_CHAINS_PER_ITER T) (2 ^ st.tree_height)
          + MERKLE_CHAINS_PER_ITER T) ∧ m.1.root.isSome = true) := by
      rw [Nat.succ_mul] at hk
      intro h
      omega
    rw [if_neg this]

theorem merkle_completion_core (T : Tune) (P : Prims) (st : build_merkle_state)
    (a r : List Nat) (hh : st.tree_height ≤ 30) (hc : st.current_node = 0) :
    (∀ k, k + 1 < (2 ^ st.tree_height + MERKLE_CHAINS_PER_ITER T - 1)
        / MERKLE_CHAINS_PER_ITER T →
      (step_build_merkle T P (merkle_after T P k st a r).1 (merkle_after T P k st a r).2.1
        (merkle_after T P k st a r).2.2).all_done_flag = false ∧
      (merkle_after T P (k + 1) st a r).2.2 = r) ∧
    (∀ k, k + 1 = (2 ^ st.tree_height + MERKLE_CHAINS_PER_ITER T - 1)
        / MERKLE_CHAINS_PER_ITER T →
      (step_build_merkle T P (merkle_after T P k st a r).1 (merkle_after T P k st a r).2.1
        (merkle_after T P k st a r).2.2).all_done_flag = true ∧
      ∃ b, (merkle_after T P (k + 1) st a r).2.2
        = if st.root.isSome then memcpy r 0 b st.n else r) ∧
    (∀ k, (2 ^ st.tree_height + MERKLE_CHAINS_PER_ITER T - 1) / MERKLE_CHAINS_PER_ITER T ≤ k →
      step_build_merkle T P (merkle_after T P k st a r).1 (merkle_after T P k st a r).2.1
        (merkle_after T P k st a r).2.2 =
      { state := (merkle_after T P k st a r).1, authMem := (merkle_after T P k st a r).2.1,
        rootMem := (merkle_after T P k st a r).2.2, all_done_flag := true }) := by
  have hpos : 0 < 2 ^ st.tree_height := Nat.pow_pos (by norm_num)
  refine ⟨?_, ?_, ?_⟩
  · intro k hk
    have hlt : (k + 1) * MERKLE_CHAINS_PER_ITER T < 2 ^ st.tree_height := by
      rcases MERKLE_CHAINS_cases T with hM | hM <;> rw [hM] at hk ⊢ <;> omega
    refine ⟨?_, merkle_after_root T P st a r hh hc (k + 1) hlt⟩
    have hs := merkle_after_state T P st a r hh hc k
    generalize merkle_after T P k st a r = m at hs ⊢
    have hth : m.1.tree_height = st.tree_height := by
      have := congrArg build_merkle_state.tree_height hs
      exact this
    have hcn : m.1.current_node = min (k * MERKLE_CHAINS_PER_ITER T) (2 ^ st.tree_height) := by
      have := congrArg build_merkle_state.current_node hs
      exact this
    obtain ⟨v1, _, _⟩ := merkle_leaves_spec T P (MERKLE_CHAINS_PER_ITER T) m.1 m.2.1 m.2.2
      false (by rw [hth]; exact hh)
    simp only [step_build_merkle]
    rw [v1, hth, hcn]
    rw [Nat.succ_mul] at hlt
    have : ¬ (0 < MERKLE_CHAINS_PER_ITER T ∧ 2 ^ st.tree_height ≤
        min (k * MERKLE_CHAINS_PER_ITER T) (2 ^ st.tree_height) + MERKLE_CHAINS_PER_ITER T) := by
      intro h
      omega
    simp [this]
  · intro k hk
    have hlt : k * MERKLE_CHAINS_PER_ITER T < 2 ^ st.tree_height ∧
        2 ^ st.tree_height ≤ k * MERKLE_CHAINS_PER_ITER T + MERKLE_CHAINS_PER_ITER T := by
      rcases MERKLE_CHAINS_cases T with hM | hM <;> rw [hM] at hk ⊢ <;> omega
    have hM := MERKLE_CHAINS_pos T
    have hr := merkle_after_root T P st a r hh hc k hlt.1
    have hs := merkle_after_state T P st a r hh hc k
    rw [merkle_after_succ]
    generalize merkle_after T P k st a r = m at hs hr ⊢
    have hth : m.1.tree_height = st.tree_height := by
      have := congrArg build_merkle_state.tree_height hs
      exact this
    have hcn : m.1.current_node = min (k * MERKLE_CHAINS_PER_ITER T) (2 ^ st.tree_height) := by
      have := congrArg build_merkle_state.current_node hs
      exact this
    have hrt : m.1.root = st.root := by
      have := congrArg build_merkle_state.root hs
      exact this
    have hn : m.1.n = st.n := by
      have := congrArg build_merkle_state.n hs
      exact this
    obtain ⟨v1, _, b, v3⟩ := merkle_leaves_spec T P (MERKLE_CHAINS_PER_ITER T) m.1 m.2.1 m.2.2
      false (by rw [hth]; exact hh)
    simp only [step_build_merkle]
    have hmin : min (k * MERKLE_CHAINS_PER_ITER T) (2 ^ st.tree_height)
        = k * MERKLE_CHAINS_PER_ITER T := by omega
    rw [hth, hcn, hmin] at v1 v3
    refine ⟨?_, b, ?_⟩
    · rw [v1]
      simp [hM, hlt.2]
    · rw [v3, hrt, hn, hr]
      simp only [hlt, and_self, true_and]
  · intro k hk
    have hge : 2 ^ st.tree_height ≤ k * MERKLE_CHAINS_PER_ITER T := by
      rcases MERKLE_CHAINS_cases T with hM | hM <;> rw [hM] at hk ⊢ <;> omega
    have hs := merkle_after_state T P st a r hh hc k
    generalize merkle_after T P k st a r = m at hs ⊢
    have hth : m.1.tree_height = st.tree_height := by
      have := congrArg build_merkle_state.tree_height hs
      exact this
    have hcn : m.1.current_node = min (k * MERKLE_CHAINS_PER_ITER T) (2 ^ st.tree_height) := by
      have := congrArg build_merkle_state.current_node hs
      exact this
    obtain ⟨j, hj⟩ : ∃ j, MERKLE_CHAINS_PER_ITER T = j + 1 :=
      ⟨MERKLE_CHAINS_PER_ITER T - 1, by have := MERKLE_CHAINS_pos T; omega⟩
    simp only [step_build_merkle]
    rw [hj]
    exact merkle_leaves_done T P j m.1 m.2.1 m.2.2 false (by rw [hth, hcn]; omega)

theorem keygen_loop_some (T : Tune) (P : Prims) :
    ∀ (fuel : Nat) (st : build_merkle_state) (r : List Nat), st.tree_height ≤ 30 → 0 < fuel →
      2 ^ st.tree_height ≤ st.current_node + fuel * MERKLE_CHAINS_PER_ITER T →
      (keygen_loop T P fuel st r).isSome = true := by
  intro fuel
  have hM := MERKLE_CHAINS_pos T
  induction fuel with
  | zero => intro st r _ h0 _; omega
  | succ f ih =>
    intro st r hh _ hb
    simp only [keygen_loop, step_build_merkle]
    obtain ⟨v1, v2, _⟩ := merkle_leaves_spec T P (MERKLE_CHAINS_PER_ITER T) st [] r false hh
    generalize merkle_leaves T P (MERKLE_CHAINS_PER_ITER T) st [] r false = w at v1 v2 ⊢
    by_cases hd : 2 ^ st.tree_height ≤ st.current_node + MERKLE_CHAINS_PER_ITER T
    · have : w.all_done_flag = true := by rw [v1]; simp [hM, hd]
      simp only [this, if_true, Option.isSome_some]
    · have : w.all_done_flag = false := by rw [v1]; simp [hd]
      simp only [this, Bool.false_eq_true, if_false]
      have hth : w.state.tree_height = st.tree_height := by
        have := congrArg build_merkle_state.tree_height v2
        exact this
      have hcn : w.state.current_node = (if 2 ^ st.tree_height ≤ st.current_node
          then st.current_node
          else min (st.current_node + MERKLE_CHAINS_PER_ITER T) (2 ^ st.tree_height)) := by
        have := congrArg build_merkle_state.current_node v2
        exact this
      have hcn' : w.state.current_node = st.current_node + MERKLE_CHAINS_PER_ITER T := by
        rw [hcn]
        split <;> omega
      rw [Nat.succ_mul] at hb
      have hf : 0 < f := by
        rcases Nat.eq_zero_or_pos f with h0 | h0
        · subst h0
          simp at hb
          omega
        · exact h0
      exact ih w.state w.rootMem (by rw [hth]; exact hh) hf (by rw [hth, hcn']; omega)

theorem init_build_merkle_ok (st0 : build_merkle_state) (sk_seed pk_seed : List Nat)
    (hash h layer tree target : Nat) (auth_path root : Option Nat)
    (hi : (init_build_merkle st0 sk_seed pk_seed hash h layer tree target auth_path root).1
      = true) :
    (init_build_merkle st0 sk_seed pk_seed hash h layer tree target auth_path root).2.tree_height
      = h ∧
    (init_build_merkle st0 sk_seed pk_seed hash h layer tree target auth_path root).2.current_node
      = 0 ∧
    (init_build_merkle st0 sk_seed pk_seed hash h layer tree target auth_path root).2.root
      = root ∧
    (init_build_merkle st0 sk_seed pk_seed hash h layer tree target auth_path root).2.n
      = hash_len hash := by
  revert hi
  simp only [init_build_merkle]
  split
  · intro _; exact ⟨rfl, rfl, rfl, rfl⟩
  · intro h; cases h

/-- C27: after `init_build_merkle` with a tree height `h` (at most 30, so that
`1 << h` is an `int`), `step_build_merkle` returns false on each of the first
`ceil(2^h / MERKLE_CHAINS_PER_ITER) - 1` calls and leaves the root buffer as
it was, returns true on the next call, the one that processes leaf `2^h - 1`
and copies the root into the root buffer, and on every later call returns true
and changes neither the builder nor the two buffers; so the loop of
`sh_keygen` ends within that many calls. -/
theorem step_build_merkle_completion (T : Tune) (P : Prims) (st0 st : build_merkle_state)
    (sk_seed pk_seed a r : List Nat) (hash h layer tree target : Nat)
    (auth_path root : Option Nat) (hh : h ≤ 30)
    (hi : init_build_merkle st0 sk_seed pk_seed hash h layer tree target auth_path root
      = (true, st)) :
    (∀ k, k + 1 < (2 ^ h + MERKLE_CHAINS_PER_ITER T - 1) / MERKLE_CHAINS_PER_ITER T →
      (step_build_merkle T P (merkle_after T P k st a r).1 (merkle_after T P k st a r).2.1
        (merkle_after T P k st a r).2.2).all_done_flag = false ∧
      (merkle_after T P (k + 1) st a r).2.2 = r) ∧
    (∀ k, k + 1 = (2 ^ h + MERKLE_CHAINS_PER_ITER T - 1) / MERKLE_CHAINS_PER_ITER T →
      (step_build_merkle T P (merkle_after T P k st a r).1 (merkle_after T P k st a r).2.1
        (merkle_after T P k st a r).2.2).all_done_flag = true ∧
      ∃ b, (merkle_after T P (k + 1) st a r).2.2
        = if root.isSome then memcpy r 0 b (hash_len hash) else r) ∧
    (∀ k, (2 ^ h + MERKLE_CHAINS_PER_ITER T - 1) / MERKLE_CHAINS_PER_ITER T ≤ k →
      step_build_merkle T P (merkle_after T P k st a r).1 (merkle_after T P k st a r).2.1
        (merkle_after T P k st a r).2.2 =
      { state := (merkle_after T P k st a r).1, authMem := (merkle_after T P k st a r).2.1,
        rootMem := (merkle_after T P k st a r).2.2, all_done_flag := true }) ∧
    ∀ fuel, (2 ^ h + MERKLE_CHAINS_PER_ITER T - 1) / MERKLE_CHAINS_PER_ITER T ≤ fuel →
      (keygen_loop T P fuel st r).isSome = true := by
  have hi1 : (init_build_merkle st0 sk_seed pk_seed hash h layer tree target auth_path root).1
      = true := by rw [hi]
  obtain ⟨e1, e2, e3, e4⟩ :=
    init_build_merkle_ok st0 sk_seed pk_seed hash h layer tree target auth_path root hi1
  rw [hi] at e1 e2 e3 e4
  simp only at e1 e2 e3 e4
  subst e1
  obtain ⟨c1, c2, c3⟩ := merkle_completion_core T P st a r hh e2
  rw [e3, e4] at c2
  refine ⟨c1, c2, c3, ?_⟩
  intro fuel hf
  have hpos : 0 < 2 ^ st.tree_height := Nat.pow_pos (by norm_num)
  apply keygen_loop_some T P fuel st r hh
  · rcases MERKLE_CHAINS_cases T with hM | hM <;> rw [hM] at hf <;> omega
  · rw [e2]
    rcases MERKLE_CHAINS_cases T with hM | hM <;> rw [hM] at hf ⊢ <;> omega

/-- Witness for `step_build_merkle_completion`: the builder of `sh_keygen`
(height 8, layer 7, tree 0) started from zero-filled memory. -/
theorem step_build_merkle_completion_witness :
    (keygen_loop tune zero_prims 256
      (init_build_merkle blank_merkle [] [] 5 8 7 0 0 none (some 0)).2 (zeros 24)).isSome
      = true :=
  (step_build_merkle_completion tune zero_prims blank_merkle
    (init_build_merkle blank_merkle [] [] 5 8 7 0 0 none (some 0)).2 [] [] [] (zeros 24)
    5 8 7 0 0 none (some 0) (by decide) rfl).2.2.2 256 (by decide)

/-! ## One build cycle, step by step -/

theorem tune_cases (T : Tune) (hF : T.FAULT_STRATEGY = 0) :
    (LMS_ACTUAL T = 14 ∧ FORS_LEAFS_PER_ITER T = 220 ∧ MERKLE_CHAINS_PER_ITER T = 1 ∧
      fors_steps T = 298 ∧ merkle_steps T = 256 ∧ build_steps T = 14423) ∨
    (LMS_ACTUAL T = 13 ∧ FORS_LEAFS_PER_ITER T = 410 ∧ MERKLE_CHAINS_PER_ITER T = 2 ∧
      fors_steps T = 160 ∧ merkle_steps T = 128 ∧ build_steps T = 7371) := by
  by_cases h : T.SPEED_SETTING ≠ 0
  · left
    have h1 : LMS_ACTUAL T = 14 := by simp [LMS_ACTUAL, LMS_FAKE, LMS_H, hF, h]
    have h2 : FORS_LEAFS_PER_ITER T = 220 := by simp [FORS_LEAFS_PER_ITER, h]
    have h3 : MERKLE_CHAINS_PER_ITER T = 1 := by simp [MERKLE_CHAINS_PER_ITER, h]
    have h4 : fors_steps T = 298 := by simp [fors_steps, h2, SPH_A]
    have h5 : merkle_steps T = 256 := by simp [merkle_steps, h3, SPH_T, SPH_H, SPH_D]
    refine ⟨h1, h2, h3, h4, h5, ?_⟩
    simp [build_steps, h1, h4, h5, SPH_K, SPH_D]
  · right
    have h1 : LMS_ACTUAL T = 13 := by simp [LMS_ACTUAL, LMS_FAKE, LMS_H, hF, h]
    have h2 : FORS_LEAFS_PER_ITER T = 410 := by simp [FORS_LEAFS_PER_ITER, h]
    have h3 : MERKLE_CHAINS_PER_ITER T = 2 := by simp [MERKLE_CHAINS_PER_ITER, h]
    have h4 : fors_steps T = 160 := by simp [fors_steps, h2, SPH_A]
    have h5 : merkle_steps T = 128 := by simp [merkle_steps, h3, SPH_T, SPH_H, SPH_D]
    refine ⟨h1, h2, h3, h4, h5, ?_⟩
    simp [build_steps, h1, h4, h5, SPH_K, SPH_D]

theorem build_view_lms (T : Tune) {x y : sh_signer} (h : lmsErase x = lmsErase y) :
    (build_inv T x ↔ build_inv T y) ∧ build_pos T x = build_pos T y := by
  have h1 : build_inv T x = build_inv T (lmsErase x) := rfl
  have h2 : build_inv T y = build_inv T (lmsErase y) := rfl
  have h3 : build_pos T x = build_pos T (lmsErase x) := rfl
  have h4 : build_pos T y = build_pos T (lmsErase y) := rfl
  rw [h1, h2, h3, h4, h]
  exact ⟨Iff.rfl, rfl⟩

theorem build_view_fors (T : Tune) {x y : sh_signer} (h : forsErase x = forsErase y) :
    (build_inv T x ↔ build_inv T y) ∧ build_pos T x = build_pos T y := by
  have h1 : build_inv T x = build_inv T (forsErase x) := rfl
  have h2 : build_inv T y = build_inv T (forsErase y) := rfl
  have h3 : build_pos T x = build_pos T (forsErase x) := rfl
  have h4 : build_pos T y = build_pos T (forsErase y) := rfl
  rw [h1, h2, h3, h4, h]
  exact ⟨Iff.rfl, rfl⟩

theorem step_do_lms (T : Tune) (P : Prims) (s : sh_signer)
    (hf : s.got_fatal_error = false) (hb : s.build_state = b_do_lms)
    (hev : s.do_lms_leaf % 2 = 0) (hlt : s.do_lms_leaf + 2 ≤ 2 ^ LMS_ACTUAL T) :
    build_inv T (do_lms_loop T P LMS_LEAF_PER_ITER s) ∧
    build_pos T (do_lms_loop T P LMS_LEAF_PER_ITER s) = s.do_lms_leaf / 2 + 1 := by
  have hA := LMS_ACTUAL_ge T
  have hp : 2 ^ LMS_ACTUAL T = 2 * 2 ^ (LMS_ACTUAL T - 1) := two_pow_pred (by omega)
  obtain ⟨v1, v2⟩ := build_view_lms T (do_lms_loop_spec T P s hev hlt)
  rw [v1, v2]
  by_cases hfin : s.do_lms_leaf + 2 = 2 ^ LMS_ACTUAL T
  · rw [if_pos hfin]
    simp only [build_inv, build_pos, hf, and_self]
    exact ⟨trivial, by omega⟩
  · rw [if_neg hfin, hb]
    simp only [build_inv, build_pos, hf, true_and]
    omega

theorem step_init_ok (T : Tune) (P : Prims) (s : sh_signer)
    (hf : s.got_fatal_error = false) (hb : s.build_state = b_init)
    (hd : s.drbg.reseed_counter + 1 < 2 ^ 48) :
    (step_next T P s).1 = false ∧ build_inv T (step_next T P s).2 ∧
    build_pos T (step_next T P s).2 = build_pos T s + 1 := by
  have hA := LMS_ACTUAL_ge T
  have hp : 2 ^ LMS_ACTUAL T = 2 * 2 ^ (LMS_ACTUAL T - 1) := two_pow_pred (by omega)
  have h12 : 2 ^ 12 ≤ 2 ^ (LMS_ACTUAL T - 1) := Nat.pow_le_pow_right (by norm_num) (by omega)
  obtain ⟨r1, r1c⟩ := read_drbg_ok P s.next_lms_seed 32 s.drbg (by omega)
  obtain ⟨r2, _⟩ := read_drbg_ok P s.next_lms_I 16 (read_drbg P s.next_lms_seed 32 s.drbg).2.2
    (by omega)
  simp only [step_next, hf, hb, r1, r2, Bool.false_eq_true, if_false, not_true_eq_false,
    true_and]
  have hbp : build_pos T s = 0 := by simp only [build_pos, hb]
  rw [hbp]
  have key : ∀ S : sh_signer, S.got_fatal_error = false → S.build_state = b_do_lms →
      S.do_lms_leaf = 0 → build_inv T (do_lms_loop T P LMS_LEAF_PER_ITER S) ∧
        build_pos T (do_lms_loop T P LMS_LEAF_PER_ITER S) = 0 + 1 := by
    intro S h1 h2 h3
    have := step_do_lms T P S h1 h2 (by rw [h3]) (by rw [h3]; omega)
    rw [h3] at this
    exact this
  refine key _ ?_ ?_ ?_ <;> rfl
theorem step_do_lms_ok (T : Tune) (P : Prims) (s : sh_signer)
    (hI : build_inv T s) (hb : s.build_state = b_do_lms) :
    (step_next T P s).1 = false ∧ build_inv T (step_next T P s).2 ∧
    build_pos T (step_next T P s).2 = build_pos T s + 1 := by
  have hf : s.got_fatal_error = false := hI.1
  have h2 := hI.2
  simp only [hb] at h2
  simp only [step_next, hf, hb, Bool.false_eq_true, if_false, true_and]
  have hbp : build_pos T s = s.do_lms_leaf / 2 := by simp only [build_pos, hb]
  rw [hbp]
  exact step_do_lms T P s hf hb h2.1 h2.2.2

theorem step_lms_finished_fields (T : Tune) (P : Prims) (s : sh_signer) :
    (step_lms_finished T P s).do_fors_tree = 0 ∧ (step_lms_finished T P s).do_fors_leaf = 0 := by
  simp only [step_lms_finished, and_self]

theorem step_lms_finished_ok (T : Tune) (P : Prims) (s : sh_signer)
    (hI : build_inv T s) (hb : s.build_state = b_lms_finished) :
    (step_next T P s).1 = false ∧ build_inv T (step_next T P s).2 ∧
    build_pos T (step_next T P s).2 = build_pos T s + 1 := by
  have hf : s.got_fatal_error = false := hI.1
  rw [step_next_lms_finished T P s hf hb]
  obtain ⟨h1, h2⟩ := step_lms_finished_fields T P s
  have h3 := step_lms_finished_state T P s
  have h4 := step_lms_finished_fatal T P s
  have hF : 0 < FORS_LEAFS_PER_ITER T := by
    simp only [FORS_LEAFS_PER_ITER]; split <;> omega
  refine ⟨rfl, ?_, ?_⟩
  · simp only [build_inv, h3, h1, h2, h4, hf, SPH_K, SPH_A, true_and]
    refine ⟨by omega, by simp, by norm_num⟩
  · simp only [build_pos, h3, h1, h2, hb]
    simp

theorem memeq_self (a : List Nat) (n : Nat) : memeq a a n = true := by
  simp [memeq]

theorem step_complete_fors_ok (T : Tune) (P : Prims) (s : sh_signer)
    (hI : build_inv T s) (hb : s.build_state = b_complete_fors) :
    (step_next T P s).1 = false ∧ build_inv T (step_next T P s).2 ∧
    build_pos T (step_next T P s).2 = build_pos T s + 1 := by
  have hf : s.got_fatal_error = false := hI.1
  simp only [step_next, hf, hb, memeq_self, Bool.false_eq_true, if_false, not_true_eq_false,
    true_and]
  constructor
  · simp only [build_inv, hf, SPH_D, true_and]
    exact ⟨by norm_num, Or.inl trivial⟩
  · simp only [build_pos, hb, if_true, Nat.zero_mul, Nat.add_zero]
theorem forsErase_leaf {x y : sh_signer} (h : forsErase x = forsErase y) (v : Nat) :
    forsErase { x with do_fors_leaf := v } = forsErase { y with do_fors_leaf := v } := by
  have := congrArg (fun t : sh_signer => { t with do_fors_leaf := v }) h
  exact this

theorem forsErase_leaf_state {x y : sh_signer} (h : forsErase x = forsErase y) (v : Nat)
    (b : BuildState) :
    forsErase { x with do_fors_leaf := v, build_state := b }
      = forsErase { y with do_fors_leaf := v, build_state := b } := by
  have := congrArg (fun t : sh_signer => { t with do_fors_leaf := v, build_state := b }) h
  exact this

theorem step_fors_ok (T : Tune) (P : Prims) (s : sh_signer) (hF : T.FAULT_STRATEGY = 0)
    (hI : build_inv T s) (hb : s.build_state = b_fors) :
    (step_next T P s).1 = false ∧ build_inv T (step_next T P s).2 ∧
    build_pos T (step_next T P s).2 = build_pos T s + 1 := by
  have hf : s.got_fatal_error = false := hI.1
  have h2 := hI.2
  simp only [hb] at h2
  obtain ⟨ht, hm, hl⟩ := h2
  have h16 : 2 ^ SPH_A = 65536 := by decide
  have hK : SPH_K = 14 := rfl
  rw [h16] at hl
  rw [hK] at ht
  have hmod : s.do_fors_leaf % 2 ^ 32 = s.do_fors_leaf := Nat.mod_eq_of_lt (by omega)
  have hbp : build_pos T s = 2 ^ (LMS_ACTUAL T - 1) + 1 + s.do_fors_tree * fors_steps T
      + s.do_fors_leaf / FORS_LEAFS_PER_ITER T := by simp only [build_pos, hb]
  simp only [step_next, hf, hb, hmod, Bool.false_eq_true, if_false]
  generalize hfl : fors_loop T P _ _ (FORS_LEAFS_PER_ITER T) s _ s.do_fors_leaf _ = fl
  obtain ⟨a1, a2, a3⟩ :
      fl.2.2 = false ∧
      fl.2.1 = (if s.do_fors_leaf + FORS_LEAFS_PER_ITER T < 2 ^ SPH_A
        then s.do_fors_leaf + FORS_LEAFS_PER_ITER T else 0) ∧
      forsErase fl.1 =
        (if s.do_fors_leaf + FORS_LEAFS_PER_ITER T < 2 ^ SPH_A then forsErase s
         else forsErase { s with
           do_fors_tree := s.do_fors_tree + 1,
           sphincs_sig_index := (s.sphincs_sig_index + 24 * (1 + SPH_A)) % 2 ^ 32,
           do_fors_redundant_pass := false }) := by
    rw [← hfl]
    exact fors_loop_spec T P _ _ hF _ s _ _ _ (by rw [h16]; exact hl)
  rw [h16] at a2 a3
  simp only [a1, Bool.false_eq_true, if_false]
  by_cases hc : s.do_fors_leaf + FORS_LEAFS_PER_ITER T < 65536
  · rw [if_pos hc] at a2 a3
    have htree : fl.1.do_fors_tree = s.do_fors_tree := by
      have := congrArg sh_signer.do_fors_tree a3
      exact this
    have hne : ¬ (fl.1.do_fors_tree = SPH_K) := by rw [htree, hK]; omega
    simp only [hne, if_false, true_and]
    obtain ⟨v1, v2⟩ := build_view_fors T (forsErase_leaf a3 fl.2.1)
    rw [v1, v2, a2, hbp]
    simp only [build_inv, build_pos, hf, hb, h16, hK, true_and]
    rcases tune_cases T hF with ⟨_, hFv, _, hs, _, _⟩ | ⟨_, hFv, _, hs, _, _⟩ <;>
      rw [hFv] at hm hc ⊢ <;> rw [hs] <;> refine ⟨⟨ht, by omega, hc⟩, by omega⟩
  · rw [if_neg hc] at a2 a3
    have htree : fl.1.do_fors_tree = s.do_fors_tree + 1 := by
      have := congrArg sh_signer.do_fors_tree a3
      exact this
    by_cases hlast : s.do_fors_tree + 1 = SPH_K
    · have he : fl.1.do_fors_tree = SPH_K := by rw [htree, hlast]
      rw [if_pos he]
      simp only [true_and]
      obtain ⟨v1, v2⟩ := build_view_fors T (forsErase_leaf_state a3 fl.2.1 b_complete_fors)
      rw [v1, v2, hbp]
      simp only [build_inv, build_pos, hf, hK, true_and]
      rw [hK] at hlast
      rcases tune_cases T hF with ⟨_, hFv, _, hs, _, _⟩ | ⟨_, hFv, _, hs, _, _⟩ <;>
        rw [hFv] at hm hc ⊢ <;> rw [hs] <;> omega
    · have he : ¬ (fl.1.do_fors_tree = SPH_K) := by rw [htree]; exact hlast
      simp only [he, if_false, true_and]
      obtain ⟨v1, v2⟩ := build_view_fors T (forsErase_leaf a3 fl.2.1)
      rw [v1, v2, a2, hbp]
      simp only [build_inv, build_pos, hf, hb, h16, hK, true_and]
      rw [hK] at hlast
      rcases tune_cases T hF with ⟨_, hFv, _, hs, _, _⟩ | ⟨_, hFv, _, hs, _, _⟩ <;>
        rw [hFv] at hm hc ⊢ <;> rw [hs] <;>
        refine ⟨⟨by omega, by simp, by norm_num⟩, by simp; omega⟩
theorem init_build_merkle_192 (st : build_merkle_state) (sk pk : List Nat)
    (h layer tree target : Nat) (a r : Option Nat) :
    (init_build_merkle st sk pk (HASH_TYPE_SHA256 ||| HASH_LEN_192) h layer tree target a r).1
      = true := by
  have : hash_len (HASH_TYPE_SHA256 ||| HASH_LEN_192) = 24 := by decide
  simp only [init_build_merkle, this]
  rfl

theorem step_hypertree_start (T : Tune) (P : Prims) (s : sh_signer)
    (hI : build_inv T s) (hb : s.build_state = b_hypertree) (h0 : s.do_hyper_do_tree = 0) :
    (step_next T P s).1 = false ∧ build_inv T (step_next T P s).2 ∧
    build_pos T (step_next T P s).2 = build_pos T s + 1 := by
  have hf : s.got_fatal_error = false := hI.1
  have h2 := hI.2
  simp only [hb] at h2
  have hbp : build_pos T s = 2 ^ (LMS_ACTUAL T - 1) + 1 + SPH_K * fors_steps T + 1
      + s.do_hyper_level * (1 + merkle_steps T) := by
    simp only [build_pos, hb, h0, if_true, Nat.add_zero]
  have hM := MERKLE_CHAINS_pos T
  simp only [step_next, hf, hb, step_hypertree, h0, expand_wots_digits_count, Bool.false_eq_true,
    if_false, if_true, ne_eq, not_true_eq_false, true_and]
  obtain ⟨e1, e2, _, _⟩ := init_build_merkle_ok s.do_hyper_merk s.sk_seed s.pk_seed
    (HASH_TYPE_SHA256 ||| HASH_LEN_192) SPH_T s.do_hyper_level s.idx_tree s.idx_leaf
    (some ((s.sphincs_sig_index + 51 * 24) % 2 ^ 32)) (some 0) (init_build_merkle_192 _ _ _ _ _ _ _ _ _)
  constructor
  · simp only [build_inv, hf, hb, e1, e2, true_and]
    exact ⟨h2.1, Or.inr ⟨Nat.zero_mod _, Nat.pow_pos (by norm_num)⟩⟩
  · simp only [build_pos, hb, h0, e2]
    simp
theorem step_hypertree_tree (T : Tune) (P : Prims) (s : sh_signer) (hF : T.FAULT_STRATEGY = 0)
    (hI : build_inv T s) (hb : s.build_state = b_hypertree) (h1 : s.do_hyper_do_tree = 1) :
    (step_next T P s).1 = false ∧ build_inv T (step_next T P s).2 ∧
    build_pos T (step_next T P s).2 = build_pos T s + 1 := by
  have hf : s.got_fatal_error = false := hI.1
  have h2 := hI.2
  simp only [hb, h1, one_ne_zero, false_or, true_and] at h2
  obtain ⟨hlev, hth, hmod, hlt⟩ := h2
  have hT : SPH_T = 8 := by decide
  have hD : SPH_D = 8 := rfl
  have hK : SPH_K = 14 := rfl
  rw [hT] at hth hlt
  rw [hD] at hlev
  have hbp : build_pos T s = 2 ^ (LMS_ACTUAL T - 1) + 1 + SPH_K * fors_steps T + 1
      + s.do_hyper_level * (1 + merkle_steps T)
      + (1 + s.do_hyper_merk.current_node / MERKLE_CHAINS_PER_ITER T) := by
    simp only [build_pos, hb, h1, one_ne_zero, if_false]
  have hM := MERKLE_CHAINS_pos T
  have h10 : ¬ (s.do_hyper_do_tree = 0) := by rw [h1]; exact one_ne_zero
  simp only [step_next, hf, hb, step_hypertree, h10, hF, Bool.false_eq_true,
    if_false, ne_eq, not_true_eq_false]
  generalize hw : step_build_merkle T P s.do_hyper_merk s.next_sphincs_sig _ = w
  obtain ⟨v1, v2⟩ :
      w.all_done_flag = decide (2 ^ 8 ≤ s.do_hyper_merk.current_node + MERKLE_CHAINS_PER_ITER T) ∧
      merkErase w.state = merkErase { s.do_hyper_merk with
        current_node := s.do_hyper_merk.current_node + MERKLE_CHAINS_PER_ITER T } := by
    rw [← hw]
    obtain ⟨u1, u2, _⟩ := merkle_leaves_spec T P (MERKLE_CHAINS_PER_ITER T) s.do_hyper_merk
      s.next_sphincs_sig
      (if s.do_hyper_merk.root = some 1 then s.do_hyper_redundant_root
        else s.do_hyper_next_root) false (by rw [hth]; omega)
    simp only [step_build_merkle]
    constructor
    · rw [u1, hth]; simp [hM]
    · rw [u2]
      have : (if 2 ^ s.do_hyper_merk.tree_height ≤ s.do_hyper_merk.current_node
            then s.do_hyper_merk.current_node
          else min (s.do_hyper_merk.current_node + MERKLE_CHAINS_PER_ITER T)
            (2 ^ s.do_hyper_merk.tree_height))
          = s.do_hyper_merk.current_node + MERKLE_CHAINS_PER_ITER T := by
        rw [hth]
        rcases MERKLE_CHAINS_cases T with hMv | hMv <;> rw [hMv] at hmod ⊢ <;> split <;> omega
      exact congrArg (fun c => merkErase { s.do_hyper_merk with current_node := c }) this
  have hcn : w.state.current_node = s.do_hyper_merk.current_node + MERKLE_CHAINS_PER_ITER T := by
    have := congrArg build_merkle_state.current_node v2
    exact this
  have hth' : w.state.tree_height = 8 := by
    have := congrArg build_merkle_state.tree_height v2
    exact this.trans hth
  by_cases hdone : 2 ^ 8 ≤ s.do_hyper_merk.current_node + MERKLE_CHAINS_PER_ITER T
  · have hfl : w.all_done_flag = true := by rw [v1]; exact decide_eq_true hdone
    simp only [hfl, if_true]
    by_cases hlast : s.do_hyper_level + 1 = SPH_D
    · rw [if_pos hlast, hbp]
      simp only [build_inv, build_pos, hf, true_and]
      rw [hD] at hlast
      rcases tune_cases T hF with ⟨hA, _, hMv, hs, hms, hbs⟩ | ⟨hA, _, hMv, hs, hms, hbs⟩ <;>
        simp only [hA, hMv, hs, hms, hbs, hK, Nat.reduceSub, Nat.reducePow] at hmod hdone ⊢ <;>
        omega
    · rw [if_neg hlast, hbp]
      simp only [build_inv, build_pos, hf, hb, hD, if_true, true_and]
      rw [hD] at hlast
      rcases tune_cases T hF with ⟨_, _, hMv, hs, hms, hbs⟩ | ⟨_, _, hMv, hs, hms, hbs⟩ <;>
        simp only [hMv, hs, hms, hK] at hmod hdone ⊢ <;>
        refine ⟨⟨by omega, Or.inl trivial⟩, by omega⟩
  · have hfl : w.all_done_flag = false := by rw [v1]; exact decide_eq_false hdone
    simp only [hfl, Bool.false_eq_true, if_false, true_and]
    rw [hbp]
    simp only [build_inv, build_pos, hf, hb, h1, hD, hT, hcn, hth', one_ne_zero, if_false,
      true_and]
    rcases tune_cases T hF with ⟨_, _, hMv, hs, hms, hbs⟩ | ⟨_, _, hMv, hs, hms, hbs⟩ <;>
      simp only [hMv, hs, hms, hK] at hmod hdone ⊢ <;>
      refine ⟨⟨by omega, Or.inr ⟨by omega, by omega⟩⟩, by omega⟩

theorem step_progress (T : Tune) (P : Prims) (s : sh_signer) (hF : T.FAULT_STRATEGY = 0)
    (hI : build_inv T s) (hb : s.build_state ≠ b_done)
    (hd : s.build_state = b_init → s.drbg.reseed_counter + 1 < 2 ^ 48) :
    (step_next T P s).1 = false ∧ build_inv T (step_next T P s).2 ∧
    build_pos T (step_next T P s).2 = build_pos T s + 1 := by
  cases hs : s.build_state with
  | b_init => exact step_init_ok T P s hI.1 hs (hd hs)
  | b_do_lms => exact step_do_lms_ok T P s hI hs
  | b_lms_finished => exact step_lms_finished_ok T P s hI hs
  | b_fors => exact step_fors_ok T P s hF hI hs
  | b_complete_fors => exact step_complete_fors_ok T P s hI hs
  | b_hypertree =>
    have h2 := hI.2
    simp only [hs] at h2
    rcases h2.2 with h0 | h1
    · exact step_hypertree_start T P s hI hs h0
    · exact step_hypertree_tree T P s hF hI hs h1.1
  | b_done => exact absurd hs hb
  | b_count =>
    have h2 := hI.2
    simp only [hs] at h2

theorem build_pos_done (T : Tune) (s : sh_signer) (hF : T.FAULT_STRATEGY = 0)
    (hI : build_inv T s) :
    build_pos T s + 1 ≤ build_steps T ∧ (build_pos T s + 1 = build_steps T ↔
      s.build_state = b_done) := by
  have hf := hI.1
  have h2 := hI.2
  have hT : SPH_T = 8 := by decide
  have hD : SPH_D = 8 := rfl
  have hK : SPH_K = 14 := rfl
  have h16 : 2 ^ SPH_A = 65536 := by decide
  rcases tune_cases T hF with ⟨hA, hFv, hMv, hfs, hms, hbs⟩ | ⟨hA, hFv, hMv, hfs, hms, hbs⟩
  all_goals
    cases hs : s.build_state with
    | b_hypertree =>
      simp only [hs] at h2
      simp only [build_pos, hs]
      simp only [hA, hFv, hMv, hfs, hms, hbs, hK, hD, hT, h16, Nat.reduceSub, Nat.reducePow,
        reduceCtorEq, iff_false] at h2 ⊢
      obtain ⟨h3, h4 | h4⟩ := h2
      · simp only [h4, if_true]
        omega
      · have h5 : s.do_hyper_do_tree ≠ 0 := by omega
        simp only [h5, if_false]
        omega
    | b_count => simp only [hs] at h2
    | _ =>
      simp only [hs] at h2
      simp only [build_pos, hs]
      simp only [hA, hFv, hMv, hfs, hms, hbs, hK, hD, hT, h16, Nat.reduceSub, Nat.reducePow,
        reduceCtorEq, iff_false, iff_true] at h2 ⊢
      first | omega | exact ⟨by omega, trivial⟩

/-! ## The build cycle as a whole -/

theorem run_succ (T : Tune) (P : Prims) (k : Nat) (s : sh_signer) :
    run T P (k + 1) s = (step_next T P (run T P k s)).2 := by
  induction k generalizing s with
  | zero => rfl
  | succ k ih =>
    have e : run T P (k + 1 + 1) s = run T P (k + 1) (step_next T P s).2 := rfl
    have e1 : run T P (k + 1) s = run T P k (step_next T P s).2 := rfl
    rw [e, ih, e1]

theorem build_pos_init (T : Tune) (s : sh_signer) (hI : build_inv T s)
    (hb : s.build_state = b_init) : build_pos T s = 0 := by
  simp only [build_pos, hb]

theorem build_pos_pos (T : Tune) (s : sh_signer) (hI : build_inv T s)
    (hb : s.build_state ≠ b_init) : 0 < build_pos T s := by
  have h2 := hI.2
  have hA := LMS_ACTUAL_ge T
  have hp : 0 < 2 ^ (LMS_ACTUAL T - 1) := Nat.pow_pos (by norm_num)
  have hbs : 2 ≤ build_steps T := by
    simp only [build_steps]
    omega
  cases hs : s.build_state <;> simp only [hs] at h2 hb <;> simp only [build_pos, hs] <;>
    first | omega | positivity | exact absurd rfl hb

theorem run_cycle (T : Tune) (P : Prims) (s : sh_signer) (hF : T.FAULT_STRATEGY = 0)
    (hI : build_inv T s) (hd : s.build_state = b_init → s.drbg.reseed_counter + 1 < 2 ^ 48) :
    ∀ k, build_pos T s + k + 1 ≤ build_steps T →
      build_inv T (run T P k s) ∧ build_pos T (run T P k s) = build_pos T s + k ∧
      kept (run T P k s) = kept s ∧
      ∀ j, j < k → (step_next T P (run T P j s)).1 = false := by
  intro k
  induction k with
  | zero =>
    intro _
    exact ⟨hI, rfl, rfl, fun j hj => absurd hj (Nat.not_lt_zero j)⟩
  | succ k ih =>
    intro hk
    obtain ⟨i1, i2, i3, i4⟩ := ih (by omega)
    have hnd : (run T P k s).build_state ≠ b_done := by
      intro h
      have := (build_pos_done T (run T P k s) hF i1).2.mpr h
      omega
    have hd' : (run T P k s).build_state = b_init →
        (run T P k s).drbg.reseed_counter + 1 < 2 ^ 48 := by
      intro h
      have h0 := build_pos_init T _ i1 h
      have hk0 : k = 0 := by omega
      subst hk0
      exact hd h
    obtain ⟨p1, p2, p3⟩ := step_progress T P (run T P k s) hF i1 hnd hd'
    rw [run_succ]
    refine ⟨p2, by rw [p3, i2]; omega, (step_next_kept T P _ hnd).trans i3, ?_⟩
    intro j hj
    rcases Nat.lt_or_ge j k with h | h
    · exact i4 j h
    · have : j = k := by omega
      subst this
      exact p1
theorem seed_drbg_counter (P : Prims) (d d' : hmac_drbg) (rand : Nat → Option (List Nat))
    (h : seed_drbg P d rand = some d') : d'.reseed_counter = 1 := by
  revert h
  simp only [seed_drbg]
  split
  · intro h; cases h
  · intro h
    have := Option.some.inj h
    rw [← this]

theorem step_next_done (T : Tune) (P : Prims) (s : sh_signer)
    (hf : s.got_fatal_error = false) (hb : s.build_state = b_done) :
    (step_next T P s).1 = true ∧ (step_next T P s).2.build_state = b_init ∧
    (step_next T P s).2.got_fatal_error = false ∧
    (step_next T P s).2.current_lms_index = 0 ∧
    (step_next T P s).2.initialized = s.initialized ∧
    (step_next T P s).2.drbg = s.drbg := by
  simp only [step_next, hf, hb, Bool.false_eq_true, if_false, and_self]

theorem load_loop_run (T : Tune) (P : Prims) :
    ∀ (n fuel : Nat) (s : sh_signer),
      (∀ j, j < n → (step_next T P (run T P j s)).1 = false) →
      (step_next T P (run T P n s)).1 = true → n < fuel →
      load_loop T P fuel s = some (step_next T P (run T P n s)).2 := by
  intro n
  induction n with
  | zero =>
    intro fuel s _ h1 hf
    obtain ⟨f, rfl⟩ : ∃ f, fuel = f + 1 := ⟨fuel - 1, by omega⟩
    have h1' : (step_next T P s).1 = true := h1
    simp only [load_loop, h1', if_true]
    rfl
  | succ n ih =>
    intro fuel s h0 h1 hf
    obtain ⟨f, rfl⟩ : ∃ f, fuel = f + 1 := ⟨fuel - 1, by omega⟩
    have hfirst : (step_next T P s).1 = false := h0 0 (by omega)
    simp only [load_loop, hfirst, Bool.false_eq_true, if_false]
    have e : ∀ j, run T P (j + 1) s = run T P j (step_next T P s).2 := fun j => rfl
    rw [e n] at h1 ⊢
    apply ih f (step_next T P s).2 _ h1 (by omega)
    intro j hj
    have := h0 (j + 1) (by omega)
    rw [e j] at this
    exact this

theorem full_cycle (T : Tune) (P : Prims) (s : sh_signer) (hF : T.FAULT_STRATEGY = 0)
    (hf : s.got_fatal_error = false) (hb : s.build_state = b_init)
    (hd : s.drbg.reseed_counter + 1 < 2 ^ 48) :
    (∀ j, j + 1 < build_steps T → (step_next T P (run T P j s)).1 = false) ∧
    (run T P (build_steps T - 1) s).build_state = b_done ∧
    (run T P (build_steps T - 1) s).got_fatal_error = false ∧
    kept (run T P (build_steps T - 1) s) = kept s ∧
    (step_next T P (run T P (build_steps T - 1) s)).1 = true := by
  have hI : build_inv T s := by
    simp only [build_inv, hf, hb, and_self]
  have hp := build_pos_init T s hI hb
  have hN : 1 ≤ build_steps T := Nat.le_add_left 1 _
  obtain ⟨i1, i2, i3, i4⟩ := run_cycle T P s hF hI (fun _ => hd) (build_steps T - 1)
    (by omega)
  have hdone : (run T P (build_steps T - 1) s).build_state = b_done :=
    (build_pos_done T _ hF i1).2.mp (by omega)
  refine ⟨fun j hj => i4 j (by omega), hdone, i1.1, i3, ?_⟩
  exact (step_next_done T P _ i1.1 hdone).1
theorem read_drbg_counter_le (P : Prims) (b : List Nat) (n : Nat) (d : hmac_drbg) :
    (read_drbg P b n d).2.2.reseed_counter ≤ d.reseed_counter + 1 := by
  by_cases h : 2 ^ 48 ≤ d.reseed_counter
  · rw [read_drbg_fail P b n d h]
    exact Nat.le_succ _
  · rw [(read_drbg_ok P b n d (by omega)).2]

theorem step_lms_finished_drbg (T : Tune) (P : Prims) (s : sh_signer) :
    (step_lms_finished T P s).drbg.reseed_counter ≤ s.drbg.reseed_counter + 2 := by
  simp only [step_lms_finished]
  split
  · have h1 := read_drbg_counter_le P s.next_fake (24 * LMS_FAKE T) s.drbg
    have h2 := read_drbg_counter_le P (zeros 32) 24
      (read_drbg P s.next_fake (24 * LMS_FAKE T) s.drbg).2.2
    exact Nat.le_trans h2 (by omega)
  · have h2 := read_drbg_counter_le P (zeros 32) 24 s.drbg
    exact Nat.le_trans h2 (by omega)

theorem step_hypertree_drbg (T : Tune) (P : Prims) (s : sh_signer) :
    (step_hypertree T P s).2.drbg = s.drbg := by
  simp only [step_hypertree, failure_state]
  split_ifs <;> rfl

theorem cnt_le_of_eq {x y : hmac_drbg} (h : x = y) {a : Nat} (h' : y.reseed_counter ≤ a) :
    x.reseed_counter ≤ a := h ▸ h'

theorem le_two_of_le {x a : Nat} (h : x ≤ a) : x ≤ a + 2 := Nat.le_trans h (Nat.le_add_right a 2)

theorem le_two_of_le_one {x a : Nat} (h : x ≤ a + 1) : x ≤ a + 2 :=
  Nat.le_trans h (Nat.le_succ _)

theorem le_two_of_chain {x b a : Nat} (h1 : b ≤ a + 1) (h2 : x ≤ b + 1) : x ≤ a + 2 :=
  Nat.le_trans h2 (Nat.succ_le_succ h1)

theorem step_next_drbg (T : Tune) (P : Prims) (s : sh_signer) :
    (step_next T P s).2.drbg.reseed_counter ≤ s.drbg.reseed_counter + 2 := by
  by_cases hf : s.got_fatal_error = true
  · rw [step_next_fatal T P s hf]
    exact le_two_of_le (Nat.le_refl _)
  · have hf : s.got_fatal_error = false := by simpa using hf
    have h1 := read_drbg_counter_le P s.next_lms_seed 32 s.drbg
    have h2 := read_drbg_counter_le P s.next_lms_I 16 (read_drbg P s.next_lms_seed 32 s.drbg).2.2
    simp only [step_next, hf, failure_state, Bool.false_eq_true, if_false]
    cases hs : s.build_state <;> simp only [hs]
    · split_ifs <;> first
        | exact le_two_of_le_one h1
        | exact le_two_of_chain h1 h2
        | exact cnt_le_of_eq (do_lms_loop_kept T P _ _).2 (le_two_of_chain h1 h2)
    · exact cnt_le_of_eq (do_lms_loop_kept T P _ _).2 (le_two_of_le (Nat.le_refl _))
    · exact step_lms_finished_drbg T P s
    · split_ifs <;>
        exact cnt_le_of_eq (fors_loop_kept T P _ _ _ _ _ _ _).2 (le_two_of_le (Nat.le_refl _))
    · split_ifs <;> exact le_two_of_le (Nat.le_refl _)
    · exact cnt_le_of_eq (step_hypertree_drbg T P s) (le_two_of_le (Nat.le_refl _))
    · exact le_two_of_le (Nat.le_refl _)
    · exact le_two_of_le (Nat.le_refl _)

theorem run_drbg (T : Tune) (P : Prims) :
    ∀ (k : Nat) (s : sh_signer),
      (run T P k s).drbg.reseed_counter ≤ s.drbg.reseed_counter + 2 * k := by
  intro k
  induction k with
  | zero => intro s; exact Nat.le_refl _
  | succ k ih =>
    intro s
    have e : run T P (k + 1) s = run T P k (step_next T P s).2 := rfl
    rw [e]
    have h1 := ih (step_next T P s).2
    have h2 := step_next_drbg T P s
    omega

theorem build_steps_le (T : Tune) (hF : T.FAULT_STRATEGY = 0) :
    build_steps T ≤ 14423 ∧ 7371 ≤ build_steps T ∧ build_steps T < 2 ^ LMS_ACTUAL T := by
  rcases tune_cases T hF with ⟨hA, _, _, _, _, hbs⟩ | ⟨hA, _, _, _, _, hbs⟩ <;>
    rw [hA, hbs] <;> norm_num

theorem load_loop_cycle (T : Tune) (P : Prims) (fuel : Nat) (s : sh_signer)
    (hF : T.FAULT_STRATEGY = 0) (hfuel : build_steps T ≤ fuel)
    (hf : s.got_fatal_error = false) (hb : s.build_state = b_init)
    (hd : s.drbg.reseed_counter + 1 < 2 ^ 48) :
    load_loop T P fuel s = some (step_next T P (run T P (build_steps T - 1) s)).2 ∧
    (run T P (build_steps T - 1) s).build_state = b_done ∧
    (run T P (build_steps T - 1) s).got_fatal_error = false ∧
    kept (run T P (build_steps T - 1) s) = kept s := by
  obtain ⟨c1, c2, c3, c4, c5⟩ := full_cycle T P s hF hf hb hd
  have hN : 1 ≤ build_steps T := Nat.le_add_left 1 _
  refine ⟨?_, c2, c3, c4⟩
  exact load_loop_run T P (build_steps T - 1) fuel s (fun j hj => c1 j (by omega)) c5 (by omega)

theorem load_tail (T : Tune) (P : Prims) (fuel : Nat) (s0 : sh_signer)
    (hF : T.FAULT_STRATEGY = 0) (hfuel : build_steps T ≤ fuel)
    (h1 : s0.got_fatal_error = false) (h2 : s0.build_state = b_init)
    (h3 : s0.drbg.reseed_counter = 1) :
    ∃ s s1, (load_loop T P fuel s0).map
        (fun signer => some { signer with initialized := true }) = some (some s) ∧
      s.initialized = true ∧ s.got_fatal_error = false ∧ s.build_state = b_init ∧
      s.current_lms_index = 0 ∧ s.drbg.reseed_counter ≤ 1 + 2 * build_steps T ∧
      s1.build_state = b_done ∧ s1.got_fatal_error = false ∧
      build_pos T s1 + 1 = build_steps T ∧
      s = { (step_next T P s1).2 with initialized := true } := by
  obtain ⟨l1, l2, l3, l4⟩ := load_loop_cycle T P fuel s0 hF hfuel h1 h2 (by rw [h3]; norm_num)
  obtain ⟨d1, d2, d3, d4, d5, d6⟩ := step_next_done T P _ l3 l2
  have hI : build_inv T (run T P (build_steps T - 1) s0) := by
    simp only [build_inv, l3, l2, and_self]
  have hpos : build_pos T (run T P (build_steps T - 1) s0) + 1 = build_steps T :=
    (build_pos_done T _ hF hI).2.mpr l2
  have hcnt := run_drbg T P (build_steps T - 1) s0
  rw [l1]
  refine ⟨_, run T P (build_steps T - 1) s0, rfl, rfl, d3, d2, d4, ?_, l2, l3, hpos, rfl⟩
  show (step_next T P (run T P (build_steps T - 1) s0)).2.drbg.reseed_counter ≤ _
  rw [d6]
  omega

theorem sh_load_signer_eq (T : Tune) (P : Prims) (fuel : Nat) (m : sh_signer)
    (sk_buffer : List Nat) (do_rand : Nat → Option (List Nat)) (d : hmac_drbg)
    (hsd : seed_drbg P m.drbg do_rand = some d)
    (hn : ¬ hash_len (sk_buffer.getD 3 0 % 256) = 0) :
    sh_load_signer T P fuel (some m) sk_buffer do_rand =
      (load_loop T P fuel (load_state m d sk_buffer)).map
        (fun signer => some { signer with initialized := true }) := by
  simp only [sh_load_signer, hsd, hn, if_false]
  rfl

/-! ## Signing along the build cycle -/

theorem loaded_fresh (T : Tune) (P : Prims) (fuel : Nat) (mem : Option sh_signer)
    (sk_buffer : List Nat) (do_rand : Nat → Option (List Nat)) (s : sh_signer)
    (hF : T.FAULT_STRATEGY = 0) (hfuel : build_steps T ≤ fuel)
    (h : sh_load_signer T P fuel mem sk_buffer do_rand = some (some s)) : fresh T s := by
  cases mem with
  | none =>
    simp only [sh_load_signer] at h
    exact Option.noConfusion (Option.some.inj h)
  | some m =>
    cases hsd : seed_drbg P m.drbg do_rand with
    | none =>
      simp only [sh_load_signer, hsd] at h
      exact Option.noConfusion (Option.some.inj h)
    | some d =>
      have hc := seed_drbg_counter P m.drbg d do_rand hsd
      by_cases hn : hash_len (sk_buffer.getD 3 0 % 256) = 0
      · simp only [sh_load_signer, hsd, hn, if_true] at h
        exact Option.noConfusion (Option.some.inj h)
      · rw [sh_load_signer_eq T P fuel m sk_buffer do_rand d hsd hn] at h
        obtain ⟨s', s1, e, r1, r2, r3, r4, r5, _⟩ :=
          load_tail T P fuel (load_state m d sk_buffer) hF hfuel rfl rfl hc
        rw [e] at h
        have hs : s' = s := Option.some.inj (Option.some.inj h)
        subst hs
        exact ⟨r1, r2, r3, r4, r5⟩

theorem step_init_fail (T : Tune) (P : Prims) (s : sh_signer)
    (hf : s.got_fatal_error = false) (hb : s.build_state = b_init)
    (hd : 2 ^ 48 ≤ s.drbg.reseed_counter + 1) :
    (step_next T P s).1 = true ∧ (step_next T P s).2.got_fatal_error = true := by
  simp only [step_next, hf, hb, Bool.false_eq_true, if_false, failure_state]
  by_cases h1 : 2 ^ 48 ≤ s.drbg.reseed_counter
  · rw [read_drbg_fail P _ _ _ h1]
    simp
  · have h1 : s.drbg.reseed_counter < 2 ^ 48 := by omega
    obtain ⟨r1, r2⟩ := read_drbg_ok P s.next_lms_seed 32 s.drbg h1
    have h2 : 2 ^ 48 ≤ (read_drbg P s.next_lms_seed 32 s.drbg).2.2.reseed_counter := by
      rw [r2]; exact hd
    rw [read_drbg_fail P s.next_lms_I 16 _ h2]
    simp [r1]

theorem sign_advance_eq (T : Tune) (P : Prims) (sg : sh_signer) :
    sign_advance T P sg = (step_next T P { sg with
      current_lms_bottom_subtree := sign_refreshed T P sg,
      current_lms_index := (sg.current_lms_index + 1) % 2 ^ 32 }).2 := rfl

theorem sign_advance_inv (T : Tune) (P : Prims) (sg : sh_signer) (hF : T.FAULT_STRATEGY = 0)
    (hf : sg.got_fatal_error = false) (hK : cycle_inv T sg) :
    cycle_inv T (sign_advance T P sg) ∧
    (sign_advance T P sg).initialized = sg.initialized ∧
    (sg.build_state ≠ b_done →
      (sign_advance T P sg).current_lms_index = sg.current_lms_index + 1 ∧
      (sign_advance T P sg).current_lms_I = sg.current_lms_I ∧
      (sign_advance T P sg).current_lms_pub_key = sg.current_lms_pub_key ∧
      (sign_advance T P sg).current_lms_seed = sg.current_lms_seed) ∧
    (sg.build_state = b_done →
      (sign_advance T P sg).current_lms_index = 0 ∧
      (sign_advance T P sg).got_fatal_error = false ∧
      (sign_advance T P sg).build_state = b_init) ∧
    (sg.build_state ≠ b_done →
      (sg.build_state = b_init → sg.drbg.reseed_counter + 1 < 2 ^ 48) →
      (sign_advance T P sg).got_fatal_error = false ∧
      build_pos T (sign_advance T P sg) = build_pos T sg + 1) := by
  obtain ⟨hI, hidx⟩ := hK.2 hf
  obtain ⟨hN1, hN2, hN3⟩ := build_steps_le T hF
  obtain ⟨hp1, hp2⟩ := build_pos_done T sg hF hI
  rw [sign_advance_eq]
  generalize hsm : ({ sg with
      current_lms_bottom_subtree := sign_refreshed T P sg,
      current_lms_index := (sg.current_lms_index + 1) % 2 ^ 32 } : sh_signer) = sm
  have e1 : sm.got_fatal_error = false := by rw [← hsm]; exact hf
  have e2 : sm.build_state = sg.build_state := by rw [← hsm]
  have e3 : build_inv T sm := by rw [← hsm]; exact hI
  have e4 : build_pos T sm = build_pos T sg := by rw [← hsm]; rfl
  have e5 : sm.current_lms_index = sg.current_lms_index + 1 := by
    rw [← hsm]
    exact Nat.mod_eq_of_lt (by omega)
  have e6 : sm.initialized = sg.initialized := by rw [← hsm]
  have e7 : sm.drbg = sg.drbg := by rw [← hsm]
  have e8 : sm.current_lms_I = sg.current_lms_I ∧
      sm.current_lms_pub_key = sg.current_lms_pub_key ∧
      sm.current_lms_seed = sg.current_lms_seed := by rw [← hsm]; exact ⟨rfl, rfl, rfl⟩
  by_cases hb : sg.build_state = b_done
  · obtain ⟨d1, d2, d3, d4, d5, d6⟩ := step_next_done T P sm e1 (e2.trans hb)
    refine ⟨⟨fun h => ?_, fun _ => ⟨?_, ?_⟩⟩, d5.trans e6, fun h => absurd hb h,
      fun _ => ⟨d4, d3, d2⟩, fun h => absurd hb h⟩
    · rw [d3] at h; exact Bool.noConfusion h
    · simp only [build_inv, d3, d2, and_self]
    · rw [d4]; simp only [build_pos, d2]
  · have hb' : sm.build_state ≠ b_done := by rw [e2]; exact hb
    have hk := step_next_kept T P sm hb'
    have hki : (step_next T P sm).2.current_lms_index = sm.current_lms_index := by
      have := congrArg (fun x => x.1.1) hk
      exact this
    have hkI : (step_next T P sm).2.current_lms_I = sm.current_lms_I := by
      have := congrArg (fun x => x.1.2.2.1) hk
      exact this
    have hkp : (step_next T P sm).2.current_lms_pub_key = sm.current_lms_pub_key := by
      have := congrArg (fun x => x.1.2.2.2.1) hk
      exact this
    have hks : (step_next T P sm).2.current_lms_seed = sm.current_lms_seed := by
      have := congrArg (fun x => x.1.2.1) hk
      exact this
    have hkn : (step_next T P sm).2.initialized = sm.initialized := by
      have := congrArg (fun x => x.2) hk
      exact this
    have hlt : build_pos T sg + 1 < build_steps T := by
      rcases Nat.lt_or_ge (build_pos T sg + 1) (build_steps T) with h | h
      · exact h
      · exact absurd (hp2.mp (by omega)) hb
    have hprog : (sg.build_state = b_init → sg.drbg.reseed_counter + 1 < 2 ^ 48) →
        cycle_inv T (step_next T P sm).2 ∧ (step_next T P sm).2.got_fatal_error = false ∧
        build_pos T (step_next T P sm).2 = build_pos T sg + 1 := by
      intro hd
      obtain ⟨p1, p2, p3⟩ := step_progress T P sm hF e3 hb'
        (by rw [e2, e7]; exact hd)
      refine ⟨⟨fun h => ?_, fun _ => ⟨p2, ?_⟩⟩, p2.1, by rw [p3, e4]⟩
      · rw [p2.1] at h; exact Bool.noConfusion h
      · rw [hki, e5, p3, e4, hidx]
    refine ⟨?_, hkn.trans e6, fun _ => ⟨hki.trans e5, hkI.trans e8.1, hkp.trans e8.2.1,
      hks.trans e8.2.2⟩, fun h => absurd h hb, fun _ hd => (hprog hd).2⟩
    by_cases hd : sg.build_state = b_init → sg.drbg.reseed_counter + 1 < 2 ^ 48
    · exact (hprog hd).1
    · have hbi : sg.build_state = b_init := by
        by_contra h
        exact hd (fun h' => absurd h' h)
      have hdc : 2 ^ 48 ≤ sg.drbg.reseed_counter + 1 := by
        by_contra h
        exact hd (fun _ => by omega)
      obtain ⟨f1, f2⟩ := step_init_fail T P sm e1 (e2.trans hbi) (by rw [e7]; exact hdc)
      have hp0 := build_pos_init T sg hI hbi
      refine ⟨fun _ => ?_, fun h => ?_⟩
      · rw [hki, e5, hidx, hp0]
        exact Nat.one_lt_two_pow (by have := LMS_ACTUAL_ge T; omega)
      · rw [f2] at h; exact Bool.noConfusion h
theorem sign_run_succ (T : Tune) (P : Prims) (k : Nat) (s : sh_signer) :
    sign_run T P (k + 1) s = sign_advance T P (sign_run T P k s) := by
  induction k generalizing s with
  | zero => rfl
  | succ k ih =>
    have e : sign_run T P (k + 1 + 1) s = sign_run T P (k + 1) (sign_advance T P s) := rfl
    have e1 : sign_run T P (k + 1) s = sign_run T P k (sign_advance T P s) := rfl
    rw [e, ih, e1]

theorem fresh_cycle_inv (T : Tune) (s : sh_signer) (h : fresh T s) : cycle_inv T s := by
  obtain ⟨_, h2, h3, h4, _⟩ := h
  refine ⟨fun h => ?_, fun _ => ⟨?_, ?_⟩⟩
  · rw [h2] at h; exact Bool.noConfusion h
  · simp only [build_inv, h2, h3, and_self]
  · rw [h4]; simp only [build_pos, h3]

theorem sign_run_cycle (T : Tune) (P : Prims) (s0 : sh_signer) (hF : T.FAULT_STRATEGY = 0)
    (h0 : fresh T s0) :
    ∀ k, k < build_steps T →
      (sign_run T P k s0).got_fatal_error = false ∧
      (sign_run T P k s0).initialized = true ∧
      cycle_inv T (sign_run T P k s0) ∧
      (sign_run T P k s0).current_lms_index = k ∧
      build_pos T (sign_run T P k s0) = k ∧
      (sign_run T P k s0).current_lms_I = s0.current_lms_I ∧
      (sign_run T P k s0).current_lms_pub_key = s0.current_lms_pub_key ∧
      (sign_run T P k s0).current_lms_seed = s0.current_lms_seed := by
  obtain ⟨hN1, hN2, hN3⟩ := build_steps_le T hF
  have hK0 := fresh_cycle_inv T s0 h0
  obtain ⟨f1, f2, f3, f4, f5⟩ := h0
  intro k
  induction k with
  | zero =>
    intro _
    refine ⟨f2, f1, hK0, f4, ?_, rfl, rfl, rfl⟩
    simp only [sign_run, build_pos, f3]
  | succ k ih =>
    intro hk
    obtain ⟨i1, i2, i3, i4, i5, i6, i7, i8⟩ := ih (by omega)
    obtain ⟨hI, _⟩ := i3.2 i1
    have hnd : (sign_run T P k s0).build_state ≠ b_done := by
      intro h
      have := (build_pos_done T _ hF hI).2.mpr h
      omega
    have hd : (sign_run T P k s0).build_state = b_init →
        (sign_run T P k s0).drbg.reseed_counter + 1 < 2 ^ 48 := by
      intro h
      have hp := build_pos_init T _ hI h
      have hk0 : k = 0 := by omega
      subst hk0
      have : sign_run T P 0 s0 = s0 := rfl
      rw [this]
      have : (2 : Nat) ^ 48 = 281474976710656 := by norm_num
      omega
    obtain ⟨a1, a2, a3, _, a5⟩ := sign_advance_inv T P (sign_run T P k s0) hF i1 i3
    obtain ⟨b1, b2, b3, b4⟩ := a3 hnd
    obtain ⟨c1, c2⟩ := a5 hnd hd
    rw [sign_run_succ]
    exact ⟨c1, a2.trans i2, a1, by rw [b1, i4], by rw [c2, i5], b2.trans i6, b3.trans i7,
      b4.trans i8⟩

theorem sign_run_rotation (T : Tune) (P : Prims) (s0 : sh_signer) (hF : T.FAULT_STRATEGY = 0)
    (h0 : fresh T s0) :
    (sign_run T P (build_steps T - 1) s0).build_state = b_done ∧
    (sign_run T P (build_steps T) s0).current_lms_index = 0 ∧
    (sign_run T P (build_steps T) s0).got_fatal_error = false ∧
    (sign_run T P (build_steps T) s0).build_state = b_init ∧
    (sign_run T P (build_steps T) s0).initialized = true := by
  have hN : 1 ≤ build_steps T := Nat.le_add_left 1 _
  obtain ⟨i1, i2, i3, i4, i5, _⟩ := sign_run_cycle T P s0 hF h0 (build_steps T - 1) (by omega)
  obtain ⟨hI, _⟩ := i3.2 i1
  have hdone : (sign_run T P (build_steps T - 1) s0).build_state = b_done :=
    (build_pos_done T _ hF hI).2.mp (by omega)
  obtain ⟨_, a2, _, a4, _⟩ := sign_advance_inv T P _ hF i1 i3
  obtain ⟨b1, b2, b3⟩ := a4 hdone
  have e : build_steps T = build_steps T - 1 + 1 := by omega
  refine ⟨hdone, ?_, ?_, ?_, ?_⟩
  · rw [e, sign_run_succ]; exact b1
  · rw [e, sign_run_succ]; exact b2
  · rw [e, sign_run_succ]; exact b3
  · rw [e, sign_run_succ]; exact a2.trans i2
theorem step_next_done_keys (T : Tune) (P : Prims) (s : sh_signer)
    (hf : s.got_fatal_error = false) (hb : s.build_state = b_done) :
    (step_next T P s).2.current_lms_I = memcpy s.current_lms_I 0 s.next_lms_I 16 ∧
    (step_next T P s).2.current_lms_pub_key
      = memcpy s.current_lms_pub_key 0 s.next_lms_pub_key LEN_LMS_PUBLIC_KEY ∧
    (step_next T P s).2.current_lms_seed = memcpy s.current_lms_seed 0 s.next_lms_seed 32 ∧
    (step_next T P s).2.current_sphincs_sig = s.next_sphincs_sig := by
  simp only [step_next, hf, hb, Bool.false_eq_true, if_false, and_self]

theorem sign_advance_done (T : Tune) (P : Prims) (sg : sh_signer)
    (hf : sg.got_fatal_error = false) (hb : sg.build_state = b_done) :
    (sign_advance T P sg).current_lms_index = 0 ∧
    (sign_advance T P sg).current_lms_I = memcpy sg.current_lms_I 0 sg.next_lms_I 16 ∧
    (sign_advance T P sg).current_lms_pub_key
      = memcpy sg.current_lms_pub_key 0 sg.next_lms_pub_key LEN_LMS_PUBLIC_KEY ∧
    (sign_advance T P sg).current_sphincs_sig = sg.next_sphincs_sig := by
  rw [sign_advance_eq]
  obtain ⟨_, _, _, d4, _, _⟩ := step_next_done T P { sg with
      current_lms_bottom_subtree := sign_refreshed T P sg,
      current_lms_index := (sg.current_lms_index + 1) % 2 ^ 32 } hf hb
  obtain ⟨k1, k2, _, k4⟩ := step_next_done_keys T P { sg with
      current_lms_bottom_subtree := sign_refreshed T P sg,
      current_lms_index := (sg.current_lms_index + 1) % 2 ^ 32 } hf hb
  exact ⟨d4, k1, k2, k4⟩

theorem sign_advance_other (T : Tune) (P : Prims) (sg : sh_signer)
    (hb : sg.build_state ≠ b_done) :
    (sign_advance T P sg).current_lms_index = (sg.current_lms_index + 1) % 2 ^ 32 ∧
    (sign_advance T P sg).current_lms_I = sg.current_lms_I ∧
    (sign_advance T P sg).current_lms_pub_key = sg.current_lms_pub_key ∧
    (sign_advance T P sg).current_lms_seed = sg.current_lms_seed ∧
    (sign_advance T P sg).current_sphincs_sig = sg.current_sphincs_sig := by
  rw [sign_advance_eq]
  have hk := step_next_kept T P { sg with
      current_lms_bottom_subtree := sign_refreshed T P sg,
      current_lms_index := (sg.current_lms_index + 1) % 2 ^ 32 } hb
  have h := congrArg Prod.fst hk
  simp only [kept, working_set, Prod.mk.injEq] at h
  exact ⟨h.1, h.2.2.1, h.2.2.2.1, h.2.1, h.2.2.2.2.2.2.2⟩

theorem slice_append_left (a b : List Nat) (n : Nat) (h : a.length = n) :
    slice (a ++ b) 0 n = a := by
  simp only [slice, List.drop_zero]
  exact bytesN_append_left a b n h

theorem slice_append_skip (a b : List Nat) (off k n : Nat) (h : a.length = k) :
    slice (a ++ b) (k + off) n = slice b off n := by
  subst h
  simp only [slice]
  rw [List.drop_append]

theorem sign_write_index (T : Tune) (sg : sh_signer) (buf : List Nat) (n : Nat)
    (ots : List Nat)
    (hlen : LEN_SPHINCS_SIG + LEN_LMS_PUBLIC_KEY + 12 + n + 24 * 20 ≤ buf.length) :
    slice (sign_write T buf sg n ots) (17064 + 52 + 4) 4
      = put_bigendian sg.current_lms_index 4 := by
  rw [sign_write_eq T sg buf n ots hlen]
  have e : 17064 + 52 + 4 = LEN_SPHINCS_SIG + (LEN_LMS_PUBLIC_KEY + (4 + 0)) := by decide
  rw [e, slice_append_skip _ _ _ _ _ (bytesN_length _ _),
    slice_append_skip _ _ _ _ _ (bytesN_length _ _),
    slice_append_skip _ _ _ _ _ (put_bigendian_length 0 4),
    slice_append_left _ _ _ (put_bigendian_length _ 4)]

theorem seed_drbg_test (P : Prims) (d : hmac_drbg) :
    ∃ d', seed_drbg P d test_rand = some d' := ⟨_, rfl⟩

theorem load_some (T : Tune) (P : Prims) (fuel : Nat) (m : sh_signer) (sk_buffer : List Nat)
    (do_rand : Nat → Option (List Nat)) (d : hmac_drbg)
    (hF : T.FAULT_STRATEGY = 0) (hfuel : build_steps T ≤ fuel)
    (hsd : seed_drbg P m.drbg do_rand = some d)
    (hn : ¬ hash_len (sk_buffer.getD 3 0 % 256) = 0) :
    ∃ s, sh_load_signer T P fuel (some m) sk_buffer do_rand = some (some s) ∧ fresh T s := by
  have hc := seed_drbg_counter P m.drbg d do_rand hsd
  rw [sh_load_signer_eq T P fuel m sk_buffer do_rand d hsd hn]
  obtain ⟨s', s1, e, r1, r2, r3, r4, r5, _⟩ :=
    load_tail T P fuel (load_state m d sk_buffer) hF hfuel rfl rfl hc
  exact ⟨s', e, r1, r2, r3, r4, r5⟩

/-- C15: for the secret key `01 18 00 04` (hash byte SHA256 with length code
0, not the supported `0x05`) `sh_load_signer` does not return null: it only
tests `hash_len( sk[3] ) != 0`. -/
theorem sh_load_signer_accepts_other_tag :
    hash_len (([1, 24, 0, 4] : List Nat).getD 3 0 % 256) = 16 ∧
    ∃ s, sh_load_signer tune zero_prims 14423 (some blank_signer) [1, 24, 0, 4] test_rand
      = some (some s) := by
  refine ⟨by decide, ?_⟩
  obtain ⟨d, hd⟩ := seed_drbg_test zero_prims blank_signer.drbg
  obtain ⟨s, hs, _⟩ := load_some tune zero_prims 14423 blank_signer [1, 24, 0, 4] test_rand d
    rfl (by decide) hd (by decide)
  exact ⟨s, hs⟩

/-- C4 (counterexample): a usable signer in `b_done` with LMS index 14422
signs successfully and is left with LMS index 0, not 14423. -/
theorem sh_sign_resets_index :
    (sh_sign tune zero_prims (some (zeros 20060)) (some done_signer) []).1 = true ∧
    (sh_sign tune zero_prims (some (zeros 20060)) (some done_signer) []).2.2.map
      sh_signer.current_lms_index = some 0 := by
  rw [sh_sign_ok tune zero_prims (zeros 20060) done_signer [] rfl rfl
    (by rw [zeros_length]; decide)]
  refine ⟨rfl, ?_⟩
  simp only [Option.map_some']
  rw [(sign_advance_done tune zero_prims done_signer rfl rfl).1]

/-- C4 (amended): a successful `sh_sign` call writes BE32 of the pre-call
`current_lms_index` into the header; when its `step_next` call does not
execute `b_done` it leaves `current_lms_index` one greater than before and
`current_lms_I` as it was, so successive signatures of one tree carry
consecutive indices; when it executes `b_done` it leaves `current_lms_index`
at 0 and `current_lms_I` holding the next tree's `I`. -/
theorem sh_sign_index_step (T : Tune) (P : Prims) (buf : List Nat) (sg : sh_signer)
    (message : List Nat)
    (h1 : sg.initialized = true) (h2 : sg.got_fatal_error = false)
    (h3 : sh_sig_len T ≤ buf.length) (h4 : sg.current_lms_index + 1 < 2 ^ 32) :
    ∃ out sg', sh_sign T P (some buf) (some sg) message = (true, some out, some sg') ∧
      slice out (17064 + 52 + 4) 4 = put_bigendian sg.current_lms_index 4 ∧
      (sg.build_state ≠ b_done →
        sg'.current_lms_index = sg.current_lms_index + 1 ∧
        sg'.current_lms_I = sg.current_lms_I) ∧
      (sg.build_state = b_done →
        sg'.current_lms_index = 0 ∧
        sg'.current_lms_I = memcpy sg.current_lms_I 0 sg.next_lms_I 16) := by
  refine ⟨_, _, sh_sign_ok T P buf sg message h1 h2 h3, ?_, ?_, ?_⟩
  · apply sign_write_index
    have hS : LEN_SPHINCS_SIG = 17064 := by decide
    have hK : LEN_LMS_PUBLIC_KEY = 52 := by decide
    simp only [sh_sig_len] at h3
    omega
  · intro hb
    obtain ⟨a1, a2, _⟩ := sign_advance_other T P sg hb
    exact ⟨by rw [a1]; exact Nat.mod_eq_of_lt h4, a2⟩
  · intro hb
    obtain ⟨a1, a2, _⟩ := sign_advance_done T P sg h2 hb
    exact ⟨a1, a2⟩

/-- Witness for `sh_sign_index_step`: zero-filled signer memory marked
initialized and a buffer of 20060 bytes. -/
theorem sh_sign_index_step_witness :
    ∃ out sg', sh_sign tune zero_prims (some (zeros 20060))
        (some { blank_signer with initialized := true }) [] = (true, some out, some sg') ∧
      sg'.current_lms_index = 1 := by
  obtain ⟨out, sg', e, _, h, _⟩ := sh_sign_index_step tune zero_prims (zeros 20060)
    { blank_signer with initialized := true } [] rfl rfl (by rw [zeros_length]; decide)
    (by decide)
  exact ⟨out, sg', e, (h (by decide)).1⟩

theorem sign_write_pubkey (T : Tune) (sg : sh_signer) (buf : List Nat) (n : Nat)
    (ots : List Nat)
    (hlen : LEN_SPHINCS_SIG + LEN_LMS_PUBLIC_KEY + 12 + n + 24 * 20 ≤ buf.length) :
    slice (sign_write T buf sg n ots) 17064 52 = bytesN 52 sg.current_lms_pub_key := by
  rw [sign_write_eq T sg buf n ots hlen]
  have e : 17064 = LEN_SPHINCS_SIG + 0 := by decide
  have e2 : LEN_LMS_PUBLIC_KEY = 52 := by decide
  rw [e, slice_append_skip _ _ _ _ _ (bytesN_length _ _), e2,
    slice_append_left _ _ _ (bytesN_length _ _)]

theorem sh_sign_run (T : Tune) (P : Prims) (s0 : sh_signer) (hF : T.FAULT_STRATEGY = 0)
    (h0 : fresh T s0) (k : Nat) (hk : k < build_steps T) (buf message : List Nat)
    (hb : sh_sig_len T ≤ buf.length) :
    ∃ out, sh_sign T P (some buf) (some (sign_run T P k s0)) message
        = (true, some out, some (sign_run T P (k + 1) s0)) ∧
      slice out (17064 + 52 + 4) 4 = put_bigendian k 4 ∧
      slice out 17064 52 = bytesN 52 s0.current_lms_pub_key := by
  obtain ⟨i1, i2, _, i4, _, _, i7, _⟩ := sign_run_cycle T P s0 hF h0 k hk
  have hS : LEN_SPHINCS_SIG = 17064 := by decide
  have hK : LEN_LMS_PUBLIC_KEY = 52 := by decide
  have hlen : LEN_SPHINCS_SIG + LEN_LMS_PUBLIC_KEY + 12 + (4 + 24 + LM_OTS_P T * 24) + 24 * 20
      ≤ buf.length := by
    simp only [sh_sig_len] at hb
    omega
  have e := sh_sign_ok T P buf (sign_run T P k s0) message i2 i1 hb
  rw [← sign_run_succ] at e
  refine ⟨_, e, ?_, ?_⟩
  · rw [sign_write_index T _ buf _ _ hlen, i4]
  · rw [sign_write_pubkey T _ buf _ _ hlen, i7]

/-- C6 (counterexample): for the signer loaded from zero-filled memory with
the callback of `test.c`, the 14423rd successful `sh_sign` call executes
`b_done` and leaves LMS index 0, although 14423 < 2^LMS_ACTUAL = 16384. -/
theorem rotation_before_tree_end :
    ∃ s0, sh_load_signer tune zero_prims 14423 (some blank_signer) [1, 24, 0, 5] test_rand
        = some (some s0) ∧
      (sign_run tune zero_prims 14422 s0).build_state = b_done ∧
      (sign_run tune zero_prims 14423 s0).current_lms_index = 0 ∧
      14423 < 2 ^ LMS_ACTUAL tune := by
  obtain ⟨d, hd⟩ := seed_drbg_test zero_prims blank_signer.drbg
  obtain ⟨s, hs, hfr⟩ := load_some tune zero_prims 14423 blank_signer [1, 24, 0, 5] test_rand d
    rfl (by decide) hd (by decide)
  have hN : build_steps tune = 14423 := by decide
  obtain ⟨r1, r2, _⟩ := sign_run_rotation tune zero_prims s rfl hfr
  rw [hN] at r1 r2
  exact ⟨s, hs, r1, r2, by decide⟩

/-- C6 (amended): without fault protection, a freshly loaded signer makes
exactly `build_steps` successful signatures from one LMS tree (14423 with the
shipped settings, 7371 with `SPEED_SETTING` 0, in both cases fewer than
`2^LMS_ACTUAL`): signature number `k < build_steps` carries LMS index `k` and
the LMS public key the signer was loaded with, and the call that emits
signature `build_steps - 1` executes `b_done`, so that the next signature
carries LMS index 0 and the `I` and LMS public key of the tree built
meanwhile. -/
theorem tree_rotation (T : Tune) (P : Prims) (fuel : Nat) (mem : Option sh_signer)
    (sk_buffer : List Nat) (do_rand : Nat → Option (List Nat)) (s0 : sh_signer)
    (hF : T.FAULT_STRATEGY = 0) (hfuel : build_steps T ≤ fuel)
    (hload : sh_load_signer T P fuel mem sk_buffer do_rand = some (some s0)) :
    (∀ k buf message, k < build_steps T → sh_sig_len T ≤ buf.length →
      ∃ out, sh_sign T P (some buf) (some (sign_run T P k s0)) message
          = (true, some out, some (sign_run T P (k + 1) s0)) ∧
        slice out (17064 + 52 + 4) 4 = put_bigendian k 4 ∧
        slice out 17064 52 = bytesN 52 s0.current_lms_pub_key) ∧
    (sign_run T P (build_steps T - 1) s0).build_state = b_done ∧
    (sign_run T P (build_steps T) s0).initialized = true ∧
    (sign_run T P (build_steps T) s0).got_fatal_error = false ∧
    (sign_run T P (build_steps T) s0).current_lms_index = 0 ∧
    (sign_run T P (build_steps T) s0).current_lms_I
      = memcpy s0.current_lms_I 0 (sign_run T P (build_steps T - 1) s0).next_lms_I 16 ∧
    (sign_run T P (build_steps T) s0).current_lms_pub_key
      = memcpy s0.current_lms_pub_key 0
          (sign_run T P (build_steps T - 1) s0).next_lms_pub_key LEN_LMS_PUBLIC_KEY ∧
    build_steps T < 2 ^ LMS_ACTUAL T ∧
    (T.SPEED_SETTING ≠ 0 → build_steps T = 14423) ∧
    (T.SPEED_SETTING = 0 → build_steps T = 7371) := by
  have hfr := loaded_fresh T P fuel mem sk_buffer do_rand s0 hF hfuel hload
  have hN : 1 ≤ build_steps T := Nat.le_add_left 1 _
  obtain ⟨r1, r2, r3, r4, r5⟩ := sign_run_rotation T P s0 hF hfr
  obtain ⟨i1, _, _, _, _, i6, i7, _⟩ := sign_run_cycle T P s0 hF hfr (build_steps T - 1)
    (by omega)
  obtain ⟨_, a2, a3, _⟩ := sign_advance_done T P _ i1 r1
  rw [← sign_run_succ, i6] at a2
  rw [← sign_run_succ, i7] at a3
  have e : build_steps T - 1 + 1 = build_steps T := by omega
  rw [e] at a2 a3
  refine ⟨fun k buf message hk hb => sh_sign_run T P s0 hF hfr k hk buf message hb,
    r1, r5, r3, r2, a2, a3, (build_steps_le T hF).2.2, ?_, ?_⟩
  · intro h
    rcases tune_cases T hF with ⟨hA, _, _, _, _, hbs⟩ | ⟨hA, _, _, _, _, hbs⟩
    · exact hbs
    · exfalso
      simp only [LMS_ACTUAL, LMS_FAKE, LMS_H, hF, h, ne_eq, not_false_eq_true, if_true] at hA
      omega
  · intro h
    rcases tune_cases T hF with ⟨hA, _, _, _, _, hbs⟩ | ⟨hA, _, _, _, _, hbs⟩
    · exfalso
      simp only [LMS_ACTUAL, LMS_FAKE, LMS_H, hF, h, ne_eq, not_true_eq_false, if_false] at hA
      omega
    · exact hbs

/-- Witness for `tree_rotation`: the shipped settings give 14423 signatures
per tree. -/
theorem tree_rotation_witness :
    ∃ s0, sh_load_signer tune zero_prims 14423 (some blank_signer) [1, 24, 0, 5] test_rand
        = some (some s0) ∧ (sign_run tune zero_prims (build_steps tune) s0).initialized = true
    := by
  obtain ⟨d, hd⟩ := seed_drbg_test zero_prims blank_signer.drbg
  obtain ⟨s, hs, _⟩ := load_some tune zero_prims 14423 blank_signer [1, 24, 0, 5] test_rand d
    rfl (by decide) hd (by decide)
  exact ⟨s, hs, (tree_rotation tune zero_prims 14423 (some blank_signer) [1, 24, 0, 5]
    test_rand s rfl (by decide) hs).2.2.1⟩

theorem step_init_fail_state (T : Tune) (P : Prims) (s : sh_signer)
    (hf : s.got_fatal_error = false) (hb : s.build_state = b_init)
    (hd : 2 ^ 48 ≤ s.drbg.reseed_counter + 1) :
    (step_next T P s).2.build_state = b_init := by
  simp only [step_next, hf, hb, Bool.false_eq_true, if_false, failure_state]
  by_cases h1 : 2 ^ 48 ≤ s.drbg.reseed_counter
  · rw [read_drbg_fail P _ _ _ h1]
    simp [hb]
  · have h1 : s.drbg.reseed_counter < 2 ^ 48 := by omega
    obtain ⟨r1, r2⟩ := read_drbg_ok P s.next_lms_seed 32 s.drbg h1
    have h2 : 2 ^ 48 ≤ (read_drbg P s.next_lms_seed 32 s.drbg).2.2.reseed_counter := by
      rw [r2]; exact hd
    rw [read_drbg_fail P s.next_lms_I 16 _ h2]
    simp [r1, hb]

/-- C7 (counterexample): from `b_init` without fatal error but with a DRBG at
its reseed limit, the first `step_next` call returns true through
`failure_state`; `b_done` is not executed. -/
theorem step_next_true_without_done :
    (exhausted_signer b_init).got_fatal_error = false ∧
    (exhausted_signer b_init).build_state = b_init ∧
    (step_next tune zero_prims (exhausted_signer b_init)).1 = true ∧
    (step_next tune zero_prims (exhausted_signer b_init)).2.got_fatal_error = true ∧
    (step_next tune zero_prims (exhausted_signer b_init)).2.build_state ≠ b_done := by
  obtain ⟨h1, h2⟩ := step_init_fail tune zero_prims (exhausted_signer b_init) rfl rfl
    (by decide)
  refine ⟨rfl, rfl, h1, h2, ?_⟩
  rw [step_init_fail_state tune zero_prims (exhausted_signer b_init) rfl rfl (by decide)]
  decide

/-- C7 (amended): without fault protection, starting from `b_init` with no
fatal error and a DRBG that can be read twice more, `step_next` returns false
`build_steps - 1` times and true at call number `build_steps`, which executes
`b_done`, and `build_steps < 2^LMS_ACTUAL`; and the relation `cycle_inv`
(the LMS index counts the calls of the running cycle) holds for a freshly
loaded signer, is kept by every `sh_sign` call, successful or not, and gives
`current_lms_index < 2^LMS_ACTUAL`. -/
theorem next_tree_ready (T : Tune) (P : Prims) (hF : T.FAULT_STRATEGY = 0) :
    (∀ s : sh_signer, s.got_fatal_error = false → s.build_state = b_init →
      s.drbg.reseed_counter + 1 < 2 ^ 48 →
      (∀ j, j + 1 < build_steps T → (step_next T P (run T P j s)).1 = false) ∧
      (run T P (build_steps T - 1) s).build_state = b_done ∧
      (run T P (build_steps T - 1) s).got_fatal_error = false ∧
      (step_next T P (run T P (build_steps T - 1) s)).1 = true) ∧
    build_steps T < 2 ^ LMS_ACTUAL T ∧
    (∀ (fuel : Nat) (mem : Option sh_signer) (sk_buffer : List Nat)
        (do_rand : Nat → Option (List Nat)) (s0 : sh_signer),
      build_steps T ≤ fuel →
      sh_load_signer T P fuel mem sk_buffer do_rand = some (some s0) → cycle_inv T s0) ∧
    (∀ sg : sh_signer, cycle_inv T sg →
      sg.current_lms_index < 2 ^ LMS_ACTUAL T ∧
      ∀ (signature : Option (List Nat)) (message : List Nat),
        ∃ sg', (sh_sign T P signature (some sg) message).2.2 = some sg' ∧ cycle_inv T sg') := by
  have hlt := (build_steps_le T hF).2.2
  refine ⟨?_, hlt, ?_, ?_⟩
  · intro s hf hb hd
    obtain ⟨c1, c2, c3, _, c5⟩ := full_cycle T P s hF hf hb hd
    exact ⟨c1, c2, c3, c5⟩
  · intro fuel mem sk_buffer do_rand s0 hfuel hload
    exact fresh_cycle_inv T s0 (loaded_fresh T P fuel mem sk_buffer do_rand s0 hF hfuel hload)
  · intro sg hK
    constructor
    · cases hf : sg.got_fatal_error
      · obtain ⟨hI, hidx⟩ := hK.2 hf
        have := (build_pos_done T sg hF hI).1
        omega
      · exact hK.1 hf
    · intro signature message
      cases signature with
      | none => exact ⟨sg, rfl, hK⟩
      | some buf =>
        by_cases hu : sg.initialized = false ∨ sg.got_fatal_error = true
        · rw [sh_sign_unusable T P buf sg message hu]
          exact ⟨sg, rfl, hK⟩
        · by_cases h3 : buf.length < sh_sig_len T
          · rw [sh_sign_small T P buf (some sg) message h3]
            exact ⟨sg, rfl, hK⟩
          · have h1 : sg.initialized = true := by
              cases hi : sg.initialized
              · exact absurd (Or.inl hi) hu
              · rfl
            have h2 : sg.got_fatal_error = false := by
              cases hi : sg.got_fatal_error
              · rfl
              · exact absurd (Or.inr hi) hu
            rw [sh_sign_ok T P buf sg message h1 h2 (by omega)]
            exact ⟨_, rfl, (sign_advance_inv T P sg hF h2 hK).1⟩

/-- Witness for `next_tree_ready`: the shipped settings. -/
theorem next_tree_ready_witness : build_steps tune < 2 ^ LMS_ACTUAL tune :=
  (next_tree_ready tune zero_prims rfl).2.1

/-- C8: a successful `sh_sign` writes BE32 of the pre-call `current_lms_index`
at signature bytes 17064+52+4 .. 17064+52+8 and, when the call did not execute
`b_done`, leaves the index one higher; the first two signatures of a freshly
loaded signer carry 00000000 and 00000001, and up to the `b_done` rotation
signature number `k` carries the index `k`, so the header indices of
successive signatures are strictly increasing. -/
theorem sh_sign_header_index (T : Tune) (P : Prims) :
    (∀ (buf : List Nat) (sg : sh_signer) (message : List Nat),
      sg.initialized = true → sg.got_fatal_error = false → sh_sig_len T ≤ buf.length →
      ∃ out sg', sh_sign T P (some buf) (some sg) message = (true, some out, some sg') ∧
        slice out (17064 + 52 + 4) 4 = put_bigendian sg.current_lms_index 4 ∧
        (sg.build_state ≠ b_done →
          sg'.current_lms_index = (sg.current_lms_index + 1) % 2 ^ 32)) ∧
    (T.FAULT_STRATEGY = 0 →
      ∀ (fuel : Nat) (mem : Option sh_signer) (sk_buffer : List Nat)
        (do_rand : Nat → Option (List Nat)) (s0 : sh_signer),
      build_steps T ≤ fuel →
      sh_load_signer T P fuel mem sk_buffer do_rand = some (some s0) →
      (∀ buf1 buf2 m1 m2, sh_sig_len T ≤ buf1.length → sh_sig_len T ≤ buf2.length →
        ∃ out1 s1 out2 s2,
          sh_sign T P (some buf1) (some s0) m1 = (true, some out1, some s1) ∧
          sh_sign T P (some buf2) (some s1) m2 = (true, some out2, some s2) ∧
          slice out1 (17064 + 52 + 4) 4 = [0, 0, 0, 0] ∧
          slice out2 (17064 + 52 + 4) 4 = [0, 0, 0, 1]) ∧
      (∀ k buf message, k < build_steps T → sh_sig_len T ≤ buf.length →
        ∃ out, sh_sign T P (some buf) (some (sign_run T P k s0)) message
            = (true, some out, some (sign_run T P (k + 1) s0)) ∧
          slice out (17064 + 52 + 4) 4 = put_bigendian k 4 ∧
          get_bigendian (slice out (17064 + 52 + 4) 4) 4 = k)) := by
  have hS : LEN_SPHINCS_SIG = 17064 := by decide
  have hK : LEN_LMS_PUBLIC_KEY = 52 := by decide
  constructor
  · intro buf sg message h1 h2 h3
    refine ⟨_, _, sh_sign_ok T P buf sg message h1 h2 h3, ?_, ?_⟩
    · apply sign_write_index
      simp only [sh_sig_len] at h3
      omega
    · intro hb
      exact (sign_advance_other T P sg hb).1
  · intro hF fuel mem sk_buffer do_rand s0 hfuel hload
    have hfr := loaded_fresh T P fuel mem sk_buffer do_rand s0 hF hfuel hload
    obtain ⟨hN1, hN2, hN3⟩ := build_steps_le T hF
    constructor
    · intro buf1 buf2 m1 m2 hb1 hb2
      obtain ⟨o1, e1, p1, _⟩ := sh_sign_run T P s0 hF hfr 0 (by omega) buf1 m1 hb1
      obtain ⟨o2, e2, p2, _⟩ := sh_sign_run T P s0 hF hfr 1 (by omega) buf2 m2 hb2
      exact ⟨o1, sign_run T P 1 s0, o2, sign_run T P 2 s0, e1, e2, p1, p2⟩
    · intro k buf message hk hb
      obtain ⟨o, e, p, _⟩ := sh_sign_run T P s0 hF hfr k hk buf message hb
      refine ⟨o, e, p, ?_⟩
      rw [p, get_bigendian_eq _ _ (put_bigendian_length k 4), be_fold_put 4 k (by norm_num)]
      apply Nat.mod_eq_of_lt
      norm_num
      omega

/-- Witness for `sh_sign_header_index`: zero-filled signer memory marked
initialized, a buffer of 20060 bytes and an empty message. -/
theorem sh_sign_header_index_witness :
    ∃ out sg', sh_sign tune zero_prims (some (zeros 20060))
        (some { blank_signer with initialized := true }) [] = (true, some out, some sg') ∧
      slice out (17064 + 52 + 4) 4 = [0, 0, 0, 0] := by
  obtain ⟨out, sg', e, h, _⟩ := (sh_sign_header_index tune zero_prims).1 (zeros 20060)
    { blank_signer with initialized := true } [] rfl rfl (by rw [zeros_length]; decide)
  exact ⟨out, sg', e, h⟩

theorem sh_keygen_ok (T : Tune) (P : Prims) (fuel : Nat) (state0 : build_merkle_state)
    (rand : Nat → Option (List Nat)) (sk_buffer : List Nat) (size_sk : Option Nat)
    (pk_buffer : List Nat) (size_pk : Option Nat) (bytes : List Nat)
    (hsk : 100 ≤ sk_buffer.length) (hpk : 52 ≤ pk_buffer.length)
    (hr : rand 72 = some bytes) (hfuel : 256 ≤ fuel) :
    ∃ sk1 pk1 root,
      sk1 = memcpy (memcpy sk_buffer 0 [1, 24, 0, 5] 4) 4 bytes 72 ∧
      pk1 = memcpy (memcpy pk_buffer 0 [1, 24, 0, 5] 4) 4 (sk1.drop 52) 24 ∧
      keygen_loop T P fuel
        (init_build_merkle state0 (slice sk1 4 24) (slice sk1 52 24) 5 8 7 0 0 none (some 0)).2
        (slice pk1 28 24) = some root ∧
      sh_keygen T P fuel state0 1 192 1 (some rand) sk_buffer size_sk pk_buffer size_pk =
        some { ok := true,
               sk_buffer := memcpy sk1 76 ((memcpy pk1 28 root 24).drop 28) 24,
               pk_buffer := memcpy pk1 28 root 24,
               size_sk := size_sk.map (fun _ => 100),
               size_pk := size_pk.map (fun _ => 52) } := by
  have h5 : ¬ 4 + 4 * (192 / 8) > sk_buffer.length := by norm_num; omega
  have h6 : ¬ 4 + 2 * (192 / 8) > pk_buffer.length := by norm_num; omega
  have q1 : ¬ ((1 : Int) ≠ 1) := by decide
  have q2 : ¬ ((192 : Int) ≠ 192) := by decide
  have hr' : rand (3 * (192 / 8)) = some bytes := hr
  have hM := MERKLE_CHAINS_pos T
  have hi := init_build_merkle_192 state0
    (slice (memcpy (memcpy sk_buffer 0 [1, 24, 0, 5] 4) 4 bytes 72) 4 24)
    (slice (memcpy (memcpy sk_buffer 0 [1, 24, 0, 5] 4) 4 bytes 72) 52 24) 8 7 0 0 none (some 0)
  obtain ⟨e1, e2, _, _⟩ := init_build_merkle_ok _ _ _ _ _ _ _ _ _ _ hi
  have hsome := keygen_loop_some T P fuel _
    (slice (memcpy (memcpy pk_buffer 0 [1, 24, 0, 5] 4) 4
      ((memcpy (memcpy sk_buffer 0 [1, 24, 0, 5] 4) 4 bytes 72).drop 52) 24) 28 24)
    (by rw [e1]; norm_num) (by omega)
    (by rw [e1, e2]; calc 2 ^ 8 ≤ fuel * 1 := by norm_num; omega
          _ ≤ 0 + fuel * MERKLE_CHAINS_PER_ITER T := by
            rw [Nat.zero_add]; exact Nat.mul_le_mul_left _ hM)
  obtain ⟨root, hroot⟩ := Option.isSome_iff_exists.mp hsome
  have hi' : ¬ (¬ (init_build_merkle state0
    (slice (memcpy (memcpy sk_buffer 0 [1, 24, 0, 5] 4) 4 bytes 72) 4 24)
    (slice (memcpy (memcpy sk_buffer 0 [1, 24, 0, 5] 4) 4 bytes 72) 52 24)
    (HASH_TYPE_SHA256 ||| HASH_LEN_192) 8 7 0 0 none (some 0)).1 = true) := by
    rw [hi]; simp
  refine ⟨memcpy (memcpy sk_buffer 0 [1, 24, 0, 5] 4) 4 bytes 72,
    memcpy (memcpy pk_buffer 0 [1, 24, 0, 5] 4) 4
      ((memcpy (memcpy sk_buffer 0 [1, 24, 0, 5] 4) 4 bytes 72).drop 52) 24,
    root, rfl, rfl, hroot, ?_⟩
  simp only [sh_keygen, lookup_geometry_192s]
  rw [if_neg q1, if_neg q2, if_neg q1, if_neg h5, if_neg h6]
  simp only [hr']
  have hroot' : keygen_loop T P fuel
      (init_build_merkle state0
        (slice (memcpy (memcpy sk_buffer 0 [1, 192 / 8, 0, HASH_TYPE_SHA256 ||| HASH_LEN_192] 4)
          4 bytes (3 * (192 / 8))) 4 (192 / 8))
        (slice (memcpy (memcpy sk_buffer 0 [1, 192 / 8, 0, HASH_TYPE_SHA256 ||| HASH_LEN_192] 4)
          4 bytes (3 * (192 / 8))) (4 + 2 * (192 / 8)) (192 / 8))
        (HASH_TYPE_SHA256 ||| HASH_LEN_192) 8 (8 - 1) 0 0 none (some 0)).2
      (slice (memcpy (memcpy pk_buffer 0 [1, 192 / 8, 0, HASH_TYPE_SHA256 ||| HASH_LEN_192] 4) 4
        ((memcpy (memcpy sk_buffer 0 [1, 192 / 8, 0, HASH_TYPE_SHA256 ||| HASH_LEN_192] 4)
          4 bytes (3 * (192 / 8))).drop (4 + 2 * (192 / 8))) (192 / 8)) (4 + 192 / 8) (192 / 8))
      = some root := hroot
  rw [if_neg, hroot']
  · rfl
  · rw [init_build_merkle_192]; simp
theorem slice_at (a b c : List Nat) (off n : Nat) (ha : a.length = off) (hb : b.length = n) :
    slice (a ++ b ++ c) off n = b := by
  have := slice_append_skip a (b ++ c) 0 off n ha
  rw [Nat.add_zero, ← List.append_assoc] at this
  rw [this, slice_append_left b c n hb]

theorem take_at (a c : List Nat) (n : Nat) (ha : a.length = n) : (a ++ c).take n = a :=
  List.take_left' ha

theorem keygen_buffers (sk_buffer pk_buffer bytes root : List Nat)
    (hsk : 100 ≤ sk_buffer.length) (hpk : 52 ≤ pk_buffer.length) :
    ∃ B1 B2 : List Nat, B1.length = 48 ∧ B2.length = 24 ∧ bytesN 72 bytes = B1 ++ B2 ∧
      memcpy (memcpy sk_buffer 0 [1, 24, 0, 5] 4) 4 bytes 72
        = [1, 24, 0, 5] ++ B1 ++ B2 ++ sk_buffer.drop 76 ∧
      memcpy (memcpy pk_buffer 0 [1, 24, 0, 5] 4) 4
          ((memcpy (memcpy sk_buffer 0 [1, 24, 0, 5] 4) 4 bytes 72).drop 52) 24
        = [1, 24, 0, 5] ++ B2 ++ pk_buffer.drop 28 ∧
      memcpy (memcpy (memcpy pk_buffer 0 [1, 24, 0, 5] 4) 4
          ((memcpy (memcpy sk_buffer 0 [1, 24, 0, 5] 4) 4 bytes 72).drop 52) 24) 28 root 24
        = [1, 24, 0, 5] ++ B2 ++ bytesN 24 root ++ pk_buffer.drop 52 ∧
      memcpy (memcpy (memcpy sk_buffer 0 [1, 24, 0, 5] 4) 4 bytes 72) 76
          ((memcpy (memcpy (memcpy pk_buffer 0 [1, 24, 0, 5] 4) 4
            ((memcpy (memcpy sk_buffer 0 [1, 24, 0, 5] 4) 4 bytes 72).drop 52) 24) 28 root 24).drop
            28) 24
        = [1, 24, 0, 5] ++ B1 ++ B2 ++ bytesN 24 root ++ sk_buffer.drop 100 := by
  obtain ⟨s0, r0, e0, l0, d0⟩ := split_at sk_buffer 4 (by omega)
  obtain ⟨s1, r1, e1, l1, d1⟩ := split_at r0 72 (by rw [d0, List.length_drop]; omega)
  obtain ⟨s2, r2, e2, l2, d2⟩ := split_at r1 24
    (by rw [d1, d0, List.length_drop, List.length_drop]; omega)
  obtain ⟨p0, q0, f0, m0, g0⟩ := split_at pk_buffer 4 (by omega)
  obtain ⟨p1, q1, f1, m1, g1⟩ := split_at q0 24 (by rw [g0, List.length_drop]; omega)
  obtain ⟨p2, q2, f2, m2, g2⟩ := split_at q1 24
    (by rw [g1, g0, List.length_drop, List.length_drop]; omega)
  obtain ⟨B1, B2, eB, lB1, dB⟩ := split_at (bytesN 72 bytes) 48 (by simp)
  have lB2 : B2.length = 24 := by rw [dB, List.length_drop, bytesN_length]
  have tag : bytesN 4 [1, 24, 0, 5] = [1, 24, 0, 5] := rfl
  have hd76 : sk_buffer.drop 76 = r1 := by
    rw [d1, d0, List.drop_drop]
  have hd100 : sk_buffer.drop 100 = r2 := by
    rw [d2, d1, d0, List.drop_drop, List.drop_drop]
  have hp28 : pk_buffer.drop 28 = q1 := by
    rw [g1, g0, List.drop_drop]
  have hp52 : pk_buffer.drop 52 = q2 := by
    rw [g2, g1, g0, List.drop_drop, List.drop_drop]
  have k1 : memcpy sk_buffer 0 [1, 24, 0, 5] 4 = [1, 24, 0, 5] ++ r0 := by
    have := memcpy_mid [] s0 r0 [1, 24, 0, 5] 4 0 rfl l0
    rw [List.nil_append, List.nil_append, tag, ← e0] at this
    exact this
  have k2 : memcpy (memcpy sk_buffer 0 [1, 24, 0, 5] 4) 4 bytes 72
      = [1, 24, 0, 5] ++ B1 ++ B2 ++ r1 := by
    rw [k1, e1, ← List.append_assoc, memcpy_mid [1, 24, 0, 5] s1 r1 bytes 72 4 rfl l1, eB]
    simp only [List.append_assoc]
  have k3 : (memcpy (memcpy sk_buffer 0 [1, 24, 0, 5] 4) 4 bytes 72).drop 52 = B2 ++ r1 := by
    rw [k2]
    have : ([1, 24, 0, 5] ++ B1 ++ B2 ++ r1) = ([1, 24, 0, 5] ++ B1) ++ (B2 ++ r1) := by
      simp only [List.append_assoc]
    rw [this]
    exact List.drop_left' (by simp [lB1])
  have k4 : memcpy pk_buffer 0 [1, 24, 0, 5] 4 = [1, 24, 0, 5] ++ q0 := by
    have := memcpy_mid [] p0 q0 [1, 24, 0, 5] 4 0 rfl m0
    rw [List.nil_append, List.nil_append, tag, ← f0] at this
    exact this
  have k5 : memcpy (memcpy pk_buffer 0 [1, 24, 0, 5] 4) 4
      ((memcpy (memcpy sk_buffer 0 [1, 24, 0, 5] 4) 4 bytes 72).drop 52) 24
      = [1, 24, 0, 5] ++ B2 ++ q1 := by
    rw [k3, k4, f1, ← List.append_assoc, memcpy_mid [1, 24, 0, 5] p1 q1 _ 24 4 rfl m1,
      bytesN_append_left B2 r1 24 lB2]
  have k6 : memcpy (memcpy (memcpy pk_buffer 0 [1, 24, 0, 5] 4) 4
      ((memcpy (memcpy sk_buffer 0 [1, 24, 0, 5] 4) 4 bytes 72).drop 52) 24) 28 root 24
      = [1, 24, 0, 5] ++ B2 ++ bytesN 24 root ++ q2 := by
    rw [k5, f2, ← List.append_assoc,
      memcpy_mid ([1, 24, 0, 5] ++ B2) p2 q2 root 24 28 (by simp [lB2]) m2]
  have k7 : ([1, 24, 0, 5] ++ B2 ++ bytesN 24 root ++ q2).drop 28 = bytesN 24 root ++ q2 := by
    rw [List.append_assoc]
    exact List.drop_left' (by simp [lB2])
  refine ⟨B1, B2, lB1, lB2, eB, ?_, ?_, ?_, ?_⟩
  · rw [k2, hd76]
  · rw [k5, hp28]
  · rw [k6, hp52]
  · rw [k6, k7, k2, hd100, e2, ← List.append_assoc,
      memcpy_mid ([1, 24, 0, 5] ++ B1 ++ B2) s2 r2 _ 24 76 (by simp [lB1, lB2]) l2,
      bytesN_append_left _ q2 24 (bytesN_length 24 root)]

theorem slice_eq_take (l : List Nat) (o k : Nat) (h : o + k ≤ l.length) :
    slice l o k = (l.take (o + k)).drop o := by
  simp only [slice, bytesN]
  rw [List.take_append_of_le_length (by rw [List.length_drop]; omega), List.drop_take]
  congr 1
  omega

theorem slice_memcpy_before (d src : List Nat) (off n o k : Nat) (hk : o + k ≤ off)
    (ho : off + n ≤ d.length) : slice (memcpy d off src n) o k = slice d o k := by
  rw [slice_eq_take _ _ _ (by rw [memcpy_length _ _ _ _ ho]; omega),
    slice_eq_take _ _ _ (by omega), memcpy_take_before _ _ _ _ _ hk (by omega)]

/-- The layout of the keys: with a random callback that succeeds, buffers of at least 100 and 52
bytes and at least 256 iterations allowed to the Merkle loop,
`sh_keygen(1, 192, 1, ...)` returns true with `size_sk = 100`, `size_pk = 52`,
both keys starting with 01 18 00 05, `sk[4..76]` the 72 bytes of the single
`do_rand` call, `pk[4..28] = sk[52..76]`, and `pk[28..52] = sk[76..100]` the
root the Merkle builder computed for height 8, layer 7, tree 0 from `sk_seed`
and `pk_seed`; bytes behind the keys are left alone. -/
theorem sh_keygen_layout (T : Tune) (P : Prims) (fuel : Nat) (state0 : build_merkle_state)
    (rand : Nat → Option (List Nat)) (sk_buffer : List Nat) (size_sk : Option Nat)
    (pk_buffer : List Nat) (size_pk : Option Nat) (bytes : List Nat)
    (hsk : 100 ≤ sk_buffer.length) (hpk : 52 ≤ pk_buffer.length)
    (hr : rand 72 = some bytes) (hfuel : 256 ≤ fuel) :
    ∃ r st rootMem,
      sh_keygen T P fuel state0 1 192 1 (some rand) sk_buffer size_sk pk_buffer size_pk
        = some r ∧
      r.ok = true ∧
      r.size_sk = size_sk.map (fun _ => 100) ∧ r.size_pk = size_pk.map (fun _ => 52) ∧
      r.sk_buffer.take 4 = [0x01, 0x18, 0x00, 0x05] ∧
      r.pk_buffer.take 4 = [0x01, 0x18, 0x00, 0x05] ∧
      slice r.sk_buffer 4 72 = bytesN 72 bytes ∧
      slice r.pk_buffer 4 24 = slice r.sk_buffer 52 24 ∧
      slice r.pk_buffer 28 24 = slice r.sk_buffer 76 24 ∧
      init_build_merkle state0 (slice r.sk_buffer 4 24) (slice r.sk_buffer 52 24)
        5 8 7 0 0 none (some 0) = (true, st) ∧
      keygen_loop T P fuel st (slice pk_buffer 28 24) = some rootMem ∧
      slice r.pk_buffer 28 24 = bytesN 24 rootMem ∧
      r.sk_buffer.drop 100 = sk_buffer.drop 100 ∧ r.pk_buffer.drop 52 = pk_buffer.drop 52 ∧
      r.sk_buffer.length = sk_buffer.length ∧ r.pk_buffer.length = pk_buffer.length := by
  obtain ⟨sk1, pk1, root, es, ep, hloop, hk⟩ := sh_keygen_ok T P fuel state0 rand sk_buffer
    size_sk pk_buffer size_pk bytes hsk hpk hr hfuel
  obtain ⟨B1, B2, lB1, lB2, eB, b1, b2, b3, b4⟩ := keygen_buffers sk_buffer pk_buffer bytes root
    hsk hpk
  have lR : (bytesN 24 root).length = 24 := bytesN_length 24 root
  have lsk1 : sk1.length = sk_buffer.length := by
    rw [es, memcpy_length _ _ _ _ (by rw [memcpy_length _ _ _ _ (by omega)]; omega),
      memcpy_length _ _ _ _ (by omega)]
  have lpk1 : pk1.length = pk_buffer.length := by
    rw [ep, memcpy_length _ _ _ _ (by rw [memcpy_length _ _ _ _ (by omega)]; omega),
      memcpy_length _ _ _ _ (by omega)]
  rw [← es] at b1
  rw [← es, ← ep] at b2 b3 b4
  have hi : (init_build_merkle state0 (slice sk1 4 24) (slice sk1 52 24) 5 8 7 0 0 none
      (some 0)).1 = true := init_build_merkle_192 _ _ _ _ _ _ _ _ _
  have hroot0 : slice pk1 28 24 = slice pk_buffer 28 24 := by
    rw [b2]
    have := slice_append_skip ([1, 24, 0, 5] ++ B2) (pk_buffer.drop 28) 0 28 24 (by simp [lB2])
    rw [Nat.add_zero] at this
    rw [this]
    simp only [slice, List.drop_zero]
  have s4 : slice (memcpy sk1 76 ((memcpy pk1 28 root 24).drop 28) 24) 4 24 = slice sk1 4 24 :=
    slice_memcpy_before sk1 _ 76 24 _ 24 (by omega) (by omega)
  have s52 : slice (memcpy sk1 76 ((memcpy pk1 28 root 24).drop 28) 24) 52 24
      = slice sk1 52 24 :=
    slice_memcpy_before sk1 _ 76 24 _ 24 (by omega) (by omega)
  refine ⟨_, (init_build_merkle state0 (slice sk1 4 24) (slice sk1 52 24) 5 8 7 0 0 none
      (some 0)).2, root, hk, rfl, rfl, rfl, ?_, ?_, ?_, ?_, ?_, ?_, ?_, ?_, ?_, ?_, ?_, ?_⟩
  · show (memcpy sk1 76 ((memcpy pk1 28 root 24).drop 28) 24).take 4 = _
    rw [b4]
    simp only [List.append_assoc]
    exact take_at [1, 24, 0, 5] _ 4 rfl
  · show (memcpy pk1 28 root 24).take 4 = _
    rw [b3]
    simp only [List.append_assoc]
    exact take_at [1, 24, 0, 5] _ 4 rfl
  · show slice (memcpy sk1 76 ((memcpy pk1 28 root 24).drop 28) 24) 4 72 = _
    rw [b4, eB]
    have : [1, 24, 0, 5] ++ B1 ++ B2 ++ bytesN 24 root ++ sk_buffer.drop 100
        = [1, 24, 0, 5] ++ (B1 ++ B2) ++ (bytesN 24 root ++ sk_buffer.drop 100) := by
      simp only [List.append_assoc]
    rw [this]
    exact slice_at _ _ _ 4 72 rfl (by simp [lB1, lB2])
  · show slice (memcpy pk1 28 root 24) 4 24
        = slice (memcpy sk1 76 ((memcpy pk1 28 root 24).drop 28) 24) 52 24
    rw [b4, b3]
    have e1 : [1, 24, 0, 5] ++ B2 ++ bytesN 24 root ++ pk_buffer.drop 52
        = [1, 24, 0, 5] ++ B2 ++ (bytesN 24 root ++ pk_buffer.drop 52) := by
      simp only [List.append_assoc]
    have e2 : [1, 24, 0, 5] ++ B1 ++ B2 ++ bytesN 24 root ++ sk_buffer.drop 100
        = ([1, 24, 0, 5] ++ B1) ++ B2 ++ (bytesN 24 root ++ sk_buffer.drop 100) := by
      simp only [List.append_assoc]
    rw [e1, e2, slice_at [1, 24, 0, 5] B2 _ 4 24 rfl lB2,
      slice_at ([1, 24, 0, 5] ++ B1) B2 _ 52 24 (by simp [lB1]) lB2]
  · show slice (memcpy pk1 28 root 24) 28 24
        = slice (memcpy sk1 76 ((memcpy pk1 28 root 24).drop 28) 24) 76 24
    rw [b4, b3, slice_at _ _ _ 28 24 (by simp [lB2]) lR,
      slice_at _ _ _ 76 24 (by simp [lB1, lB2]) lR]
  · show init_build_merkle state0
        (slice (memcpy sk1 76 ((memcpy pk1 28 root 24).drop 28) 24) 4 24)
        (slice (memcpy sk1 76 ((memcpy pk1 28 root 24).drop 28) 24) 52 24)
        5 8 7 0 0 none (some 0) = _
    rw [s4, s52]
    exact Prod.ext hi rfl
  · rw [← hroot0]
    exact hloop
  · show slice (memcpy pk1 28 root 24) 28 24 = _
    rw [b3, slice_at _ _ _ 28 24 (by simp [lB2]) lR]
  · show (memcpy sk1 76 ((memcpy pk1 28 root 24).drop 28) 24).drop 100 = _
    rw [memcpy_drop_after sk1 _ 76 24 100 (by omega) (by omega), es,
      memcpy_drop_after _ _ 4 72 100 (by omega)
        (by rw [memcpy_length _ _ _ _ (by omega)]; omega),
      memcpy_drop_after sk_buffer _ 0 4 100 (by omega) (by omega)]
  · show (memcpy pk1 28 root 24).drop 52 = _
    rw [memcpy_drop_after pk1 root 28 24 52 (by omega) (by omega), ep,
      memcpy_drop_after _ _ 4 24 52 (by omega)
        (by rw [memcpy_length _ _ _ _ (by omega)]; omega),
      memcpy_drop_after pk_buffer _ 0 4 52 (by omega) (by omega)]
  · show (memcpy sk1 76 ((memcpy pk1 28 root 24).drop 28) 24).length = _
    rw [memcpy_length _ _ _ _ (by omega), lsk1]
  · show (memcpy pk1 28 root 24).length = _
    rw [memcpy_length _ _ _ _ (by omega), lpk1]

/-- Witness for `sh_keygen_layout`: the call of `test.c` with zero-filled
buffers of 100 and 52 bytes. -/
theorem sh_keygen_layout_witness :
    ∃ r, sh_keygen tune zero_prims 256 blank_merkle 1 192 1 (some test_rand)
        (zeros 100) (some 0) (zeros 52) (some 0) = some r ∧
      r.ok = true ∧ r.size_sk = some 100 ∧ r.size_pk = some 52 ∧
      r.sk_buffer.take 4 = [1, 24, 0, 5] := by
  obtain ⟨r, _, _, e, h1, h2, h3, h4, _⟩ := sh_keygen_layout tune zero_prims 256 blank_merkle
    test_rand (zeros 100) (some 0) (zeros 52) (some 0) _ (by rw [zeros_length])
    (by rw [zeros_length]) rfl (by decide)
  exact ⟨r, e, h1, h2, h3, h4⟩

theorem sign_write_tail (T : Tune) (sg : sh_signer) (buf : List Nat) (n : Nat) (ots : List Nat)
    (hlen : LEN_SPHINCS_SIG + LEN_LMS_PUBLIC_KEY + 12 + n + 24 * 20 ≤ buf.length) :
    (sign_write T buf sg n ots).drop (LEN_SPHINCS_SIG + LEN_LMS_PUBLIC_KEY + 12 + n + 24 * 20)
      = buf.drop (LEN_SPHINCS_SIG + LEN_LMS_PUBLIC_KEY + 12 + n + 24 * 20) ∧
    (sign_write T buf sg n ots).length = buf.length := by
  have hl := lms_levels T
  rw [sign_write_eq T sg buf n ots hlen]
  simp only [← List.append_assoc]
  constructor
  · apply List.drop_left'
    simp only [List.length_append, bytesN_length, put_bigendian_length]
    omega
  · simp only [List.length_append, bytesN_length, put_bigendian_length, List.length_drop]
    omega

theorem getD_of_take4 (l : List Nat) (a b c d : Nat) (h : l.take 4 = [a, b, c, d]) :
    l.getD 3 0 = d := by
  rcases l with _ | ⟨x0, l⟩
  · simp at h
  rcases l with _ | ⟨x1, l⟩
  · simp at h
  rcases l with _ | ⟨x2, l⟩
  · simp at h
  rcases l with _ | ⟨x3, l⟩
  · simp at h
  simp only [List.take_succ_cons, List.take_zero, List.cons.injEq, and_true] at h
  simp only [List.getD_cons_succ, List.getD_cons_zero]
  exact h.2.2.2

theorem sh_sig_len_value (T : Tune) :
    sh_sig_len T = if T.SPEED_SETTING ≠ 0 then 20060 else 18860 := by
  simp only [sh_sig_len, LM_OTS_P, LEN_SPHINCS_SIG, LEN_LMS_PUBLIC_KEY, SPH_K, SPH_A, SPH_H,
    SPH_DLEN, SPH_D, LM_OTS_W2_P, LM_OTS_W4_P]
  split <;> rfl

theorem keygen_load (T : Tune) (P : Prims) (hF : T.FAULT_STRATEGY = 0)
    (fuel1 fuel2 : Nat) (state0 : build_merkle_state) (mem : sh_signer)
    (rand : Nat → Option (List Nat)) (sk_buffer : List Nat) (size_sk : Option Nat)
    (pk_buffer : List Nat) (size_pk : Option Nat) (bytes entropy : List Nat)
    (hsk : 100 ≤ sk_buffer.length) (hpk : 52 ≤ pk_buffer.length)
    (hr : rand 72 = some bytes) (he : rand 48 = some entropy)
    (hf1 : 256 ≤ fuel1) (hf2 : build_steps T ≤ fuel2) :
    ∃ r s0, sh_keygen T P fuel1 state0 1 192 1 (some rand) sk_buffer size_sk pk_buffer size_pk
        = some r ∧ r.ok = true ∧
      sh_load_signer T P fuel2 (some mem) r.sk_buffer rand = some (some s0) ∧ fresh T s0 := by
  obtain ⟨sk1, pk1, root, es, ep, hloop, hk⟩ := sh_keygen_ok T P fuel1 state0 rand sk_buffer
    size_sk pk_buffer size_pk bytes hsk hpk hr hf1
  obtain ⟨B1, B2, lB1, lB2, eB, b1, b2, b3, b4⟩ := keygen_buffers sk_buffer pk_buffer bytes root
    hsk hpk
  rw [← es] at b1
  rw [← es, ← ep] at b2 b3 b4
  have h3 : (memcpy sk1 76 ((memcpy pk1 28 root 24).drop 28) 24).getD 3 0 = 5 := by
    apply getD_of_take4 _ 1 24 0 5
    rw [b4]
    simp only [List.append_assoc]
    exact take_at [1, 24, 0, 5] _ 4 rfl
  have hsd : ∃ d, seed_drbg P mem.drbg rand = some d := by
    simp only [seed_drbg, he]
    exact ⟨_, rfl⟩
  obtain ⟨d, hd⟩ := hsd
  obtain ⟨s0, hs0, hfr⟩ := load_some T P fuel2 mem
    (memcpy sk1 76 ((memcpy pk1 28 root 24).drop 28) 24) rand d hF hf2 hd
    (by rw [h3]; decide)
  exact ⟨_, s0, hk, rfl, hs0, hfr⟩

/-- C10 (counterexample): with the shipped `tune.h` (SPEED_SETTING 1), the key
of `sh_keygen(1, 192, 1, do_rand, ...)` with the callback of `test.c` loads,
but `sh_sign` into a buffer of 20000 bytes with the message "Hello" returns
false. -/
theorem sh_sign_20000_fails :
    ∃ r s0, sh_keygen tune zero_prims 256 blank_merkle 1 192 1 (some test_rand)
        (zeros 1024) (some 0) (zeros 1024) (some 0) = some r ∧ r.ok = true ∧
      sh_load_signer tune zero_prims 14423 (some blank_signer) r.sk_buffer test_rand
        = some (some s0) ∧
      (sh_sign tune zero_prims (some (zeros 20000)) (some s0) [72, 101, 108, 108, 111]).1
        = false := by
  obtain ⟨r, s0, h1, h2, h3, _⟩ := keygen_load tune zero_prims rfl 256 14423 blank_merkle
    blank_signer test_rand (zeros 1024) (some 0) (zeros 1024) (some 0) _ _
    (by rw [zeros_length]; decide) (by rw [zeros_length]; decide) rfl rfl (by decide)
    (by decide)
  refine ⟨r, s0, h1, h2, h3, ?_⟩
  rw [sh_sign_small tune zero_prims (zeros 20000) (some s0) _
    (by rw [zeros_length, sh_sig_len_value]; decide)]

/-- C10 (amended): the signature length `sh_sig_len` is
LEN_SPHINCS_SIG + 52 + 12 + 24*(1+p) + 4 + 24*20, which is 18860 for
SPEED_SETTING 0 (p = 51) and 20060 otherwise (p = 101).  For a key from
`sh_keygen(1, 192, 1, do_rand, ...)` and the signer `sh_load_signer` builds
from it, `sh_sign` succeeds for every output buffer of at least `sh_sig_len`
bytes, writes exactly the first `sh_sig_len` bytes and fails for every shorter
buffer; so with 20000 bytes it succeeds exactly for SPEED_SETTING 0.  The same
holds for every usable signer. -/
theorem sh_sign_buffer_size (T : Tune) (P : Prims) (hF : T.FAULT_STRATEGY = 0) :
    sh_sig_len T = LEN_SPHINCS_SIG + 52 + 12 + 24 * (1 + LM_OTS_P T) + 4 + 24 * 20 ∧
    (T.SPEED_SETTING = 0 → sh_sig_len T = 18860 ∧ LM_OTS_P T = 51) ∧
    (T.SPEED_SETTING ≠ 0 → sh_sig_len T = 20060 ∧ LM_OTS_P T = 101) ∧
    (∀ (sg : sh_signer) (buf message : List Nat),
      sg.initialized = true → sg.got_fatal_error = false →
      (sh_sig_len T ≤ buf.length →
        ∃ out sg', sh_sign T P (some buf) (some sg) message = (true, some out, some sg') ∧
          out.length = buf.length ∧ out.drop (sh_sig_len T) = buf.drop (sh_sig_len T)) ∧
      (buf.length < sh_sig_len T → (sh_sign T P (some buf) (some sg) message).1 = false)) ∧
    (∀ (fuel1 fuel2 : Nat) (state0 : build_merkle_state) (mem : sh_signer)
      (rand : Nat → Option (List Nat)) (sk_buffer : List Nat) (size_sk : Option Nat)
      (pk_buffer : List Nat) (size_pk : Option Nat) (bytes entropy : List Nat),
      100 ≤ sk_buffer.length → 52 ≤ pk_buffer.length →
      rand 72 = some bytes → rand 48 = some entropy →
      256 ≤ fuel1 → build_steps T ≤ fuel2 →
      ∃ r s0,
        sh_keygen T P fuel1 state0 1 192 1 (some rand) sk_buffer size_sk pk_buffer size_pk
          = some r ∧ r.ok = true ∧
        sh_load_signer T P fuel2 (some mem) r.sk_buffer rand = some (some s0) ∧
        (∀ buf : List Nat, sh_sig_len T ≤ buf.length →
          ∃ out sg', sh_sign T P (some buf) (some s0) [72, 101, 108, 108, 111]
              = (true, some out, some sg') ∧
            out.length = buf.length ∧ out.drop (sh_sig_len T) = buf.drop (sh_sig_len T)) ∧
        (∀ buf : List Nat, buf.length < sh_sig_len T →
          (sh_sign T P (some buf) (some s0) [72, 101, 108, 108, 111]).1 = false) ∧
        (T.SPEED_SETTING = 0 →
          (sh_sign T P (some (zeros 20000)) (some s0) [72, 101, 108, 108, 111]).1 = true)) := by
  have hv := sh_sig_len_value T
  have hS : LEN_SPHINCS_SIG = 17064 := by decide
  have hK : LEN_LMS_PUBLIC_KEY = 52 := by decide
  have hgen : ∀ (sg : sh_signer) (buf message : List Nat),
      sg.initialized = true → sg.got_fatal_error = false → sh_sig_len T ≤ buf.length →
      ∃ out sg', sh_sign T P (some buf) (some sg) message = (true, some out, some sg') ∧
        out.length = buf.length ∧ out.drop (sh_sig_len T) = buf.drop (sh_sig_len T) := by
    intro sg buf message h1 h2 h3
    have hlen : LEN_SPHINCS_SIG + LEN_LMS_PUBLIC_KEY + 12 + (4 + 24 + LM_OTS_P T * 24) + 24 * 20
        ≤ buf.length := by
      simp only [sh_sig_len] at h3
      omega
    have he : sh_sig_len T
        = LEN_SPHINCS_SIG + LEN_LMS_PUBLIC_KEY + 12 + (4 + 24 + LM_OTS_P T * 24) + 24 * 20 := by
      simp only [sh_sig_len]
      omega
    obtain ⟨t1, t2⟩ := sign_write_tail T sg buf (4 + 24 + LM_OTS_P T * 24)
      (lm_ots_generate_signature T P sg.current_lms_I sg.current_lms_index
        sg.current_lms_seed message).2 hlen
    refine ⟨_, _, sh_sign_ok T P buf sg message h1 h2 h3, t2, ?_⟩
    rw [he]
    exact t1
  refine ⟨by simp only [sh_sig_len, hK], ?_, ?_, ?_, ?_⟩
  · intro h0
    refine ⟨by rw [hv]; simp [h0], by simp [LM_OTS_P, h0, LM_OTS_W4_P]⟩
  · intro h0
    refine ⟨by rw [hv]; simp [h0], by simp [LM_OTS_P, h0, LM_OTS_W2_P]⟩
  · intro sg buf message h1 h2
    refine ⟨hgen sg buf message h1 h2, ?_⟩
    intro hb
    rw [sh_sign_small T P buf (some sg) message hb]
  · intro fuel1 fuel2 state0 mem rand sk_buffer size_sk pk_buffer size_pk bytes entropy
      hsk hpk hr he hf1 hf2
    obtain ⟨r, s0, h1, h2, h3, hfr⟩ := keygen_load T P hF fuel1 fuel2 state0 mem rand sk_buffer
      size_sk pk_buffer size_pk bytes entropy hsk hpk hr he hf1 hf2
    refine ⟨r, s0, h1, h2, h3, ?_, ?_, ?_⟩
    · intro buf hb
      exact hgen s0 buf _ hfr.1 hfr.2.1 hb
    · intro buf hb
      rw [sh_sign_small T P buf (some s0) _ hb]
    · intro h0
      obtain ⟨out, sg', e, _⟩ := hgen s0 (zeros 20000) [72, 101, 108, 108, 111] hfr.1 hfr.2.1
        (by rw [zeros_length, hv]; simp [h0])
      rw [e]

/-- Witness for `sh_sign_buffer_size`: the shipped tuning. -/
theorem sh_sign_buffer_size_witness : sh_sig_len tune = 20060 ∧ LM_OTS_P tune = 101 :=
  (sh_sign_buffer_size tune zero_prims rfl).2.2.1 (by decide)

theorem int_of_size_t_small (x : Nat) (h : x < 2 ^ 31) : int_of_size_t x = (x : Int) := by
  have h1 : x % 2 ^ 32 = x := Nat.mod_eq_of_lt (by omega)
  simp only [int_of_size_t, h1, h, if_true]

theorem int_len_small (x : Nat) (h : x < 2 ^ 31) :
    ¬ (if int_of_size_t x > 32 then (32 : Int) else int_of_size_t x) < 0 ∧
    (if int_of_size_t x > 32 then (32 : Int) else int_of_size_t x).toNat
      = (if x > 32 then 32 else x) := by
  rw [int_of_size_t_small x h]
  by_cases h32 : x > 32
  · have : (x : Int) > 32 := by omega
    rw [if_pos this, if_pos h32]
    exact ⟨by omega, rfl⟩
  · have : ¬ (x : Int) > 32 := by omega
    rw [if_neg this, if_neg h32]
    exact ⟨by omega, Int.toNat_natCast x⟩

theorem read_drbg_loop_spec (P : Prims) (key : List Nat) :
    ∀ (fuel len : Nat) (v out : List Nat), len ≤ fuel → len < 2 ^ 31 →
      ∃ v' stream, read_drbg_loop P key fuel len v out = some (v', out ++ stream) ∧
        stream.length = len ∧
        ∀ fuel', len ≤ fuel' → read_drbg_loop P key fuel' len v out = some (v', out ++ stream) := by
  intro fuel
  induction fuel with
  | zero =>
    intro len v out h _
    have h0 : len = 0 := by omega
    subst h0
    refine ⟨v, [], by simp [read_drbg_loop], rfl, ?_⟩
    intro fuel' _
    cases fuel' with
    | zero => simp [read_drbg_loop]
    | succ f => simp [read_drbg_loop]
  | succ f ih =>
    intro len v out h hs
    by_cases h0 : len = 0
    · subst h0
      refine ⟨v, [], by simp [read_drbg_loop], rfl, ?_⟩
      intro fuel' _
      cases fuel' with
      | zero => simp [read_drbg_loop]
      | succ f' => simp [read_drbg_loop]
    · obtain ⟨n1, n2⟩ := int_len_small len hs
      have hstep : ∀ g, read_drbg_loop P key (g + 1) len v out
          = read_drbg_loop P key g (len - (if len > 32 then 32 else len))
              (final_hmac P (update_hmac (init_hmac key 32) v 32) key 32)
              (out ++ bytesN (if len > 32 then 32 else len)
                (final_hmac P (update_hmac (init_hmac key 32) v 32) key 32)) := by
        intro g
        simp only [read_drbg_loop, ne_eq, h0, not_false_eq_true, if_true, n1, if_false, n2]
      have hc : 1 ≤ (if len > 32 then 32 else len) ∧ (if len > 32 then 32 else len) ≤ len := by
        split <;> omega
      obtain ⟨v', st, i1, i2, i3⟩ := ih (len - (if len > 32 then 32 else len))
        (final_hmac P (update_hmac (init_hmac key 32) v 32) key 32)
        (out ++ bytesN (if len > 32 then 32 else len)
          (final_hmac P (update_hmac (init_hmac key 32) v 32) key 32)) (by omega) (by omega)
      refine ⟨v', bytesN (if len > 32 then 32 else len)
          (final_hmac P (update_hmac (init_hmac key 32) v 32) key 32) ++ st, ?_, ?_, ?_⟩
      · rw [hstep f, i1, List.append_assoc]
      · rw [List.length_append, bytesN_length, i2]
        omega
      · intro fuel' hf
        cases fuel' with
        | zero => omega
        | succ f' =>
          rw [hstep f', i3 f' (by omega), List.append_assoc]

/-- The DRBG for a requested length below 2^31: `seed_drbg` leaves
`reseed_counter = 1`; `read_drbg` returns false, with the output buffer and the
generator (v, key, reseed_counter) unchanged, exactly when
`reseed_counter >= 2^48`; otherwise it returns true, overwrites all
`len_buffer` bytes at the start of the buffer with generator output (the loop
ends within `len_buffer` rounds, whatever larger bound is allowed) and
increases `reseed_counter` by exactly 1. -/
theorem drbg_limit (P : Prims) (drbg : hmac_drbg) (buffer : List Nat) (len_buffer : Nat)
    (rand : Nat → Option (List Nat)) (hs : len_buffer < 2 ^ 31) :
    (∀ d, seed_drbg P drbg rand = some d → d.reseed_counter = 1) ∧
    ((read_drbg P buffer len_buffer drbg).1 = false ↔ 2 ^ 48 ≤ drbg.reseed_counter) ∧
    (2 ^ 48 ≤ drbg.reseed_counter →
      read_drbg P buffer len_buffer drbg = (false, buffer, drbg)) ∧
    (drbg.reseed_counter < 2 ^ 48 →
      (read_drbg P buffer len_buffer drbg).1 = true ∧
      (read_drbg P buffer len_buffer drbg).2.2.reseed_counter = drbg.reseed_counter + 1 ∧
      ∃ v' stream : List Nat, stream.length = len_buffer ∧
        (∀ fuel, len_buffer ≤ fuel →
          read_drbg_loop P drbg.key fuel len_buffer drbg.v [] = some (v', stream)) ∧
        (read_drbg P buffer len_buffer drbg).2.1 = stream ++ buffer.drop len_buffer) := by
  refine ⟨?_, ?_, read_drbg_fail P buffer len_buffer drbg, ?_⟩
  · intro d hd
    exact seed_drbg_counter P drbg d rand hd
  · constructor
    · intro h
      by_contra hc
      have := (read_drbg_ok P buffer len_buffer drbg (by omega)).1
      rw [h] at this
      exact Bool.noConfusion this
    · intro h
      rw [read_drbg_fail P buffer len_buffer drbg h]
  · intro h
    obtain ⟨o1, o2⟩ := read_drbg_ok P buffer len_buffer drbg h
    refine ⟨o1, o2, ?_⟩
    obtain ⟨v', st, l1, l2, l3⟩ := read_drbg_loop_spec P drbg.key len_buffer len_buffer drbg.v []
      (Nat.le_refl _) hs
    rw [List.nil_append] at l1 l3
    refine ⟨v', st, l2, l3, ?_⟩
    have h' : ¬ drbg.reseed_counter ≥ 2 ^ 48 := by omega
    simp only [read_drbg]
    rw [if_neg h', l1]
    simp only [Option.getD_some, memcpy, blit, List.take_zero, List.nil_append, Nat.zero_add,
      bytesN_length]
    rw [bytesN_of_length l2]

/-- Witness for `drbg_limit`: the generator of zero-filled signer memory, whose
counter 0 is below the limit. -/
theorem drbg_limit_witness :
    (read_drbg zero_prims (zeros 32) 32 blank_signer.drbg).1 = true ∧
    (read_drbg zero_prims (zeros 32) 32 blank_signer.drbg).2.2.reseed_counter
      = blank_signer.drbg.reseed_counter + 1 :=
  ⟨((drbg_limit zero_prims blank_signer.drbg (zeros 32) 32 test_rand (by norm_num)).2.2.2
      (by decide)).1,
   ((drbg_limit zero_prims blank_signer.drbg (zeros 32) 32 test_rand (by norm_num)).2.2.2
      (by decide)).2.1⟩

theorem put_bigendian_4 (x : Nat) :
    put_bigendian x 4 = [x / 16777216 % 256, x / 65536 % 256, x / 256 % 256, x % 256] := by
  simp only [put_bigendian, List.nil_append, List.cons_append, Nat.div_div_eq_div_mul]

theorem adr_call_step (c : AdrCall) (p : List Nat) (k h i : Nat) (hp : p.length = 10) :
    c.run (p ++ [0, 0, 0, k % 256, 0, 0, 0, h % 256, 0, i / 65536 % 256, i / 256 % 256,
        i % 256])
      = p ++ [0, 0, 0, last_key_pair k [c] % 256, 0, 0, 0, last_chain_or_height h [c] % 256,
          0, last_hash_or_index i [c] / 65536 % 256, last_hash_or_index i [c] / 256 % 256,
          last_hash_or_index i [c] % 256] := by
  rcases p with _ | ⟨p0, p⟩
  · simp at hp
  rcases p with _ | ⟨p1, p⟩
  · simp at hp
  rcases p with _ | ⟨p2, p⟩
  · simp at hp
  rcases p with _ | ⟨p3, p⟩
  · simp at hp
  rcases p with _ | ⟨p4, p⟩
  · simp at hp
  rcases p with _ | ⟨p5, p⟩
  · simp at hp
  rcases p with _ | ⟨p6, p⟩
  · simp at hp
  rcases p with _ | ⟨p7, p⟩
  · simp at hp
  rcases p with _ | ⟨p8, p⟩
  · simp at hp
  rcases p with _ | ⟨p9, p⟩
  · simp at hp
  rcases p with _ | ⟨p10, p⟩
  swap
  · simp at hp
  cases c with
  | key_pair v =>
    have e : v % 2 ^ 8 % 256 = v % 256 := by norm_num
    simp only [last_key_pair, last_chain_or_height, last_hash_or_index, List.foldl_cons,
      List.foldl_nil, e]
    rfl
  | chain v =>
    have e : v % 2 ^ 8 % 256 = v % 256 := by norm_num
    simp only [last_key_pair, last_chain_or_height, last_hash_or_index, List.foldl_cons,
      List.foldl_nil, e]
    rfl
  | height v =>
    have e : v % 2 ^ 8 % 256 = v % 256 := by norm_num
    simp only [last_key_pair, last_chain_or_height, last_hash_or_index, List.foldl_cons,
      List.foldl_nil, e]
    rfl
  | hash v =>
    have e1 : v % 2 ^ 8 % 256 = v % 256 := by norm_num
    have e2 : v % 2 ^ 8 / 65536 % 256 = 0 % 256 := by norm_num <;> omega
    have e3 : v % 2 ^ 8 / 256 % 256 = 0 % 256 := by norm_num <;> omega
    simp only [last_key_pair, last_chain_or_height, last_hash_or_index, List.foldl_cons,
      List.foldl_nil, e1, e2, e3]
    rfl
  | index v =>
    have e1 : v % 2 ^ 24 % 256 = v % 256 := by norm_num <;> omega
    have e2 : v % 2 ^ 24 / 65536 % 256 = v / 2 ^ 16 % 256 := by norm_num <;> omega
    have e3 : v % 2 ^ 24 / 256 % 256 = v / 2 ^ 8 % 256 := by norm_num <;> omega
    simp only [last_key_pair, last_chain_or_height, last_hash_or_index, List.foldl_cons,
      List.foldl_nil, e1, e2, e3]
    rfl

theorem run_calls_spec : ∀ (cs : List AdrCall) (p : List Nat) (k h i : Nat), p.length = 10 →
    run_calls (p ++ [0, 0, 0, k % 256, 0, 0, 0, h % 256, 0, i / 65536 % 256, i / 256 % 256,
        i % 256]) cs
      = p ++ [0, 0, 0, last_key_pair k cs % 256, 0, 0, 0, last_chain_or_height h cs % 256,
          0, last_hash_or_index i cs / 65536 % 256, last_hash_or_index i cs / 256 % 256,
          last_hash_or_index i cs % 256] := by
  intro cs
  induction cs with
  | nil => intro p k h i _; rfl
  | cons c cs ih =>
    intro p k h i hp
    have e : run_calls (p ++ [0, 0, 0, k % 256, 0, 0, 0, h % 256, 0, i / 65536 % 256,
        i / 256 % 256, i % 256]) (c :: cs)
        = run_calls (c.run (p ++ [0, 0, 0, k % 256, 0, 0, 0, h % 256, 0, i / 65536 % 256,
            i / 256 % 256, i % 256])) cs := rfl
    rw [e, adr_call_step c p k h i hp, ih p _ _ _ hp]
    rfl

theorem last_values_lt : ∀ (cs : List AdrCall) (k h i : Nat), k < 2 ^ 8 → h < 2 ^ 8 →
    i < 2 ^ 24 →
    last_key_pair k cs < 2 ^ 8 ∧ last_chain_or_height h cs < 2 ^ 8 ∧
    last_hash_or_index i cs < 2 ^ 24 := by
  intro cs
  induction cs with
  | nil => intro k h i hk hh hi; exact ⟨hk, hh, hi⟩
  | cons c cs ih =>
    intro k h i hk hh hi
    have hv : ∀ v : Nat, v % 2 ^ 8 < 2 ^ 8 := fun v => Nat.mod_lt _ (by norm_num)
    have hw : ∀ v : Nat, v % 2 ^ 24 < 2 ^ 24 := fun v => Nat.mod_lt _ (by norm_num)
    have hx : ∀ v : Nat, v % 2 ^ 8 < 2 ^ 24 := fun v => Nat.lt_trans (hv v) (by norm_num)
    cases c with
    | key_pair v => exact ih _ _ _ (hv v) hh hi
    | chain v => exact ih _ _ _ hk (hv v) hi
    | height v => exact ih _ _ _ hk (hv v) hi
    | hash v => exact ih _ _ _ hk hh (hx v)
    | index v => exact ih _ _ _ hk hh (hw v)

theorem set_type_canon (adr : List Nat) (t : Nat) (h : adr.length = 22) :
    set_type adr t = adr.take 9 ++ [t % 256] ++ List.replicate 12 0 := by
  obtain ⟨a0, a1, a2, a3, a4, a5, a6, a7, a8, a9, a10, a11, a12, a13, a14, a15, a16, a17, a18,
    a19, a20, a21, rfl⟩ := list_of_length_22 adr h
  rfl

/-- C34: on a 22-byte address, after `set_type` and any sequence of calls of
the five field setters, the 4-byte field at offset 18 is BE32 of the last
argument of `set_tree_index` (mod 2^24) or `set_hash_address` (mod 2^8), the
field at offset 14 is BE32 of the last argument mod 2^8 of `set_chain_address`
or `set_tree_height`, and the field at offset 10 is BE32 of the last argument
mod 2^8 of `set_key_pair_address` (each 0 when no such call was made); bytes
0..9 stay as `set_type` left them. -/
theorem adr_aliased_fields (adr : List Nat) (t : Nat) (cs : List AdrCall)
    (h : adr.length = 22) :
    slice (run_calls (set_type adr t) cs) 18 4 = put_bigendian (last_hash_or_index 0 cs) 4 ∧
    slice (run_calls (set_type adr t) cs) 14 4
      = put_bigendian (last_chain_or_height 0 cs) 4 ∧
    slice (run_calls (set_type adr t) cs) 10 4 = put_bigendian (last_key_pair 0 cs) 4 ∧
    (run_calls (set_type adr t) cs).take 10 = (set_type adr t).take 10 ∧
    (run_calls (set_type adr t) cs).length = 22 ∧
    (∀ v, last_hash_or_index 0 (cs ++ [AdrCall.index v]) = v % 2 ^ 24) ∧
    (∀ v, last_hash_or_index 0 (cs ++ [AdrCall.hash v]) = v % 2 ^ 8) ∧
    (∀ v, last_chain_or_height 0 (cs ++ [AdrCall.chain v]) = v % 2 ^ 8) ∧
    (∀ v, last_chain_or_height 0 (cs ++ [AdrCall.height v]) = v % 2 ^ 8) ∧
    (∀ v, last_key_pair 0 (cs ++ [AdrCall.key_pair v]) = v % 2 ^ 8) := by
  have hst : set_type adr t = (adr.take 9 ++ [t % 256]) ++
      [0, 0, 0, 0 % 256, 0, 0, 0, 0 % 256, 0, 0 / 65536 % 256, 0 / 256 % 256, 0 % 256] := by
    rw [set_type_canon adr t h]
    rfl
  have hp : (adr.take 9 ++ [t % 256]).length = 10 := by
    simp [h]
  obtain ⟨b1, b2, b3⟩ := last_values_lt cs 0 0 0 (by norm_num) (by norm_num) (by norm_num)
  have hr := run_calls_spec cs _ 0 0 0 hp
  rw [← hst] at hr
  norm_num at b1 b2 b3
  refine ⟨?_, ?_, ?_, ?_, ?_, ?_, ?_, ?_, ?_, ?_⟩
  · rw [hr, put_bigendian_4]
    have e : adr.take 9 ++ [t % 256] ++ [0, 0, 0, last_key_pair 0 cs % 256, 0, 0, 0,
        last_chain_or_height 0 cs % 256, 0, last_hash_or_index 0 cs / 65536 % 256,
        last_hash_or_index 0 cs / 256 % 256, last_hash_or_index 0 cs % 256]
        = (adr.take 9 ++ [t % 256] ++ [0, 0, 0, last_key_pair 0 cs % 256, 0, 0, 0,
            last_chain_or_height 0 cs % 256]) ++ [0, last_hash_or_index 0 cs / 65536 % 256,
            last_hash_or_index 0 cs / 256 % 256, last_hash_or_index 0 cs % 256] ++ [] := by
      simp
    rw [e, slice_at _ _ _ 18 4 (by simp [h]) (by rfl)]
    have : last_hash_or_index 0 cs / 16777216 % 256 = 0 := by omega
    rw [this]
  · rw [hr, put_bigendian_4]
    have e : adr.take 9 ++ [t % 256] ++ [0, 0, 0, last_key_pair 0 cs % 256, 0, 0, 0,
        last_chain_or_height 0 cs % 256, 0, last_hash_or_index 0 cs / 65536 % 256,
        last_hash_or_index 0 cs / 256 % 256, last_hash_or_index 0 cs % 256]
        = (adr.take 9 ++ [t % 256] ++ [0, 0, 0, last_key_pair 0 cs % 256]) ++ [0, 0, 0,
            last_chain_or_height 0 cs % 256] ++ [0, last_hash_or_index 0 cs / 65536 % 256,
            last_hash_or_index 0 cs / 256 % 256, last_hash_or_index 0 cs % 256] := by
      simp
    rw [e, slice_at _ _ _ 14 4 (by simp [h]) (by rfl)]
    have e1 : last_chain_or_height 0 cs / 16777216 % 256 = 0 := by omega
    have e2 : last_chain_or_height 0 cs / 65536 % 256 = 0 := by omega
    have e3 : last_chain_or_height 0 cs / 256 % 256 = 0 := by omega
    rw [e1, e2, e3]
  · rw [hr, put_bigendian_4]
    have e : adr.take 9 ++ [t % 256] ++ [0, 0, 0, last_key_pair 0 cs % 256, 0, 0, 0,
        last_chain_or_height 0 cs % 256, 0, last_hash_or_index 0 cs / 65536 % 256,
        last_hash_or_index 0 cs / 256 % 256, last_hash_or_index 0 cs % 256]
        = (adr.take 9 ++ [t % 256]) ++ [0, 0, 0, last_key_pair 0 cs % 256] ++ [0, 0, 0,
            last_chain_or_height 0 cs % 256, 0, last_hash_or_index 0 cs / 65536 % 256,
            last_hash_or_index 0 cs / 256 % 256, last_hash_or_index 0 cs % 256] := by
      simp
    rw [e, slice_at _ _ _ 10 4 (by simp [h]) (by rfl)]
    have e1 : last_key_pair 0 cs / 16777216 % 256 = 0 := by omega
    have e2 : last_key_pair 0 cs / 65536 % 256 = 0 := by omega
    have e3 : last_key_pair 0 cs / 256 % 256 = 0 := by omega
    rw [e1, e2, e3]
  · rw [hr]
    rw [hst, take_at _ _ 10 hp, take_at _ _ 10 hp]
  · rw [hr]
    simp [h]
  · intro v; simp only [last_hash_or_index, List.foldl_append, List.foldl_cons, List.foldl_nil]
  · intro v; simp only [last_hash_or_index, List.foldl_append, List.foldl_cons, List.foldl_nil]
  · intro v; simp only [last_chain_or_height, List.foldl_append, List.foldl_cons, List.foldl_nil]
  · intro v; simp only [last_chain_or_height, List.foldl_append, List.foldl_cons, List.foldl_nil]
  · intro v; simp only [last_key_pair, List.foldl_append, List.foldl_cons, List.foldl_nil]

/-- Witness for `adr_aliased_fields`: the all-zero address, type
`HASH_TREE_ADDRESS`, then `set_tree_index(0x123456)` followed by
`set_hash_address(7)`. -/
theorem adr_aliased_fields_witness :
    slice (run_calls (set_type (zeros 22) HASH_TREE_ADDRESS)
      [AdrCall.index 0x123456, AdrCall.hash 7]) 18 4 = [0, 0, 0, 7] :=
  (adr_aliased_fields (zeros 22) HASH_TREE_ADDRESS [AdrCall.index 0x123456, AdrCall.hash 7]
    (by decide)).1

theorem digits_dominate : ∀ (N N' : List Nat), N.length = N'.length →
    (∀ i, i < N.length → N.getD i 0 ≤ N'.getD i 0) → (∀ d ∈ N', d < 16) →
    (N'.map (fun d => 15 - d)).sum ≤ (N.map (fun d => 15 - d)).sum ∧
    ((N.map (fun d => 15 - d)).sum ≤ (N'.map (fun d => 15 - d)).sum → N' = N) := by
  intro N
  induction N with
  | nil =>
    intro N' hl _ _
    cases N' with
    | nil => exact ⟨Nat.le_refl _, fun _ => rfl⟩
    | cons y r => simp at hl
  | cons x N ih =>
    intro N' hl hd h16
    cases N' with
    | nil => simp at hl
    | cons y N' =>
      have h0 : x ≤ y := by simpa using hd 0 (by simp)
      have hy : y < 16 := h16 y (by simp)
      obtain ⟨i1, i2⟩ := ih N' (by simpa using hl)
        (fun i hi => by simpa using hd (i + 1) (by simpa using hi))
        (fun d hd' => h16 d (List.mem_cons_of_mem _ hd'))
      simp only [List.map_cons, List.sum_cons]
      constructor
      · omega
      · intro hs
        have e1 : N' = N := i2 (by omega)
        have e2 : y = x := by
          rw [e1] at hs
          omega
        rw [e1, e2]

theorem nibbles_inj : ∀ (H H' : List Nat), H.length = H'.length →
    (∀ x ∈ H, x < 256) → (∀ x ∈ H', x < 256) →
    (H.map (fun x => [x % 256 / 16, x % 256 % 16])).flatten
      = (H'.map (fun x => [x % 256 / 16, x % 256 % 16])).flatten → H = H' := by
  intro H
  induction H with
  | nil =>
    intro H' hl _ _ _
    cases H' with
    | nil => rfl
    | cons y r => simp at hl
  | cons x H ih =>
    intro H' hl hb hb' he
    cases H' with
    | nil => simp at hl
    | cons y H' =>
      simp only [List.map_cons, List.flatten_cons, List.cons_append, List.nil_append,
        List.cons.injEq] at he
      obtain ⟨e1, e2, e3⟩ := he
      have hx := hb x (by simp)
      have hy := hb' y (by simp)
      have : x = y := by omega
      rw [this, ih H' (by simpa using hl) (fun z hz => hb z (List.mem_cons_of_mem _ hz))
        (fun z hz => hb' z (List.mem_cons_of_mem _ hz)) e3]

theorem getD_append_three (N : List Nat) (a b c : Nat) (hN : N.length = 48) :
    (∀ i, i < 48 → (N ++ [a, b, c]).getD i 0 = N.getD i 0) ∧
    (N ++ [a, b, c]).getD 48 0 = a ∧ (N ++ [a, b, c]).getD 49 0 = b ∧
    (N ++ [a, b, c]).getD 50 0 = c := by
  refine ⟨?_, ?_, ?_, ?_⟩
  · intro i hi
    rw [List.getD_append _ _ _ _ (by omega)]
  · rw [List.getD_append_right _ _ _ _ (by omega), hN]; rfl
  · rw [List.getD_append_right _ _ _ _ (by omega), hN]; rfl
  · rw [List.getD_append_right _ _ _ _ (by omega), hN]; rfl

/-- C40: for two 24-byte hashes `H` and `H'`, if each of the 51 digits that
`expand_wots_digits` produces for `H'` is at least the corresponding digit
for `H`, then `H' = H`. -/
theorem wots_checksum_protects (H H' : List Nat) (hH : H.length = 24) (hH' : H'.length = 24)
    (hb : ∀ x ∈ H, x < 256) (hb' : ∀ x ∈ H', x < 256)
    (hd : ∀ i, i < 51 →
      (expand_wots_digits 51 H 24).2.getD i 0 ≤ (expand_wots_digits 51 H' 24).2.getD i 0) :
    H' = H := by
  rw [expand_wots_digits_eq 51 H hH (Nat.le_refl _),
    expand_wots_digits_eq 51 H' hH' (Nat.le_refl _)] at hd
  have hl := nibbles_length H
  have hl' := nibbles_length H'
  rw [hH] at hl
  rw [hH'] at hl'
  have hlt' := nibbles_lt H'
  have hsum := checksum_sum_le ((H.map (fun x => [x % 256 / 16, x % 256 % 16])).flatten)
  have hsum' := checksum_sum_le ((H'.map (fun x => [x % 256 / 16, x % 256 % 16])).flatten)
  rw [hl] at hsum
  rw [hl'] at hsum'
  have hinj := nibbles_inj H H' (by rw [hH, hH']) hb hb'
  generalize (H.map (fun x => [x % 256 / 16, x % 256 % 16])).flatten = N at *
  generalize (H'.map (fun x => [x % 256 / 16, x % 256 % 16])).flatten = N' at *
  generalize hc : (N.map (fun d => 15 - d)).sum = c at *
  generalize hc' : (N'.map (fun d => 15 - d)).sum = c' at *
  simp only at hd
  obtain ⟨g1, g2, g3, g4⟩ := getD_append_three N (c / 2 ^ 8 % 16) (c / 2 ^ 4 % 16) (c % 16) hl
  obtain ⟨g1', g2', g3', g4'⟩ :=
    getD_append_three N' (c' / 2 ^ 8 % 16) (c' / 2 ^ 4 % 16) (c' % 16) hl'
  have d48 := hd 48 (by norm_num)
  have d49 := hd 49 (by norm_num)
  have d50 := hd 50 (by norm_num)
  rw [g2, g2'] at d48
  rw [g3, g3'] at d49
  rw [g4, g4'] at d50
  have hdom : ∀ i, i < N.length → N.getD i 0 ≤ N'.getD i 0 := by
    intro i hi
    have := hd i (by omega)
    rw [g1 i (by omega), g1' i (by omega)] at this
    exact this
  obtain ⟨k1, k2⟩ := digits_dominate N N' (by rw [hl, hl']) hdom hlt'
  rw [hc, hc'] at k1 k2
  norm_num at d48 d49
  have hcc : c ≤ c' := by omega
  exact (hinj (k2 hcc).symm).symm

/-- Witness for `wots_checksum_protects`: the all-zero hash against itself. -/
theorem wots_checksum_protects_witness : zeros 24 = zeros 24 :=
  wots_checksum_protects (zeros 24) (zeros 24) (by decide) (by decide)
    (fun x hx => by rw [List.eq_of_mem_replicate hx]; decide)
    (fun x hx => by rw [List.eq_of_mem_replicate hx]; decide)
    (fun _ _ => Nat.le_refl _)

theorem foldl_add_eq_sum (f : Nat → Nat) : ∀ (l : List Nat) (a : Nat),
    l.foldl (fun s i => s + f i) a = a + (l.map f).sum := by
  intro l
  induction l with
  | nil => intro a; simp
  | cons x r ih => intro a; simp only [List.foldl_cons, ih, List.map_cons, List.sum_cons]; omega

theorem range_sum_succ (f : Nat → Nat) (n : Nat) :
    ((List.range (n + 1)).map f).sum = ((List.range n).map f).sum + f n := by
  rw [List.range_succ, List.map_append, List.sum_append]
  simp

theorem range_sum_le (m : Nat) (f : Nat → Nat) (n : Nat) :
    ((List.range n).map (fun i => m - f i)).sum ≤ n * m := by
  induction n with
  | zero => simp
  | succ k ih =>
    rw [range_sum_succ, Nat.succ_mul]
    omega

theorem coefs_dominate (m : Nat) (f g : Nat → Nat) (n : Nat)
    (hd : ∀ i, i < n → f i ≤ g i) (hm : ∀ i, i < n → g i ≤ m) :
    ((List.range n).map (fun i => m - g i)).sum ≤ ((List.range n).map (fun i => m - f i)).sum ∧
    (((List.range n).map (fun i => m - f i)).sum ≤ ((List.range n).map (fun i => m - g i)).sum →
      ∀ i, i < n → g i = f i) := by
  induction n with
  | zero => exact ⟨Nat.le_refl _, fun _ i hi => absurd hi (Nat.not_lt_zero _)⟩
  | succ k ih =>
    obtain ⟨i1, i2⟩ := ih (fun i hi => hd i (by omega)) (fun i hi => hm i (by omega))
    have h1 := hd k (by omega)
    have h2 := hm k (by omega)
    rw [range_sum_succ, range_sum_succ]
    constructor
    · omega
    · intro hs i hi
      by_cases hik : i = k
      · subst hik; omega
      · exact i2 (by omega) i (by omega)

theorem lm_ots_coef_4 (Q : List Nat) (i : Nat) :
    lm_ots_coef Q i 4 = Q.getD (i / 2) 0 % 256 / 2 ^ (4 * (1 - i % 2)) % 16 := by
  have e1 : i * 4 / 8 = i / 2 := by omega
  have e2 : 8 / 4 - 1 = 1 := by norm_num
  have e3 : 8 / 4 = 2 := by norm_num
  have e4 : (16 : Nat) = 2 ^ 4 := by norm_num
  simp only [lm_ots_coef, e1, e2, e3]
  rw [Nat.and_pow_two_sub_one_eq_mod, e4]

theorem lm_ots_coef_2 (Q : List Nat) (i : Nat) :
    lm_ots_coef Q i 2 = Q.getD (i / 4) 0 % 256 / 2 ^ (2 * (3 - i % 4)) % 4 := by
  have e1 : i * 2 / 8 = i / 4 := by omega
  have e2 : 8 / 2 - 1 = 3 := by norm_num
  have e3 : 8 / 2 = 4 := by norm_num
  have e4 : (4 : Nat) = 2 ^ 2 := by norm_num
  simp only [lm_ots_coef, e1, e2, e3]
  rw [Nat.and_pow_two_sub_one_eq_mod, e4]

theorem lm_ots_checksum_eq (Q : List Nat) (w ls : Nat) :
    lm_ots_compute_checksum Q 24 w ls
      = (((List.range (8 * 24 / w)).map (fun i => (2 ^ w - 1) - lm_ots_coef Q i w)).sum
          * 2 ^ ls) % 2 ^ 32 := by
  simp only [lm_ots_compute_checksum]
  rw [foldl_add_eq_sum (fun i => (2 ^ w - 1) - lm_ots_coef Q i w), Nat.zero_add]

theorem lm_ots_coef_lt (Q : List Nat) (i w : Nat) : lm_ots_coef Q i w < 2 ^ w := by
  simp only [lm_ots_coef]
  rw [Nat.and_pow_two_sub_one_eq_mod]
  exact Nat.mod_lt _ (Nat.pow_pos (by norm_num))

theorem ext_getD : ∀ (a b : List Nat), a.length = b.length →
    (∀ i, i < a.length → a.getD i 0 = b.getD i 0) → a = b := by
  intro a
  induction a with
  | nil =>
    intro b hl _
    cases b with
    | nil => rfl
    | cons y r => simp at hl
  | cons x a ih =>
    intro b hl h
    cases b with
    | nil => simp at hl
    | cons y b =>
      have h0 : x = y := by simpa using h 0 (by simp)
      have ht := ih b (by simpa using hl)
        (fun i hi => by simpa using h (i + 1) (by simpa using hi))
      rw [h0, ht]

theorem getD_lt_of_all (l : List Nat) (m : Nat) (hm : 0 < m) (h : ∀ x ∈ l, x < m) (i : Nat) :
    l.getD i 0 < m := by
  by_cases hi : i < l.length
  · rw [List.getD_eq_getElem _ _ hi]
    exact h _ (List.getElem_mem hi)
  · rw [List.getD_eq_default _ _ (by omega)]
    exact hm

theorem put_bigendian_2 (x : Nat) : put_bigendian x 2 = [x / 256 % 256, x % 256] := by
  simp only [put_bigendian, List.nil_append, List.cons_append]

theorem coef4_append (Q : List Nat) (a b : Nat) (hQ : Q.length = 24) :
    (∀ i, i < 48 → lm_ots_coef (Q ++ [a, b]) i 4 = lm_ots_coef Q i 4) ∧
    lm_ots_coef (Q ++ [a, b]) 48 4 = a % 256 / 16 % 16 ∧
    lm_ots_coef (Q ++ [a, b]) 49 4 = a % 256 % 16 ∧
    lm_ots_coef (Q ++ [a, b]) 50 4 = b % 256 / 16 % 16 := by
  refine ⟨?_, ?_, ?_, ?_⟩
  · intro i hi
    rw [lm_ots_coef_4, lm_ots_coef_4, List.getD_append _ _ _ _ (by omega)]
  · rw [lm_ots_coef_4, List.getD_append_right _ _ _ _ (by omega), hQ]; rfl
  · rw [lm_ots_coef_4, List.getD_append_right _ _ _ _ (by omega), hQ]
    show a % 256 / 1 % 16 = _
    rw [Nat.div_one]
  · rw [lm_ots_coef_4, List.getD_append_right _ _ _ _ (by omega), hQ]; rfl

theorem coef2_append (Q : List Nat) (a b : Nat) (hQ : Q.length = 24) :
    (∀ i, i < 96 → lm_ots_coef (Q ++ [a, b]) i 2 = lm_ots_coef Q i 2) ∧
    lm_ots_coef (Q ++ [a, b]) 96 2 = a % 256 / 64 % 4 ∧
    lm_ots_coef (Q ++ [a, b]) 97 2 = a % 256 / 16 % 4 ∧
    lm_ots_coef (Q ++ [a, b]) 98 2 = a % 256 / 4 % 4 ∧
    lm_ots_coef (Q ++ [a, b]) 99 2 = a % 256 % 4 ∧
    lm_ots_coef (Q ++ [a, b]) 100 2 = b % 256 / 64 % 4 := by
  refine ⟨?_, ?_, ?_, ?_, ?_, ?_⟩
  · intro i hi
    rw [lm_ots_coef_2, lm_ots_coef_2, List.getD_append _ _ _ _ (by omega)]
  · rw [lm_ots_coef_2, List.getD_append_right _ _ _ _ (by omega), hQ]; rfl
  · rw [lm_ots_coef_2, List.getD_append_right _ _ _ _ (by omega), hQ]; rfl
  · rw [lm_ots_coef_2, List.getD_append_right _ _ _ _ (by omega), hQ]; rfl
  · rw [lm_ots_coef_2, List.getD_append_right _ _ _ _ (by omega), hQ]
    show a % 256 / 1 % 4 = _
    rw [Nat.div_one]
  · rw [lm_ots_coef_2, List.getD_append_right _ _ _ _ (by omega), hQ]; rfl

theorem byte_of_coef4 (Q : List Nat) (j : Nat) (hb : Q.getD j 0 < 256) :
    Q.getD j 0 = 16 * lm_ots_coef Q (2 * j) 4 + lm_ots_coef Q (2 * j + 1) 4 := by
  have e1 : 2 * j / 2 = j := by omega
  have e2 : (2 * j + 1) / 2 = j := by omega
  have e3 : 2 * j % 2 = 0 := by omega
  have e4 : (2 * j + 1) % 2 = 1 := by omega
  have p1 : 2 ^ (4 * (1 - 0)) = 16 := by norm_num
  have p2 : 2 ^ (4 * (1 - 1)) = 1 := by norm_num
  rw [lm_ots_coef_4, lm_ots_coef_4, e1, e2, e3, e4, p1, p2]
  generalize Q.getD j 0 = x at hb ⊢
  omega

theorem byte_of_coef2 (Q : List Nat) (j : Nat) (hb : Q.getD j 0 < 256) :
    Q.getD j 0 = 64 * lm_ots_coef Q (4 * j) 2 + 16 * lm_ots_coef Q (4 * j + 1) 2
      + 4 * lm_ots_coef Q (4 * j + 2) 2 + lm_ots_coef Q (4 * j + 3) 2 := by
  have e1 : 4 * j / 4 = j := by omega
  have e2 : (4 * j + 1) / 4 = j := by omega
  have e3 : (4 * j + 2) / 4 = j := by omega
  have e4 : (4 * j + 3) / 4 = j := by omega
  have f1 : 4 * j % 4 = 0 := by omega
  have f2 : (4 * j + 1) % 4 = 1 := by omega
  have f3 : (4 * j + 2) % 4 = 2 := by omega
  have f4 : (4 * j + 3) % 4 = 3 := by omega
  have p1 : 2 ^ (2 * (3 - 0)) = 64 := by norm_num
  have p2 : 2 ^ (2 * (3 - 1)) = 16 := by norm_num
  have p3 : 2 ^ (2 * (3 - 2)) = 4 := by norm_num
  have p4 : 2 ^ (2 * (3 - 3)) = 1 := by norm_num
  rw [lm_ots_coef_2, lm_ots_coef_2, lm_ots_coef_2, lm_ots_coef_2, e1, e2, e3, e4, f1, f2, f3,
    f4, p1, p2, p3, p4]
  generalize Q.getD j 0 = x at hb ⊢
  omega

theorem checksum4_digits (s : Nat) (hs : s ≤ 720) :
    s * 2 ^ 4 % 2 ^ 32 / 256 % 256 % 256 / 16 % 16 = s / 256 % 16 ∧
    s * 2 ^ 4 % 2 ^ 32 / 256 % 256 % 256 % 16 = s / 16 % 16 ∧
    s * 2 ^ 4 % 2 ^ 32 % 256 % 256 / 16 % 16 = s % 16 := by
  have c0 : s * 2 ^ 4 = s * 16 := by norm_num
  have c1 : s * 16 % 2 ^ 32 = s * 16 := Nat.mod_eq_of_lt (by norm_num; omega)
  have a1 : s * 16 / 256 % 256 % 256 = s / 16 := by omega
  have b1 : s * 16 % 256 % 256 = (s % 16) * 16 := by omega
  rw [c0, c1, a1, b1]
  refine ⟨by omega, by omega, by omega⟩

theorem base16_split (t : Nat) (ht : t ≤ 720) :
    t = 256 * (t / 256 % 16) + 16 * (t / 16 % 16) + t % 16 := by
  omega

theorem digits4_le_core (s s' A A' B B' C C' : Nat)
    (d48 : A ≤ A') (d49 : B ≤ B') (d50 : C ≤ C')
    (es : s = 256 * A + 16 * B + C) (es' : s' = 256 * A' + 16 * B' + C') : s ≤ s' := by
  omega

theorem lm_ots_protect_4 (Q Q' : List Nat) (hQ : Q.length = 24) (hQ' : Q'.length = 24)
    (hb : ∀ x ∈ Q, x < 256) (hb' : ∀ x ∈ Q', x < 256)
    (hd : ∀ i, i < 51 →
      lm_ots_coef (Q ++ put_bigendian (lm_ots_compute_checksum Q 24 4 4) 2) i 4
        ≤ lm_ots_coef (Q' ++ put_bigendian (lm_ots_compute_checksum Q' 24 4 4) 2) i 4) :
    Q' = Q := by
  rw [lm_ots_checksum_eq, lm_ots_checksum_eq, put_bigendian_2, put_bigendian_2] at hd
  have hs := range_sum_le (2 ^ 4 - 1) (fun i => lm_ots_coef Q i 4) (8 * 24 / 4)
  have hs' := range_sum_le (2 ^ 4 - 1) (fun i => lm_ots_coef Q' i 4) (8 * 24 / 4)
  obtain ⟨k1, k2⟩ := coefs_dominate (2 ^ 4 - 1) (fun i => lm_ots_coef Q i 4)
    (fun i => lm_ots_coef Q' i 4) (8 * 24 / 4)
    (fun i hi => by
      have := hd i (by norm_num at hi; omega)
      rw [(coef4_append Q _ _ hQ).1 i (by norm_num at hi; omega),
        (coef4_append Q' _ _ hQ').1 i (by norm_num at hi; omega)] at this
      exact this)
    (fun i _ => by
      have := lm_ots_coef_lt Q' i 4
      show lm_ots_coef Q' i 4 ≤ 2 ^ 4 - 1
      omega)
  generalize ((List.range (8 * 24 / 4)).map (fun i => (2 ^ 4 - 1) - lm_ots_coef Q i 4)).sum
    = s at *
  generalize ((List.range (8 * 24 / 4)).map (fun i => (2 ^ 4 - 1) - lm_ots_coef Q' i 4)).sum
    = s' at *
  have d48 := hd 48 (by norm_num)
  have d49 := hd 49 (by norm_num)
  have d50 := hd 50 (by norm_num)
  rw [(coef4_append Q _ _ hQ).2.1, (coef4_append Q' _ _ hQ').2.1] at d48
  rw [(coef4_append Q _ _ hQ).2.2.1, (coef4_append Q' _ _ hQ').2.2.1] at d49
  rw [(coef4_append Q _ _ hQ).2.2.2, (coef4_append Q' _ _ hQ').2.2.2] at d50
  have hs2 : s ≤ 720 := by norm_num at hs; exact hs
  have hs2' : s' ≤ 720 := by norm_num at hs'; exact hs'
  obtain ⟨x1, x2, x3⟩ := checksum4_digits s hs2
  obtain ⟨y1, y2, y3⟩ := checksum4_digits s' hs2'
  rw [x1, y1] at d48
  rw [x2, y2] at d49
  rw [x3, y3] at d50
  have hss : s ≤ s' := digits4_le_core s s' _ _ _ _ _ _ d48 d49 d50 (base16_split s hs2)
    (base16_split s' hs2')
  have heq := k2 hss
  apply ext_getD _ _ (by rw [hQ, hQ'])
  intro j hj
  rw [hQ'] at hj
  rw [byte_of_coef4 Q' j (getD_lt_of_all Q' 256 (by norm_num) hb' j),
    byte_of_coef4 Q j (getD_lt_of_all Q 256 (by norm_num) hb j)]
  have a1 := heq (2 * j) (by norm_num; omega)
  have a2 := heq (2 * j + 1) (by norm_num; omega)
  simp only at a1 a2
  rw [a1, a2]

theorem checksum2_digits (s : Nat) (hs : s ≤ 288) :
    s * 2 ^ 6 % 2 ^ 32 / 256 % 256 % 256 / 64 % 4 = s / 256 % 4 ∧
    s * 2 ^ 6 % 2 ^ 32 / 256 % 256 % 256 / 16 % 4 = s / 64 % 4 ∧
    s * 2 ^ 6 % 2 ^ 32 / 256 % 256 % 256 / 4 % 4 = s / 16 % 4 ∧
    s * 2 ^ 6 % 2 ^ 32 / 256 % 256 % 256 % 4 = s / 4 % 4 ∧
    s * 2 ^ 6 % 2 ^ 32 % 256 % 256 / 64 % 4 = s % 4 := by
  have c0 : s * 2 ^ 6 = s * 64 := by norm_num
  have c1 : s * 64 % 2 ^ 32 = s * 64 := Nat.mod_eq_of_lt (by norm_num; omega)
  have a1 : s * 64 / 256 % 256 % 256 = s / 4 := by omega
  have b1 : s * 64 % 256 % 256 = (s % 4) * 64 := by omega
  rw [c0, c1, a1, b1]
  refine ⟨by omega, by omega, by omega, by omega, by omega⟩


theorem base4_split (t : Nat) (ht : t ≤ 288) :
    t = 256 * (t / 256 % 4) + 64 * (t / 64 % 4) + 16 * (t / 16 % 4) + 4 * (t / 4 % 4) + t % 4 := by
  omega

theorem digits_le_core (s s' A A' B B' C C' D D' E E' : Nat)
    (d96 : A ≤ A') (d97 : B ≤ B') (d98 : C ≤ C') (d99 : D ≤ D') (d100 : E ≤ E')
    (es : s = 256 * A + 64 * B + 16 * C + 4 * D + E)
    (es' : s' = 256 * A' + 64 * B' + 16 * C' + 4 * D' + E') : s ≤ s' := by
  omega

theorem digits2_le (s s' : Nat) (hs : s ≤ 288) (hs' : s' ≤ 288)
    (d96 : s / 256 % 4 ≤ s' / 256 % 4) (d97 : s / 64 % 4 ≤ s' / 64 % 4)
    (d98 : s / 16 % 4 ≤ s' / 16 % 4) (d99 : s / 4 % 4 ≤ s' / 4 % 4)
    (d100 : s % 4 ≤ s' % 4) : s ≤ s' :=
  digits_le_core s s' _ _ _ _ _ _ _ _ _ _ d96 d97 d98 d99 d100 (base4_split s hs)
    (base4_split s' hs')

theorem lm_ots_protect_2 (Q Q' : List Nat) (hQ : Q.length = 24) (hQ' : Q'.length = 24)
    (hb : ∀ x ∈ Q, x < 256) (hb' : ∀ x ∈ Q', x < 256)
    (hd : ∀ i, i < 101 →
      lm_ots_coef (Q ++ put_bigendian (lm_ots_compute_checksum Q 24 2 6) 2) i 2
        ≤ lm_ots_coef (Q' ++ put_bigendian (lm_ots_compute_checksum Q' 24 2 6) 2) i 2) :
    Q' = Q := by
  rw [lm_ots_checksum_eq, lm_ots_checksum_eq, put_bigendian_2, put_bigendian_2] at hd
  have hs := range_sum_le (2 ^ 2 - 1) (fun i => lm_ots_coef Q i 2) (8 * 24 / 2)
  have hs' := range_sum_le (2 ^ 2 - 1) (fun i => lm_ots_coef Q' i 2) (8 * 24 / 2)
  obtain ⟨k1, k2⟩ := coefs_dominate (2 ^ 2 - 1) (fun i => lm_ots_coef Q i 2)
    (fun i => lm_ots_coef Q' i 2) (8 * 24 / 2)
    (fun i hi => by
      have := hd i (by norm_num at hi; omega)
      rw [(coef2_append Q _ _ hQ).1 i (by norm_num at hi; omega),
        (coef2_append Q' _ _ hQ').1 i (by norm_num at hi; omega)] at this
      exact this)
    (fun i _ => by
      have := lm_ots_coef_lt Q' i 2
      show lm_ots_coef Q' i 2 ≤ 2 ^ 2 - 1
      omega)
  generalize ((List.range (8 * 24 / 2)).map (fun i => (2 ^ 2 - 1) - lm_ots_coef Q i 2)).sum
    = s at *
  generalize ((List.range (8 * 24 / 2)).map (fun i => (2 ^ 2 - 1) - lm_ots_coef Q' i 2)).sum
    = s' at *
  have d96 := hd 96 (by norm_num)
  have d97 := hd 97 (by norm_num)
  have d98 := hd 98 (by norm_num)
  have d99 := hd 99 (by norm_num)
  have d100 := hd 100 (by norm_num)
  rw [(coef2_append Q _ _ hQ).2.1, (coef2_append Q' _ _ hQ').2.1] at d96
  rw [(coef2_append Q _ _ hQ).2.2.1, (coef2_append Q' _ _ hQ').2.2.1] at d97
  rw [(coef2_append Q _ _ hQ).2.2.2.1, (coef2_append Q' _ _ hQ').2.2.2.1] at d98
  rw [(coef2_append Q _ _ hQ).2.2.2.2.1, (coef2_append Q' _ _ hQ').2.2.2.2.1] at d99
  rw [(coef2_append Q _ _ hQ).2.2.2.2.2, (coef2_append Q' _ _ hQ').2.2.2.2.2] at d100
  have hs2 : s ≤ 288 := by norm_num at hs; exact hs
  have hs2' : s' ≤ 288 := by norm_num at hs'; exact hs'
  obtain ⟨x1, x2, x3, x4, x5⟩ := checksum2_digits s hs2
  obtain ⟨y1, y2, y3, y4, y5⟩ := checksum2_digits s' hs2'
  rw [x1, y1] at d96
  rw [x2, y2] at d97
  rw [x3, y3] at d98
  rw [x4, y4] at d99
  rw [x5, y5] at d100
  have hss : s ≤ s' := digits2_le s s' hs2 hs2' d96 d97 d98 d99 d100
  have heq := k2 hss
  apply ext_getD _ _ (by rw [hQ, hQ'])
  intro j hj
  rw [hQ'] at hj
  rw [byte_of_coef2 Q' j (getD_lt_of_all Q' 256 (by norm_num) hb' j),
    byte_of_coef2 Q j (getD_lt_of_all Q 256 (by norm_num) hb j)]
  have a1 := heq (4 * j) (by norm_num; omega)
  have a2 := heq (4 * j + 1) (by norm_num; omega)
  have a3 := heq (4 * j + 2) (by norm_num; omega)
  have a4 := heq (4 * j + 3) (by norm_num; omega)
  simp only at a1 a2 a3 a4
  rw [a1, a2, a3, a4]
/-- C39: for n = 24 and (w, ls, p) either (4, 4, 51) or (2, 6, 101), the
value of `lm_ots_compute_checksum` is below 2^16, every `lm_ots_coef` value
is below 2^w, and for two 24-byte hashes `Q` and `Q'`, if each of the `p`
coefficients of `Q'` followed by the two bytes of its checksum is at least the
corresponding coefficient for `Q`, then `Q' = Q`. -/
theorem lm_ots_checksum_protects (w ls p : Nat)
    (hw : (w = 4 ∧ ls = 4 ∧ p = 51) ∨ (w = 2 ∧ ls = 6 ∧ p = 101)) :
    (∀ Q : List Nat, lm_ots_compute_checksum Q 24 w ls < 2 ^ 16) ∧
    (∀ (Q : List Nat) (i : Nat), lm_ots_coef Q i w < 2 ^ w) ∧
    (∀ Q Q' : List Nat, Q.length = 24 → Q'.length = 24 →
      (∀ x ∈ Q, x < 256) → (∀ x ∈ Q', x < 256) →
      (∀ i, i < p →
        lm_ots_coef (Q ++ put_bigendian (lm_ots_compute_checksum Q 24 w ls) 2) i w
          ≤ lm_ots_coef (Q' ++ put_bigendian (lm_ots_compute_checksum Q' 24 w ls) 2) i w) →
      Q' = Q) := by
  rcases hw with ⟨rfl, rfl, rfl⟩ | ⟨rfl, rfl, rfl⟩
  · refine ⟨?_, fun Q i => lm_ots_coef_lt Q i 4, ?_⟩
    · intro Q
      rw [lm_ots_checksum_eq]
      have hs := range_sum_le (2 ^ 4 - 1) (fun i => lm_ots_coef Q i 4) (8 * 24 / 4)
      generalize ((List.range (8 * 24 / 4)).map
        (fun i => (2 ^ 4 - 1) - lm_ots_coef Q i 4)).sum = s at hs ⊢
      norm_num at hs ⊢
      omega
    · intro Q Q' hQ hQ' hb hb' hd
      exact lm_ots_protect_4 Q Q' hQ hQ' hb hb' hd
  · refine ⟨?_, fun Q i => lm_ots_coef_lt Q i 2, ?_⟩
    · intro Q
      rw [lm_ots_checksum_eq]
      have hs := range_sum_le (2 ^ 2 - 1) (fun i => lm_ots_coef Q i 2) (8 * 24 / 2)
      generalize ((List.range (8 * 24 / 2)).map
        (fun i => (2 ^ 2 - 1) - lm_ots_coef Q i 2)).sum = s at hs ⊢
      norm_num at hs ⊢
      omega
    · intro Q Q' hQ hQ' hb hb' hd
      exact lm_ots_protect_2 Q Q' hQ hQ' hb hb' hd

/-- Witness for `lm_ots_checksum_protects`: the W=2 parameters of the shipped
tuning; the checksum of the all-zero hash is below 2^16. -/
theorem lm_ots_checksum_protects_witness :
    lm_ots_compute_checksum (zeros 24) 24 2 6 < 2 ^ 16 :=
  (lm_ots_checksum_protects 2 6 101 (Or.inr ⟨rfl, rfl, rfl⟩)).1 (zeros 24)

theorem bytesN_memcpy_zero (d src : List Nat) (n : Nat) :
    bytesN n (memcpy d 0 src n) = bytesN n src := by
  simp only [memcpy, blit, List.take_zero, List.nil_append]
  exact bytesN_append_left _ _ _ (bytesN_length n src)

theorem lms_combine_length (P : Prims) (l r I : List Nat) (n k : Nat) :
    (lms_combine_internal_nodes P l r I n k).length = n := by
  simp only [lms_combine_internal_nodes, bytesN_length]

theorem fake_walk_length (T : Tune) (P : Prims) (nf I : List Nat) :
    ∀ (h : Nat) (b : List Nat), b.length = 24 → (fake_walk T P nf I h b).length = 24 := by
  intro h
  induction h with
  | zero => intro b hb; exact hb
  | succ k ih =>
    intro b hb
    simp only [fake_walk]
    apply ih
    rw [memcpy_full _ _ 24 hb (lms_combine_length _ _ _ _ _ _)]
    exact lms_combine_length _ _ _ _ _ _

theorem fake_walk_range (T : Tune) (P : Prims) (nf I : List Nat) :
    ∀ (h : Nat) (b : List Nat), h ≤ LMS_FAKE T → b.length = 24 →
      fake_walk T P nf I h b = (List.range' (LMS_FAKE T - h) h).foldl (fun r k =>
        lms_combine_internal_nodes P r (slice nf (k * 24) 24) I 24
          (2 ^ (LMS_FAKE T - 1 - k))) b := by
  intro h
  induction h with
  | zero => intro b _ _; rfl
  | succ k ih =>
    intro b hk hb
    simp only [fake_walk]
    rw [memcpy_full _ _ 24 hb (lms_combine_length _ _ _ _ _ _),
      ih _ (by omega) (lms_combine_length _ _ _ _ _ _)]
    have e1 : LMS_FAKE T - (k + 1) + 1 = LMS_FAKE T - k := by omega
    have e2 : LMS_FAKE T - 1 - (LMS_FAKE T - (k + 1)) = k := by omega
    have e3 : LMS_FAKE T - 1 - k = LMS_FAKE T - (k + 1) := by omega
    simp only [List.range', List.foldl_cons, e1, e2, e3]

theorem verify_walk_fake (T : Tune) (P : Prims) (nf I : List Nat) :
    ∀ (h fuel : Nat) (bv bf : List Nat), h ≤ fuel → h ≤ LMS_FAKE T → h ≤ 32 →
      bytesN 24 bv = bytesN 24 bf →
      bytesN 24 (verify_lms_walk P I 24 fuel (2 ^ h) (nf.drop ((LMS_FAKE T - h) * 24)) bv)
        = bytesN 24 (fake_walk T P nf I h bf) := by
  intro h
  induction h with
  | zero =>
    intro fuel bv bf _ _ _ hb
    cases fuel with
    | zero => exact hb
    | succ f =>
      have : ¬ (2 ^ 0 > 1) := by norm_num
      simp only [verify_lms_walk, this, if_false, fake_walk]
      exact hb
  | succ k ih =>
    intro fuel bv bf hf hk h32 hb
    cases fuel with
    | zero => omega
    | succ f =>
      have hp : 2 ^ (k + 1) > 1 := by
        have : 1 ≤ 2 ^ k := Nat.one_le_two_pow
        rw [Nat.pow_succ]; omega
      have hev : ¬ (2 ^ (k + 1) % 2 ≠ 0) := by
        rw [Nat.pow_succ]; omega
      have hhalf : 2 ^ (k + 1) / 2 = 2 ^ k := by
        rw [Nat.pow_succ]; omega
      have hmod : 2 ^ k % 2 ^ 32 = 2 ^ k :=
        Nat.mod_eq_of_lt (Nat.pow_lt_pow_right (by norm_num) (by omega))
      have hdrop : (nf.drop ((LMS_FAKE T - (k + 1)) * 24)).drop 24
          = nf.drop ((LMS_FAKE T - k) * 24) := by
        rw [List.drop_drop]
        congr 1
        have : LMS_FAKE T - k = LMS_FAKE T - (k + 1) + 1 := by omega
        rw [this]
        ring
      have e3 : LMS_FAKE T - 1 - k = LMS_FAKE T - (k + 1) := by omega
      simp only [verify_lms_walk, hp, hev, if_true, if_false, hhalf, hdrop, fake_walk]
      apply ih f _ _ (by omega) (by omega) (by omega)
      rw [bytesN_memcpy_zero]
      simp only [lms_combine_internal_nodes, intrBlock, hmod, hb, slice, bytesN_bytesN, e3]

theorem verify_walk_split (P : Prims) (I : List Nat) (n : Nat) :
    ∀ (a f node : Nat) (y buf : List Nat), 2 ^ a ≤ node →
      verify_lms_walk P I n (a + f) node y buf
        = verify_lms_walk P I n f (node / 2 ^ a) (y.drop (a * n))
            (verify_lms_walk P I n a node y buf) := by
  intro a
  induction a with
  | zero => intro f node y buf _; simp [verify_lms_walk]
  | succ k ih =>
    intro f node y buf hn
    have hp : node > 1 := by
      have : 1 ≤ 2 ^ k := Nat.one_le_two_pow
      rw [Nat.pow_succ] at hn; omega
    have hh : 2 ^ k ≤ node / 2 := by
      rw [Nat.pow_succ] at hn; omega
    have e1 : k + 1 + f = (k + f) + 1 := by omega
    have e2 : node / 2 / 2 ^ k = node / 2 ^ (k + 1) := by
      rw [Nat.div_div_eq_div_mul, Nat.pow_succ, Nat.mul_comm]
    have e3 : (y.drop n).drop (k * n) = y.drop ((k + 1) * n) := by
      rw [List.drop_drop]
      congr 1
      ring
    rw [e1]
    simp only [verify_lms_walk, hp, if_true]
    rw [ih f (node / 2) (y.drop n) _ hh, e2, e3]

theorem verify_walk_pfx (P : Prims) (I : List Nat) (n : Nat) :
    ∀ (a node : Nat) (p r buf : List Nat), p.length = a * n →
      verify_lms_walk P I n a node (p ++ r) buf = verify_lms_walk P I n a node p buf := by
  intro a
  induction a with
  | zero => intro node p r buf _; rfl
  | succ k ih =>
    intro node p r buf hp
    have hl : n ≤ p.length := by
      rw [hp, Nat.succ_mul]; omega
    have e1 : bytesN n (p ++ r) = bytesN n p := by
      simp only [bytesN, List.append_assoc]
      rw [List.take_append_of_le_length hl, List.take_append_of_le_length hl]
    have e2 : (p ++ r).drop n = p.drop n ++ r := List.drop_append_of_le_length hl
    have e3 : (p.drop n).length = k * n := by
      rw [List.length_drop, hp, Nat.succ_mul]; omega
    simp only [verify_lms_walk, intrBlock, e1, e2]
    rw [ih _ (p.drop n) r _ e3]

theorem lms_pub_key_layout (pub I root : List Nat) (id : Nat) (hp : pub.length = 52)
    (hr : root.length = 24) :
    memcpy (memcpy (memcpy (memcpy (memcpy pub 0 (put_bigendian 1 4) 4) 4
      (put_bigendian 0xe0000028 4) 4) 8 (put_bigendian id 4) 4) 12 I 16) (12 + 16) root 24
      = put_bigendian 1 4 ++ put_bigendian 0xe0000028 4 ++ put_bigendian id 4 ++ bytesN 16 I
          ++ root := by
  obtain ⟨a0, r0, e0, l0, d0⟩ := split_at pub 4 (by omega)
  obtain ⟨a1, r1, e1, l1, d1⟩ := split_at r0 4 (by rw [d0, List.length_drop]; omega)
  obtain ⟨a2, r2, e2, l2, d2⟩ := split_at r1 4
    (by rw [d1, d0, List.length_drop, List.length_drop]; omega)
  obtain ⟨a3, r3, e3, l3, d3⟩ := split_at r2 16
    (by rw [d2, d1, d0, List.length_drop, List.length_drop, List.length_drop]; omega)
  have l4 : r3.length = 24 := by
    rw [d3, d2, d1, d0, List.length_drop, List.length_drop, List.length_drop, List.length_drop]
    omega
  have b4 : ∀ v : Nat, bytesN 4 (put_bigendian v 4) = put_bigendian v 4 := fun v =>
    bytesN_of_length (put_bigendian_length v 4)
  have k1 := memcpy_mid [] a0 r0 (put_bigendian 1 4) 4 0 rfl l0
  rw [List.nil_append, List.nil_append, b4, ← e0] at k1
  have k2 := memcpy_mid (put_bigendian 1 4) a1 r1 (put_bigendian 0xe0000028 4) 4 4
    (put_bigendian_length 1 4) l1
  rw [List.append_assoc, ← e1, b4] at k2
  have k3 := memcpy_mid (put_bigendian 1 4 ++ put_bigendian 0xe0000028 4) a2 r2
    (put_bigendian id 4) 4 8 (by simp) l2
  rw [List.append_assoc _ a2 r2, ← e2, b4] at k3
  have k4 := memcpy_mid (put_bigendian 1 4 ++ put_bigendian 0xe0000028 4 ++ put_bigendian id 4)
    a3 r3 I 16 12 (by simp) l3
  rw [List.append_assoc _ a3 r3, ← e3] at k4
  have k5 := memcpy_mid (put_bigendian 1 4 ++ put_bigendian 0xe0000028 4 ++ put_bigendian id 4
    ++ bytesN 16 I) r3 [] root 24 28 (by simp) l4
  rw [List.append_nil, List.append_nil, bytesN_of_length hr] at k5
  rw [k1, k2, k3, k4]
  exact k5

theorem step_lms_finished_pub (T : Tune) (P : Prims) (s : sh_signer) (hF : LMS_FAKE T ≠ 0) :
    (step_lms_finished T P s).next_fake
      = (read_drbg P s.next_fake (24 * LMS_FAKE T) s.drbg).2.1 ∧
    (step_lms_finished T P s).next_lms_I = s.next_lms_I ∧
    (step_lms_finished T P s).next_lms_root
      = fake_walk T P (read_drbg P s.next_fake (24 * LMS_FAKE T) s.drbg).2.1 s.next_lms_I
          (LMS_FAKE T) s.next_lms_root ∧
    (step_lms_finished T P s).next_lms_pub_key
      = memcpy (memcpy (memcpy (memcpy (memcpy s.next_lms_pub_key 0 (put_bigendian 1 4) 4) 4
          (put_bigendian 0xe0000028 4) 4) 8 (put_bigendian (LM_OTS_PARAM_ID T) 4) 4) 12
          s.next_lms_I 16) (12 + 16)
          (fake_walk T P (read_drbg P s.next_fake (24 * LMS_FAKE T) s.drbg).2.1 s.next_lms_I
            (LMS_FAKE T) s.next_lms_root) 24 := by
  simp only [step_lms_finished, hF, ne_eq, not_false_eq_true, if_true, and_self]

/-- C33: the `b_lms_finished` step leaves in `next_lms_pub_key` the 52 bytes
BE32(1), BE32(0xe0000028), BE32(LM_OTS_PARAM_ID), `next_lms_I` and the root,
where the root is obtained from the real subtree root (the old
`next_lms_root`) by combining it as the left child with `next_fake[0]`,
`next_fake[1]`, ... as right siblings under node numbers 2^(LMS_FAKE-1), ...,
1; the verifier's walk from node 2^LMS_FAKE over `next_fake` reaches the same
24 bytes, and so does its 20-level walk from any leaf `q < 2^LMS_ACTUAL`
whenever the first LMS_ACTUAL levels lead to the real subtree root and
`next_fake` forms the last LMS_FAKE entries of the path. -/
theorem lms_public_key_assembly (T : Tune) (P : Prims) (s : sh_signer)
    (hF : LMS_FAKE T ≠ 0) (hpub : s.next_lms_pub_key.length = 52)
    (hroot : s.next_lms_root.length = 24) :
    (step_lms_finished T P s).next_lms_pub_key
      = put_bigendian 1 4 ++ put_bigendian 0xe0000028 4 ++ put_bigendian (LM_OTS_PARAM_ID T) 4
          ++ bytesN 16 s.next_lms_I ++ (step_lms_finished T P s).next_lms_root ∧
    (step_lms_finished T P s).next_lms_pub_key.length = 52 ∧
    (step_lms_finished T P s).next_lms_root.length = 24 ∧
    (step_lms_finished T P s).next_lms_I = s.next_lms_I ∧
    (step_lms_finished T P s).next_lms_root
      = fake_root_spec P (step_lms_finished T P s).next_fake s.next_lms_I (LMS_FAKE T)
          s.next_lms_root ∧
    (∀ (fuel : Nat) (bv : List Nat), LMS_FAKE T ≤ fuel → bytesN 24 bv = s.next_lms_root →
      bytesN 24 (verify_lms_walk P s.next_lms_I 24 fuel (2 ^ LMS_FAKE T)
        (step_lms_finished T P s).next_fake bv) = (step_lms_finished T P s).next_lms_root) ∧
    (∀ (fuel q : Nat) (path leaf : List Nat), LMS_H ≤ fuel → q < 2 ^ LMS_ACTUAL T →
      path.length = LMS_ACTUAL T * 24 →
      bytesN 24 (verify_lms_walk P s.next_lms_I 24 (LMS_ACTUAL T) (q + 2 ^ LMS_H) path leaf)
        = s.next_lms_root →
      memeq (verify_lms_walk P s.next_lms_I 24 fuel (q + 2 ^ LMS_H)
          (path ++ (step_lms_finished T P s).next_fake) leaf)
        ((step_lms_finished T P s).next_lms_pub_key.drop 28) 24 = true) := by
  obtain ⟨f1, f2, f3, f4⟩ := step_lms_finished_pub T P s hF
  have hFle : LMS_FAKE T ≤ 7 := by simp only [LMS_FAKE]; omega
  have hAF : LMS_ACTUAL T + LMS_FAKE T = 20 := by simp only [LMS_ACTUAL, LMS_H]; omega
  have hl : (step_lms_finished T P s).next_lms_root.length = 24 := by
    rw [f3]; exact fake_walk_length T P _ _ _ _ hroot
  have hlay : (step_lms_finished T P s).next_lms_pub_key
      = put_bigendian 1 4 ++ put_bigendian 0xe0000028 4 ++ put_bigendian (LM_OTS_PARAM_ID T) 4
          ++ bytesN 16 s.next_lms_I ++ (step_lms_finished T P s).next_lms_root := by
    rw [f4, f3]
    exact lms_pub_key_layout _ _ _ _ hpub (fake_walk_length T P _ _ _ _ hroot)
  have hwalk : ∀ (fuel : Nat) (bv : List Nat), LMS_FAKE T ≤ fuel →
      bytesN 24 bv = s.next_lms_root →
      bytesN 24 (verify_lms_walk P s.next_lms_I 24 fuel (2 ^ LMS_FAKE T)
        (step_lms_finished T P s).next_fake bv) = (step_lms_finished T P s).next_lms_root := by
    intro fuel bv hfu hbv
    have := verify_walk_fake T P (step_lms_finished T P s).next_fake s.next_lms_I (LMS_FAKE T)
      fuel bv s.next_lms_root hfu (Nat.le_refl _) (by omega)
      (by rw [hbv, bytesN_of_length hroot])
    rw [Nat.sub_self, Nat.zero_mul, List.drop_zero] at this
    rw [this, f3, f1]
    exact bytesN_of_length (fake_walk_length T P _ _ _ _ hroot)
  refine ⟨hlay, ?_, hl, f2, ?_, hwalk, ?_⟩
  · rw [hlay]
    simp [hl]
  · rw [f3, f1, fake_walk_range T P _ _ _ _ (Nat.le_refl _) hroot, Nat.sub_self,
      fake_root_spec, List.range_eq_range']
  · intro fuel q path leaf hfu hq hp hreal
    have hnode : 2 ^ LMS_ACTUAL T ≤ q + 2 ^ LMS_H := by
      have : 2 ^ LMS_ACTUAL T ≤ 2 ^ LMS_H :=
        Nat.pow_le_pow_right (by norm_num) (by simp only [LMS_H]; omega)
      omega
    have hdiv : (q + 2 ^ LMS_H) / 2 ^ LMS_ACTUAL T = 2 ^ LMS_FAKE T := by
      have e : 2 ^ LMS_H = 2 ^ LMS_FAKE T * 2 ^ LMS_ACTUAL T := by
        rw [← Nat.pow_add, Nat.add_comm, hAF]
        rfl
      rw [e, Nat.add_mul_div_right _ _ (Nat.pow_pos (by norm_num)),
        Nat.div_eq_of_lt hq, Nat.zero_add]
    have hfuel : fuel = LMS_ACTUAL T + (fuel - LMS_ACTUAL T) := by
      simp only [LMS_H] at hfu; omega
    have hdrop : (path ++ (step_lms_finished T P s).next_fake).drop (LMS_ACTUAL T * 24)
        = (step_lms_finished T P s).next_fake := List.drop_left' hp
    rw [hfuel, verify_walk_split P s.next_lms_I 24 _ _ _ _ _ hnode, hdiv, hdrop,
      verify_walk_pfx P s.next_lms_I 24 _ _ path _ _ hp]
    have hw := hwalk (fuel - LMS_ACTUAL T)
      (verify_lms_walk P s.next_lms_I 24 (LMS_ACTUAL T) (q + 2 ^ LMS_H) path leaf)
      (by simp only [LMS_H] at hfu; omega) hreal
    have hd28 : (step_lms_finished T P s).next_lms_pub_key.drop 28
        = (step_lms_finished T P s).next_lms_root := by
      rw [hlay]
      exact List.drop_left' (by simp)
    simp only [memeq, decide_eq_true_eq]
    rw [hw, hd28, bytesN_of_length hl]

/-- Witness for `lms_public_key_assembly`: zero-filled signer memory with the
shipped tuning (LMS_FAKE = 6). -/
theorem lms_public_key_assembly_witness :
    (step_lms_finished tune zero_prims blank_signer).next_lms_pub_key.length = 52 ∧
    (step_lms_finished tune zero_prims blank_signer).next_lms_root.length = 24 :=
  ⟨(lms_public_key_assembly tune zero_prims blank_signer (by decide) (by decide)
      (by decide)).2.1,
   (lms_public_key_assembly tune zero_prims blank_signer (by decide) (by decide)
      (by decide)).2.2.1⟩

theorem digest_index_congr (P : Prims) (r seed seed' root root' msg : List Nat) (k a h d : Nat)
    (h1 : bytesN 24 seed = bytesN 24 seed') (h2 : bytesN 24 root = bytesN 24 root') :
    do_compute_digest_index P 24 r seed root msg k a h d
      = do_compute_digest_index P 24 r seed' root' msg k a h d := by
  simp only [do_compute_digest_index, h1, h2]

theorem first_block_congr (seed seed' : List Nat) (h1 : bytesN 24 seed = bytesN 24 seed') :
    SHA256_set_first_block seed 24 = SHA256_set_first_block seed' 24 := by
  simp only [SHA256_set_first_block, h1]

theorem memeq_congr (b root root' : List Nat) (h2 : bytesN 24 root = bytesN 24 root') :
    memeq b root 24 = memeq b root' 24 := by
  simp only [memeq, h2]

theorem verify_sphincs_pk (P : Prims) (buffer sphincs_sig lm_pk pk pk' : List Nat)
    (h1 : slice pk 4 24 = slice pk' 4 24) (h2 : slice pk 28 24 = slice pk' 28 24) :
    verify_sphincs P buffer sphincs_sig lm_pk pk = verify_sphincs P buffer sphincs_sig lm_pk pk'
    := by
  simp only [slice] at h1 h2
  have e1 := first_block_congr _ _ h1
  have e2 := fun r msg k a h d => digest_index_congr P r _ _ _ _ msg k a h d h1 h2
  have e3 := fun b => memeq_congr b _ _ h2
  simp only [verify_sphincs, e1, e2, e3]

theorem sh_verify_pk (P : Prims) (message signature pk pk' : List Nat)
    (h1 : slice pk 4 24 = slice pk' 4 24) (h2 : slice pk 28 24 = slice pk' 28 24) :
    sh_verify P message signature pk = sh_verify P message signature pk' := by
  simp only [sh_verify, verify_sphincs_pk P _ _ _ pk pk' h1 h2]

theorem bytesN_append_ge (l r : List Nat) (n : Nat) (h : n ≤ l.length) :
    bytesN n (l ++ r) = bytesN n l := by
  simp only [bytesN, List.append_assoc]
  rw [List.take_append_of_le_length h, List.take_append_of_le_length h]

theorem do_H_pfx_left (P : Prims) (pk adr s t b : List Nat) (h : 24 ≤ s.length) :
    do_H P (HASH_TYPE_SHA256 ||| HASH_LEN_192) pk adr (s ++ t) b
      = do_H P (HASH_TYPE_SHA256 ||| HASH_LEN_192) pk adr s b := by
  have hn : hash_len (HASH_TYPE_SHA256 ||| HASH_LEN_192) = 24 := by decide
  simp only [do_H, hn, bytesN_append_ge s t 24 h]

theorem do_H_pfx_right (P : Prims) (pk adr s t b : List Nat) (h : 24 ≤ s.length) :
    do_H P (HASH_TYPE_SHA256 ||| HASH_LEN_192) pk adr b (s ++ t)
      = do_H P (HASH_TYPE_SHA256 ||| HASH_LEN_192) pk adr b s := by
  have hn : hash_len (HASH_TYPE_SHA256 ||| HASH_LEN_192) = 24 := by decide
  simp only [do_H, hn, bytesN_append_ge s t 24 h]

theorem do_F_pfx (P : Prims) (pk adr s t : List Nat) (h : 24 ≤ s.length) :
    do_F P (HASH_TYPE_SHA256 ||| HASH_LEN_192) pk adr (s ++ t)
      = do_F P (HASH_TYPE_SHA256 ||| HASH_LEN_192) pk adr s := by
  have hn : hash_len (HASH_TYPE_SHA256 ||| HASH_LEN_192) = 24 := by decide
  simp only [do_F, hn, bytesN_append_ge s t 24 h]

theorem drop_append_ge (s t : List Nat) (n : Nat) (h : n ≤ s.length) :
    (s ++ t).drop n = s.drop n ++ t := List.drop_append_of_le_length h

theorem verify_fors_levels_pfx (P : Prims) (pk t : List Nat) :
    ∀ (cnt level node : Nat) (adr s buffer : List Nat), cnt * 24 ≤ s.length →
      verify_fors_levels P pk cnt level node adr (s ++ t) buffer
        = ((verify_fors_levels P pk cnt level node adr s buffer).1,
           (verify_fors_levels P pk cnt level node adr s buffer).2.1 ++ t,
           (verify_fors_levels P pk cnt level node adr s buffer).2.2) ∧
      (verify_fors_levels P pk cnt level node adr s buffer).2.1 = s.drop (cnt * 24) := by
  intro cnt
  induction cnt with
  | zero => intro level node adr s buffer _; exact ⟨rfl, rfl⟩
  | succ k ih =>
    intro level node adr s buffer h
    have h' : k * 24 + 24 ≤ s.length := by rw [Nat.succ_mul] at h; exact h
    have h24 : 24 ≤ s.length := by omega
    have hk : k * 24 ≤ (s.drop 24).length := by
      rw [List.length_drop]; omega
    simp only [verify_fors_levels, do_H_pfx_left P pk _ s t _ h24,
      do_H_pfx_right P pk _ s t _ h24, drop_append_ge s t 24 h24]
    obtain ⟨i1, i2⟩ := ih (level + 1) (node / 2)
      (set_tree_height (set_tree_index adr (node / 2)) (level + 1)) (s.drop 24)
      (if node % 2 ≠ 0 then
        hashInto (do_H P (HASH_TYPE_SHA256 ||| HASH_LEN_192) pk
          (set_tree_height (set_tree_index adr (node / 2)) (level + 1)) s buffer) buffer 24
      else
        hashInto (do_H P (HASH_TYPE_SHA256 ||| HASH_LEN_192) pk
          (set_tree_height (set_tree_index adr (node / 2)) (level + 1)) buffer s) buffer 24) hk
    refine ⟨i1, ?_⟩
    rw [i2, List.drop_drop]
    congr 1
    ring

theorem verify_fors_trees_pfx (P : Prims) (pk b2 t : List Nat) :
    ∀ (cnt i : Nat) (adr s roots : List Nat), cnt * (17 * 24) ≤ s.length →
      verify_fors_trees P pk b2 cnt i adr (s ++ t) roots
        = ((verify_fors_trees P pk b2 cnt i adr s roots).1,
           (verify_fors_trees P pk b2 cnt i adr s roots).2.1 ++ t,
           (verify_fors_trees P pk b2 cnt i adr s roots).2.2) ∧
      (verify_fors_trees P pk b2 cnt i adr s roots).2.1 = s.drop (cnt * (17 * 24)) := by
  intro cnt
  induction cnt with
  | zero => intro i adr s roots _; exact ⟨rfl, rfl⟩
  | succ k ih =>
    intro i adr s roots h
    have h' : k * (17 * 24) + 17 * 24 ≤ s.length := by rw [Nat.succ_mul] at h; exact h
    have h24 : 24 ≤ s.length := by omega
    have h16 : SPH_A * 24 ≤ (s.drop 24).length := by
      rw [List.length_drop]; simp only [SPH_A]; omega
    simp only [verify_fors_trees, do_F_pfx P pk _ s t h24, drop_append_ge s t 24 h24]
    generalize (b2.getD i 0 + i * 2 ^ SPH_A) % 2 ^ 32 = node
    generalize set_tree_height (set_tree_index adr node) 0 = adr1
    generalize hashInto (do_F P (HASH_TYPE_SHA256 ||| HASH_LEN_192) pk adr1 s)
      (slice roots (4 * (i * 24 / 4)) 24) 24 = buf1
    obtain ⟨l1, l2⟩ := verify_fors_levels_pfx P pk t SPH_A 0 node adr1 (s.drop 24) buf1 h16
    rw [l1]
    generalize verify_fors_levels P pk SPH_A 0 node adr1 (s.drop 24) buf1 = w at l2 ⊢
    have hk : k * (17 * 24) ≤ w.2.1.length := by
      rw [l2, List.length_drop, List.length_drop]
      simp only [SPH_A]; omega
    obtain ⟨i1, i2⟩ := ih (i + 1) w.1 w.2.1 (memcpy roots (4 * (i * 24 / 4)) w.2.2 24) hk
    refine ⟨i1, ?_⟩
    rw [i2, l2, List.drop_drop, List.drop_drop]
    congr 1
    simp only [SPH_A]
    ring

theorem verify_wots_chains_pfx (P : Prims) (pk digits t : List Nat) :
    ∀ (cnt i : Nat) (adr s root : List Nat), cnt * 24 ≤ s.length →
      verify_wots_chains P pk digits cnt i adr (s ++ t) root
        = ((verify_wots_chains P pk digits cnt i adr s root).1,
           (verify_wots_chains P pk digits cnt i adr s root).2.1 ++ t,
           (verify_wots_chains P pk digits cnt i adr s root).2.2) ∧
      (verify_wots_chains P pk digits cnt i adr s root).2.1 = s.drop (cnt * 24) := by
  intro cnt
  induction cnt with
  | zero => intro i adr s root _; exact ⟨rfl, rfl⟩
  | succ k ih =>
    intro i adr s root h
    have h' : k * 24 + 24 ≤ s.length := by rw [Nat.succ_mul] at h; exact h
    have h24 : 24 ≤ s.length := by omega
    have hk : k * 24 ≤ (s.drop 24).length := by
      rw [List.length_drop]; omega
    simp only [verify_wots_chains, bytesN_append_ge s t 24 h24, drop_append_ge s t 24 h24]
    obtain ⟨i1, i2⟩ := ih (i + 1)
      (wots_chain P (HASH_TYPE_SHA256 ||| HASH_LEN_192) pk 24 (15 - digits.getD i 0)
        (digits.getD i 0) (set_chain_address adr i) (bytesN 24 s)).1 (s.drop 24)
      (memcpy root (4 * (i * 24 / 4))
        (wots_chain P (HASH_TYPE_SHA256 ||| HASH_LEN_192) pk 24 (15 - digits.getD i 0)
          (digits.getD i 0) (set_chain_address adr i) (bytesN 24 s)).2 24) hk
    refine ⟨i1, ?_⟩
    rw [i2, List.drop_drop]
    congr 1
    ring

theorem verify_merkle_levels_pfx (P : Prims) (pk t : List Nat) :
    ∀ (cnt i idx_leaf : Nat) (adr s buffer : List Nat), cnt * 24 ≤ s.length →
      verify_merkle_levels P pk cnt i idx_leaf adr (s ++ t) buffer
        = ((verify_merkle_levels P pk cnt i idx_leaf adr s buffer).1,
           (verify_merkle_levels P pk cnt i idx_leaf adr s buffer).2.1 ++ t,
           (verify_merkle_levels P pk cnt i idx_leaf adr s buffer).2.2) ∧
      (verify_merkle_levels P pk cnt i idx_leaf adr s buffer).2.1 = s.drop (cnt * 24) := by
  intro cnt
  induction cnt with
  | zero => intro i idx_leaf adr s buffer _; exact ⟨rfl, rfl⟩
  | succ k ih =>
    intro i idx_leaf adr s buffer h
    have h' : k * 24 + 24 ≤ s.length := by rw [Nat.succ_mul] at h; exact h
    have h24 : 24 ≤ s.length := by omega
    have hk : k * 24 ≤ (s.drop 24).length := by
      rw [List.length_drop]; omega
    simp only [verify_merkle_levels, do_H_pfx_left P pk _ s t _ h24,
      do_H_pfx_right P pk _ s t _ h24, drop_append_ge s t 24 h24]
    obtain ⟨i1, i2⟩ := ih (i + 1) (idx_leaf / 2)
      (set_tree_index (set_tree_height adr (i + 1)) (idx_leaf / 2)) (s.drop 24)
      (if idx_leaf % 2 ≠ 0 then
        hashInto (do_H P (HASH_TYPE_SHA256 ||| HASH_LEN_192) pk
          (set_tree_index (set_tree_height adr (i + 1)) (idx_leaf / 2)) s buffer) buffer 24
      else
        hashInto (do_H P (HASH_TYPE_SHA256 ||| HASH_LEN_192) pk
          (set_tree_index (set_tree_height adr (i + 1)) (idx_leaf / 2)) buffer s) buffer 24) hk
    refine ⟨i1, ?_⟩
    rw [i2, List.drop_drop]
    congr 1
    ring

theorem verify_hypertree_pfx (P : Prims) (pk t : List Nat) :
    ∀ (cnt level idx_tree idx_leaf : Nat) (adr s buffer : List Nat),
      cnt * ((51 + 8) * 24) ≤ s.length →
      verify_hypertree P pk cnt level idx_tree idx_leaf adr (s ++ t) buffer
        = verify_hypertree P pk cnt level idx_tree idx_leaf adr s buffer := by
  intro cnt
  induction cnt with
  | zero => intro level idx_tree idx_leaf adr s buffer _; rfl
  | succ k ih =>
    intro level idx_tree idx_leaf adr s buffer h
    have h' : k * ((51 + 8) * 24) + (51 + 8) * 24 ≤ s.length := by
      rw [Nat.succ_mul] at h; exact h
    have h51 : 51 * 24 ≤ s.length := by omega
    simp only [verify_hypertree]
    generalize (expand_wots_digits 51 buffer 24).2 = digits
    generalize set_key_pair_address (set_type (set_tree_address (set_layer_address adr level)
      idx_tree) WOTS_HASH_ADDRESS) idx_leaf = adr1
    obtain ⟨c1, c2⟩ := verify_wots_chains_pfx P pk digits t 51 0 adr1 s (zeros (51 * 24)) h51
    rw [c1]
    generalize verify_wots_chains P pk digits 51 0 adr1 s (zeros (51 * 24)) = wc at c2 ⊢
    simp only
    generalize set_type (set_key_pair_address (set_type wc.1 WOTS_KEY_COMPRESSION) idx_leaf)
      HASH_TREE_ADDRESS = adr2
    generalize hashInto (do_thash P (HASH_TYPE_SHA256 ||| HASH_LEN_192) pk
      (set_key_pair_address (set_type wc.1 WOTS_KEY_COMPRESSION) idx_leaf) wc.2.2 (24 * 51))
      buffer 24 = buf2
    have h8 : SPH_D * 24 ≤ wc.2.1.length := by
      rw [c2, List.length_drop]; simp only [SPH_D]; omega
    obtain ⟨m1, m2⟩ := verify_merkle_levels_pfx P pk t SPH_D 0 idx_leaf adr2 wc.2.1 buf2 h8
    rw [m1]
    generalize verify_merkle_levels P pk SPH_D 0 idx_leaf adr2 wc.2.1 buf2 = wm at m2 ⊢
    simp only
    apply ih
    rw [m2, c2, List.length_drop, List.length_drop]
    simp only [SPH_D]; omega

theorem verify_ots_tops_pfx (P : Prims) (I : List Nat) (leaf : Nat) (buffer y t : List Nat)
    (w : Nat) :
    ∀ (cnt i : Nat), (i + cnt) * 24 ≤ y.length →
      verify_ots_tops P I leaf buffer (y ++ t) 24 w cnt i
        = verify_ots_tops P I leaf buffer y 24 w cnt i := by
  intro cnt
  induction cnt with
  | zero => intro i _; rfl
  | succ k ih =>
    intro i h
    have h1 : i * 24 + 24 ≤ y.length := by
      have : (i + 1) * 24 ≤ (i + (k + 1)) * 24 := Nat.mul_le_mul_right _ (by omega)
      rw [Nat.succ_mul] at this; omega
    have e : slice (y ++ t) (i * 24) 24 = slice y (i * 24) 24 := by
      simp only [slice]
      rw [drop_append_ge y t _ (by omega), bytesN_append_ge _ _ _ (by rw [List.length_drop]; omega)]
    simp only [verify_ots_tops, e]
    rw [ih (i + 1) (by rw [Nat.add_right_comm]; exact h)]

theorem verify_walk_one (P : Prims) (I : List Nat) (n : Nat) (fuel : Nat) (y buf : List Nat) :
    verify_lms_walk P I n fuel 1 y buf = buf := by
  cases fuel with
  | zero => rfl
  | succ f => simp [verify_lms_walk]

theorem verify_walk_pfx_ge (P : Prims) (I : List Nat) (n : Nat) :
    ∀ (a node : Nat) (p r buf : List Nat), a * n ≤ p.length →
      verify_lms_walk P I n a node (p ++ r) buf = verify_lms_walk P I n a node p buf := by
  intro a
  induction a with
  | zero => intro node p r buf _; rfl
  | succ k ih =>
    intro node p r buf hp
    have hp' : k * n + n ≤ p.length := by rw [Nat.succ_mul] at hp; exact hp
    have hl : n ≤ p.length := by omega
    have e3 : k * n ≤ (p.drop n).length := by
      rw [List.length_drop]; omega
    simp only [verify_lms_walk, intrBlock, bytesN_append_ge p r n hl, drop_append_ge p r n hl]
    rw [ih _ (p.drop n) r _ e3]

theorem verify_walk_32 (P : Prims) (I : List Nat) (leaf : Nat) (y t buf : List Nat)
    (hl : leaf < 2 ^ LMS_H) (hy : 20 * 24 ≤ y.length) :
    verify_lms_walk P I 24 32 ((leaf + 2 ^ LMS_H) % 2 ^ 32) (y ++ t) buf
      = verify_lms_walk P I 24 32 ((leaf + 2 ^ LMS_H) % 2 ^ 32) y buf := by
  have hH : LMS_H = 20 := rfl
  rw [hH] at hl ⊢
  have hm : (leaf + 2 ^ 20) % 2 ^ 32 = leaf + 2 ^ 20 := Nat.mod_eq_of_lt (by norm_num at hl ⊢; omega)
  have hd : (leaf + 2 ^ 20) / 2 ^ 20 = 1 := by norm_num at hl ⊢; omega
  have h32 : 32 = 20 + 12 := rfl
  rw [hm, h32, verify_walk_split P I 24 20 12 _ _ _ (Nat.le_add_left _ _),
    verify_walk_split P I 24 20 12 _ _ _ (Nat.le_add_left _ _), hd, verify_walk_one,
    verify_walk_one, verify_walk_pfx_ge P I 24 20 _ y t buf hy]

theorem verify_lms_root_pfx (P : Prims) (message I a b t : List Nat) (w p ls leaf : Nat)
    (hl : leaf < 2 ^ LMS_H) (ha : 12 + 24 + p * 24 ≤ a.length) (hb : 4 + 20 * 24 ≤ b.length) :
    verify_lms_root P message I (a ++ t) (b ++ t) 24 w p ls leaf
      = verify_lms_root P message I a b 24 w p ls leaf := by
  have e1 : slice (a ++ t) 12 24 = slice a 12 24 := by
    simp only [slice]
    rw [drop_append_ge a t _ (by omega), bytesN_append_ge _ _ _ (by rw [List.length_drop]; omega)]
  have e2 : (a ++ t).drop (12 + 24) = a.drop (12 + 24) ++ t := drop_append_ge a t _ (by omega)
  have e3 : (b ++ t).drop 4 = b.drop 4 ++ t := drop_append_ge b t _ (by omega)
  have e4 : ∀ buffer, verify_ots_tops P I leaf buffer (a.drop (12 + 24) ++ t) 24 w p 0
      = verify_ots_tops P I leaf buffer (a.drop (12 + 24)) 24 w p 0 := fun buffer =>
    verify_ots_tops_pfx P I leaf buffer _ t w p 0
      (by rw [List.length_drop, Nat.zero_add]; omega)
  have e5 : ∀ buf, verify_lms_walk P I 24 32 ((leaf + 2 ^ LMS_H) % 2 ^ 32) (b.drop 4 ++ t) buf
      = verify_lms_walk P I 24 32 ((leaf + 2 ^ LMS_H) % 2 ^ 32) (b.drop 4) buf := fun buf =>
    verify_walk_32 P I leaf _ t buf hl (by rw [List.length_drop]; omega)
  simp only [verify_lms_root, verify_lms_leaf, e1, e2, e3, e4, e5]

theorem digest_index_pfx (P : Prims) (r t seed root msg : List Nat) (k a h d : Nat)
    (hr : 24 ≤ r.length) :
    do_compute_digest_index P 24 (r ++ t) seed root msg k a h d
      = do_compute_digest_index P 24 r seed root msg k a h d := by
  simp only [do_compute_digest_index, bytesN_append_ge r t 24 hr]

theorem verify_sphincs_pfx (P : Prims) (buffer s c t pk : List Nat)
    (hs : 17064 ≤ s.length) (hc : 52 ≤ c.length) :
    verify_sphincs P buffer (s ++ t) (c ++ t) pk = verify_sphincs P buffer s c pk := by
  have e1 := fun seed root msg k a h d =>
    digest_index_pfx P s t seed root msg k a h d (by omega)
  have e2 : bytesN LEN_LMS_PUBLIC_KEY (c ++ t) = bytesN LEN_LMS_PUBLIC_KEY c :=
    bytesN_append_ge c t _ (by simp only [LEN_LMS_PUBLIC_KEY]; omega)
  have e3 : (s ++ t).drop 24 = s.drop 24 ++ t := drop_append_ge s t _ (by omega)
  simp only [verify_sphincs, e1, e2, e3]
  generalize SHA256_set_first_block (pk.drop 4) 24 = pre
  generalize do_compute_digest_index P 24 s (pk.drop 4) (pk.drop (4 + 24))
    (bytesN LEN_LMS_PUBLIC_KEY c) SPH_K SPH_A SPH_H SPH_D = dg
  generalize set_key_pair_address (set_type (set_tree_address (set_layer_address
    (zeros LEN_ADR) 0) dg.2.1) FORS_TREE_ADDRESS) dg.2.2 = adr1
  obtain ⟨f1, f2⟩ := verify_fors_trees_pfx P pre dg.1 t SPH_K 0 adr1 (s.drop 24)
    (zeros (SPH_K * 24)) (by rw [List.length_drop]; simp only [SPH_K]; omega)
  rw [f1]
  generalize verify_fors_trees P pre dg.1 SPH_K 0 adr1 (s.drop 24) (zeros (SPH_K * 24)) = wf
    at f2 ⊢
  simp only
  rw [verify_hypertree_pfx P pre t SPH_D 0 dg.2.1 dg.2.2 (zeros LEN_ADR) wf.2.1 _
    (by rw [f2, List.length_drop, List.length_drop]; simp only [SPH_K, SPH_D]; omega)]

theorem get_bigendian_drop_append (a t : List Nat) (j : Nat) (h : j + 4 ≤ a.length) :
    get_bigendian ((a ++ t).drop j) 4 = get_bigendian (a.drop j) 4 := by
  simp only [get_bigendian]
  rw [drop_append_ge a t j (by omega), bytesN_append_ge _ _ _ (by rw [List.length_drop]; omega)]

theorem verify_off_end_ge (s : List Nat) :
    18860 ≤ verify_off_end s ∧
    (get_bigendian (s.drop (0 + 17064 + 8)) 4 = LM_OTS_W4_PARAM_ID → verify_off_end s = 18860) ∧
    (get_bigendian (s.drop (0 + 17064 + 8)) 4 ≠ LM_OTS_W4_PARAM_ID → verify_off_end s = 20060)
    := by
  simp only [verify_off_end, LM_OTS_W4_P, LM_OTS_W2_P, LMS_H]
  refine ⟨by split <;> omega, ?_, ?_⟩
  · intro h; rw [if_pos h]
  · intro h; rw [if_neg h]

theorem sh_verify_pfx (P : Prims) (message pre t pk : List Nat)
    (h : verify_off_end pre ≤ pre.length) :
    sh_verify P message (pre ++ t) pk = sh_verify P message pre pk := by
  obtain ⟨v1, v2, v3⟩ := verify_off_end_ge pre
  have hL : 18860 ≤ pre.length := by omega
  have hp := get_bigendian_drop_append pre t (0 + 17064 + 8) (by omega)
  have l1 : ¬ (pre ++ t).length < 0 + 17064 + 12 := by
    rw [List.length_append]; omega
  have l2 : ¬ pre.length < 0 + 17064 + 12 := by omega
  have d0 : List.drop 0 (pre ++ t) = List.drop 0 pre ++ t := rfl
  have d1 : List.drop (0 + 17064) (pre ++ t) = List.drop (0 + 17064) pre ++ t :=
    drop_append_ge _ _ _ (by omega)
  have d2 : List.drop (0 + 17064 + 52) (pre ++ t) = List.drop (0 + 17064 + 52) pre ++ t :=
    drop_append_ge _ _ _ (by omega)
  have n1 : ((pre.drop (0 + 17064))).length = pre.length - 17064 := by
    rw [List.length_drop]
  have n2 : ((pre.drop (0 + 17064 + 52))).length = pre.length - 17116 := by
    rw [List.length_drop]
  have g1 := get_bigendian_drop_append (pre.drop (0 + 17064 + 52)) t 0 (by omega)
  have g2 := get_bigendian_drop_append (pre.drop (0 + 17064 + 52)) t 8 (by omega)
  have g3 := get_bigendian_drop_append (pre.drop (0 + 17064 + 52)) t 4 (by omega)
  have g4 := get_bigendian_drop_append (pre.drop (0 + 17064)) t 0 (by omega)
  have g5 := get_bigendian_drop_append (pre.drop (0 + 17064)) t 4 (by omega)
  have s1 : slice (List.drop (0 + 17064) pre ++ t) 12 I_LEN
      = slice (List.drop (0 + 17064) pre) 12 I_LEN := by
    simp only [slice, I_LEN]
    rw [drop_append_ge _ t _ (by omega), bytesN_append_ge _ _ _ (by rw [List.length_drop]; omega)]
  have m1 : ∀ b, memeq b (List.drop 28 (List.drop (0 + 17064) pre ++ t)) 24
      = memeq b (List.drop 28 (List.drop (0 + 17064) pre)) 24 := by
    intro b
    simp only [memeq]
    rw [drop_append_ge _ t _ (by omega), bytesN_append_ge _ _ _ (by rw [List.length_drop]; omega)]
  have vs : ∀ b, verify_sphincs P b (List.drop 0 pre ++ t) (List.drop (0 + 17064) pre ++ t) pk
      = verify_sphincs P b (List.drop 0 pre) (List.drop (0 + 17064) pre) pk := fun b =>
    verify_sphincs_pfx P b _ _ t pk (by rw [List.drop_zero]; omega) (by omega)
  simp only [sh_verify, hp, l1, l2, if_false, d0, d1, d2, g1, g2, g3, g4, g5, s1, m1, vs]
  by_cases hW4 : get_bigendian (List.drop (0 + 17064 + 8) pre) 4 = LM_OTS_W4_PARAM_ID
  · have hoff := v2 hW4
    have d3 : List.drop (0 + 17064 + 52 + 12 + 24 * (1 + LM_OTS_W4_P)) (pre ++ t)
        = List.drop (0 + 17064 + 52 + 12 + 24 * (1 + LM_OTS_W4_P)) pre ++ t :=
      drop_append_ge _ _ _ (by simp only [LM_OTS_W4_P]; omega)
    have n3 : (pre.drop (0 + 17064 + 52 + 12 + 24 * (1 + LM_OTS_W4_P))).length
        = pre.length - 18376 := by
      rw [List.length_drop]; simp only [LM_OTS_W4_P]
    have g6 := get_bigendian_drop_append
      (pre.drop (0 + 17064 + 52 + 12 + 24 * (1 + LM_OTS_W4_P))) t 0 (by omega)
    have l3 : ¬ (pre ++ t).length
        < 0 + 17064 + 52 + 12 + 24 * (1 + LM_OTS_W4_P) + 4 + 24 * LMS_H := by
      rw [List.length_append]; simp only [LM_OTS_W4_P, LMS_H]; omega
    have l4 : ¬ pre.length < 0 + 17064 + 52 + 12 + 24 * (1 + LM_OTS_W4_P) + 4 + 24 * LMS_H := by
      simp only [LM_OTS_W4_P, LMS_H]; omega
    simp only [hW4, if_true, l3, l4, if_false, d3, g6]
    by_cases hleaf : get_bigendian (List.drop 4 (List.drop (0 + 17064 + 52) pre)) 4 % 2 ^ 32
        ≥ 2 ^ LMS_H
    · simp only [hleaf, if_true, ite_self]
    · have vl := verify_lms_root_pfx P message
        (slice (List.drop (0 + 17064) pre) 12 I_LEN) (List.drop (0 + 17064 + 52) pre)
        (List.drop (0 + 17064 + 52 + 12 + 24 * (1 + LM_OTS_W4_P)) pre) t LM_OTS_W4_W
        LM_OTS_W4_P LM_OTS_W4_LS _ (Nat.lt_of_not_ge hleaf)
        (by rw [n2]; simp only [LM_OTS_W4_P]; omega) (by rw [n3]; omega)
      simp only [vl]
  · have hoff := v3 hW4
    have d3 : List.drop (0 + 17064 + 52 + 12 + 24 * (1 + LM_OTS_W2_P)) (pre ++ t)
        = List.drop (0 + 17064 + 52 + 12 + 24 * (1 + LM_OTS_W2_P)) pre ++ t :=
      drop_append_ge _ _ _ (by simp only [LM_OTS_W2_P]; omega)
    have n3 : (pre.drop (0 + 17064 + 52 + 12 + 24 * (1 + LM_OTS_W2_P))).length
        = pre.length - 19576 := by
      rw [List.length_drop]; simp only [LM_OTS_W2_P]
    have g6 := get_bigendian_drop_append
      (pre.drop (0 + 17064 + 52 + 12 + 24 * (1 + LM_OTS_W2_P))) t 0 (by omega)
    have l3 : ¬ (pre ++ t).length
        < 0 + 17064 + 52 + 12 + 24 * (1 + LM_OTS_W2_P) + 4 + 24 * LMS_H := by
      rw [List.length_append]; simp only [LM_OTS_W2_P, LMS_H]; omega
    have l4 : ¬ pre.length < 0 + 17064 + 52 + 12 + 24 * (1 + LM_OTS_W2_P) + 4 + 24 * LMS_H := by
      simp only [LM_OTS_W2_P, LMS_H]; omega
    simp only [hW4, if_false, l3, l4, d3, g6]
    by_cases hleaf : get_bigendian (List.drop 4 (List.drop (0 + 17064 + 52) pre)) 4 % 2 ^ 32
        ≥ 2 ^ LMS_H
    · simp only [hleaf, if_true, ite_self]
    · have vl := verify_lms_root_pfx P message
        (slice (List.drop (0 + 17064) pre) 12 I_LEN) (List.drop (0 + 17064 + 52) pre)
        (List.drop (0 + 17064 + 52 + 12 + 24 * (1 + LM_OTS_W2_P)) pre) t LM_OTS_W2_W
        LM_OTS_W2_P LM_OTS_W2_LS _ (Nat.lt_of_not_ge hleaf)
        (by rw [n2]; simp only [LM_OTS_W2_P]; omega) (by rw [n3]; omega)
      simp only [vl]
theorem bytesN_getD (n : Nat) (l : List Nat) (i : Nat) (h : i < n) :
    (bytesN n l).getD i 0 = l.getD i 0 := by
  simp only [bytesN, List.getD_eq_getElem?_getD, List.getElem?_take, h, if_true]
  by_cases hi : i < l.length
  · rw [List.getElem?_append_left hi]
  · rw [List.getElem?_append_right (by omega), List.getElem?_eq_none (l := l) (by omega)]
    simp [List.getElem?_replicate]
    split <;> rfl

theorem bytesN_take_le (l : List Nat) (n m : Nat) (h : n ≤ m) :
    (bytesN m l).take n = bytesN n l := by
  apply ext_getD
  · simp [h]
  · intro i hi
    have hi' : i < n := by simpa [h] using hi
    rw [bytesN_getD n l i hi', List.getD_eq_getElem?_getD, List.getElem?_take, if_pos hi',
      ← List.getD_eq_getElem?_getD, bytesN_getD m l i (by omega)]

theorem bytesN_drop_le (l : List Nat) (n m : Nat) (h : n ≤ m) :
    (bytesN m l).drop n = bytesN (m - n) (l.drop n) := by
  apply ext_getD
  · simp
  · intro i hi
    have hi' : i < m - n := by simpa using hi
    rw [bytesN_getD (m - n) _ i hi', List.getD_eq_getElem?_getD, List.getElem?_drop,
      ← List.getD_eq_getElem?_getD, bytesN_getD m l (n + i) (by omega),
      List.getD_eq_getElem?_getD, List.getD_eq_getElem?_getD, List.getElem?_drop]
theorem sh_verify_pk48 (P : Prims) (message signature pk pk' : List Nat)
    (h : slice pk 4 48 = slice pk' 4 48) :
    sh_verify P message signature pk = sh_verify P message signature pk' := by
  simp only [slice] at h
  apply sh_verify_pk
  · simp only [slice]
    rw [← bytesN_take_le (pk.drop 4) 24 48 (by omega),
      ← bytesN_take_le (pk'.drop 4) 24 48 (by omega), h]
  · have e : ∀ l : List Nat, slice l 28 24 = (bytesN 48 (l.drop 4)).drop 24 := by
      intro l
      rw [bytesN_drop_le _ 24 48 (by omega), List.drop_drop]
      rfl
    rw [e pk, e pk', h]

theorem verify_off_end_congr (a b : List Nat)
    (h : get_bigendian (a.drop (17064 + 8)) 4 = get_bigendian (b.drop (17064 + 8)) 4) :
    verify_off_end a = verify_off_end b := by
  simp only [verify_off_end, h]

theorem sh_verify_take (P : Prims) (message sig pk : List Nat)
    (h : verify_off_end sig ≤ sig.length) :
    sh_verify P message sig pk = sh_verify P message (sig.take (verify_off_end sig)) pk := by
  obtain ⟨v1, _, _⟩ := verify_off_end_ge sig
  have hlen : (sig.take (verify_off_end sig)).length = verify_off_end sig := by
    rw [List.length_take]; omega
  have hsplit : sig = sig.take (verify_off_end sig) ++ sig.drop (verify_off_end sig) :=
    (List.take_append_drop _ _).symm
  have hpar : get_bigendian ((sig.take (verify_off_end sig)).drop (17064 + 8)) 4
      = get_bigendian (sig.drop (17064 + 8)) 4 := by
    have := get_bigendian_drop_append (sig.take (verify_off_end sig))
      (sig.drop (verify_off_end sig)) (17064 + 8) (by omega)
    rw [← hsplit] at this
    exact this.symm
  have hoff : verify_off_end (sig.take (verify_off_end sig)) = verify_off_end sig :=
    verify_off_end_congr _ _ hpar
  have := sh_verify_pfx P message (sig.take (verify_off_end sig))
    (sig.drop (verify_off_end sig)) pk (by rw [hoff, hlen])
  rw [← hsplit] at this
  exact this

/-- C38: the result of `sh_verify` depends only on the message, on
`signature[0 .. off_end)` with `off_end = 17064 + 52 + 12 + 24*(1+p) + 4 + 480`
and on `public_key[4 .. 52)`: two public keys that agree on bytes 4..51, and
two signatures of at least `off_end` bytes that agree on their first `off_end`
bytes, give the same result; in particular replacing the tag
`public_key[0..4)` or appending bytes to the signature changes nothing. -/
theorem sh_verify_ignored_inputs (P : Prims) (message sig sig' pk pk' : List Nat) :
    (slice pk 4 48 = slice pk' 4 48 →
      sh_verify P message sig pk = sh_verify P message sig pk') ∧
    (∀ tag tag' rest : List Nat, tag.length = 4 → tag'.length = 4 →
      sh_verify P message sig (tag ++ rest) = sh_verify P message sig (tag' ++ rest)) ∧
    (verify_off_end sig ≤ sig.length → verify_off_end sig ≤ sig'.length →
      sig.take (verify_off_end sig) = sig'.take (verify_off_end sig) →
      sh_verify P message sig pk = sh_verify P message sig' pk) ∧
    (∀ t : List Nat, verify_off_end sig ≤ sig.length →
      sh_verify P message (sig ++ t) pk = sh_verify P message sig pk) ∧
    (verify_off_end sig = 17064 + 52 + 12 + 24 * (1 + 51) + 4 + 480 ∨
      verify_off_end sig = 17064 + 52 + 12 + 24 * (1 + 101) + 4 + 480) := by
  refine ⟨sh_verify_pk48 P message sig pk pk', ?_, ?_, ?_, ?_⟩
  · intro tag tag' rest h1 h2
    apply sh_verify_pk48
    simp only [slice]
    rw [List.drop_left' h1, List.drop_left' h2]
  · intro h1 h2 h3
    obtain ⟨v1, _, _⟩ := verify_off_end_ge sig
    have hpar : get_bigendian (sig'.drop (17064 + 8)) 4 = get_bigendian (sig.drop (17064 + 8)) 4
        := by
      have a1 := get_bigendian_drop_append (sig.take (verify_off_end sig))
        (sig.drop (verify_off_end sig)) (17064 + 8) (by rw [List.length_take]; omega)
      have a2 := get_bigendian_drop_append (sig'.take (verify_off_end sig))
        (sig'.drop (verify_off_end sig)) (17064 + 8) (by rw [List.length_take]; omega)
      rw [List.take_append_drop] at a1 a2
      rw [a1, a2, h3]
    have hoff : verify_off_end sig' = verify_off_end sig := verify_off_end_congr _ _ hpar
    rw [sh_verify_take P message sig pk h1, sh_verify_take P message sig' pk (by rw [hoff]; exact h2),
      hoff, h3]
  · intro t h
    exact sh_verify_pfx P message sig t pk h
  · by_cases hW : get_bigendian (sig.drop (17064 + 8)) 4 = LM_OTS_W4_PARAM_ID
    · left; simp only [verify_off_end, hW, if_true, LM_OTS_W4_P, LMS_H]
    · right; simp only [verify_off_end, hW, if_false, LM_OTS_W2_P, LMS_H]

/-- Witness for `sh_verify_ignored_inputs`: the all-zero public key and the
same key with the tag 01 18 00 05. -/
theorem sh_verify_ignored_inputs_witness :
    sh_verify zero_prims [] [] (zeros 52)
      = sh_verify zero_prims [] [] ([1, 24, 0, 5] ++ zeros 48) :=
  (sh_verify_ignored_inputs zero_prims [] [] [] (zeros 52) ([1, 24, 0, 5] ++ zeros 48)).1
    (by decide)

theorem get_bigendian_lt4 (l : List Nat) : get_bigendian l 4 < 2 ^ 32 := by
  simp only [get_bigendian]
  have := be_fold_lt (bytesN 4 l) (by simp)
  simpa using this

theorem sh_verify_accept (P : Prims) (message signature pk : List Nat)
    (h : sh_verify P message signature pk = true) : well_framed signature := by
  simp only [sh_verify] at h
  have hm : get_bigendian (signature.drop (17064 + 52 + 4)) 4 % 2 ^ 32
      = get_bigendian (signature.drop (17064 + 52 + 4)) 4 :=
    Nat.mod_eq_of_lt (get_bigendian_lt4 _)
  have e : 4 + (17064 + 52) = 17064 + 52 + 4 := by norm_num
  split_ifs at h with c1 c2 c3 c4 c5 c6 c7 c8 c9 c10 c11
  · simp only [List.drop_drop, Nat.zero_add, Nat.add_zero, not_or, not_not, ne_eq, not_and,
      LM_OTS_W4_P, LMS_H] at c1 c2 c3 c4 c5 c6
    have hoff : verify_off_end signature = 18860 := by
      simp only [verify_off_end, c3, if_true, LM_OTS_W4_P, LMS_H]
    refine ⟨by omega, Or.inl c3, by omega, c5.1.symm, ?_, ?_, c5.2.2.2.1.symm, ?_, ?_⟩
    · rw [c3]; exact c5.2.1.symm
    · rw [hoff]; exact c5.2.2.1.symm
    · exact c5.2.2.2.2.symm
    · have := Nat.lt_of_not_ge c6
      rw [e, hm] at this
      exact this
  · simp only [List.drop_drop, Nat.zero_add, Nat.add_zero, not_or, not_not, ne_eq, not_and,
      LM_OTS_W2_P, LMS_H] at c1 c2 c3 c8 c9 c10
    have hoff : verify_off_end signature = 20060 := by
      simp only [verify_off_end, c3, if_false, LM_OTS_W2_P, LMS_H]
    have c2' : get_bigendian (signature.drop (17064 + 8)) 4 = LM_OTS_W2_PARAM_ID := c2 c3
    refine ⟨by omega, Or.inr c2', by omega, c9.1.symm, ?_, ?_, c9.2.2.2.1.symm, ?_, ?_⟩
    · rw [c2']; exact c9.2.1.symm
    · rw [hoff]; exact c9.2.2.1.symm
    · exact c9.2.2.2.2.symm
    · have := Nat.lt_of_not_ge c10
      rw [e, hm] at this
      exact this

theorem xor_bit_mod (x k : Nat) (hk : k < 8) : (x ^^^ 2 ^ k) % 2 ^ 8 ≠ x % 2 ^ 8 := by
  intro h
  have := congrArg (fun y => y.testBit k) h
  simp only [Nat.testBit_mod_two_pow, hk, decide_True, Bool.true_and, Nat.testBit_xor,
    Nat.testBit_two_pow_self] at this
  cases hx : x.testBit k <;> simp [hx] at this

theorem get_bigendian_cons4 (a b c d : Nat) (rest : List Nat) :
    get_bigendian (a :: b :: c :: d :: rest) 4
      = ((a % 256 * 256 + b % 256) * 256 + c % 256) * 256 + d % 256 := by
  have e : bytesN 4 (a :: b :: c :: d :: rest) = [a, b, c, d] := rfl
  simp only [get_bigendian, e, List.foldl_cons, List.foldl_nil]
  norm_num
  omega

theorem exists_four (l : List Nat) (h : 4 ≤ l.length) :
    ∃ a b c d rest, l = a :: b :: c :: d :: rest := by
  rcases l with _ | ⟨a, l⟩
  · simp at h
  rcases l with _ | ⟨b, l⟩
  · simp at h
  rcases l with _ | ⟨c, l⟩
  · simp at h
  rcases l with _ | ⟨d, l⟩
  · simp at h
  exact ⟨a, b, c, d, l, rfl⟩

theorem flip_17065 (sig : List Nat) (v : Nat) (hl : 17064 + 12 ≤ sig.length)
    (h1 : get_bigendian (sig.drop 17064) 4 = 1) (hv : v % 256 ≠ sig.getD 17065 0 % 256) :
    get_bigendian ((sig.set 17065 v).drop 17064) 4 ≠ 1 := by
  obtain ⟨pre, post, e, lp, dp⟩ := split_at sig 17064 (by omega)
  obtain ⟨a, b, c, d, rest, e4⟩ := exists_four post (by rw [dp, List.length_drop]; omega)
  have hd : sig.drop 17064 = a :: b :: c :: d :: rest := by rw [← dp, e4]
  have hg : sig.getD 17065 0 = b := by
    rw [e, e4, List.getD_append_right _ _ _ _ (by omega), lp]
    rfl
  have hs : (sig.set 17065 v).drop 17064 = a :: v :: c :: d :: rest := by
    rw [e, e4, List.set_append_right _ _ (by omega), lp, List.drop_left' lp]
    rfl
  rw [hd, get_bigendian_cons4] at h1
  rw [hs, get_bigendian_cons4]
  rw [hg] at hv
  omega

/-- C3: `sh_verify` returns false, whatever the hash primitives, on every
signature that is not well framed: shorter than 17064+12, with an LM-OTS
parameter id other than 0xe0000023 and 0xe0000022, shorter than
17064+52+12+24*(1+p)+4+24*20, with a leaf index of 2^20 or more, or with one
of the five fixed words wrong; in particular flipping any bit of byte 17065
of an accepted signature makes `sh_verify` return false. -/
theorem sh_verify_framing (signature : List Nat) :
    (¬ well_framed signature →
      ∀ (P : Prims) (message pk : List Nat), sh_verify P message signature pk = false) ∧
    (signature.length < 17064 + 12 → ¬ well_framed signature) ∧
    (get_bigendian (signature.drop (17064 + 8)) 4 ≠ 0xe0000023 →
      get_bigendian (signature.drop (17064 + 8)) 4 ≠ 0xe0000022 → ¬ well_framed signature) ∧
    (∀ p, (get_bigendian (signature.drop (17064 + 8)) 4 = 0xe0000023 ∧ p = 51) ∨
        (get_bigendian (signature.drop (17064 + 8)) 4 = 0xe0000022 ∧ p = 101) →
      (signature.length < 17064 + 52 + 12 + 24 * (1 + p) + 4 + 24 * 20 ∨
        get_bigendian (signature.drop (17064 + 52 + 12 + 24 * (1 + p))) 4 ≠ 0xe0000028) →
      ¬ well_framed signature) ∧
    (2 ^ 20 ≤ get_bigendian (signature.drop (17064 + 52 + 4)) 4 → ¬ well_framed signature) ∧
    (get_bigendian (signature.drop 17064) 4 ≠ 1 ∨
      get_bigendian (signature.drop (17064 + 4)) 4 ≠ 0xe0000028 ∨
      get_bigendian (signature.drop (17064 + 52)) 4 ≠ 0 ∨
      get_bigendian (signature.drop (17064 + 52 + 8)) 4
        ≠ get_bigendian (signature.drop (17064 + 8)) 4 → ¬ well_framed signature) ∧
    (∀ (P : Prims) (message pk : List Nat) (k : Nat), k < 8 →
      sh_verify P message signature pk = true →
      sh_verify P message (signature.set 17065 (signature.getD 17065 0 ^^^ 2 ^ k)) pk
        = false) := by
  have hfalse : ∀ s : List Nat, ¬ well_framed s →
      ∀ (P : Prims) (message pk : List Nat), sh_verify P message s pk = false := by
    intro s hw P message pk
    cases hv : sh_verify P message s pk with
    | false => rfl
    | true => exact absurd (sh_verify_accept P message s pk hv) hw
  refine ⟨hfalse signature, ?_, ?_, ?_, ?_, ?_, ?_⟩
  · intro h hw
    have := hw.1
    omega
  · intro h1 h2 hw
    rcases hw.2.1 with h | h
    · exact h1 h
    · exact h2 h
  · intro p hp hbad hw
    obtain ⟨_, _, w3, _, _, w6, _⟩ := hw
    have hoff : verify_off_end signature = 17064 + 52 + 12 + 24 * (1 + p) + 4 + 24 * 20 := by
      rcases hp with ⟨hp1, rfl⟩ | ⟨hp1, rfl⟩
      · have : get_bigendian (signature.drop (17064 + 8)) 4 = LM_OTS_W4_PARAM_ID := hp1
        simp only [verify_off_end, this, if_true, LM_OTS_W4_P, LMS_H]
      · have : ¬ get_bigendian (signature.drop (17064 + 8)) 4 = LM_OTS_W4_PARAM_ID := by
          rw [hp1]; decide
        simp only [verify_off_end, this, if_false, LM_OTS_W2_P, LMS_H]
    rcases hbad with hb | hb
    · omega
    · apply hb
      have e : verify_off_end signature - 4 - 480 = 17064 + 52 + 12 + 24 * (1 + p) := by
        rw [hoff]; omega
      rw [← e]
      exact w6
  · intro h hw
    have := hw.2.2.2.2.2.2.2.2
    omega
  · intro h hw
    obtain ⟨_, _, _, w4, w5, _, w7, w8, _⟩ := hw
    rcases h with h | h | h | h
    · exact h w7
    · exact h w8
    · exact h w4
    · exact h w5
  · intro P message pk k hk hacc
    apply hfalse
    intro hw
    have hwa := sh_verify_accept P message signature pk hacc
    have hx := xor_bit_mod (signature.getD 17065 0) k hk
    have := flip_17065 signature (signature.getD 17065 0 ^^^ 2 ^ k) hwa.1 hwa.2.2.2.2.2.2.1
      (by norm_num at hx ⊢; exact hx)
    exact this hw.2.2.2.2.2.2.1

/-- Witness for `sh_verify_framing`: the empty signature. -/
theorem sh_verify_framing_witness :
    sh_verify zero_prims [] [] (zeros 52) = false :=
  (sh_verify_framing []).1 (fun hw => absurd hw.1 (by decide)) zero_prims [] (zeros 52)

theorem not_framed_false (P : Prims) (message s pk : List Nat) (hw : ¬ well_framed s) :
    sh_verify P message s pk = false := by
  cases hv : sh_verify P message s pk with
  | false => rfl
  | true => exact absurd (sh_verify_accept P message s pk hv) hw

theorem bytesN_bytesN_le (l : List Nat) (n m : Nat) (h : n ≤ m) :
    bytesN n (bytesN m l) = bytesN n l := by
  rw [← bytesN_take_le l n m h]
  simp only [bytesN]
  rw [List.take_append_of_le_length (by simp; omega)]

theorem bytesN_memcpy_zero_le (d src : List Nat) (n m : Nat) (h : n ≤ m) :
    bytesN n (memcpy d 0 src m) = bytesN n src := by
  simp only [memcpy, blit, List.take_zero, List.nil_append]
  rw [bytesN_append_ge _ _ _ (by simp; omega), bytesN_bytesN_le _ _ _ h]

theorem SHA256_zero (m : List Nat) : SHA256 zero_prims m = zeros 32 := by
  simp only [SHA256, zero_prims, List.map_nil]
  rfl

theorem walk_zero_buf (I : List Nat) (n : Nat) :
    ∀ (fuel node : Nat) (y : List Nat),
      verify_lms_walk zero_prims I n fuel node y (zeros 32) = zeros 32 := by
  intro fuel
  induction fuel with
  | zero => intro node y; rfl
  | succ f ih =>
    intro node y
    simp only [verify_lms_walk, SHA256_zero]
    split
    · exact ih _ _
    · rfl

theorem walk_zero (I : List Nat) (n fuel node : Nat) (y buf : List Nat) (h : node > 1) :
    verify_lms_walk zero_prims I n (fuel + 1) node y buf = zeros 32 := by
  simp only [verify_lms_walk, SHA256_zero, h, if_true]
  exact walk_zero_buf I n _ _ _

theorem lms_root_zero (message I a b : List Nat) (n w p ls leaf : Nat) (h : leaf < 2 ^ 20) :
    bytesN 24 (verify_lms_root zero_prims message I a b n w p ls leaf) = zeros 24 := by
  have hn : (leaf + 2 ^ LMS_H) % 2 ^ 32 > 1 := by
    have e : 2 ^ LMS_H = 2 ^ 20 := rfl
    rw [e, Nat.mod_eq_of_lt (by omega)]
    omega
  simp only [verify_lms_root]
  rw [walk_zero I n 31 _ _ _ hn, bytesN_memcpy_zero_le _ _ 24 32 (by omega)]
  rfl

theorem thash_zero (pre adr inp : List Nat) (len : Nat) :
    do_thash zero_prims (HASH_TYPE_SHA256 ||| HASH_LEN_192) pre adr inp len = some (zeros 24) := by
  have h24 : hash_len (HASH_TYPE_SHA256 ||| HASH_LEN_192) = 24 := by decide
  have hty : (HASH_TYPE_SHA256 ||| HASH_LEN_192) / 2 ^ HASH_TYPE_SHIFT
      = HASH_TYPE_SHA256 / 2 ^ HASH_TYPE_SHIFT := by decide
  simp only [do_thash, h24, hty, SHA256_zero, if_true]
  rfl

theorem H_zero (pre adr a b : List Nat) :
    do_H zero_prims (HASH_TYPE_SHA256 ||| HASH_LEN_192) pre adr a b = some (zeros 24) := by
  have h24 : hash_len (HASH_TYPE_SHA256 ||| HASH_LEN_192) = 24 := by decide
  simp only [do_H, h24, thash_zero]
  rfl

theorem merkle_levels_zero (pre : List Nat) :
    ∀ (c i l : Nat) (adr sig : List Nat),
      (verify_merkle_levels zero_prims pre c i l adr sig (zeros 24)).2.2.1 = zeros 24 := by
  intro c
  induction c with
  | zero => intro i l adr sig; rfl
  | succ c ih =>
    intro i l adr sig
    simp only [verify_merkle_levels, H_zero, hashInto, Option.getD_some, ite_self]
    exact ih _ _ _ _

theorem merkle_levels_zero_succ (pre : List Nat) (c i l : Nat) (adr sig buf : List Nat) :
    (verify_merkle_levels zero_prims pre (c + 1) i l adr sig buf).2.2.1 = zeros 24 := by
  simp only [verify_merkle_levels, H_zero, hashInto, Option.getD_some, ite_self]
  exact merkle_levels_zero pre _ _ _ _ _

theorem hypertree_zero_buf (pre : List Nat) :
    ∀ (cnt level t l : Nat) (adr sig : List Nat),
      verify_hypertree zero_prims pre cnt level t l adr sig (zeros 24) = zeros 24 := by
  intro cnt
  induction cnt with
  | zero => intro level t l adr sig; rfl
  | succ c ih =>
    intro level t l adr sig
    have hD : SPH_D = 7 + 1 := rfl
    simp only [verify_hypertree, hD, merkle_levels_zero_succ]
    exact ih _ _ _ _ _

theorem hypertree_zero (pre : List Nat) (cnt level t l : Nat) (adr sig buf : List Nat) :
    verify_hypertree zero_prims pre (cnt + 1) level t l adr sig buf = zeros 24 := by
  have hD : SPH_D = 7 + 1 := rfl
  simp only [verify_hypertree, hD, merkle_levels_zero_succ]
  exact hypertree_zero_buf pre _ _ _ _ _ _

theorem verify_sphincs_zero (buffer sig lm_pk : List Nat) :
    verify_sphincs zero_prims buffer sig lm_pk (zeros 52) = true := by
  have hD : SPH_D = 7 + 1 := rfl
  simp only [verify_sphincs, hD, hypertree_zero]
  decide

theorem get_bigendian_append (a b : List Nat) (h : 4 ≤ a.length) :
    get_bigendian (a ++ b) 4 = get_bigendian a 4 := by
  simp only [get_bigendian, bytesN_append_ge a b 4 h]

theorem drop_add_append (a rest : List Nat) (n k : Nat) (h : a.length = n) :
    (a ++ rest).drop (n + k) = rest.drop k := by
  rw [← List.drop_drop, List.drop_left' h]

theorem zero_signature_parts :
    zero_signature.length = 20060 ∧
    zero_signature.drop 17064
      = [0, 0, 0, 1, 224, 0, 0, 40, 224, 0, 0, 34] ++ (zeros 40 ++ ([0, 0, 0, 0, 0, 0, 0, 0,
          224, 0, 0, 34] ++ (zeros 2448 ++ ([224, 0, 0, 40] ++ zeros 480)))) := by
  have e1 : put_bigendian 1 4 = [0, 0, 0, 1] := by decide
  have e2 : put_bigendian 0 4 = [0, 0, 0, 0] := by decide
  have e3 : put_bigendian 0xe0000028 4 = [224, 0, 0, 40] := by decide
  have e4 : put_bigendian 0xe0000022 4 = [224, 0, 0, 34] := by decide
  have e5 : ∀ r : List Nat, zeros 16 ++ (zeros 24 ++ r) = zeros 40 ++ r := by
    intro r
    rw [← List.append_assoc]
    rfl
  have e6 : zeros (24 * 102) = zeros 2448 := rfl
  have hz : zero_signature = zeros 17064 ++ ([0, 0, 0, 1, 224, 0, 0, 40, 224, 0, 0, 34]
      ++ (zeros 40 ++ ([0, 0, 0, 0, 0, 0, 0, 0, 224, 0, 0, 34]
        ++ (zeros 2448 ++ ([224, 0, 0, 40] ++ zeros 480))))) := by
    simp only [zero_signature, e1, e2, e3, e4, e6, List.append_assoc, List.cons_append,
      List.nil_append]
    rw [e5]
  refine ⟨?_, ?_⟩
  · rw [hz]
    simp only [List.length_append, zeros_length, List.length_cons, List.length_nil]
  · rw [hz]
    exact List.drop_left' (zeros_length _)

theorem zero_signature_words :
    zero_signature.length = 20060 ∧
    get_bigendian (zero_signature.drop 17064) 4 = 1 ∧
    get_bigendian (zero_signature.drop 17068) 4 = 3758096424 ∧
    get_bigendian (zero_signature.drop 17072) 4 = LM_OTS_W2_PARAM_ID ∧
    get_bigendian (zero_signature.drop 17116) 4 = 0 ∧
    get_bigendian (zero_signature.drop 17120) 4 = 0 ∧
    get_bigendian (zero_signature.drop 17124) 4 = LM_OTS_W2_PARAM_ID ∧
    get_bigendian (zero_signature.drop 19576) 4 = 3758096424 ∧
    bytesN 24 (zero_signature.drop 17092) = zeros 24 := by
  obtain ⟨hl, hd⟩ := zero_signature_parts
  have d : ∀ k, zero_signature.drop (17064 + k)
      = ([0, 0, 0, 1, 224, 0, 0, 40, 224, 0, 0, 34] ++ (zeros 40 ++ ([0, 0, 0, 0, 0, 0, 0, 0,
          224, 0, 0, 34] ++ (zeros 2448 ++ ([224, 0, 0, 40] ++ zeros 480))))).drop k := by
    intro k
    rw [← List.drop_drop, hd]
  have d52 : ∀ k, zero_signature.drop (17064 + (52 + k))
      = ([0, 0, 0, 0, 0, 0, 0, 0, 224, 0, 0, 34]
          ++ (zeros 2448 ++ ([224, 0, 0, 40] ++ zeros 480))).drop k := by
    intro k
    rw [d, ← List.append_assoc, drop_add_append _ _ 52 k (by simp)]
  refine ⟨hl, ?_, ?_, ?_, ?_, ?_, ?_, ?_, ?_⟩
  · rw [hd, get_bigendian_append _ _ (by simp)]
    decide
  · rw [show (17068 : Nat) = 17064 + 4 from rfl, d 4]
    show get_bigendian ([224, 0, 0, 40, 224, 0, 0, 34] ++ _) 4 = _
    rw [get_bigendian_append _ _ (by simp)]
    decide
  · rw [show (17072 : Nat) = 17064 + 8 from rfl, d 8]
    show get_bigendian ([224, 0, 0, 34] ++ _) 4 = _
    rw [get_bigendian_append _ _ (by simp)]
    decide
  · rw [show (17116 : Nat) = 17064 + (52 + 0) from rfl, d52 0, List.drop_zero,
      get_bigendian_append _ _ (by simp)]
    decide
  · rw [show (17120 : Nat) = 17064 + (52 + 4) from rfl, d52 4]
    show get_bigendian ([0, 0, 0, 0, 224, 0, 0, 34] ++ _) 4 = _
    rw [get_bigendian_append _ _ (by simp)]
    decide
  · rw [show (17124 : Nat) = 17064 + (52 + 8) from rfl, d52 8]
    show get_bigendian ([224, 0, 0, 34] ++ _) 4 = _
    rw [get_bigendian_append _ _ (by simp)]
    decide
  · rw [show (19576 : Nat) = 17064 + (52 + (12 + 2448)) from rfl, d52 (12 + 2448)]
    rw [drop_add_append _ _ 12 2448 (by simp), List.drop_left' (zeros_length _),
      get_bigendian_append _ _ (by simp)]
    decide
  · rw [show (17092 : Nat) = 17064 + (12 + 16) from rfl, d (12 + 16),
      drop_add_append _ _ 12 16 (by simp), List.drop_append_of_le_length (by simp),
      bytesN_append_ge _ _ _ (by simp)]
    decide

/-- The all-zero signature with its fixed words in place is accepted for the empty
message under the all-zero public key, with primitives whose digests are all
zero: every hash the verifier takes is zero, and so are the two roots it
compares them with. -/
theorem zero_signature_accepted :
    sh_verify zero_prims [] zero_signature (zeros 52) = true := by
  obtain ⟨hl, F0, F4, F8, Q0, Q4, Q8, R0, hroot⟩ := zero_signature_words
  have hne : ¬ (LM_OTS_W4_PARAM_ID = LM_OTS_W2_PARAM_ID) := by decide
  simp only [sh_verify]
  split_ifs with c1 c2 c3 c4 c5 c6 c7 c8 c9 c10 c11
  all_goals first
    | exact verify_sphincs_zero _ _ _
    | omega
    | exact c2.2 F8
    | exact absurd (c3.symm.trans F8) hne
    | (simp only [LM_OTS_W2_P, LMS_H] at c8; omega)
    | (simp only [List.drop_drop, List.drop_zero, Nat.zero_add, Nat.reduceAdd, Nat.reduceMul,
        LM_OTS_W2_P, F0, F4, Q0, Q8, R0, ne_eq, not_true_eq_false, or_self] at c9
       done)
    | (simp only [List.drop_drop, List.drop_zero, Nat.zero_add, Nat.reduceAdd, Q4, LMS_H] at c10
       omega)
    | (apply c11
       simp only [memeq, decide_eq_true_eq]
       simp only [List.drop_drop, Nat.zero_add, Nat.reduceAdd, Q4, hroot]
       rw [lms_root_zero _ _ _ _ _ _ _ _ _ (by norm_num)])

theorem byte_mask (c : Nat) : (c % 256) &&& (2 ^ 8 - 1) = c % 256 := by
  rw [Nat.and_pow_two_sub_one_eq_mod]
  norm_num

theorem bit_loop_step (reverse : Bool) (fuel c : Nat) (rest : List Nat) (L : Int)
    (num_bit r cb : Nat) (h : 8 ≤ num_bit) :
    do_bit_extract_loop reverse (fuel + 1) { p := c :: rest, len := L, bit_pos := 8 }
        num_bit r cb
      = do_bit_extract_loop reverse fuel { p := rest, len := L - 1, bit_pos := 8 }
          (num_bit - 8)
          (if reverse then (r + c % 256 * 2 ^ cb) % 2 ^ 64
           else (r + c % 256 * 2 ^ (num_bit - 8)) % 2 ^ 64)
          (cb + 8) := by
  have h' : num_bit ≥ 8 := h
  simp only [do_bit_extract_loop, h', if_true, List.headD_cons, List.tail_cons, byte_mask]

theorem bit_loop_stop (reverse : Bool) (fuel : Nat) (p : List Nat) (L : Int)
    (num_bit r cb : Nat) (h : num_bit < 8) :
    do_bit_extract_loop reverse fuel { p := p, len := L, bit_pos := 8 } num_bit r cb
      = ({ p := p, len := L, bit_pos := 8 }, num_bit, r, cb) := by
  have h' : ¬ num_bit ≥ 8 := by omega
  cases fuel with
  | zero => rfl
  | succ f => simp only [do_bit_extract_loop, h', if_false]

theorem extract16 (x y : Nat) (rest : List Nat) (L : Int) :
    do_bit_extract { p := x :: y :: rest, len := L, bit_pos := 8 } 16 true
      = ({ p := rest, len := L - 1 - 1, bit_pos := 8 }, x % 256 + 256 * (y % 256)) := by
  have hx : x % 256 < 256 := Nat.mod_lt _ (by norm_num)
  have hy : y % 256 < 256 := Nat.mod_lt _ (by norm_num)
  simp only [do_bit_extract]
  rw [bit_loop_step true 16 _ _ _ 16 0 0 (by decide),
    bit_loop_step true 15 _ _ _ _ _ _ (by decide),
    bit_loop_stop true _ _ _ _ _ _ (by decide)]
  simp only [List.headD_cons, List.tail_cons, byte_mask, if_true, Nat.sub_self, gt_iff_lt,
    Nat.lt_irrefl, if_false, Nat.zero_add, Nat.pow_zero, Nat.mul_one]
  refine Prod.ext rfl ?_
  show ((x % 256) % 2 ^ 64 + y % 256 * 2 ^ 8) % 2 ^ 64 = _
  norm_num
  omega

theorem extract8 (x : Nat) (rest : List Nat) (L : Int) :
    do_bit_extract { p := x :: rest, len := L, bit_pos := 8 } 8 false
      = ({ p := rest, len := L - 1, bit_pos := 8 }, x % 256) := by
  have hx : x % 256 < 256 := Nat.mod_lt _ (by norm_num)
  simp only [do_bit_extract]
  rw [bit_loop_step false 8 _ _ _ 8 0 0 (by decide),
    bit_loop_stop false _ _ _ _ _ _ (by decide)]
  simp only [List.headD_cons, List.tail_cons, byte_mask, Nat.sub_self, gt_iff_lt,
    Nat.lt_irrefl, if_false, Nat.zero_add, Nat.pow_zero, Nat.mul_one, Bool.false_eq_true]
  refine Prod.ext rfl ?_
  show (x % 256) % 2 ^ 64 = _
  norm_num
  omega

theorem extract56 (b0 b1 b2 b3 b4 b5 b6 : Nat) (rest : List Nat) (L : Int) :
    do_bit_extract ⟨b0 :: b1 :: b2 :: b3 :: b4 :: b5 :: b6 :: rest, L, 8⟩ 56 false
      = ({ p := rest, len := L - 1 - 1 - 1 - 1 - 1 - 1 - 1, bit_pos := 8 },
         get_bigendian [b0, b1, b2, b3, b4, b5, b6] 7) := by
  have h0 : b0 % 256 < 256 := Nat.mod_lt _ (by norm_num)
  have h1 : b1 % 256 < 256 := Nat.mod_lt _ (by norm_num)
  have h2 : b2 % 256 < 256 := Nat.mod_lt _ (by norm_num)
  have h3 : b3 % 256 < 256 := Nat.mod_lt _ (by norm_num)
  have h4 : b4 % 256 < 256 := Nat.mod_lt _ (by norm_num)
  have h5 : b5 % 256 < 256 := Nat.mod_lt _ (by norm_num)
  have h6 : b6 % 256 < 256 := Nat.mod_lt _ (by norm_num)
  simp only [do_bit_extract]
  rw [bit_loop_step false 56 _ _ _ 56 0 0 (by decide),
    bit_loop_step false 55 _ _ _ _ _ _ (by decide),
    bit_loop_step false 54 _ _ _ _ _ _ (by decide),
    bit_loop_step false 53 _ _ _ _ _ _ (by decide),
    bit_loop_step false 52 _ _ _ _ _ _ (by decide),
    bit_loop_step false 51 _ _ _ _ _ _ (by decide),
    bit_loop_step false 50 _ _ _ _ _ _ (by decide),
    bit_loop_stop false _ _ _ _ _ _ (by decide)]
  simp only [List.headD_cons, List.tail_cons, byte_mask, gt_iff_lt,
    Nat.lt_irrefl, if_false, Nat.zero_add, Bool.false_eq_true, Nat.reduceSub, Nat.sub_self]
  refine Prod.ext rfl ?_
  have e : bytesN 7 [b0, b1, b2, b3, b4, b5, b6] = [b0, b1, b2, b3, b4, b5, b6] := rfl
  simp only [get_bigendian, e, List.foldl_cons, List.foldl_nil]
  generalize b0 % 256 = c0 at *
  generalize b1 % 256 = c1 at *
  generalize b2 % 256 = c2 at *
  generalize b3 % 256 = c3 at *
  generalize b4 % 256 = c4 at *
  generalize b5 % 256 = c5 at *
  generalize b6 % 256 = c6 at *
  norm_num
  omega
theorem md_loop_spec : ∀ (k : Nat) (p : List Nat) (L : Int) (md : List Nat),
    2 * k ≤ p.length →
    ∃ L' : Int, md_loop 16 k ⟨p, L, 8⟩ md
      = (⟨p.drop (2 * k), L', 8⟩,
         md ++ (List.range k).map
           (fun i => p.getD (2 * i) 0 % 256 + 256 * (p.getD (2 * i + 1) 0 % 256))) := by
  intro k
  induction k with
  | zero => intro p L md _; exact ⟨L, by simp [md_loop]⟩
  | succ k ih =>
    intro p L md h
    rcases p with _ | ⟨x, p⟩
    · simp at h
    rcases p with _ | ⟨y, rest⟩
    · simp at h; omega
    obtain ⟨L', e⟩ := ih rest (L - 1 - 1) (md ++ [(x % 256 + 256 * (y % 256)) % 2 ^ 32])
      (by simp at h; omega)
    refine ⟨L', ?_⟩
    simp only [md_loop, extract16, e]
    have hx : x % 256 < 256 := Nat.mod_lt _ (by norm_num)
    have hy : y % 256 < 256 := Nat.mod_lt _ (by norm_num)
    have hm : (x % 256 + 256 * (y % 256)) % 2 ^ 32 = x % 256 + 256 * (y % 256) :=
      Nat.mod_eq_of_lt (by norm_num; omega)
    have e2 : 2 * (k + 1) = 2 * k + 1 + 1 := by ring
    rw [hm, List.range_succ_eq_map, List.map_cons, List.map_map, e2]
    simp only [List.drop_succ_cons, List.append_assoc, List.singleton_append, Nat.mul_zero,
      List.getD_cons_zero, Nat.zero_add, List.getD_cons_succ]
    congr 3

theorem exists_eight (l : List Nat) (h : 8 ≤ l.length) :
    ∃ b0 b1 b2 b3 b4 b5 b6 b7 rest, l = b0 :: b1 :: b2 :: b3 :: b4 :: b5 :: b6 :: b7 :: rest := by
  obtain ⟨b0, b1, b2, b3, r1, e1⟩ := exists_four l (by omega)
  obtain ⟨b4, b5, b6, b7, r2, e2⟩ := exists_four r1 (by rw [e1] at h; simp at h; omega)
  exact ⟨b0, b1, b2, b3, b4, b5, b6, b7, r2, by rw [e1, e2]⟩

theorem mgf1_36 (P : Prims) (hash : List Nat) :
    mgf1_loop P hash 36 2 0 (zeros 67)
      = SHA256 P (bytesN 32 hash ++ [0, 0, 0, 0]) ++ SHA256 P (bytesN 32 hash ++ [0, 0, 0, 1])
          ++ zeros 3 := by
  have h0 : 32 * 0 < 36 := by norm_num
  have h1 : 32 * (0 + 1) < 36 := by norm_num
  simp only [mgf1_loop, h0, h1, if_true]
  have z1 : zeros 67 = [] ++ zeros 32 ++ zeros 35 := by decide
  have k1 := memcpy_mid [] (zeros 32) (zeros 35) (SHA256 P (bytesN 32 hash ++ [0, 0, 0, 0 % 256]))
    32 0 rfl (zeros_length 32)
  rw [← z1, bytesN_of_length (SHA256_length _ _), List.nil_append] at k1
  have z2 : zeros 35 = zeros 32 ++ zeros 3 := by decide
  have k2 := memcpy_mid (SHA256 P (bytesN 32 hash ++ [0, 0, 0, 0 % 256])) (zeros 32) (zeros 3)
    (SHA256 P (bytesN 32 hash ++ [0, 0, 0, (0 + 1) % 256])) 32 32 (SHA256_length _ _)
    (zeros_length 32)
  rw [bytesN_of_length (SHA256_length _ _), List.append_assoc _ (zeros 32), ← z2] at k2
  have e : 32 * 0 = 0 := rfl
  have e' : 32 * (0 + 1) = 32 := rfl
  rw [e, e', k1, k2]

theorem SHA256_lt (P : Prims) (m : List Nat) (i : Nat) : (SHA256 P m).getD i 0 < 256 := by
  apply getD_lt_of_all _ 256 (by norm_num)
  intro x hx
  simp only [SHA256, bytesN] at hx
  have hx' := List.mem_of_mem_take hx
  rcases List.mem_append.mp hx' with h | h
  · obtain ⟨y, _, rfl⟩ := List.mem_map.mp h
    exact Nat.mod_lt _ (by norm_num)
  · rw [List.eq_of_mem_replicate h]
    norm_num

theorem parse_digest (B : List Nat) (hB : 36 ≤ B.length) (L : Int) :
    ∃ L1 L2 L3 : Int,
      md_loop 16 14 ⟨B, L, 8⟩ [] = (⟨B.drop 28, L1, 8⟩, (List.range 14).map
        (fun i => B.getD (2 * i) 0 % 256 + 256 * (B.getD (2 * i + 1) 0 % 256))) ∧
      do_bit_extract ⟨B.drop 28, L1, 8⟩ 56 false
        = (⟨B.drop 35, L2, 8⟩, get_bigendian (B.drop 28) 7) ∧
      do_bit_extract ⟨B.drop 35, L2, 8⟩ 8 false = (⟨B.drop 36, L3, 8⟩, B.getD 35 0 % 256) := by
  obtain ⟨L1, e1⟩ := md_loop_spec 14 B L [] (by omega)
  obtain ⟨b0, b1, b2, b3, b4, b5, b6, b7, rest, e⟩ := exists_eight (B.drop 28)
    (by rw [List.length_drop]; omega)
  have d35 : B.drop 35 = b7 :: rest := by
    have : B.drop 35 = (B.drop 28).drop 7 := by rw [List.drop_drop]
    rw [this, e]; rfl
  have d36 : B.drop 36 = rest := by
    have : B.drop 36 = (B.drop 28).drop 8 := by rw [List.drop_drop]
    rw [this, e]; rfl
  have g35 : B.getD 35 0 = b7 := by
    have : B.getD 35 0 = (B.drop 28).getD 7 0 := by
      rw [List.getD_eq_getElem?_getD, List.getD_eq_getElem?_getD, List.getElem?_drop]
    rw [this, e]; rfl
  refine ⟨L1, L1 - 1 - 1 - 1 - 1 - 1 - 1 - 1, L1 - 1 - 1 - 1 - 1 - 1 - 1 - 1 - 1, ?_, ?_, ?_⟩
  · rw [e1, List.nil_append]
  · rw [e, d35, extract56]
    rfl
  · rw [d35, d36, g35, extract8]

/-- C31: for k = 14, a = 16, h = 64, d = 8, `do_compute_digest_index` uses the
first 36 bytes `buf` of the MGF1 stream SHA256(h0 || 00000000) ||
SHA256(h0 || 00000001) with h0 = SHA256(r || seed || root || msg), and returns
`md[i] = buf[2i] + 256*buf[2i+1]` for i < 14, `idx_tree` the big-endian value
of `buf[28..35)` (below 2^56) and `idx_leaf = buf[35]` (below 2^8). -/
theorem digest_index_parsing (P : Prims) (r seed root msg : List Nat) :
    (14 * 16 + 7) / 8 + (64 - 64 / 8 + 7) / 8 + (64 / 8 + 7) / 8 = 28 + 7 + 1 ∧
    do_compute_digest_index P 24 r seed root msg 14 16 64 8
      = ((List.range 14).map (fun i =>
            (SHA256 P (SHA256 P (bytesN 24 r ++ bytesN 24 seed ++ bytesN 24 root ++ msg)
                ++ [0, 0, 0, 0])
              ++ SHA256 P (SHA256 P (bytesN 24 r ++ bytesN 24 seed ++ bytesN 24 root ++ msg)
                ++ [0, 0, 0, 1])).getD (2 * i) 0
            + 256 *
            (SHA256 P (SHA256 P (bytesN 24 r ++ bytesN 24 seed ++ bytesN 24 root ++ msg)
                ++ [0, 0, 0, 0])
              ++ SHA256 P (SHA256 P (bytesN 24 r ++ bytesN 24 seed ++ bytesN 24 root ++ msg)
                ++ [0, 0, 0, 1])).getD (2 * i + 1) 0),
         get_bigendian
           ((SHA256 P (SHA256 P (bytesN 24 r ++ bytesN 24 seed ++ bytesN 24 root ++ msg)
                ++ [0, 0, 0, 0])
              ++ SHA256 P (SHA256 P (bytesN 24 r ++ bytesN 24 seed ++ bytesN 24 root ++ msg)
                ++ [0, 0, 0, 1])).drop 28) 7,
         (SHA256 P (SHA256 P (bytesN 24 r ++ bytesN 24 seed ++ bytesN 24 root ++ msg)
                ++ [0, 0, 0, 0])
              ++ SHA256 P (SHA256 P (bytesN 24 r ++ bytesN 24 seed ++ bytesN 24 root ++ msg)
                ++ [0, 0, 0, 1])).getD 35 0) ∧
    (do_compute_digest_index P 24 r seed root msg 14 16 64 8).1.length = 14 ∧
    (∀ x ∈ (do_compute_digest_index P 24 r seed root msg 14 16 64 8).1, x < 2 ^ 16) ∧
    (do_compute_digest_index P 24 r seed root msg 14 16 64 8).2.1 < 2 ^ 56 ∧
    (do_compute_digest_index P 24 r seed root msg 14 16 64 8).2.2 < 2 ^ 8 := by
  generalize hh0 : SHA256 P (bytesN 24 r ++ bytesN 24 seed ++ bytesN 24 root ++ msg) = h0
  generalize hS0 : SHA256 P (h0 ++ [0, 0, 0, 0]) = S0
  generalize hS1 : SHA256 P (h0 ++ [0, 0, 0, 1]) = S1
  have l0 : S0.length = 32 := by rw [← hS0]; exact SHA256_length _ _
  have l1 : S1.length = 32 := by rw [← hS1]; exact SHA256_length _ _
  have lh : h0.length = 32 := by rw [← hh0]; exact SHA256_length _ _
  have hlt : ∀ i, (S0 ++ S1).getD i 0 < 256 := by
    intro i
    by_cases hi : i < S0.length
    · rw [List.getD_append _ _ _ _ hi, ← hS0]; exact SHA256_lt _ _ _
    · rw [List.getD_append_right _ _ _ _ (by omega), ← hS1]; exact SHA256_lt _ _ _
  have hB : mgf1_loop P h0 36 2 0 (zeros 67) = S0 ++ S1 ++ zeros 3 := by
    rw [mgf1_36, bytesN_of_length lh, hS0, hS1]
  obtain ⟨L1, L2, L3, p1, p2, p3⟩ := parse_digest (S0 ++ S1 ++ zeros 3)
    (by simp [l0, l1]) 36
  have hget : ∀ i, i < 64 → (S0 ++ S1 ++ zeros 3).getD i 0 = (S0 ++ S1).getD i 0 := by
    intro i hi
    rw [List.getD_append _ _ _ _ (by simp [l0, l1]; omega)]
  have hdrop : get_bigendian ((S0 ++ S1 ++ zeros 3).drop 28) 7
      = get_bigendian ((S0 ++ S1).drop 28) 7 := by
    simp only [get_bigendian]
    rw [drop_append_ge _ _ _ (by simp [l0, l1]),
      bytesN_append_ge _ _ _ (by simp [l0, l1])]
  have hval : do_compute_digest_index P 24 r seed root msg 14 16 64 8
      = ((List.range 14).map (fun i =>
          (S0 ++ S1).getD (2 * i) 0 + 256 * (S0 ++ S1).getD (2 * i + 1) 0),
         get_bigendian ((S0 ++ S1).drop 28) 7, (S0 ++ S1).getD 35 0) := by
    have hm : (14 * 16 + 7) / 8 + (64 - 64 / 8 + 7) / 8 + (64 / 8 + 7) / 8 = 36 := by norm_num
    have e64 : (64 : Nat) - 64 / 8 = 56 := by norm_num
    have e8 : (64 : Nat) / 8 = 8 := by norm_num
    have e67 : 36 + 31 = 67 := rfl
    have e2 : 36 / 32 + 1 = 2 := rfl
    have r8 : ∀ (p : List Nat) (L : Int), round_bit_extract ⟨p, L, 8⟩ = ⟨p, L, 8⟩ := by
      intro p L; simp [round_bit_extract]
    simp only [do_compute_digest_index, hh0, hm, e64, e8, e67, e2, hB, init_bit_extract]
    have p1' : md_loop 16 14 { p := S0 ++ S1 ++ zeros 3, len := ((36 : Nat) : Int), bit_pos := 8 } []
        = _ := p1
    rw [p1']
    simp only [r8, p2, p3]
    refine Prod.ext ?_ (Prod.ext hdrop ?_)
    · show List.map _ _ = List.map _ _
      apply List.map_congr_left
      intro i hi
      have hi' : i < 14 := List.mem_range.mp hi
      show (S0 ++ S1 ++ zeros 3).getD (2 * i) 0 % 256
          + 256 * ((S0 ++ S1 ++ zeros 3).getD (2 * i + 1) 0 % 256) = _
      rw [hget _ (by omega), hget _ (by omega), Nat.mod_eq_of_lt (hlt _),
        Nat.mod_eq_of_lt (hlt _)]
    · show (S0 ++ S1 ++ zeros 3).getD 35 0 % 256 % 2 ^ 32 = _
      rw [hget _ (by omega), Nat.mod_eq_of_lt (hlt _), Nat.mod_eq_of_lt]
      exact Nat.lt_trans (hlt _) (by norm_num)
  refine ⟨by norm_num, hval, ?_, ?_, ?_, ?_⟩
  · rw [hval]; simp
  · rw [hval]
    intro x hx
    obtain ⟨i, _, rfl⟩ := List.mem_map.mp hx
    have a1 := hlt (2 * i)
    have a2 := hlt (2 * i + 1)
    show (S0 ++ S1).getD (2 * i) 0 + 256 * (S0 ++ S1).getD (2 * i + 1) 0 < 2 ^ 16
    generalize (S0 ++ S1).getD (2 * i) 0 = u at a1 ⊢
    generalize (S0 ++ S1).getD (2 * i + 1) 0 = v at a2 ⊢
    have : (2 : Nat) ^ 16 = 65536 := by norm_num
    omega
  · rw [hval]
    show get_bigendian ((S0 ++ S1).drop 28) 7 < 2 ^ 56
    simp only [get_bigendian]
    have := be_fold_lt (bytesN 7 ((S0 ++ S1).drop 28)) (by simp)
    simpa using this
  · rw [hval]
    exact hlt 35

theorem lm_ots_chain_bytesN (P : Prims) (I : List Nat) (q i n : Nat) :
    ∀ (cnt j : Nat) (x : List Nat),
      bytesN n (lm_ots_chain P I q i n cnt j (bytesN n x))
        = bytesN n (lm_ots_chain P I q i n cnt j x) := by
  intro cnt
  cases cnt with
  | zero => intro j x; simp only [lm_ots_chain, bytesN_bytesN]
  | succ k => intro j x; simp only [lm_ots_chain, iterBlock, bytesN_bytesN]

theorem lm_ots_chain_add (P : Prims) (I : List Nat) (q i n : Nat) :
    ∀ (a b j : Nat) (x : List Nat),
      lm_ots_chain P I q i n b (j + a) (lm_ots_chain P I q i n a j x)
        = lm_ots_chain P I q i n (a + b) j x := by
  intro a
  induction a with
  | zero => intro b j x; simp only [lm_ots_chain, Nat.add_zero, Nat.zero_add]
  | succ k ih =>
    intro b j x
    have e1 : j + (k + 1) = (j + 1) + k := by omega
    have e2 : k + 1 + b = (k + b) + 1 := by omega
    rw [e1, e2]
    simp only [lm_ots_chain]
    exact ih b (j + 1) _

theorem lm_ots_chain_complement (P : Prims) (I : List Nat) (q i n w a : Nat) (x : List Nat)
    (ha : a ≤ 2 ^ w - 1) :
    bytesN n (lm_ots_chain P I q i n (2 ^ w - 1 - a) a
        (bytesN n (lm_ots_chain P I q i n a 0 x)))
      = bytesN n (lm_ots_chain P I q i n (2 ^ w - 1) 0 x) := by
  rw [lm_ots_chain_bytesN]
  have := lm_ots_chain_add P I q i n a (2 ^ w - 1 - a) 0 x
  rw [Nat.zero_add] at this
  rw [this]
  congr 2
  omega

theorem lm_ots_sig_chains_slice (T : Tune) (P : Prims) (I : List Nat) (q : Nat)
    (gen : private_key_generator) (Q : List Nat) (w : Nat) :
    ∀ (cnt i k : Nat) (rest : List Nat), k < cnt →
      slice (lm_ots_sig_chains T P I q gen Q 24 w cnt i ++ rest) (k * 24) 24
        = bytesN 24 (lm_ots_chain P I q (i + k) 24 (lm_ots_coef Q (i + k) w) 0
            (do_private_key_gen T P 24 gen (priv_image q (i + k) 0))) := by
  intro cnt
  induction cnt with
  | zero => intro i k rest h; omega
  | succ c ih =>
    intro i k rest h
    simp only [lm_ots_sig_chains]
    cases k with
    | zero =>
      rw [Nat.zero_mul, List.append_assoc, Nat.add_zero]
      exact slice_append_left _ _ 24 (bytesN_length _ _)
    | succ k' =>
      have e : (k' + 1) * 24 = 24 + k' * 24 := by ring
      rw [e, List.append_assoc, slice_append_skip _ _ _ 24 24 (bytesN_length _ _),
        ih (i + 1) k' rest (by omega)]
      have e2 : i + 1 + k' = i + (k' + 1) := by omega
      rw [e2]

theorem verify_tops_eq (T : Tune) (P : Prims) (I : List Nat) (q : Nat)
    (gen : private_key_generator) (Q y : List Nat) (w : Nat) :
    ∀ (cnt i : Nat),
      (∀ k, k < cnt → slice y ((i + k) * 24) 24
        = bytesN 24 (lm_ots_chain P I q (i + k) 24 (lm_ots_coef Q (i + k) w) 0
            (do_private_key_gen T P 24 gen (priv_image q (i + k) 0)))) →
      verify_ots_tops P I q Q y 24 w cnt i = lm_ots_pk_tops T P I q gen 24 w cnt i := by
  intro cnt
  induction cnt with
  | zero => intro i _; rfl
  | succ c ih =>
    intro i h
    have h0 := h 0 (by omega)
    rw [Nat.add_zero] at h0
    have hc : lm_ots_coef Q i w ≤ 2 ^ w - 1 := by
      have := lm_ots_coef_lt Q i w
      omega
    simp only [verify_ots_tops, lm_ots_pk_tops, h0]
    rw [lm_ots_chain_complement P I q i 24 w _ _ hc, ih (i + 1)]
    intro k hk
    have := h (k + 1) (by omega)
    have e : i + (k + 1) = i + 1 + k := by omega
    rw [e] at this
    exact this
/-- C29: continuing the value stored for chain `i` of an LM-OTS signature
(`a` steps from the private value) through the verifier's iterations
`j = a .. 2^w - 2` gives the chain top that `lm_ots_generate_public_key`
computes with `j = 0 .. 2^w - 2`; every coefficient is at most `2^w - 1`; hence
for the signature `lm_ots_generate_signature(I, q, seed, message)` placed
behind the two header words, the leaf hash the verifier reconstructs equals
the value `lm_ots_generate_public_key(I, q, seed)` returns. -/
theorem lm_ots_chain_complement_leaf (T : Tune) (P : Prims) (I : List Nat) (q : Nat)
    (seed message : List Nat) :
    (∀ (i a : Nat) (x : List Nat), a ≤ 2 ^ LM_OTS_W T - 1 →
      bytesN 24 (lm_ots_chain P I q i 24 (2 ^ LM_OTS_W T - 1 - a) a
          (bytesN 24 (lm_ots_chain P I q i 24 a 0 x)))
        = bytesN 24 (lm_ots_chain P I q i 24 (2 ^ LM_OTS_W T - 1) 0 x)) ∧
    (∀ (Q : List Nat) (i : Nat), lm_ots_coef Q i (LM_OTS_W T) ≤ 2 ^ LM_OTS_W T - 1) ∧
    (∀ (w0 w1 rest : List Nat), q < 2 ^ 32 → w0.length = 4 → w1.length = 4 →
      bytesN 24 (verify_lms_leaf P message I
          (w0 ++ w1 ++ (lm_ots_generate_signature T P I q seed message).2 ++ rest)
          24 (LM_OTS_W T) (LM_OTS_P T) (LM_OTS_LS T) q)
        = lm_ots_generate_public_key T P I q seed) := by
  refine ⟨?_, ?_, ?_⟩
  · intro i a x ha
    exact lm_ots_chain_complement P I q i 24 (LM_OTS_W T) a x ha
  · intro Q i
    have := lm_ots_coef_lt Q i (LM_OTS_W T)
    omega
  · intro w0 w1 rest hq h0 h1
    have hqm : q % 2 ^ 32 = q := Nat.mod_eq_of_lt hq
    simp only [lm_ots_generate_signature, lm_ots_generate_public_key, verify_lms_leaf, hqm]
    generalize hgen : init_private_key_gen T P seed 32 [] 0 = gen
    generalize hC : do_private_key_gen T P 24 gen (priv_image q 0 (2 ^ 32 - 1)) = C
    have e1 : slice (w0 ++ w1 ++ (put_bigendian (LM_OTS_PARAM_ID T) 4 ++ bytesN 24 C ++
        lm_ots_sig_chains T P I q gen
          (memcpy (bytesN (MAX_HASH_LEN + 2) (SHA256 P (mesgBlock I q C 24 ++ message))) 24
            (put_bigendian (lm_ots_compute_checksum (SHA256 P (mesgBlock I q C 24 ++ message))
              24 (LM_OTS_W T) (LM_OTS_LS T)) 2) 2) 24 (LM_OTS_W T) (LM_OTS_P T) 0) ++ rest)
        12 24 = bytesN 24 C := by
      simp only [List.append_assoc]
      rw [← List.append_assoc w0, ← List.append_assoc (w0 ++ w1), ← List.append_assoc _ (bytesN 24 C)]
      exact slice_at _ _ _ 12 24 (by simp [h0, h1]) (bytesN_length _ _)
    have e2 : (w0 ++ w1 ++ (put_bigendian (LM_OTS_PARAM_ID T) 4 ++ bytesN 24 C ++
        lm_ots_sig_chains T P I q gen
          (memcpy (bytesN (MAX_HASH_LEN + 2) (SHA256 P (mesgBlock I q C 24 ++ message))) 24
            (put_bigendian (lm_ots_compute_checksum (SHA256 P (mesgBlock I q C 24 ++ message))
              24 (LM_OTS_W T) (LM_OTS_LS T)) 2) 2) 24 (LM_OTS_W T) (LM_OTS_P T) 0) ++ rest).drop
          (12 + 24)
        = lm_ots_sig_chains T P I q gen
          (memcpy (bytesN (MAX_HASH_LEN + 2) (SHA256 P (mesgBlock I q C 24 ++ message))) 24
            (put_bigendian (lm_ots_compute_checksum (SHA256 P (mesgBlock I q C 24 ++ message))
              24 (LM_OTS_W T) (LM_OTS_LS T)) 2) 2) 24 (LM_OTS_W T) (LM_OTS_P T) 0 ++ rest := by
      simp only [List.append_assoc]
      rw [← List.append_assoc w0, ← List.append_assoc (w0 ++ w1), ← List.append_assoc _ (bytesN 24 C)]
      exact List.drop_left' (by simp [h0, h1])
    have e3 : mesgBlock I q (bytesN 24 C) 24 = mesgBlock I q C 24 := by
      simp only [mesgBlock, bytesN_bytesN]
    rw [e1, e2, e3]
    generalize memcpy (bytesN (MAX_HASH_LEN + 2) (SHA256 P (mesgBlock I q C 24 ++ message))) 24
      (put_bigendian (lm_ots_compute_checksum (SHA256 P (mesgBlock I q C 24 ++ message))
        24 (LM_OTS_W T) (LM_OTS_LS T)) 2) 2 = Q
    have ht := verify_tops_eq T P I q gen Q
      (lm_ots_sig_chains T P I q gen Q 24 (LM_OTS_W T) (LM_OTS_P T) 0 ++ rest) (LM_OTS_W T)
      (LM_OTS_P T) 0 (fun k hk => by
        have := lm_ots_sig_chains_slice T P I q gen Q (LM_OTS_W T) (LM_OTS_P T) 0 k rest hk
        rw [Nat.zero_add] at this ⊢
        exact this)
    rw [ht, bytesN_memcpy_zero_le _ _ 24 32 (by omega)]
    simp only [leafBlock, bytesN_memcpy_zero_le _ _ 24 32 (by omega : 24 ≤ 32), bytesN_bytesN]
    rfl

/-- Witness for `lm_ots_chain_complement_leaf`: leaf 0 of the all-zero key
with the shipped tuning. -/
theorem lm_ots_chain_complement_leaf_witness :
    bytesN 24 (verify_lms_leaf zero_prims [] (zeros 16)
        (zeros 4 ++ zeros 4 ++ (lm_ots_generate_signature tune zero_prims (zeros 16) 0
          (zeros 32) []).2 ++ [])
        24 (LM_OTS_W tune) (LM_OTS_P tune) (LM_OTS_LS tune) 0)
      = lm_ots_generate_public_key tune zero_prims (zeros 16) 0 (zeros 32) :=
  (lm_ots_chain_complement_leaf tune zero_prims (zeros 16) 0 (zeros 32) []).2.2
    (zeros 4) (zeros 4) [] (by decide) (by decide) (by decide)

theorem xor_one_range (x m : Nat) (hm : 1 ≤ m) (h1 : 2 ^ m ≤ x + 2) (h2 : x + 2 < 2 ^ (m + 1)) :
    2 ^ m ≤ (x ^^^ 1) + 2 ∧ (x ^^^ 1) + 2 < 2 ^ (m + 1) := by
  have d : (x ^^^ 1) / 2 = x / 2 := by rw [Nat.xor_div_two]; simp
  obtain ⟨k, rfl⟩ : ∃ k, m = k + 1 := ⟨m - 1, by omega⟩
  generalize x ^^^ 1 = y at d
  have e1 : 2 ^ (k + 1) = 2 * 2 ^ k := by rw [pow_succ]; ring
  have e2 : 2 ^ (k + 1 + 1) = 2 * (2 * 2 ^ k) := by rw [pow_succ, pow_succ]; ring
  rw [e1] at h1
  rw [e2] at h2
  rw [e1, e2]
  generalize 2 ^ k = p at *
  omega

theorem half_range (x k : Nat) (h1 : 2 ^ (k + 2) ≤ x + 2) (h2 : x + 2 < 2 ^ (k + 3)) :
    2 ^ (k + 1) ≤ (x / 2 - 1) + 2 ∧ (x / 2 - 1) + 2 < 2 ^ (k + 2) := by
  have e1 : 2 ^ (k + 1) = 2 * 2 ^ k := by rw [pow_succ]; ring
  have e2 : 2 ^ (k + 2) = 2 * (2 * 2 ^ k) := by rw [pow_succ, pow_succ]; ring
  have e3 : 2 ^ (k + 3) = 2 * (2 * (2 * 2 ^ k)) := by rw [pow_succ, pow_succ, pow_succ]; ring
  have hp : 1 ≤ 2 ^ k := Nat.one_le_two_pow
  rw [e2] at h1
  rw [e3] at h2
  rw [e1, e2]
  generalize 2 ^ k = p at *
  omega

theorem xor_which_range (x which m : Nat) (hw : which < 2) (hm : 1 ≤ m) (h1 : 2 ^ m ≤ x + 2)
    (h2 : x + 2 < 2 ^ (m + 1)) :
    2 ^ m ≤ (x ^^^ which) + 2 ∧ (x ^^^ which) + 2 < 2 ^ (m + 1) := by
  have : which = 0 ∨ which = 1 := by omega
  rcases this with rfl | rfl
  · simpa using ⟨h1, h2⟩
  · exact xor_one_range x m hm h1 h2

theorem range_lt (y m B : Nat) (hmB : m ≤ B) (h2 : y + 2 < 2 ^ (m + 1)) :
    y < 2 * 2 ^ B - 2 := by
  have : 2 ^ (m + 1) ≤ 2 ^ (B + 1) := Nat.pow_le_pow_right (by norm_num) (by omega)
  have e : 2 ^ (B + 1) = 2 * 2 ^ B := by rw [pow_succ]; ring
  omega

theorem sign_bottom_indices_lt (which B : Nat) (hw : which < 2) :
    ∀ (cnt off : Nat), cnt ≤ B → 2 ^ cnt ≤ off + 2 → off + 2 < 2 ^ (cnt + 1) →
      ∀ k ∈ sign_bottom_indices which cnt off, k < 2 * 2 ^ B - 2 := by
  intro cnt
  induction cnt with
  | zero => intro off _ _ _ k hk; simp [sign_bottom_indices] at hk
  | succ c ih =>
    intro off hc h1 h2 k hk
    simp only [sign_bottom_indices, List.mem_cons] at hk
    rcases hk with rfl | hk
    · have a := xor_one_range off (c + 1) (by omega) h1 h2
      have b := xor_which_range (off ^^^ 1) which (c + 1) hw (by omega) a.1 a.2
      exact range_lt _ (c + 1) B hc b.2
    · cases c with
      | zero => simp [sign_bottom_indices] at hk
      | succ c =>
        have hr := half_range off c h1 h2
        exact ih (off / 2 - 1) (by omega) hr.1 hr.2 k hk

theorem sign_top_indices_lt (B : Nat) :
    ∀ (cnt off : Nat), cnt ≤ B → 2 ^ cnt ≤ off + 2 → off + 2 < 2 ^ (cnt + 1) →
      ∀ k ∈ sign_top_indices cnt off, k < 2 * 2 ^ B - 2 := by
  intro cnt
  induction cnt with
  | zero => intro off _ _ _ k hk; simp [sign_top_indices] at hk
  | succ c ih =>
    intro off hc h1 h2 k hk
    simp only [sign_top_indices, List.mem_cons] at hk
    rcases hk with rfl | hk
    · have a := xor_one_range off (c + 1) (by omega) h1 h2
      exact range_lt _ (c + 1) B hc a.2
    · cases c with
      | zero => simp [sign_top_indices] at hk
      | succ c =>
        have hr := half_range off c h1 h2
        exact ih (off / 2 - 1) (by omega) hr.1 hr.2 k hk

theorem sign_bottom_path_indices (subtree : List Nat) (which : Nat) :
    ∀ (cnt off : Nat), sign_bottom_path subtree which cnt off
      = (sign_bottom_indices which cnt off).flatMap (fun k => slice subtree (24 * k) 24) := by
  intro cnt
  induction cnt with
  | zero => intro off; rfl
  | succ c ih => intro off; simp only [sign_bottom_path, sign_bottom_indices, List.flatMap_cons, ih]

theorem sign_top_path_indices (subtree : List Nat) :
    ∀ (cnt off : Nat), sign_top_path subtree cnt off
      = (sign_top_indices cnt off).flatMap (fun k => slice subtree (24 * k) 24) := by
  intro cnt
  induction cnt with
  | zero => intro off; rfl
  | succ c ih => intro off; simp only [sign_top_path, sign_top_indices, List.flatMap_cons, ih]

theorem sign_refresh_acc_fst (P : Prims) (I : List Nat) (which : Nat) :
    ∀ (fuel index q : Nat) (subtree buffer : List Nat),
      (sign_refresh_acc P I which fuel index q subtree buffer).1
        = sign_refresh P I which fuel index q subtree buffer := by
  intro fuel
  induction fuel with
  | zero => intro _ _ _ _; rfl
  | succ f ih =>
    intro index q subtree buffer
    simp only [sign_refresh_acc, sign_refresh]
    split_ifs <;> first | rfl | exact ih _ _ _ _

theorem lms_walk_acc_fst (T : Tune) (P : Prims) (leaf : Nat) :
    ∀ (fuel level node q : Nat) (s : sh_signer) (buffer : List Nat),
      (lms_walk_acc T P leaf fuel level node q s buffer).1
        = lms_walk T P leaf fuel level node q s buffer := by
  intro fuel
  induction fuel with
  | zero => intro _ _ _ _ _; rfl
  | succ f ih =>
    intro level node q s buffer
    simp only [lms_walk_acc, lms_walk]
    split_ifs <;> first | rfl | exact ih _ _ _ _ _
theorem xor_one_of_odd (x : Nat) (h : x % 2 ≠ 0) : x ^^^ 1 ≤ x := by
  have d : (x ^^^ 1) / 2 = x / 2 := by rw [Nat.xor_div_two]; simp
  have m : (x ^^^ 1) % 2 = (x + 1) % 2 := Nat.xor_mod_two_eq
  generalize x ^^^ 1 = y at d m
  omega

theorem sign_refresh_acc_lt (P : Prims) (I : List Nat) (which B : Nat) (hw : which < 2) :
    ∀ (fuel m index q : Nat) (subtree buffer : List Nat), 1 ≤ m → m ≤ B →
      2 ^ m ≤ index + 2 → index + 2 < 2 ^ (m + 1) →
      ∀ k ∈ (sign_refresh_acc P I which fuel index q subtree buffer).2, k < 2 * 2 ^ B - 2 := by
  intro fuel
  induction fuel with
  | zero => intro m index q subtree buffer _ _ _ _ k hk; simp [sign_refresh_acc] at hk
  | succ f ih =>
    intro m index q subtree buffer hm hmB h1 h2 k hk
    have a := xor_which_range index which m hw hm h1 h2
    have b := xor_one_range (index ^^^ which) m hm a.1 a.2
    have kb := range_lt _ m B hmB b.2
    have ka := range_lt _ m B hmB a.2
    simp only [sign_refresh_acc] at hk
    split_ifs at hk with c1 c2
    · simp only [List.mem_singleton] at hk; rw [hk]; exact kb
    · simp only [List.mem_singleton] at hk; rw [hk]; exact kb
    · simp only [List.mem_cons] at hk
      rcases hk with rfl | rfl | hk
      · exact kb
      · exact ka
      · obtain ⟨j, rfl⟩ : ∃ j, m = j + 2 := by
          refine ⟨m - 2, ?_⟩
          rcases Nat.lt_or_ge m 2 with h | h
          · have : m = 1 := by omega
            subst this
            norm_num at h2
            omega
          · omega
        have hr := half_range index j h1 h2
        exact ih (j + 1) _ _ _ _ (by omega) (by omega) hr.1 hr.2 k hk

theorem pow_split (a b : Nat) (h : b ≤ a) : 2 ^ a = 2 ^ (a - b) * 2 ^ b := by
  rw [← pow_add]; congr 1; omega

theorem node_lt (node level leaf A : Nat) (hn : node * 2 ^ level ≤ leaf) (hl : leaf < 2 ^ A)
    (hA : level ≤ A) : node < 2 ^ (A - level) := by
  rw [pow_split A level hA] at hl
  exact Nat.lt_of_mul_lt_mul_right (Nat.lt_of_le_of_lt hn hl)

theorem slot_bound (node e B : Nat) (hn : node < 2 ^ e) (he : 1 ≤ e) (hB : e ≤ B) :
    24 * (node + 2 ^ e - 2) + 24 ≤ 24 * (2 * 2 ^ B - 2) := by
  have h1 : 2 ^ e ≤ 2 ^ B := Nat.pow_le_pow_right (by norm_num) hB
  have h2 : 2 ^ 1 ≤ 2 ^ e := Nat.pow_le_pow_right (by norm_num) he
  norm_num at h2
  omega

theorem lms_level_facts (T : Tune) :
    LMS_BOTTOM T + LMS_TOP T = LMS_ACTUAL T ∧ 1 ≤ LMS_BOTTOM T ∧ LMS_ACTUAL T ≤ 20 ∧
      LMS_H - LMS_FAKE T = LMS_ACTUAL T := by
  refine ⟨?_, ?_, ?_, ?_⟩ <;> simp only [LMS_BOTTOM, LMS_TOP, LMS_ACTUAL, LMS_H, LMS_FAKE] <;>
    split <;> omega

theorem lms_storage_ok (T : Tune) (level leaf node fw : Nat) (hl : leaf < 2 ^ LMS_ACTUAL T)
    (hn : node * 2 ^ level ≤ leaf) (hA : level ≤ LMS_ACTUAL T) :
    lms_storage T 24 level leaf node fw = LmsLoc.null ∨
      loc_in_bounds T (lms_storage T 24 level leaf node fw) := by
  obtain ⟨hBT, hB1, _, _⟩ := lms_level_facts T
  simp only [lms_storage]
  split_ifs with c1 c2 c3 c4
  · right
    simp only [loc_in_bounds]
    exact slot_bound node (LMS_BOTTOM T - level) (LMS_BOTTOM T)
      (node_lt node level leaf (LMS_BOTTOM T) hn c2 (by omega)) (by omega) (by omega)
  · left; rfl
  · right
    simp only [loc_in_bounds]
    omega
  · right
    simp only [loc_in_bounds]
    have hlt := node_lt node level leaf (LMS_ACTUAL T) hn hl hA
    have e : LMS_ACTUAL T - level = LMS_TOP T - (level - LMS_BOTTOM T) := by omega
    rw [e] at hlt
    exact slot_bound node _ (LMS_TOP T) hlt (by omega) (by omega)
  · right
    simp only [loc_in_bounds]

theorem lms_walk_acc_ok (T : Tune) (P : Prims) (leaf : Nat) (hl : leaf < 2 ^ LMS_ACTUAL T) :
    ∀ (fuel level node q : Nat) (s : sh_signer) (buffer : List Nat),
      node * 2 ^ level ≤ leaf → level ≤ LMS_ACTUAL T →
      ∀ loc ∈ (lms_walk_acc T P leaf fuel level node q s buffer).2,
        loc = LmsLoc.null ∨ loc_in_bounds T loc := by
  intro fuel
  induction fuel with
  | zero => intro level node q s buffer _ _ loc hk; simp [lms_walk_acc] at hk
  | succ f ih =>
    intro level node q s buffer hn hA loc hk
    have k1 := lms_storage_ok T level leaf node 1 hl hn hA
    simp only [lms_walk_acc] at hk
    split_ifs at hk with c1 c2
    · simp only [List.mem_singleton] at hk; rw [hk]; exact k1
    · simp only [List.mem_singleton] at hk; rw [hk]; exact k1
    · have hx := xor_one_of_odd node c1
      have k2 := lms_storage_ok T level leaf (node ^^^ 1) 0 hl
        (Nat.le_trans (Nat.mul_le_mul_right _ hx) hn) hA
      simp only [List.mem_cons] at hk
      rcases hk with rfl | rfl | hk
      · exact k1
      · exact k2
      · have hlt := node_lt node level leaf (LMS_ACTUAL T) hn hl hA
        have hlev : level + 1 ≤ LMS_ACTUAL T := by
          rcases Nat.lt_or_ge level (LMS_ACTUAL T) with h | h
          · omega
          · have : LMS_ACTUAL T - level = 0 := by omega
            rw [this] at hlt
            norm_num at hlt
            omega
        have hn2 : node / 2 * 2 ^ (level + 1) ≤ leaf := by
          have : node / 2 * 2 ^ (level + 1) = (node / 2 * 2) * 2 ^ level := by
            rw [pow_succ]; ring
          rw [this]
          exact Nat.le_trans (Nat.mul_le_mul_right _ (Nat.div_mul_le_self node 2)) hn
        exact ih _ _ _ _ _ hn2 hlev loc hk
/-- C37 (counterexample): leaf 129 of the next tree lies above the first bottom
subtree (`LMS_BOTTOM` is 7 with the shipped settings), and at level 0 of its
walk `lms_storage( signer, 24, 0, 129, 129, 1 )` returns the null pointer, which
is no slot of any of the four areas. -/
theorem lms_storage_null_for_right_node :
    129 < 2 ^ LMS_ACTUAL tune ∧ lms_storage tune 24 0 129 129 1 = LmsLoc.null ∧
      ¬ loc_in_bounds tune (lms_storage tune 24 0 129 129 1) := by
  refine ⟨by decide, by decide, ?_⟩
  have : lms_storage tune 24 0 129 129 1 = LmsLoc.null := by decide
  rw [this]
  simp [loc_in_bounds]

/-- C37 (amended): for every `current_lms_index < 2^LMS_ACTUAL`, every node
index `sh_sign` reads from `current_lms_bottom_subtree` for the
authentication path, and every node index its refresh loop writes to or reads
from that subtree, is below `2^(LMS_BOTTOM+1) - 2`; every node index it reads
from `current_lms_top_subtree` is below `2^(LMS_TOP+1) - 2`; and for every
leaf `< 2^LMS_ACTUAL` every pointer `lms_storage` returns during the
`b_do_lms` walk is either the null pointer (the skipped store of a right-hand
node) or leaves room for 24 bytes inside `next_lms_bottom_subtree`, the
`LMS_BOTTOM`-entry stack, `next_lms_top_subtree` or `next_lms_root`; a call
with `for_write = 0` never returns the null pointer.  (The index lists are
those of `sign_bottom_path`, `sign_top_path`, `sign_refresh` and `lms_walk`:
see `sign_bottom_path_indices`, `sign_top_path_indices`,
`sign_refresh_acc_fst` and `lms_walk_acc_fst`.) -/
theorem subtree_accesses_in_bounds (T : Tune) (P : Prims) (sg : sh_signer)
    (h : sg.current_lms_index < 2 ^ LMS_ACTUAL T) :
    (∀ k ∈ sign_bottom_indices (sg.current_lms_index / 2 ^ LMS_BOTTOM T % 2) (LMS_BOTTOM T)
        (sg.current_lms_index % 2 ^ LMS_BOTTOM T + 2 ^ LMS_BOTTOM T - 2),
      k < 2 * 2 ^ LMS_BOTTOM T - 2) ∧
    (∀ k ∈ sign_top_indices (LMS_TOP T)
        (sg.current_lms_index / 2 ^ LMS_BOTTOM T + 2 ^ LMS_TOP T - 2),
      k < 2 * 2 ^ LMS_TOP T - 2) ∧
    (∀ k ∈ (sign_refresh_acc P sg.current_lms_I (sg.current_lms_index / 2 ^ LMS_BOTTOM T % 2) 32
        (((sg.current_lms_index + 2 ^ LMS_BOTTOM T) % 2 ^ 32 % 2 ^ LMS_BOTTOM T
          + 2 ^ LMS_BOTTOM T - 2) % 2 ^ 32)
        ((sg.current_lms_index + 2 ^ LMS_BOTTOM T) % 2 ^ 32 ||| 2 ^ LMS_H)
        sg.current_lms_bottom_subtree
        (lm_ots_generate_public_key T P sg.current_lms_I
          ((sg.current_lms_index + 2 ^ LMS_BOTTOM T) % 2 ^ 32) sg.current_lms_seed)).2,
      k < 2 * 2 ^ LMS_BOTTOM T - 2) ∧
    (sign_refresh_acc P sg.current_lms_I (sg.current_lms_index / 2 ^ LMS_BOTTOM T % 2) 32
        (((sg.current_lms_index + 2 ^ LMS_BOTTOM T) % 2 ^ 32 % 2 ^ LMS_BOTTOM T
          + 2 ^ LMS_BOTTOM T - 2) % 2 ^ 32)
        ((sg.current_lms_index + 2 ^ LMS_BOTTOM T) % 2 ^ 32 ||| 2 ^ LMS_H)
        sg.current_lms_bottom_subtree
        (lm_ots_generate_public_key T P sg.current_lms_I
          ((sg.current_lms_index + 2 ^ LMS_BOTTOM T) % 2 ^ 32) sg.current_lms_seed)).1
      = sign_refreshed T P sg ∧
    (∀ (leaf : Nat) (s : sh_signer) (buffer : List Nat), leaf < 2 ^ LMS_ACTUAL T →
      (lms_walk_acc T P leaf 33 0 (leaf % 2 ^ 32) (leaf % 2 ^ 32 ||| 2 ^ LMS_H) s buffer).1
          = lms_walk T P leaf 33 0 (leaf % 2 ^ 32) (leaf % 2 ^ 32 ||| 2 ^ LMS_H) s buffer ∧
      ∀ loc ∈ (lms_walk_acc T P leaf 33 0 (leaf % 2 ^ 32) (leaf % 2 ^ 32 ||| 2 ^ LMS_H) s
          buffer).2,
        loc = LmsLoc.null ∨ loc_in_bounds T loc) ∧
    (∀ (height leaf node : Nat), lms_storage T 24 height leaf node 0 ≠ LmsLoc.null) := by
  obtain ⟨hBT, hB1, hA20, _⟩ := lms_level_facts T
  have hw : sg.current_lms_index / 2 ^ LMS_BOTTOM T % 2 < 2 := Nat.mod_lt _ (by norm_num)
  have hp2 : 2 ^ 1 ≤ 2 ^ LMS_BOTTOM T := Nat.pow_le_pow_right (by norm_num) hB1
  have hBle : LMS_BOTTOM T ≤ LMS_TOP T := by
    simp only [LMS_BOTTOM, LMS_TOP]; omega
  have hp10 : 2 ^ LMS_BOTTOM T ≤ 2 ^ 10 := Nat.pow_le_pow_right (by norm_num) (by omega)
  have hpow : 2 ^ (LMS_BOTTOM T + 1) = 2 * 2 ^ LMS_BOTTOM T := by rw [pow_succ]; ring
  have hT1 : 1 ≤ LMS_TOP T := by omega
  have hq2 : 2 ^ 1 ≤ 2 ^ LMS_TOP T := Nat.pow_le_pow_right (by norm_num) hT1
  have hqow : 2 ^ (LMS_TOP T + 1) = 2 * 2 ^ LMS_TOP T := by rw [pow_succ]; ring
  norm_num at hp2 hp10 hq2
  refine ⟨?_, ?_, ?_, ?_, ?_, ?_⟩
  · have hm := Nat.mod_lt sg.current_lms_index (show 0 < 2 ^ LMS_BOTTOM T by omega)
    generalize sg.current_lms_index % 2 ^ LMS_BOTTOM T = r at hm
    exact sign_bottom_indices_lt _ (LMS_BOTTOM T) hw (LMS_BOTTOM T)
      (r + 2 ^ LMS_BOTTOM T - 2) (le_refl _)
      (by omega) (by rw [hpow]; omega)
  · have hd : sg.current_lms_index / 2 ^ LMS_BOTTOM T < 2 ^ LMS_TOP T := by
      rw [Nat.div_lt_iff_lt_mul (by omega), ← pow_add, Nat.add_comm, hBT]
      exact h
    clear hw
    generalize sg.current_lms_index / 2 ^ LMS_BOTTOM T = d at hd ⊢
    exact sign_top_indices_lt (LMS_TOP T) (LMS_TOP T)
      (d + 2 ^ LMS_TOP T - 2) (le_refl _) (by omega)
      (by rw [hqow]; omega)
  · have hm := Nat.mod_lt ((sg.current_lms_index + 2 ^ LMS_BOTTOM T) % 2 ^ 32)
      (show 0 < 2 ^ LMS_BOTTOM T by omega)
    have e : ((sg.current_lms_index + 2 ^ LMS_BOTTOM T) % 2 ^ 32 % 2 ^ LMS_BOTTOM T
          + 2 ^ LMS_BOTTOM T - 2) % 2 ^ 32
        = (sg.current_lms_index + 2 ^ LMS_BOTTOM T) % 2 ^ 32 % 2 ^ LMS_BOTTOM T
          + 2 ^ LMS_BOTTOM T - 2 := by
      apply Nat.mod_eq_of_lt
      generalize (sg.current_lms_index + 2 ^ LMS_BOTTOM T) % 2 ^ 32 % 2 ^ LMS_BOTTOM T = r at hm
      omega
    rw [e]
    generalize (sg.current_lms_index + 2 ^ LMS_BOTTOM T) % 2 ^ 32 % 2 ^ LMS_BOTTOM T = r at hm
    exact sign_refresh_acc_lt P _ _ (LMS_BOTTOM T) hw 32 (LMS_BOTTOM T)
      (r + 2 ^ LMS_BOTTOM T - 2) _ _ _ hB1 (le_refl _)
      (by omega) (by rw [hpow]; omega)
  · rw [sign_refresh_acc_fst]
    rfl
  · intro leaf s buffer hl
    refine ⟨lms_walk_acc_fst T P leaf _ _ _ _ _ _, ?_⟩
    exact lms_walk_acc_ok T P leaf hl 33 0 _ _ s buffer
      (by rw [pow_zero, Nat.mul_one]; exact Nat.mod_le _ _) (Nat.zero_le _)
  · intro height leaf node
    simp only [lms_storage, Nat.and_zero, ne_eq, not_true_eq_false, if_false]
    split_ifs <;> simp

/-- Witness for `subtree_accesses_in_bounds`: a signer at index 0 with the
shipped settings; its first top-subtree read is node 127 of 254. -/
theorem subtree_accesses_in_bounds_witness :
    blank_signer.current_lms_index < 2 ^ LMS_ACTUAL tune ∧ 127 < 2 * 2 ^ LMS_TOP tune - 2 :=
  ⟨by decide,
   (subtree_accesses_in_bounds tune zero_prims blank_signer (by decide)).2.1 127 (by decide)⟩

theorem memcpy_length_ge (d src : List Nat) (off n : Nat) :
    d.length ≤ (memcpy d off src n).length := by
  simp only [memcpy, blit, List.length_append, List.length_take, List.length_drop, bytesN_length]
  omega

theorem memcpy_length_iff (d src : List Nat) (off n : Nat) (hn : 0 < n) :
    (memcpy d off src n).length = d.length ↔ off + n ≤ d.length := by
  simp only [memcpy, blit, List.length_append, List.length_take, List.length_drop, bytesN_length]
  omega

theorem fors_walk_len (P : Prims) (target : Nat) :
    ∀ (cnt level node fnn : Nat) (s : sh_signer) (adr buffer : List Nat),
      level + cnt ≤ 16 → s.sphincs_sig_index + 408 ≤ s.next_sphincs_sig.length →
      (fors_walk P target cnt level node fnn s adr buffer).1.next_sphincs_sig.length
        = s.next_sphincs_sig.length ∧
      (fors_walk P target cnt level node fnn s adr buffer).1.sphincs_sig_index
        = s.sphincs_sig_index := by
  intro cnt
  induction cnt with
  | zero => intro level node fnn s adr buffer _ _; exact ⟨rfl, rfl⟩
  | succ c ih =>
    intro level node fnn s adr buffer hl hs
    have hw : (memcpy s.next_sphincs_sig (s.sphincs_sig_index + 24 * (1 + level)) buffer
        24).length = s.next_sphincs_sig.length := memcpy_length _ _ _ _ (by omega)
    simp only [fors_walk]
    generalize hs1 : (if node ^^^ 1 = target / 2 ^ level then
        { s with next_sphincs_sig :=
            memcpy s.next_sphincs_sig (s.sphincs_sig_index + 24 * (1 + level)) buffer 24 }
        else s) = s1
    have h1 : s1.next_sphincs_sig.length = s.next_sphincs_sig.length ∧
        s1.sphincs_sig_index = s.sphincs_sig_index := by
      rw [← hs1]
      split
      · exact ⟨hw, rfl⟩
      · exact ⟨rfl, rfl⟩
    split_ifs
    · obtain ⟨a1, a2⟩ := ih (level + 1) (node / 2) (fnn / 2) s1
        (set_tree_height (set_tree_index adr (fnn / 2)) (level + 1))
        (memcpy buffer 0
          (hashInto (do_H P (HASH_TYPE_SHA256 ||| HASH_LEN_192) s1.pk_seed_pre
            (set_tree_height (set_tree_index adr (fnn / 2)) (level + 1))
            (slice s1.do_fors_stack (level * 24) 24) buffer) buffer 24) 24)
        (by omega) (by rw [h1.1, h1.2]; exact hs)
      exact ⟨a1.trans h1.1, a2.trans h1.2⟩
    · exact h1

theorem fors_loop_len (T : Tune) (P : Prims) (gen : private_key_generator) (target : Nat) :
    ∀ (cnt : Nat) (s : sh_signer) (adr : List Nat) (leaf : Nat) (buffer : List Nat),
      s.sphincs_sig_index + 408 ≤ s.next_sphincs_sig.length →
      (fors_loop T P gen target cnt s adr leaf buffer).1.next_sphincs_sig.length
        = s.next_sphincs_sig.length := by
  intro cnt
  induction cnt with
  | zero => intro s adr leaf buffer _; rfl
  | succ c ih =>
    intro s adr leaf buffer hs
    simp only [fors_loop]
    have hw : ∀ b : List Nat, (memcpy s.next_sphincs_sig s.sphincs_sig_index b 24).length
        = s.next_sphincs_sig.length := fun b => memcpy_length _ _ _ _ (by omega)
    generalize hs1 : (if leaf = target then (_ : sh_signer) else s) = s1
    have h1 : s1.next_sphincs_sig.length = s.next_sphincs_sig.length ∧
        s1.sphincs_sig_index = s.sphincs_sig_index := by
      rw [← hs1]
      split
      · exact ⟨hw _, rfl⟩
      · exact ⟨rfl, rfl⟩
    generalize hfw : fors_walk P target SPH_A 0 leaf _ s1 _ _ = fw
    have h2 : fw.1.next_sphincs_sig.length = s.next_sphincs_sig.length ∧
        fw.1.sphincs_sig_index = s.sphincs_sig_index := by
      rw [← hfw]
      obtain ⟨a1, a2⟩ := fors_walk_len P target SPH_A 0 leaf
        ((leaf + s.do_fors_tree * 2 ^ SPH_A) % 2 ^ 32) s1 _ _ (by decide)
        (by rw [h1.1, h1.2]; exact hs)
      exact ⟨a1.trans h1.1, a2.trans h1.2⟩
    split_ifs
    all_goals first
      | exact h2.1
      | exact (ih fw.1 _ _ _ (by rw [h2.1, h2.2]; exact hs)).trans h2.1

theorem hyper_wots_len (T : Tune) (P : Prims) (gen : private_key_generator)
    (pre digits : List Nat) (target : Nat) :
    ∀ (cnt i : Nat) (adr sig : List Nat), target + 24 * (i + cnt) ≤ sig.length →
      (hyper_wots_loop T P gen pre digits target cnt i adr sig).2.length = sig.length := by
  intro cnt
  induction cnt with
  | zero => intro i adr sig _; rfl
  | succ c ih =>
    intro i adr sig h
    simp only [hyper_wots_loop]
    have hw : ∀ b : List Nat, (memcpy sig (target + 24 * i) b 24).length = sig.length :=
      fun b => memcpy_length _ _ _ _ (by omega)
    rw [ih (i + 1) _ _ (by rw [hw]; omega), hw]

theorem xor_shift_small (t c h : Nat) (ht : t < 2 ^ 8) (hc : c < 2 ^ 8)
    (h1 : (t ^^^ c) / 2 ^ h = 1) : h < 8 := by
  by_contra hge
  have hx : t ^^^ c < 2 ^ 8 := Nat.xor_lt_two_pow ht hc
  have hp : 2 ^ 8 ≤ 2 ^ h := Nat.pow_le_pow_right (by norm_num) (by omega)
  have : (t ^^^ c) / 2 ^ h = 0 := Nat.div_eq_of_lt (by omega)
  omega

theorem merkle_up_len (P : Prims) (c : Nat) (hc : c < 2 ^ 8) (ap : Nat) :
    ∀ (fuel h : Nat) (st : build_merkle_state) (a r buf : List Nat),
      st.n = 24 → st.target_node < 2 ^ 8 → st.auth_path = some ap → ap + 192 ≤ a.length →
      (merkle_up P c fuel h st a r buf).authMem.length = a.length := by
  intro fuel
  induction fuel with
  | zero => intro h st a r buf _ _ _ _; rfl
  | succ f ih =>
    intro h st a r buf hn ht hap hlen
    simp only [merkle_up]
    generalize ha1 : (if st.auth_path.isSome ∧ (st.target_node ^^^ c) / 2 ^ h = 1 then
        memcpy a (st.auth_path.getD 0 + h * st.n) buf st.n else a) = a1
    have h1 : a1.length = a.length := by
      rw [← ha1]
      split
      · rename_i hcond
        have hh := xor_shift_small _ _ _ ht hc hcond.2
        rw [hap, hn]
        exact memcpy_length _ _ _ _ (by simp only [Option.getD_some]; omega)
      · rfl
    split_ifs
    all_goals first
      | exact h1
      | (refine Eq.trans (ih _ _ _ _ _ ?_ ?_ ?_ ?_) h1
         · exact hn
         · exact ht
         · exact hap
         · rw [h1]; exact hlen)
theorem digest_index_bounds (P : Prims) (r seed root msg : List Nat) :
    (do_compute_digest_index P 24 r seed root msg 14 16 64 8).2.1 < 2 ^ 56 ∧
    (do_compute_digest_index P 24 r seed root msg 14 16 64 8).2.2 < 2 ^ 8 := by
  generalize hh0 : SHA256 P (bytesN 24 r ++ bytesN 24 seed ++ bytesN 24 root ++ msg) = h0
  generalize hS0 : SHA256 P (h0 ++ [0, 0, 0, 0]) = S0
  generalize hS1 : SHA256 P (h0 ++ [0, 0, 0, 1]) = S1
  have l0 : S0.length = 32 := by rw [← hS0]; exact SHA256_length _ _
  have l1 : S1.length = 32 := by rw [← hS1]; exact SHA256_length _ _
  have lh : h0.length = 32 := by rw [← hh0]; exact SHA256_length _ _
  have hlt : ∀ i, (S0 ++ S1).getD i 0 < 256 := by
    intro i
    by_cases hi : i < S0.length
    · rw [List.getD_append _ _ _ _ hi, ← hS0]; exact SHA256_lt _ _ _
    · rw [List.getD_append_right _ _ _ _ (by omega), ← hS1]; exact SHA256_lt _ _ _
  have hB : mgf1_loop P h0 36 2 0 (zeros 67) = S0 ++ S1 ++ zeros 3 := by
    rw [mgf1_36, bytesN_of_length lh, hS0, hS1]
  obtain ⟨L1, L2, L3, p1, p2, p3⟩ := parse_digest (S0 ++ S1 ++ zeros 3)
    (by simp [l0, l1]) 36
  have hget : ∀ i, i < 64 → (S0 ++ S1 ++ zeros 3).getD i 0 = (S0 ++ S1).getD i 0 := by
    intro i hi
    rw [List.getD_append _ _ _ _ (by simp [l0, l1]; omega)]
  have hdrop : get_bigendian ((S0 ++ S1 ++ zeros 3).drop 28) 7
      = get_bigendian ((S0 ++ S1).drop 28) 7 := by
    simp only [get_bigendian]
    rw [drop_append_ge _ _ _ (by simp [l0, l1]),
      bytesN_append_ge _ _ _ (by simp [l0, l1])]
  have hval : do_compute_digest_index P 24 r seed root msg 14 16 64 8
      = ((List.range 14).map (fun i =>
          (S0 ++ S1).getD (2 * i) 0 + 256 * (S0 ++ S1).getD (2 * i + 1) 0),
         get_bigendian ((S0 ++ S1).drop 28) 7, (S0 ++ S1).getD 35 0) := by
    have hm : (14 * 16 + 7) / 8 + (64 - 64 / 8 + 7) / 8 + (64 / 8 + 7) / 8 = 36 := by norm_num
    have e64 : (64 : Nat) - 64 / 8 = 56 := by norm_num
    have e8 : (64 : Nat) / 8 = 8 := by norm_num
    have e67 : 36 + 31 = 67 := rfl
    have e2 : 36 / 32 + 1 = 2 := rfl
    have r8 : ∀ (p : List Nat) (L : Int), round_bit_extract ⟨p, L, 8⟩ = ⟨p, L, 8⟩ := by
      intro p L; simp [round_bit_extract]
    simp only [do_compute_digest_index, hh0, hm, e64, e8, e67, e2, hB, init_bit_extract]
    have p1' : md_loop 16 14 { p := S0 ++ S1 ++ zeros 3, len := ((36 : Nat) : Int), bit_pos := 8 } []
        = _ := p1
    rw [p1']
    simp only [r8, p2, p3]
    refine Prod.ext ?_ (Prod.ext hdrop ?_)
    · show List.map _ _ = List.map _ _
      apply List.map_congr_left
      intro i hi
      have hi' : i < 14 := List.mem_range.mp hi
      show (S0 ++ S1 ++ zeros 3).getD (2 * i) 0 % 256
          + 256 * ((S0 ++ S1 ++ zeros 3).getD (2 * i + 1) 0 % 256) = _
      rw [hget _ (by omega), hget _ (by omega), Nat.mod_eq_of_lt (hlt _),
        Nat.mod_eq_of_lt (hlt _)]
    · show (S0 ++ S1 ++ zeros 3).getD 35 0 % 256 % 2 ^ 32 = _
      rw [hget _ (by omega), Nat.mod_eq_of_lt (hlt _), Nat.mod_eq_of_lt]
      exact Nat.lt_trans (hlt _) (by norm_num)
  refine ⟨?_, ?_⟩
  · rw [hval]
    show get_bigendian ((S0 ++ S1).drop 28) 7 < 2 ^ 56
    simp only [get_bigendian]
    have := be_fold_lt (bytesN 7 ((S0 ++ S1).drop 28)) (by simp)
    simpa using this
  · rw [hval]
    exact hlt 35

theorem merkle_leaves_len (T : Tune) (P : Prims) (ap : Nat) :
    ∀ (m : Nat) (st : build_merkle_state) (a r : List Nat) (flag : Bool),
      st.tree_height = 8 → st.n = 24 → st.target_node < 2 ^ 8 → st.auth_path = some ap →
      ap + 192 ≤ a.length →
      (merkle_leaves T P m st a r flag).authMem.length = a.length := by
  intro m
  induction m with
  | zero => intro st a r flag _ _ _ _ _; rfl
  | succ m ih =>
    intro st a r flag hth hn ht hap hlen
    by_cases hd : 2 ^ st.tree_height ≤ st.current_node
    · rw [merkle_leaves_done T P m st a r flag hd]
    · have hd' : ¬ (st.current_node ≥ 2 ^ st.tree_height) := hd
      have hc : st.current_node < 2 ^ st.tree_height := by omega
      simp only [merkle_leaves, hd', if_false]
      generalize hw : merkle_up P st.current_node 32 0 _ a r _ = w
      have u2 : merkErase w.state = merkErase st := by
        rw [← hw]
        have h0 : st.current_node % 2 ^ 0 = 2 ^ 0 - 1 := by rw [pow_zero, Nat.mod_one, Nat.sub_self]
        have h32 : st.tree_height - 0 < 32 := by omega
        exact (merkle_up_adr P st.current_node 32 0 st _ a r _ hc h0 h32).2.1
      have ulen : w.authMem.length = a.length := by
        rw [← hw]
        refine merkle_up_len P st.current_node (by rw [hth] at hc; exact hc) ap 32 0 _ a r _
          ?_ ?_ ?_ hlen
        · exact hn
        · exact ht
        · exact hap
      have hth' : w.state.tree_height = st.tree_height := by
        have := congrArg build_merkle_state.tree_height u2
        exact this
      have hn' : w.state.n = st.n := by
        have := congrArg build_merkle_state.n u2
        exact this
      have ht' : w.state.target_node = st.target_node := by
        have := congrArg build_merkle_state.target_node u2
        exact this
      have hap' : w.state.auth_path = st.auth_path := by
        have := congrArg build_merkle_state.auth_path u2
        exact this
      refine Eq.trans (ih _ _ _ _ ?_ ?_ ?_ ?_ ?_) ulen
      · exact hth'.trans hth
      · exact hn'.trans hn
      · exact ht'.symm ▸ ht
      · exact hap'.trans hap
      · rw [ulen]; exact hlen

theorem sig_of_lmsErase {x y : sh_signer} (h : lmsErase x = lmsErase y) :
    sig_inv x ↔ sig_inv y := by
  have h1 : sig_inv x = sig_inv (lmsErase x) := rfl
  have h2 : sig_inv y = sig_inv (lmsErase y) := rfl
  rw [h1, h2, h]

theorem sig_fields_of_forsErase {x y : sh_signer} (h : forsErase x = forsErase y) :
    sig_fields x ↔ sig_fields y := by
  have h1 : sig_fields x = sig_fields (forsErase x) := rfl
  have h2 : sig_fields y = sig_fields (forsErase y) := rfl
  rw [h1, h2, h]

theorem init_build_merkle_target (st0 : build_merkle_state) (sk_seed pk_seed : List Nat)
    (hash h layer tree target : Nat) (auth_path root : Option Nat)
    (hi : (init_build_merkle st0 sk_seed pk_seed hash h layer tree target auth_path root).1
      = true) :
    (init_build_merkle st0 sk_seed pk_seed hash h layer tree target auth_path root).2.auth_path
      = auth_path ∧
    (init_build_merkle st0 sk_seed pk_seed hash h layer tree target auth_path root).2.target_node
      = target := by
  revert hi
  simp only [init_build_merkle]
  split
  · intro _; exact ⟨rfl, rfl⟩
  · intro h; cases h
theorem sig_do_lms (T : Tune) (P : Prims) (S : sh_signer) (hb : S.build_state = b_do_lms)
    (hev : S.do_lms_leaf % 2 = 0) (hlt : S.do_lms_leaf + 2 ≤ 2 ^ LMS_ACTUAL T)
    (hL : S.next_sphincs_sig.length = LEN_SPHINCS_SIG) :
    sig_inv (do_lms_loop T P LMS_LEAF_PER_ITER S) := by
  rw [sig_of_lmsErase (do_lms_loop_spec T P S hev hlt)]
  refine ⟨hL, ?_⟩
  by_cases hc : S.do_lms_leaf + 2 = 2 ^ LMS_ACTUAL T
  · simp only [sig_fields, hc, if_true]
  · simp only [sig_fields, hc, if_false, hb]

theorem sig_step_init (T : Tune) (P : Prims) (s : sh_signer)
    (hf : s.got_fatal_error = false) (hb : s.build_state = b_init)
    (hd : s.drbg.reseed_counter + 1 < 2 ^ 48) (hS : sig_inv s) :
    sig_inv (step_next T P s).2 := by
  have hA := LMS_ACTUAL_ge T
  have h12 : 2 ^ 1 ≤ 2 ^ LMS_ACTUAL T := Nat.pow_le_pow_right (by norm_num) (by omega)
  obtain ⟨r1, r1c⟩ := read_drbg_ok P s.next_lms_seed 32 s.drbg (by omega)
  obtain ⟨r2, _⟩ := read_drbg_ok P s.next_lms_I 16 (read_drbg P s.next_lms_seed 32 s.drbg).2.2
    (by omega)
  simp only [step_next, hf, hb, r1, r2, Bool.false_eq_true, if_false, not_true_eq_false]
  refine sig_do_lms T P _ rfl ?_ ?_ hS.1
  · rfl
  · show 0 + 2 ≤ 2 ^ LMS_ACTUAL T
    norm_num at h12
    omega

theorem sig_step_do_lms (T : Tune) (P : Prims) (s : sh_signer)
    (hI : build_inv T s) (hb : s.build_state = b_do_lms) (hS : sig_inv s) :
    sig_inv (step_next T P s).2 := by
  have hf : s.got_fatal_error = false := hI.1
  have h2 := hI.2
  simp only [hb] at h2
  simp only [step_next, hf, hb, Bool.false_eq_true, if_false]
  exact sig_do_lms T P s hb h2.1 h2.2.2 hS.1

theorem sig_step_lms_finished (T : Tune) (P : Prims) (s : sh_signer)
    (hf : s.got_fatal_error = false) (hb : s.build_state = b_lms_finished) (hS : sig_inv s) :
    sig_inv (step_next T P s).2 ∧ (step_next T P s).2.sphincs_sig_index = 24 := by
  rw [step_next_lms_finished T P s hf hb]
  have hL := hS.1
  have h17 : LEN_SPHINCS_SIG = 17064 := by decide
  rw [h17] at hL
  refine ⟨⟨?_, ?_⟩, ?_⟩
  · show (step_lms_finished T P s).next_sphincs_sig.length = LEN_SPHINCS_SIG
    simp only [step_lms_finished]
    rw [memcpy_length _ _ _ _ (by split <;> (try simp only []) <;> omega)]
    split <;> (try simp only []) <;> (rw [h17]; exact hL)
  · simp only [sig_fields, step_lms_finished_state]
    refine ⟨?_, ?_⟩
    · simp only [step_lms_finished, Nat.zero_mul, Nat.add_zero]
    · simp only [step_lms_finished]
      exact (digest_index_bounds P _ _ _ _).2
  · simp only [step_lms_finished]
theorem sig_step_fors (T : Tune) (P : Prims) (s : sh_signer) (hF : T.FAULT_STRATEGY = 0)
    (hI : build_inv T s) (hb : s.build_state = b_fors) (hS : sig_inv s) :
    sig_inv (step_next T P s).2 := by
  have hf : s.got_fatal_error = false := hI.1
  have h2 := hI.2
  simp only [hb] at h2
  obtain ⟨ht, hm, hl⟩ := h2
  have h16 : 2 ^ SPH_A = 65536 := by decide
  have hK : SPH_K = 14 := rfl
  have hA : SPH_A = 16 := rfl
  have h17 : LEN_SPHINCS_SIG = 17064 := by decide
  rw [h16] at hl
  rw [hK] at ht
  obtain ⟨hL, hSf⟩ := hS
  have hSf' := hSf
  simp only [sig_fields, hb, hA] at hSf'
  obtain ⟨hidx, hleaf⟩ := hSf'
  rw [h17] at hL
  have hmod : s.do_fors_leaf % 2 ^ 32 = s.do_fors_leaf := Nat.mod_eq_of_lt (by omega)
  simp only [step_next, hf, hb, hmod, Bool.false_eq_true, if_false]
  generalize hfl : fors_loop T P _ _ (FORS_LEAFS_PER_ITER T) s _ s.do_fors_leaf _ = fl
  obtain ⟨a1, a2, a3⟩ :
      fl.2.2 = false ∧
      fl.2.1 = (if s.do_fors_leaf + FORS_LEAFS_PER_ITER T < 2 ^ SPH_A
        then s.do_fors_leaf + FORS_LEAFS_PER_ITER T else 0) ∧
      forsErase fl.1 =
        (if s.do_fors_leaf + FORS_LEAFS_PER_ITER T < 2 ^ SPH_A then forsErase s
         else forsErase { s with
           do_fors_tree := s.do_fors_tree + 1,
           sphincs_sig_index := (s.sphincs_sig_index + 24 * (1 + SPH_A)) % 2 ^ 32,
           do_fors_redundant_pass := false }) := by
    rw [← hfl]
    exact fors_loop_spec T P _ _ hF _ s _ _ _ (by rw [h16]; exact hl)
  have alen : fl.1.next_sphincs_sig.length = s.next_sphincs_sig.length := by
    rw [← hfl]
    exact fors_loop_len T P _ _ _ s _ _ _ (by rw [hidx, hL]; omega)
  rw [h16] at a2 a3
  simp only [a1, Bool.false_eq_true, if_false]
  have hnew : (s.sphincs_sig_index + 24 * (1 + 16)) % 2 ^ 32
      = 24 + (s.do_fors_tree + 1) * (24 * (1 + 16)) := by
    rw [hidx, Nat.mod_eq_of_lt (by omega)]
    ring
  by_cases hc : s.do_fors_leaf + FORS_LEAFS_PER_ITER T < 65536
  · rw [if_pos hc] at a2 a3
    have htree : fl.1.do_fors_tree = s.do_fors_tree := by
      have := congrArg sh_signer.do_fors_tree a3
      exact this
    have hne : ¬ (fl.1.do_fors_tree = SPH_K) := by rw [htree, hK]; omega
    simp only [hne, if_false]
    refine ⟨by rw [h17]; exact alen.trans hL, ?_⟩
    rw [sig_fields_of_forsErase (forsErase_leaf a3 fl.2.1)]
    simp only [sig_fields, hb, hA]
    exact ⟨hidx, hleaf⟩
  · rw [if_neg hc] at a2 a3
    have htree : fl.1.do_fors_tree = s.do_fors_tree + 1 := by
      have := congrArg sh_signer.do_fors_tree a3
      exact this
    by_cases hlast : s.do_fors_tree + 1 = SPH_K
    · have he : fl.1.do_fors_tree = SPH_K := by rw [htree, hlast]
      rw [if_pos he]
      refine ⟨by rw [h17]; exact alen.trans hL, ?_⟩
      rw [sig_fields_of_forsErase (forsErase_leaf_state a3 fl.2.1 b_complete_fors)]
      simp only [sig_fields, hA, hK]
      rw [hK] at hlast
      refine ⟨?_, hleaf⟩
      rw [hnew, hlast]
    · have he : ¬ (fl.1.do_fors_tree = SPH_K) := by rw [htree]; exact hlast
      simp only [he, if_false]
      refine ⟨by rw [h17]; exact alen.trans hL, ?_⟩
      rw [sig_fields_of_forsErase (forsErase_leaf a3 fl.2.1)]
      simp only [sig_fields, hb, hA]
      exact ⟨hnew, hleaf⟩

theorem sig_step_complete_fors (T : Tune) (P : Prims) (s : sh_signer)
    (hI : build_inv T s) (hb : s.build_state = b_complete_fors) (hS : sig_inv s) :
    sig_inv (step_next T P s).2 := by
  have hf : s.got_fatal_error = false := hI.1
  obtain ⟨hL, hSf⟩ := hS
  simp only [sig_fields, hb] at hSf
  simp only [step_next, hf, hb, memeq_self, Bool.false_eq_true, if_false, not_true_eq_false]
  refine ⟨hL, ?_⟩
  simp only [sig_fields, if_true, Nat.zero_mul, Nat.add_zero, ne_eq, not_true_eq_false,
    false_implies, and_true]
  exact ⟨hSf.2, hSf.1⟩

theorem sig_step_hyper_start (T : Tune) (P : Prims) (s : sh_signer)
    (hI : build_inv T s) (hb : s.build_state = b_hypertree) (h0 : s.do_hyper_do_tree = 0)
    (hS : sig_inv s) :
    sig_inv (step_next T P s).2 := by
  have hf : s.got_fatal_error = false := hI.1
  have h2 := hI.2
  simp only [hb] at h2
  have hlev : s.do_hyper_level < 8 := h2.1
  have hK : SPH_K = 14 := rfl
  have hA : SPH_A = 16 := rfl
  have hT : SPH_T = 8 := by decide
  have h17 : LEN_SPHINCS_SIG = 17064 := by decide
  obtain ⟨hL, hSf⟩ := hS
  simp only [sig_fields, hb, h0, if_true, hK, hA, hT, Nat.add_zero] at hSf
  obtain ⟨hleaf, hidx, _⟩ := hSf
  rw [h17] at hL
  have hnew : (s.sphincs_sig_index + 51 * 24) % 2 ^ 32 = s.sphincs_sig_index + 51 * 24 :=
    Nat.mod_eq_of_lt (by omega)
  simp only [step_next, hf, hb, step_hypertree, h0, expand_wots_digits_count, Bool.false_eq_true,
    if_false, if_true, ne_eq, not_true_eq_false, hnew]
  obtain ⟨_, _, _, e4⟩ := init_build_merkle_ok s.do_hyper_merk s.sk_seed s.pk_seed
    (HASH_TYPE_SHA256 ||| HASH_LEN_192) 8 s.do_hyper_level s.idx_tree s.idx_leaf
    (some (s.sphincs_sig_index + 51 * 24)) (some 0) (init_build_merkle_192 _ _ _ _ _ _ _ _ _)
  obtain ⟨e5, e6⟩ := init_build_merkle_target s.do_hyper_merk s.sk_seed s.pk_seed
    (HASH_TYPE_SHA256 ||| HASH_LEN_192) 8 s.do_hyper_level s.idx_tree s.idx_leaf
    (some (s.sphincs_sig_index + 51 * 24)) (some 0) (init_build_merkle_192 _ _ _ _ _ _ _ _ _)
  have h24 : hash_len (HASH_TYPE_SHA256 ||| HASH_LEN_192) = 24 := by decide
  refine ⟨?_, ?_⟩
  · show (hyper_wots_loop T P _ _ _ s.sphincs_sig_index 51 0 _ s.next_sphincs_sig).2.length
      = LEN_SPHINCS_SIG
    rw [hyper_wots_len T P _ _ _ _ 51 0 _ _ (by rw [hL]; omega), h17, hL]
  · simp only [sig_fields, hb, one_ne_zero, if_false, ne_eq, not_false_eq_true, true_implies,
      e4, e5, e6, h24, hK, hA, hT]
    refine ⟨hleaf, ?_, trivial, trivial, hleaf⟩
    omega

theorem sig_step_hyper_tree (T : Tune) (P : Prims) (s : sh_signer) (hF : T.FAULT_STRATEGY = 0)
    (hI : build_inv T s) (hb : s.build_state = b_hypertree) (h1 : s.do_hyper_do_tree = 1)
    (hS : sig_inv s) :
    sig_inv (step_next T P s).2 := by
  have hf : s.got_fatal_error = false := hI.1
  have h2 := hI.2
  simp only [hb, h1, one_ne_zero, false_or, true_and] at h2
  obtain ⟨hlev, hth, hmod, hlt⟩ := h2
  have hT : SPH_T = 8 := by decide
  have hD : SPH_D = 8 := rfl
  have hK : SPH_K = 14 := rfl
  have hA : SPH_A = 16 := rfl
  have h17 : LEN_SPHINCS_SIG = 17064 := by decide
  rw [hT] at hth hlt
  rw [hD] at hlev
  obtain ⟨hL, hSf⟩ := hS
  simp only [sig_fields, hb, h1, one_ne_zero, if_false, hK, hA, hT, ne_eq, not_false_eq_true,
    true_implies] at hSf
  obtain ⟨hleaf, hidx, hap, hn, htg⟩ := hSf
  rw [h17] at hL
  have hM := MERKLE_CHAINS_pos T
  have h10 : ¬ (s.do_hyper_do_tree = 0) := by rw [h1]; exact one_ne_zero
  simp only [step_next, hf, hb, step_hypertree, h10, hF, Bool.false_eq_true,
    if_false, ne_eq, not_true_eq_false]
  generalize hw : step_build_merkle T P s.do_hyper_merk s.next_sphincs_sig _ = w
  have v2 : merkErase w.state = merkErase { s.do_hyper_merk with
        current_node := s.do_hyper_merk.current_node + MERKLE_CHAINS_PER_ITER T } := by
    rw [← hw]
    obtain ⟨u1, u2, _⟩ := merkle_leaves_spec T P (MERKLE_CHAINS_PER_ITER T) s.do_hyper_merk
      s.next_sphincs_sig
      (if s.do_hyper_merk.root = some 1 then s.do_hyper_redundant_root
        else s.do_hyper_next_root) false (by rw [hth]; omega)
    simp only [step_build_merkle]
    rw [u2]
    have : (if 2 ^ s.do_hyper_merk.tree_height ≤ s.do_hyper_merk.current_node
          then s.do_hyper_merk.current_node
        else min (s.do_hyper_merk.current_node + MERKLE_CHAINS_PER_ITER T)
          (2 ^ s.do_hyper_merk.tree_height))
        = s.do_hyper_merk.current_node + MERKLE_CHAINS_PER_ITER T := by
      rw [hth]
      rcases MERKLE_CHAINS_cases T with hMv | hMv <;> rw [hMv] at hmod ⊢ <;> split <;> omega
    exact congrArg (fun c => merkErase { s.do_hyper_merk with current_node := c }) this
  have wlen : w.authMem.length = s.next_sphincs_sig.length := by
    rw [← hw]
    simp only [step_build_merkle]
    exact merkle_leaves_len T P s.sphincs_sig_index _ _ _ _ _ hth hn htg hap
      (by rw [hL, hidx]; omega)
  have wap : w.state.auth_path = some s.sphincs_sig_index := by
    have := congrArg build_merkle_state.auth_path v2
    exact this.trans hap
  have wn : w.state.n = 24 := by
    have := congrArg build_merkle_state.n v2
    exact this.trans hn
  have wtg : w.state.target_node < 2 ^ 8 := by
    have := congrArg build_merkle_state.target_node v2
    have e : w.state.target_node = s.do_hyper_merk.target_node := this
    rw [e]; exact htg
  have hnew : (s.sphincs_sig_index + SPH_T * 24) % 2 ^ 32 = s.sphincs_sig_index + 8 * 24 := by
    rw [hT]; exact Nat.mod_eq_of_lt (by omega)
  have hnew8 : (s.sphincs_sig_index + 8 * 24) % 2 ^ 32 = s.sphincs_sig_index + 8 * 24 :=
    Nat.mod_eq_of_lt (by omega)
  have hand : (s.idx_tree &&& (2 ^ SPH_T - 1)) % 2 ^ 32 < 2 ^ 8 := by
    have : s.idx_tree &&& (2 ^ SPH_T - 1) ≤ 2 ^ SPH_T - 1 := Nat.and_le_right
    rw [hT] at this ⊢
    have h255 : (2 : Nat) ^ 8 - 1 = 255 := by norm_num
    rw [h255] at this ⊢
    omega
  cases hfl : w.all_done_flag with
  | true =>
    simp only [if_true]
    by_cases hlast : s.do_hyper_level + 1 = SPH_D
    · rw [if_pos hlast]
      refine ⟨by rw [h17]; exact wlen.trans hL, ?_⟩
      simp only [sig_fields, hnew]
      rw [hD] at hlast
      rw [h17, hidx]
      omega
    · rw [if_neg hlast]
      refine ⟨by rw [h17]; exact wlen.trans hL, ?_⟩
      simp only [sig_fields, hb, hnew, hnew8, if_true, hK, hA, hT, ne_eq, not_true_eq_false,
        false_implies, and_true]
      refine ⟨by rw [← hT]; exact hand, ?_⟩
      rw [hidx]
      ring
  | false =>
    simp only [Bool.false_eq_true, if_false]
    refine ⟨by rw [h17]; exact wlen.trans hL, ?_⟩
    simp only [sig_fields, hb, h1, one_ne_zero, if_false, hK, hA, hT, ne_eq, not_false_eq_true,
      true_implies]
    exact ⟨hleaf, hidx, wap, wn, wtg⟩
theorem sig_step (T : Tune) (P : Prims) (s : sh_signer) (hF : T.FAULT_STRATEGY = 0)
    (hI : build_inv T s) (hS : sig_inv s) (hnd : s.build_state ≠ b_done)
    (hd : s.build_state = b_init → s.drbg.reseed_counter + 1 < 2 ^ 48) :
    sig_inv (step_next T P s).2 := by
  cases hs : s.build_state with
  | b_init => exact sig_step_init T P s hI.1 hs (hd hs) hS
  | b_do_lms => exact sig_step_do_lms T P s hI hs hS
  | b_lms_finished => exact (sig_step_lms_finished T P s hI.1 hs hS).1
  | b_fors => exact sig_step_fors T P s hF hI hs hS
  | b_complete_fors => exact sig_step_complete_fors T P s hI hs hS
  | b_hypertree =>
    have h2 := hI.2
    simp only [hs] at h2
    rcases h2.2 with h0 | h1
    · exact sig_step_hyper_start T P s hI hs h0 hS
    · exact sig_step_hyper_tree T P s hF hI hs h1.1 hS
  | b_done => exact absurd hs hnd
  | b_count =>
    have h2 := hI.2
    simp only [hs] at h2

theorem sig_cycle (T : Tune) (P : Prims) (s : sh_signer) (hF : T.FAULT_STRATEGY = 0)
    (hI : build_inv T s) (hS : sig_inv s)
    (hd : s.build_state = b_init → s.drbg.reseed_counter + 1 < 2 ^ 48) :
    ∀ k, build_pos T s + k + 1 ≤ build_steps T →
      build_inv T (run T P k s) ∧ sig_inv (run T P k s) := by
  intro k
  induction k with
  | zero => intro _; exact ⟨hI, hS⟩
  | succ k ih =>
    intro hk
    obtain ⟨i1, i2, _, _⟩ := run_cycle T P s hF hI hd k (by omega)
    obtain ⟨j1, _, _, _⟩ := run_cycle T P s hF hI hd (k + 1) hk
    have hnd : (run T P k s).build_state ≠ b_done := by
      intro h
      have := (build_pos_done T (run T P k s) hF i1).2.mpr h
      omega
    have hd' : (run T P k s).build_state = b_init →
        (run T P k s).drbg.reseed_counter + 1 < 2 ^ 48 := by
      intro h
      have h0 := build_pos_init T _ i1 h
      have hk0 : k = 0 := by omega
      subst hk0
      exact hd h
    refine ⟨j1, ?_⟩
    rw [run_succ]
    exact sig_step T P _ hF i1 (ih (by omega)).2 hnd hd'

/-- C36: in a build cycle without fault protection that starts in `b_init`
with a `next_sphincs_sig` buffer of `LEN_SPHINCS_SIG` bytes, after every
`step_next` call the buffer still has 17064 bytes (a `memcpy` into a buffer
keeps its length exactly when it stays inside the buffer, and never shortens
it, so every write of the cycle lies inside `[0, 17064)`); the call made in
`b_lms_finished` leaves `sphincs_sig_index = 24`; in `b_fors` the index is
`24 + 408 * do_fors_tree`, in `b_complete_fors` it is 5736, in `b_hypertree`
it is `5736 + 1416 * do_hyper_level` plus 1224 once the WOTS+ signature of
the layer is written, and when `b_done` is reached, after
`build_steps - 1` calls, it is 17064 = `LEN_SPHINCS_SIG`. -/
theorem sphincs_sig_bookkeeping (T : Tune) (P : Prims) (s : sh_signer)
    (hF : T.FAULT_STRATEGY = 0) (hf : s.got_fatal_error = false) (hb : s.build_state = b_init)
    (hd : s.drbg.reseed_counter + 1 < 2 ^ 48)
    (hL : s.next_sphincs_sig.length = LEN_SPHINCS_SIG) :
    (∀ k, k + 1 ≤ build_steps T →
      (run T P k s).next_sphincs_sig.length = 17064 ∧
      ((run T P k s).build_state = b_lms_finished →
        (run T P (k + 1) s).sphincs_sig_index = 24) ∧
      ((run T P k s).build_state = b_fors →
        (run T P k s).sphincs_sig_index = 24 + 408 * (run T P k s).do_fors_tree ∧
        (run T P k s).do_fors_tree < 14) ∧
      ((run T P k s).build_state = b_complete_fors →
        (run T P k s).sphincs_sig_index = 24 + 14 * 17 * 24) ∧
      ((run T P k s).build_state = b_hypertree →
        (run T P k s).sphincs_sig_index = 5736 + 1416 * (run T P k s).do_hyper_level
          + (if (run T P k s).do_hyper_do_tree = 0 then 0 else 1224) ∧
        (run T P k s).do_hyper_level < 8) ∧
      ((run T P k s).build_state = b_done → (run T P k s).sphincs_sig_index = 17064)) ∧
    (run T P (build_steps T - 1) s).build_state = b_done ∧
    (run T P (build_steps T - 1) s).sphincs_sig_index = 24 * (1 + 14 * 17 + 8 * (51 + 8)) ∧
    LEN_SPHINCS_SIG = 17064 ∧
    (∀ (d src : List Nat) (off n : Nat), 0 < n →
      ((memcpy d off src n).length = d.length ↔ off + n ≤ d.length)) ∧
    (∀ (d src : List Nat) (off n : Nat), d.length ≤ (memcpy d off src n).length) := by
  have hI : build_inv T s := by
    simp only [build_inv, hf, hb, and_self]
  have hS : sig_inv s := ⟨hL, by simp only [sig_fields, hb]⟩
  have hp := build_pos_init T s hI hb
  have hK : SPH_K = 14 := rfl
  have hA : SPH_A = 16 := rfl
  have hT : SPH_T = 8 := by decide
  have hD : SPH_D = 8 := rfl
  have h17 : LEN_SPHINCS_SIG = 17064 := by decide
  have key : ∀ k, k + 1 ≤ build_steps T →
      build_inv T (run T P k s) ∧ sig_inv (run T P k s) := by
    intro k hk
    exact sig_cycle T P s hF hI hS (fun _ => hd) k (by omega)
  have hN : 1 ≤ build_steps T := Nat.le_add_left 1 _
  have hdone := (full_cycle T P s hF hf hb hd).2.1
  refine ⟨?_, hdone, ?_, h17, fun d src off n hn => memcpy_length_iff d src off n hn,
    fun d src off n => memcpy_length_ge d src off n⟩
  · intro k hk
    obtain ⟨bI, sL, sF⟩ := key k hk
    rw [h17] at sL
    refine ⟨sL, ?_, ?_, ?_, ?_, ?_⟩
    · intro hst
      rw [run_succ]
      exact (sig_step_lms_finished T P _ bI.1 hst ⟨by rw [h17]; exact sL, sF⟩).2
    · intro hst
      have h2 := bI.2
      simp only [hst] at h2
      simp only [sig_fields, hst, hA] at sF
      rw [hK] at h2
      refine ⟨?_, h2.1⟩
      rw [sF.1]; ring
    · intro hst
      simp only [sig_fields, hst, hA, hK] at sF
      rw [sF.1]
    · intro hst
      have h2 := bI.2
      simp only [hst] at h2
      simp only [sig_fields, hst, hA, hK, hT] at sF
      rw [hD] at h2
      refine ⟨?_, h2.1⟩
      rw [sF.2.1]
      split <;> ring
    · intro hst
      simp only [sig_fields, hst] at sF
      rw [sF, h17]
  · obtain ⟨_, _, sF⟩ := key (build_steps T - 1) (by omega)
    simp only [sig_fields, hdone] at sF
    rw [sF, h17]

/-- Witness for `sphincs_sig_bookkeeping`: zero-filled signer memory with the
shipped settings reaches `b_done` after 14422 calls. -/
theorem sphincs_sig_bookkeeping_witness :
    blank_signer.next_sphincs_sig.length = LEN_SPHINCS_SIG ∧
      (run tune zero_prims (build_steps tune - 1) blank_signer).build_state = b_done :=
  ⟨by simp [blank_signer, LEN_SPHINCS_SIG, SPH_K, SPH_A, SPH_H, SPH_D, SPH_DLEN],
   (sphincs_sig_bookkeeping tune zero_prims blank_signer rfl rfl rfl (by decide)
      (by simp [blank_signer, LEN_SPHINCS_SIG, SPH_K, SPH_A, SPH_H, SPH_D, SPH_DLEN])).2.1⟩

/-! ## The WOTS+ chains of a hypertree layer -/

theorem exists_ten (p : List Nat) (hp : p.length = 10) :
    ∃ a0 a1 a2 a3 a4 a5 a6 a7 a8 a9, p = [a0, a1, a2, a3, a4, a5, a6, a7, a8, a9] := by
  rcases p with _ | ⟨p0, p⟩
  · simp at hp
  rcases p with _ | ⟨p1, p⟩
  · simp at hp
  rcases p with _ | ⟨p2, p⟩
  · simp at hp
  rcases p with _ | ⟨p3, p⟩
  · simp at hp
  rcases p with _ | ⟨p4, p⟩
  · simp at hp
  rcases p with _ | ⟨p5, p⟩
  · simp at hp
  rcases p with _ | ⟨p6, p⟩
  · simp at hp
  rcases p with _ | ⟨p7, p⟩
  · simp at hp
  rcases p with _ | ⟨p8, p⟩
  · simp at hp
  rcases p with _ | ⟨p9, p⟩
  · simp at hp
  rcases p with _ | ⟨p10, p⟩
  · exact ⟨_, _, _, _, _, _, _, _, _, _, rfl⟩
  · simp at hp

theorem wadr_setters (p : List Nat) (k c j v : Nat) (hp : p.length = 10) :
    set_key_pair_address (wadr p k c j) v = wadr p v c j ∧
    set_chain_address (wadr p k c j) v = wadr p k v j ∧
    set_hash_address (wadr p k c j) v = wadr p k c v ∧
    (wadr p k c j).length = 22 ∧
    (wadr p k c j).take 9 = p.take 9 := by
  obtain ⟨a0, a1, a2, a3, a4, a5, a6, a7, a8, a9, rfl⟩ := exists_ten p hp
  have e : (0 : Nat) % 256 = 0 := rfl
  refine ⟨rfl, rfl, ?_, rfl, rfl⟩
  simp only [set_hash_address, setByte, wadr, List.cons_append, List.nil_append, List.set_cons_succ,
    List.set_cons_zero, e]

theorem set_type_wadr (adr : List Nat) (t : Nat) (h : adr.length = 22) :
    set_type adr t = wadr (adr.take 9 ++ [t % 256]) 0 0 0 := by
  rw [set_type_canon adr t h]
  rfl

theorem wots_chain_add (P : Prims) (hash : Nat) (pre : List Nat) (n : Nat) :
    ∀ (a b j : Nat) (adr x : List Nat),
      wots_chain P hash pre n b (j + a) (wots_chain P hash pre n a j adr x).1
          (wots_chain P hash pre n a j adr x).2
        = wots_chain P hash pre n (a + b) j adr x := by
  intro a
  induction a with
  | zero => intro b j adr x; simp only [wots_chain, Nat.add_zero, Nat.zero_add]
  | succ a ih =>
    intro b j adr x
    have e : a + 1 + b = (a + b) + 1 := by omega
    rw [e]
    simp only [wots_chain]
    have e2 : j + (a + 1) = j + 1 + a := by omega
    rw [e2]
    exact ih b (j + 1) _ _

theorem wots_chain_wadr (P : Prims) (hash : Nat) (pre : List Nat) (n : Nat) (p : List Nat)
    (k c : Nat) (hp : p.length = 10) :
    ∀ (cnt j x : Nat) (v : List Nat),
      (wots_chain P hash pre n (cnt + 1) j (wadr p k c x) v).1 = wadr p k c (j + cnt) ∧
      (wots_chain P hash pre n (cnt + 1) j (wadr p k c x) v).2
        = (wots_chain P hash pre n (cnt + 1) j (wadr p k c 0) v).2 := by
  intro cnt
  induction cnt with
  | zero =>
    intro j x v
    simp only [wots_chain, (wadr_setters p k c x j hp).2.2.1, (wadr_setters p k c 0 j hp).2.2.1,
      Nat.add_zero, and_self]
  | succ m ih =>
    intro j x v
    have h1 : ∀ y, wots_chain P hash pre n (m + 1 + 1) j (wadr p k c y) v
        = wots_chain P hash pre n (m + 1) (j + 1) (wadr p k c j)
            (hashInto (do_F P hash pre (wadr p k c j) v) v n) := by
      intro y
      have := (wadr_setters p k c y j hp).2.2.1
      conv => lhs; unfold wots_chain
      simp only [this]
    rw [h1 x, h1 0]
    refine ⟨?_, rfl⟩
    rw [(ih (j + 1) j _).1]
    congr 1
    omega

theorem do_F_bytesN (P : Prims) (pre adr v : List Nat) :
    hashInto (do_F P (HASH_TYPE_SHA256 ||| HASH_LEN_192) pre adr (bytesN 24 v)) (bytesN 24 v) 24
      = hashInto (do_F P (HASH_TYPE_SHA256 ||| HASH_LEN_192) pre adr v) v 24 := by
  have h24 : hash_len (HASH_TYPE_SHA256 ||| HASH_LEN_192) = 24 := by decide
  simp only [do_F, h24, bytesN_bytesN]
  split_ifs <;> simp [hashInto]

theorem hashInto_len (P : Prims) (pre adr v : List Nat) :
    (hashInto (do_F P (HASH_TYPE_SHA256 ||| HASH_LEN_192) pre adr v) v 24).length = 24 := by
  have h24 : hash_len (HASH_TYPE_SHA256 ||| HASH_LEN_192) = 24 := by decide
  simp only [do_F, h24]
  split_ifs <;> simp [hashInto]

theorem wots_chain_bytesN (P : Prims) (pre : List Nat) :
    ∀ (cnt j : Nat) (adr v : List Nat),
      bytesN 24 (wots_chain P (HASH_TYPE_SHA256 ||| HASH_LEN_192) pre 24 cnt j adr
          (bytesN 24 v)).2
        = bytesN 24 (wots_chain P (HASH_TYPE_SHA256 ||| HASH_LEN_192) pre 24 cnt j adr v).2 := by
  intro cnt
  cases cnt with
  | zero => intro j adr v; simp only [wots_chain, bytesN_bytesN]
  | succ m =>
    intro j adr v
    simp only [wots_chain, do_F_bytesN]

theorem wots_chain_len (P : Prims) (pre : List Nat) :
    ∀ (cnt j : Nat) (adr v : List Nat),
      (wots_chain P (HASH_TYPE_SHA256 ||| HASH_LEN_192) pre 24 (cnt + 1) j adr v).2.length
        = 24 := by
  intro cnt
  induction cnt with
  | zero => intro j adr v; simp only [wots_chain]; exact hashInto_len P pre _ v
  | succ m ih =>
    intro j adr v
    have : wots_chain P (HASH_TYPE_SHA256 ||| HASH_LEN_192) pre 24 (m + 1 + 1) j adr v
        = wots_chain P (HASH_TYPE_SHA256 ||| HASH_LEN_192) pre 24 (m + 1) (j + 1)
            (set_hash_address adr j)
            (hashInto (do_F P (HASH_TYPE_SHA256 ||| HASH_LEN_192) pre (set_hash_address adr j) v)
              v 24) := by
      conv => lhs; unfold wots_chain
    rw [this]
    exact ih _ _ _
theorem memcpy_acc (buf w : List Nat) (off : Nat) (h : off + 24 ≤ buf.length) :
    (memcpy buf off w 24).length = buf.length ∧
    (memcpy buf off w 24).take (off + 24) = buf.take off ++ bytesN 24 w ∧
    ∀ m, (memcpy buf off w 24).drop (off + 24 + m) = buf.drop (off + 24 + m) := by
  have hl : (buf.take off).length = off := by rw [List.length_take]; omega
  have hb : (bytesN 24 w).length = 24 := bytesN_length _ _
  refine ⟨memcpy_length _ _ _ _ h, ?_, ?_⟩
  · simp only [memcpy, blit, hb]
    rw [List.append_assoc, List.take_append_eq_append_take, hl]
    rw [List.take_of_length_le (by rw [hl]; omega)]
    congr 1
    rw [Nat.add_sub_cancel_left, List.take_append_eq_append_take, hb, Nat.sub_self,
      List.take_zero, List.append_nil, List.take_of_length_le (by rw [hb])]
  · intro m
    simp only [memcpy, blit, hb]
    rw [List.append_assoc, List.drop_append_eq_append_drop, hl]
    rw [List.drop_of_length_le (by rw [hl]; omega), List.nil_append]
    rw [List.drop_append_eq_append_drop, hb, List.drop_of_length_le (by rw [hb]; omega),
      List.nil_append, List.drop_drop]
    congr 1
    omega

theorem acc_join (buf : List Nat) (off cnt : Nat) (b1 x vals : List Nat)
    (h : off + 24 + 24 * cnt ≤ buf.length) (hl : b1.length = buf.length)
    (ht : b1.take (off + 24) = buf.take off ++ x)
    (hd : ∀ m, b1.drop (off + 24 + m) = buf.drop (off + 24 + m)) :
    b1.take (off + 24) ++ vals ++ b1.drop (off + 24 + 24 * cnt)
      = buf.take off ++ (x ++ vals) ++ buf.drop (off + 24 * (cnt + 1)) := by
  rw [ht, hd]
  have : off + 24 * (cnt + 1) = off + 24 + 24 * cnt := by omega
  rw [this]
  simp only [List.append_assoc]

theorem wots_sig_first (P : Prims) (pre p : List Nat) (k i d : Nat) (v : List Nat)
    (hp : p.length = 10) :
    ∃ x, (wots_chain P (HASH_TYPE_SHA256 ||| HASH_LEN_192) pre 24 d 0 (wadr p k i 0) v).1
      = wadr p k i x := by
  cases d with
  | zero => exact ⟨0, rfl⟩
  | succ m => exact ⟨0 + m, (wots_chain_wadr P _ pre 24 p k i hp m 0 0 v).1⟩

theorem hyper_wots_loop_spec (T : Tune) (P : Prims) (gen : private_key_generator)
    (pre digits p : List Nat) (k target : Nat) (hp : p.length = 10) :
    ∀ (cnt i c x : Nat) (sig : List Nat), target + 24 * (i + cnt) ≤ sig.length →
      (hyper_wots_loop T P gen pre digits target cnt i (wadr p k c x) sig).2
        = sig.take (target + 24 * i) ++ wots_sig_vals T P gen pre digits p k cnt i
            ++ sig.drop (target + 24 * (i + cnt)) := by
  intro cnt
  induction cnt with
  | zero =>
    intro i c x sig _
    simp only [hyper_wots_loop, wots_sig_vals, List.append_nil, Nat.add_zero,
      List.take_append_drop]
  | succ n ih =>
    intro i c x sig h
    have e1 : set_hash_address (set_chain_address (wadr p k c x) i) 0 = wadr p k i 0 := by
      rw [(wadr_setters p k c x i hp).2.1, (wadr_setters p k i x 0 hp).2.2.1]
    simp only [hyper_wots_loop, e1]
    generalize hv : do_private_key_gen T P 24 gen (slice (wadr p k i 0) (LEN_ADR - 16) 16) = v
    obtain ⟨x', hx'⟩ := wots_sig_first P pre p k i (digits.getD i 0) v hp
    rw [hx']
    obtain ⟨m1, m2, m3⟩ := memcpy_acc sig
      (wots_chain P (HASH_TYPE_SHA256 ||| HASH_LEN_192) pre 24 (digits.getD i 0) 0
        (wadr p k i 0) v).2 (target + 24 * i) (by omega)
    rw [ih (i + 1) i x' _ (by rw [m1]; omega)]
    have a1 : target + 24 * (i + 1) = target + 24 * i + 24 := by omega
    have a2 : target + 24 * (i + 1 + n) = target + 24 * i + 24 + 24 * n := by omega
    have a3 : target + 24 * (i + (n + 1)) = target + 24 * i + 24 * (n + 1) := by omega
    rw [a1, a2, a3]
    simp only [wots_sig_vals, hv]
    exact acc_join sig (target + 24 * i) n _ _ _ (by omega) m1 m2 m3

theorem wots_top_value (P : Prims) (pre p : List Nat) (k i d x : Nat) (v : List Nat)
    (hp : p.length = 10) (hd : d ≤ 15) :
    bytesN 24 (wots_chain P (HASH_TYPE_SHA256 ||| HASH_LEN_192) pre 24 (15 - d) d (wadr p k i x)
        (bytesN 24 (wots_chain P (HASH_TYPE_SHA256 ||| HASH_LEN_192) pre 24 d 0
          (wadr p k i 0) v).2)).2
      = bytesN 24 (wots_chain P (HASH_TYPE_SHA256 ||| HASH_LEN_192) pre 24 15 0
          (wadr p k i 0) v).2 := by
  rw [wots_chain_bytesN]
  obtain ⟨m, hm⟩ : ∃ m, 15 - d = m ∧ d + m = 15 := ⟨15 - d, rfl, by omega⟩
  rw [hm.1]
  cases m with
  | zero =>
    have : d = 15 := by omega
    subst this
    rfl
  | succ m =>
    obtain ⟨x', hx'⟩ := wots_sig_first P pre p k i d v hp
    have s1 := (wots_chain_wadr P (HASH_TYPE_SHA256 ||| HASH_LEN_192) pre 24 p k i hp m d x
      (wots_chain P (HASH_TYPE_SHA256 ||| HASH_LEN_192) pre 24 d 0 (wadr p k i 0) v).2).2
    have s2 := (wots_chain_wadr P (HASH_TYPE_SHA256 ||| HASH_LEN_192) pre 24 p k i hp m d x'
      (wots_chain P (HASH_TYPE_SHA256 ||| HASH_LEN_192) pre 24 d 0 (wadr p k i 0) v).2).2
    rw [s1, ← s2, ← hx']
    have := wots_chain_add P (HASH_TYPE_SHA256 ||| HASH_LEN_192) pre 24 d (m + 1) 0
      (wadr p k i 0) v
    rw [Nat.zero_add] at this
    rw [this, hm.2]

theorem verify_wots_chains_spec (T : Tune) (P : Prims) (gen : private_key_generator)
    (pre digits p : List Nat) (k : Nat) (hp : p.length = 10)
    (hd : ∀ t, digits.getD t 0 ≤ 15) :
    ∀ (cnt i c x : Nat) (rest root : List Nat), 24 * (i + cnt) ≤ root.length →
      ∃ c' x', verify_wots_chains P pre digits cnt i (wadr p k c x)
          (wots_sig_vals T P gen pre digits p k cnt i ++ rest) root
        = (wadr p k c' x', rest,
           root.take (24 * i) ++ wots_tops T P gen pre p k cnt i ++ root.drop (24 * (i + cnt))) := by
  intro cnt
  induction cnt with
  | zero =>
    intro i c x rest root _
    refine ⟨c, x, ?_⟩
    simp only [verify_wots_chains, wots_sig_vals, wots_tops, List.nil_append, List.append_nil,
      Nat.add_zero, List.take_append_drop]
  | succ n ih =>
    intro i c x rest root h
    simp only [verify_wots_chains, wots_sig_vals]
    generalize hv : do_private_key_gen T P 24 gen (slice (wadr p k i 0) (LEN_ADR - 16) 16) = v
    generalize hS : bytesN 24 (wots_chain P (HASH_TYPE_SHA256 ||| HASH_LEN_192) pre 24
      (digits.getD i 0) 0 (wadr p k i 0) v).2 = S
    have hSl : S.length = 24 := by rw [← hS]; exact bytesN_length _ _
    have b1 : bytesN 24 (S ++ wots_sig_vals T P gen pre digits p k n (i + 1) ++ rest) = S := by
      rw [List.append_assoc, bytesN_append_ge _ _ _ (by rw [hSl]), bytesN_of_length hSl]
    have b2 : (S ++ wots_sig_vals T P gen pre digits p k n (i + 1) ++ rest).drop 24
        = wots_sig_vals T P gen pre digits p k n (i + 1) ++ rest := by
      rw [List.append_assoc]
      exact List.drop_left' hSl
    rw [b1, b2, (wadr_setters p k c x i hp).2.1]
    have hout : ∃ x'', (wots_chain P (HASH_TYPE_SHA256 ||| HASH_LEN_192) pre 24
        (15 - digits.getD i 0) (digits.getD i 0) (wadr p k i x) S).1 = wadr p k i x'' := by
      cases 15 - digits.getD i 0 with
      | zero => exact ⟨x, rfl⟩
      | succ m => exact ⟨_, (wots_chain_wadr P _ pre 24 p k i hp m _ x S).1⟩
    obtain ⟨x'', hx''⟩ := hout
    rw [hx'']
    have e4 : 4 * (i * 24 / 4) = 24 * i := by omega
    rw [e4]
    obtain ⟨m1, m2, m3⟩ := memcpy_acc root
      (wots_chain P (HASH_TYPE_SHA256 ||| HASH_LEN_192) pre 24 (15 - digits.getD i 0)
        (digits.getD i 0) (wadr p k i x) S).2 (24 * i) (by omega)
    obtain ⟨c', x', hih⟩ := ih (i + 1) i x'' rest _ (by rw [m1]; omega)
    refine ⟨c', x', ?_⟩
    rw [hih]
    refine Prod.ext rfl (Prod.ext rfl ?_)
    show _ = root.take (24 * i) ++ wots_tops T P gen pre p k (n + 1) i
      ++ root.drop (24 * (i + (n + 1)))
    have a1 : 24 * (i + 1) = 24 * i + 24 := by omega
    have a2 : 24 * (i + 1 + n) = 24 * i + 24 + 24 * n := by omega
    have a3 : 24 * (i + (n + 1)) = 24 * i + 24 * (n + 1) := by omega
    rw [a1, a2, a3]
    simp only [wots_tops, hv]
    have htop := wots_top_value P pre p k i (digits.getD i 0) x v hp (hd i)
    rw [hS] at htop
    rw [← htop]
    exact acc_join root (24 * i) n _ _ _ (by omega) m1 m2 m3
theorem wots_leaf_loop_spec (T : Tune) (P : Prims) (st : build_merkle_state)
    (gen : private_key_generator) (p : List Nat) (k : Nat) (hp : p.length = 10)
    (hn : st.n = 24) (hh : st.hash = HASH_TYPE_SHA256 ||| HASH_LEN_192) :
    ∀ (cnt i c x : Nat) (buf : List Nat), 24 * (i + cnt) ≤ buf.length →
      ∃ c' x', wots_leaf_loop T P st gen cnt i (wadr p k c x) buf
        = (wadr p k c' x',
           buf.take (24 * i) ++ wots_tops T P gen st.pk_seed_pre p k cnt i
             ++ buf.drop (24 * (i + cnt))) := by
  intro cnt
  induction cnt with
  | zero =>
    intro i c x buf _
    refine ⟨c, x, ?_⟩
    simp only [wots_leaf_loop, wots_tops, List.append_nil, Nat.add_zero, List.take_append_drop]
  | succ n ih =>
    intro i c x buf h
    have e1 : set_hash_address (set_chain_address (wadr p k c x) i) 0 = wadr p k i 0 := by
      rw [(wadr_setters p k c x i hp).2.1, (wadr_setters p k i x 0 hp).2.2.1]
    simp only [wots_leaf_loop, e1, hn, hh]
    generalize hv : do_private_key_gen T P 24 gen (slice (wadr p k i 0) (LEN_ADR - 16) 16) = v
    have hout := (wots_chain_wadr P (HASH_TYPE_SHA256 ||| HASH_LEN_192) st.pk_seed_pre 24 p k i hp
      14 0 0 v).1
    rw [hout]
    have e4 : 4 * (24 / 4 * i) = 24 * i := by omega
    rw [e4]
    obtain ⟨m1, m2, m3⟩ := memcpy_acc buf
      (wots_chain P (HASH_TYPE_SHA256 ||| HASH_LEN_192) st.pk_seed_pre 24 15 0
        (wadr p k i 0) v).2 (24 * i) (by omega)
    obtain ⟨c', x', hih⟩ := ih (i + 1) i (0 + 14) _ (by rw [m1]; omega)
    refine ⟨c', x', ?_⟩
    rw [hih]
    refine Prod.ext rfl ?_
    show _ = buf.take (24 * i) ++ wots_tops T P gen st.pk_seed_pre p k (n + 1) i
      ++ buf.drop (24 * (i + (n + 1)))
    have a1 : 24 * (i + 1) = 24 * i + 24 := by omega
    have a2 : 24 * (i + 1 + n) = 24 * i + 24 + 24 * n := by omega
    have a3 : 24 * (i + (n + 1)) = 24 * i + 24 * (n + 1) := by omega
    rw [a1, a2, a3]
    simp only [wots_tops, hv]
    exact acc_join buf (24 * i) n _ _ _ (by omega) m1 m2 m3

theorem wots_tops_length (T : Tune) (P : Prims) (gen : private_key_generator) (pre p : List Nat)
    (k : Nat) : ∀ (cnt i : Nat), (wots_tops T P gen pre p k cnt i).length = 24 * cnt := by
  intro cnt
  induction cnt with
  | zero => intro i; rfl
  | succ n ih =>
    intro i
    simp only [wots_tops, List.length_append, bytesN_length, ih]
    omega

theorem layer_tree_take9 (adr : List Nat) (level tree : Nat) (h : adr.length = 22) :
    (set_tree_address (set_layer_address adr level) tree).take 9
      = (level % 256) :: put_bigendian (tree % 2 ^ 64) 8 ∧
    (set_tree_address (set_layer_address adr level) tree).length = 22 := by
  obtain ⟨a0, a1, a2, a3, a4, a5, a6, a7, a8, a9, a10, a11, a12, a13, a14, a15, a16, a17, a18,
    a19, a20, a21, rfl⟩ := list_of_length_22 adr h
  have hl : (put_bigendian (tree % 2 ^ 64) 8).length = 8 := put_bigendian_length _ _
  obtain ⟨b0, b1, b2, b3, b4, b5, b6, b7, hb⟩ := exists_eight _ (le_of_eq hl.symm)
  have hb' : put_bigendian (tree % 2 ^ 64) 8 = [b0, b1, b2, b3, b4, b5, b6, b7] := by
    rcases hb with ⟨rest, hb⟩
    rw [hb] at hl ⊢
    simp at hl
    rw [hl]
  simp only [set_tree_address, set_layer_address, setByte, memcpy, blit, hb']
  exact ⟨rfl, rfl⟩

theorem init_absorb_9 (P : Prims) (key extra init : List Nat) :
    init_absorb P key 9 extra 9 init
      = AES_encrypt P key (xorBytes init (bytesN 16 (bytesN 9 extra)) 16) := rfl

theorem gen_congr (T : Tune) (P : Prims) (sk adr adr' : List Nat) (n : Nat)
    (h : bytesN 9 adr = bytesN 9 adr') :
    init_private_key_gen T P sk n adr ADR_CONST_FOR_TREE
      = init_private_key_gen T P sk n adr' ADR_CONST_FOR_TREE := by
  have e9 : ADR_CONST_FOR_TREE = 9 := rfl
  simp only [init_private_key_gen, e9, init_absorb_9, h]
theorem expand_congr (a b : List Nat) (h : bytesN 24 a = bytesN 24 b) :
    expand_wots_digits 51 a 24 = expand_wots_digits 51 b 24 := by
  simp only [expand_wots_digits, h]

theorem expand_digits_le (H : List Nat) (t : Nat) :
    (expand_wots_digits 51 H 24).2.getD t 0 ≤ 15 := by
  rw [expand_congr H (bytesN 24 H) (bytesN_bytesN 24 H).symm,
    expand_wots_digits_eq 51 (bytesN 24 H) (bytesN_length 24 H) (le_refl _)]
  have hlt := nibbles_lt (bytesN 24 H)
  generalize ((bytesN 24 H).map (fun x => [x % 256 / 16, x % 256 % 16])).flatten = N at hlt
  generalize (N.map (fun d => 15 - d)).sum = c
  have hall : ∀ d ∈ N ++ [c / 2 ^ 8 % 16, c / 2 ^ 4 % 16, c % 16], d < 16 := by
    intro d hd
    simp only [List.mem_append, List.mem_cons, List.mem_singleton, List.not_mem_nil,
      or_false] at hd
    rcases hd with h | h | h | h
    · exact hlt d h
    · subst h; exact Nat.mod_lt _ (by norm_num)
    · subst h; exact Nat.mod_lt _ (by norm_num)
    · subst h; exact Nat.mod_lt _ (by norm_num)
  show (N ++ [c / 2 ^ 8 % 16, c / 2 ^ 4 % 16, c % 16]).getD t 0 ≤ 15
  generalize N ++ [c / 2 ^ 8 % 16, c / 2 ^ 4 % 16, c % 16] = L at hall
  by_cases ht : t < L.length
  · rw [List.getD_eq_getElem _ _ ht]
    have := hall _ (List.getElem_mem ht)
    omega
  · rw [List.getD_eq_default _ _ (by omega)]
    omega

theorem bytesN_eq_take (l : List Nat) (n : Nat) (h : n ≤ l.length) : bytesN n l = l.take n := by
  simp only [bytesN]
  exact List.take_append_of_le_length h

theorem do_thash_congr (P : Prims) (hash : Nat) (pk adr a b : List Nat) (len : Nat)
    (h : bytesN len a = bytesN len b) :
    do_thash P hash pk adr a len = do_thash P hash pk adr b len := by
  simp only [do_thash, h]

theorem hashInto_thash (P : Prims) (pk adr a old old2 : List Nat) (len : Nat) :
    hashInto (do_thash P (HASH_TYPE_SHA256 ||| HASH_LEN_192) pk adr a len) old 24
      = hashInto (do_thash P (HASH_TYPE_SHA256 ||| HASH_LEN_192) pk adr a len) old2 24 := by
  have h24 : hash_len (HASH_TYPE_SHA256 ||| HASH_LEN_192) = 24 := by decide
  simp only [do_thash, h24]
  split_ifs <;> first | rfl | contradiction

theorem wots_adr (adr : List Nat) (q : List Nat) (t k : Nat) (h : adr.length = 22)
    (hq : adr.take 9 = q) :
    set_key_pair_address (set_type adr t) k = wadr (q ++ [t % 256]) k 0 0 := by
  have hql : q.length = 9 := by rw [← hq, List.length_take]; omega
  rw [set_type_wadr adr t h, hq]
  exact (wadr_setters (q ++ [t % 256]) 0 0 0 k (by simp [hql])).1
theorem wots_sig_vals_length (T : Tune) (P : Prims) (gen : private_key_generator)
    (pre digits p : List Nat) (k : Nat) :
    ∀ (cnt i : Nat), (wots_sig_vals T P gen pre digits p k cnt i).length = 24 * cnt := by
  intro cnt
  induction cnt with
  | zero => intro i; rfl
  | succ n ih =>
    intro i
    simp only [wots_sig_vals, List.length_append, bytesN_length, ih]
    omega

theorem hyper_wots_sig_eq (T : Tune) (P : Prims) (sg : sh_signer) (q : List Nat)
    (hq : q = (sg.do_hyper_level % 256) :: put_bigendian (sg.idx_tree % 2 ^ 64) 8)
    (hsig : sg.sphincs_sig_index + 51 * 24 ≤ sg.next_sphincs_sig.length) :
    hyper_wots_sig T P sg
      = sg.next_sphincs_sig.take sg.sphincs_sig_index
        ++ wots_sig_vals T P (init_private_key_gen T P sg.sk_seed 24
             (wadr (q ++ [WOTS_HASH_ADDRESS % 256]) sg.idx_leaf 0 0) ADR_CONST_FOR_TREE)
             sg.pk_seed_pre (expand_wots_digits 51 sg.do_hyper_prev_root 24).2
             (q ++ [WOTS_HASH_ADDRESS % 256]) sg.idx_leaf 51 0
        ++ sg.next_sphincs_sig.drop (sg.sphincs_sig_index + 51 * 24) := by
  have hz : (zeros LEN_ADR).length = 22 := zeros_length 22
  obtain ⟨t9, tl⟩ := layer_tree_take9 (zeros LEN_ADR) sg.do_hyper_level sg.idx_tree hz
  have hql : q.length = 9 := by rw [hq]; simp [put_bigendian_length]
  simp only [hyper_wots_sig]
  rw [wots_adr _ q WOTS_HASH_ADDRESS sg.idx_leaf tl (t9.trans hq.symm)]
  have := hyper_wots_loop_spec T P
    (init_private_key_gen T P sg.sk_seed 24
      (wadr (q ++ [WOTS_HASH_ADDRESS % 256]) sg.idx_leaf 0 0) ADR_CONST_FOR_TREE)
    sg.pk_seed_pre (expand_wots_digits 51 sg.do_hyper_prev_root 24).2
    (q ++ [WOTS_HASH_ADDRESS % 256]) sg.idx_leaf sg.sphincs_sig_index (by simp [hql])
    51 0 0 0 sg.next_sphincs_sig (by omega)
  rw [this]
  have e1 : sg.sphincs_sig_index + 24 * 0 = sg.sphincs_sig_index := by omega
  have e2 : sg.sphincs_sig_index + 24 * (0 + 51) = sg.sphincs_sig_index + 51 * 24 := by omega
  rw [e1, e2]
theorem verify_wots_leaf_eq (T : Tune) (P : Prims) (sg : sh_signer) (st : build_merkle_state)
    (adr0 buf : List Nat)
    (hsig : sg.sphincs_sig_index + 51 * 24 ≤ sg.next_sphincs_sig.length)
    (hadr0 : adr0.length = 22) (hst : st.adr.length = 22)
    (h9 : st.adr.take 9 = (sg.do_hyper_level % 256) :: put_bigendian (sg.idx_tree % 2 ^ 64) 8)
    (hn : st.n = 24) (hh : st.hash = HASH_TYPE_SHA256 ||| HASH_LEN_192)
    (hw : st.wots_digits = 51) (hsk : st.sk_seed = sg.sk_seed)
    (hpre : st.pk_seed_pre = sg.pk_seed_pre) (hnode : st.current_node = sg.idx_leaf)
    (hbuf : bytesN 24 buf = bytesN 24 sg.do_hyper_prev_root) :
    verify_wots_leaf P sg.pk_seed_pre sg.do_hyper_level sg.idx_tree sg.idx_leaf adr0
        ((hyper_wots_sig T P sg).drop sg.sphincs_sig_index) buf
      = ((merkle_leaf T P st).1,
         (hyper_wots_sig T P sg).drop (sg.sphincs_sig_index + 51 * 24),
         (merkle_leaf T P st).2) := by
  generalize hq : (sg.do_hyper_level % 256) :: put_bigendian (sg.idx_tree % 2 ^ 64) 8 = q at h9
  have hql : q.length = 9 := by rw [← hq]; simp [put_bigendian_length]
  have hp : (q ++ [WOTS_HASH_ADDRESS % 256]).length = 10 := by simp [hql]
  rw [hyper_wots_sig_eq T P sg q hq.symm hsig]
  generalize hgen : init_private_key_gen T P sg.sk_seed 24
    (wadr (q ++ [WOTS_HASH_ADDRESS % 256]) sg.idx_leaf 0 0) ADR_CONST_FOR_TREE = gen
  generalize hV : wots_sig_vals T P gen sg.pk_seed_pre
    (expand_wots_digits 51 sg.do_hyper_prev_root 24).2 (q ++ [WOTS_HASH_ADDRESS % 256])
    sg.idx_leaf 51 0 = V
  have hVl : V.length = 24 * 51 := by rw [← hV]; exact wots_sig_vals_length _ _ _ _ _ _ _ _ _
  generalize hR : sg.next_sphincs_sig.drop (sg.sphincs_sig_index + 51 * 24) = R
  have htl : (sg.next_sphincs_sig.take sg.sphincs_sig_index).length = sg.sphincs_sig_index := by
    rw [List.length_take]; omega
  have d1 : (sg.next_sphincs_sig.take sg.sphincs_sig_index ++ V ++ R).drop sg.sphincs_sig_index
      = V ++ R := by
    rw [List.append_assoc]
    exact List.drop_left' htl
  have d2 : (sg.next_sphincs_sig.take sg.sphincs_sig_index ++ V ++ R).drop
      (sg.sphincs_sig_index + 51 * 24) = R := by
    exact List.drop_left' (by rw [List.length_append, htl, hVl])
  rw [d1, d2]
  obtain ⟨v9, vl⟩ := layer_tree_take9 adr0 sg.do_hyper_level sg.idx_tree hadr0
  rw [hq] at v9
  simp only [verify_wots_leaf, merkle_leaf]
  rw [wots_adr _ q WOTS_HASH_ADDRESS sg.idx_leaf vl v9, expand_congr buf _ hbuf,
    wots_adr st.adr q WOTS_HASH_ADDRESS st.current_node hst h9, hnode, hsk, hpre, hn, hh, hw]
  have hg : init_private_key_gen T P sg.sk_seed 24 st.adr ADR_CONST_FOR_TREE = gen := by
    rw [← hgen]
    apply gen_congr
    rw [bytesN_eq_take _ _ (by omega), bytesN_eq_take _ _
      (by rw [(wadr_setters _ _ _ _ 0 hp).2.2.2.1]; omega), h9,
      (wadr_setters _ _ _ _ 0 hp).2.2.2.2]
    simp [hql]
  rw [hg]
  obtain ⟨c1, x1, e1⟩ := verify_wots_chains_spec T P gen sg.pk_seed_pre
    (expand_wots_digits 51 sg.do_hyper_prev_root 24).2 (q ++ [WOTS_HASH_ADDRESS % 256])
    sg.idx_leaf hp (expand_digits_le _) 51 0 0 0 R (zeros (51 * 24)) (by simp)
  rw [hV] at e1
  rw [e1]
  obtain ⟨c2, x2, e2⟩ := wots_leaf_loop_spec T P st gen (q ++ [WOTS_HASH_ADDRESS % 256])
    sg.idx_leaf hp hn hh 51 0 0 0 (zeros (MAX_HASH_LEN * 51)) (by simp [MAX_HASH_LEN])
  rw [hpre] at e2
  rw [e2]
  have hka : ∀ c x, set_key_pair_address
      (set_type (wadr (q ++ [WOTS_HASH_ADDRESS % 256]) sg.idx_leaf c x) WOTS_KEY_COMPRESSION)
      sg.idx_leaf = wadr (q ++ [WOTS_KEY_COMPRESSION % 256]) sg.idx_leaf 0 0 := by
    intro c x
    apply wots_adr _ q _ _ (wadr_setters _ _ _ _ 0 hp).2.2.2.1
    rw [(wadr_setters _ _ _ _ 0 hp).2.2.2.2]
    simp [hql]
  simp only [hka]
  generalize hTz : wots_tops T P gen sg.pk_seed_pre (q ++ [WOTS_HASH_ADDRESS % 256])
    sg.idx_leaf 51 0 = Tz
  have hTl : Tz.length = 24 * 51 := by rw [← hTz]; exact wots_tops_length _ _ _ _ _ _ _ _
  have hb : ∀ Z Y : List Nat, bytesN (24 * 51) (List.take (24 * 0) Z ++ Tz ++ Y) = Tz := by
    intro Z Y
    rw [Nat.mul_zero, List.take_zero, List.nil_append]
    exact bytesN_append_left _ _ _ hTl
  rw [do_thash_congr P _ _ _ _ (List.take (24 * 0) (zeros (MAX_HASH_LEN * 51)) ++ Tz ++
      List.drop (24 * (0 + 51)) (zeros (MAX_HASH_LEN * 51))) _ ((hb _ _).trans (hb _ _).symm),
    hashInto_thash P _ _ _ buf (zeros MAX_HASH_LEN)]
theorem step_hypertree_accept (T : Tune) (P : Prims) (s : sh_signer) (hF : T.FAULT_STRATEGY = 0)
    (h1 : s.do_hyper_do_tree ≠ 0) (hth : s.do_hyper_merk.tree_height = SPH_T)
    (hdone : 2 ^ SPH_T ≤ s.do_hyper_merk.current_node + MERKLE_CHAINS_PER_ITER T) :
    (step_hypertree T P s).2.idx_leaf = (s.idx_tree &&& (2 ^ SPH_T - 1)) % 2 ^ 32 ∧
    (step_hypertree T P s).2.idx_tree = s.idx_tree / 2 ^ SPH_T ∧
    (step_hypertree T P s).2.do_hyper_level = s.do_hyper_level + 1 := by
  have hT : SPH_T = 8 := by decide
  have hM := MERKLE_CHAINS_pos T
  simp only [step_hypertree, h1, hF, if_false, ne_eq, not_true_eq_false]
  generalize hw : step_build_merkle T P s.do_hyper_merk s.next_sphincs_sig _ = w
  have hfl : w.all_done_flag = true := by
    rw [← hw]
    obtain ⟨u1, _, _⟩ := merkle_leaves_spec T P (MERKLE_CHAINS_PER_ITER T) s.do_hyper_merk
      s.next_sphincs_sig
      (if s.do_hyper_merk.root = some 1 then s.do_hyper_redundant_root
        else s.do_hyper_next_root) false (by rw [hth, hT]; omega)
    simp only [step_build_merkle]
    rw [u1, hth]
    simp [hM, hdone]
  simp only [hfl, if_true]
  split_ifs <;> exact ⟨rfl, rfl, rfl⟩

theorem and_mask_swap (t : Nat) :
    (t % 2 ^ 32) &&& (2 ^ SPH_T - 1) = (t &&& (2 ^ SPH_T - 1)) % 2 ^ 32 := by
  have hT : SPH_T = 8 := by decide
  rw [hT, Nat.and_pow_two_sub_one_eq_mod, Nat.and_pow_two_sub_one_eq_mod]
  omega

theorem verify_hypertree_succ (P : Prims) (pre : List Nat) (cnt level idx_tree idx_leaf : Nat)
    (adr sig b : List Nat) :
    verify_hypertree P pre (cnt + 1) level idx_tree idx_leaf adr sig b
      = verify_hypertree P pre cnt (level + 1) (idx_tree / 2 ^ SPH_T)
          ((idx_tree &&& (2 ^ SPH_T - 1)) % 2 ^ 32)
          (verify_merkle_levels P pre SPH_D 0 idx_leaf
            (set_type (verify_wots_leaf P pre level idx_tree idx_leaf adr sig b).1
              HASH_TREE_ADDRESS)
            (verify_wots_leaf P pre level idx_tree idx_leaf adr sig b).2.1
            (verify_wots_leaf P pre level idx_tree idx_leaf adr sig b).2.2).1
          (verify_merkle_levels P pre SPH_D 0 idx_leaf
            (set_type (verify_wots_leaf P pre level idx_tree idx_leaf adr sig b).1
              HASH_TREE_ADDRESS)
            (verify_wots_leaf P pre level idx_tree idx_leaf adr sig b).2.1
            (verify_wots_leaf P pre level idx_tree idx_leaf adr sig b).2.2).2.1
          (verify_merkle_levels P pre SPH_D 0 idx_leaf
            (set_type (verify_wots_leaf P pre level idx_tree idx_leaf adr sig b).1
              HASH_TREE_ADDRESS)
            (verify_wots_leaf P pre level idx_tree idx_leaf adr sig b).2.1
            (verify_wots_leaf P pre level idx_tree idx_leaf adr sig b).2.2).2.2.1 := by
  conv => lhs; unfold verify_hypertree
  simp only [verify_wots_leaf, and_mask_swap]

theorem tree_zero_at_top (P : Prims) (r seed root msg : List Nat) :
    (do_compute_digest_index P 24 r seed root msg SPH_K SPH_A SPH_H SPH_D).2.1
      / (2 ^ SPH_T) ^ (SPH_D - 1) = 0 := by
  have h := (digest_index_bounds P r seed root msg).1
  have e : (2 ^ SPH_T) ^ (SPH_D - 1) = 2 ^ 56 := by decide
  rw [e]
  exact Nat.div_eq_of_lt h

/-- C30: hypertree WOTS+ chain complement.  For a signer about to write the
WOTS+ signature of a hypertree layer and a Merkle builder of that layer (its
address holds the layer and the tree, its seeds are the signer's, its current
node is `idx_leaf`): (1) every digit is at most 15 and, for every chain `i`,
the verifier's `F` steps with hash addresses `digits[i] .. 14` applied to the
secret advanced by `F` with hash addresses `0 .. digits[i]-1` give the secret
advanced 15 steps, the chain top of `step_build_merkle`; (2) the verifier's
WOTS+ half of the layer, run on the signature the signer wrote, ends with the
address and the compressed public key that `step_build_merkle` computes for
leaf `idx_leaf`, having consumed the 51 chains; (3) the verifier passes to the
next layer with `idx_tree >> SPH_T` and the low `SPH_T` bits of `idx_tree`,
(4) which are the values the signer stores when a layer is finished; (5) the
tree index from `do_compute_digest_index` is 0 after `SPH_D - 1` shifts, and
(6) `sh_keygen` publishes the root of layer 7, tree 0. -/
theorem hypertree_wots_chain_complement (T : Tune) (P : Prims) (sg : sh_signer)
    (st : build_merkle_state) (adr0 buf : List Nat)
    (hsig : sg.sphincs_sig_index + 51 * 24 ≤ sg.next_sphincs_sig.length)
    (hadr0 : adr0.length = 22) (hst : st.adr.length = 22)
    (h9 : st.adr.take 9 = (sg.do_hyper_level % 256) :: put_bigendian (sg.idx_tree % 2 ^ 64) 8)
    (hn : st.n = 24) (hh : st.hash = HASH_TYPE_SHA256 ||| HASH_LEN_192)
    (hw : st.wots_digits = 51) (hsk : st.sk_seed = sg.sk_seed)
    (hpre : st.pk_seed_pre = sg.pk_seed_pre) (hnode : st.current_node = sg.idx_leaf)
    (hbuf : bytesN 24 buf = bytesN 24 sg.do_hyper_prev_root) :
    (∀ (p : List Nat) (k i x : Nat) (v : List Nat), p.length = 10 →
      (expand_wots_digits 51 sg.do_hyper_prev_root 24).2.getD i 0 ≤ 15 ∧
      bytesN 24 (wots_chain P (HASH_TYPE_SHA256 ||| HASH_LEN_192) sg.pk_seed_pre 24
          (15 - (expand_wots_digits 51 sg.do_hyper_prev_root 24).2.getD i 0)
          ((expand_wots_digits 51 sg.do_hyper_prev_root 24).2.getD i 0) (wadr p k i x)
          (bytesN 24 (wots_chain P (HASH_TYPE_SHA256 ||| HASH_LEN_192) sg.pk_seed_pre 24
            ((expand_wots_digits 51 sg.do_hyper_prev_root 24).2.getD i 0) 0
            (wadr p k i 0) v).2)).2
        = bytesN 24 (wots_chain P (HASH_TYPE_SHA256 ||| HASH_LEN_192) sg.pk_seed_pre 24 15 0
            (wadr p k i 0) v).2) ∧
    verify_wots_leaf P sg.pk_seed_pre sg.do_hyper_level sg.idx_tree sg.idx_leaf adr0
        ((hyper_wots_sig T P sg).drop sg.sphincs_sig_index) buf
      = ((merkle_leaf T P st).1,
         (hyper_wots_sig T P sg).drop (sg.sphincs_sig_index + 51 * 24),
         (merkle_leaf T P st).2) ∧
    (∀ (cnt level idx_tree idx_leaf : Nat) (adr sig b : List Nat),
      verify_hypertree P sg.pk_seed_pre (cnt + 1) level idx_tree idx_leaf adr sig b
        = verify_hypertree P sg.pk_seed_pre cnt (level + 1) (idx_tree / 2 ^ SPH_T)
            ((idx_tree &&& (2 ^ SPH_T - 1)) % 2 ^ 32)
            (verify_merkle_levels P sg.pk_seed_pre SPH_D 0 idx_leaf
              (set_type (verify_wots_leaf P sg.pk_seed_pre level idx_tree idx_leaf adr sig b).1
                HASH_TREE_ADDRESS)
              (verify_wots_leaf P sg.pk_seed_pre level idx_tree idx_leaf adr sig b).2.1
              (verify_wots_leaf P sg.pk_seed_pre level idx_tree idx_leaf adr sig b).2.2).1
            (verify_merkle_levels P sg.pk_seed_pre SPH_D 0 idx_leaf
              (set_type (verify_wots_leaf P sg.pk_seed_pre level idx_tree idx_leaf adr sig b).1
                HASH_TREE_ADDRESS)
              (verify_wots_leaf P sg.pk_seed_pre level idx_tree idx_leaf adr sig b).2.1
              (verify_wots_leaf P sg.pk_seed_pre level idx_tree idx_leaf adr sig b).2.2).2.1
            (verify_merkle_levels P sg.pk_seed_pre SPH_D 0 idx_leaf
              (set_type (verify_wots_leaf P sg.pk_seed_pre level idx_tree idx_leaf adr sig b).1
                HASH_TREE_ADDRESS)
              (verify_wots_leaf P sg.pk_seed_pre level idx_tree idx_leaf adr sig b).2.1
              (verify_wots_leaf P sg.pk_seed_pre level idx_tree idx_leaf adr sig b).2.2).2.2.1) ∧
    (∀ s : sh_signer, T.FAULT_STRATEGY = 0 → s.do_hyper_do_tree ≠ 0 →
      s.do_hyper_merk.tree_height = SPH_T →
      2 ^ SPH_T ≤ s.do_hyper_merk.current_node + MERKLE_CHAINS_PER_ITER T →
      (step_hypertree T P s).2.idx_leaf = (s.idx_tree &&& (2 ^ SPH_T - 1)) % 2 ^ 32 ∧
      (step_hypertree T P s).2.idx_tree = s.idx_tree / 2 ^ SPH_T ∧
      (step_hypertree T P s).2.do_hyper_level = s.do_hyper_level + 1) ∧
    (∀ r seed root msg : List Nat,
      (do_compute_digest_index P 24 r seed root msg SPH_K SPH_A SPH_H SPH_D).2.1
        / (2 ^ SPH_T) ^ (SPH_D - 1) = 0) ∧
    (∀ (fuel : Nat) (state0 : build_merkle_state) (rand : Nat → Option (List Nat))
        (sk_buffer : List Nat) (size_sk : Option Nat) (pk_buffer : List Nat)
        (size_pk : Option Nat) (bytes : List Nat),
      100 ≤ sk_buffer.length → 52 ≤ pk_buffer.length → rand 72 = some bytes → 256 ≤ fuel →
      ∃ sk1 pk1 root,
        sk1 = memcpy (memcpy sk_buffer 0 [1, 24, 0, 5] 4) 4 bytes 72 ∧
        pk1 = memcpy (memcpy pk_buffer 0 [1, 24, 0, 5] 4) 4 (sk1.drop 52) 24 ∧
        keygen_loop T P fuel
          (init_build_merkle state0 (slice sk1 4 24) (slice sk1 52 24) 5 8 7 0 0 none
            (some 0)).2
          (slice pk1 28 24) = some root ∧
        sh_keygen T P fuel state0 1 192 1 (some rand) sk_buffer size_sk pk_buffer size_pk =
          some { ok := true,
                 sk_buffer := memcpy sk1 76 ((memcpy pk1 28 root 24).drop 28) 24,
                 pk_buffer := memcpy pk1 28 root 24,
                 size_sk := size_sk.map (fun _ => 100),
                 size_pk := size_pk.map (fun _ => 52) }) := by
  refine ⟨?_, ?_, ?_, ?_, ?_, ?_⟩
  · intro p k i x v hp
    exact ⟨expand_digits_le _ _, wots_top_value P sg.pk_seed_pre p k i _ x v hp
      (expand_digits_le _ _)⟩
  · exact verify_wots_leaf_eq T P sg st adr0 buf hsig hadr0 hst h9 hn hh hw hsk hpre hnode hbuf
  · intro cnt level idx_tree idx_leaf adr sig b
    exact verify_hypertree_succ P sg.pk_seed_pre cnt level idx_tree idx_leaf adr sig b
  · intro s hF h1 hth hdone
    exact step_hypertree_accept T P s hF h1 hth hdone
  · intro r seed root msg
    exact tree_zero_at_top P r seed root msg
  · intro fuel state0 rand sk_buffer size_sk pk_buffer size_pk bytes hsk hpk hr hfuel
    exact sh_keygen_ok T P fuel state0 rand sk_buffer size_sk pk_buffer size_pk bytes hsk hpk hr
      hfuel

/-- Witness for `hypertree_wots_chain_complement`: zero-filled signer memory
and the builder that `init_build_merkle` sets up for layer 0, tree 0. -/
theorem hypertree_wots_chain_complement_witness :
    blank_signer.sphincs_sig_index + 51 * 24 ≤ blank_signer.next_sphincs_sig.length ∧
    (verify_wots_leaf zero_prims blank_signer.pk_seed_pre blank_signer.do_hyper_level
        blank_signer.idx_tree blank_signer.idx_leaf (zeros 22)
        ((hyper_wots_sig tune zero_prims blank_signer).drop blank_signer.sphincs_sig_index)
        (zeros 32)).2.2
      = (merkle_leaf tune zero_prims
          (init_build_merkle blank_merkle (zeros 32) (zeros 32)
            (HASH_TYPE_SHA256 ||| HASH_LEN_192) SPH_T 0 0 0 (some 1224) (some 0)).2).2 :=
  ⟨by simp [blank_signer],
   congrArg (fun r => r.2.2)
     (hypertree_wots_chain_complement tune zero_prims blank_signer
       (init_build_merkle blank_merkle (zeros 32) (zeros 32)
         (HASH_TYPE_SHA256 ||| HASH_LEN_192) SPH_T 0 0 0 (some 1224) (some 0)).2
       (zeros 22) (zeros 32) (by simp [blank_signer]) (by decide) (by decide) (by decide) (by decide)
       (by decide) (by decide) (by decide) (by decide) (by decide) (by decide)).2.1⟩

/-! ## Teardown -/

theorem infix_zeros (secret : List Nat) (n : Nat) (h : secret <:+: zeros n) :
    ∀ x ∈ secret, x = 0 := by
  intro x hx
  have hm : x ∈ zeros n := h.subset hx
  exact List.eq_of_mem_replicate hm

/-- C24: zeroization on teardown.  Whatever the region of the signer holds,
after `sh_delete_signer` it has its old size and every byte of it is zero, so
no byte string with a nonzero byte (such as `sk_seed`, `sk_prf`, an LMS seed
or the DRBG state) occurs in it. -/
theorem sh_delete_signer_zeroizes (region : List Nat) :
    ∃ z, sh_delete_signer (some region) = some z ∧ z.length = region.length ∧
      (∀ b ∈ z, b = 0) ∧
      ∀ secret : List Nat, (∃ x ∈ secret, x ≠ 0) → ¬ secret <:+: z := by
  have hz : zeroize region region.length = zeros region.length := by
    simp only [zeroize, blit, List.take_zero, List.nil_append, zeros_length, Nat.zero_add,
      List.drop_length, List.append_nil]
  refine ⟨zeros region.length, ?_, zeros_length _, ?_, ?_⟩
  · simp only [sh_delete_signer, hz]
  · intro b hb
    exact List.eq_of_mem_replicate hb
  · rintro secret ⟨x, hx, hne⟩ hin
    exact hne (infix_zeros secret _ hin x hx)

/-- Witness for `sh_delete_signer_zeroizes`: a region that holds the secret
`[1, 2, 3]` no longer holds it afterwards. -/
theorem sh_delete_signer_zeroizes_witness :
    ∃ z, sh_delete_signer (some [7, 1, 2, 3, 9]) = some z ∧ ¬ [1, 2, 3] <:+: z := by
  obtain ⟨z, h1, _, _, h4⟩ := sh_delete_signer_zeroizes [7, 1, 2, 3, 9]
  exact ⟨z, h1, h4 [1, 2, 3] ⟨1, by decide, by decide⟩⟩

/-! ## The LMS build against the recursive definition of the tree -/

theorem walk_complete (c l : Nat) (h : c % 2 ^ l = 2 ^ l - 1) :
    (c / 2 ^ l + 1) * 2 ^ l = c + 1 := by
  have h1 := Nat.div_add_mod c (2 ^ l)
  have hp : 0 < 2 ^ l := Nat.pow_pos (by norm_num)
  rw [Nat.add_mul, Nat.one_mul, Nat.mul_comm]
  generalize 2 ^ l * (c / 2 ^ l) = X at h1
  omega

theorem succ_mod_half (c l : Nat) (h1 : c % 2 ^ l = 2 ^ l - 1) (h2 : c / 2 ^ l % 2 = 0) :
    (c + 1) % 2 ^ (l + 1) = 2 ^ l := by
  have hs := top_bit_split c l
  rw [h1, h2, Nat.mul_zero, Nat.add_zero] at hs
  have hp : 0 < 2 ^ l := Nat.pow_pos (by norm_num)
  have e : 2 ^ (l + 1) = 2 * 2 ^ l := by rw [pow_succ]; ring
  rw [Nat.add_mod, hs]
  have h1m : 1 % 2 ^ (l + 1) = 1 := Nat.mod_eq_of_lt (by rw [e]; omega)
  rw [h1m]
  have : 2 ^ l - 1 + 1 = 2 ^ l := by omega
  rw [this]
  exact Nat.mod_eq_of_lt (by rw [e]; omega)

theorem not_dvd_succ (c l h : Nat) (h1 : c % 2 ^ l = 2 ^ l - 1) (h2 : c / 2 ^ l % 2 = 0)
    (hh : l < h) : ¬ 2 ^ h ∣ c + 1 := by
  intro hd
  have hd' : 2 ^ (l + 1) ∣ c + 1 := Nat.dvd_trans (Nat.pow_dvd_pow 2 (by omega)) hd
  have := succ_mod_half c l h1 h2
  rw [Nat.mod_eq_zero_of_dvd hd'] at this
  have hp : 0 < 2 ^ l := Nat.pow_pos (by norm_num)
  omega

theorem complete_level_le (c l h j : Nat) (h1 : c % 2 ^ l = 2 ^ l - 1)
    (h2 : c / 2 ^ l % 2 = 0) (h3 : (j + 1) * 2 ^ h = c + 1) : h ≤ l := by
  by_contra hc
  exact not_dvd_succ c l h h1 h2 (by omega) ⟨j + 1, by rw [← h3, Nat.mul_comm]⟩

theorem div_succ_above (c l h : Nat) (h1 : c % 2 ^ l = 2 ^ l - 1) (h2 : c / 2 ^ l % 2 = 0)
    (hh : l < h) : (c + 1) / 2 ^ h = c / 2 ^ h := by
  rw [Nat.succ_div, if_neg (not_dvd_succ c l h h1 h2 hh), Nat.add_zero]

theorem div_succ_at (c l : Nat) (h1 : c % 2 ^ l = 2 ^ l - 1) :
    (c + 1) / 2 ^ l = c / 2 ^ l + 1 := by
  rw [← walk_complete c l h1]
  exact Nat.mul_div_cancel _ (Nat.pow_pos (by norm_num))

theorem div_succ_below (c l h : Nat) (h1 : c % 2 ^ l = 2 ^ l - 1) (hh : h < l) :
    (c + 1) / 2 ^ h % 2 = 0 := by
  rw [← walk_complete c l h1]
  obtain ⟨d, rfl⟩ : ∃ d, l = h + (d + 1) := ⟨l - h - 1, by omega⟩
  have e : 2 ^ (h + (d + 1)) = 2 ^ h * (2 * 2 ^ d) := by rw [pow_add, pow_succ]; ring
  rw [e, ← Nat.mul_assoc, Nat.mul_comm _ (2 ^ h), Nat.mul_assoc,
    Nat.mul_div_cancel_left _ (Nat.pow_pos (by norm_num))]
  rw [← Nat.mul_assoc, Nat.mul_comm _ 2, Nat.mul_assoc]
  exact Nat.mul_mod_right _ _

theorem next_ones (c l : Nat) (h1 : c % 2 ^ l = 2 ^ l - 1) (h2 : c / 2 ^ l % 2 = 1) :
    c % 2 ^ (l + 1) = 2 ^ (l + 1) - 1 := by
  have hs := top_bit_split c l
  rw [h1, h2, Nat.mul_one] at hs
  have e : 2 ^ (l + 1) = 2 * 2 ^ l := by rw [pow_succ]; ring
  have hp : 0 < 2 ^ l := Nat.pow_pos (by norm_num)
  rw [hs, e]
  omega

theorem slot_lt (E h j : Nat) (hh : h < E) (hj : j < 2 ^ (E - h)) :
    2 ≤ 2 ^ (E - h) ∧ 24 * (j + 2 ^ (E - h) - 2) + 24 ≤ 24 * (2 ^ (E + 1) - 2) := by
  have h2 : 2 ^ 1 ≤ 2 ^ (E - h) := Nat.pow_le_pow_right (by norm_num) (by omega)
  have h3 : 2 ^ (E - h) ≤ 2 ^ E := Nat.pow_le_pow_right (by norm_num) (by omega)
  have e : 2 ^ (E + 1) = 2 * 2 ^ E := by rw [pow_succ]; ring
  rw [e]
  norm_num at h2
  exact ⟨h2, by omega⟩

theorem slot_apart (E h h' j j' : Nat) (hh : h < E) (hh' : h' < E) (hj : j < 2 ^ (E - h))
    (hj' : j' < 2 ^ (E - h')) (hne : ¬ (h = h' ∧ j = j')) :
    24 * (j + 2 ^ (E - h) - 2) + 24 ≤ 24 * (j' + 2 ^ (E - h') - 2) ∨
    24 * (j' + 2 ^ (E - h') - 2) + 24 ≤ 24 * (j + 2 ^ (E - h) - 2) := by
  have a := (slot_lt E h j hh hj).1
  have b := (slot_lt E h' j' hh' hj').1
  rcases Nat.lt_trichotomy h h' with hlt | heq | hgt
  · have : 2 ^ (E - h' + 1) ≤ 2 ^ (E - h) := Nat.pow_le_pow_right (by norm_num) (by omega)
    rw [pow_succ] at this
    omega
  · subst heq
    have : j ≠ j' := fun e => hne ⟨rfl, e⟩
    omega
  · have : 2 ^ (E - h + 1) ≤ 2 ^ (E - h') := Nat.pow_le_pow_right (by norm_num) (by omega)
    rw [pow_succ] at this
    omega

theorem slice_memcpy_after (d src : List Nat) (off n o k : Nat) (hk : off + n ≤ o)
    (ho : off + n ≤ d.length) : slice (memcpy d off src n) o k = slice d o k := by
  simp only [slice]
  rw [memcpy_drop_after _ _ _ _ _ hk ho]

theorem slice_memcpy_apart (d src : List Nat) (off n o k : Nat)
    (hk : o + k ≤ off ∨ off + n ≤ o) (ho : off + n ≤ d.length) :
    slice (memcpy d off src n) o k = slice d o k := by
  rcases hk with h | h
  · exact slice_memcpy_before d src off n o k h ho
  · exact slice_memcpy_after d src off n o k h ho

theorem sub_inv_weaken (E : Nat) (buf : List Nat) (val : Nat → Nat → List Nat)
    (ok ok' : Nat → Nat → Prop) (hinv : sub_inv E buf val ok)
    (hok : ∀ h j, h < E → j < 2 ^ (E - h) → ok' h j → ok h j) : sub_inv E buf val ok' :=
  fun h j hh hj ho => hinv h j hh hj (hok h j hh hj ho)

theorem sub_inv_store (E : Nat) (buf x : List Nat) (val : Nat → Nat → List Nat)
    (ok ok' : Nat → Nat → Prop) (h0 j0 : Nat) (hinv : sub_inv E buf val ok)
    (hlen : 24 * (2 ^ (E + 1) - 2) ≤ buf.length) (hh0 : h0 < E) (hj0 : j0 < 2 ^ (E - h0))
    (hx : bytesN 24 x = val h0 j0)
    (hok : ∀ h j, h < E → j < 2 ^ (E - h) → ok' h j → ok h j ∨ (h = h0 ∧ j = j0)) :
    sub_inv E (memcpy buf (24 * (j0 + 2 ^ (E - h0) - 2)) x 24) val ok' := by
  intro h j hh hj ho
  have b0 := (slot_lt E h0 j0 hh0 hj0).2
  by_cases he : h = h0 ∧ j = j0
  · obtain ⟨rfl, rfl⟩ := he
    rw [slice_memcpy_same _ _ _ _ (by omega), hx]
  · rw [slice_memcpy_apart _ _ _ _ _ _ (slot_apart E h h0 j j0 hh hh0 hj hj0 he) (by omega)]
    rcases hok h j hh hj ho with h1 | h1
    · exact hinv h j hh hj h1
    · exact absurd h1 he
theorem lms_ok_mid_step (c l h j : Nat) (h1 : c % 2 ^ l = 2 ^ l - 1)
    (ho : lms_ok c (l + 1) h j) : lms_ok c l h j ∨ (h = l ∧ j = c / 2 ^ l) := by
  rcases ho with ho | ⟨hl, he⟩
  · exact Or.inl (Or.inl ho)
  · by_cases hh : h < l
    · exact Or.inl (Or.inr ⟨hh, he⟩)
    · have : h = l := by omega
      subst this
      right
      refine ⟨rfl, ?_⟩
      rw [← walk_complete c h h1] at he
      have := Nat.eq_of_mul_eq_mul_right (Nat.pow_pos (by norm_num)) he
      omega

theorem lms_ok_end_step (c l h j : Nat) (h1 : c % 2 ^ l = 2 ^ l - 1) (h2 : c / 2 ^ l % 2 = 0)
    (ho : lms_ok (c + 1) 0 h j) : lms_ok c l h j ∨ (h = l ∧ j = c / 2 ^ l) := by
  rcases ho with ho | ⟨hl, _⟩
  · by_cases hle : (j + 1) * 2 ^ h ≤ c
    · exact Or.inl (Or.inl hle)
    · have he : (j + 1) * 2 ^ h = c + 1 := by omega
      have hhl := complete_level_le c l h j h1 h2 he
      exact lms_ok_mid_step c l h j h1 (Or.inr ⟨by omega, he⟩)
  · omega

theorem lms_ok_bound (c l h j E : Nat) (hc : c < 2 ^ E) (hh : h ≤ E) (ho : lms_ok c l h j) :
    j < 2 ^ (E - h) := by
  have hle : (j + 1) * 2 ^ h ≤ 2 ^ E := by
    rcases ho with ho | ⟨_, he⟩ <;> omega
  rw [pow_split E h hh] at hle
  have := Nat.le_of_mul_le_mul_right hle (Nat.pow_pos (by norm_num))
  omega

theorem in_sub_bound (E h j : Nat) (hh : h < E) (hj : j < 2 ^ (E - h)) :
    (j + 1) * 2 ^ h ≤ 2 ^ E := by
  rw [pow_split E h (by omega)]
  exact Nat.mul_le_mul_right _ hj

theorem pow_div_even (B h : Nat) (hh : h < B) : 2 ^ B / 2 ^ h % 2 = 0 := by
  obtain ⟨d, rfl⟩ : ∃ d, B = h + (d + 1) := ⟨B - h - 1, by omega⟩
  have e : 2 ^ (h + (d + 1)) = 2 ^ h * (2 * 2 ^ d) := by rw [pow_add, pow_succ]; ring
  rw [e, Nat.mul_div_cancel_left _ (Nat.pow_pos (by norm_num))]
  exact Nat.mul_mod_right _ _
theorem xor_one_odd (x : Nat) (h : x % 2 = 1) : x ^^^ 1 = x - 1 := by
  have d : (x ^^^ 1) / 2 = x / 2 := by rw [Nat.xor_div_two]; simp
  have m : (x ^^^ 1) % 2 = (x + 1) % 2 := Nat.xor_mod_two_eq
  generalize x ^^^ 1 = y at d m
  omega

theorem odd_level_facts (c l : Nat) (h1 : c % 2 ^ l = 2 ^ l - 1) (h2 : c / 2 ^ l % 2 = 1) :
    c % 2 = 1 ∧ (c / 2 ^ l - 1 + 1) * 2 ^ l ≤ c ∧ 1 ≤ c / 2 ^ l := by
  have hn := next_ones c l h1 h2
  have hp : 0 < 2 ^ l := Nat.pow_pos (by norm_num)
  have h1le : 1 ≤ c / 2 ^ l := by
    generalize c / 2 ^ l = n at h2
    omega
  refine ⟨?_, ?_, h1le⟩
  · have e : 2 ^ (l + 1) = 2 * 2 ^ l := by rw [pow_succ]; ring
    rw [e] at hn
    have := Nat.mod_mul_right_mod c 2 (2 ^ l)
    rw [hn] at this
    rw [← this]
    omega
  · have : c / 2 ^ l - 1 + 1 = c / 2 ^ l := by omega
    rw [this]
    exact Nat.div_mul_le_self c (2 ^ l)

/-- The store of the node of level `l` on the path of leaf `c` (case: first
bottom subtree). -/
theorem lms_step_bottom (T : Tune) (P : Prims) (I seed : List Nat) (c l : Nat) (s : sh_signer)
    (buffer : List Nat) (hl : l < LMS_BOTTOM T) (hc : c < 2 ^ LMS_BOTTOM T)
    (h1 : c % 2 ^ l = 2 ^ l - 1)
    (hb : bytesN 24 buffer = lms_node T P I seed l (c / 2 ^ l))
    (hm : lms_mid T P I seed c l s) :
    (c / 2 ^ l % 2 = 1 →
      lms_mid T P I seed c (l + 1)
        { s with
          next_lms_bottom_subtree :=
            memcpy s.next_lms_bottom_subtree
              (24 * (c / 2 ^ l + 2 ^ (LMS_BOTTOM T - l) - 2)) buffer 24 } ∧
      slice (memcpy s.next_lms_bottom_subtree
          (24 * (c / 2 ^ l + 2 ^ (LMS_BOTTOM T - l) - 2)) buffer 24)
          (24 * ((c / 2 ^ l ^^^ 1) + 2 ^ (LMS_BOTTOM T - l) - 2)) 24
        = lms_node T P I seed l (c / 2 ^ l - 1)) ∧
    (c / 2 ^ l % 2 = 0 →
      lms_mid T P I seed (c + 1) 0
        { s with
          next_lms_bottom_subtree :=
            memcpy s.next_lms_bottom_subtree
              (24 * (c / 2 ^ l + 2 ^ (LMS_BOTTOM T - l) - 2)) buffer 24 }) := by
  obtain ⟨hBT, hB1, hA20, _⟩ := lms_level_facts T
  obtain ⟨hI, hS, lb, ls, lt, lr, ib, is, it, ir⟩ := hm
  have hnode : c / 2 ^ l < 2 ^ (LMS_BOTTOM T - l) :=
    node_lt _ l c _ (Nat.div_mul_le_self c (2 ^ l)) hc (by omega)
  have hAB : 2 ^ LMS_BOTTOM T ≤ 2 ^ LMS_ACTUAL T :=
    Nat.pow_le_pow_right (by norm_num) (by omega)
  constructor
  · intro hodd
    have ib' : sub_inv (LMS_BOTTOM T) (memcpy s.next_lms_bottom_subtree
        (24 * (c / 2 ^ l + 2 ^ (LMS_BOTTOM T - l) - 2)) buffer 24) (lms_node T P I seed)
        (lms_ok c (l + 1)) :=
      sub_inv_store _ _ _ _ _ _ l (c / 2 ^ l) ib lb hl hnode hb
        (fun h j _ _ ho => lms_ok_mid_step c l h j h1 ho)
    constructor
    · refine ⟨hI, hS, ?_, ls, lt, lr, ib', is, ?_, ir⟩
      · show _ ≤ (memcpy _ _ _ _).length
        rw [memcpy_length _ _ _ _ (by have := (slot_lt _ l _ hl hnode).2; omega)]
        exact lb
      · apply sub_inv_weaken _ _ _ _ _ it
        intro h j _ _ ho
        rcases ho with ho | ⟨hlt, _⟩
        · exact Or.inl ho
        · omega
    · obtain ⟨_, hle, h1le⟩ := odd_level_facts c l h1 hodd
      rw [xor_one_odd _ hodd]
      exact ib' l (c / 2 ^ l - 1) hl (by omega) (Or.inl hle)
  · intro hev
    refine ⟨hI, hS, ?_, ls, lt, lr, ?_, ?_, ?_, ?_⟩
    · show _ ≤ (memcpy _ _ _ _).length
      rw [memcpy_length _ _ _ _ (by have := (slot_lt _ l _ hl hnode).2; omega)]
      exact lb
    · exact sub_inv_store _ _ _ _ _ _ l (c / 2 ^ l) ib lb hl hnode hb
        (fun h j _ _ ho => lms_ok_end_step c l h j h1 hev ho)
    · intro h _ hgt _
      exact absurd hgt (by omega)
    · apply sub_inv_weaken _ _ _ _ _ it
      intro h j _ _ ho
      rcases lms_ok_end_step c l _ j h1 hev ho with h3 | ⟨h3, _⟩
      · exact h3
      · omega
    · intro he
      have h2 : 2 ^ (LMS_BOTTOM T + 1) ≤ 2 ^ LMS_ACTUAL T :=
        Nat.pow_le_pow_right (by norm_num) (by
          have : 1 ≤ LMS_TOP T := by
            have := LMS_ACTUAL_ge T
            simp only [LMS_TOP]; omega
          omega)
      rw [pow_succ] at h2
      have hp : 0 < 2 ^ LMS_BOTTOM T := Nat.pow_pos (by norm_num)
      exact absurd he (by omega)

theorem lms_mid_bs (T : Tune) (P : Prims) (I seed : List Nat) (c l : Nat) (s : sh_signer)
    (b : BuildState) (hm : lms_mid T P I seed c l s) :
    lms_mid T P I seed c l { s with build_state := b } := hm

/-- The node of level `l` on the path of leaf `c` when it is a right node of
a later bottom subtree: nothing is stored, the left node is on the stack. -/
theorem lms_step_null (T : Tune) (P : Prims) (I seed : List Nat) (c l : Nat) (s : sh_signer)
    (hl : l < LMS_BOTTOM T) (hc : 2 ^ LMS_BOTTOM T ≤ c)
    (h1 : c % 2 ^ l = 2 ^ l - 1) (hodd : c / 2 ^ l % 2 = 1)
    (hm : lms_mid T P I seed c l s) :
    lms_mid T P I seed c (l + 1) s ∧
    slice s.do_lms_stack (24 * l) 24 = lms_node T P I seed l (c / 2 ^ l - 1) := by
  obtain ⟨hBT, hB1, hA20, _⟩ := lms_level_facts T
  obtain ⟨hI, hS, lb, ls, lt, lr, ib, is, it, ir⟩ := hm
  obtain ⟨hcodd, _, _⟩ := odd_level_facts c l h1 hodd
  have hBev : 2 ^ LMS_BOTTOM T % 2 = 0 := by
    obtain ⟨d, hd⟩ : ∃ d, LMS_BOTTOM T = d + 1 := ⟨LMS_BOTTOM T - 1, by omega⟩
    rw [hd, pow_succ]
    exact Nat.mul_mod_left _ _
  constructor
  · refine ⟨hI, hS, lb, ls, lt, lr, ?_, is, ?_, ir⟩
    · apply sub_inv_weaken _ _ _ _ _ ib
      intro h j hh hj ho
      rcases ho with ho | ⟨_, he⟩
      · exact Or.inl ho
      · have := in_sub_bound _ h j hh hj
        omega
    · apply sub_inv_weaken _ _ _ _ _ it
      intro h j _ _ ho
      rcases ho with ho | ⟨hlt, _⟩
      · exact Or.inl ho
      · omega
  · exact is l hl (by omega) hodd

/-- The store of the node of level `l` on the path of leaf `c` when it is a
left node of a later bottom subtree: it goes to the stack and ends the walk. -/
theorem lms_step_stack (T : Tune) (P : Prims) (I seed : List Nat) (c l : Nat) (s : sh_signer)
    (buffer : List Nat) (hl : l < LMS_BOTTOM T) (hc : 2 ^ LMS_BOTTOM T ≤ c)
    (h1 : c % 2 ^ l = 2 ^ l - 1) (hev : c / 2 ^ l % 2 = 0)
    (hb : bytesN 24 buffer = lms_node T P I seed l (c / 2 ^ l))
    (hm : lms_mid T P I seed c l s) :
    lms_mid T P I seed (c + 1) 0
      { s with do_lms_stack := memcpy s.do_lms_stack (24 * l) buffer 24 } := by
  obtain ⟨hBT, hB1, hA20, _⟩ := lms_level_facts T
  obtain ⟨hI, hS, lb, ls, lt, lr, ib, is, it, ir⟩ := hm
  refine ⟨hI, hS, lb, ?_, lt, lr, ?_, ?_, ?_, ?_⟩
  · show _ ≤ (memcpy _ _ _ _).length
    rw [memcpy_length _ _ _ _ (by omega)]
    exact ls
  · apply sub_inv_weaken _ _ _ _ _ ib
    intro h j hh hj ho
    have := in_sub_bound _ h j hh hj
    exact Or.inl (by omega)
  · intro h hh _ hodd
    show slice (memcpy s.do_lms_stack (24 * l) buffer 24) (24 * h) 24 = _
    rcases Nat.lt_trichotomy h l with hlt | heq | hgt
    · have := div_succ_below c l h h1 hlt
      omega
    · subst heq
      rw [slice_memcpy_same _ _ _ _ (by omega), div_succ_at c h h1, hb]
      rfl
    · rw [slice_memcpy_apart _ _ _ _ _ _ (by omega) (by omega), div_succ_above c l h h1 hev hgt]
      rw [div_succ_above c l h h1 hev hgt] at hodd
      have hne : c ≠ 2 ^ LMS_BOTTOM T := by
        intro e
        rw [e, pow_div_even _ h hh] at hodd
        omega
      exact is h hh (by omega) hodd
  · apply sub_inv_weaken _ _ _ _ _ it
    intro h j _ _ ho
    rcases lms_ok_end_step c l _ j h1 hev ho with h3 | ⟨h3, _⟩
    · exact h3
    · omega
  · intro he
    have := complete_level_le c l (LMS_ACTUAL T) 0 h1 hev (by rw [← he]; ring)
    omega
/-- The store of the node of level `l` on the path of leaf `c` when the level
lies in the top subtree. -/
theorem lms_step_top (T : Tune) (P : Prims) (I seed : List Nat) (c l : Nat) (s : sh_signer)
    (buffer : List Nat) (hl : LMS_BOTTOM T ≤ l) (hlA : l < LMS_ACTUAL T)
    (hc : c < 2 ^ LMS_ACTUAL T) (h1 : c % 2 ^ l = 2 ^ l - 1)
    (hb : bytesN 24 buffer = lms_node T P I seed l (c / 2 ^ l))
    (hm : lms_mid T P I seed c l s) :
    (c / 2 ^ l % 2 = 1 →
      lms_mid T P I seed c (l + 1)
        { s with
          next_lms_top_subtree :=
            memcpy s.next_lms_top_subtree
              (24 * (c / 2 ^ l + 2 ^ (LMS_TOP T - (l - LMS_BOTTOM T)) - 2)) buffer 24 } ∧
      slice (memcpy s.next_lms_top_subtree
          (24 * (c / 2 ^ l + 2 ^ (LMS_TOP T - (l - LMS_BOTTOM T)) - 2)) buffer 24)
          (24 * ((c / 2 ^ l ^^^ 1) + 2 ^ (LMS_TOP T - (l - LMS_BOTTOM T)) - 2)) 24
        = lms_node T P I seed l (c / 2 ^ l - 1)) ∧
    (c / 2 ^ l % 2 = 0 →
      lms_mid T P I seed (c + 1) 0
        { s with
          next_lms_top_subtree :=
            memcpy s.next_lms_top_subtree
              (24 * (c / 2 ^ l + 2 ^ (LMS_TOP T - (l - LMS_BOTTOM T)) - 2)) buffer 24 }) := by
  obtain ⟨hBT, hB1, hA20, _⟩ := lms_level_facts T
  obtain ⟨hI, hS, lb, ls, lt, lr, ib, is, it, ir⟩ := hm
  have hl' : l - LMS_BOTTOM T < LMS_TOP T := by omega
  have hll : LMS_BOTTOM T + (l - LMS_BOTTOM T) = l := by omega
  have hee : LMS_TOP T - (l - LMS_BOTTOM T) = LMS_ACTUAL T - l := by omega
  have hnode : c / 2 ^ l < 2 ^ (LMS_TOP T - (l - LMS_BOTTOM T)) := by
    rw [hee]
    exact node_lt _ l c _ (Nat.div_mul_le_self c (2 ^ l)) hc (by omega)
  have hb' : bytesN 24 buffer
      = (fun h j => lms_node T P I seed (LMS_BOTTOM T + h) j) (l - LMS_BOTTOM T) (c / 2 ^ l) := by
    show _ = lms_node T P I seed (LMS_BOTTOM T + (l - LMS_BOTTOM T)) (c / 2 ^ l)
    rw [hll]
    exact hb
  have hlen : 24 * (2 ^ (LMS_TOP T + 1) - 2) ≤ (memcpy s.next_lms_top_subtree
      (24 * (c / 2 ^ l + 2 ^ (LMS_TOP T - (l - LMS_BOTTOM T)) - 2)) buffer 24).length := by
    rw [memcpy_length _ _ _ _ (by have := (slot_lt _ _ _ hl' hnode).2; omega)]
    exact lt
  constructor
  · intro hodd
    have it' : sub_inv (LMS_TOP T) (memcpy s.next_lms_top_subtree
        (24 * (c / 2 ^ l + 2 ^ (LMS_TOP T - (l - LMS_BOTTOM T)) - 2)) buffer 24)
        (fun h j => lms_node T P I seed (LMS_BOTTOM T + h) j)
        (fun h j => lms_ok c (l + 1) (LMS_BOTTOM T + h) j) := by
      apply sub_inv_store _ _ _ _ _ _ (l - LMS_BOTTOM T) (c / 2 ^ l) it lt hl' hnode hb'
      intro h j _ _ ho
      rcases lms_ok_mid_step c l _ j h1 ho with h3 | ⟨h3, h4⟩
      · exact Or.inl h3
      · exact Or.inr ⟨by omega, h4⟩
    constructor
    · refine ⟨hI, hS, lb, ls, hlen, lr, ?_, is, it', ir⟩
      apply sub_inv_weaken _ _ _ _ _ ib
      intro h j hh _ ho
      rcases ho with ho | ⟨_, he⟩
      · exact Or.inl ho
      · exact Or.inr ⟨by omega, he⟩
    · obtain ⟨_, hle, h1le⟩ := odd_level_facts c l h1 hodd
      rw [xor_one_odd _ hodd]
      have := it' (l - LMS_BOTTOM T) (c / 2 ^ l - 1) hl' (by omega)
        (Or.inl (by rw [hll]; exact hle))
      rw [this]
      show lms_node T P I seed (LMS_BOTTOM T + (l - LMS_BOTTOM T)) _ = _
      rw [hll]
  · intro hev
    refine ⟨hI, hS, lb, ls, hlen, lr, ?_, ?_, ?_, ?_⟩
    · apply sub_inv_weaken _ _ _ _ _ ib
      intro h j hh _ ho
      rcases lms_ok_end_step c l _ j h1 hev ho with h3 | ⟨h3, _⟩
      · exact h3
      · omega
    · intro h hh _ hodd
      have := div_succ_below c l h h1 (by omega)
      omega
    · apply sub_inv_store _ _ _ _ _ _ (l - LMS_BOTTOM T) (c / 2 ^ l) it lt hl' hnode hb'
      intro h j _ _ ho
      rcases lms_ok_end_step c l _ j h1 hev ho with h3 | ⟨h3, h4⟩
      · exact Or.inl h3
      · exact Or.inr ⟨by omega, h4⟩
    · intro he
      have := complete_level_le c l (LMS_ACTUAL T) 0 h1 hev (by rw [← he]; ring)
      omega

/-- The store of the root: level `LMS_ACTUAL` is reached by the last leaf only. -/
theorem lms_step_root (T : Tune) (P : Prims) (I seed : List Nat) (c : Nat) (s : sh_signer)
    (buffer : List Nat) (hc : c < 2 ^ LMS_ACTUAL T)
    (h1 : c % 2 ^ LMS_ACTUAL T = 2 ^ LMS_ACTUAL T - 1)
    (hb : bytesN 24 buffer = lms_node T P I seed (LMS_ACTUAL T) (c / 2 ^ LMS_ACTUAL T))
    (hm : lms_mid T P I seed c (LMS_ACTUAL T) s) :
    c / 2 ^ LMS_ACTUAL T = 0 ∧
    lms_mid T P I seed (c + 1) 0
      { s with next_lms_root := memcpy s.next_lms_root 0 buffer 24 } := by
  obtain ⟨hBT, hB1, hA20, _⟩ := lms_level_facts T
  obtain ⟨hI, hS, lb, ls, lt, lr, ib, is, it, ir⟩ := hm
  have h0 : c / 2 ^ LMS_ACTUAL T = 0 := Nat.div_eq_of_lt hc
  have hev : c / 2 ^ LMS_ACTUAL T % 2 = 0 := by rw [h0]
  have hT1 : 1 ≤ LMS_TOP T := by
    have := LMS_ACTUAL_ge T
    simp only [LMS_TOP]; omega
  refine ⟨h0, hI, hS, lb, ls, lt, ?_, ?_, ?_, ?_, ?_⟩
  · show _ ≤ (memcpy _ _ _ _).length
    rw [memcpy_length _ _ _ _ (by omega)]
    exact lr
  · apply sub_inv_weaken _ _ _ _ _ ib
    intro h j hh _ ho
    rcases lms_ok_end_step c _ _ j h1 hev ho with h3 | ⟨h3, _⟩
    · exact h3
    · omega
  · intro h hh _ hodd
    have := div_succ_below c _ h h1 (by omega)
    omega
  · apply sub_inv_weaken _ _ _ _ _ it
    intro h j hh _ ho
    rcases lms_ok_end_step c _ _ j h1 hev ho with h3 | ⟨h3, _⟩
    · exact h3
    · omega
  · intro _
    show slice (memcpy s.next_lms_root 0 buffer 24) 0 24 = _
    rw [slice_memcpy_same _ _ _ _ (by omega), hb, h0]
theorem loc_bottom (T : Tune) (l c n fw : Nat) (hl : l < LMS_BOTTOM T)
    (hc : c < 2 ^ LMS_BOTTOM T) :
    lms_storage T 24 l c n fw = LmsLoc.bottom (24 * (n + 2 ^ (LMS_BOTTOM T - l) - 2)) := by
  simp only [lms_storage, hl, hc, if_true]

theorem loc_stack_w (T : Tune) (l c n : Nat) (hl : l < LMS_BOTTOM T)
    (hc : 2 ^ LMS_BOTTOM T ≤ c) (hn : n % 2 = 0) :
    lms_storage T 24 l c n 1 = LmsLoc.stack (24 * l) := by
  have hc' : ¬ c < 2 ^ LMS_BOTTOM T := by omega
  simp only [lms_storage, hl, hc', if_true, if_false, Nat.and_one_is_mod, hn, ne_eq,
    not_true_eq_false]

theorem loc_null (T : Tune) (l c n : Nat) (hl : l < LMS_BOTTOM T)
    (hc : 2 ^ LMS_BOTTOM T ≤ c) (hn : n % 2 = 1) :
    lms_storage T 24 l c n 1 = LmsLoc.null := by
  have hc' : ¬ c < 2 ^ LMS_BOTTOM T := by omega
  simp only [lms_storage, hl, hc', if_true, if_false, Nat.and_one_is_mod, hn, ne_eq,
    one_ne_zero, not_false_eq_true]

theorem loc_stack_r (T : Tune) (l c n : Nat) (hl : l < LMS_BOTTOM T)
    (hc : 2 ^ LMS_BOTTOM T ≤ c) :
    lms_storage T 24 l c n 0 = LmsLoc.stack (24 * l) := by
  have hc' : ¬ c < 2 ^ LMS_BOTTOM T := by omega
  simp only [lms_storage, hl, hc', if_true, if_false, Nat.and_zero, ne_eq, not_true_eq_false]

theorem loc_top (T : Tune) (l c n fw : Nat) (hl : LMS_BOTTOM T ≤ l) (hlA : l < LMS_ACTUAL T) :
    lms_storage T 24 l c n fw
      = LmsLoc.top (24 * (n + 2 ^ (LMS_TOP T - (l - LMS_BOTTOM T)) - 2)) := by
  obtain ⟨hBT, _, _, _⟩ := lms_level_facts T
  have h1 : ¬ l < LMS_BOTTOM T := by omega
  have h2 : l - LMS_BOTTOM T < LMS_TOP T := by omega
  simp only [lms_storage, h1, h2, if_true, if_false]

theorem loc_root (T : Tune) (l c n fw : Nat) (hlA : LMS_ACTUAL T ≤ l) :
    lms_storage T 24 l c n fw = LmsLoc.root := by
  obtain ⟨hBT, _, _, _⟩ := lms_level_facts T
  have h1 : ¬ l < LMS_BOTTOM T := by omega
  have h2 : ¬ l - LMS_BOTTOM T < LMS_TOP T := by omega
  simp only [lms_storage, h1, h2, if_false]

theorem lms_node_length (T : Tune) (P : Prims) (I seed : List Nat) (h j : Nat) :
    (lms_node T P I seed h j).length = 24 := by
  cases h with
  | zero => simp only [lms_node, lm_ots_generate_public_key, bytesN_length]
  | succ h => simp only [lms_node, lms_combine_internal_nodes, bytesN_length]

theorem combine_bytesN (P : Prims) (l r I : List Nat) (q : Nat) :
    lms_combine_internal_nodes P l r I 24 q
      = lms_combine_internal_nodes P (bytesN 24 l) (bytesN 24 r) I 24 q := by
  simp only [lms_combine_internal_nodes, intrBlock, bytesN_bytesN]

theorem lms_node_up (T : Tune) (P : Prims) (I seed : List Nat) (c l : Nat) (left buffer : List Nat)
    (hl : l < LMS_H) (hodd : c / 2 ^ l % 2 = 1)
    (hleft : left = lms_node T P I seed l (c / 2 ^ l - 1))
    (hb : bytesN 24 buffer = lms_node T P I seed l (c / 2 ^ l)) :
    bytesN 24 (lms_combine_internal_nodes P left buffer I 24 ((c + 2 ^ LMS_H) / 2 ^ l / 2))
      = lms_node T P I seed (l + 1) (c / 2 ^ l / 2) := by
  have e1 : 2 * (c / 2 ^ l / 2) = c / 2 ^ l - 1 := by
    generalize c / 2 ^ l = n at hodd
    omega
  have e2 : 2 * (c / 2 ^ l / 2) + 1 = c / 2 ^ l := by
    generalize c / 2 ^ l = n at hodd
    omega
  have e3 : (c + 2 ^ LMS_H) / 2 ^ l / 2 = 2 ^ (LMS_H - (l + 1)) + c / 2 ^ l / 2 := by
    rw [Nat.div_div_eq_div_mul, Nat.div_div_eq_div_mul, ← pow_succ,
      pow_split LMS_H (l + 1) (by omega), Nat.add_mul_div_right _ _ (Nat.pow_pos (by norm_num)),
      Nat.add_comm]
  simp only [lms_node]
  rw [e2, e1, e3, combine_bytesN P left buffer, hb, hleft,
    bytesN_of_length (lms_node_length T P I seed l _)]
  simp only [lms_combine_internal_nodes, bytesN_bytesN]
theorem lms_store_step (T : Tune) (P : Prims) (I seed : List Nat) (c l : Nat) (s : sh_signer)
    (buffer : List Nat) (hc : c < 2 ^ LMS_ACTUAL T) (hl : l ≤ LMS_ACTUAL T)
    (h1 : c % 2 ^ l = 2 ^ l - 1)
    (hb : bytesN 24 buffer = lms_node T P I seed l (c / 2 ^ l))
    (hm : lms_mid T P I seed c l s) :
    (c / 2 ^ l % 2 = 1 →
      l < LMS_ACTUAL T ∧
      lms_mid T P I seed c (l + 1) (lms_store s (lms_storage T 24 l c (c / 2 ^ l) 1) buffer) ∧
      lms_load (lms_store s (lms_storage T 24 l c (c / 2 ^ l) 1) buffer)
          (lms_storage T 24 l c (c / 2 ^ l ^^^ 1) 0)
        = lms_node T P I seed l (c / 2 ^ l - 1)) ∧
    (c / 2 ^ l % 2 = 0 →
      lms_mid T P I seed (c + 1) 0
        (lms_store s (lms_storage T 24 l c (c / 2 ^ l) 1) buffer)) := by
  obtain ⟨hBT, hB1, hA20, hHF⟩ := lms_level_facts T
  by_cases hlB : l < LMS_BOTTOM T
  · by_cases hcB : c < 2 ^ LMS_BOTTOM T
    · rw [loc_bottom T l c _ 1 hlB hcB, loc_bottom T l c _ 0 hlB hcB]
      obtain ⟨a, b⟩ := lms_step_bottom T P I seed c l s buffer hlB hcB h1 hb hm
      exact ⟨fun ho => ⟨by omega, (a ho).1, (a ho).2⟩, b⟩
    · have hcB' : 2 ^ LMS_BOTTOM T ≤ c := by omega
      rw [loc_stack_r T l c _ hlB hcB']
      constructor
      · intro ho
        rw [loc_null T l c _ hlB hcB' ho]
        obtain ⟨a, b⟩ := lms_step_null T P I seed c l s hlB hcB' h1 ho hm
        exact ⟨by omega, a, b⟩
      · intro he
        rw [loc_stack_w T l c _ hlB hcB' he]
        exact lms_step_stack T P I seed c l s buffer hlB hcB' h1 he hb hm
  · by_cases hlA : l < LMS_ACTUAL T
    · rw [loc_top T l c _ 1 (by omega) hlA, loc_top T l c _ 0 (by omega) hlA]
      obtain ⟨a, b⟩ := lms_step_top T P I seed c l s buffer (by omega) hlA hc h1 hb hm
      exact ⟨fun ho => ⟨hlA, (a ho).1, (a ho).2⟩, b⟩
    · have hlA' : l = LMS_ACTUAL T := by omega
      subst hlA'
      obtain ⟨h0, b⟩ := lms_step_root T P I seed c s buffer hc h1 hb hm
      rw [loc_root T _ c _ 1 (le_refl _)]
      constructor
      · intro ho
        rw [h0] at ho
        omega
      · intro _
        exact b

theorem lms_store_I (s : sh_signer) (loc : LmsLoc) (b : List Nat) :
    (lms_store s loc b).next_lms_I = s.next_lms_I := by
  cases loc <;> rfl

theorem lms_walk_built (T : Tune) (P : Prims) (I seed : List Nat) (c : Nat)
    (hc : c < 2 ^ LMS_ACTUAL T) :
    ∀ (fuel l : Nat) (s : sh_signer) (buffer : List Nat),
      l ≤ LMS_ACTUAL T → c % 2 ^ l = 2 ^ l - 1 → LMS_ACTUAL T - l < fuel →
      bytesN 24 buffer = lms_node T P I seed l (c / 2 ^ l) → lms_mid T P I seed c l s →
      lms_mid T P I seed (c + 1) 0
        (lms_walk T P c fuel l (c / 2 ^ l) ((c + 2 ^ LMS_H) / 2 ^ l) s buffer).1 := by
  intro fuel
  induction fuel with
  | zero => intro l s buffer _ _ hf; omega
  | succ fuel ih =>
    intro l s buffer hl h1 hf hb hm
    obtain ⟨hBT, hB1, hA20, hHF⟩ := lms_level_facts T
    have hI : s.next_lms_I = I := hm.1
    obtain ⟨hodd, heven⟩ := lms_store_step T P I seed c l s buffer hc hl h1 hb hm
    simp only [lms_walk]
    by_cases hev : c / 2 ^ l % 2 = 0
    · rw [if_pos hev]
      split
      · exact lms_mid_bs T P I seed _ _ _ _ (heven hev)
      · exact heven hev
    · rw [if_neg hev]
      have ho : c / 2 ^ l % 2 = 1 := by
        generalize c / 2 ^ l = n at hev
        omega
      obtain ⟨hlA, hmid, hload⟩ := hodd ho
      have d1 : c / 2 ^ l / 2 = c / 2 ^ (l + 1) := by rw [Nat.div_div_eq_div_mul, ← pow_succ]
      have d2 : (c + 2 ^ LMS_H) / 2 ^ l / 2 = (c + 2 ^ LMS_H) / 2 ^ (l + 1) := by
        rw [Nat.div_div_eq_div_mul, ← pow_succ]
      have hup := lms_node_up T P I seed c l _ buffer (by simp only [LMS_H]; omega) ho hload hb
      rw [lms_store_I, hI]
      rw [d1] at hup ⊢
      rw [d2] at hup ⊢
      exact ih (l + 1) _ _ (by omega) (next_ones c l h1 ho) (by omega) hup hmid
theorem or_two_pow_add (c k : Nat) (h : c < 2 ^ k) : c ||| 2 ^ k = c + 2 ^ k := by
  have := Nat.mul_add_lt_is_or h 1
  rw [Nat.mul_one] at this
  rw [Nat.lor_comm, ← this, Nat.add_comm]

theorem lms_leaf_built (T : Tune) (P : Prims) (I seed : List Nat) (c : Nat) (s : sh_signer)
    (hc : c < 2 ^ LMS_ACTUAL T) (hm : lms_mid T P I seed c 0 s) (x : Nat) :
    lms_mid T P I seed (c + 1) 0
      (lms_walk T P c 33 0 (c % 2 ^ 32) (c % 2 ^ 32 ||| 2 ^ LMS_H)
        { s with do_lms_leaf := x }
        (lm_ots_generate_public_key T P s.next_lms_I c s.next_lms_seed)).1 := by
  obtain ⟨hBT, hB1, hA20, hHF⟩ := lms_level_facts T
  have h20 : 2 ^ LMS_ACTUAL T ≤ 2 ^ 20 := Nat.pow_le_pow_right (by norm_num) hA20
  have hmod : c % 2 ^ 32 = c := Nat.mod_eq_of_lt (by omega)
  have hor : c ||| 2 ^ LMS_H = c + 2 ^ LMS_H := or_two_pow_add c _ (by simp only [LMS_H]; omega)
  have hm' : lms_mid T P I seed c 0 { s with do_lms_leaf := x } := hm
  have := lms_walk_built T P I seed c hc 33 0 { s with do_lms_leaf := x }
    (lm_ots_generate_public_key T P s.next_lms_I c s.next_lms_seed) (by omega)
    (by rw [pow_zero, Nat.mod_one, Nat.sub_self]) (by omega)
    (by
      rw [hm.1, hm.2.1, pow_zero, Nat.div_one]
      exact bytesN_of_length (lms_node_length T P I seed 0 c))
    hm'
  rw [pow_zero, Nat.div_one, Nat.div_one] at this
  rw [hmod, hor]
  exact this
theorem do_lms_loop_built (T : Tune) (P : Prims) (I seed : List Nat) :
    ∀ (cnt : Nat) (s : sh_signer), s.do_lms_leaf + cnt ≤ 2 ^ LMS_ACTUAL T →
      lms_mid T P I seed s.do_lms_leaf 0 s →
      lms_mid T P I seed (do_lms_loop T P cnt s).do_lms_leaf 0 (do_lms_loop T P cnt s) := by
  intro cnt
  induction cnt with
  | zero => intro s _ hm; exact hm
  | succ cnt ih =>
    intro s hle hm
    have hc : s.do_lms_leaf < 2 ^ LMS_ACTUAL T := by omega
    have hb := lms_leaf_built T P I seed s.do_lms_leaf s hc hm (s.do_lms_leaf + 1)
    obtain ⟨a1, a2⟩ := lms_leaf_spec T P { s with do_lms_leaf := s.do_lms_leaf + 1 }
      s.do_lms_leaf (s.do_lms_leaf % 2 ^ 32 ||| 2 ^ LMS_H)
      (lm_ots_generate_public_key T P s.next_lms_I s.do_lms_leaf s.next_lms_seed) hc
    have hleaf := lmsErase_leaf a2
    simp only [do_lms_loop]
    generalize hw : lms_walk T P s.do_lms_leaf 33 0 (s.do_lms_leaf % 2 ^ 32)
      (s.do_lms_leaf % 2 ^ 32 ||| 2 ^ LMS_H) { s with do_lms_leaf := s.do_lms_leaf + 1 }
      (lm_ots_generate_public_key T P s.next_lms_I s.do_lms_leaf s.next_lms_seed) = w
      at hb a1 a2 hleaf
    have hleaf' : w.1.do_lms_leaf = s.do_lms_leaf + 1 := hleaf
    rw [← hleaf'] at hb
    split
    · exact hb
    · exact ih w.1 (by omega) hb

theorem lms_mid_zero (T : Tune) (P : Prims) (s : sh_signer)
    (lb : 24 * (2 ^ (LMS_BOTTOM T + 1) - 2) ≤ s.next_lms_bottom_subtree.length)
    (ls : 24 * LMS_BOTTOM T ≤ s.do_lms_stack.length)
    (lt : 24 * (2 ^ (LMS_TOP T + 1) - 2) ≤ s.next_lms_top_subtree.length)
    (lr : 24 ≤ s.next_lms_root.length) :
    lms_mid T P s.next_lms_I s.next_lms_seed 0 0 s := by
  have hp : 0 < 2 ^ LMS_ACTUAL T := Nat.pow_pos (by norm_num)
  refine ⟨rfl, rfl, lb, ls, lt, lr, ?_, ?_, ?_, ?_⟩
  · intro h j _ _ ho
    rcases ho with ho | ⟨h0, _⟩
    · have : 0 < (j + 1) * 2 ^ h := Nat.mul_pos (by omega) (Nat.pow_pos (by norm_num))
      omega
    · omega
  · intro h _ hlt _
    exact absurd hlt (Nat.not_lt_zero _)
  · intro h j _ _ ho
    rcases ho with ho | ⟨h0, _⟩
    · have : 0 < (j + 1) * 2 ^ (LMS_BOTTOM T + h) :=
        Nat.mul_pos (by omega) (Nat.pow_pos (by norm_num))
      omega
    · omega
  · intro he
    omega
theorem lmsErase_fatal {x s : sh_signer} (h : lmsErase x = lmsErase s) :
    x.got_fatal_error = s.got_fatal_error := by
  have := congrArg sh_signer.got_fatal_error h
  exact this

theorem do_lms_step_built (T : Tune) (P : Prims) (I seed : List Nat) (s : sh_signer) (c : Nat)
    (hf : s.got_fatal_error = false) (hb : s.build_state = b_do_lms)
    (hleaf : s.do_lms_leaf = c) (hev : c % 2 = 0) (hlt : c + 2 ≤ 2 ^ LMS_ACTUAL T)
    (hm : lms_mid T P I seed c 0 s) :
    (do_lms_loop T P LMS_LEAF_PER_ITER s).got_fatal_error = false ∧
    (do_lms_loop T P LMS_LEAF_PER_ITER s).do_lms_leaf = c + 2 ∧
    (do_lms_loop T P LMS_LEAF_PER_ITER s).build_state
      = (if c + 2 = 2 ^ LMS_ACTUAL T then b_lms_finished else b_do_lms) ∧
    lms_mid T P I seed (c + 2) 0 (do_lms_loop T P LMS_LEAF_PER_ITER s) := by
  subst hleaf
  have hspec := do_lms_loop_spec T P s hev hlt
  have h1 := lmsErase_fatal hspec
  have h2 := lmsErase_leaf hspec
  have h3 := lmsErase_bs hspec
  have h2' : (do_lms_loop T P LMS_LEAF_PER_ITER s).do_lms_leaf = s.do_lms_leaf + 2 := h2
  have hbuilt := do_lms_loop_built T P I seed LMS_LEAF_PER_ITER s
    (by simp only [LMS_LEAF_PER_ITER]; omega) hm
  rw [h2'] at hbuilt
  refine ⟨h1.trans hf, h2', ?_, hbuilt⟩
  rw [h3]
  show (if s.do_lms_leaf + 2 = 2 ^ LMS_ACTUAL T then b_lms_finished else s.build_state) = _
  rw [hb]

theorem lms_build_run (T : Tune) (P : Prims) (s : sh_signer)
    (hf : s.got_fatal_error = false) (hb : s.build_state = b_init)
    (hd : s.drbg.reseed_counter + 1 < 2 ^ 48)
    (lb : 24 * (2 ^ (LMS_BOTTOM T + 1) - 2) ≤ s.next_lms_bottom_subtree.length)
    (ls : 24 * LMS_BOTTOM T ≤ s.do_lms_stack.length)
    (lt : 24 * (2 ^ (LMS_TOP T + 1) - 2) ≤ s.next_lms_top_subtree.length)
    (lr : 24 ≤ s.next_lms_root.length) :
    ∀ k, k + 1 ≤ 2 ^ (LMS_ACTUAL T - 1) →
      (step_next T P (run T P k s)).1 = false ∧
      (run T P (k + 1) s).got_fatal_error = false ∧
      (run T P (k + 1) s).do_lms_leaf = 2 * (k + 1) ∧
      (run T P (k + 1) s).build_state
        = (if k + 1 = 2 ^ (LMS_ACTUAL T - 1) then b_lms_finished else b_do_lms) ∧
      lms_mid T P
        (read_drbg P s.next_lms_I 16 (read_drbg P s.next_lms_seed 32 s.drbg).2.2).2.1
        (read_drbg P s.next_lms_seed 32 s.drbg).2.1 (2 * (k + 1)) 0 (run T P (k + 1) s) := by
  have hA := LMS_ACTUAL_ge T
  have hp : 2 ^ LMS_ACTUAL T = 2 * 2 ^ (LMS_ACTUAL T - 1) := two_pow_pred (by omega)
  have h12 : 2 ^ 12 ≤ 2 ^ (LMS_ACTUAL T - 1) := Nat.pow_le_pow_right (by norm_num) (by omega)
  intro k
  induction k with
  | zero =>
    intro _
    obtain ⟨r1, r1c⟩ := read_drbg_ok P s.next_lms_seed 32 s.drbg (by omega)
    obtain ⟨r2, _⟩ := read_drbg_ok P s.next_lms_I 16 (read_drbg P s.next_lms_seed 32 s.drbg).2.2
      (by omega)
    have e : run T P (0 + 1) s = (step_next T P s).2 := rfl
    have e' : run T P 0 s = s := rfl
    rw [e, e']
    simp only [step_next, hf, hb, r1, r2, Bool.false_eq_true, if_false, not_true_eq_false,
      true_and]
    have := do_lms_step_built T P
      (read_drbg P s.next_lms_I 16 (read_drbg P s.next_lms_seed 32 s.drbg).2.2).2.1
      (read_drbg P s.next_lms_seed 32 s.drbg).2.1
      { s with
        next_lms_seed := (read_drbg P s.next_lms_seed 32 s.drbg).2.1,
        drbg := (read_drbg P s.next_lms_I 16 (read_drbg P s.next_lms_seed 32 s.drbg).2.2).2.2,
        next_lms_I :=
          (read_drbg P s.next_lms_I 16 (read_drbg P s.next_lms_seed 32 s.drbg).2.2).2.1,
        build_state := b_do_lms, do_lms_leaf := 0 }
      0 hf rfl rfl rfl (by omega) (lms_mid_zero T P _ lb ls lt lr)
    have hne : ¬ (0 + 2 = 2 ^ LMS_ACTUAL T) := by omega
    have hne' : ¬ (0 + 1 = 2 ^ (LMS_ACTUAL T - 1)) := by omega
    rw [if_neg hne] at this
    rw [if_neg hne']
    have e0 : 0 + 2 = 2 * (0 + 1) := rfl
    rw [e0] at this
    simp only [hf] at this
    exact this
  | succ k ih =>
    intro hk
    obtain ⟨_, i1, i2, i3, i4⟩ := ih (by omega)
    have hne : ¬ (k + 1 = 2 ^ (LMS_ACTUAL T - 1)) := by omega
    rw [if_neg hne] at i3
    rw [run_succ T P (k + 1) s]
    generalize run T P (k + 1) s = sk at i1 i2 i3 i4
    simp only [step_next, i1, i3, Bool.false_eq_true, if_false, true_and]
    have := do_lms_step_built T P _ _ sk (2 * (k + 1)) i1 i3 i2 (by omega) (by omega) i4
    have e2 : 2 * (k + 1) + 2 = 2 * (k + 1 + 1) := by ring
    rw [e2] at this
    have e3 : (2 * (k + 1 + 1) = 2 ^ LMS_ACTUAL T) ↔ (k + 1 + 1 = 2 ^ (LMS_ACTUAL T - 1)) := by
      rw [hp]; omega
    simp only [e3] at this
    exact this

theorem do_lms_loop_two (T : Tune) (P : Prims) (x : sh_signer)
    (hlt : x.do_lms_leaf + 2 ≤ 2 ^ LMS_ACTUAL T) :
    do_lms_loop T P LMS_LEAF_PER_ITER x
      = (lms_walk T P (x.do_lms_leaf + 1) 33 0 ((x.do_lms_leaf + 1) % 2 ^ 32)
          ((x.do_lms_leaf + 1) % 2 ^ 32 ||| 2 ^ LMS_H)
          { (lms_walk T P x.do_lms_leaf 33 0 (x.do_lms_leaf % 2 ^ 32)
              (x.do_lms_leaf % 2 ^ 32 ||| 2 ^ LMS_H) { x with do_lms_leaf := x.do_lms_leaf + 1 }
              (lm_ots_generate_public_key T P x.next_lms_I x.do_lms_leaf x.next_lms_seed)).1 with
            do_lms_leaf := x.do_lms_leaf + 2 }
          (lm_ots_generate_public_key T P
            (lms_walk T P x.do_lms_leaf 33 0 (x.do_lms_leaf % 2 ^ 32)
              (x.do_lms_leaf % 2 ^ 32 ||| 2 ^ LMS_H) { x with do_lms_leaf := x.do_lms_leaf + 1 }
              (lm_ots_generate_public_key T P x.next_lms_I x.do_lms_leaf x.next_lms_seed)).1.next_lms_I
            (x.do_lms_leaf + 1)
            (lms_walk T P x.do_lms_leaf 33 0 (x.do_lms_leaf % 2 ^ 32)
              (x.do_lms_leaf % 2 ^ 32 ||| 2 ^ LMS_H) { x with do_lms_leaf := x.do_lms_leaf + 1 }
              (lm_ots_generate_public_key T P x.next_lms_I x.do_lms_leaf
                x.next_lms_seed)).1.next_lms_seed)).1 := by
  obtain ⟨a1, a2⟩ := lms_leaf_spec T P { x with do_lms_leaf := x.do_lms_leaf + 1 }
    x.do_lms_leaf (x.do_lms_leaf % 2 ^ 32 ||| 2 ^ LMS_H)
    (lm_ots_generate_public_key T P x.next_lms_I x.do_lms_leaf x.next_lms_seed) (by omega)
  have hleaf := lmsErase_leaf a2
  have hne : ¬ (x.do_lms_leaf + 1 = 2 ^ LMS_ACTUAL T) := by omega
  simp only [hne, decide_False] at a1
  simp only [LMS_LEAF_PER_ITER, do_lms_loop]
  generalize hw : lms_walk T P x.do_lms_leaf 33 0 (x.do_lms_leaf % 2 ^ 32)
    (x.do_lms_leaf % 2 ^ 32 ||| 2 ^ LMS_H) { x with do_lms_leaf := x.do_lms_leaf + 1 }
    (lm_ots_generate_public_key T P x.next_lms_I x.do_lms_leaf x.next_lms_seed) = w
    at a1 hleaf
  have hleaf' : w.1.do_lms_leaf = x.do_lms_leaf + 1 := hleaf
  simp only [a1, Bool.false_eq_true, if_false, hleaf']
  split <;> rfl

/-- C32 (counterexample): a `step_next` call in `b_init` on a signer without
fatal error whose DRBG has reached its reseed limit draws nothing and builds
no leaf: it returns true through `failure_state` and the build state is still
`b_init`, not `b_do_lms`. -/
theorem lms_build_draw_refused :
    (exhausted_signer b_init).got_fatal_error = false ∧
    (exhausted_signer b_init).build_state = b_init ∧
    (step_next tune zero_prims (exhausted_signer b_init)).1 = true ∧
    (step_next tune zero_prims (exhausted_signer b_init)).2.build_state = b_init := by
  refine ⟨rfl, rfl, ?_, ?_⟩
  · exact (step_init_fail tune zero_prims (exhausted_signer b_init) rfl rfl (by decide)).1
  · exact step_init_fail_state tune zero_prims (exhausted_signer b_init) rfl rfl (by decide)

/-- C32 (amended): LMS build stepping.  For a signer in `b_init` without fatal
error whose DRBG delivers both draws (and whose buffers have their sizes):
the first `step_next` call draws the seed and `I`; after call `k+1`
(`k+1 <= 2^(LMS_ACTUAL-1)`) the call has returned false, the leaf counter is
`2(k+1)`, the seed and `I` are those drawn, the builder invariant `lms_mid`
holds for the leaves `0 .. 2(k+1)-1`, and the build state is `b_do_lms` until
call `2^(LMS_ACTUAL-1)`, the call in which the leaf counter reaches
`2^LMS_ACTUAL`, where it is `b_lms_finished`; a `b_do_lms` call walks up leaf
`c` and then leaf `c+1`; at the end `next_lms_root` holds the root of the
recursive definition `lms_node` and `next_lms_top_subtree` holds every node of
the levels `LMS_BOTTOM .. LMS_ACTUAL-1`. -/
theorem lms_build_stepping (T : Tune) (P : Prims) (s : sh_signer)
    (hf : s.got_fatal_error = false) (hb : s.build_state = b_init)
    (hd : s.drbg.reseed_counter + 1 < 2 ^ 48)
    (lb : 24 * (2 ^ (LMS_BOTTOM T + 1) - 2) ≤ s.next_lms_bottom_subtree.length)
    (ls : 24 * LMS_BOTTOM T ≤ s.do_lms_stack.length)
    (lt : 24 * (2 ^ (LMS_TOP T + 1) - 2) ≤ s.next_lms_top_subtree.length)
    (lr : 24 ≤ s.next_lms_root.length) :
    (∀ k, k + 1 ≤ 2 ^ (LMS_ACTUAL T - 1) →
      (step_next T P (run T P k s)).1 = false ∧
      (run T P (k + 1) s).got_fatal_error = false ∧
      (run T P (k + 1) s).do_lms_leaf = 2 * (k + 1) ∧
      (run T P (k + 1) s).build_state
        = (if k + 1 = 2 ^ (LMS_ACTUAL T - 1) then b_lms_finished else b_do_lms) ∧
      (run T P (k + 1) s).next_lms_seed = (read_drbg P s.next_lms_seed 32 s.drbg).2.1 ∧
      (run T P (k + 1) s).next_lms_I
        = (read_drbg P s.next_lms_I 16 (read_drbg P s.next_lms_seed 32 s.drbg).2.2).2.1 ∧
      lms_mid T P
        (read_drbg P s.next_lms_I 16 (read_drbg P s.next_lms_seed 32 s.drbg).2.2).2.1
        (read_drbg P s.next_lms_seed 32 s.drbg).2.1 (2 * (k + 1)) 0 (run T P (k + 1) s)) ∧
    (∀ x : sh_signer, x.do_lms_leaf + 2 ≤ 2 ^ LMS_ACTUAL T →
      do_lms_loop T P LMS_LEAF_PER_ITER x
        = (lms_walk T P (x.do_lms_leaf + 1) 33 0 ((x.do_lms_leaf + 1) % 2 ^ 32)
            ((x.do_lms_leaf + 1) % 2 ^ 32 ||| 2 ^ LMS_H)
            { (lms_walk T P x.do_lms_leaf 33 0 (x.do_lms_leaf % 2 ^ 32)
                (x.do_lms_leaf % 2 ^ 32 ||| 2 ^ LMS_H)
                { x with do_lms_leaf := x.do_lms_leaf + 1 }
                (lm_ots_generate_public_key T P x.next_lms_I x.do_lms_leaf
                  x.next_lms_seed)).1 with
              do_lms_leaf := x.do_lms_leaf + 2 }
            (lm_ots_generate_public_key T P
              (lms_walk T P x.do_lms_leaf 33 0 (x.do_lms_leaf % 2 ^ 32)
                (x.do_lms_leaf % 2 ^ 32 ||| 2 ^ LMS_H)
                { x with do_lms_leaf := x.do_lms_leaf + 1 }
                (lm_ots_generate_public_key T P x.next_lms_I x.do_lms_leaf
                  x.next_lms_seed)).1.next_lms_I
              (x.do_lms_leaf + 1)
              (lms_walk T P x.do_lms_leaf 33 0 (x.do_lms_leaf % 2 ^ 32)
                (x.do_lms_leaf % 2 ^ 32 ||| 2 ^ LMS_H)
                { x with do_lms_leaf := x.do_lms_leaf + 1 }
                (lm_ots_generate_public_key T P x.next_lms_I x.do_lms_leaf
                  x.next_lms_seed)).1.next_lms_seed)).1) ∧
    slice (run T P (2 ^ (LMS_ACTUAL T - 1)) s).next_lms_root 0 24
      = lms_node T P
          (read_drbg P s.next_lms_I 16 (read_drbg P s.next_lms_seed 32 s.drbg).2.2).2.1
          (read_drbg P s.next_lms_seed 32 s.drbg).2.1 (LMS_ACTUAL T) 0 ∧
    (∀ h j, LMS_BOTTOM T ≤ h → h < LMS_ACTUAL T → j < 2 ^ (LMS_ACTUAL T - h) →
      slice (run T P (2 ^ (LMS_ACTUAL T - 1)) s).next_lms_top_subtree
          (24 * (j + 2 ^ (LMS_TOP T - (h - LMS_BOTTOM T)) - 2)) 24
        = lms_node T P
            (read_drbg P s.next_lms_I 16 (read_drbg P s.next_lms_seed 32 s.drbg).2.2).2.1
            (read_drbg P s.next_lms_seed 32 s.drbg).2.1 h j) := by
  have hA := LMS_ACTUAL_ge T
  obtain ⟨hBT, hB1, hA20, _⟩ := lms_level_facts T
  have hp : 2 ^ LMS_ACTUAL T = 2 * 2 ^ (LMS_ACTUAL T - 1) := two_pow_pred (by omega)
  have hpos : 0 < 2 ^ (LMS_ACTUAL T - 1) := Nat.pow_pos (by norm_num)
  have hrun := lms_build_run T P s hf hb hd lb ls lt lr
  have hlast := hrun (2 ^ (LMS_ACTUAL T - 1) - 1) (by omega)
  have e1 : 2 ^ (LMS_ACTUAL T - 1) - 1 + 1 = 2 ^ (LMS_ACTUAL T - 1) := by omega
  rw [e1] at hlast
  obtain ⟨_, _, _, _, hm⟩ := hlast
  obtain ⟨_, _, _, _, _, _, _, _, it, ir⟩ := hm
  refine ⟨?_, ?_, ?_, ?_⟩
  · intro k hk
    obtain ⟨r0, r1, r2, r3, r4⟩ := hrun k hk
    exact ⟨r0, r1, r2, r3, r4.2.1, r4.1, r4⟩
  · intro x hx
    exact do_lms_loop_two T P x hx
  · exact ir hp.symm
  · intro h j hh hhA hj
    have hee : LMS_TOP T - (h - LMS_BOTTOM T) = LMS_ACTUAL T - h := by omega
    have hll : LMS_BOTTOM T + (h - LMS_BOTTOM T) = h := by omega
    have := it (h - LMS_BOTTOM T) j (by omega) (by rw [hee]; exact hj)
      (Or.inl (by
        rw [hll, ← hp]
        exact in_sub_bound (LMS_ACTUAL T) h j hhA hj))
    rw [this]
    show lms_node T P _ _ (LMS_BOTTOM T + (h - LMS_BOTTOM T)) j = _
    rw [hll]

/-- Witness for `lms_build_stepping`: zero-filled signer memory with the
shipped settings; the first call leaves the leaf counter at 2. -/
theorem lms_build_stepping_witness :
    blank_signer.build_state = b_init ∧ (run tune zero_prims 1 blank_signer).do_lms_leaf = 2 :=
  ⟨rfl,
   ((lms_build_stepping tune zero_prims blank_signer rfl rfl (by decide)
      (by simp [blank_signer, LMS_BOTTOM, LMS_ACTUAL, LMS_FAKE, LMS_H, tune])
      (by simp [blank_signer, LMS_BOTTOM, LMS_ACTUAL, LMS_FAKE, LMS_H, tune])
      (by simp [blank_signer, LMS_TOP, LMS_ACTUAL, LMS_FAKE, LMS_H, tune])
      (by simp [blank_signer])).1 0 (by simp [LMS_ACTUAL, LMS_FAKE, LMS_H, tune])).2.2.1⟩

/-! ## The streaming Merkle builder against the recursive definition -/

theorem do_H_some (P : Prims) (pre adr a b old : List Nat) :
    hashInto (do_H P (HASH_TYPE_SHA256 ||| HASH_LEN_192) pre adr a b) old 24
      = bytesN 24 (SHA256 P (pre ++ bytesN LEN_ADR adr ++ bytesN 48 (bytesN 24 a ++ bytesN 24 b))) := by
  have h24 : hash_len (HASH_TYPE_SHA256 ||| HASH_LEN_192) = 24 := by decide
  simp only [do_H, do_thash, h24]
  split_ifs <;> first | rfl | contradiction

theorem do_thash_some (P : Prims) (pre adr a old : List Nat) (len : Nat) :
    hashInto (do_thash P (HASH_TYPE_SHA256 ||| HASH_LEN_192) pre adr a len) old 24
      = bytesN 24 (SHA256 P (pre ++ bytesN LEN_ADR adr ++ bytesN len a)) := by
  have h24 : hash_len (HASH_TYPE_SHA256 ||| HASH_LEN_192) = 24 := by decide
  simp only [do_thash, h24]
  split_ifs <;> first | rfl | contradiction

theorem merkle_node_length (T : Tune) (P : Prims) (sk pre q : List Nat) (h j : Nat) :
    (merkle_node T P sk pre q h j).length = 24 := by
  cases h with
  | zero => simp only [merkle_node, wots_pk, do_thash_some, bytesN_length]
  | succ h => simp only [merkle_node, do_H_some, bytesN_length]

theorem merkle_leaf_eq (T : Tune) (P : Prims) (st : build_merkle_state) (q : List Nat)
    (hst : st.adr.length = 22) (h9 : st.adr.take 9 = q)
    (hn : st.n = 24) (hh : st.hash = HASH_TYPE_SHA256 ||| HASH_LEN_192)
    (hw : st.wots_digits = 51) :
    merkle_leaf T P st
      = (wadr (q ++ [WOTS_KEY_COMPRESSION % 256]) st.current_node 0 0,
         wots_pk T P st.sk_seed st.pk_seed_pre q st.current_node) := by
  have hql : q.length = 9 := by rw [← h9, List.length_take]; omega
  have hp : (q ++ [WOTS_HASH_ADDRESS % 256]).length = 10 := by simp [hql]
  have hbase : (q ++ zeros 13).length = 22 := by simp [hql]
  have hbase9 : (q ++ zeros 13).take 9 = q := List.take_left' hql
  simp only [merkle_leaf, wots_pk]
  rw [wots_adr st.adr q WOTS_HASH_ADDRESS st.current_node hst h9,
    wots_adr (q ++ zeros 13) q WOTS_KEY_COMPRESSION st.current_node hbase hbase9, hn, hh, hw]
  have hg : init_private_key_gen T P st.sk_seed 24 st.adr ADR_CONST_FOR_TREE
      = init_private_key_gen T P st.sk_seed 24 (q ++ zeros 13) ADR_CONST_FOR_TREE := by
    apply gen_congr
    rw [bytesN_eq_take _ _ (by omega), bytesN_eq_take _ _ (by omega), h9, hbase9]
  rw [hg]
  generalize init_private_key_gen T P st.sk_seed 24 (q ++ zeros 13) ADR_CONST_FOR_TREE = gen
  obtain ⟨c2, x2, e2⟩ := wots_leaf_loop_spec T P st gen (q ++ [WOTS_HASH_ADDRESS % 256])
    st.current_node hp hn hh 51 0 0 0 (zeros (MAX_HASH_LEN * 51)) (by simp [MAX_HASH_LEN])
  rw [e2]
  have hka : set_key_pair_address
      (set_type (wadr (q ++ [WOTS_HASH_ADDRESS % 256]) st.current_node c2 x2)
        WOTS_KEY_COMPRESSION)
      st.current_node = wadr (q ++ [WOTS_KEY_COMPRESSION % 256]) st.current_node 0 0 := by
    apply wots_adr _ q _ _ (wadr_setters _ _ _ _ 0 hp).2.2.2.1
    rw [(wadr_setters _ _ _ _ 0 hp).2.2.2.2]
    simp [hql]
  simp only [hka]
  generalize hTz : wots_tops T P gen st.pk_seed_pre (q ++ [WOTS_HASH_ADDRESS % 256])
    st.current_node 51 0 = Tz
  have hTl : Tz.length = 24 * 51 := by rw [← hTz]; exact wots_tops_length _ _ _ _ _ _ _ _
  have hb : bytesN (24 * 51) (List.take (24 * 0) (zeros (MAX_HASH_LEN * 51)) ++ Tz ++
      List.drop (24 * (0 + 51)) (zeros (MAX_HASH_LEN * 51))) = bytesN (24 * 51) Tz := by
    rw [Nat.mul_zero, List.take_zero, List.nil_append, bytesN_append_left _ _ _ hTl,
      bytesN_of_length hTl]
  rw [do_thash_congr P _ _ _ _ Tz _ hb, hashInto_thash P _ _ _ (zeros MAX_HASH_LEN) (zeros 24)]
theorem tree_adr_facts (a : List Nat) (t h i : Nat) (ha : a.length = 22) :
    (set_tree_index (set_tree_height (set_type a t) h) i).length = 22 ∧
    (set_tree_index (set_tree_height (set_type a t) h) i).take 9 = a.take 9 := by
  obtain ⟨a0, a1, a2, a3, a4, a5, a6, a7, a8, a9, a10, a11, a12, a13, a14, a15, a16, a17, a18,
    a19, a20, a21, rfl⟩ := list_of_length_22 a ha
  exact ⟨rfl, rfl⟩

theorem set_type_base (a : List Nat) (q : List Nat) (t : Nat) (ha : a.length = 22)
    (h9 : a.take 9 = q) : set_type a t = set_type (q ++ zeros 13) t := by
  have hql : q.length = 9 := by rw [← h9, List.length_take]; omega
  rw [set_type_canon a t ha, set_type_canon (q ++ zeros 13) t (by simp [hql]), h9,
    List.take_left' hql]

theorem xor_div_pow (t c l : Nat) : (t ^^^ c) / 2 ^ l = t / 2 ^ l ^^^ c / 2 ^ l := by
  induction l with
  | zero => simp
  | succ l ih =>
    rw [pow_succ, ← Nat.div_div_eq_div_mul, ← Nat.div_div_eq_div_mul, ← Nat.div_div_eq_div_mul,
      ih, Nat.xor_div_two]

theorem xor_eq_one_iff (a b : Nat) : a ^^^ b = 1 ↔ b = a ^^^ 1 := by
  constructor
  · intro h
    rw [← h, ← Nat.xor_assoc, Nat.xor_self, Nat.zero_xor]
  · intro h
    rw [h, ← Nat.xor_assoc, Nat.xor_self, Nat.zero_xor]

theorem auth_cond (t c l : Nat) : (t ^^^ c) / 2 ^ l = 1 ↔ c / 2 ^ l = t / 2 ^ l ^^^ 1 := by
  rw [xor_div_pow, xor_eq_one_iff]

theorem auth_cond_top (t c Th : Nat) (ht : t < 2 ^ Th) (hc : c < 2 ^ Th) :
    ¬ (t ^^^ c) / 2 ^ Th = 1 := by
  have := Nat.xor_lt_two_pow ht hc
  rw [Nat.div_eq_of_lt this]
  omega

/-- The update of the authentication path at height `l` of the walk of leaf
`c`. -/
theorem auth_step (val : Nat → Nat → List Nat) (t c l o Th : Nat) (a buf : List Nat)
    (ok ok' : Nat → Nat → Prop)
    (hlen : o + 24 * Th ≤ a.length)
    (hb : bytesN 24 buf = val l (c / 2 ^ l))
    (hnot : Th ≤ l → ¬ (t ^^^ c) / 2 ^ l = 1)
    (hinv : ∀ h, h < Th → ok h (t / 2 ^ h ^^^ 1) →
      slice a (o + 24 * h) 24 = val h (t / 2 ^ h ^^^ 1))
    (hok : ∀ h j, ok' h j → ok h j ∨ (h = l ∧ j = c / 2 ^ l)) :
    (o + 24 * Th ≤ (if (t ^^^ c) / 2 ^ l = 1 then memcpy a (o + l * 24) buf 24 else a).length) ∧
    ∀ h, h < Th → ok' h (t / 2 ^ h ^^^ 1) →
      slice (if (t ^^^ c) / 2 ^ l = 1 then memcpy a (o + l * 24) buf 24 else a) (o + 24 * h) 24
        = val h (t / 2 ^ h ^^^ 1) := by
  by_cases hcond : (t ^^^ c) / 2 ^ l = 1
  · have hlt : l < Th := by
      by_contra hge
      exact hnot (by omega) hcond
    rw [if_pos hcond]
    refine ⟨by rw [memcpy_length _ _ _ _ (by omega)]; exact hlen, ?_⟩
    intro h hh ho
    by_cases he : h = l
    · subst he
      rw [Nat.mul_comm h 24, slice_memcpy_same _ _ _ _ (by omega), hb,
        (auth_cond t c h).mp hcond]
    · rw [slice_memcpy_apart _ _ _ _ _ _ (by omega) (by omega)]
      rcases hok h _ ho with h1 | ⟨h1, _⟩
      · exact hinv h hh h1
      · exact absurd h1 he
  · rw [if_neg hcond]
    refine ⟨hlen, ?_⟩
    intro h hh ho
    rcases hok h _ ho with h1 | ⟨h1, h2⟩
    · exact hinv h hh h1
    · subst h1
      exact absurd ((auth_cond t c h).mpr h2.symm) hcond
theorem bytesN_node (T : Tune) (P : Prims) (sk pre q : List Nat) (h j : Nat) :
    bytesN 24 (merkle_node T P sk pre q h j) = merkle_node T P sk pre q h j :=
  bytesN_of_length (merkle_node_length T P sk pre q h j)

theorem merkle_up_built (T : Tune) (P : Prims) (sk pre q : List Nat) (Th t : Nat)
    (ap rt : Option Nat) (c : Nat) (hc : c < 2 ^ Th) (ht : t < 2 ^ Th) :
    ∀ (fuel l : Nat) (st : build_merkle_state) (a r buf : List Nat),
      l ≤ Th → c % 2 ^ l = 2 ^ l - 1 → Th - l < fuel →
      bytesN 24 buf = merkle_node T P sk pre q l (c / 2 ^ l) →
      merkle_mid T P sk pre q Th t ap rt c l st a r →
      merkle_mid T P sk pre q Th t ap rt (c + 1) 0 (merkle_up P c fuel l st a r buf).state
        (merkle_up P c fuel l st a r buf).authMem (merkle_up P c fuel l st a r buf).rootMem := by
  intro fuel
  induction fuel with
  | zero => intro l st a r buf _ _ hf; omega
  | succ fuel ih =>
    intro l st a r buf hl h1 hf hb hm
    obtain ⟨hsk, hpre, hn, hh, hw, hth, htn, hap, hrt, hal, ha9, hsl, haul, hrl, istk, iauth,
      iroot⟩ := hm
    simp only [merkle_up, hn, hth, htn, hh, hpre]
    generalize ha' : (if st.auth_path.isSome = true ∧ (t ^^^ c) / 2 ^ l = 1 then
        memcpy a (st.auth_path.getD 0 + l * 24) buf 24 else a) = a'
    have hA : (∀ o, ap = some o → o + 24 * Th ≤ a'.length) ∧
        ∀ ok' : Nat → Nat → Prop,
          (∀ h j, ok' h j → lms_ok c l h j ∨ (h = l ∧ j = c / 2 ^ l)) →
          ∀ o h, ap = some o → h < Th → ok' h (t / 2 ^ h ^^^ 1) →
            slice a' (o + 24 * h) 24 = merkle_node T P sk pre q h (t / 2 ^ h ^^^ 1) := by
      rw [← ha', hap]
      cases hapc : ap with
      | none =>
        simp only [Option.isSome_none, Bool.false_eq_true, false_and, if_false]
        exact ⟨fun o ho => absurd ho (by simp), fun _ _ o h ho => absurd ho (by simp)⟩
      | some o =>
        simp only [Option.isSome_some, true_and, Option.getD_some]
        have hlen := haul o hapc
        have inv0 : ∀ h, h < Th → lms_ok c l h (t / 2 ^ h ^^^ 1) →
            slice a (o + 24 * h) 24 = merkle_node T P sk pre q h (t / 2 ^ h ^^^ 1) :=
          fun h hh ho => iauth o h hapc hh ho
        constructor
        · intro o' ho'
          have : o' = o := by simpa using ho'.symm
          subst this
          exact (auth_step (merkle_node T P sk pre q) t c l o' Th a buf (lms_ok c l)
            (lms_ok c l) hlen hb
            (fun hge => by
              have : l = Th := by omega
              subst this
              exact auth_cond_top t c l ht hc)
            inv0 (fun h j ho => Or.inl ho)).1
        · intro ok' hok o' h ho' hh ho
          have : o' = o := by simpa using ho'.symm
          subst this
          exact (auth_step (merkle_node T P sk pre q) t c l o' Th a buf (lms_ok c l)
            ok' hlen hb
            (fun hge => by
              have : l = Th := by omega
              subst this
              exact auth_cond_top t c l ht hc)
            inv0 hok).2 h hh ho
    obtain ⟨haul', iauth'⟩ := hA
    by_cases hodd : c / 2 ^ l % 2 = 1
    · have hbit : c &&& 2 ^ l ≠ 0 := (and_two_pow_ne_zero c l).mpr hodd
      rw [if_pos hbit]
      have hlt : l < Th := by
        by_contra hge
        have : l = Th := by omega
        subst this
        rw [Nat.div_eq_of_lt hc] at hodd
        omega
      obtain ⟨al, a9⟩ := tree_adr_facts st.adr HASH_TREE_ADDRESS (l + 1) (c / 2 ^ (l + 1)) hal
      have hstk := istk l hlt hodd
      have hnew : bytesN 24 (hashInto (do_H P (HASH_TYPE_SHA256 ||| HASH_LEN_192) pre
          (set_tree_index (set_tree_height (set_type st.adr HASH_TREE_ADDRESS) (l + 1))
            (c / 2 ^ (l + 1)))
          (slice st.stack (l * 24) 24) buf) buf 24)
          = merkle_node T P sk pre q (l + 1) (c / 2 ^ (l + 1)) := by
        have e1 : 2 * (c / 2 ^ (l + 1)) = c / 2 ^ l - 1 := by
          rw [pow_succ, ← Nat.div_div_eq_div_mul]
          generalize c / 2 ^ l = n at hodd
          omega
        have e2 : 2 * (c / 2 ^ (l + 1)) + 1 = c / 2 ^ l := by
          rw [pow_succ, ← Nat.div_div_eq_div_mul]
          generalize c / 2 ^ l = n at hodd
          omega
        simp only [merkle_node]
        rw [e2, e1, do_H_some, do_H_some, bytesN_bytesN, Nat.mul_comm l 24, hstk, hb,
          set_type_base st.adr q HASH_TREE_ADDRESS hal ha9]
        simp only [bytesN_node]
      exact ih (l + 1) _ a' r _ (by omega) (next_ones c l h1 hodd) (by omega) hnew
        ⟨hsk, rfl, rfl, rfl, hw, rfl, rfl, hap, hrt, al, a9.trans ha9, hsl, haul', hrl, istk,
         fun o h ho hh hok => iauth' (lms_ok c (l + 1))
           (fun h j ho => lms_ok_mid_step c l h j h1 ho) o h ho hh hok,
         iroot⟩
    · have hev : c / 2 ^ l % 2 = 0 := by
        generalize c / 2 ^ l = n at hodd
        omega
      have hbit : ¬ (c &&& 2 ^ l ≠ 0) := fun hne => hodd ((and_two_pow_ne_zero c l).mp hne)
      rw [if_neg hbit]
      have iauth'' : ∀ o h, ap = some o → h < Th → lms_ok (c + 1) 0 h (t / 2 ^ h ^^^ 1) →
          slice a' (o + 24 * h) 24 = merkle_node T P sk pre q h (t / 2 ^ h ^^^ 1) :=
        fun o h ho hh hok => iauth' (lms_ok (c + 1) 0)
          (fun h j ho => lms_ok_end_step c l h j h1 hev ho) o h ho hh hok
      by_cases htop : l = Th
      · rw [if_pos htop]
        subst htop
        refine ⟨hsk, hpre, hn, hh, hw, hth, htn, hap, hrt, hal, ha9, hsl, haul', ?_, ?_,
          iauth'', ?_⟩
        · intro hs
          show 24 ≤ (if st.root.isSome = true then memcpy r 0 buf 24 else r).length
          rw [hrt, if_pos hs, memcpy_length _ _ _ _ (by have := hrl hs; omega)]
          exact hrl hs
        · intro h hh hodd'
          have := div_succ_below c l h h1 hh
          omega
        · intro hs _
          show slice (if st.root.isSome = true then memcpy r 0 buf 24 else r) 0 24 = _
          rw [hrt, if_pos hs, slice_memcpy_same _ _ _ _ (by omega), hb, Nat.div_eq_of_lt hc]
      · rw [if_neg htop]
        have hlt : l < Th := by omega
        refine ⟨hsk, rfl, rfl, rfl, hw, rfl, rfl, hap, hrt, hal, ha9, ?_, haul', hrl, ?_,
          iauth'', ?_⟩
        · show _ ≤ (memcpy st.stack (l * 24) buf 24).length
          rw [memcpy_length _ _ _ _ (by omega)]
          exact hsl
        · intro h hh hodd'
          show slice (memcpy st.stack (l * 24) buf 24) (24 * h) 24 = _
          rcases Nat.lt_trichotomy h l with hlt' | heq | hgt
          · have := div_succ_below c l h h1 hlt'
            omega
          · subst heq
            rw [Nat.mul_comm h 24, slice_memcpy_same _ _ _ _ (by omega), div_succ_at c h h1, hb]
            rfl
          · rw [slice_memcpy_apart _ _ _ _ _ _ (by omega) (by omega),
              div_succ_above c l h h1 hev hgt]
            rw [div_succ_above c l h h1 hev hgt] at hodd'
            exact istk h hh hodd'
        · intro _ he
          have := complete_level_le c l Th 0 h1 hev (by rw [← he]; ring)
          omega
theorem merkle_leaves_succ (T : Tune) (P : Prims) (m : Nat) (st : build_merkle_state)
    (a r : List Nat) (flag : Bool) (hc : st.current_node < 2 ^ st.tree_height) :
    merkle_leaves T P (m + 1) st a r flag
      = merkle_leaves T P m
          { (merkle_up P st.current_node 32 0 { st with adr := (merkle_leaf T P st).1 } a r
              (merkle_leaf T P st).2).state with
            current_node :=
              (merkle_up P st.current_node 32 0 { st with adr := (merkle_leaf T P st).1 } a r
                (merkle_leaf T P st).2).state.current_node + 1 }
          (merkle_up P st.current_node 32 0 { st with adr := (merkle_leaf T P st).1 } a r
            (merkle_leaf T P st).2).authMem
          (merkle_up P st.current_node 32 0 { st with adr := (merkle_leaf T P st).1 } a r
            (merkle_leaf T P st).2).rootMem
          (flag || (merkle_up P st.current_node 32 0 { st with adr := (merkle_leaf T P st).1 } a r
            (merkle_leaf T P st).2).all_done_flag) := by
  have hc' : ¬ (st.current_node ≥ 2 ^ st.tree_height) := by omega
  simp only [merkle_leaves, hc', if_false, merkle_leaf]

theorem merkle_leaf_built (T : Tune) (P : Prims) (sk pre q : List Nat) (Th t : Nat)
    (ap rt : Option Nat) (hT : Th ≤ 8) (ht : t < 2 ^ Th) (st : build_merkle_state)
    (a r : List Nat) (hc : st.current_node < 2 ^ Th)
    (hm : merkle_mid T P sk pre q Th t ap rt st.current_node 0 st a r) :
    merkle_mid T P sk pre q Th t ap rt (st.current_node + 1) 0
      (merkle_up P st.current_node 32 0 { st with adr := (merkle_leaf T P st).1 } a r
        (merkle_leaf T P st).2).state
      (merkle_up P st.current_node 32 0 { st with adr := (merkle_leaf T P st).1 } a r
        (merkle_leaf T P st).2).authMem
      (merkle_up P st.current_node 32 0 { st with adr := (merkle_leaf T P st).1 } a r
        (merkle_leaf T P st).2).rootMem ∧
    (merkle_up P st.current_node 32 0 { st with adr := (merkle_leaf T P st).1 } a r
        (merkle_leaf T P st).2).state.current_node = st.current_node := by
  obtain ⟨hsk, hpre, hn, hh, hw, hth, htn, hap, hrt, hal, ha9, hsl, haul, hrl, istk, iauth,
    iroot⟩ := hm
  have hql : q.length = 9 := by rw [← ha9, List.length_take]; omega
  have hp : (q ++ [WOTS_KEY_COMPRESSION % 256]).length = 10 := by simp [hql]
  have hleaf := merkle_leaf_eq T P st q hal ha9 hn hh hw
  rw [hleaf]
  constructor
  · apply merkle_up_built T P sk pre q Th t ap rt st.current_node hc ht 32 0 _ a r _
      (by omega) (by rw [pow_zero, Nat.mod_one, Nat.sub_self]) (by omega)
    · show bytesN 24 (wots_pk T P st.sk_seed st.pk_seed_pre q st.current_node) = _
      rw [pow_zero, Nat.div_one, hsk, hpre]
      exact bytesN_node T P sk pre q 0 st.current_node
    · refine ⟨hsk, hpre, hn, hh, hw, hth, htn, hap, hrt, ?_, ?_, hsl, haul, hrl, istk, iauth,
        iroot⟩
      · exact (wadr_setters _ _ _ _ 0 hp).2.2.2.1
      · show (wadr _ _ _ _).take 9 = q
        rw [(wadr_setters _ _ _ _ 0 hp).2.2.2.2]
        exact List.take_left' hql
  · have h0 : st.current_node % 2 ^ 0 = 2 ^ 0 - 1 := by rw [pow_zero, Nat.mod_one, Nat.sub_self]
    have := (merkle_up_adr P st.current_node 32 0 st
      (wadr (q ++ [WOTS_KEY_COMPRESSION % 256]) st.current_node 0 0) a r
      (wots_pk T P st.sk_seed st.pk_seed_pre q st.current_node) (by rw [hth]; exact hc) h0
      (by rw [hth]; omega)).2.1
    have := congrArg build_merkle_state.current_node this
    exact this
theorem merkle_leaves_built (T : Tune) (P : Prims) (sk pre q : List Nat) (Th t : Nat)
    (ap rt : Option Nat) (hT : Th ≤ 8) (ht : t < 2 ^ Th) :
    ∀ (m : Nat) (st : build_merkle_state) (a r : List Nat) (flag : Bool),
      st.current_node ≤ 2 ^ Th →
      merkle_mid T P sk pre q Th t ap rt st.current_node 0 st a r →
      merkle_mid T P sk pre q Th t ap rt (min (st.current_node + m) (2 ^ Th)) 0
        (merkle_leaves T P m st a r flag).state (merkle_leaves T P m st a r flag).authMem
        (merkle_leaves T P m st a r flag).rootMem ∧
      (merkle_leaves T P m st a r flag).state.current_node
        = min (st.current_node + m) (2 ^ Th) := by
  intro m
  induction m with
  | zero =>
    intro st a r flag hle hm
    have e : min (st.current_node + 0) (2 ^ Th) = st.current_node := by
      rw [Nat.add_zero]; exact Nat.min_eq_left hle
    rw [e]
    exact ⟨hm, rfl⟩
  | succ m ih =>
    intro st a r flag hle hm
    have hth : st.tree_height = Th := hm.2.2.2.2.2.1
    by_cases hc : st.current_node < 2 ^ Th
    · obtain ⟨b1, b2⟩ := merkle_leaf_built T P sk pre q Th t ap rt hT ht st a r hc hm
      rw [merkle_leaves_succ T P m st a r flag (by rw [hth]; exact hc)]
      generalize merkle_up P st.current_node 32 0 { st with adr := (merkle_leaf T P st).1 } a r
        (merkle_leaf T P st).2 = w at b1 b2
      have hm' : merkle_mid T P sk pre q Th t ap rt
          ({ w.state with current_node := w.state.current_node + 1 }).current_node 0
          { w.state with current_node := w.state.current_node + 1 } w.authMem w.rootMem := by
        show merkle_mid T P sk pre q Th t ap rt (w.state.current_node + 1) 0
          { w.state with current_node := w.state.current_node + 1 } w.authMem w.rootMem
        rw [b2]
        exact b1
      obtain ⟨i1, i2⟩ := ih { w.state with current_node := w.state.current_node + 1 } w.authMem
        w.rootMem (flag || w.all_done_flag)
        (by show w.state.current_node + 1 ≤ 2 ^ Th; rw [b2]; omega) hm'
      have e : ({ w.state with current_node := w.state.current_node + 1 }).current_node + m
          = st.current_node + (m + 1) := by
        show w.state.current_node + 1 + m = _
        rw [b2]; omega
      rw [e] at i1 i2
      exact ⟨i1, i2⟩
    · have hceq : st.current_node = 2 ^ Th := by omega
      rw [merkle_leaves_done T P m st a r flag (by rw [hth]; omega)]
      have e : min (st.current_node + (m + 1)) (2 ^ Th) = st.current_node := by
        rw [hceq]; exact Nat.min_eq_right (by omega)
      rw [e]
      exact ⟨hm, rfl⟩

theorem merkle_run_built (T : Tune) (P : Prims) (sk pre q : List Nat) (Th t : Nat)
    (ap rt : Option Nat) (hT : Th ≤ 8) (ht : t < 2 ^ Th) :
    ∀ (fuel : Nat) (st : build_merkle_state) (a r : List Nat),
      st.current_node < 2 ^ Th → 2 ^ Th - st.current_node ≤ fuel →
      merkle_mid T P sk pre q Th t ap rt st.current_node 0 st a r →
      ∃ w, merkle_run T P fuel st a r = some w ∧ w.all_done_flag = true ∧
        merkle_mid T P sk pre q Th t ap rt (2 ^ Th) 0 w.state w.authMem w.rootMem := by
  have hM := MERKLE_CHAINS_pos T
  intro fuel
  induction fuel with
  | zero => intro st a r hc hf _; omega
  | succ fuel ih =>
    intro st a r hc hf hm
    have hth : st.tree_height = Th := hm.2.2.2.2.2.1
    obtain ⟨u1, u2, _⟩ := merkle_leaves_spec T P (MERKLE_CHAINS_PER_ITER T) st a r false
      (by rw [hth]; omega)
    rw [hth] at u1
    obtain ⟨b1, b2⟩ := merkle_leaves_built T P sk pre q Th t ap rt hT ht
      (MERKLE_CHAINS_PER_ITER T) st a r false (by omega) hm
    simp only [merkle_run, step_build_merkle]
    by_cases hdone : 2 ^ Th ≤ st.current_node + MERKLE_CHAINS_PER_ITER T
    · have hfl : (merkle_leaves T P (MERKLE_CHAINS_PER_ITER T) st a r false).all_done_flag
          = true := by
        rw [u1]; simp [hM, hdone]
      rw [if_pos hfl]
      rw [Nat.min_eq_right hdone] at b1
      exact ⟨_, rfl, hfl, b1⟩
    · have hfl : (merkle_leaves T P (MERKLE_CHAINS_PER_ITER T) st a r false).all_done_flag
          = false := by
        rw [u1]; simp [hM, hdone]
      rw [if_neg (by rw [hfl]; simp)]
      rw [Nat.min_eq_left (by omega)] at b1 b2
      generalize merkle_leaves T P (MERKLE_CHAINS_PER_ITER T) st a r false = w at b1 b2
      rw [← b2] at b1
      exact ih w.state w.authMem w.rootMem (by rw [b2]; omega) (by rw [b2]; omega) b1
theorem merkle_mid_init (T : Tune) (P : Prims) (st0 : build_merkle_state) (sk pk : List Nat)
    (Th layer tree t : Nat) (ap rt : Option Nat) (a r : List Nat)
    (hadr : st0.adr.length = 22) (hstack : 24 * Th ≤ st0.stack.length)
    (hauth : ∀ o, ap = some o → o + 24 * Th ≤ a.length)
    (hroot : rt.isSome → 24 ≤ r.length) :
    merkle_mid T P sk (SHA256_set_first_block pk 24)
      ((layer % 256) :: put_bigendian (tree % 2 ^ 64) 8) Th t ap rt 0 0
      (init_build_merkle st0 sk pk (HASH_TYPE_SHA256 ||| HASH_LEN_192) Th layer tree t ap rt).2
      a r ∧
    (init_build_merkle st0 sk pk (HASH_TYPE_SHA256 ||| HASH_LEN_192) Th layer tree t ap
      rt).2.current_node = 0 := by
  have h24 : hash_len (HASH_TYPE_SHA256 ||| HASH_LEN_192) = 24 := by decide
  obtain ⟨t9, tl⟩ := layer_tree_take9 st0.adr layer tree hadr
  have hpos : 0 < 2 ^ Th := Nat.pow_pos (by norm_num)
  simp only [init_build_merkle, h24]
  simp only [Nat.reduceEqDiff, or_true, true_or, if_true]
  refine ⟨⟨rfl, rfl, rfl, rfl, rfl, rfl, rfl, rfl, rfl, tl, t9, hstack, hauth, hroot, ?_, ?_, ?_⟩,
    trivial⟩
  · intro h _ hodd
    rw [Nat.zero_div] at hodd
    omega
  · intro o h _ _ ho
    rcases ho with ho | ⟨h0, _⟩
    · have : 0 < ((t / 2 ^ h ^^^ 1) + 1) * 2 ^ h :=
        Nat.mul_pos (Nat.succ_pos _) (Nat.pow_pos (by norm_num))
      exact absurd ho (Nat.not_le.mpr this)
    · exact absurd h0 (Nat.not_lt_zero _)
  · intro _ he
    omega

theorem tadr_facts (p : List Nat) (h i h' i' : Nat) (hp : p.length = 10) :
    set_tree_index (set_tree_height (tadr p h i) h') i' = tadr p h' i' := by
  obtain ⟨a0, a1, a2, a3, a4, a5, a6, a7, a8, a9, rfl⟩ := exists_ten p hp
  simp only [tadr, set_tree_index, set_tree_height, setByte, List.cons_append, List.nil_append,
    List.set_cons_succ, List.set_cons_zero]

theorem set_type_tadr (a q : List Nat) (t : Nat) (ha : a.length = 22) (h9 : a.take 9 = q) :
    set_type a t = tadr (q ++ [t % 256]) 0 0 := by
  rw [set_type_canon a t ha, h9]
  simp [tadr]
theorem xor_one_even (x : Nat) (h : x % 2 = 0) : x ^^^ 1 = x + 1 := by
  have d : (x ^^^ 1) / 2 = x / 2 := by rw [Nat.xor_div_two]; simp
  have m : (x ^^^ 1) % 2 = (x + 1) % 2 := Nat.xor_mod_two_eq
  generalize x ^^^ 1 = y at d m
  omega

theorem merkle_node_succ (T : Tune) (P : Prims) (sk pre q : List Nat) (h j : Nat)
    (hq : q.length = 9) :
    merkle_node T P sk pre q (h + 1) j
      = bytesN 24 (SHA256 P (pre ++ bytesN LEN_ADR (tadr (q ++ [HASH_TREE_ADDRESS % 256]) (h + 1) j)
          ++ bytesN 48 (merkle_node T P sk pre q h (2 * j)
            ++ merkle_node T P sk pre q h (2 * j + 1)))) := by
  have hp : (q ++ [HASH_TREE_ADDRESS % 256]).length = 10 := by simp [hq]
  simp only [merkle_node]
  rw [do_H_some, set_type_tadr (q ++ zeros 13) q HASH_TREE_ADDRESS (by simp [hq])
    (List.take_left' hq), tadr_facts _ _ _ _ _ hp]
  simp only [bytesN_node]

theorem verify_walk (T : Tune) (P : Prims) (sk pre q : List Nat) (hq : q.length = 9) :
    ∀ (cnt i idx hx ix : Nat) (sig buf : List Nat),
      bytesN 24 buf = merkle_node T P sk pre q i idx →
      (∀ k, k < cnt → slice sig (24 * k) 24
        = merkle_node T P sk pre q (i + k) (idx / 2 ^ k ^^^ 1)) →
      bytesN 24 (verify_merkle_levels P pre cnt i idx
          (tadr (q ++ [HASH_TREE_ADDRESS % 256]) hx ix) sig buf).2.2.1
        = merkle_node T P sk pre q (i + cnt) (idx / 2 ^ cnt) := by
  have hp : (q ++ [HASH_TREE_ADDRESS % 256]).length = 10 := by simp [hq]
  intro cnt
  induction cnt with
  | zero =>
    intro i idx hx ix sig buf hb _
    simp only [verify_merkle_levels, pow_zero, Nat.div_one, Nat.add_zero]
    exact hb
  | succ cnt ih =>
    intro i idx hx ix sig buf hb hsig
    have hs0 := hsig 0 (by omega)
    rw [Nat.mul_zero, pow_zero, Nat.div_one, Nat.add_zero] at hs0
    have hs0' : bytesN 24 sig = merkle_node T P sk pre q i (idx ^^^ 1) := by
      rw [← hs0]; simp only [slice, List.drop_zero]
    simp only [verify_merkle_levels]
    rw [tadr_facts _ _ _ _ _ hp]
    have hnew : bytesN 24 (if idx % 2 ≠ 0 then
          hashInto (do_H P (HASH_TYPE_SHA256 ||| HASH_LEN_192) pre
            (tadr (q ++ [HASH_TREE_ADDRESS % 256]) (i + 1) (idx / 2)) sig buf) buf 24
        else
          hashInto (do_H P (HASH_TYPE_SHA256 ||| HASH_LEN_192) pre
            (tadr (q ++ [HASH_TREE_ADDRESS % 256]) (i + 1) (idx / 2)) buf sig) buf 24)
        = merkle_node T P sk pre q (i + 1) (idx / 2) := by
      rw [merkle_node_succ T P sk pre q i (idx / 2) hq]
      by_cases hodd : idx % 2 = 1
      · have hne : idx % 2 ≠ 0 := by omega
        rw [if_pos hne, do_H_some, bytesN_bytesN, hs0', hb, xor_one_odd idx hodd]
        have e1 : 2 * (idx / 2) = idx - 1 := by omega
        have e2 : 2 * (idx / 2) + 1 = idx := by omega
        rw [e2, e1]
      · have hev : idx % 2 = 0 := by omega
        have hne : ¬ (idx % 2 ≠ 0) := by omega
        rw [if_neg hne, do_H_some, bytesN_bytesN, hs0', hb, xor_one_even idx hev]
        have e1 : 2 * (idx / 2) = idx := by omega
        rw [e1]
    have := ih (i + 1) (idx / 2) (i + 1) (idx / 2) (sig.drop 24) _ hnew (by
      intro k hk
      have := hsig (k + 1) (by omega)
      have e : slice (sig.drop 24) (24 * k) 24 = slice sig (24 * (k + 1)) 24 := by
        simp only [slice, List.drop_drop]
        congr 2
        omega
      rw [e, this, pow_succ, Nat.mul_comm (2 ^ k) 2, ← Nat.div_div_eq_div_mul]
      congr 1
      omega)
    rw [this, pow_succ, Nat.mul_comm (2 ^ cnt) 2, ← Nat.div_div_eq_div_mul]
    congr 1
    omega

theorem sibling_lt (t h Th : Nat) (ht : t < 2 ^ Th) (hh : h < Th) :
    (t / 2 ^ h ^^^ 1) < 2 ^ (Th - h) := by
  have h1 : t / 2 ^ h < 2 ^ (Th - h) :=
    node_lt _ h t Th (Nat.div_mul_le_self t (2 ^ h)) ht (by omega)
  obtain ⟨d, hd⟩ : ∃ d, Th - h = d + 1 := ⟨Th - h - 1, by omega⟩
  rw [hd, pow_succ] at h1 ⊢
  generalize t / 2 ^ h = n at h1 ⊢
  by_cases hodd : n % 2 = 1
  · rw [xor_one_odd _ hodd]
    omega
  · rw [xor_one_even _ (by omega)]
    omega

/-- C26: the streaming Merkle builder equals the recursive definition.  After
`init_build_merkle` (hash SHA-256/192, height `Th <= 8`, target `t < 2^Th`)
`step_build_merkle`, called until it returns true, does return true within
`2^Th` calls; then the root buffer (if requested) holds `node(Th, 0)` and the
authentication path (if requested) holds `node(h, (t >> h) xor 1)` at
`h*24` for every `h < Th`, where `merkle_node` is the recursive definition
(leaf: T-hash of the 51 WOTS+ chain tops; inner node: `H` of its children
under the `HASH_TREE_ADDRESS` address with their height and index);
consequently the walk of `sh_verify` (`verify_merkle_levels`, which `sh_verify`
runs over `SPH_D = 8` levels) from leaf `t` over that path reaches
`node(Th, 0)`. -/
theorem merkle_builder_spec (T : Tune) (P : Prims) (st0 : build_merkle_state)
    (sk pk : List Nat) (Th layer tree t : Nat) (ap rt : Option Nat) (a r : List Nat)
    (fuel : Nat) (hT : Th ≤ 8) (ht : t < 2 ^ Th)
    (hadr : st0.adr.length = 22) (hstack : 24 * Th ≤ st0.stack.length)
    (hauth : ∀ o, ap = some o → o + 24 * Th ≤ a.length)
    (hroot : rt.isSome → 24 ≤ r.length) (hfuel : 2 ^ Th ≤ fuel) :
    ∃ w,
      merkle_run T P fuel
        (init_build_merkle st0 sk pk (HASH_TYPE_SHA256 ||| HASH_LEN_192) Th layer tree t ap rt).2
        a r = some w ∧
      w.all_done_flag = true ∧
      (rt.isSome → slice w.rootMem 0 24
        = merkle_node T P sk (SHA256_set_first_block pk 24)
            ((layer % 256) :: put_bigendian (tree % 2 ^ 64) 8) Th 0) ∧
      (∀ o h, ap = some o → h < Th →
        slice w.authMem (o + 24 * h) 24
          = merkle_node T P sk (SHA256_set_first_block pk 24)
              ((layer % 256) :: put_bigendian (tree % 2 ^ 64) 8) h (t / 2 ^ h ^^^ 1)) ∧
      (∀ (o : Nat) (adr buf : List Nat), ap = some o → adr.length = 22 →
        adr.take 9 = (layer % 256) :: put_bigendian (tree % 2 ^ 64) 8 →
        bytesN 24 buf = merkle_node T P sk (SHA256_set_first_block pk 24)
          ((layer % 256) :: put_bigendian (tree % 2 ^ 64) 8) 0 t →
        bytesN 24 (verify_merkle_levels P (SHA256_set_first_block pk 24) Th 0 t
            (set_type adr HASH_TREE_ADDRESS) (w.authMem.drop o) buf).2.2.1
          = merkle_node T P sk (SHA256_set_first_block pk 24)
              ((layer % 256) :: put_bigendian (tree % 2 ^ 64) 8) Th 0) := by
  have hql : ((layer % 256) :: put_bigendian (tree % 2 ^ 64) 8).length = 9 := by
    simp [put_bigendian_length]
  generalize hq : (layer % 256) :: put_bigendian (tree % 2 ^ 64) 8 = q at hql
  obtain ⟨hm0, hc0⟩ := merkle_mid_init T P st0 sk pk Th layer tree t ap rt a r hadr hstack
    hauth hroot
  rw [hq] at hm0
  have hpos : 0 < 2 ^ Th := Nat.pow_pos (by norm_num)
  generalize (init_build_merkle st0 sk pk (HASH_TYPE_SHA256 ||| HASH_LEN_192) Th layer tree t
    ap rt).2 = st at hm0 hc0
  have hm0' : merkle_mid T P sk (SHA256_set_first_block pk 24) q Th t ap rt st.current_node 0
      st a r := by
    rw [hc0]; exact hm0
  obtain ⟨w, hw, hfl, hmid⟩ := merkle_run_built T P sk (SHA256_set_first_block pk 24) q Th t
    ap rt hT ht fuel st a r (by rw [hc0]; exact hpos) (by rw [hc0]; omega) hm0'
  obtain ⟨_, _, _, _, _, _, _, _, _, _, _, _, _, _, _, iauth, iroot⟩ := hmid
  have hauthf : ∀ o h, ap = some o → h < Th →
      slice w.authMem (o + 24 * h) 24
        = merkle_node T P sk (SHA256_set_first_block pk 24) q h (t / 2 ^ h ^^^ 1) := by
    intro o h ho hh
    exact iauth o h ho hh (Or.inl (in_sub_bound Th h _ hh (sibling_lt t h Th ht hh)))
  refine ⟨w, hw, hfl, fun hs => iroot hs rfl, hauthf, ?_⟩
  intro o adr buf ho hal h9 hb
  rw [set_type_tadr adr q HASH_TREE_ADDRESS hal h9]
  have := verify_walk T P sk (SHA256_set_first_block pk 24) q hql Th 0 t 0 0
    (w.authMem.drop o) buf hb (by
      intro k hk
      have e : slice (w.authMem.drop o) (24 * k) 24 = slice w.authMem (o + 24 * k) 24 := by
        simp only [slice, List.drop_drop]
      rw [e, Nat.zero_add]
      exact hauthf o k ho hk)
  rw [Nat.zero_add, Nat.div_eq_of_lt ht] at this
  exact this

/-- Witness for `merkle_builder_spec`: the tree of `sh_keygen` (layer 7, tree
0, no authentication path) built from a zero-filled builder. -/
theorem merkle_builder_spec_witness :
    ∃ w, merkle_run tune zero_prims 256
        (init_build_merkle blank_merkle [] [] (HASH_TYPE_SHA256 ||| HASH_LEN_192) 8 7 0 0 none
          (some 0)).2 [] (zeros 24) = some w ∧ w.all_done_flag = true := by
  obtain ⟨w, h1, h2, _⟩ := merkle_builder_spec tune zero_prims blank_merkle [] [] 8 7 0 0 none
    (some 0) [] (zeros 24) 256 (by decide) (by decide) (by decide)
    (by simp [blank_merkle]) (by simp) (by simp) (by decide)
  exact ⟨w, h1, h2⟩


/-! ## The keys of `sh_keygen`: the root -/

theorem merkle_mid_no_auth (T : Tune) (P : Prims) (sk pre q : List Nat) (Th t : Nat)
    (rt : Option Nat) (c l : Nat) (st : build_merkle_state) (a a' r : List Nat)
    (hm : merkle_mid T P sk pre q Th t none rt c l st a r) :
    merkle_mid T P sk pre q Th t none rt c l st a' r := by
  obtain ⟨h1, h2, h3, h4, h5, h6, h7, h8, h9, h10, h11, h12, _, h14, h15, _, h17⟩ := hm
  exact ⟨h1, h2, h3, h4, h5, h6, h7, h8, h9, h10, h11, h12,
    fun o ho => absurd ho (by simp), h14, h15, fun o h ho => absurd ho (by simp), h17⟩

theorem keygen_loop_built (T : Tune) (P : Prims) (sk pre q : List Nat) (Th t : Nat)
    (rt : Option Nat) (hrt : rt.isSome = true) (hT : Th ≤ 8) (ht : t < 2 ^ Th) :
    ∀ (fuel : Nat) (st : build_merkle_state) (r : List Nat),
      st.current_node < 2 ^ Th → 2 ^ Th - st.current_node ≤ fuel →
      merkle_mid T P sk pre q Th t none rt st.current_node 0 st [] r →
      ∃ root, keygen_loop T P fuel st r = some root ∧
        slice root 0 24 = merkle_node T P sk pre q Th 0 := by
  have hM := MERKLE_CHAINS_pos T
  intro fuel
  induction fuel with
  | zero => intro st r hc hf _; omega
  | succ fuel ih =>
    intro st r hc hf hm
    have hth : st.tree_height = Th := hm.2.2.2.2.2.1
    obtain ⟨u1, u2, _⟩ := merkle_leaves_spec T P (MERKLE_CHAINS_PER_ITER T) st [] r false
      (by rw [hth]; omega)
    rw [hth] at u1
    obtain ⟨b1, b2⟩ := merkle_leaves_built T P sk pre q Th t none rt hT ht
      (MERKLE_CHAINS_PER_ITER T) st [] r false (by omega) hm
    simp only [keygen_loop, step_build_merkle]
    by_cases hdone : 2 ^ Th ≤ st.current_node + MERKLE_CHAINS_PER_ITER T
    · have hfl : (merkle_leaves T P (MERKLE_CHAINS_PER_ITER T) st [] r false).all_done_flag
          = true := by
        rw [u1]; simp [hM, hdone]
      rw [if_pos hfl]
      rw [Nat.min_eq_right hdone] at b1
      exact ⟨_, rfl, b1.2.2.2.2.2.2.2.2.2.2.2.2.2.2.2.2 hrt rfl⟩
    · have hfl : (merkle_leaves T P (MERKLE_CHAINS_PER_ITER T) st [] r false).all_done_flag
          = false := by
        rw [u1]; simp [hM, hdone]
      rw [if_neg (by rw [hfl]; simp)]
      rw [Nat.min_eq_left (by omega)] at b1 b2
      generalize merkle_leaves T P (MERKLE_CHAINS_PER_ITER T) st [] r false = w at b1 b2
      rw [← b2] at b1
      exact ih w.state w.rootMem (by rw [b2]; omega) (by rw [b2]; omega)
        (merkle_mid_no_auth T P sk pre q Th t rt _ _ _ _ [] _ b1)

theorem keygen_root_built (T : Tune) (P : Prims) (fuel : Nat) (state0 : build_merkle_state)
    (sk pk r rootMem : List Nat) (st : build_merkle_state)
    (hadr : state0.adr.length = 22) (hstack : 24 * 8 ≤ state0.stack.length)
    (hr : 24 ≤ r.length) (hfuel : 256 ≤ fuel)
    (hi : init_build_merkle state0 sk pk 5 8 7 0 0 none (some 0) = (true, st))
    (hl : keygen_loop T P fuel st r = some rootMem) :
    bytesN 24 rootMem
      = merkle_node T P sk (SHA256_set_first_block pk 24)
          ((7 % 256) :: put_bigendian (0 % 2 ^ 64) 8) 8 0 := by
  have h5 : HASH_TYPE_SHA256 ||| HASH_LEN_192 = 5 := by decide
  obtain ⟨hm0, hc0⟩ := merkle_mid_init T P state0 sk pk 8 7 0 0 none (some 0) [] r hadr hstack
    (fun o ho => absurd ho (by simp)) (fun _ => hr)
  rw [h5, hi] at hm0 hc0
  have hc0' : st.current_node = 0 := hc0
  have hm0' : merkle_mid T P sk (SHA256_set_first_block pk 24)
      ((7 % 256) :: put_bigendian (0 % 2 ^ 64) 8) 8 0 none (some 0) st.current_node 0 st [] r := by
    rw [hc0']; exact hm0
  obtain ⟨root, e, hroot⟩ := keygen_loop_built T P sk (SHA256_set_first_block pk 24)
    ((7 % 256) :: put_bigendian (0 % 2 ^ 64) 8) 8 0 (some 0) rfl (by norm_num) (by norm_num)
    fuel st r (by rw [hc0']; norm_num) (by rw [hc0']; norm_num; omega) hm0'
  rw [hl] at e
  have : rootMem = root := Option.some.inj e
  rw [this, ← hroot]
  simp only [slice, List.drop_zero]

/-- C11: with a random callback that succeeds, buffers of at least 100 and 52
bytes, the builder memory of `sh_keygen` (a 22-byte address, a stack of at
least 192 bytes) and at least 256 iterations allowed to the Merkle loop,
`sh_keygen(1, 192, 1, ...)` returns true with `size_sk = 100`, `size_pk = 52`,
both keys starting with 01 18 00 05, `sk[4..76]` the 72 bytes of the single
`do_rand` call, `pk[4..28] = sk[52..76]`, and `pk[28..52] = sk[76..100]` equal
to the root `merkle_node(8, 0)` of the Merkle tree of layer 7, tree 0, height
8 over `sk_seed = sk[4..28]` and `pk_seed = sk[52..76]` (the recursive
definition: leaves are the compressed WOTS+ public keys, inner nodes `H` of
their children); bytes behind the keys are left alone. -/
theorem sh_keygen_format (T : Tune) (P : Prims) (fuel : Nat) (state0 : build_merkle_state)
    (rand : Nat → Option (List Nat)) (sk_buffer : List Nat) (size_sk : Option Nat)
    (pk_buffer : List Nat) (size_pk : Option Nat) (bytes : List Nat)
    (hsk : 100 ≤ sk_buffer.length) (hpk : 52 ≤ pk_buffer.length)
    (hadr : state0.adr.length = 22) (hstack : 24 * 8 ≤ state0.stack.length)
    (hr : rand 72 = some bytes) (hfuel : 256 ≤ fuel) :
    ∃ r,
      sh_keygen T P fuel state0 1 192 1 (some rand) sk_buffer size_sk pk_buffer size_pk
        = some r ∧
      r.ok = true ∧
      r.size_sk = size_sk.map (fun _ => 100) ∧ r.size_pk = size_pk.map (fun _ => 52) ∧
      r.sk_buffer.take 4 = [0x01, 0x18, 0x00, 0x05] ∧
      r.pk_buffer.take 4 = [0x01, 0x18, 0x00, 0x05] ∧
      slice r.sk_buffer 4 72 = bytesN 72 bytes ∧
      slice r.pk_buffer 4 24 = slice r.sk_buffer 52 24 ∧
      slice r.pk_buffer 28 24 = slice r.sk_buffer 76 24 ∧
      slice r.pk_buffer 28 24
        = merkle_node T P (slice r.sk_buffer 4 24)
            (SHA256_set_first_block (slice r.sk_buffer 52 24) 24)
            ((7 % 256) :: put_bigendian (0 % 2 ^ 64) 8) 8 0 ∧
      r.sk_buffer.drop 100 = sk_buffer.drop 100 ∧ r.pk_buffer.drop 52 = pk_buffer.drop 52 ∧
      r.sk_buffer.length = sk_buffer.length ∧ r.pk_buffer.length = pk_buffer.length := by
  obtain ⟨r, st, rootMem, e, c1, c2, c3, c4, c5, c6, c7, c8, c9, c10, c11, c12, c13, c14, c15⟩ :=
    sh_keygen_layout T P fuel state0 rand sk_buffer size_sk pk_buffer size_pk bytes hsk hpk hr
      hfuel
  refine ⟨r, e, c1, c2, c3, c4, c5, c6, c7, c8, ?_, c12, c13, c14, c15⟩
  rw [c11]
  exact keygen_root_built T P fuel state0 _ _ (slice pk_buffer 28 24) rootMem st hadr hstack
    (by simp [slice, bytesN_length]) hfuel c9 c10

/-- Witness for `sh_keygen_format`: the call of `test.c` with zero-filled
buffers of 100 and 52 bytes and a zero-filled builder. -/
theorem sh_keygen_format_witness :
    ∃ r, sh_keygen tune zero_prims 256 blank_merkle 1 192 1 (some test_rand)
        (zeros 100) (some 0) (zeros 52) (some 0) = some r ∧
      r.ok = true ∧ r.size_sk = some 100 ∧ r.size_pk = some 52 ∧
      r.sk_buffer.take 4 = [1, 24, 0, 5] ∧
      slice r.pk_buffer 28 24
        = merkle_node tune zero_prims (slice r.sk_buffer 4 24)
            (SHA256_set_first_block (slice r.sk_buffer 52 24) 24)
            ((7 % 256) :: put_bigendian (0 % 2 ^ 64) 8) 8 0 := by
  obtain ⟨r, e, h1, h2, h3, h4, _, _, _, _, h9, _⟩ := sh_keygen_format tune zero_prims 256
    blank_merkle test_rand (zeros 100) (some 0) (zeros 52) (some 0) _ (by rw [zeros_length])
    (by rw [zeros_length]) (zeros_length 22)
    (by show 24 * 8 ≤ (zeros 256).length; rw [zeros_length]; norm_num)
    rfl (by decide)
  exact ⟨r, e, h1, h2, h3, h4, h9⟩

/-! ## The signer `sh_load_signer` returns -/

theorem sh_verify_parts (P : Prims) (message sig pk : List Nat) :
    sh_verify P message sig pk = true ↔
      (well_framed sig ∧
        bytesN 24 (verify_lms_buffer P message sig) = bytesN 24 (sig.drop (17064 + 28)) ∧
        verify_sphincs P (verify_lms_buffer P message sig) sig (sig.drop 17064) pk = true) := by
  by_cases hw : well_framed sig
  · have hwf := hw
    obtain ⟨w1, w2, w3, w4, w5, w6, w7, w8, w9⟩ := hw
    have hm : get_bigendian (sig.drop (17064 + 52 + 4)) 4 % 2 ^ 32
        = get_bigendian (sig.drop (17064 + 52 + 4)) 4 :=
      Nat.mod_eq_of_lt (get_bigendian_lt4 _)
    have l1 : ¬ sig.length < 17064 + 12 := by omega
    have l5 : ¬ (get_bigendian (sig.drop (17064 + 52 + 4)) 4 % 2 ^ 32 ≥ 2 ^ 20) := by
      rw [hm]; omega
    simp only [hwf, true_and, verify_lms_buffer]
    rcases w2 with c | c
    · have hoff : verify_off_end sig = 18860 := by
        simp only [verify_off_end, c, if_true, LM_OTS_W4_P, LMS_H]
      rw [hoff] at w3 w6
      have e : 18860 - 4 - 480 = 17064 + 1312 := by norm_num
      rw [e] at w6
      rw [c] at w5
      have l3 : ¬ sig.length < 17064 + 52 + 12 + 24 * (1 + 51) + 4 + 24 * 20 := by omega
      simp only [sh_verify, c, List.drop_drop, List.drop_zero, Nat.zero_add, Nat.add_zero,
        if_true, LM_OTS_W4_P, LMS_H, memeq]
      rw [if_neg l1, if_neg (by simp), if_neg l3, if_neg (by rw [w4, w5, w6, w7, w8]; simp),
        if_neg l5]
      split <;> simp_all
    · have hne : ¬ (LM_OTS_W2_PARAM_ID = LM_OTS_W4_PARAM_ID) := by decide
      have hoff : verify_off_end sig = 20060 := by
        simp only [verify_off_end, c, hne, if_false, LM_OTS_W2_P, LMS_H]
      rw [hoff] at w3 w6
      have e : 20060 - 4 - 480 = 17064 + 2512 := by norm_num
      rw [e] at w6
      rw [c] at w5
      have l3 : ¬ sig.length < 17064 + 52 + 12 + 24 * (1 + 101) + 4 + 24 * 20 := by omega
      simp only [sh_verify, c, hne, List.drop_drop, List.drop_zero, Nat.zero_add, Nat.add_zero,
        if_false, LM_OTS_W2_P, LMS_H, memeq]
      rw [if_neg l1, if_neg (by simp), if_neg l3, if_neg (by rw [w4, w5, w6, w7, w8]; simp),
        if_neg l5]
      split <;> simp_all
  · rw [not_framed_false P message sig pk hw]
    simp [hw]

theorem verify_hypertree_buf (P : Prims) (pre : List Nat) (cnt level it il : Nat)
    (adr sig b b' : List Nat) (h : bytesN 24 b = bytesN 24 b') :
    verify_hypertree P pre (cnt + 1) level it il adr sig b
      = verify_hypertree P pre (cnt + 1) level it il adr sig b' := by
  simp only [verify_hypertree, expand_congr b b' h,
    hashInto_thash P pre _ _ b b' (24 * 51)]

theorem verify_sphincs_buf (P : Prims) (b b' s c pk : List Nat) :
    verify_sphincs P b s c pk = verify_sphincs P b' s c pk := by
  have hD : SPH_D = 7 + 1 := rfl
  simp only [verify_sphincs, hD, hashInto_thash P _ _ _ b (zeros 24),
    hashInto_thash P _ _ _ b' (zeros 24)]
  apply congrArg (fun v => memeq v _ 24)
  exact verify_hypertree_buf P _ 7 0 _ _ _ _ (memcpy b 0 _ 24) (memcpy b' 0 _ 24)
    (by rw [bytesN_memcpy_zero, bytesN_memcpy_zero])

theorem verify_sphincs_cut (P : Prims) (buffer s c t t' pk : List Nat)
    (hs : 17064 ≤ s.length) (hc : 52 ≤ c.length) :
    verify_sphincs P buffer (s ++ t) (c ++ t') pk = verify_sphincs P buffer s c pk := by
  have e1 := fun seed root msg k a h d =>
    digest_index_pfx P s t seed root msg k a h d (by omega)
  have e2 : bytesN LEN_LMS_PUBLIC_KEY (c ++ t') = bytesN LEN_LMS_PUBLIC_KEY c :=
    bytesN_append_ge c t' _ (by simp only [LEN_LMS_PUBLIC_KEY]; omega)
  have e3 : (s ++ t).drop 24 = s.drop 24 ++ t := drop_append_ge s t _ (by omega)
  simp only [verify_sphincs, e1, e2, e3]
  generalize SHA256_set_first_block (pk.drop 4) 24 = pre
  generalize do_compute_digest_index P 24 s (pk.drop 4) (pk.drop (4 + 24))
    (bytesN LEN_LMS_PUBLIC_KEY c) SPH_K SPH_A SPH_H SPH_D = dg
  generalize set_key_pair_address (set_type (set_tree_address (set_layer_address
    (zeros LEN_ADR) 0) dg.2.1) FORS_TREE_ADDRESS) dg.2.2 = adr1
  obtain ⟨f1, f2⟩ := verify_fors_trees_pfx P pre dg.1 t SPH_K 0 adr1 (s.drop 24)
    (zeros (SPH_K * 24)) (by rw [List.length_drop]; simp only [SPH_K]; omega)
  rw [f1]
  generalize verify_fors_trees P pre dg.1 SPH_K 0 adr1 (s.drop 24) (zeros (SPH_K * 24)) = wf
    at f2 ⊢
  simp only
  rw [verify_hypertree_pfx P pre t SPH_D 0 dg.2.1 dg.2.2 (zeros LEN_ADR) wf.2.1 _
    (by rw [f2, List.length_drop, List.length_drop]; simp only [SPH_K, SPH_D]; omega)]

/-- The SPHINCS+ part of `sh_verify` reads the first 17064 bytes of the
signature and the 52 bytes of the LMS public key behind them, nothing else of
the signature and nothing of the LMS buffer. -/
theorem verify_sphincs_reads (P : Prims) (b b' sig sig' pk : List Nat)
    (hl : 17064 + 52 ≤ sig.length) (hl' : 17064 + 52 ≤ sig'.length)
    (h : sig.take (17064 + 52) = sig'.take (17064 + 52)) :
    verify_sphincs P b sig (sig.drop 17064) pk = verify_sphincs P b' sig' (sig'.drop 17064) pk := by
  have key : ∀ x : List Nat, 17064 + 52 ≤ x.length →
      verify_sphincs P b x (x.drop 17064) pk
        = verify_sphincs P b ((x.take (17064 + 52)).take 17064)
            ((x.take (17064 + 52)).drop 17064) pk := by
    intro x hx
    have e1 : x = (x.take (17064 + 52)).take 17064 ++ x.drop 17064 := by
      rw [List.take_take, Nat.min_eq_left (by omega), List.take_append_drop]
    have e2 : x.drop 17064 = (x.take (17064 + 52)).drop 17064 ++ x.drop (17064 + 52) := by
      rw [← List.drop_append_of_le_length (by rw [List.length_take]; omega),
        List.take_append_drop]
    have := verify_sphincs_cut P b ((x.take (17064 + 52)).take 17064)
      ((x.take (17064 + 52)).drop 17064) (x.drop 17064) (x.drop (17064 + 52)) pk
      (by rw [List.length_take, List.length_take]; omega)
      (by rw [List.length_drop, List.length_take]; omega)
    rw [← e1, ← e2] at this
    exact this
  calc verify_sphincs P b sig (sig.drop 17064) pk
      = verify_sphincs P b ((sig.take (17064 + 52)).take 17064)
          ((sig.take (17064 + 52)).drop 17064) pk := key sig hl
    _ = verify_sphincs P b ((sig'.take (17064 + 52)).take 17064)
          ((sig'.take (17064 + 52)).drop 17064) pk := by rw [h]
    _ = verify_sphincs P b sig' (sig'.drop 17064) pk := (key sig' hl').symm
    _ = verify_sphincs P b' sig' (sig'.drop 17064) pk := verify_sphincs_buf P b b' _ _ _
theorem take_root_eq (a b : List Nat) (h : a.take 17116 = b.take 17116)
    (ha : 17116 ≤ a.length) (hb : 17116 ≤ b.length) :
    bytesN 24 (a.drop (17064 + 28)) = bytesN 24 (b.drop (17064 + 28)) := by
  have e : ∀ l : List Nat, 17116 ≤ l.length →
      bytesN 24 (l.drop (17064 + 28)) = (l.take 17116).drop 17092 := by
    intro l hl
    have := slice_eq_take l 17092 24 (by omega)
    simp only [slice] at this
    exact this
  rw [e a ha, e b hb, h]

/-- A change confined to the message and to the signature from byte 17116 on
(LM-OTS signature and LMS path), with the framing intact, is accepted exactly
when the recomputed LMS root is the same 24 bytes as before. -/
theorem lms_side_iff (P : Prims) (message message' sig sig' pk : List Nat)
    (hacc : sh_verify P message sig pk = true)
    (ht : sig'.take 17116 = sig.take 17116) (hw : well_framed sig') :
    sh_verify P message' sig' pk = true ↔
      bytesN 24 (verify_lms_buffer P message' sig') = bytesN 24 (verify_lms_buffer P message sig)
    := by
  obtain ⟨a1, a2, a3⟩ := (sh_verify_parts P message sig pk).mp hacc
  obtain ⟨v1, _, _⟩ := verify_off_end_ge sig
  obtain ⟨v1', _, _⟩ := verify_off_end_ge sig'
  have hl : 17116 ≤ sig.length := by have := a1.2.2.1; omega
  have hl' : 17116 ≤ sig'.length := by have := hw.2.2.1; omega
  have hr := take_root_eq sig' sig ht hl' hl
  have hs := verify_sphincs_reads P (verify_lms_buffer P message' sig')
    (verify_lms_buffer P message sig) sig' sig pk (by omega) (by omega) ht
  rw [sh_verify_parts]
  constructor
  · rintro ⟨_, b2, _⟩
    rw [b2, hr, a2]
  · intro h
    exact ⟨hw, by rw [h, a2, hr], by rw [hs]; exact a3⟩

/-- With primitives whose digests do not depend on their input a flipped
message bit goes unnoticed: the all-zero signature is accepted for the
one-byte message 00 and for the message 01.  Rejection of a flip in a hashed
field is a property of the hash function, not of the code of `sh_verify`. -/
theorem message_flip_needs_hash :
    sh_verify zero_prims [0] zero_signature (zeros 52) = true ∧
    sh_verify zero_prims (flip_bit [0] 0 0) zero_signature (zeros 52) = true := by
  have hw : well_framed zero_signature := sh_verify_accept _ _ _ _ zero_signature_accepted
  have hz : ∀ m : List Nat,
      bytesN 24 (verify_lms_buffer zero_prims m zero_signature) = zeros 24 := by
    intro m
    simp only [verify_lms_buffer]
    apply lms_root_zero
    exact Nat.lt_of_le_of_lt (Nat.mod_le _ _) hw.2.2.2.2.2.2.2.2
  exact ⟨(lms_side_iff zero_prims [] [0] zero_signature zero_signature (zeros 52)
      zero_signature_accepted rfl hw).mpr (by rw [hz, hz]),
    (lms_side_iff zero_prims [] (flip_bit [0] 0 0) zero_signature zero_signature (zeros 52)
      zero_signature_accepted rfl hw).mpr (by rw [hz, hz])⟩

theorem fadr_setters (p : List Nat) (k h i v : Nat) (hp : p.length = 10) :
    set_key_pair_address (fadr p k h i) v = fadr p v h i ∧
    set_tree_height (fadr p k h i) v = fadr p k v i ∧
    set_tree_index (fadr p k h i) v = fadr p k h v ∧
    (fadr p k h i).length = 22 := by
  obtain ⟨a0, a1, a2, a3, a4, a5, a6, a7, a8, a9, rfl⟩ := exists_ten p hp
  refine ⟨rfl, rfl, ?_, rfl⟩
  simp only [fadr, set_tree_index, setByte, List.cons_append, List.nil_append,
    List.set_cons_succ, List.set_cons_zero]

theorem set_type_fadr (a : List Nat) (t : Nat) (ha : a.length = 22) :
    set_type a t = fadr (a.take 9 ++ [t % 256]) 0 0 0 := by
  rw [set_type_canon a t ha]
  simp [fadr]

theorem fors_adr_fadr (it : Nat) :
    ∃ p : List Nat, p.length = 10 ∧
      (∀ (a : List Nat) (il : Nat), a.length = 22 →
        a.take 9 = (0 :: put_bigendian (it % 2 ^ 64) 8) →
        set_key_pair_address (set_type a FORS_TREE_ADDRESS) il = fadr p il 0 0) ∧
      (∀ il h i, fors_adr it il h i = fadr p il h i) := by
  have hql : (0 :: put_bigendian (it % 2 ^ 64) 8).length = 9 := by
    simp [put_bigendian_length]
  have hp : ((0 :: put_bigendian (it % 2 ^ 64) 8) ++ [FORS_TREE_ADDRESS % 256]).length = 10 := by
    simp [put_bigendian_length]
  refine ⟨(0 :: put_bigendian (it % 2 ^ 64) 8) ++ [FORS_TREE_ADDRESS % 256], hp, ?_, ?_⟩
  · intro a il ha h9
    rw [set_type_fadr a _ ha, h9, (fadr_setters _ 0 0 0 il hp).1]
  · intro il h i
    obtain ⟨t9, tl⟩ := layer_tree_take9 (zeros LEN_ADR) 0 it (by simp [zeros, LEN_ADR])
    simp only [fors_adr]
    rw [set_type_fadr _ _ tl, t9, (fadr_setters _ 0 0 0 il hp).1,
      (fadr_setters _ il 0 0 i hp).2.2.1, (fadr_setters _ il 0 i h hp).2.1]

theorem do_F_some (P : Prims) (pre adr m old : List Nat) :
    hashInto (do_F P (HASH_TYPE_SHA256 ||| HASH_LEN_192) pre adr m) old 24
      = bytesN 24 (SHA256 P (pre ++ bytesN LEN_ADR adr ++ bytesN 24 m)) := by
  have h24 : hash_len (HASH_TYPE_SHA256 ||| HASH_LEN_192) = 24 := by decide
  simp only [do_F, h24]
  split_ifs <;> first | rfl | contradiction

theorem fors_node_length (T : Tune) (P : Prims) (sk pre : List Nat) (it il tr h j : Nat) :
    (fors_node T P sk pre it il tr h j).length = 24 := by
  cases h with
  | zero => simp only [fors_node, do_F_some, bytesN_length]
  | succ h => simp only [fors_node, do_H_some, bytesN_length]

theorem bytesN_fors (T : Tune) (P : Prims) (sk pre : List Nat) (it il tr h j : Nat) :
    bytesN 24 (fors_node T P sk pre it il tr h j) = fors_node T P sk pre it il tr h j :=
  bytesN_of_length (fors_node_length T P sk pre it il tr h j)

theorem fors_name_half (c tr l : Nat) (hl : l < 16) :
    (c / 2 ^ l + tr * 2 ^ (16 - l)) / 2 = c / 2 ^ (l + 1) + tr * 2 ^ (16 - (l + 1)) := by
  obtain ⟨d, hd⟩ : ∃ d, 16 - l = d + 1 := ⟨16 - l - 1, by omega⟩
  have hd' : 16 - (l + 1) = d := by omega
  rw [hd, hd', pow_succ, pow_succ, ← Nat.div_div_eq_div_mul]
  generalize c / 2 ^ l = n
  generalize 2 ^ d = m
  have : tr * (m * 2) = 2 * (tr * m) := by ring
  rw [this]
  omega

theorem fors_cond (c tg l : Nat) :
    (c / 2 ^ l ^^^ 1 = tg / 2 ^ l) ↔ (tg ^^^ c) / 2 ^ l = 1 := by
  rw [auth_cond]
  constructor
  · intro h
    rw [← h, Nat.xor_assoc, Nat.xor_self, Nat.xor_zero]
  · intro h
    rw [h, Nat.xor_assoc, Nat.xor_self, Nat.xor_zero]

theorem fors_node_succ (T : Tune) (P : Prims) (sk pre : List Nat) (it il tr h j : Nat)
    (p : List Nat) (hadr : ∀ il h i, fors_adr it il h i = fadr p il h i) :
    fors_node T P sk pre it il tr (h + 1) j
      = bytesN 24 (SHA256 P (pre ++ bytesN LEN_ADR (fadr p il (h + 1) (j + tr * 2 ^ (16 - (h + 1))))
          ++ bytesN 48 (fors_node T P sk pre it il tr h (2 * j)
            ++ fors_node T P sk pre it il tr h (2 * j + 1)))) := by
  have hA : SPH_A = 16 := rfl
  simp only [fors_node]
  rw [do_H_some, hadr, hA]
  simp only [bytesN_fors]

theorem fors_walk_built (T : Tune) (P : Prims) (sk pre : List Nat) (it il tr tg base : Nat)
    (R : List Nat) (p : List Nat) (hp : p.length = 10)
    (hadr : ∀ il h i, fors_adr it il h i = fadr p il h i)
    (c : Nat) (hc : c < 2 ^ 16) :
    ∀ (cnt l : Nat) (s : sh_signer) (hx ix : Nat) (buf : List Nat),
      l + cnt = 16 → c % 2 ^ l = 2 ^ l - 1 →
      bytesN 24 buf = fors_node T P sk pre it il tr l (c / 2 ^ l) →
      fors_mid T P sk pre it il tr tg base R c l s →
      (tg ≤ c → slice s.next_sphincs_sig base 24 = fors_sk T P sk it il tr tg) →
      fors_mid T P sk pre it il tr tg base R (c + 1) 0
        (fors_walk P tg cnt l (c / 2 ^ l) (c / 2 ^ l + tr * 2 ^ (16 - l)) s
          (fadr p il hx ix) buf).1 ∧
      (c + 1 = 2 ^ 16 →
        bytesN 24 (fors_walk P tg cnt l (c / 2 ^ l) (c / 2 ^ l + tr * 2 ^ (16 - l)) s
          (fadr p il hx ix) buf).2.2 = fors_node T P sk pre it il tr 16 0) ∧
      ∃ hx' ix', (fors_walk P tg cnt l (c / 2 ^ l) (c / 2 ^ l + tr * 2 ^ (16 - l)) s
          (fadr p il hx ix) buf).2.1 = fadr p il hx' ix' := by
  have hA : SPH_A = 16 := rfl
  intro cnt
  induction cnt with
  | zero =>
    intro l s hx ix buf hl h1 hb hm hrev
    have hl16 : l = 16 := by omega
    subst hl16
    obtain ⟨hpre, hbase, htr, hR, hsl, hstl, istk, iauth, irev⟩ := hm
    have hdiv : c / 2 ^ 16 = 0 := Nat.div_eq_of_lt hc
    simp only [fors_walk]
    refine ⟨⟨hpre, hbase, htr, hR, hsl, hstl, ?_, ?_, ?_⟩, ?_, ⟨hx, ix, rfl⟩⟩
    · intro h hh hodd
      rw [hA] at hh
      have := div_succ_below c 16 h h1 hh
      omega
    · intro h hh hok
      rw [hA] at hh
      rcases lms_ok_end_step c 16 h _ h1 (by rw [hdiv]) hok with h2 | ⟨h2, _⟩
      · exact iauth h (by rw [hA]; exact hh) h2
      · omega
    · intro hlt
      exact hrev (by omega)
    · intro _
      rw [hb, hdiv]
  | succ cnt ih =>
    intro l s hx ix buf hl h1 hb hm hrev
    have hl16 : l < 16 := by omega
    obtain ⟨hpre, hbase, htr, hR, hsl, hstl, istk, iauth, irev⟩ := hm
    rw [hA] at hsl hstl
    have hs' : (if c / 2 ^ l ^^^ 1 = tg / 2 ^ l then
          { s with next_sphincs_sig :=
              memcpy s.next_sphincs_sig (s.sphincs_sig_index + 24 * (1 + l)) buf 24 }
        else s)
        = { s with next_sphincs_sig :=
              (if (tg ^^^ c) / 2 ^ l = 1 then
                memcpy s.next_sphincs_sig (base + 24 + l * 24) buf 24
               else s.next_sphincs_sig) } := by
      have e : s.sphincs_sig_index + 24 * (1 + l) = base + 24 + l * 24 := by rw [hbase]; ring
      by_cases hcond : c / 2 ^ l ^^^ 1 = tg / 2 ^ l
      · rw [if_pos hcond, if_pos ((fors_cond c tg l).mp hcond), e]
      · rw [if_neg hcond, if_neg (fun h => hcond ((fors_cond c tg l).mpr h))]
    simp only [fors_walk, hs']
    generalize ha' : (if (tg ^^^ c) / 2 ^ l = 1 then
        memcpy s.next_sphincs_sig (base + 24 + l * 24) buf 24 else s.next_sphincs_sig) = a'
    have hnot : 16 ≤ l → ¬ (tg ^^^ c) / 2 ^ l = 1 := fun hge => by omega
    have inv0 : ∀ h, h < 16 → lms_ok c l h (tg / 2 ^ h ^^^ 1) →
        slice s.next_sphincs_sig (base + 24 + 24 * h) 24
          = fors_node T P sk pre it il tr h (tg / 2 ^ h ^^^ 1) :=
      fun h hh ho => iauth h (by rw [hA]; exact hh) ho
    have hlen0 : base + 24 + 24 * 16 ≤ s.next_sphincs_sig.length := by omega
    have hA1 : base + 24 + 24 * 16 ≤ a'.length := by
      rw [← ha']
      exact (auth_step (fors_node T P sk pre it il tr) tg c l (base + 24) 16 s.next_sphincs_sig buf
        (lms_ok c l) (lms_ok c l) hlen0 hb hnot inv0 (fun h j ho => Or.inl ho)).1
    have hA2 : ∀ ok' : Nat → Nat → Prop,
        (∀ h j, ok' h j → lms_ok c l h j ∨ (h = l ∧ j = c / 2 ^ l)) →
        ∀ h, h < 16 → ok' h (tg / 2 ^ h ^^^ 1) →
          slice a' (base + 24 + 24 * h) 24 = fors_node T P sk pre it il tr h (tg / 2 ^ h ^^^ 1) := by
      intro ok' hok
      rw [← ha']
      exact (auth_step (fors_node T P sk pre it il tr) tg c l (base + 24) 16 s.next_sphincs_sig buf
        (lms_ok c l) ok' hlen0 hb hnot inv0 hok).2
    have hA3 : slice a' base 24 = slice s.next_sphincs_sig base 24 := by
      rw [← ha']
      split
      · exact slice_memcpy_before _ _ _ _ _ _ (by omega) (by omega)
      · rfl
    by_cases hodd : c / 2 ^ l % 2 = 1
    · have hne : c / 2 ^ l % 2 ≠ 0 := by omega
      simp only [hne, not_false_eq_true, if_true, ne_eq]
      rw [fors_name_half c tr l hl16, Nat.div_div_eq_div_mul, ← pow_succ,
        (fadr_setters p il hx ix _ hp).2.2.1, (fadr_setters p il hx _ (l + 1) hp).2.1]
      have hstk := istk l (by rw [hA]; exact hl16) hodd
      have hnew : bytesN 24 (memcpy buf 0
          (hashInto (do_H P (HASH_TYPE_SHA256 ||| HASH_LEN_192) s.pk_seed_pre
            (fadr p il (l + 1) (c / 2 ^ (l + 1) + tr * 2 ^ (16 - (l + 1))))
            (slice s.do_fors_stack (l * 24) 24) buf) buf 24) 24)
          = fors_node T P sk pre it il tr (l + 1) (c / 2 ^ (l + 1)) := by
        have e1 : 2 * (c / 2 ^ (l + 1)) = c / 2 ^ l - 1 := by
          rw [pow_succ, ← Nat.div_div_eq_div_mul]
          generalize c / 2 ^ l = n at hodd
          omega
        have e2 : 2 * (c / 2 ^ (l + 1)) + 1 = c / 2 ^ l := by
          rw [pow_succ, ← Nat.div_div_eq_div_mul]
          generalize c / 2 ^ l = n at hodd
          omega
        rw [bytesN_memcpy_zero, fors_node_succ T P sk pre it il tr l _ p hadr, e2, e1, do_H_some,
          bytesN_bytesN, Nat.mul_comm l 24, hstk, hb, hpre]
        simp only [bytesN_fors]
      exact ih (l + 1) _ (l + 1) _ _ (by omega) (next_ones c l h1 hodd) hnew
        ⟨hpre, hbase, htr, hR, by rw [hA]; exact (by omega : base + 24 * (1 + 16) ≤ a'.length),
          by rw [hA]; exact hstl, istk,
          fun h hh hok => hA2 (lms_ok c (l + 1)) (fun h j ho => lms_ok_mid_step c l h j h1 ho) h
            (by rw [hA] at hh; exact hh) hok,
          fun hlt => by
            show slice a' base 24 = _
            rw [hA3]; exact irev hlt⟩
        (fun hle => by
          show slice a' base 24 = _
          rw [hA3]; exact hrev hle)
    · have hev : c / 2 ^ l % 2 = 0 := by
        generalize c / 2 ^ l = n at hodd
        omega
      have hne : ¬ (c / 2 ^ l % 2 ≠ 0) := by omega
      simp only [hne, if_false]
      refine ⟨⟨hpre, hbase, htr, hR, ?_, ?_, ?_, ?_, ?_⟩, ?_, ⟨hx, ix, rfl⟩⟩
      · rw [hA]
        show base + 24 * (1 + 16) ≤ a'.length
        omega
      · rw [hA]
        show _ ≤ (memcpy s.do_fors_stack (l * 24) buf 24).length
        rw [memcpy_length _ _ _ _ (by omega)]
        exact hstl
      · intro h hh hodd'
        rw [hA] at hh
        show slice (memcpy s.do_fors_stack (l * 24) buf 24) (24 * h) 24 = _
        rcases Nat.lt_trichotomy h l with hlt' | heq | hgt
        · have := div_succ_below c l h h1 hlt'
          omega
        · subst heq
          rw [Nat.mul_comm h 24, slice_memcpy_same _ _ _ _ (by omega), div_succ_at c h h1, hb]
          rfl
        · rw [slice_memcpy_apart _ _ _ _ _ _ (by omega) (by omega),
            div_succ_above c l h h1 hev hgt]
          rw [div_succ_above c l h h1 hev hgt] at hodd'
          exact istk h (by rw [hA]; exact hh) hodd'
      · intro h hh hok
        rw [hA] at hh
        exact hA2 (lms_ok (c + 1) 0) (fun h j ho => lms_ok_end_step c l h j h1 hev ho) h hh hok
      · intro hlt
        show slice a' base 24 = _
        rw [hA3]
        exact hrev (by omega)
      · intro he
        have := complete_level_le c l 16 0 h1 hev (by rw [← he]; ring)
        omega
theorem fors_reveal_step (T : Tune) (P : Prims) (sk pre : List Nat) (it il tr tg base : Nat)
    (R : List Nat) (c : Nat) (s : sh_signer) (buf : List Nat)
    (hm : fors_mid T P sk pre it il tr tg base R c 0 s)
    (hb : bytesN 24 buf = fors_sk T P sk it il tr c) :
    fors_mid T P sk pre it il tr tg base R c 0
      (if c = tg then
        { s with next_sphincs_sig := memcpy s.next_sphincs_sig s.sphincs_sig_index buf 24 }
       else s) ∧
    (tg ≤ c → slice (if c = tg then
        { s with next_sphincs_sig := memcpy s.next_sphincs_sig s.sphincs_sig_index buf 24 }
       else s).next_sphincs_sig base 24 = fors_sk T P sk it il tr tg) ∧
    (if c = tg then
        { s with next_sphincs_sig := memcpy s.next_sphincs_sig s.sphincs_sig_index buf 24 }
       else s).pk_seed_pre = pre ∧
    forsErase (if c = tg then
        { s with next_sphincs_sig := memcpy s.next_sphincs_sig s.sphincs_sig_index buf 24 }
       else s) = forsErase s := by
  have hA : SPH_A = 16 := rfl
  obtain ⟨hpre, hbase, htr, hR, hsl, hstl, istk, iauth, irev⟩ := hm
  rw [hA] at hsl
  by_cases he : c = tg
  · rw [if_pos he]
    subst he
    refine ⟨⟨hpre, hbase, htr, hR, ?_, hstl, istk, ?_, ?_⟩, ?_, hpre, rfl⟩
    · show _ ≤ (memcpy s.next_sphincs_sig s.sphincs_sig_index buf 24).length
      rw [memcpy_length _ _ _ _ (by omega), hA]
      exact hsl
    · intro h hh hok
      rw [hA] at hh
      show slice (memcpy s.next_sphincs_sig s.sphincs_sig_index buf 24) _ 24 = _
      rw [slice_memcpy_after _ _ _ _ _ _ (by omega) (by omega)]
      exact iauth h (by rw [hA]; exact hh) hok
    · intro hlt
      omega
    · intro _
      show slice (memcpy s.next_sphincs_sig s.sphincs_sig_index buf 24) _ 24 = _
      rw [← hbase, slice_memcpy_same _ _ _ _ (by omega), hb]
  · rw [if_neg he]
    refine ⟨⟨hpre, hbase, htr, hR, by rw [hA]; exact hsl, hstl, istk, iauth, irev⟩, ?_, hpre, rfl⟩
    intro hle
    exact irev (by omega)

theorem fors_leaf_node (T : Tune) (P : Prims) (sk pre : List Nat) (it il tr c : Nat)
    (p : List Nat) (hadr : ∀ il h i, fors_adr it il h i = fadr p il h i)
    (buf1 old : List Nat) (hb : bytesN 24 buf1 = fors_sk T P sk it il tr c) :
    bytesN 24 (memcpy buf1 0
      (hashInto (do_F P (HASH_TYPE_SHA256 ||| HASH_LEN_192) pre (fadr p il 0 (c + tr * 2 ^ 16))
        buf1) old 24) 24) = fors_node T P sk pre it il tr 0 c := by
  have hA : SPH_A = 16 := rfl
  simp only [fors_node]
  rw [bytesN_memcpy_zero, do_F_some, do_F_some, bytesN_bytesN, hb, hadr, hA]
  congr 3
  simp only [fors_sk, bytesN_bytesN]

theorem memcpy_congr (d a b : List Nat) (off n : Nat) (h : bytesN n a = bytesN n b) :
    memcpy d off a n = memcpy d off b n := by
  simp only [memcpy, h]
theorem sibling_done (tg h : Nat) (htg : tg < 2 ^ 16) (hh : h < 16) :
    lms_ok (2 ^ 16) 0 h (tg / 2 ^ h ^^^ 1) := by
  left
  have h1 := sibling_lt tg h 16 htg hh
  have h2 : 2 ^ 16 = 2 ^ (16 - h) * 2 ^ h := by
    rw [← pow_add]
    congr 1
    omega
  rw [h2]
  exact Nat.mul_le_mul_right _ h1

theorem fors_walk_leaf (T : Tune) (P : Prims) (sk pre : List Nat) (it il tr tg base : Nat)
    (R : List Nat) (p : List Nat) (hp : p.length = 10)
    (hadr : ∀ il h i, fors_adr it il h i = fadr p il h i)
    (c : Nat) (hc : c < 2 ^ 16) (s : sh_signer) (hx ix : Nat) (buf : List Nat)
    (hb : bytesN 24 buf = fors_node T P sk pre it il tr 0 c)
    (hm : fors_mid T P sk pre it il tr tg base R c 0 s)
    (hrev : tg ≤ c → slice s.next_sphincs_sig base 24 = fors_sk T P sk it il tr tg) :
    fors_mid T P sk pre it il tr tg base R (c + 1) 0
      (fors_walk P tg 16 0 c (c + tr * 2 ^ 16) s (fadr p il hx ix) buf).1 ∧
    (c + 1 = 2 ^ 16 →
      bytesN 24 (fors_walk P tg 16 0 c (c + tr * 2 ^ 16) s (fadr p il hx ix) buf).2.2
        = fors_node T P sk pre it il tr 16 0) ∧
    ∃ hx' ix', (fors_walk P tg 16 0 c (c + tr * 2 ^ 16) s (fadr p il hx ix) buf).2.1
      = fadr p il hx' ix' := by
  have h := fors_walk_built T P sk pre it il tr tg base R p hp hadr c hc 16 0 s hx ix buf
    (Nat.zero_add 16) (by rw [pow_zero, Nat.mod_one, Nat.sub_self])
    (by rw [pow_zero, Nat.div_one]; exact hb) hm hrev
  simp only [pow_zero, Nat.div_one, Nat.sub_zero] at h
  exact h

theorem fors_loop_built (T : Tune) (P : Prims) (sk pre : List Nat) (it il tr tg base : Nat)
    (p : List Nat) (hp : p.length = 10)
    (hadr : ∀ il h i, fors_adr it il h i = fadr p il h i)
    (htr : tr < 2 ^ 16) (htg : tg < 2 ^ 16) (gen : private_key_generator)
    (hgen : ∀ i, bytesN 24 (do_private_key_gen T P 24 gen
      (slice (fadr p il 0 (i + tr * 2 ^ 16)) (LEN_ADR - 16) 16)) = fors_sk T P sk it il tr i) :
    ∀ (cnt : Nat) (s : sh_signer) (hx ix c : Nat) (buffer R : List Nat),
      c < 2 ^ 16 → fors_mid T P sk pre it il tr tg base R c 0 s → 24 * (tr + 1) ≤ R.length →
      (s.do_fors_redundant_pass = true →
        slice R (24 * tr) 24 = fors_node T P sk pre it il tr 16 0) →
      ∀ fl, fl = fors_loop T P gen tg cnt s (fadr p il hx ix) c buffer →
      (c + cnt < 2 ^ 16 →
        fl.2.2 = false ∧ fl.2.1 = c + cnt ∧ forsErase fl.1 = forsErase s ∧
        fors_mid T P sk pre it il tr tg base R (c + cnt) 0 fl.1) ∧
      (2 ^ 16 ≤ c + cnt → T.FAULT_STRATEGY ≠ 0 → s.do_fors_redundant_pass = false →
        fl.2.2 = false ∧ fl.2.1 = 0 ∧
        forsErase fl.1 = forsErase { s with do_fors_redundant_pass := true } ∧
        ∃ R', fors_mid T P sk pre it il tr tg base R' 0 0 fl.1 ∧ 24 * (tr + 1) ≤ R'.length ∧
          slice R' (24 * tr) 24 = fors_node T P sk pre it il tr 16 0) ∧
      (2 ^ 16 ≤ c + cnt → (T.FAULT_STRATEGY = 0 ∨ s.do_fors_redundant_pass = true) →
        fl.2.2 = false ∧ fl.2.1 = 0 ∧
        forsErase fl.1 = forsErase { s with
          do_fors_tree := s.do_fors_tree + 1,
          sphincs_sig_index := (s.sphincs_sig_index + 24 * (1 + SPH_A)) % 2 ^ 32,
          do_fors_redundant_pass := false } ∧
        fors_done T P sk pre it il tr tg base fl.1) := by
  have hA : SPH_A = 16 := rfl
  have h16 : (2 : Nat) ^ 16 = 65536 := by norm_num
  intro cnt
  induction cnt with
  | zero =>
    intro s hx ix c buffer R hc hm hRl hrp fl hfl
    subst hfl
    refine ⟨fun _ => ⟨rfl, rfl, rfl, hm⟩, fun h => ?_, fun h => ?_⟩ <;> omega
  | succ k ih =>
    intro s hx ix c buffer R hc hm hRl hrp fl hfl
    have hpre : s.pk_seed_pre = pre := hm.1
    have hbase : s.sphincs_sig_index = base := hm.2.1
    have htree : s.do_fors_tree = tr := hm.2.2.1
    have hmod1 : (c + s.do_fors_tree * 2 ^ SPH_A) % 2 ^ 32 = c + tr * 2 ^ 16 := by
      rw [htree, hA]
      apply Nat.mod_eq_of_lt
      rw [h16] at hc htr ⊢
      omega
    have hmod2 : (c + 1) % 2 ^ 32 = c + 1 := by
      apply Nat.mod_eq_of_lt
      rw [h16] at hc
      omega
    have hadr1 : set_tree_index (set_tree_index (set_tree_height (fadr p il hx ix) 0) 0)
        (c + tr * 2 ^ 16) = fadr p il 0 (c + tr * 2 ^ 16) := by
      rw [(fadr_setters p il hx ix 0 hp).2.1, (fadr_setters p il 0 ix 0 hp).2.2.1,
        (fadr_setters p il 0 0 _ hp).2.2.1]
    simp only [fors_loop, hmod1, hmod2, hadr1] at hfl
    generalize hb1 : memcpy buffer 0 (do_private_key_gen T P 24 gen
      (slice (fadr p il 0 (c + tr * 2 ^ 16)) (LEN_ADR - 16) 16)) 24 = buf1 at hfl
    have hbuf1 : bytesN 24 buf1 = fors_sk T P sk it il tr c := by
      rw [← hb1, bytesN_memcpy_zero]
      exact hgen c
    obtain ⟨hm1, hrev1, hpre1, her1⟩ := fors_reveal_step T P sk pre it il tr tg base R c s buf1
      hm hbuf1
    generalize hs1 : (if c = tg then
        { s with next_sphincs_sig := memcpy s.next_sphincs_sig s.sphincs_sig_index buf1 24 }
       else s) = s1 at hfl hm1 hrev1 hpre1 her1
    rw [hpre1] at hfl
    have hw := fors_walk_leaf T P sk pre it il tr tg base R p hp hadr c hc s1 0
      (c + tr * 2 ^ 16)
      (memcpy buf1 0 (hashInto (do_F P (HASH_TYPE_SHA256 ||| HASH_LEN_192) pre
        (fadr p il 0 (c + tr * 2 ^ 16)) buf1) buf1 24) 24)
      (fors_leaf_node T P sk pre it il tr c p hadr buf1 buf1 hbuf1) hm1 hrev1
    rw [hA] at hfl
    generalize hfw : fors_walk P tg 16 0 c (c + tr * 2 ^ 16) s1 (fadr p il 0 (c + tr * 2 ^ 16))
      (memcpy buf1 0 (hashInto (do_F P (HASH_TYPE_SHA256 ||| HASH_LEN_192) pre
        (fadr p il 0 (c + tr * 2 ^ 16)) buf1) buf1 24) 24) = fw at hfl hw
    have herw : forsErase fw.1 = forsErase s := by
      rw [← hfw, fors_walk_erase, her1]
    have hrpw : fw.1.do_fors_redundant_pass = s.do_fors_redundant_pass := by
      have := congrArg sh_signer.do_fors_redundant_pass herw
      exact this
    obtain ⟨hmw, hroot, hx', ix', hadrw⟩ := hw
    by_cases hend : c + 1 = 2 ^ 16
    · simp only [hend, if_true] at hfl
      have hroot' := hroot hend
      rw [hend] at hmw
      obtain ⟨wpre, wbase, wtr, wR, wsl, wstl, wstk, wauth, wrev⟩ := hmw
      have etgt : 4 * (24 / 4 * fw.1.do_fors_tree) = 24 * tr := by rw [wtr]; omega
      rw [etgt] at hfl
      have hdone : ∀ x : sh_signer, x.next_sphincs_sig = fw.1.next_sphincs_sig →
          slice x.do_fors_fors_roots (24 * tr) 24 = fors_node T P sk pre it il tr 16 0 →
          fors_done T P sk pre it il tr tg base x := by
        intro x hx1 hx2
        refine ⟨?_, ?_, ?_⟩
        · rw [hx1]
          exact wrev htg
        · intro h hh
          rw [hx1]
          have e : base + 24 * (1 + h) = base + 24 + 24 * h := by ring
          rw [e]
          exact wauth h hh (sibling_done tg h htg (by rw [hA] at hh; exact hh))
        · rw [hA]
          exact hx2
      refine ⟨fun h => by omega, fun _ hF hrpf => ?_, fun _ hor => ?_⟩
      · have hrpf' : fw.1.do_fors_redundant_pass = false := by rw [hrpw, hrpf]
        simp only [hF, hrpf', ne_eq, not_false_eq_true, if_true, Bool.false_eq_true] at hfl
        subst hfl
        refine ⟨rfl, rfl, ?_, memcpy fw.1.do_fors_fors_roots (24 * tr) fw.2.2 24, ?_, ?_, ?_⟩
        · have := congrArg (fun t : sh_signer => { t with do_fors_redundant_pass := true }) herw
          exact this
        · refine ⟨wpre, wbase, wtr, rfl, wsl, wstl, ?_, ?_, ?_⟩
          · intro h _ hodd
            rw [Nat.zero_div] at hodd
            omega
          · intro h _ hok
            have hpos : 0 < 2 ^ h := Nat.pow_pos (by norm_num)
            rcases hok with h1 | ⟨h1, _⟩
            · have : 0 < (tg / 2 ^ h ^^^ 1) + 1 := by omega
              have := Nat.mul_pos this hpos
              omega
            · omega
          · intro hlt
            omega
        · rw [memcpy_length _ _ _ _ (by rw [wR]; omega), wR]
          exact hRl
        · rw [slice_memcpy_same _ _ _ _ (by rw [wR]; omega), hroot']
      · by_cases hF : T.FAULT_STRATEGY = 0
        · simp only [hF, ne_eq, not_true_eq_false, if_false] at hfl
          subst hfl
          refine ⟨rfl, rfl, ?_, ?_⟩
          · have := congrArg (fun t : sh_signer => { t with
              do_fors_tree := t.do_fors_tree + 1,
              sphincs_sig_index := (t.sphincs_sig_index + 24 * (1 + SPH_A)) % 2 ^ 32,
              do_fors_redundant_pass := false }) herw
            exact this
          · refine hdone _ rfl ?_
            show slice (memcpy fw.1.do_fors_fors_roots (24 * tr) fw.2.2 24) _ 24 = _
            rw [slice_memcpy_same _ _ _ _ (by rw [wR]; omega), hroot']
        · have hrpt : s.do_fors_redundant_pass = true := by
            rcases hor with h | h
            · exact absurd h hF
            · exact h
          have hrpt' : fw.1.do_fors_redundant_pass = true := by rw [hrpw, hrpt]
          have hme : memeq (fw.1.do_fors_fors_roots.drop (24 * tr)) fw.2.2 24 = true := by
            simp only [memeq, decide_eq_true_eq]
            rw [hroot', wR]
            exact hrp hrpt
          simp only [hF, hrpt', hme, ne_eq, not_false_eq_true, not_true_eq_false, if_true,
            if_false] at hfl
          subst hfl
          refine ⟨rfl, rfl, ?_, ?_⟩
          · have := congrArg (fun t : sh_signer => { t with
              do_fors_tree := t.do_fors_tree + 1,
              sphincs_sig_index := (t.sphincs_sig_index + 24 * (1 + SPH_A)) % 2 ^ 32,
              do_fors_redundant_pass := false }) herw
            exact this
          · refine hdone _ rfl ?_
            show slice fw.1.do_fors_fors_roots _ 24 = _
            rw [wR]
            exact hrp hrpt
    · simp only [hend, if_false] at hfl
      rw [hadrw] at hfl
      have e : c + 1 + k = c + (k + 1) := by omega
      obtain ⟨r1, r2, r3⟩ := ih fw.1 hx' ix' (c + 1) fw.2.2 R (by omega) hmw hRl
        (fun h => hrp (by rw [← hrpw]; exact h)) fl hfl
      rw [e] at r1 r2 r3
      refine ⟨fun h => ?_, fun h hF hrpf => ?_, fun h hor => ?_⟩
      · obtain ⟨a1, a2, a3, a4⟩ := r1 h
        exact ⟨a1, a2, a3.trans herw, a4⟩
      · obtain ⟨a1, a2, a3, a4⟩ := r2 h hF (by rw [hrpw]; exact hrpf)
        refine ⟨a1, a2, ?_, a4⟩
        rw [a3]
        have := congrArg (fun t : sh_signer => { t with do_fors_redundant_pass := true }) herw
        exact this
      · obtain ⟨a1, a2, a3, a4⟩ := r3 h (by rw [hrpw]; exact hor)
        refine ⟨a1, a2, ?_, a4⟩
        rw [a3]
        have := congrArg (fun t : sh_signer => { t with
          do_fors_tree := t.do_fors_tree + 1,
          sphincs_sig_index := (t.sphincs_sig_index + 24 * (1 + SPH_A)) % 2 ^ 32,
          do_fors_redundant_pass := false }) herw
        exact this
theorem fors_mid_leaf (T : Tune) (P : Prims) (sk pre : List Nat) (it il tr tg base : Nat)
    (R : List Nat) (c l v : Nat) (s : sh_signer)
    (h : fors_mid T P sk pre it il tr tg base R c l s) :
    fors_mid T P sk pre it il tr tg base R c l { s with do_fors_leaf := v } := h

theorem fors_done_leaf (T : Tune) (P : Prims) (sk pre : List Nat) (it il tr tg base : Nat)
    (v : Nat) (s : sh_signer)
    (h : fors_done T P sk pre it il tr tg base s) :
    fors_done T P sk pre it il tr tg base { s with do_fors_leaf := v } := h

theorem fors_done_leaf_state (T : Tune) (P : Prims) (sk pre : List Nat) (it il tr tg base : Nat)
    (v : Nat) (b : BuildState) (s : sh_signer)
    (h : fors_done T P sk pre it il tr tg base s) :
    fors_done T P sk pre it il tr tg base { s with do_fors_leaf := v, build_state := b } := h

theorem fors_step_built (T : Tune) (P : Prims) (sk pre : List Nat) (it il tr tg base : Nat)
    (R : List Nat) (rp : Bool) (c : Nat) (s : sh_signer)
    (htr : tr < SPH_K) (htg : tg < 2 ^ 16) (hc : c < 2 ^ 16)
    (hs : fors_at T P sk pre it il tr tg base R rp c s) :
    (step_next T P s).1 = false ∧
    (c + FORS_LEAFS_PER_ITER T < 2 ^ 16 →
      fors_at T P sk pre it il tr tg base R rp (c + FORS_LEAFS_PER_ITER T) (step_next T P s).2) ∧
    (2 ^ 16 ≤ c + FORS_LEAFS_PER_ITER T → T.FAULT_STRATEGY ≠ 0 → rp = false →
      ∃ R', fors_at T P sk pre it il tr tg base R' true 0 (step_next T P s).2) ∧
    (2 ^ 16 ≤ c + FORS_LEAFS_PER_ITER T → (T.FAULT_STRATEGY = 0 ∨ rp = true) →
      fors_done T P sk pre it il tr tg base (step_next T P s).2 ∧
      (step_next T P s).2.got_fatal_error = false ∧
      (step_next T P s).2.do_fors_tree = tr + 1 ∧
      (step_next T P s).2.do_fors_leaf = 0 ∧
      (step_next T P s).2.do_fors_redundant_pass = false ∧
      (step_next T P s).2.sphincs_sig_index = (base + 24 * (1 + SPH_A)) % 2 ^ 32 ∧
      (step_next T P s).2.build_state = (if tr + 1 = SPH_K then b_complete_fors else b_fors) ∧
      (step_next T P s).2.sk_seed = sk ∧ (step_next T P s).2.pk_seed_pre = pre ∧
      (step_next T P s).2.idx_tree = it ∧ (step_next T P s).2.idx_leaf = il ∧
      (step_next T P s).2.do_fors_md = s.do_fors_md) := by
  obtain ⟨hf, hb, hsk, hit, hil, hmd, hleaf, hrp, hm, hRl, hR⟩ := hs
  have hK : SPH_K = 14 := rfl
  have hA : SPH_A = 16 := rfl
  have h16 : (2 : Nat) ^ 16 = 65536 := by norm_num
  have htree : s.do_fors_tree = tr := hm.2.2.1
  have hbase : s.sphincs_sig_index = base := hm.2.1
  have hpre : s.pk_seed_pre = pre := hm.1
  have hmod : s.do_fors_leaf % 2 ^ 32 = c := by
    rw [hleaf]; apply Nat.mod_eq_of_lt; rw [h16] at hc; omega
  obtain ⟨p, hp, hp0, hadr⟩ := fors_adr_fadr it
  obtain ⟨t9, tl⟩ := layer_tree_take9 (zeros LEN_ADR) 0 it (by simp [zeros, LEN_ADR])
  have hstart : set_key_pair_address
      (set_type (set_tree_address (set_layer_address (zeros LEN_ADR) 0) s.idx_tree)
        FORS_TREE_ADDRESS) s.idx_leaf = fadr p il 0 0 := by
    rw [hit, hil]
    exact hp0 _ il tl t9
  simp only [step_next, hf, hb, hmod, hstart, Bool.false_eq_true, if_false]
  generalize hfl : fors_loop T P _ _ (FORS_LEAFS_PER_ITER T) s _ c _ = fl
  have key := fors_loop_built T P sk pre it il tr tg base p hp hadr (by rw [hK] at htr; omega) htg
    (init_private_key_gen T P s.sk_seed 24
      (set_type (set_tree_address (set_layer_address (zeros LEN_ADR) 0) s.idx_tree)
        FORS_TREE_ADDRESS) ADR_CONST_FOR_TREE)
    (by
      intro i
      rw [hsk, hit]
      simp only [fors_sk, hadr, hA])
    (FORS_LEAFS_PER_ITER T) s 0 0 c (zeros 32) R hc hm hRl (by rw [hrp]; exact hR) fl
    (by rw [← hfl, htree, hmd])
  obtain ⟨k1, k2, k3⟩ := key
  by_cases hlt : c + FORS_LEAFS_PER_ITER T < 2 ^ 16
  · obtain ⟨a1, a2, a3, a4⟩ := k1 hlt
    have e : ∀ f : sh_signer → Nat, (∀ x, f (forsErase x) = f x) → f fl.1 = f s := by
      intro f hfe
      rw [← hfe fl.1, a3, hfe]
    have htree2 : fl.1.do_fors_tree = tr := a4.2.2.1
    have hne : ¬ (fl.1.do_fors_tree = SPH_K) := by rw [htree2, hK]; rw [hK] at htr; omega
    simp only [a1, Bool.false_eq_true, if_false, hne, true_and]
    refine ⟨fun _ => ?_, fun h => absurd hlt (by omega), fun h => absurd hlt (by omega)⟩
    have g1 : fl.1.got_fatal_error = s.got_fatal_error := by
      have := congrArg sh_signer.got_fatal_error a3; exact this
    have g2 : fl.1.build_state = s.build_state := by
      have := congrArg sh_signer.build_state a3; exact this
    have g3 : fl.1.sk_seed = s.sk_seed := by
      have := congrArg sh_signer.sk_seed a3; exact this
    have g4 : fl.1.idx_tree = s.idx_tree := by
      have := congrArg sh_signer.idx_tree a3; exact this
    have g5 : fl.1.idx_leaf = s.idx_leaf := by
      have := congrArg sh_signer.idx_leaf a3; exact this
    have g6 : fl.1.do_fors_md = s.do_fors_md := by
      have := congrArg sh_signer.do_fors_md a3; exact this
    have g7 : fl.1.do_fors_redundant_pass = s.do_fors_redundant_pass := by
      have := congrArg sh_signer.do_fors_redundant_pass a3; exact this
    exact ⟨by rw [← hf]; exact g1, by rw [← hb]; exact g2, by rw [← hsk]; exact g3,
      by rw [← hit]; exact g4, by rw [← hil]; exact g5,
      by rw [← hmd]; exact congrArg (fun l => l.getD tr 0) g6, a2,
      by rw [← hrp]; exact g7, fors_mid_leaf _ _ _ _ _ _ _ _ _ _ _ _ _ _ a4, hRl, hR⟩
  · have hge : 2 ^ 16 ≤ c + FORS_LEAFS_PER_ITER T := by omega
    refine ⟨?_, fun h => absurd h hlt, ?_, ?_⟩
    · by_cases hcase : T.FAULT_STRATEGY ≠ 0 ∧ rp = false
      · obtain ⟨a1, _⟩ := k2 hge hcase.1 (by rw [hrp]; exact hcase.2)
        simp only [a1, Bool.false_eq_true, if_false]
        split <;> rfl
      · obtain ⟨a1, _⟩ := k3 hge (by
          by_cases h0 : T.FAULT_STRATEGY = 0
          · exact Or.inl h0
          · right
            rw [hrp]
            cases rp with
            | true => rfl
            | false => exact absurd ⟨h0, rfl⟩ hcase)
        simp only [a1, Bool.false_eq_true, if_false]
        split <;> rfl
    · intro _ hF hrpf
      obtain ⟨a1, a2, a3, R', a4, a5, a6⟩ := k2 hge hF (by rw [hrp]; exact hrpf)
      have htree2 : fl.1.do_fors_tree = tr := a4.2.2.1
      have hne : ¬ (fl.1.do_fors_tree = SPH_K) := by rw [htree2, hK]; rw [hK] at htr; omega
      simp only [a1, Bool.false_eq_true, if_false, hne]
      have g1 : fl.1.got_fatal_error = s.got_fatal_error := by
        have := congrArg sh_signer.got_fatal_error a3; exact this
      have g2 : fl.1.build_state = s.build_state := by
        have := congrArg sh_signer.build_state a3; exact this
      have g3 : fl.1.sk_seed = s.sk_seed := by
        have := congrArg sh_signer.sk_seed a3; exact this
      have g4 : fl.1.idx_tree = s.idx_tree := by
        have := congrArg sh_signer.idx_tree a3; exact this
      have g5 : fl.1.idx_leaf = s.idx_leaf := by
        have := congrArg sh_signer.idx_leaf a3; exact this
      have g6 : fl.1.do_fors_md = s.do_fors_md := by
        have := congrArg sh_signer.do_fors_md a3; exact this
      have g7 : fl.1.do_fors_redundant_pass = true := by
        have := congrArg sh_signer.do_fors_redundant_pass a3; exact this
      exact ⟨R', by rw [← hf]; exact g1, by rw [← hb]; exact g2, by rw [← hsk]; exact g3,
        by rw [← hit]; exact g4, by rw [← hil]; exact g5,
        by rw [← hmd]; exact congrArg (fun l => l.getD tr 0) g6, a2,
        g7, fors_mid_leaf _ _ _ _ _ _ _ _ _ _ _ _ _ _ a4, a5, fun _ => a6⟩
    · intro _ hcase
      obtain ⟨a1, a2, a3, a4⟩ := k3 hge (by rw [hrp]; exact hcase)
      have g0 : fl.1.do_fors_tree = s.do_fors_tree + 1 := by
        have := congrArg sh_signer.do_fors_tree a3; exact this
      have g1 : fl.1.got_fatal_error = s.got_fatal_error := by
        have := congrArg sh_signer.got_fatal_error a3; exact this
      have g2 : fl.1.build_state = s.build_state := by
        have := congrArg sh_signer.build_state a3; exact this
      have g3 : fl.1.sk_seed = s.sk_seed := by
        have := congrArg sh_signer.sk_seed a3; exact this
      have g4 : fl.1.idx_tree = s.idx_tree := by
        have := congrArg sh_signer.idx_tree a3; exact this
      have g5 : fl.1.idx_leaf = s.idx_leaf := by
        have := congrArg sh_signer.idx_leaf a3; exact this
      have g6 : fl.1.do_fors_md = s.do_fors_md := by
        have := congrArg sh_signer.do_fors_md a3; exact this
      have g7 : fl.1.do_fors_redundant_pass = false := by
        have := congrArg sh_signer.do_fors_redundant_pass a3; exact this
      have g8 : fl.1.sphincs_sig_index = (s.sphincs_sig_index + 24 * (1 + SPH_A)) % 2 ^ 32 := by
        have := congrArg sh_signer.sphincs_sig_index a3; exact this
      have g9 : fl.1.pk_seed_pre = s.pk_seed_pre := by
        have := congrArg sh_signer.pk_seed_pre a3; exact this
      rw [htree] at g0
      rw [hbase] at g8
      simp only [a1, Bool.false_eq_true, if_false, g0]
      by_cases hlast : tr + 1 = SPH_K
      · rw [if_pos hlast]
        exact ⟨a4, by rw [← hf]; exact g1,
          rfl, a2, g7, g8, by rw [if_pos hlast], by rw [← hsk]; exact g3,
          by rw [← hpre]; exact g9, by rw [← hit]; exact g4, by rw [← hil]; exact g5, g6⟩
      · rw [if_neg hlast]
        exact ⟨a4, by rw [← hf]; exact g1,
          rfl, a2, g7, g8, by rw [if_neg hlast, ← hb]; exact g2, by rw [← hsk]; exact g3,
          by rw [← hpre]; exact g9, by rw [← hit]; exact g4, by rw [← hil]; exact g5, g6⟩
theorem run_add (T : Tune) (P : Prims) (a b : Nat) (s : sh_signer) :
    run T P (a + b) s = run T P b (run T P a s) := by
  induction b with
  | zero => rfl
  | succ b ih =>
    rw [← Nat.add_assoc, run_succ, run_succ, ih]

theorem fors_cases (T : Tune) :
    0 < FORS_LEAFS_PER_ITER T ∧ 0 < fors_steps T ∧
    (fors_steps T - 1) * FORS_LEAFS_PER_ITER T < 2 ^ 16 ∧
    2 ^ 16 ≤ (fors_steps T - 1) * FORS_LEAFS_PER_ITER T + FORS_LEAFS_PER_ITER T := by
  simp only [fors_steps, FORS_LEAFS_PER_ITER, SPH_A]
  split <;> norm_num

theorem fors_pass_steps (T : Tune) (P : Prims) (sk pre : List Nat) (it il tr tg base : Nat)
    (R : List Nat) (rp : Bool) (htr : tr < SPH_K) (htg : tg < 2 ^ 16) :
    ∀ (j : Nat) (s : sh_signer), fors_at T P sk pre it il tr tg base R rp 0 s →
      j * FORS_LEAFS_PER_ITER T < 2 ^ 16 →
      fors_at T P sk pre it il tr tg base R rp (j * FORS_LEAFS_PER_ITER T) (run T P j s) := by
  intro j
  induction j with
  | zero =>
    intro s hs _
    rw [Nat.zero_mul]
    exact hs
  | succ j ih =>
    intro s hs hlt
    have e : (j + 1) * FORS_LEAFS_PER_ITER T
        = j * FORS_LEAFS_PER_ITER T + FORS_LEAFS_PER_ITER T := by ring
    rw [e] at hlt ⊢
    have h1 := ih s hs (by omega)
    rw [run_succ]
    exact (fors_step_built T P sk pre it il tr tg base R rp _ _ htr htg (by omega) h1).2.1 hlt

theorem fors_pass (T : Tune) (P : Prims) (sk pre : List Nat) (it il tr tg base : Nat)
    (R : List Nat) (rp : Bool) (s : sh_signer) (htr : tr < SPH_K) (htg : tg < 2 ^ 16)
    (hs : fors_at T P sk pre it il tr tg base R rp 0 s) :
    (∀ i, i < fors_steps T →
      fors_at T P sk pre it il tr tg base R rp (i * FORS_LEAFS_PER_ITER T) (run T P i s) ∧
      (step_next T P (run T P i s)).1 = false) ∧
    (T.FAULT_STRATEGY ≠ 0 → rp = false →
      ∃ R', fors_at T P sk pre it il tr tg base R' true 0 (run T P (fors_steps T) s)) ∧
    ((T.FAULT_STRATEGY = 0 ∨ rp = true) →
      fors_done T P sk pre it il tr tg base (run T P (fors_steps T) s) ∧
      (run T P (fors_steps T) s).got_fatal_error = false ∧
      (run T P (fors_steps T) s).do_fors_tree = tr + 1 ∧
      (run T P (fors_steps T) s).do_fors_leaf = 0 ∧
      (run T P (fors_steps T) s).do_fors_redundant_pass = false ∧
      (run T P (fors_steps T) s).sphincs_sig_index = (base + 24 * (1 + SPH_A)) % 2 ^ 32 ∧
      (run T P (fors_steps T) s).build_state
        = (if tr + 1 = SPH_K then b_complete_fors else b_fors) ∧
      (run T P (fors_steps T) s).sk_seed = sk ∧ (run T P (fors_steps T) s).pk_seed_pre = pre ∧
      (run T P (fors_steps T) s).idx_tree = it ∧ (run T P (fors_steps T) s).idx_leaf = il) := by
  obtain ⟨c1, c2, c3, c4⟩ := fors_cases T
  have hall : ∀ i, i < fors_steps T →
      fors_at T P sk pre it il tr tg base R rp (i * FORS_LEAFS_PER_ITER T) (run T P i s) := by
    intro i hi
    apply fors_pass_steps T P sk pre it il tr tg base R rp htr htg i s hs
    have : i * FORS_LEAFS_PER_ITER T ≤ (fors_steps T - 1) * FORS_LEAFS_PER_ITER T :=
      Nat.mul_le_mul_right _ (by omega)
    omega
  have hlast := hall (fors_steps T - 1) (by omega)
  have hst := fors_step_built T P sk pre it il tr tg base R rp _ _ htr htg c3 hlast
  have hrun : run T P (fors_steps T) s = (step_next T P (run T P (fors_steps T - 1) s)).2 := by
    rw [← run_succ]
    congr 1
    omega
  refine ⟨fun i hi => ⟨hall i hi, ?_⟩, ?_, ?_⟩
  · have hi2 : i * FORS_LEAFS_PER_ITER T < 2 ^ 16 := by
      have : i * FORS_LEAFS_PER_ITER T ≤ (fors_steps T - 1) * FORS_LEAFS_PER_ITER T :=
        Nat.mul_le_mul_right _ (by omega)
      omega
    exact (fors_step_built T P sk pre it il tr tg base R rp _ _ htr htg hi2 (hall i hi)).1
  · intro hF hr
    rw [hrun]
    exact hst.2.2.1 c4 hF hr
  · intro hc
    rw [hrun]
    obtain ⟨d1, d2, d3, d4, d5, d6, d7, d8, d9, d10, d11, d12⟩ := hst.2.2.2 c4 hc
    exact ⟨d1, d2, d3, d4, d5, d6, d7, d8, d9, d10, d11⟩
theorem fors_name_parity (n tr l : Nat) (hl : l < 16) :
    (n + tr * 2 ^ (16 - l)) % 2 = n % 2 := by
  obtain ⟨d, hd⟩ : ∃ d, 16 - l = d + 1 := ⟨16 - l - 1, by omega⟩
  rw [hd, pow_succ]
  generalize 2 ^ d = m
  have : tr * (m * 2) = 2 * (tr * m) := by ring
  rw [this]
  omega

theorem verify_fors_walk (T : Tune) (P : Prims) (sk pre : List Nat) (it il tr tg : Nat)
    (p : List Nat) (hp : p.length = 10)
    (hadr : ∀ il h i, fors_adr it il h i = fadr p il h i) :
    ∀ (cnt level hx ix : Nat) (sig buf : List Nat), level + cnt = 16 →
      bytesN 24 buf = fors_node T P sk pre it il tr level (tg / 2 ^ level) →
      (∀ k, k < cnt → slice sig (24 * k) 24
        = fors_node T P sk pre it il tr (level + k) (tg / 2 ^ (level + k) ^^^ 1)) →
      bytesN 24 (verify_fors_levels P pre cnt level (tg / 2 ^ level + tr * 2 ^ (16 - level))
          (fadr p il hx ix) sig buf).2.2
        = fors_node T P sk pre it il tr 16 (tg / 2 ^ 16) := by
  intro cnt
  induction cnt with
  | zero =>
    intro level hx ix sig buf hl hb _
    have : level = 16 := by omega
    subst this
    simp only [verify_fors_levels]
    exact hb
  | succ cnt ih =>
    intro level hx ix sig buf hl hb hsig
    have hl16 : level < 16 := by omega
    have hs0 := hsig 0 (by omega)
    rw [Nat.mul_zero, Nat.add_zero] at hs0
    have hs0' : bytesN 24 sig
        = fors_node T P sk pre it il tr level (tg / 2 ^ level ^^^ 1) := by
      rw [← hs0]; simp only [slice, List.drop_zero]
    simp only [verify_fors_levels]
    rw [(fadr_setters p il hx ix _ hp).2.2.1, (fadr_setters p il hx _ _ hp).2.1,
      fors_name_half tg tr level hl16, fors_name_parity _ tr level hl16]
    have hdiv : tg / 2 ^ (level + 1) = tg / 2 ^ level / 2 := by
      rw [pow_succ, Nat.div_div_eq_div_mul]
    have hnew : bytesN 24 (if tg / 2 ^ level % 2 ≠ 0 then
          hashInto (do_H P (HASH_TYPE_SHA256 ||| HASH_LEN_192) pre
            (fadr p il (level + 1) (tg / 2 ^ (level + 1) + tr * 2 ^ (16 - (level + 1))))
            sig buf) buf 24
        else
          hashInto (do_H P (HASH_TYPE_SHA256 ||| HASH_LEN_192) pre
            (fadr p il (level + 1) (tg / 2 ^ (level + 1) + tr * 2 ^ (16 - (level + 1))))
            buf sig) buf 24)
        = fors_node T P sk pre it il tr (level + 1) (tg / 2 ^ (level + 1)) := by
      rw [fors_node_succ T P sk pre it il tr level (tg / 2 ^ (level + 1)) p hadr, hdiv]
      generalize tg / 2 ^ level = idx at hb hs0' ⊢
      by_cases hodd : idx % 2 = 1
      · have hne : idx % 2 ≠ 0 := by omega
        rw [if_pos hne, do_H_some, bytesN_bytesN, hs0', hb, xor_one_odd idx hodd]
        have e1 : 2 * (idx / 2) = idx - 1 := by omega
        have e2 : 2 * (idx / 2) + 1 = idx := by omega
        rw [e2, e1]
      · have hev : idx % 2 = 0 := by omega
        have hne : ¬ (idx % 2 ≠ 0) := by omega
        rw [if_neg hne, do_H_some, bytesN_bytesN, hs0', hb, xor_one_even idx hev]
        have e1 : 2 * (idx / 2) = idx := by omega
        rw [e1]
    exact ih (level + 1) (level + 1) _ (sig.drop 24) _ (by omega) hnew (by
      intro k hk
      have := hsig (k + 1) (by omega)
      have e : slice (sig.drop 24) (24 * k) 24 = slice sig (24 * (k + 1)) 24 := by
        simp only [slice, List.drop_drop]
        congr 2
        omega
      rw [e, this]
      have e2 : level + (k + 1) = level + 1 + k := by omega
      rw [e2])

theorem verify_fors_tree_root (T : Tune) (P : Prims) (sk pre : List Nat) (it il tr tg : Nat)
    (htr : tr < SPH_K) (htg : tg < 2 ^ 16)
    (buffer2 sig roots : List Nat) (hx ix : Nat)
    (hb2 : buffer2.getD tr 0 = tg) (hroots : 24 * (tr + 1) ≤ roots.length)
    (hsk : bytesN 24 sig = fors_sk T P sk it il tr tg)
    (hsig : ∀ k, k < 16 → slice sig (24 * (1 + k)) 24
      = fors_node T P sk pre it il tr k (tg / 2 ^ k ^^^ 1)) :
    slice (verify_fors_trees P pre buffer2 1 tr (fors_adr it il hx ix) sig roots).2.2
      (24 * tr) 24 = fors_node T P sk pre it il tr 16 0 := by
  obtain ⟨p, hp, hp0, hadr⟩ := fors_adr_fadr it
  have hK : SPH_K = 14 := rfl
  have hA : SPH_A = 16 := rfl
  have h16 : (2 : Nat) ^ 16 = 65536 := by norm_num
  rw [hK] at htr
  have hnode : (buffer2.getD tr 0 + tr * 2 ^ 16) % 2 ^ 32 = tg + tr * 2 ^ 16 := by
    rw [hb2]
    apply Nat.mod_eq_of_lt
    rw [h16] at htg ⊢
    omega
  have hoff : 4 * (tr * 24 / 4) = 24 * tr := by omega
  simp only [verify_fors_trees, hnode, hoff, hadr, hA]
  rw [(fadr_setters p il hx ix _ hp).2.2.1, (fadr_setters p il hx _ _ hp).2.1,
    slice_memcpy_same _ _ _ _ (by omega)]
  have hleaf : bytesN 24 (hashInto (do_F P (HASH_TYPE_SHA256 ||| HASH_LEN_192) pre
      (fadr p il 0 (tg + tr * 2 ^ 16)) sig) (slice roots (24 * tr) 24) 24)
      = fors_node T P sk pre it il tr 0 (tg / 2 ^ 0) := by
    rw [pow_zero, Nat.div_one]
    simp only [fors_node]
    rw [do_F_some, do_F_some, bytesN_bytesN, hsk, hadr, hA]
    congr 3
    simp only [fors_sk, bytesN_bytesN]
  have hw := verify_fors_walk T P sk pre it il tr tg p hp hadr 16 0 0 (tg + tr * 2 ^ 16)
    (sig.drop 24) _ rfl hleaf (by
      intro k hk
      have := hsig k hk
      have e : slice (sig.drop 24) (24 * k) 24 = slice sig (24 * (1 + k)) 24 := by
        simp only [slice, List.drop_drop]
        congr 2
        omega
      rw [e, this, Nat.zero_add])
  rw [pow_zero, Nat.div_one, Nat.sub_zero, Nat.div_eq_of_lt htg] at hw
  exact hw

theorem fors_at_start (T : Tune) (P : Prims) (s : sh_signer) (t : Nat)
    (hf : s.got_fatal_error = false) (hb : s.build_state = b_fors)
    (htree : s.do_fors_tree = t) (hleaf : s.do_fors_leaf = 0)
    (hrp : s.do_fors_redundant_pass = false)
    (hsig : s.sphincs_sig_index + 24 * (1 + SPH_A) ≤ s.next_sphincs_sig.length)
    (hstack : 24 * SPH_A ≤ s.do_fors_stack.length)
    (hroots : 24 * (t + 1) ≤ s.do_fors_fors_roots.length) :
    fors_at T P s.sk_seed s.pk_seed_pre s.idx_tree s.idx_leaf t (s.do_fors_md.getD t 0)
      s.sphincs_sig_index s.do_fors_fors_roots false 0 s := by
  refine ⟨hf, hb, rfl, rfl, rfl, rfl, hleaf, hrp,
    ⟨rfl, rfl, htree, rfl, hsig, hstack, ?_, ?_, ?_⟩, hroots, fun h => by cases h⟩
  · intro h _ h1
    rw [Nat.zero_div] at h1
    omega
  · intro h _ ho
    rcases ho with ho | ⟨h0, _⟩
    · have : 0 < ((s.do_fors_md.getD t 0 / 2 ^ h ^^^ 1) + 1) * 2 ^ h :=
        Nat.mul_pos (by omega) (Nat.pow_pos (by norm_num))
      omega
    · omega
  · intro h
    omega

theorem fors_tree_run (T : Tune) (P : Prims) (sk pre : List Nat) (it il tr tg base : Nat)
    (R : List Nat) (s : sh_signer) (htr : tr < SPH_K) (htg : tg < 2 ^ 16)
    (hs : fors_at T P sk pre it il tr tg base R false 0 s) :
    (∀ i, i < fors_calls T →
      (step_next T P (run T P i s)).1 = false ∧
      ∃ R' rp c, fors_at T P sk pre it il tr tg base R' rp c (run T P i s)) ∧
    fors_done T P sk pre it il tr tg base (run T P (fors_calls T) s) ∧
    (run T P (fors_calls T) s).got_fatal_error = false ∧
    (run T P (fors_calls T) s).do_fors_tree = tr + 1 ∧
    (run T P (fors_calls T) s).do_fors_leaf = 0 ∧
    (run T P (fors_calls T) s).do_fors_redundant_pass = false ∧
    (run T P (fors_calls T) s).sphincs_sig_index = (base + 24 * (1 + SPH_A)) % 2 ^ 32 ∧
    (run T P (fors_calls T) s).build_state
      = (if tr + 1 = SPH_K then b_complete_fors else b_fors) ∧
    (run T P (fors_calls T) s).sk_seed = sk ∧ (run T P (fors_calls T) s).pk_seed_pre = pre ∧
    (run T P (fors_calls T) s).idx_tree = it ∧ (run T P (fors_calls T) s).idx_leaf = il := by
  obtain ⟨p1, p2, p3⟩ := fors_pass T P sk pre it il tr tg base R false s htr htg hs
  by_cases hF : T.FAULT_STRATEGY = 0
  · have hn : fors_calls T = fors_steps T := by
      simp only [fors_calls, hF, if_true, Nat.mul_one]
    rw [hn]
    exact ⟨fun i hi => ⟨(p1 i hi).2, R, false, _, (p1 i hi).1⟩, p3 (Or.inl hF)⟩
  · have hn : fors_calls T = fors_steps T + fors_steps T := by
      simp only [fors_calls, hF, if_false]
      omega
    rw [hn]
    obtain ⟨R', hs'⟩ := p2 hF rfl
    obtain ⟨q1, _, q3⟩ := fors_pass T P sk pre it il tr tg base R' true _ htr htg hs'
    rw [run_add]
    refine ⟨fun i hi => ?_, q3 (Or.inr rfl)⟩
    by_cases hi1 : i < fors_steps T
    · exact ⟨(p1 i hi1).2, R, false, _, (p1 i hi1).1⟩
    · obtain ⟨j, rfl⟩ : ∃ j, i = fors_steps T + j := ⟨i - fors_steps T, by omega⟩
      rw [run_add]
      exact ⟨(q1 j (by omega)).2, R', true, _, (q1 j (by omega)).1⟩

/-- C28: FORS streaming.  From the start of FORS tree `t < 14` in `b_fors`
(no leaf done, the signature cursor at `base = 24 + t*24*17`, target
`md[t] < 2^16`), the `fors_calls` calls of `step_next` that build the tree
all return false and stay in tree `t`; after them the tree counter is `t+1`,
the cursor stands at the next tree, the signature holds at `base` the PRF
secret of leaf `md[t]` and at `base + 24*(1+h)` the sibling
`node(h, (md[t] >> h) xor 1)` for every `h < 16`, and `fors_roots[t]` holds
`node(16, 0)`, the root of the tree; one round of the verifier's loop over
the FORS trees (`F` on the revealed value, then 16 applications of `H`), run
on those 17 fields with the same `md[t]`, writes exactly `fors_roots[t]` into
slot `t` of its own root buffer. -/
theorem fors_streaming (T : Tune) (P : Prims) (s : sh_signer) (t : Nat)
    (ht : t < SPH_K) (hf : s.got_fatal_error = false) (hb : s.build_state = b_fors)
    (htree : s.do_fors_tree = t) (hleaf : s.do_fors_leaf = 0)
    (hrp : s.do_fors_redundant_pass = false)
    (hidx : s.sphincs_sig_index = 24 + t * (24 * 17))
    (hsig : s.next_sphincs_sig.length = LEN_SPHINCS_SIG)
    (hstack : 24 * SPH_A ≤ s.do_fors_stack.length)
    (hroots : 24 * SPH_K ≤ s.do_fors_fors_roots.length)
    (hmd : s.do_fors_md.getD t 0 < 2 ^ 16) :
    (∀ i, i < fors_calls T →
      (step_next T P (run T P i s)).1 = false ∧ (run T P i s).do_fors_tree = t ∧
      (run T P i s).build_state = b_fors ∧ (run T P i s).got_fatal_error = false) ∧
    (run T P (fors_calls T) s).got_fatal_error = false ∧
    (run T P (fors_calls T) s).do_fors_tree = t + 1 ∧
    (run T P (fors_calls T) s).sphincs_sig_index = 24 + (t + 1) * (24 * 17) ∧
    slice (run T P (fors_calls T) s).next_sphincs_sig (24 + t * (24 * 17)) 24
      = fors_sk T P s.sk_seed s.idx_tree s.idx_leaf t (s.do_fors_md.getD t 0) ∧
    (∀ h, h < 16 →
      slice (run T P (fors_calls T) s).next_sphincs_sig (24 + t * (24 * 17) + 24 * (1 + h)) 24
        = fors_node T P s.sk_seed s.pk_seed_pre s.idx_tree s.idx_leaf t h
            (s.do_fors_md.getD t 0 / 2 ^ h ^^^ 1)) ∧
    slice (run T P (fors_calls T) s).do_fors_fors_roots (24 * t) 24
      = fors_node T P s.sk_seed s.pk_seed_pre s.idx_tree s.idx_leaf t 16 0 ∧
    (∀ (buffer2 roots : List Nat) (hx ix : Nat),
      buffer2.getD t 0 = s.do_fors_md.getD t 0 → 24 * (t + 1) ≤ roots.length →
      slice (verify_fors_trees P s.pk_seed_pre buffer2 1 t
          (fors_adr s.idx_tree s.idx_leaf hx ix)
          ((run T P (fors_calls T) s).next_sphincs_sig.drop (24 + t * (24 * 17))) roots).2.2
        (24 * t) 24
        = slice (run T P (fors_calls T) s).do_fors_fors_roots (24 * t) 24) := by
  have hK : SPH_K = 14 := rfl
  have hA : SPH_A = 16 := rfl
  have hL : LEN_SPHINCS_SIG = 17064 := by decide
  rw [hK] at ht hroots
  rw [hL] at hsig
  have h0 := fors_at_start T P s t hf hb htree hleaf hrp (by rw [hidx, hsig, hA]; omega) hstack
    (by omega)
  rw [hidx] at h0
  obtain ⟨r1, r2, r3, r4, _, _, r7, _, _, _, _, _⟩ :=
    fors_tree_run T P s.sk_seed s.pk_seed_pre s.idx_tree s.idx_leaf t (s.do_fors_md.getD t 0)
      (24 + t * (24 * 17)) s.do_fors_fors_roots s (by rw [hK]; exact ht) hmd h0
  obtain ⟨d1, d2, d3⟩ := r2
  rw [hA] at d2 d3
  refine ⟨fun i hi => ?_, r3, r4, ?_, d1, d2, d3, ?_⟩
  · obtain ⟨a1, R', rp, c, a2⟩ := r1 i hi
    exact ⟨a1, a2.2.2.2.2.2.2.2.2.1.2.2.1, a2.2.1, a2.1⟩
  · rw [r7, hA]
    omega
  · intro buffer2 roots hx ix hb2 hr
    rw [d3]
    apply verify_fors_tree_root T P s.sk_seed s.pk_seed_pre s.idx_tree s.idx_leaf t
      (s.do_fors_md.getD t 0) (by rw [hK]; exact ht) hmd buffer2 _ roots hx ix hb2 hr
    · rw [← d1]
      simp only [slice]
    · intro k hk
      rw [← d2 k hk]
      simp only [slice, List.drop_drop]

/-- Witness for `fors_streaming`: tree 0 of the zero-filled signer memory
under the shipped settings; after the `fors_calls` calls the tree counter is
1 and slot 0 of the roots holds the root of tree 0. -/
theorem fors_streaming_witness :
    (run tune zero_prims (fors_calls tune) fors_start).do_fors_tree = 0 + 1 ∧
    slice (run tune zero_prims (fors_calls tune) fors_start).do_fors_fors_roots (24 * 0) 24
      = fors_node tune zero_prims fors_start.sk_seed fors_start.pk_seed_pre fors_start.idx_tree
          fors_start.idx_leaf 0 16 0 :=
  ⟨(fors_streaming tune zero_prims fors_start 0 (by decide) rfl rfl rfl rfl rfl rfl
      (zeros_length 17064)
      (by show 24 * 16 ≤ (zeros (16 * 24)).length; rw [zeros_length])
      (by show 24 * 14 ≤ (zeros (14 * 24)).length; rw [zeros_length])
      (by decide)).2.2.1,
   (fors_streaming tune zero_prims fors_start 0 (by decide) rfl rfl rfl rfl rfl rfl
      (zeros_length 17064)
      (by show 24 * 16 ≤ (zeros (16 * 24)).length; rw [zeros_length])
      (by show 24 * 14 ≤ (zeros (14 * 24)).length; rw [zeros_length])
      (by decide)).2.2.2.2.2.2.1⟩

/-! ## The rolling bottom subtree: the authentication paths of the current LMS tree -/

theorem xor_bit_lt (k b e : Nat) (hb : b < 2) (he : 1 ≤ e) (hk : k < 2 ^ e) :
    k ^^^ b < 2 ^ e := by
  apply Nat.xor_lt_two_pow hk
  have : 2 ^ 1 ≤ 2 ^ e := Nat.pow_le_pow_right (by norm_num) he
  omega

theorem xor_bit_cancel (k b : Nat) : (k ^^^ b) ^^^ b = k := Nat.xor_cancel_right b k

theorem xor_bit_swap (k b : Nat) : (k ^^^ b) ^^^ 1 = (k ^^^ 1) ^^^ b := by
  rw [Nat.xor_assoc, Nat.xor_comm b 1, ← Nat.xor_assoc]

theorem xor_bit_solve (k b j : Nat) (h : (k ^^^ b) ^^^ 1 = j) : k = (j ^^^ b) ^^^ 1 := by
  rw [← h, ← xor_bit_swap (k ^^^ b) b, xor_bit_cancel, xor_bit_cancel]

theorem slot_xor_one (k e : Nat) (he : 1 ≤ e) :
    (k + 2 ^ e - 2) ^^^ 1 = (k ^^^ 1) + 2 ^ e - 2 := by
  obtain ⟨d, rfl⟩ : ∃ d, e = d + 1 := ⟨e - 1, by omega⟩
  have e1 : 2 ^ (d + 1) = 2 * 2 ^ d := by rw [pow_succ]; ring
  have hp : 1 ≤ 2 ^ d := Nat.one_le_two_pow
  rw [e1]
  generalize 2 ^ d = p at hp
  by_cases hk : k % 2 = 0
  · rw [xor_one_even k hk, xor_one_even _ (by omega)]
    omega
  · rw [xor_one_odd k (by omega), xor_one_odd _ (by omega)]
    omega

theorem slot_xor (k b e : Nat) (hb : b < 2) (he : 1 ≤ e) :
    (k + 2 ^ e - 2) ^^^ b = (k ^^^ b) + 2 ^ e - 2 := by
  have : b = 0 ∨ b = 1 := by omega
  rcases this with rfl | rfl
  · simp
  · exact slot_xor_one k e he

theorem slot_half (x e : Nat) (he : 1 ≤ e) :
    (x + 2 ^ (e + 1) - 2) / 2 - 1 = x / 2 + 2 ^ e - 2 := by
  have e1 : 2 ^ (e + 1) = 2 * 2 ^ e := by rw [pow_succ]; ring
  have hp : 2 ^ 1 ≤ 2 ^ e := Nat.pow_le_pow_right (by norm_num) he
  rw [e1]
  generalize 2 ^ e = p at hp
  norm_num at hp
  omega

theorem slot_parity (x e : Nat) (he : 1 ≤ e) : (x + 2 ^ e - 2) % 2 = x % 2 := by
  obtain ⟨d, rfl⟩ : ∃ d, e = d + 1 := ⟨e - 1, by omega⟩
  have e1 : 2 ^ (d + 1) = 2 * 2 ^ d := by rw [pow_succ]; ring
  have hp : 1 ≤ 2 ^ d := Nat.one_le_two_pow
  rw [e1]
  generalize 2 ^ d = p at hp
  omega

theorem win_div (a r B l : Nat) (hl : l ≤ B) :
    (a * 2 ^ B + r) / 2 ^ l = a * 2 ^ (B - l) + r / 2 ^ l := by
  rw [pow_split B l hl, ← Nat.mul_assoc, Nat.add_comm,
    Nat.add_mul_div_right _ _ (Nat.pow_pos (by norm_num)), Nat.add_comm]

theorem sub_inv_store_out (E : Nat) (buf x : List Nat) (val : Nat → Nat → List Nat)
    (ok ok' : Nat → Nat → Prop) (h0 j0 : Nat) (hinv : sub_inv E buf val ok)
    (hlen : 24 * (2 ^ (E + 1) - 2) ≤ buf.length) (hh0 : h0 < E) (hj0 : j0 < 2 ^ (E - h0))
    (hok : ∀ h j, h < E → j < 2 ^ (E - h) → ok' h j → ok h j ∧ ¬ (h = h0 ∧ j = j0)) :
    sub_inv E (memcpy buf (24 * (j0 + 2 ^ (E - h0) - 2)) x 24) val ok' := by
  intro h j hh hj ho
  have b0 := (slot_lt E h0 j0 hh0 hj0).2
  obtain ⟨h1, he⟩ := hok h j hh hj ho
  rw [slice_memcpy_apart _ _ _ _ _ _ (slot_apart E h h0 j j0 hh hh0 hj hj0 he) (by omega)]
  exact hinv h j hh hj h1

theorem lms_ok_succ (r l h j : Nat) (h1 : r % 2 ^ l = 2 ^ l - 1) :
    lms_ok r l h j ∨ (h = l ∧ j = r / 2 ^ l) → lms_ok r (l + 1) h j := by
  rintro (ho | ⟨rfl, rfl⟩)
  · rcases ho with ho | ⟨hl, he⟩
    · exact Or.inl ho
    · exact Or.inr ⟨by omega, he⟩
  · exact Or.inr ⟨by omega, walk_complete r h h1⟩

theorem lms_ok_next (r l h j : Nat) (ho : lms_ok r l h j) : lms_ok (r + 1) 0 h j := by
  rcases ho with ho | ⟨_, he⟩
  · exact Or.inl (by omega)
  · exact Or.inl (by omega)

theorem sign_refresh_built (T : Tune) (P : Prims) (I seed : List Nat) (w r : Nat)
    (hr : r < 2 ^ LMS_BOTTOM T) :
    ∀ (fuel l index qn : Nat) (buf buffer : List Nat),
      l < LMS_BOTTOM T → LMS_BOTTOM T ≤ l + fuel → r % 2 ^ l = 2 ^ l - 1 →
      index = r / 2 ^ l + 2 ^ (LMS_BOTTOM T - l) - 2 →
      24 * (2 ^ (LMS_BOTTOM T + 1) - 2) ≤ buf.length →
      ((w + 2) * 2 ^ LMS_BOTTOM T ≤ 2 ^ LMS_H →
        bytesN 24 buffer = win_node T P I seed (w + 1) l (r / 2 ^ l) ∧
        qn = ((w + 1) * 2 ^ LMS_BOTTOM T + r + 2 ^ LMS_H) / 2 ^ l) →
      roll_inv T P I seed w r l buf →
      roll_inv T P I seed w (r + 1) 0 (sign_refresh P I (w % 2) fuel index qn buf buffer) ∧
      (sign_refresh P I (w % 2) fuel index qn buf buffer).length = buf.length := by
  obtain ⟨hBT, hB1, hA20, hHF⟩ := lms_level_facts T
  have hw2 : w % 2 < 2 := Nat.mod_lt _ (by norm_num)
  intro fuel
  induction fuel with
  | zero => intro l index qn buf buffer hl hf; omega
  | succ fuel ih =>
    intro l index qn buf buffer hl hf h1 hidx hlen hval hinv
    have he1 : 1 ≤ LMS_BOTTOM T - l := by omega
    have hjr : r / 2 ^ l < 2 ^ (LMS_BOTTOM T - l) :=
      node_lt _ l r _ (Nat.div_mul_le_self r (2 ^ l)) hr (by omega)
    have hk0 : (r / 2 ^ l ^^^ (w % 2)) ^^^ 1 < 2 ^ (LMS_BOTTOM T - l) :=
      xor_bit_lt _ 1 _ (by norm_num) he1 (xor_bit_lt _ _ _ hw2 he1 hjr)
    have hslot : (index ^^^ (w % 2)) ^^^ 1
        = ((r / 2 ^ l ^^^ (w % 2)) ^^^ 1) + 2 ^ (LMS_BOTTOM T - l) - 2 := by
      rw [hidx, slot_xor _ _ _ hw2 he1, slot_xor_one _ _ he1]
    have hb0 := (slot_lt (LMS_BOTTOM T) l _ hl hk0).2
    have hback : (((r / 2 ^ l ^^^ (w % 2)) ^^^ 1) ^^^ (w % 2)) ^^^ 1 = r / 2 ^ l := by
      rw [xor_bit_swap, xor_bit_cancel, xor_bit_cancel]
    have hinv1 : roll_inv T P I seed w r (l + 1)
        (memcpy buf (24 * ((index ^^^ (w % 2)) ^^^ 1)) buffer 24) := by
      rw [hslot]
      refine ⟨?_, fun hv => ?_⟩
      · apply sub_inv_store_out _ _ _ _ _ _ l _ hinv.1 hlen hl hk0
        intro h k _ _ ho
        refine ⟨fun hc => ho (lms_ok_succ r l h _ h1 (Or.inl hc)), ?_⟩
        rintro ⟨rfl, rfl⟩
        apply ho
        rw [hback]
        exact lms_ok_succ r h h _ h1 (Or.inr ⟨rfl, rfl⟩)
      · apply sub_inv_store _ _ _ _ _ _ l _ (hinv.2 hv) hlen hl hk0
        · show bytesN 24 buffer = win_node T P I seed (w + 1) l _
          rw [hback]
          exact (hval hv).1
        · intro h k _ _ ho
          rcases lms_ok_mid_step r l h _ h1 ho with c | ⟨c1, c2⟩
          · exact Or.inl c
          · exact Or.inr ⟨c1, xor_bit_solve _ _ _ c2⟩
    have hlen1 : (memcpy buf (24 * ((index ^^^ (w % 2)) ^^^ 1)) buffer 24).length = buf.length := by
      apply memcpy_length
      rw [hslot]
      omega
    have hpar : index % 2 = r / 2 ^ l % 2 := by rw [hidx]; exact slot_parity _ _ he1
    have hfin1 : sub_inv (LMS_BOTTOM T)
        (memcpy buf (24 * ((index ^^^ (w % 2)) ^^^ 1)) buffer 24)
        (fun h k => win_node T P I seed w h (k ^^^ (w % 2)))
        (fun h k => ¬ lms_ok (r + 1) 0 h ((k ^^^ (w % 2)) ^^^ 1)) :=
      sub_inv_weaken _ _ _ _ _ hinv1.1 (fun h k _ _ ho hc => ho (lms_ok_next r (l + 1) h _ hc))
    simp only [sign_refresh]
    by_cases hev : index % 2 = 0
    · rw [if_pos hev]
      refine ⟨⟨hfin1, fun hv => ?_⟩, hlen1⟩
      apply sub_inv_weaken _ _ _ _ _ (hinv1.2 hv)
      intro h k _ _ ho
      exact lms_ok_succ r l h _ h1 (lms_ok_end_step r l h _ h1 (by rw [← hpar]; exact hev) ho)
    · rw [if_neg hev]
      have hodd : r / 2 ^ l % 2 = 1 := by omega
      by_cases htop : index ≤ 1
      · rw [if_pos htop]
        refine ⟨⟨hfin1, fun hv => ?_⟩, hlen1⟩
        have hlB : l + 1 = LMS_BOTTOM T := by
          by_contra hc
          have : 2 ^ 2 ≤ 2 ^ (LMS_BOTTOM T - l) := Nat.pow_le_pow_right (by norm_num) (by omega)
          norm_num at this
          omega
        apply sub_inv_weaken _ _ _ _ _ (hinv1.2 hv)
        intro h k hh _ ho
        rcases ho with ho | ⟨c, _⟩
        · by_cases hle : (((k ^^^ (w % 2)) ^^^ 1) + 1) * 2 ^ h ≤ r
          · exact Or.inl hle
          · exact Or.inr ⟨by omega, by omega⟩
        · omega
      · rw [if_neg htop]
        have hl1 : l + 1 < LMS_BOTTOM T := by
          by_contra hc
          have hlB : LMS_BOTTOM T - l = 1 := by omega
          rw [hlB] at hidx hjr
          norm_num at hidx hjr
          omega
        obtain ⟨_, o2, o3⟩ := odd_level_facts r l h1 hodd
        have hdiv : r / 2 ^ (l + 1) = r / 2 ^ l / 2 := by
          rw [pow_succ, Nat.div_div_eq_div_mul]
        have hidx2 : index / 2 - 1 = r / 2 ^ (l + 1) + 2 ^ (LMS_BOTTOM T - (l + 1)) - 2 := by
          have e : LMS_BOTTOM T - l = LMS_BOTTOM T - (l + 1) + 1 := by omega
          rw [hidx, e, slot_half _ _ (by omega), hdiv]
        have hlslot : index ^^^ (w % 2)
            = (r / 2 ^ l ^^^ (w % 2)) + 2 ^ (LMS_BOTTOM T - l) - 2 := by
          rw [hidx, slot_xor _ _ _ hw2 he1]
        obtain ⟨r1, r2⟩ := ih (l + 1) (index / 2 - 1) (qn / 2)
          (memcpy buf (24 * ((index ^^^ (w % 2)) ^^^ 1)) buffer 24)
          (lms_combine_internal_nodes P
            (slice (memcpy buf (24 * ((index ^^^ (w % 2)) ^^^ 1)) buffer 24)
              (24 * (index ^^^ (w % 2))) 24) buffer I 24 (qn / 2))
          hl1 (by omega) (next_ones r l h1 hodd) hidx2 (by rw [hlen1]; exact hlen)
          (by
            intro hv
            obtain ⟨v1, v2⟩ := hval hv
            have hleft : slice (memcpy buf (24 * ((index ^^^ (w % 2)) ^^^ 1)) buffer 24)
                (24 * (index ^^^ (w % 2))) 24
                = win_node T P I seed (w + 1) l (r / 2 ^ l - 1) := by
              have e24 : 24 * (index ^^^ (w % 2))
                  = 24 * ((r / 2 ^ l ^^^ (w % 2)) + 2 ^ (LMS_BOTTOM T - l) - 2) := by
                rw [hlslot]
              rw [e24]
              have := hinv1.2 hv l (r / 2 ^ l ^^^ (w % 2)) hl (xor_bit_lt _ _ _ hw2 he1 hjr)
                (by
                  show lms_ok r (l + 1) l (((r / 2 ^ l ^^^ (w % 2)) ^^^ (w % 2)) ^^^ 1)
                  rw [xor_bit_cancel, xor_one_odd _ hodd]
                  exact Or.inl o2)
              rw [this]
              show win_node T P I seed (w + 1) l (((r / 2 ^ l ^^^ (w % 2)) ^^^ (w % 2)) ^^^ 1) = _
              rw [xor_bit_cancel, xor_one_odd _ hodd]
            have hc : ((w + 1) * 2 ^ LMS_BOTTOM T + r) / 2 ^ l
                = (w + 1) * 2 ^ (LMS_BOTTOM T - l) + r / 2 ^ l := win_div _ _ _ _ (by omega)
            have hc1 : ((w + 1) * 2 ^ LMS_BOTTOM T + r) / 2 ^ (l + 1)
                = (w + 1) * 2 ^ (LMS_BOTTOM T - (l + 1)) + r / 2 ^ (l + 1) :=
              win_div _ _ _ _ (by omega)
            have hpe : 2 ^ (LMS_BOTTOM T - l) = 2 * 2 ^ (LMS_BOTTOM T - (l + 1)) := by
              have e : LMS_BOTTOM T - l = LMS_BOTTOM T - (l + 1) + 1 := by omega
              rw [e, pow_succ]; ring
            have hup := lms_node_up T P I seed ((w + 1) * 2 ^ LMS_BOTTOM T + r) l
              (slice (memcpy buf (24 * ((index ^^^ (w % 2)) ^^^ 1)) buffer 24)
                (24 * (index ^^^ (w % 2))) 24) buffer
              (by simp only [LMS_H]; omega)
              (by
                rw [hc, hpe]
                generalize r / 2 ^ l = n at hodd
                generalize 2 ^ (LMS_BOTTOM T - (l + 1)) = p
                have : (w + 1) * (2 * p) = 2 * ((w + 1) * p) := by ring
                rw [this]
                omega)
              (by
                rw [hleft, hc]
                simp only [win_node]
                congr 1
                omega)
              (by rw [v1, hc]; rfl)
            refine ⟨?_, ?_⟩
            · rw [bytesN_of_length (lms_combine_length _ _ _ _ _ _)]
              rw [v2]
              have e := bytesN_of_length (lms_combine_length P
                (slice (memcpy buf (24 * ((index ^^^ (w % 2)) ^^^ 1)) buffer 24)
                  (24 * (index ^^^ (w % 2))) 24) buffer I 24
                (((w + 1) * 2 ^ LMS_BOTTOM T + r + 2 ^ LMS_H) / 2 ^ l / 2))
              rw [e] at hup
              rw [hup]
              simp only [win_node]
              rw [← hc1, pow_succ, Nat.div_div_eq_div_mul]
            · rw [v2, pow_succ, Nat.div_div_eq_div_mul])
          hinv1
        exact ⟨r1, r2.trans hlen1⟩
theorem succ_mod_two (w : Nat) : (w + 1) % 2 = (w % 2) ^^^ 1 := by
  rcases Nat.mod_two_eq_zero_or_one w with h | h
  · rw [h]; simp; omega
  · rw [h]; simp; omega

theorem roll_next_window (T : Tune) (P : Prims) (I seed : List Nat) (w : Nat) (buf : List Nat)
    (hv : (w + 2) * 2 ^ LMS_BOTTOM T ≤ 2 ^ LMS_H)
    (hinv : roll_inv T P I seed w (2 ^ LMS_BOTTOM T) 0 buf) :
    roll_inv T P I seed (w + 1) 0 0 buf := by
  have hw2 : w % 2 < 2 := Nat.mod_lt _ (by norm_num)
  refine ⟨?_, fun _ => ?_⟩
  · intro h k hh hk _
    have hk' : (k ^^^ (w % 2)) ^^^ 1 < 2 ^ (LMS_BOTTOM T - h) :=
      xor_bit_lt _ 1 _ (by norm_num) (by omega) (xor_bit_lt _ _ _ hw2 (by omega) hk)
    have := hinv.2 hv h k hh hk (Or.inl (in_sub_bound _ h _ hh hk'))
    rw [this]
    show win_node T P I seed (w + 1) h ((k ^^^ (w % 2)) ^^^ 1)
      = win_node T P I seed (w + 1) h (k ^^^ ((w + 1) % 2))
    rw [succ_mod_two, Nat.xor_assoc]
  · intro h k _ _ ho
    rcases ho with ho | ⟨c, _⟩
    · have : 0 < (((k ^^^ ((w + 1) % 2)) ^^^ 1) + 1) * 2 ^ h :=
        Nat.mul_pos (by omega) (Nat.pow_pos (by norm_num))
      omega
    · omega

theorem sign_refreshed_built (T : Tune) (P : Prims) (sg : sh_signer) (q : Nat)
    (hq : sg.current_lms_index = q) (hlt : q < 2 ^ LMS_ACTUAL T)
    (hlen : 24 * (2 ^ (LMS_BOTTOM T + 1) - 2) ≤ sg.current_lms_bottom_subtree.length)
    (hinv : roll_inv T P sg.current_lms_I sg.current_lms_seed (q / 2 ^ LMS_BOTTOM T)
      (q % 2 ^ LMS_BOTTOM T) 0 sg.current_lms_bottom_subtree) :
    roll_inv T P sg.current_lms_I sg.current_lms_seed (q / 2 ^ LMS_BOTTOM T)
      (q % 2 ^ LMS_BOTTOM T + 1) 0 (sign_refreshed T P sg) ∧
    (sign_refreshed T P sg).length = sg.current_lms_bottom_subtree.length := by
  obtain ⟨hBT, hB1, hA20, hHF⟩ := lms_level_facts T
  have hpB : 0 < 2 ^ LMS_BOTTOM T := Nat.pow_pos (by norm_num)
  have hr : q % 2 ^ LMS_BOTTOM T < 2 ^ LMS_BOTTOM T := Nat.mod_lt _ hpB
  have hA : 2 ^ LMS_ACTUAL T ≤ 2 ^ 20 := Nat.pow_le_pow_right (by norm_num) hA20
  have hBle : 2 ^ LMS_BOTTOM T ≤ 2 ^ 20 := Nat.pow_le_pow_right (by norm_num) (by omega)
  have h20 : (2 : Nat) ^ 20 = 1048576 := by norm_num
  have h32 : (2 : Nat) ^ 32 = 4294967296 := by norm_num
  have hleaf : (q + 2 ^ LMS_BOTTOM T) % 2 ^ 32 = q + 2 ^ LMS_BOTTOM T := by
    apply Nat.mod_eq_of_lt
    omega
  have hsplit : q + 2 ^ LMS_BOTTOM T
      = (q / 2 ^ LMS_BOTTOM T + 1) * 2 ^ LMS_BOTTOM T + q % 2 ^ LMS_BOTTOM T := by
    have := Nat.div_add_mod q (2 ^ LMS_BOTTOM T)
    rw [Nat.add_mul, Nat.one_mul, Nat.mul_comm]
    omega
  have hlm : (q + 2 ^ LMS_BOTTOM T) % 2 ^ LMS_BOTTOM T = q % 2 ^ LMS_BOTTOM T :=
    Nat.add_mod_right _ _
  have hidx : (q % 2 ^ LMS_BOTTOM T + 2 ^ LMS_BOTTOM T - 2) % 2 ^ 32
      = q % 2 ^ LMS_BOTTOM T + 2 ^ LMS_BOTTOM T - 2 := by
    apply Nat.mod_eq_of_lt
    omega
  simp only [sign_refreshed, hq, hleaf, hlm, hidx]
  apply sign_refresh_built T P sg.current_lms_I sg.current_lms_seed (q / 2 ^ LMS_BOTTOM T)
    (q % 2 ^ LMS_BOTTOM T) hr 32 0 _ _ _ _ (by omega) (by omega)
    (by rw [pow_zero, Nat.mod_one, Nat.sub_self]) (by rw [pow_zero, Nat.div_one, Nat.sub_zero])
    hlen _ hinv
  intro hv
  rw [pow_zero, Nat.div_one, Nat.div_one]
  have hlt20 : q + 2 ^ LMS_BOTTOM T < 2 ^ LMS_H := by
    rw [hsplit]
    have : (q / 2 ^ LMS_BOTTOM T + 2) * 2 ^ LMS_BOTTOM T
        = (q / 2 ^ LMS_BOTTOM T + 1) * 2 ^ LMS_BOTTOM T + 2 ^ LMS_BOTTOM T := by ring
    omega
  refine ⟨?_, ?_⟩
  · have e : win_node T P sg.current_lms_I sg.current_lms_seed (q / 2 ^ LMS_BOTTOM T + 1) 0
        (q % 2 ^ LMS_BOTTOM T)
        = lm_ots_generate_public_key T P sg.current_lms_I (q + 2 ^ LMS_BOTTOM T)
            sg.current_lms_seed := by
      simp only [win_node, lms_node, Nat.sub_zero]
      rw [hsplit]
    rw [e]
    apply bytesN_of_length
    rw [← e]
    exact lms_node_length T P _ _ 0 _
  · rw [or_two_pow_add _ _ hlt20, hsplit]

theorem lms_cur_refresh (T : Tune) (P : Prims) (q : Nat) (s : sh_signer)
    (hc : lms_cur T P q s) (hq : q + 1 < 2 ^ LMS_ACTUAL T) :
    lms_cur T P (q + 1) { s with
      current_lms_bottom_subtree := sign_refreshed T P s,
      current_lms_index := (s.current_lms_index + 1) % 2 ^ 32 } := by
  obtain ⟨c1, c2, c3, ct, c4, c5, c6, c7⟩ := hc
  obtain ⟨hBT, hB1, hA20, hHF⟩ := lms_level_facts T
  obtain ⟨r1, r2⟩ := sign_refreshed_built T P s q c1 c2 c3 c4
  have hpB : 0 < 2 ^ LMS_BOTTOM T := Nat.pow_pos (by norm_num)
  have hA : 2 ^ LMS_ACTUAL T ≤ 2 ^ 20 := Nat.pow_le_pow_right (by norm_num) hA20
  have h20 : (2 : Nat) ^ 20 = 1048576 := by norm_num
  have h32 : (2 : Nat) ^ 32 = 4294967296 := by norm_num
  have hr : q % 2 ^ LMS_BOTTOM T < 2 ^ LMS_BOTTOM T := Nat.mod_lt _ hpB
  have hdm := Nat.div_add_mod q (2 ^ LMS_BOTTOM T)
  refine ⟨?_, hq, by rw [← r2] at c3; exact c3, ct, ?_, c5, c6, c7⟩
  · show (s.current_lms_index + 1) % 2 ^ 32 = q + 1
    rw [c1]
    apply Nat.mod_eq_of_lt
    omega
  · show roll_inv T P s.current_lms_I s.current_lms_seed ((q + 1) / 2 ^ LMS_BOTTOM T)
      ((q + 1) % 2 ^ LMS_BOTTOM T) 0 (sign_refreshed T P s)
    by_cases hw : q % 2 ^ LMS_BOTTOM T + 1 < 2 ^ LMS_BOTTOM T
    · have e1 : (q + 1) / 2 ^ LMS_BOTTOM T = q / 2 ^ LMS_BOTTOM T := by
        rw [← hdm, Nat.add_assoc, Nat.mul_add_div hpB, Nat.div_eq_of_lt hw,
          Nat.mul_add_div hpB, Nat.div_eq_of_lt hr]
      have e2 : (q + 1) % 2 ^ LMS_BOTTOM T = q % 2 ^ LMS_BOTTOM T + 1 := by
        rw [Nat.add_mod, Nat.mod_eq_of_lt (a := 1) (by omega), Nat.mod_eq_of_lt hw]
      rw [e1, e2]
      exact r1
    · have hfull : q % 2 ^ LMS_BOTTOM T + 1 = 2 ^ LMS_BOTTOM T := by omega
      have hq1 : q + 1 = (q / 2 ^ LMS_BOTTOM T + 1) * 2 ^ LMS_BOTTOM T := by
        rw [Nat.add_mul, Nat.one_mul, Nat.mul_comm]
        omega
      have e1 : (q + 1) / 2 ^ LMS_BOTTOM T = q / 2 ^ LMS_BOTTOM T + 1 := by
        rw [hq1, Nat.mul_div_cancel _ hpB]
      have e2 : (q + 1) % 2 ^ LMS_BOTTOM T = 0 := by
        rw [hq1, Nat.mul_mod_left]
      rw [e1, e2]
      rw [hfull] at r1
      apply roll_next_window T P _ _ _ _ _ r1
      have hlt : (q / 2 ^ LMS_BOTTOM T + 1) * 2 ^ LMS_BOTTOM T < 2 ^ LMS_ACTUAL T := by
        rw [← hq1]; exact hq
      rw [← hBT, pow_add, Nat.mul_comm (2 ^ LMS_BOTTOM T)] at hlt hA
      have hw1 := Nat.lt_of_mul_lt_mul_right hlt
      have : (q / 2 ^ LMS_BOTTOM T + 2) * 2 ^ LMS_BOTTOM T
          ≤ 2 ^ LMS_TOP T * 2 ^ LMS_BOTTOM T := Nat.mul_le_mul_right _ (by omega)
      simp only [LMS_H]
      omega
theorem add_even_xor_one (a j : Nat) (ha : a % 2 = 0) : (a + j) ^^^ 1 = a + (j ^^^ 1) := by
  by_cases hj : j % 2 = 0
  · rw [xor_one_even j hj, xor_one_even _ (by omega)]
    omega
  · rw [xor_one_odd j (by omega), xor_one_odd _ (by omega)]
    omega

theorem pow_sub_even (a B h : Nat) (hh : h < B) : a * 2 ^ (B - h) % 2 = 0 := by
  obtain ⟨d, hd⟩ : ∃ d, B - h = d + 1 := ⟨B - h - 1, by omega⟩
  rw [hd, pow_succ, ← Nat.mul_assoc]
  exact Nat.mul_mod_left _ _

theorem lms_auth_path_length (T : Tune) (P : Prims) (I seed : List Nat) :
    ∀ cnt h j, (lms_auth_path T P I seed cnt h j).length = 24 * cnt := by
  intro cnt
  induction cnt with
  | zero => intro h j; rfl
  | succ cnt ih =>
    intro h j
    simp only [lms_auth_path, List.length_append, lms_node_length, ih]
    omega

theorem lms_auth_path_append (T : Tune) (P : Prims) (I seed : List Nat) :
    ∀ a b h j, lms_auth_path T P I seed (a + b) h j
      = lms_auth_path T P I seed a h j ++ lms_auth_path T P I seed b (h + a) (j / 2 ^ a) := by
  intro a
  induction a with
  | zero =>
    intro b h j
    simp only [Nat.zero_add, lms_auth_path, List.nil_append, Nat.add_zero, pow_zero, Nat.div_one]
  | succ a ih =>
    intro b h j
    have e : a + 1 + b = (a + b) + 1 := by omega
    rw [e]
    simp only [lms_auth_path, List.append_assoc]
    rw [ih b (h + 1) (j / 2)]
    have e2 : h + 1 + a = h + (a + 1) := by omega
    have e3 : j / 2 / 2 ^ a = j / 2 ^ (a + 1) := by
      rw [Nat.div_div_eq_div_mul, pow_succ, Nat.mul_comm]
    rw [e2, e3]

theorem lms_auth_path_slice (T : Tune) (P : Prims) (I seed : List Nat) :
    ∀ cnt h j i (tail : List Nat), i < cnt →
      slice (lms_auth_path T P I seed cnt h j ++ tail) (24 * i) 24
        = lms_node T P I seed (h + i) (j / 2 ^ i ^^^ 1) := by
  intro cnt
  induction cnt with
  | zero => intro h j i tail hi; omega
  | succ cnt ih =>
    intro h j i tail hi
    simp only [lms_auth_path, List.append_assoc]
    cases i with
    | zero =>
      rw [Nat.mul_zero, pow_zero, Nat.div_one, Nat.add_zero]
      exact slice_append_left _ _ _ (lms_node_length T P I seed h _)
    | succ i =>
      have e : 24 * (i + 1) = 24 + 24 * i := by omega
      rw [e, slice_append_skip _ _ _ _ _ (lms_node_length T P I seed h _),
        ih (h + 1) (j / 2) i tail (by omega)]
      have e2 : h + 1 + i = h + (i + 1) := by omega
      have e3 : j / 2 / 2 ^ i = j / 2 ^ (i + 1) := by
        rw [Nat.div_div_eq_div_mul, pow_succ, Nat.mul_comm]
      rw [e2, e3]

theorem bottom_path_read (T : Tune) (P : Prims) (I seed : List Nat) (w r : Nat)
    (hr : r < 2 ^ LMS_BOTTOM T) (buf : List Nat)
    (hinv : sub_inv (LMS_BOTTOM T) buf (fun h k => win_node T P I seed w h (k ^^^ (w % 2)))
      (fun h k => ¬ lms_ok r 0 h ((k ^^^ (w % 2)) ^^^ 1))) :
    ∀ cnt h, h + cnt ≤ LMS_BOTTOM T →
      sign_bottom_path buf (w % 2) cnt (r / 2 ^ h + 2 ^ (LMS_BOTTOM T - h) - 2)
        = lms_auth_path T P I seed cnt h ((w * 2 ^ LMS_BOTTOM T + r) / 2 ^ h) := by
  have hw2 : w % 2 < 2 := Nat.mod_lt _ (by norm_num)
  intro cnt
  induction cnt with
  | zero => intro h _; rfl
  | succ cnt ih =>
    intro h hh
    have hlt : h < LMS_BOTTOM T := by omega
    have he1 : 1 ≤ LMS_BOTTOM T - h := by omega
    have hjr : r / 2 ^ h < 2 ^ (LMS_BOTTOM T - h) :=
      node_lt _ h r _ (Nat.div_mul_le_self r (2 ^ h)) hr (by omega)
    have hk : (r / 2 ^ h ^^^ 1) ^^^ (w % 2) < 2 ^ (LMS_BOTTOM T - h) :=
      xor_bit_lt _ _ _ hw2 he1 (xor_bit_lt _ 1 _ (by norm_num) he1 hjr)
    simp only [sign_bottom_path, lms_auth_path]
    rw [slot_xor_one _ _ he1, slot_xor _ _ _ hw2 he1]
    have hval := hinv h _ hlt hk (by
      show ¬ lms_ok r 0 h ((((r / 2 ^ h ^^^ 1) ^^^ (w % 2)) ^^^ (w % 2)) ^^^ 1)
      rw [xor_bit_cancel, xor_bit_cancel]
      rintro (c | ⟨c, _⟩)
      · have := Nat.div_add_mod r (2 ^ h)
        have hm : r % 2 ^ h < 2 ^ h := Nat.mod_lt _ (Nat.pow_pos (by norm_num))
        rw [Nat.add_mul, Nat.one_mul, Nat.mul_comm] at c
        omega
      · omega)
    rw [hval]
    have hnode : win_node T P I seed w h (((r / 2 ^ h ^^^ 1) ^^^ (w % 2)) ^^^ (w % 2))
        = lms_node T P I seed h ((w * 2 ^ LMS_BOTTOM T + r) / 2 ^ h ^^^ 1) := by
      rw [xor_bit_cancel, win_div _ _ _ _ (by omega),
        add_even_xor_one _ _ (pow_sub_even w _ h hlt)]
      rfl
    show win_node T P I seed w h (((r / 2 ^ h ^^^ 1) ^^^ (w % 2)) ^^^ (w % 2)) ++ _ = _
    rw [hnode]
    congr 1
    cases cnt with
    | zero => rfl
    | succ c =>
      have e : LMS_BOTTOM T - h = LMS_BOTTOM T - (h + 1) + 1 := by omega
      have hdiv : r / 2 ^ h / 2 = r / 2 ^ (h + 1) := by
        rw [Nat.div_div_eq_div_mul, pow_succ]
      have hdiv2 : (w * 2 ^ LMS_BOTTOM T + r) / 2 ^ h / 2
          = (w * 2 ^ LMS_BOTTOM T + r) / 2 ^ (h + 1) := by
        rw [Nat.div_div_eq_div_mul, pow_succ]
      rw [e, slot_half _ _ (by omega), hdiv, hdiv2]
      exact ih (h + 1) (by omega)

theorem top_path_read (T : Tune) (P : Prims) (I seed : List Nat) (buf : List Nat)
    (hinv : sub_inv (LMS_TOP T) buf
      (fun h j => lms_node T P I seed (LMS_BOTTOM T + h) j) (fun _ _ => True)) :
    ∀ cnt h x, h + cnt ≤ LMS_TOP T → x < 2 ^ (LMS_TOP T - h) →
      sign_top_path buf cnt (x + 2 ^ (LMS_TOP T - h) - 2)
        = lms_auth_path T P I seed cnt (LMS_BOTTOM T + h) x := by
  intro cnt
  induction cnt with
  | zero => intro h x _ _; rfl
  | succ cnt ih =>
    intro h x hh hx
    have hlt : h < LMS_TOP T := by omega
    have he1 : 1 ≤ LMS_TOP T - h := by omega
    simp only [sign_top_path, lms_auth_path]
    rw [slot_xor_one _ _ he1]
    have hval := hinv h (x ^^^ 1) hlt (xor_bit_lt _ 1 _ (by norm_num) he1 hx) trivial
    rw [hval]
    show lms_node T P I seed (LMS_BOTTOM T + h) (x ^^^ 1) ++ _ = _
    congr 1
    cases cnt with
    | zero => rfl
    | succ c =>
      have e : LMS_TOP T - h = LMS_TOP T - (h + 1) + 1 := by omega
      have hx2 : x / 2 < 2 ^ (LMS_TOP T - (h + 1)) := by
        rw [e, pow_succ] at hx
        omega
      rw [e, slot_half _ _ (by omega)]
      exact ih (h + 1) (x / 2) (by omega) hx2

theorem verify_walk_auth (T : Tune) (P : Prims) (I seed : List Nat) :
    ∀ (cnt h j : Nat) (y buf : List Nat), h + cnt ≤ LMS_H → j < 2 ^ (LMS_H - h) →
      bytesN 24 buf = lms_node T P I seed h j →
      bytesN 24 (verify_lms_walk P I 24 cnt (2 ^ (LMS_H - h) + j)
          (lms_auth_path T P I seed cnt h j ++ y) buf)
        = lms_node T P I seed (h + cnt) (j / 2 ^ cnt) := by
  intro cnt
  induction cnt with
  | zero =>
    intro h j y buf _ _ hb
    simp only [verify_lms_walk, pow_zero, Nat.div_one, Nat.add_zero]
    exact hb
  | succ cnt ih =>
    intro h j y buf hh hj hb
    have hH : LMS_H = 20 := rfl
    have e : LMS_H - h = LMS_H - (h + 1) + 1 := by omega
    have hp : 1 ≤ 2 ^ (LMS_H - (h + 1)) := Nat.one_le_two_pow
    have hpe : 2 ^ (LMS_H - h) = 2 * 2 ^ (LMS_H - (h + 1)) := by rw [e, pow_succ]; ring
    have hgt : 2 ^ (LMS_H - h) + j > 1 := by omega
    have hhalf : (2 ^ (LMS_H - h) + j) / 2 = 2 ^ (LMS_H - (h + 1)) + j / 2 := by omega
    have hpar : (2 ^ (LMS_H - h) + j) % 2 = j % 2 := by omega
    have hj2 : j / 2 < 2 ^ (LMS_H - (h + 1)) := by omega
    have hsmall : (2 ^ (LMS_H - (h + 1)) + j / 2) % 2 ^ 32 = 2 ^ (LMS_H - (h + 1)) + j / 2 := by
      apply Nat.mod_eq_of_lt
      have : 2 ^ (LMS_H - (h + 1)) ≤ 2 ^ 20 := Nat.pow_le_pow_right (by norm_num) (by omega)
      norm_num at this ⊢
      omega
    have hy : bytesN 24 (lms_auth_path T P I seed (cnt + 1) h j ++ y)
        = lms_node T P I seed h (j ^^^ 1) := by
      simp only [lms_auth_path, List.append_assoc]
      exact bytesN_append_left _ _ _ (lms_node_length T P I seed h _)
    have hdrop : (lms_auth_path T P I seed (cnt + 1) h j ++ y).drop 24
        = lms_auth_path T P I seed cnt (h + 1) (j / 2) ++ y := by
      simp only [lms_auth_path, List.append_assoc]
      exact List.drop_left' (lms_node_length T P I seed h _)
    simp only [verify_lms_walk, hgt, if_true, hhalf, hpar, hdrop]
    have hnew : bytesN 24 (SHA256 P
        (if j % 2 ≠ 0 then
          intrBlock I (2 ^ (LMS_H - (h + 1)) + j / 2)
            (lms_auth_path T P I seed (cnt + 1) h j ++ y) buf 24
        else
          intrBlock I (2 ^ (LMS_H - (h + 1)) + j / 2) buf
            (lms_auth_path T P I seed (cnt + 1) h j ++ y) 24))
        = lms_node T P I seed (h + 1) (j / 2) := by
      simp only [lms_node, lms_combine_internal_nodes, hsmall]
      by_cases hodd : j % 2 = 1
      · have hne : j % 2 ≠ 0 := by omega
        rw [if_pos hne]
        simp only [intrBlock, hy, hb, xor_one_odd j hodd]
        have e1 : 2 * (j / 2) = j - 1 := by omega
        have e2 : 2 * (j / 2) + 1 = j := by omega
        rw [e2, e1, bytesN_of_length (lms_node_length T P I seed h _),
          bytesN_of_length (lms_node_length T P I seed h _)]
      · have hev : j % 2 = 0 := by omega
        have hne : ¬ (j % 2 ≠ 0) := by omega
        rw [if_neg hne]
        simp only [intrBlock, hy, hb, xor_one_even j hev]
        have e1 : 2 * (j / 2) = j := by omega
        rw [e1, bytesN_of_length (lms_node_length T P I seed h _),
          bytesN_of_length (lms_node_length T P I seed h _)]
    have := ih (h + 1) (j / 2) y _ (by omega) hj2 hnew
    rw [this]
    have e2 : h + 1 + cnt = h + (cnt + 1) := by omega
    have e3 : j / 2 / 2 ^ cnt = j / 2 ^ (cnt + 1) := by
      rw [Nat.div_div_eq_div_mul, pow_succ, Nat.mul_comm]
    rw [e2, e3]
theorem slice_memcpy_zero (d src : List Nat) (o k n : Nat) (h : o + k ≤ n) :
    slice (memcpy d 0 src n) o k = slice src o k := by
  simp only [slice, memcpy, blit, List.take_zero, List.nil_append, Nat.zero_add]
  rw [drop_append_ge _ _ o (by simp; omega),
    bytesN_append_ge _ _ k (by simp; omega), bytesN_drop_le src o n (by omega),
    bytesN_bytesN_le _ k (n - o) (by omega)]

theorem memcpy_zero_length (d src : List Nat) (n : Nat) : n ≤ (memcpy d 0 src n).length := by
  simp only [memcpy, blit, List.take_zero, List.nil_append, List.length_append, bytesN_length]
  omega

theorem lm_ots_chain_congr (P : Prims) (I I' : List Nat) (q i n : Nat)
    (hI : bytesN 16 I = bytesN 16 I') :
    ∀ cnt j prev, lm_ots_chain P I q i n cnt j prev = lm_ots_chain P I' q i n cnt j prev := by
  intro cnt
  induction cnt with
  | zero => intro j prev; rfl
  | succ cnt ih =>
    intro j prev
    simp only [lm_ots_chain, iterBlock, I_LEN, hI, ih]

theorem lm_ots_pk_tops_congr (T : Tune) (P : Prims) (I I' : List Nat) (q : Nat)
    (gen : private_key_generator) (n w : Nat) (hI : bytesN 16 I = bytesN 16 I') :
    ∀ cnt i, lm_ots_pk_tops T P I q gen n w cnt i = lm_ots_pk_tops T P I' q gen n w cnt i := by
  intro cnt
  induction cnt with
  | zero => intro i; rfl
  | succ cnt ih =>
    intro i
    simp only [lm_ots_pk_tops, lm_ots_chain_congr P I I' q i n hI, ih]

theorem seed_gen_congr (T : Tune) (P : Prims) (seed seed' : List Nat)
    (hs : bytesN 32 seed = bytesN 32 seed') :
    init_private_key_gen T P seed 32 [] 0 = init_private_key_gen T P seed' 32 [] 0 := by
  simp only [init_private_key_gen, ge_iff_le, le_refl, if_true, hs]

theorem lms_leaf_congr (T : Tune) (P : Prims) (I I' seed seed' : List Nat) (q : Nat)
    (hI : bytesN 16 I = bytesN 16 I') (hs : bytesN 32 seed = bytesN 32 seed') :
    lm_ots_generate_public_key T P I q seed = lm_ots_generate_public_key T P I' q seed' := by
  simp only [lm_ots_generate_public_key, pblcBlock, leafBlock, I_LEN, hI,
    seed_gen_congr T P seed seed' hs, lm_ots_pk_tops_congr T P I I' _ _ _ _ hI]

theorem combine_congr (P : Prims) (l r I I' : List Nat) (q : Nat)
    (hI : bytesN 16 I = bytesN 16 I') :
    lms_combine_internal_nodes P l r I 24 q = lms_combine_internal_nodes P l r I' 24 q := by
  simp only [lms_combine_internal_nodes, intrBlock, I_LEN, hI]

theorem lms_node_congr (T : Tune) (P : Prims) (I I' seed seed' : List Nat)
    (hI : bytesN 16 I = bytesN 16 I') (hs : bytesN 32 seed = bytesN 32 seed') :
    ∀ h j, lms_node T P I seed h j = lms_node T P I' seed' h j := by
  intro h
  induction h with
  | zero => intro j; exact lms_leaf_congr T P I I' seed seed' j hI hs
  | succ h ih =>
    intro j
    simp only [lms_node, ih, combine_congr P _ _ I I' _ hI]

theorem fake_walk_congr (T : Tune) (P : Prims) (nf nf' I I' : List Nat)
    (hI : bytesN 16 I = bytesN 16 I')
    (hnf : ∀ k, k < LMS_FAKE T → slice nf (k * 24) 24 = slice nf' (k * 24) 24) :
    ∀ h b b', h ≤ LMS_FAKE T → bytesN 24 b = bytesN 24 b' →
      bytesN 24 (fake_walk T P nf I h b) = bytesN 24 (fake_walk T P nf' I' h b') := by
  intro h
  induction h with
  | zero => intro b b' _ hb; exact hb
  | succ h ih =>
    intro b b' hh hb
    simp only [fake_walk]
    apply ih _ _ (by omega)
    rw [bytesN_memcpy_zero, bytesN_memcpy_zero, hnf _ (by omega),
      combine_bytesN P b, combine_bytesN P b', hb, combine_congr P _ _ I I' _ hI]

theorem lms_cur_of_done (T : Tune) (P : Prims) (s : sh_signer)
    (hf : s.got_fatal_error = false) (hb : s.build_state = b_done)
    (hd : lms_next_done T P s) :
    lms_cur T P 0 (step_next T P s).2 := by
  obtain ⟨d1, d2, d3, d4, d5, d6, d7, d8⟩ := hd
  have hI : bytesN 16 (memcpy s.current_lms_I 0 s.next_lms_I 16) = bytesN 16 s.next_lms_I :=
    bytesN_memcpy_zero _ _ _
  have hs : bytesN 32 (memcpy s.current_lms_seed 0 s.next_lms_seed 32)
      = bytesN 32 s.next_lms_seed := bytesN_memcpy_zero _ _ _
  have hn := lms_node_congr T P _ _ _ _ hI hs
  have hpB : 0 < 2 ^ LMS_BOTTOM T := Nat.pow_pos (by norm_num)
  simp only [step_next, hf, hb, Bool.false_eq_true, if_false]
  refine ⟨rfl, Nat.pow_pos (by norm_num), d1, d3, ?_, ?_, ?_, ?_⟩
  · show roll_inv T P (memcpy s.current_lms_I 0 s.next_lms_I 16)
      (memcpy s.current_lms_seed 0 s.next_lms_seed 32) (0 / 2 ^ LMS_BOTTOM T)
      (0 % 2 ^ LMS_BOTTOM T) 0 s.next_lms_bottom_subtree
    rw [Nat.zero_div, Nat.zero_mod]
    refine ⟨?_, fun _ => ?_⟩
    · intro h k hh hk _
      rw [d5 h k hh hk trivial]
      show _ = win_node T P _ _ 0 h (k ^^^ (0 % 2))
      simp only [win_node, Nat.zero_mod, Nat.xor_zero, Nat.zero_mul, Nat.zero_add]
      exact (hn h k).symm
    · intro h k _ _ ho
      rcases ho with ho | ⟨c, _⟩
      · have : 0 < (((k ^^^ (0 % 2)) ^^^ 1) + 1) * 2 ^ h :=
          Nat.mul_pos (by omega) (Nat.pow_pos (by norm_num))
        omega
      · omega
  · intro h j hh hj _
    show slice s.next_lms_top_subtree _ 24 = lms_node T P _ _ (LMS_BOTTOM T + h) j
    rw [d6 h j hh hj trivial]
    exact (hn _ _).symm
  · show LMS_FAKE T * 24 ≤ (if LMS_FAKE T ≠ 0 then
        memcpy s.current_fake 0 s.next_fake (24 * LMS_FAKE T) else s.current_fake).length
    by_cases hF : LMS_FAKE T = 0
    · rw [hF]; omega
    · rw [if_pos hF]
      have := memcpy_zero_length s.current_fake s.next_fake (24 * LMS_FAKE T)
      omega
  · show slice (memcpy s.current_lms_pub_key 0 s.next_lms_pub_key LEN_LMS_PUBLIC_KEY) 28 24
      = bytesN 24 (fake_walk T P
          (if LMS_FAKE T ≠ 0 then memcpy s.current_fake 0 s.next_fake (24 * LMS_FAKE T)
           else s.current_fake)
          (memcpy s.current_lms_I 0 s.next_lms_I 16) (LMS_FAKE T)
          (lms_node T P (memcpy s.current_lms_I 0 s.next_lms_I 16)
            (memcpy s.current_lms_seed 0 s.next_lms_seed 32) (LMS_ACTUAL T) 0))
    rw [slice_memcpy_zero _ _ 28 24 _ (by decide), d8]
    apply fake_walk_congr T P _ _ _ _ hI.symm _ _ _ _ (Nat.le_refl _)
    · rw [hn]
    · intro k hk
      have hF : LMS_FAKE T ≠ 0 := by omega
      rw [if_pos hF, slice_memcpy_zero _ _ _ _ _ (by omega)]
theorem fors_walk_view (P : Prims) (target : Nat) (cnt level node name : Nat) (s : sh_signer)
    (adr buffer : List Nat) :
    lms_next_view (fors_walk P target cnt level node name s adr buffer).1 = lms_next_view s := by
  have := congrArg lms_next_view (fors_walk_erase P target cnt level node name s adr buffer)
  exact this

theorem fors_loop_view (T : Tune) (P : Prims) (gen : private_key_generator) (target : Nat) :
    ∀ (cnt : Nat) (s : sh_signer) (adr : List Nat) (leaf : Nat) (buffer : List Nat),
      lms_next_view (fors_loop T P gen target cnt s adr leaf buffer).1 = lms_next_view s := by
  intro cnt
  induction cnt with
  | zero => intro s adr leaf buffer; rfl
  | succ k ih =>
    intro s adr leaf buffer
    simp only [fors_loop]
    generalize hw : fors_walk P target SPH_A 0 leaf _ _ _ _ = fw
    have hk : lms_next_view fw.1 = lms_next_view s := by
      rw [← hw]
      refine (fors_walk_view P target SPH_A 0 leaf
        ((leaf + s.do_fors_tree * 2 ^ SPH_A) % 2 ^ 32) _ _ _).trans ?_
      split <;> rfl
    split
    · split
      · split
        · exact hk
        · split
          · split
            · exact hk
            · exact hk
          · exact hk
      · exact hk
    · exact (ih fw.1 fw.2.1 ((leaf + 1) % 2 ^ 32) fw.2.2).trans hk

theorem step_hypertree_view (T : Tune) (P : Prims) (s : sh_signer) :
    lms_next_view (step_hypertree T P s).2 = lms_next_view s := by
  simp only [step_hypertree, failure_state]
  split_ifs <;> rfl

theorem step_next_view (T : Tune) (P : Prims) (s : sh_signer)
    (hb : s.build_state = b_fors ∨ s.build_state = b_complete_fors ∨
      s.build_state = b_hypertree) :
    lms_next_view (step_next T P s).2 = lms_next_view s := by
  by_cases hf : s.got_fatal_error = true
  · rw [step_next_fatal T P s hf]
  · have hf : s.got_fatal_error = false := by simpa using hf
    simp only [step_next, hf, failure_state, Bool.false_eq_true, if_false]
    rcases hb with hs | hs | hs <;> simp only [hs]
    · split_ifs <;> exact fors_loop_view T P _ _ _ _ _ _ _
    · split_ifs <;> rfl
    · exact step_hypertree_view T P s

theorem lms_next_done_view (T : Tune) (P : Prims) (x y : sh_signer)
    (h : lms_next_view x = lms_next_view y) (hd : lms_next_done T P y) :
    lms_next_done T P x := by
  have e1 : x.next_lms_I = y.next_lms_I := congrArg (fun v => v.1) h
  have e2 : x.next_lms_seed = y.next_lms_seed := congrArg (fun v => v.2.1) h
  have e3 : x.next_lms_bottom_subtree = y.next_lms_bottom_subtree :=
    congrArg (fun v => v.2.2.1) h
  have e4 : x.next_lms_top_subtree = y.next_lms_top_subtree := congrArg (fun v => v.2.2.2.1) h
  have e5 : x.next_lms_root = y.next_lms_root := congrArg (fun v => v.2.2.2.2.1) h
  have e6 : x.next_lms_pub_key = y.next_lms_pub_key := congrArg (fun v => v.2.2.2.2.2.1) h
  have e7 : x.next_fake = y.next_fake := congrArg (fun v => v.2.2.2.2.2.2.1) h
  have e8 : x.do_lms_stack = y.do_lms_stack := congrArg (fun v => v.2.2.2.2.2.2.2) h
  simp only [lms_next_done, e1, e2, e3, e4, e5, e6, e7, e8]
  exact hd

theorem late_phase (T : Tune) (x : sh_signer) (hI : build_inv T x)
    (hp : 2 ^ (LMS_ACTUAL T - 1) < build_pos T x) :
    x.build_state = b_fors ∨ x.build_state = b_complete_fors ∨ x.build_state = b_hypertree ∨
      x.build_state = b_done := by
  have h2 := hI.2
  have hA := LMS_ACTUAL_ge T
  have hp2 : 2 ^ LMS_ACTUAL T = 2 * 2 ^ (LMS_ACTUAL T - 1) := two_pow_pred (by omega)
  have hp0 : 0 < 2 ^ (LMS_ACTUAL T - 1) := Nat.pow_pos (by norm_num)
  cases hs : x.build_state <;> simp only [hs] at h2 <;> simp only [build_pos, hs] at hp
  · omega
  · omega
  · omega
  · exact Or.inl rfl
  · exact Or.inr (Or.inl rfl)
  · exact Or.inr (Or.inr (Or.inl rfl))
  · exact Or.inr (Or.inr (Or.inr rfl))

theorem build_prog_late (T : Tune) (P : Prims) (x : sh_signer)
    (h : x.build_state = b_fors ∨ x.build_state = b_complete_fors ∨
      x.build_state = b_hypertree ∨ x.build_state = b_done) :
    build_prog T P x ↔ (LMS_FAKE T * 24 ≤ x.next_fake.length ∧ lms_next_done T P x) := by
  rcases h with h | h | h | h <;> simp only [build_prog, h]

theorem fake_walk_length_ge (T : Tune) (P : Prims) (nf I : List Nat) :
    ∀ (h : Nat) (b : List Nat), b.length ≤ (fake_walk T P nf I h b).length := by
  intro h
  induction h with
  | zero => intro b; exact Nat.le_refl _
  | succ k ih =>
    intro b
    simp only [fake_walk]
    exact Nat.le_trans (memcpy_length_ge _ _ _ _) (ih _)

theorem read_drbg_length_ge (P : Prims) (buffer : List Nat) (n : Nat) (d : hmac_drbg) :
    buffer.length ≤ (read_drbg P buffer n d).2.1.length := by
  simp only [read_drbg]
  split
  · exact Nat.le_refl _
  · exact memcpy_length_ge _ _ _ _

theorem lms_mid_done (T : Tune) (P : Prims) (s : sh_signer)
    (hfk : LMS_FAKE T * 24 ≤ s.next_fake.length)
    (hm : lms_mid T P s.next_lms_I s.next_lms_seed (2 ^ LMS_ACTUAL T) 0 s) :
    LMS_FAKE T * 24 ≤ (step_lms_finished T P s).next_fake.length ∧
    lms_next_done T P (step_lms_finished T P s) := by
  obtain ⟨hBT, hB1, hA20, hHF⟩ := lms_level_facts T
  obtain ⟨_, _, m3, m4, m5, m6, m7, _, m9, m10⟩ := hm
  have hroot := m10 rfl
  have hroot' : bytesN 24 s.next_lms_root
      = bytesN 24 (lms_node T P s.next_lms_I s.next_lms_seed (LMS_ACTUAL T) 0) := by
    rw [bytesN_of_length (lms_node_length _ _ _ _ _ _), ← hroot]
    simp only [slice, List.drop_zero]
  have hbot : sub_inv (LMS_BOTTOM T) s.next_lms_bottom_subtree
      (lms_node T P s.next_lms_I s.next_lms_seed) (fun _ _ => True) := by
    intro h j hh hj _
    apply m7 h j hh hj
    left
    have := in_sub_bound _ h j hh hj
    have : 2 ^ LMS_BOTTOM T ≤ 2 ^ LMS_ACTUAL T := Nat.pow_le_pow_right (by norm_num) (by omega)
    omega
  have htop : sub_inv (LMS_TOP T) s.next_lms_top_subtree
      (fun h j => lms_node T P s.next_lms_I s.next_lms_seed (LMS_BOTTOM T + h) j)
      (fun _ _ => True) := by
    intro h j hh hj _
    apply m9 h j hh hj
    left
    have hj' : j < 2 ^ (LMS_ACTUAL T - (LMS_BOTTOM T + h)) := by
      have e : LMS_ACTUAL T - (LMS_BOTTOM T + h) = LMS_TOP T - h := by omega
      rw [e]; exact hj
    exact in_sub_bound _ (LMS_BOTTOM T + h) j (by omega) hj'
  have hpub : ∀ (pub I root : List Nat) (id : Nat),
      slice (memcpy (memcpy (memcpy (memcpy (memcpy pub 0 (put_bigendian 1 4) 4) 4
        (put_bigendian 0xe0000028 4) 4) 8 (put_bigendian id 4) 4) 12 I 16) (12 + 16) root 24)
        28 24 = bytesN 24 root := by
    intro pub I root id
    apply slice_memcpy_same
    simp only [memcpy, blit, List.length_append, List.length_take, List.length_drop,
      bytesN_length]
    omega
  by_cases hF : LMS_FAKE T = 0
  · have hk : (step_lms_finished T P s).next_lms_seed = s.next_lms_seed
        ∧ (step_lms_finished T P s).next_lms_bottom_subtree = s.next_lms_bottom_subtree
        ∧ (step_lms_finished T P s).next_lms_top_subtree = s.next_lms_top_subtree
        ∧ (step_lms_finished T P s).do_lms_stack = s.do_lms_stack
        ∧ (step_lms_finished T P s).next_lms_I = s.next_lms_I
        ∧ (step_lms_finished T P s).next_fake = s.next_fake
        ∧ (step_lms_finished T P s).next_lms_root = s.next_lms_root
        ∧ (step_lms_finished T P s).next_lms_pub_key
          = memcpy (memcpy (memcpy (memcpy (memcpy s.next_lms_pub_key 0 (put_bigendian 1 4) 4) 4
              (put_bigendian 0xe0000028 4) 4) 8 (put_bigendian (LM_OTS_PARAM_ID T) 4) 4) 12
              s.next_lms_I 16) (12 + 16) s.next_lms_root 24 := by
      simp only [step_lms_finished, hF, ne_eq, not_true_eq_false, if_false, and_self]
    obtain ⟨k1, k2, k3, k4, k5, k6, k7, k8⟩ := hk
    simp only [lms_next_done, k1, k2, k3, k4, k5, k6, k7, k8]
    refine ⟨hfk, m3, m4, m5, m6, hbot, htop, hfk, ?_⟩
    rw [hpub, hroot']
    congr 1
    rw [hF]
    rfl
  · obtain ⟨f1, f2, f3, f4⟩ := step_lms_finished_pub T P s hF
    have hk : (step_lms_finished T P s).next_lms_seed = s.next_lms_seed
        ∧ (step_lms_finished T P s).next_lms_bottom_subtree = s.next_lms_bottom_subtree
        ∧ (step_lms_finished T P s).next_lms_top_subtree = s.next_lms_top_subtree
        ∧ (step_lms_finished T P s).do_lms_stack = s.do_lms_stack := by
      simp only [step_lms_finished, hF, ne_eq, not_false_eq_true, if_true, and_self]
    obtain ⟨k1, k2, k3, k4⟩ := hk
    have hfl : LMS_FAKE T * 24 ≤ (step_lms_finished T P s).next_fake.length := by
      rw [f1]
      exact Nat.le_trans hfk (read_drbg_length_ge _ _ _ _)
    simp only [lms_next_done, k1, k2, k3, k4, f2]
    refine ⟨hfl, m3, m4, m5, ?_, hbot, htop, hfl, ?_⟩
    · rw [f3]
      exact Nat.le_trans m6 (fake_walk_length_ge _ _ _ _ _ _)
    · rw [f4, f1, hpub]
      exact fake_walk_congr T P _ _ _ _ rfl (fun _ _ => rfl) _ _ _ (Nat.le_refl _) hroot'
theorem build_prog_lms (T : Tune) (P : Prims) (S : sh_signer) (c : Nat)
    (hf : S.got_fatal_error = false) (hb : S.build_state = b_do_lms)
    (hleaf : S.do_lms_leaf = c) (hev : c % 2 = 0) (hlt : c + 2 ≤ 2 ^ LMS_ACTUAL T)
    (hfk : LMS_FAKE T * 24 ≤ S.next_fake.length)
    (hm : lms_mid T P S.next_lms_I S.next_lms_seed c 0 S) :
    build_prog T P (do_lms_loop T P LMS_LEAF_PER_ITER S) := by
  obtain ⟨a1, a2, a3, a4⟩ := do_lms_step_built T P _ _ S c hf hb hleaf hev hlt hm
  have hspec := do_lms_loop_spec T P S (by rw [hleaf]; exact hev) (by rw [hleaf]; exact hlt)
  have hfake : (do_lms_loop T P LMS_LEAF_PER_ITER S).next_fake = S.next_fake := by
    have := congrArg sh_signer.next_fake hspec
    exact this
  have hI := a4.1
  have hs := a4.2.1
  refine ⟨by rw [hfake]; exact hfk, ?_⟩
  by_cases hfin : c + 2 = 2 ^ LMS_ACTUAL T
  · rw [if_pos hfin] at a3
    simp only [a3]
    rw [hI, hs, a2]
    exact ⟨hfin, a4⟩
  · rw [if_neg hfin] at a3
    simp only [a3]
    rw [hI, hs, a2]
    exact a4

theorem build_prog_step (T : Tune) (P : Prims) (s : sh_signer) (hF : T.FAULT_STRATEGY = 0)
    (hI : build_inv T s) (hb : s.build_state ≠ b_done)
    (hd : s.build_state = b_init → s.drbg.reseed_counter + 1 < 2 ^ 48)
    (hp : build_prog T P s) :
    build_prog T P (step_next T P s).2 := by
  have hf : s.got_fatal_error = false := hI.1
  have hA := LMS_ACTUAL_ge T
  have hp2 : 2 ^ LMS_ACTUAL T = 2 * 2 ^ (LMS_ACTUAL T - 1) := two_pow_pred (by omega)
  have h12 : 2 ^ 12 ≤ 2 ^ (LMS_ACTUAL T - 1) := Nat.pow_le_pow_right (by norm_num) (by omega)
  obtain ⟨q1, q2, q3⟩ := step_progress T P s hF hI hb hd
  have late : ∀ x : sh_signer, build_inv T x → 2 ^ (LMS_ACTUAL T - 1) < build_pos T x →
      lms_next_view x = lms_next_view s → x.next_fake = s.next_fake →
      lms_next_done T P s → LMS_FAKE T * 24 ≤ s.next_fake.length → build_prog T P x := by
    intro x hx hpx hv hfk hdn hfl
    rw [build_prog_late T P x (late_phase T x hx hpx)]
    exact ⟨by rw [hfk]; exact hfl, lms_next_done_view T P x s hv hdn⟩
  cases hs : s.build_state with
  | b_init =>
    obtain ⟨hfk, hp'⟩ := hp
    simp only [hs] at hp'
    obtain ⟨lb, ls, lt, lr⟩ := hp'
    obtain ⟨r1, r1c⟩ := read_drbg_ok P s.next_lms_seed 32 s.drbg (by have := hd hs; omega)
    obtain ⟨r2, _⟩ := read_drbg_ok P s.next_lms_I 16 (read_drbg P s.next_lms_seed 32 s.drbg).2.2
      (by have := hd hs; omega)
    simp only [step_next, hf, hs, r1, r2, Bool.false_eq_true, if_false, not_true_eq_false]
    exact build_prog_lms T P _ 0 rfl rfl rfl (by norm_num) (by omega) hfk
      (lms_mid_zero T P _ lb ls lt lr)
  | b_do_lms =>
    obtain ⟨hfk, hp'⟩ := hp
    simp only [hs] at hp'
    have h2 := hI.2
    simp only [hs] at h2
    simp only [step_next, hf, hs, Bool.false_eq_true, if_false]
    exact build_prog_lms T P s s.do_lms_leaf hf hs rfl h2.1 h2.2.2 hfk hp'
  | b_lms_finished =>
    obtain ⟨hfk, hp'⟩ := hp
    simp only [hs] at hp'
    obtain ⟨hl, hm⟩ := hp'
    rw [hl] at hm
    rw [step_next_lms_finished T P s hf hs]
    obtain ⟨d1, d2⟩ := lms_mid_done T P s hfk hm
    rw [build_prog_late T P _ (Or.inl (step_lms_finished_state T P s))]
    exact ⟨d1, d2⟩
  | b_fors =>
    have hv := step_next_view T P s (Or.inl hs)
    obtain ⟨hfk, hdn⟩ := (build_prog_late T P s (Or.inl hs)).mp hp
    have hps : 2 ^ (LMS_ACTUAL T - 1) < build_pos T s := by
      simp only [build_pos, hs]
      generalize s.do_fors_tree * fors_steps T = X
      generalize s.do_fors_leaf / FORS_LEAFS_PER_ITER T = Y
      omega
    exact late _ q2 (by omega) hv (congrArg (fun v => v.2.2.2.2.2.2.1) hv) hdn hfk
  | b_complete_fors =>
    have hv := step_next_view T P s (Or.inr (Or.inl hs))
    obtain ⟨hfk, hdn⟩ := (build_prog_late T P s (Or.inr (Or.inl hs))).mp hp
    have hps : 2 ^ (LMS_ACTUAL T - 1) < build_pos T s := by
      simp only [build_pos, hs]; omega
    exact late _ q2 (by omega) hv (congrArg (fun v => v.2.2.2.2.2.2.1) hv) hdn hfk
  | b_hypertree =>
    have hv := step_next_view T P s (Or.inr (Or.inr hs))
    obtain ⟨hfk, hdn⟩ := (build_prog_late T P s (Or.inr (Or.inr (Or.inl hs)))).mp hp
    have hps : 2 ^ (LMS_ACTUAL T - 1) < build_pos T s := by
      simp only [build_pos, hs]; omega
    exact late _ q2 (by omega) hv (congrArg (fun v => v.2.2.2.2.2.2.1) hv) hdn hfk
  | b_done => exact absurd hs hb
  | b_count =>
    have h2 := hI.2
    simp only [hs] at h2

theorem build_prog_done (T : Tune) (P : Prims) (s : sh_signer)
    (hf : s.got_fatal_error = false) (hb : s.build_state = b_done)
    (hcb : 24 * (2 ^ (LMS_BOTTOM T + 1) - 2) ≤ s.current_lms_bottom_subtree.length)
    (hct : 24 * (2 ^ (LMS_TOP T + 1) - 2) ≤ s.current_lms_top_subtree.length)
    (hp : build_prog T P s) :
    build_prog T P (step_next T P s).2 ∧ lms_cur T P 0 (step_next T P s).2 := by
  obtain ⟨hfk, hdn⟩ := (build_prog_late T P s (Or.inr (Or.inr (Or.inr hb)))).mp hp
  refine ⟨?_, lms_cur_of_done T P s hf hb hdn⟩
  obtain ⟨d1, d2, d3, d4, _⟩ := hdn
  simp only [step_next, hf, hb, Bool.false_eq_true, if_false]
  exact ⟨hfk, hcb, d2, hct, d4⟩

theorem build_prog_current (T : Tune) (P : Prims) (s : sh_signer) (b : List Nat) (i : Nat)
    (hp : build_prog T P s) :
    build_prog T P { s with current_lms_bottom_subtree := b, current_lms_index := i } := by
  obtain ⟨h1, h2⟩ := hp
  refine ⟨h1, ?_⟩
  cases hs : s.build_state <;> simp only [hs] at h2 ⊢ <;> exact h2
theorem lms_cur_kept (T : Tune) (P : Prims) (q : Nat) (x y : sh_signer)
    (h : kept x = kept y) (hc : lms_cur T P q y) : lms_cur T P q x := by
  have e1 : x.current_lms_index = y.current_lms_index := congrArg (fun v => v.1.1) h
  have e2 : x.current_lms_seed = y.current_lms_seed := congrArg (fun v => v.1.2.1) h
  have e3 : x.current_lms_I = y.current_lms_I := congrArg (fun v => v.1.2.2.1) h
  have e4 : x.current_lms_pub_key = y.current_lms_pub_key := congrArg (fun v => v.1.2.2.2.1) h
  have e5 : x.current_fake = y.current_fake := congrArg (fun v => v.1.2.2.2.2.1) h
  have e6 : x.current_lms_top_subtree = y.current_lms_top_subtree :=
    congrArg (fun v => v.1.2.2.2.2.2.1) h
  have e7 : x.current_lms_bottom_subtree = y.current_lms_bottom_subtree :=
    congrArg (fun v => v.1.2.2.2.2.2.2.1) h
  simp only [lms_cur, e1, e2, e3, e4, e5, e6, e7]
  exact hc

theorem sign_advance_fatal (T : Tune) (P : Prims) (s : sh_signer)
    (h : s.got_fatal_error = true) : (sign_advance T P s).got_fatal_error = true := by
  rw [sign_advance_eq, step_next_fatal T P _ (by exact h)]
  exact h

theorem sign_inv_step (T : Tune) (P : Prims) (s : sh_signer) (hF : T.FAULT_STRATEGY = 0)
    (hi : sign_inv T P s) (hnf : (sign_advance T P s).got_fatal_error = false) :
    sign_inv T P (sign_advance T P s) := by
  obtain ⟨i1, i2, i3, i4, i5⟩ := hi
  obtain ⟨hI, hidx⟩ := i3.2 i2
  obtain ⟨a1, a2, a3, a4, _⟩ := sign_advance_inv T P s hF i2 i3
  obtain ⟨hN1, hN2, hN3⟩ := build_steps_le T hF
  obtain ⟨hp1, hp2⟩ := build_pos_done T s hF hI
  obtain ⟨c1, c2, c3, ct, c4, c5, c6, c7⟩ := i4
  obtain ⟨r1, r2⟩ := sign_refreshed_built T P s s.current_lms_index rfl c2 c3 c4
  obtain ⟨sm, hsm⟩ : ∃ sm : sh_signer, sm = { s with
      current_lms_bottom_subtree := sign_refreshed T P s,
      current_lms_index := (s.current_lms_index + 1) % 2 ^ 32 } := ⟨_, rfl⟩
  have e0 : sign_advance T P s = (step_next T P sm).2 := by rw [hsm]; rfl
  have e1 : sm.got_fatal_error = false := by rw [hsm]; exact i2
  have e2 : sm.build_state = s.build_state := by rw [hsm]
  have e3 : build_inv T sm := by rw [hsm]; exact hI
  have e4 : sm.drbg = s.drbg := by rw [hsm]
  have e5 : 24 * (2 ^ (LMS_BOTTOM T + 1) - 2) ≤ sm.current_lms_bottom_subtree.length := by
    rw [hsm]
    show _ ≤ (sign_refreshed T P s).length
    rw [r2]; exact c3
  have e6 : 24 * (2 ^ (LMS_TOP T + 1) - 2) ≤ sm.current_lms_top_subtree.length := by
    rw [hsm]; exact ct
  have hprog : build_prog T P sm := by
    rw [hsm]
    exact build_prog_current T P s _ _ i5
  refine ⟨a2.trans i1, hnf, a1, ?_, ?_⟩
  · by_cases hb : s.build_state = b_done
    · rw [(a4 hb).1, e0]
      exact (build_prog_done T P sm e1 (e2.trans hb) e5 e6 hprog).2
    · rw [(a3 hb).1]
      have hlt : s.current_lms_index + 1 < 2 ^ LMS_ACTUAL T := by
        rcases Nat.lt_or_ge (build_pos T s + 1) (build_steps T) with h | h
        · omega
        · exact absurd (hp2.mp (by omega)) hb
      have hc : lms_cur T P (s.current_lms_index + 1) sm := by
        rw [hsm]
        exact lms_cur_refresh T P s.current_lms_index s ⟨c1, c2, c3, ct, c4, c5, c6, c7⟩ hlt
      rw [e0]
      exact lms_cur_kept T P _ _ _ (step_next_kept T P sm (by rw [e2]; exact hb)) hc
  · rw [e0]
    by_cases hb : s.build_state = b_done
    · exact (build_prog_done T P sm e1 (e2.trans hb) e5 e6 hprog).1
    · apply build_prog_step T P sm hF e3 (by rw [e2]; exact hb) _ hprog
      intro hinit
      by_contra hc
      have hfail := (step_init_fail T P sm e1 hinit (by omega)).2
      rw [e0, hfail] at hnf
      exact Bool.noConfusion hnf

theorem sign_run_inv (T : Tune) (P : Prims) (s0 : sh_signer) (hF : T.FAULT_STRATEGY = 0)
    (h0 : sign_inv T P s0) :
    ∀ k, (sign_run T P k s0).got_fatal_error = false → sign_inv T P (sign_run T P k s0) := by
  intro k
  induction k with
  | zero => intro _; exact h0
  | succ k ih =>
    intro hk
    rw [sign_run_succ] at hk ⊢
    have hprev : (sign_run T P k s0).got_fatal_error = false := by
      cases hc : (sign_run T P k s0).got_fatal_error with
      | false => rfl
      | true =>
        rw [sign_advance_fatal T P _ hc] at hk
        exact Bool.noConfusion hk
    exact sign_inv_step T P _ hF (ih hprev) hk

theorem run_build_prog (T : Tune) (P : Prims) (s : sh_signer) (hF : T.FAULT_STRATEGY = 0)
    (hf : s.got_fatal_error = false) (hb : s.build_state = b_init)
    (hd : s.drbg.reseed_counter + 1 < 2 ^ 48) (hp : build_prog T P s) :
    ∀ k, k + 1 ≤ build_steps T → build_prog T P (run T P k s) := by
  have hI : build_inv T s := by simp only [build_inv, hf, hb, and_self]
  have hp0 := build_pos_init T s hI hb
  intro k
  induction k with
  | zero => intro _; exact hp
  | succ k ih =>
    intro hk
    obtain ⟨i1, i2, _, _⟩ := run_cycle T P s hF hI (fun _ => hd) k (by omega)
    have hnd : (run T P k s).build_state ≠ b_done := by
      intro h
      have := (build_pos_done T _ hF i1).2.mpr h
      omega
    rw [run_succ]
    apply build_prog_step T P _ hF i1 hnd _ (ih (by omega))
    intro hinit
    have hk0 : k = 0 := by
      have := build_pos_init T _ i1 hinit
      omega
    subst hk0
    exact hd

theorem load_sign_inv (T : Tune) (P : Prims) (fuel : Nat) (m : sh_signer)
    (sk_buffer : List Nat) (do_rand : Nat → Option (List Nat)) (s0 : sh_signer)
    (hF : T.FAULT_STRATEGY = 0) (hfuel : build_steps T ≤ fuel)
    (lb : 24 * (2 ^ (LMS_BOTTOM T + 1) - 2) ≤ m.next_lms_bottom_subtree.length)
    (ls : 24 * LMS_BOTTOM T ≤ m.do_lms_stack.length)
    (lt : 24 * (2 ^ (LMS_TOP T + 1) - 2) ≤ m.next_lms_top_subtree.length)
    (lr : 24 ≤ m.next_lms_root.length)
    (lf : LMS_FAKE T * 24 ≤ m.next_fake.length)
    (cb : 24 * (2 ^ (LMS_BOTTOM T + 1) - 2) ≤ m.current_lms_bottom_subtree.length)
    (ct : 24 * (2 ^ (LMS_TOP T + 1) - 2) ≤ m.current_lms_top_subtree.length)
    (h : sh_load_signer T P fuel (some m) sk_buffer do_rand = some (some s0)) :
    sign_inv T P s0 := by
  have hfresh := loaded_fresh T P fuel (some m) sk_buffer do_rand s0 hF hfuel h
  cases hsd : seed_drbg P m.drbg do_rand with
  | none =>
    simp only [sh_load_signer, hsd] at h
    exact Option.noConfusion (Option.some.inj h)
  | some d =>
    have hc := seed_drbg_counter P m.drbg d do_rand hsd
    by_cases hn : hash_len (sk_buffer.getD 3 0 % 256) = 0
    · simp only [sh_load_signer, hsd, hn, if_true] at h
      exact Option.noConfusion (Option.some.inj h)
    · rw [sh_load_signer_eq T P fuel m sk_buffer do_rand d hsd hn] at h
      have hd : (load_state m d sk_buffer).drbg.reseed_counter + 1 < 2 ^ 48 := by
        show d.reseed_counter + 1 < 2 ^ 48
        rw [hc]; norm_num
      obtain ⟨l1, l2, l3, l4⟩ := load_loop_cycle T P fuel (load_state m d sk_buffer) hF hfuel
        rfl rfl hd
      rw [l1] at h
      have hs : { (step_next T P (run T P (build_steps T - 1) (load_state m d sk_buffer))).2 with
          initialized := true } = s0 := Option.some.inj (Option.some.inj h)
      have hN : 1 ≤ build_steps T := Nat.le_add_left 1 _
      have hprog := run_build_prog T P (load_state m d sk_buffer) hF rfl rfl hd
        ⟨lf, lb, ls, lt, lr⟩ (build_steps T - 1) (by omega)
      have hcb : 24 * (2 ^ (LMS_BOTTOM T + 1) - 2)
          ≤ (run T P (build_steps T - 1) (load_state m d sk_buffer)).current_lms_bottom_subtree.length
          := by
        have e : (run T P (build_steps T - 1)
            (load_state m d sk_buffer)).current_lms_bottom_subtree
            = m.current_lms_bottom_subtree := congrArg (fun v => v.1.2.2.2.2.2.2.1) l4
        rw [e]; exact cb
      have hct : 24 * (2 ^ (LMS_TOP T + 1) - 2)
          ≤ (run T P (build_steps T - 1) (load_state m d sk_buffer)).current_lms_top_subtree.length
          := by
        have e : (run T P (build_steps T - 1)
            (load_state m d sk_buffer)).current_lms_top_subtree
            = m.current_lms_top_subtree := congrArg (fun v => v.1.2.2.2.2.2.1) l4
        rw [e]; exact ct
      obtain ⟨b1, b2⟩ := build_prog_done T P _ l3 l2 hcb hct hprog
      obtain ⟨f1, f2, f3, f4, f5⟩ := hfresh
      refine ⟨f1, f2, fresh_cycle_inv T s0 ⟨f1, f2, f3, f4, f5⟩, ?_, ?_⟩
      · rw [f4, ← hs]
        exact b2
      · rw [← hs]
        obtain ⟨g1, g2⟩ := b1
        refine ⟨g1, ?_⟩
        have hbs : (step_next T P (run T P (build_steps T - 1)
            (load_state m d sk_buffer))).2.build_state = b_init :=
          (step_next_done T P _ l3 l2).2.1
        simp only [hbs] at g2 ⊢
        exact g2
theorem bottom_slot_ready (T : Tune) (P : Prims) (I seed : List Nat) (w r r' h : Nat)
    (buf : List Nat) (hr : r ≤ r') (hr' : r' < 2 ^ LMS_BOTTOM T) (hh : h < LMS_BOTTOM T)
    (hinv : sub_inv (LMS_BOTTOM T) buf (fun h k => win_node T P I seed w h (k ^^^ (w % 2)))
      (fun h k => ¬ lms_ok r 0 h ((k ^^^ (w % 2)) ^^^ 1))) :
    slice buf (24 * (((r' / 2 ^ h + 2 ^ (LMS_BOTTOM T - h) - 2) ^^^ 1) ^^^ (w % 2))) 24
      = lms_node T P I seed h ((w * 2 ^ LMS_BOTTOM T + r') / 2 ^ h ^^^ 1) := by
  have hw2 : w % 2 < 2 := Nat.mod_lt _ (by norm_num)
  have he1 : 1 ≤ LMS_BOTTOM T - h := by omega
  have hjr : r' / 2 ^ h < 2 ^ (LMS_BOTTOM T - h) :=
    node_lt _ h r' _ (Nat.div_mul_le_self r' (2 ^ h)) hr' (by omega)
  have hk : (r' / 2 ^ h ^^^ 1) ^^^ (w % 2) < 2 ^ (LMS_BOTTOM T - h) :=
    xor_bit_lt _ _ _ hw2 he1 (xor_bit_lt _ 1 _ (by norm_num) he1 hjr)
  rw [slot_xor_one _ _ he1, slot_xor _ _ _ hw2 he1]
  have hval := hinv h _ hh hk (by
    show ¬ lms_ok r 0 h ((((r' / 2 ^ h ^^^ 1) ^^^ (w % 2)) ^^^ (w % 2)) ^^^ 1)
    rw [xor_bit_cancel, xor_bit_cancel]
    rintro (c | ⟨c, _⟩)
    · have := Nat.div_add_mod r' (2 ^ h)
      have hm : r' % 2 ^ h < 2 ^ h := Nat.mod_lt _ (Nat.pow_pos (by norm_num))
      rw [Nat.add_mul, Nat.one_mul, Nat.mul_comm] at c
      omega
    · omega)
  rw [hval]
  show win_node T P I seed w h (((r' / 2 ^ h ^^^ 1) ^^^ (w % 2)) ^^^ (w % 2)) = _
  rw [xor_bit_cancel, win_div _ _ _ _ (by omega),
    add_even_xor_one _ _ (pow_sub_even w _ h hh)]
  rfl

theorem lms_path_emitted (T : Tune) (P : Prims) (q : Nat) (s : sh_signer)
    (hc : lms_cur T P q s) :
    sign_bottom_path s.current_lms_bottom_subtree ((s.current_lms_index / 2 ^ LMS_BOTTOM T) % 2)
        (LMS_BOTTOM T) (s.current_lms_index % 2 ^ LMS_BOTTOM T + 2 ^ LMS_BOTTOM T - 2) ++
      sign_top_path s.current_lms_top_subtree (LMS_TOP T)
        (s.current_lms_index / 2 ^ LMS_BOTTOM T + 2 ^ LMS_TOP T - 2)
      = lms_auth_path T P s.current_lms_I s.current_lms_seed (LMS_ACTUAL T) 0 q := by
  obtain ⟨c1, c2, c3, ct, c4, c5, c6, c7⟩ := hc
  obtain ⟨hBT, hB1, hA20, hHF⟩ := lms_level_facts T
  have hpB : 0 < 2 ^ LMS_BOTTOM T := Nat.pow_pos (by norm_num)
  have hr : q % 2 ^ LMS_BOTTOM T < 2 ^ LMS_BOTTOM T := Nat.mod_lt _ hpB
  have hq : q / 2 ^ LMS_BOTTOM T * 2 ^ LMS_BOTTOM T + q % 2 ^ LMS_BOTTOM T = q := by
    rw [Nat.mul_comm]; exact Nat.div_add_mod q _
  have hw : q / 2 ^ LMS_BOTTOM T < 2 ^ LMS_TOP T := by
    rw [← hBT, pow_add] at c2
    exact Nat.div_lt_of_lt_mul c2
  have hb := bottom_path_read T P s.current_lms_I s.current_lms_seed (q / 2 ^ LMS_BOTTOM T)
    (q % 2 ^ LMS_BOTTOM T) hr s.current_lms_bottom_subtree c4.1 (LMS_BOTTOM T) 0 (by omega)
  rw [pow_zero, Nat.div_one, Nat.div_one, Nat.sub_zero, hq] at hb
  have ht := top_path_read T P s.current_lms_I s.current_lms_seed s.current_lms_top_subtree c5
    (LMS_TOP T) 0 (q / 2 ^ LMS_BOTTOM T) (by omega) (by rw [Nat.sub_zero]; exact hw)
  rw [Nat.sub_zero, Nat.add_zero] at ht
  rw [c1, hb, ht, ← hBT, lms_auth_path_append, Nat.zero_add]

theorem sign_path_region (T : Tune) (P : Prims) (q : Nat) (s : sh_signer) (buf ots : List Nat)
    (hc : lms_cur T P q s) (hbuf : sh_sig_len T ≤ buf.length) :
    (sign_write T buf s (4 + 24 + LM_OTS_P T * 24) ots).drop (sh_sig_len T - 24 * 20)
      = lms_auth_path T P s.current_lms_I s.current_lms_seed (LMS_ACTUAL T) 0 q ++
          (bytesN (LMS_FAKE T * 24) s.current_fake ++ buf.drop (sh_sig_len T)) := by
  have hl := lms_levels T
  obtain ⟨hBT, hB1, hA20, hHF⟩ := lms_level_facts T
  have hlen : LEN_SPHINCS_SIG + LEN_LMS_PUBLIC_KEY + 12 + (4 + 24 + LM_OTS_P T * 24) + 24 * 20
      = sh_sig_len T := by
    simp only [sh_sig_len]; omega
  rw [sign_write_eq T s buf _ ots (by rw [hlen]; exact hbuf), hlen]
  have hpath := lms_path_emitted T P q s hc
  have hbl := sign_bottom_path_length s.current_lms_bottom_subtree
    ((s.current_lms_index / 2 ^ LMS_BOTTOM T) % 2) (LMS_BOTTOM T)
    (s.current_lms_index % 2 ^ LMS_BOTTOM T + 2 ^ LMS_BOTTOM T - 2)
  have htl := sign_top_path_length s.current_lms_top_subtree (LMS_TOP T)
    (s.current_lms_index / 2 ^ LMS_BOTTOM T + 2 ^ LMS_TOP T - 2)
  rw [bytesN_of_length hbl, bytesN_of_length htl]
  rw [← hpath]
  simp only [← List.append_assoc]
  simp only [List.append_assoc]
  have e : ∀ (a0 a1 a2 a3 a4 a5 R : List Nat),
      a0.length + a1.length + a2.length + a3.length + a4.length + a5.length
        = sh_sig_len T - 24 * 20 →
      (a0 ++ (a1 ++ (a2 ++ (a3 ++ (a4 ++ (a5 ++ R)))))).drop (sh_sig_len T - 24 * 20) = R := by
    intro a0 a1 a2 a3 a4 a5 R h
    have : a0 ++ (a1 ++ (a2 ++ (a3 ++ (a4 ++ (a5 ++ R)))))
        = (a0 ++ a1 ++ a2 ++ a3 ++ a4 ++ a5) ++ R := by simp only [List.append_assoc]
    rw [this]
    apply List.drop_left'
    simp only [List.length_append]
    exact h
  apply e
  simp only [bytesN_length, put_bigendian_length]
  rw [← hlen]
  omega

theorem slice_drop (l : List Nat) (a b n : Nat) : slice (l.drop a) b n = slice l (a + b) n := by
  simp only [slice, List.drop_drop]

theorem slice_bytesN_within (l : List Nat) (m o k : Nat) (h : o + k ≤ m) :
    slice (bytesN m l) o k = slice l o k := by
  simp only [slice]
  rw [bytesN_drop_le l o m (by omega), bytesN_bytesN_le _ k (m - o) (by omega)]

theorem slice_append_within (a b : List Nat) (o k : Nat) (h : o + k ≤ a.length) :
    slice (a ++ b) o k = slice a o k := by
  simp only [slice]
  rw [drop_append_ge a b o (by omega), bytesN_append_ge _ _ k (by rw [List.length_drop]; omega)]

theorem lms_walk_to_root (T : Tune) (P : Prims) (q : Nat) (s : sh_signer) (tail leaf : List Nat)
    (hc : lms_cur T P q s)
    (hleaf : bytesN 24 leaf = lms_node T P s.current_lms_I s.current_lms_seed 0 q) :
    bytesN 24 (verify_lms_walk P s.current_lms_I 24 32 ((q + 2 ^ LMS_H) % 2 ^ 32)
        (lms_auth_path T P s.current_lms_I s.current_lms_seed (LMS_ACTUAL T) 0 q ++
          (bytesN (LMS_FAKE T * 24) s.current_fake ++ tail)) leaf)
      = slice s.current_lms_pub_key 28 24 := by
  obtain ⟨c1, c2, c3, ct, c4, c5, c6, c7⟩ := hc
  obtain ⟨hBT, hB1, hA20, hHF⟩ := lms_level_facts T
  have hH : LMS_H = 20 := rfl
  have hAF : LMS_ACTUAL T + LMS_FAKE T = 20 := by simp only [LMS_ACTUAL, LMS_H]; omega
  have hA : 2 ^ LMS_ACTUAL T ≤ 2 ^ LMS_H := Nat.pow_le_pow_right (by norm_num) (by omega)
  have h20 : (2 : Nat) ^ 20 = 1048576 := by norm_num
  have hm : (q + 2 ^ LMS_H) % 2 ^ 32 = 2 ^ (LMS_H - 0) + q := by
    rw [Nat.sub_zero, Nat.add_comm]
    apply Nat.mod_eq_of_lt
    rw [hH] at hA ⊢
    norm_num at hA ⊢
    omega
  have hdiv : (2 ^ (LMS_H - 0) + q) / 2 ^ LMS_ACTUAL T = 2 ^ LMS_FAKE T := by
    have e : 2 ^ LMS_H = 2 ^ LMS_FAKE T * 2 ^ LMS_ACTUAL T := by
      rw [← Nat.pow_add, Nat.add_comm, hAF, hH]
    rw [Nat.sub_zero, e, Nat.add_comm, Nat.add_mul_div_right _ _ (Nat.pow_pos (by norm_num)),
      Nat.div_eq_of_lt c2, Nat.zero_add]
  have h32 : 32 = LMS_ACTUAL T + (LMS_FAKE T + 12) := by omega
  have hreal := verify_walk_auth T P s.current_lms_I s.current_lms_seed (LMS_ACTUAL T) 0 q
    (bytesN (LMS_FAKE T * 24) s.current_fake ++ tail) leaf (by rw [hH]; omega)
    (by rw [Nat.sub_zero]; omega) hleaf
  rw [Nat.zero_add, Nat.div_eq_of_lt c2] at hreal
  rw [hm]
  conv_lhs => rw [h32]
  rw [verify_walk_split P s.current_lms_I 24 _ _ _ _ _ (by rw [Nat.sub_zero]; omega), hdiv,
    List.drop_left' (by rw [lms_auth_path_length]; exact Nat.mul_comm _ _),
    verify_walk_split P s.current_lms_I 24 _ _ _ _ _ (Nat.le_refl _),
    Nat.div_self (Nat.pow_pos (by norm_num)), verify_walk_one,
    verify_walk_pfx P s.current_lms_I 24 _ _ _ _ _ (bytesN_length _ _)]
  have hfw := verify_walk_fake T P (bytesN (LMS_FAKE T * 24) s.current_fake) s.current_lms_I
    (LMS_FAKE T) (LMS_FAKE T) _
    (lms_node T P s.current_lms_I s.current_lms_seed (LMS_ACTUAL T) 0)
    (Nat.le_refl _) (Nat.le_refl _) (by omega)
    (by rw [hreal, bytesN_of_length (lms_node_length _ _ _ _ _ _)])
  rw [Nat.sub_self, Nat.zero_mul, List.drop_zero] at hfw
  rw [hfw, c7]
  apply fake_walk_congr T P _ _ _ _ rfl _ _ _ _ (Nat.le_refl _) rfl
  intro k hk
  exact slice_bytesN_within _ _ _ _ (by
    have : k * 24 + 24 = (k + 1) * 24 := by ring
    rw [this]
    exact Nat.mul_le_mul_right _ hk)

theorem top_slot_ready (T : Tune) (P : Prims) (I seed : List Nat) (x h : Nat) (buf : List Nat)
    (hx : x < 2 ^ LMS_TOP T) (hh : h < LMS_TOP T)
    (hinv : sub_inv (LMS_TOP T) buf
      (fun h j => lms_node T P I seed (LMS_BOTTOM T + h) j) (fun _ _ => True)) :
    slice buf (24 * ((x / 2 ^ h + 2 ^ (LMS_TOP T - h) - 2) ^^^ 1)) 24
      = lms_node T P I seed (LMS_BOTTOM T + h) (x / 2 ^ h ^^^ 1) := by
  have he1 : 1 ≤ LMS_TOP T - h := by omega
  have hj : x / 2 ^ h < 2 ^ (LMS_TOP T - h) :=
    node_lt _ h x _ (Nat.div_mul_le_self x (2 ^ h)) hx (by omega)
  rw [slot_xor_one _ _ he1]
  exact hinv h _ hh (xor_bit_lt _ 1 _ (by norm_num) he1 hj) trivial

theorem sign_emits_path (T : Tune) (P : Prims) (s : sh_signer) (buf message : List Nat)
    (h1 : s.initialized = true) (h2 : s.got_fatal_error = false)
    (hc : lms_cur T P s.current_lms_index s) (hbuf : sh_sig_len T ≤ buf.length) :
    ∃ out, sh_sign T P (some buf) (some s) message = (true, some out, some (sign_advance T P s)) ∧
      (∀ h, h < LMS_ACTUAL T →
        slice out (sh_sig_len T - 24 * 20 + 24 * h) 24
          = lms_node T P s.current_lms_I s.current_lms_seed h
              (s.current_lms_index / 2 ^ h ^^^ 1)) ∧
      (∀ h, h < LMS_BOTTOM T →
        slice out (sh_sig_len T - 24 * 20 + 24 * h) 24
          = slice s.current_lms_bottom_subtree
              (24 * (((s.current_lms_index % 2 ^ LMS_BOTTOM T / 2 ^ h
                  + 2 ^ (LMS_BOTTOM T - h) - 2) ^^^ 1)
                ^^^ (s.current_lms_index / 2 ^ LMS_BOTTOM T % 2))) 24) ∧
      (∀ h, h < LMS_TOP T →
        slice out (sh_sig_len T - 24 * 20 + 24 * (LMS_BOTTOM T + h)) 24
          = slice s.current_lms_top_subtree
              (24 * ((s.current_lms_index / 2 ^ LMS_BOTTOM T / 2 ^ h
                  + 2 ^ (LMS_TOP T - h) - 2) ^^^ 1)) 24) ∧
      (∀ i, i < LMS_FAKE T →
        slice out (sh_sig_len T - 24 * 20 + 24 * (LMS_ACTUAL T + i)) 24
          = slice s.current_fake (24 * i) 24) ∧
      (∀ leaf, bytesN 24 leaf
          = lms_node T P s.current_lms_I s.current_lms_seed 0 s.current_lms_index →
        bytesN 24 (verify_lms_walk P s.current_lms_I 24 32
            ((s.current_lms_index + 2 ^ LMS_H) % 2 ^ 32)
            (out.drop (sh_sig_len T - 24 * 20)) leaf)
          = slice s.current_lms_pub_key 28 24) := by
  obtain ⟨hBT, hB1, hA20, hHF⟩ := lms_level_facts T
  have hreg := sign_path_region T P s.current_lms_index s buf
    (lm_ots_generate_signature T P s.current_lms_I s.current_lms_index
      s.current_lms_seed message).2 hc hbuf
  have hpath : ∀ h, h < LMS_ACTUAL T →
      slice (sign_write T buf s (4 + 24 + LM_OTS_P T * 24)
          (lm_ots_generate_signature T P s.current_lms_I s.current_lms_index
            s.current_lms_seed message).2) (sh_sig_len T - 24 * 20 + 24 * h) 24
        = lms_node T P s.current_lms_I s.current_lms_seed h
            (s.current_lms_index / 2 ^ h ^^^ 1) := by
    intro h hh
    rw [← slice_drop, hreg, lms_auth_path_slice T P _ _ _ 0 _ h _ hh, Nat.zero_add]
  obtain ⟨c1, c2, c3, ct, c4, c5, c6, c7⟩ := hc
  have hpB : 0 < 2 ^ LMS_BOTTOM T := Nat.pow_pos (by norm_num)
  have hr : s.current_lms_index % 2 ^ LMS_BOTTOM T < 2 ^ LMS_BOTTOM T := Nat.mod_lt _ hpB
  have hq : s.current_lms_index / 2 ^ LMS_BOTTOM T * 2 ^ LMS_BOTTOM T
      + s.current_lms_index % 2 ^ LMS_BOTTOM T = s.current_lms_index := by
    rw [Nat.mul_comm]; exact Nat.div_add_mod _ _
  have hw : s.current_lms_index / 2 ^ LMS_BOTTOM T < 2 ^ LMS_TOP T := by
    rw [← hBT, pow_add] at c2
    exact Nat.div_lt_of_lt_mul c2
  refine ⟨_, sh_sign_ok T P buf s message h1 h2 hbuf, hpath, ?_, ?_, ?_, ?_⟩
  · intro h hh
    rw [hpath h (by omega),
      bottom_slot_ready T P _ _ _ _ _ h _ (Nat.le_refl _) hr hh c4.1, hq]
  · intro h hh
    rw [hpath (LMS_BOTTOM T + h) (by omega), top_slot_ready T P _ _ _ h _ hw hh c5,
      pow_add, Nat.div_div_eq_div_mul]
  · intro i hi
    have e : 24 * (LMS_ACTUAL T + i) = 24 * LMS_ACTUAL T + 24 * i := by ring
    rw [← slice_drop, hreg, e, slice_append_skip _ _ _ _ _ (lms_auth_path_length T P _ _ _ _ _),
      slice_append_within _ _ _ _ (by rw [bytesN_length]; omega),
      slice_bytesN_within _ _ _ _ (by omega)]
  · intro leaf hleaf
    rw [hreg]
    exact lms_walk_to_root T P _ s _ leaf ⟨c1, c2, c3, ct, c4, c5, c6, c7⟩ hleaf

/-- C25: LMS rolling refresh.  Under the shipped `FAULT_STRATEGY 0`, with fuel
for one build cycle and signer memory of the size of the arrays of the
structure, `sh_load_signer` returns a signer `s0` whose first `build_steps`
signatures meet no fatal error, and in every state `S = sign_run k s0` this
signer reaches by `k` successful signatures, across tree rotations (the
current LMS tree is the one of `S.current_lms_I`, `S.current_lms_seed`, whose
node `j` of level `h` is `lms_node h j`; `q = S.current_lms_index`):
the index is inside the tree; every slot of the rolled bottom subtree that the
signature of a leaf `r'` of the same window at or after `q` reads, at
`(offset xor 1 xor which)`, holds the sibling node of that leaf's ancestor, so
no refresh up to here has overwritten a node that a later signature of the
window still needs; and `sh_sign` succeeds, hands on the state
`sign_run (k + 1) s0`, and emits as authentication path, level by level, the
sibling `lms_node h ((q / 2^h) xor 1)` of the ancestor of leaf `q` for every
`h < LMS_ACTUAL`, the first `LMS_BOTTOM` of them being the bytes of the bottom
subtree at `(offset xor 1 xor which)`, the next `LMS_TOP` the bytes of the top
subtree at `(offset xor 1)`, followed by the `LMS_FAKE` nodes of
`current_fake`; the walk of the verifier over this path, started from the
leaf hash of `q` at node number `q + 2^20`, ends in the root stored at bytes
28..52 of `current_lms_pub_key`. -/
theorem lms_rolling_refresh (T : Tune) (P : Prims) (fuel : Nat) (m : sh_signer)
    (sk_buffer : List Nat) (do_rand : Nat → Option (List Nat)) (d : hmac_drbg)
    (hF : T.FAULT_STRATEGY = 0) (hfuel : build_steps T ≤ fuel)
    (hsd : seed_drbg P m.drbg do_rand = some d)
    (hn : hash_len (sk_buffer.getD 3 0 % 256) ≠ 0)
    (lb : 24 * (2 ^ (LMS_BOTTOM T + 1) - 2) ≤ m.next_lms_bottom_subtree.length)
    (ls : 24 * LMS_BOTTOM T ≤ m.do_lms_stack.length)
    (lt : 24 * (2 ^ (LMS_TOP T + 1) - 2) ≤ m.next_lms_top_subtree.length)
    (lr : 24 ≤ m.next_lms_root.length)
    (lf : LMS_FAKE T * 24 ≤ m.next_fake.length)
    (cb : 24 * (2 ^ (LMS_BOTTOM T + 1) - 2) ≤ m.current_lms_bottom_subtree.length)
    (ct : 24 * (2 ^ (LMS_TOP T + 1) - 2) ≤ m.current_lms_top_subtree.length) :
    ∃ s0, sh_load_signer T P fuel (some m) sk_buffer do_rand = some (some s0) ∧
      (∀ k, k < build_steps T → (sign_run T P k s0).got_fatal_error = false) ∧
      ∀ k S, S = sign_run T P k s0 → S.got_fatal_error = false →
        S.current_lms_index < 2 ^ LMS_ACTUAL T ∧
        (∀ r' h, S.current_lms_index % 2 ^ LMS_BOTTOM T ≤ r' → r' < 2 ^ LMS_BOTTOM T →
          h < LMS_BOTTOM T →
          slice S.current_lms_bottom_subtree
              (24 * (((r' / 2 ^ h + 2 ^ (LMS_BOTTOM T - h) - 2) ^^^ 1)
                ^^^ (S.current_lms_index / 2 ^ LMS_BOTTOM T % 2))) 24
            = lms_node T P S.current_lms_I S.current_lms_seed h
                ((S.current_lms_index / 2 ^ LMS_BOTTOM T * 2 ^ LMS_BOTTOM T + r') / 2 ^ h
                  ^^^ 1)) ∧
        ∀ buf message, sh_sig_len T ≤ buf.length →
          ∃ out, sh_sign T P (some buf) (some S) message
              = (true, some out, some (sign_run T P (k + 1) s0)) ∧
            (∀ h, h < LMS_ACTUAL T →
              slice out (sh_sig_len T - 24 * 20 + 24 * h) 24
                = lms_node T P S.current_lms_I S.current_lms_seed h
                    (S.current_lms_index / 2 ^ h ^^^ 1)) ∧
            (∀ h, h < LMS_BOTTOM T →
              slice out (sh_sig_len T - 24 * 20 + 24 * h) 24
                = slice S.current_lms_bottom_subtree
                    (24 * (((S.current_lms_index % 2 ^ LMS_BOTTOM T / 2 ^ h
                        + 2 ^ (LMS_BOTTOM T - h) - 2) ^^^ 1)
                      ^^^ (S.current_lms_index / 2 ^ LMS_BOTTOM T % 2))) 24) ∧
            (∀ h, h < LMS_TOP T →
              slice out (sh_sig_len T - 24 * 20 + 24 * (LMS_BOTTOM T + h)) 24
                = slice S.current_lms_top_subtree
                    (24 * ((S.current_lms_index / 2 ^ LMS_BOTTOM T / 2 ^ h
                        + 2 ^ (LMS_TOP T - h) - 2) ^^^ 1)) 24) ∧
            (∀ i, i < LMS_FAKE T →
              slice out (sh_sig_len T - 24 * 20 + 24 * (LMS_ACTUAL T + i)) 24
                = slice S.current_fake (24 * i) 24) ∧
            (∀ leaf, bytesN 24 leaf
                = lms_node T P S.current_lms_I S.current_lms_seed 0 S.current_lms_index →
              bytesN 24 (verify_lms_walk P S.current_lms_I 24 32
                  ((S.current_lms_index + 2 ^ LMS_H) % 2 ^ 32)
                  (out.drop (sh_sig_len T - 24 * 20)) leaf)
                = slice S.current_lms_pub_key 28 24) := by
  have hc := seed_drbg_counter P m.drbg d do_rand hsd
  have hd : (load_state m d sk_buffer).drbg.reseed_counter + 1 < 2 ^ 48 := by
    show d.reseed_counter + 1 < 2 ^ 48
    rw [hc]; norm_num
  obtain ⟨l1, _⟩ := load_loop_cycle T P fuel (load_state m d sk_buffer) hF hfuel rfl rfl hd
  have hload : sh_load_signer T P fuel (some m) sk_buffer do_rand
      = some (some { (step_next T P (run T P (build_steps T - 1)
          (load_state m d sk_buffer))).2 with initialized := true }) := by
    rw [sh_load_signer_eq T P fuel m sk_buffer do_rand d hsd hn, l1]
    rfl
  have h0 := load_sign_inv T P fuel m sk_buffer do_rand _ hF hfuel lb ls lt lr lf cb ct hload
  refine ⟨_, hload, fun k hk => (sign_run_cycle T P _ hF
    (loaded_fresh T P fuel (some m) sk_buffer do_rand _ hF hfuel hload) k hk).1, ?_⟩
  intro k S hS hk
  subst hS
  obtain ⟨i1, i2, i3, i4, i5⟩ := sign_run_inv T P _ hF h0 k hk
  refine ⟨i4.2.1, ?_, ?_⟩
  · intro r' h hr hr' hh
    exact bottom_slot_ready T P _ _ _ _ r' h _ hr hr' hh i4.2.2.2.2.1.1
  · intro buf message hbuf
    rw [sign_run_succ]
    exact sign_emits_path T P _ buf message i1 i2 i4 hbuf

/-- Witness for `lms_rolling_refresh`: zero-filled signer memory, the
parameter tag of the supported set and the random callback of `test.c` under
the shipped tuning; the signer returned emits, as its first signature, a path
that the walk of the verifier takes to the root in its LMS public key. -/
theorem lms_rolling_refresh_witness :
    ∃ s0, sh_load_signer tune zero_prims 14423 (some blank_signer) [1, 24, 0, 5] test_rand
        = some (some s0) ∧
      (∀ buf message, sh_sig_len tune ≤ buf.length →
          ∃ out, sh_sign tune zero_prims (some buf) (some s0) message
              = (true, some out, some (sign_run tune zero_prims 1 s0)) ∧
            ∀ leaf, bytesN 24 leaf
                = lms_node tune zero_prims s0.current_lms_I s0.current_lms_seed 0
                    s0.current_lms_index →
              bytesN 24 (verify_lms_walk zero_prims s0.current_lms_I 24 32
                  ((s0.current_lms_index + 2 ^ LMS_H) % 2 ^ 32)
                  (out.drop (sh_sig_len tune - 24 * 20)) leaf)
                = slice s0.current_lms_pub_key 28 24) := by
  obtain ⟨s0, e, h⟩ := lms_rolling_refresh tune zero_prims 14423 blank_signer [1, 24, 0, 5]
    test_rand _ rfl (by decide) rfl (by decide)
    (by show _ ≤ (zeros _).length; rw [zeros_length]; decide)
    (by show _ ≤ (zeros _).length; rw [zeros_length]; decide)
    (by show _ ≤ (zeros _).length; rw [zeros_length]; decide)
    (by decide)
    (by show _ ≤ (zeros _).length; rw [zeros_length]; decide)
    (by show _ ≤ (zeros _).length; rw [zeros_length]; decide)
    (by show _ ≤ (zeros _).length; rw [zeros_length]; decide)
  refine ⟨s0, e, fun buf message hbuf => ?_⟩
  obtain ⟨_, _, hs⟩ := h.2 0 s0 rfl (h.1 0 (by decide))
  obtain ⟨out, o1, _, _, _, _, o6⟩ := hs buf message hbuf
  exact ⟨out, o1, o6⟩

/-! ## The SPHINCS+ signature: what a valid signature holds -/

theorem verify_fors_levels_out (P : Prims) (pre p : List Nat) (il : Nat) (hp : p.length = 10) :
    ∀ (cnt level node hx ix : Nat) (sig buf : List Nat),
      (verify_fors_levels P pre cnt level node (fadr p il hx ix) sig buf).2.1 = sig.drop (24 * cnt) ∧
      ∃ hx' ix', (verify_fors_levels P pre cnt level node (fadr p il hx ix) sig buf).1
        = fadr p il hx' ix' := by
  intro cnt
  induction cnt with
  | zero => intro level node hx ix sig buf; exact ⟨rfl, hx, ix, rfl⟩
  | succ cnt ih =>
    intro level node hx ix sig buf
    simp only [verify_fors_levels]
    rw [(fadr_setters p il hx ix _ hp).2.2.1, (fadr_setters p il hx _ _ hp).2.1]
    obtain ⟨a, b⟩ := ih (level + 1) (node / 2) (level + 1) (node / 2) (sig.drop 24)
      (if node % 2 ≠ 0 then
        hashInto (do_H P (HASH_TYPE_SHA256 ||| HASH_LEN_192) pre
          (fadr p il (level + 1) (node / 2)) sig buf) buf 24
      else
        hashInto (do_H P (HASH_TYPE_SHA256 ||| HASH_LEN_192) pre
          (fadr p il (level + 1) (node / 2)) buf sig) buf 24)
    refine ⟨?_, b⟩
    rw [a, List.drop_drop]
    congr 1
    omega

theorem verify_fors_round (T : Tune) (P : Prims) (sk pre md : List Nat) (it il tr : Nat)
    (p : List Nat) (hp : p.length = 10)
    (hadr : ∀ il h i, fors_adr it il h i = fadr p il h i)
    (htr : tr < SPH_K) (htg : md.getD tr 0 < 2 ^ 16)
    (cnt hx ix : Nat) (sig roots : List Nat) (hroots : 24 * (tr + 1) ≤ roots.length)
    (hsk : bytesN 24 sig = fors_sk T P sk it il tr (md.getD tr 0))
    (hsig : ∀ k, k < 16 → slice sig (24 * (1 + k)) 24
      = fors_node T P sk pre it il tr k (md.getD tr 0 / 2 ^ k ^^^ 1)) :
    ∃ hx' ix' w, bytesN 24 w = fors_node T P sk pre it il tr 16 0 ∧
      verify_fors_trees P pre md (cnt + 1) tr (fadr p il hx ix) sig roots
        = verify_fors_trees P pre md cnt (tr + 1) (fadr p il hx' ix') (sig.drop 408)
            (memcpy roots (24 * tr) w 24) := by
  have hK : SPH_K = 14 := rfl
  have hA : SPH_A = 16 := rfl
  have h16 : (2 : Nat) ^ 16 = 65536 := by norm_num
  rw [hK] at htr
  have hnode : (md.getD tr 0 + tr * 2 ^ 16) % 2 ^ 32 = md.getD tr 0 + tr * 2 ^ 16 := by
    apply Nat.mod_eq_of_lt
    rw [h16] at htg ⊢
    omega
  have hoff : 4 * (tr * 24 / 4) = 24 * tr := by omega
  have hleaf : bytesN 24 (hashInto (do_F P (HASH_TYPE_SHA256 ||| HASH_LEN_192) pre
      (fadr p il 0 (md.getD tr 0 + tr * 2 ^ 16)) sig) (slice roots (24 * tr) 24) 24)
      = fors_node T P sk pre it il tr 0 (md.getD tr 0 / 2 ^ 0) := by
    rw [pow_zero, Nat.div_one]
    simp only [fors_node]
    rw [do_F_some, do_F_some, bytesN_bytesN, hsk, hadr, hA]
    congr 3
    simp only [fors_sk, bytesN_bytesN]
  have hw := verify_fors_walk T P sk pre it il tr (md.getD tr 0) p hp hadr 16 0 0
    (md.getD tr 0 + tr * 2 ^ 16) (sig.drop 24) _ rfl hleaf (by
      intro k hk
      have := hsig k hk
      have e : slice (sig.drop 24) (24 * k) 24 = slice sig (24 * (1 + k)) 24 := by
        simp only [slice, List.drop_drop]
        congr 2
        omega
      rw [e, this, Nat.zero_add])
  rw [pow_zero, Nat.div_one, Nat.sub_zero, Nat.div_eq_of_lt htg] at hw
  obtain ⟨o1, hx', ix', o2⟩ := verify_fors_levels_out P pre p il hp 16 0
    (md.getD tr 0 + tr * 2 ^ 16) 0 (md.getD tr 0 + tr * 2 ^ 16) (sig.drop 24)
    (hashInto (do_F P (HASH_TYPE_SHA256 ||| HASH_LEN_192) pre
      (fadr p il 0 (md.getD tr 0 + tr * 2 ^ 16)) sig) (slice roots (24 * tr) 24) 24)
  refine ⟨hx', ix', _, hw, ?_⟩
  simp only [verify_fors_trees, hnode, hoff, hA]
  rw [(fadr_setters p il hx ix _ hp).2.2.1, (fadr_setters p il hx _ _ hp).2.1, o1, o2,
    List.drop_drop]

theorem verify_fors_all (T : Tune) (P : Prims) (sk pre md : List Nat) (it il : Nat)
    (p : List Nat) (hp : p.length = 10)
    (hadr : ∀ il h i, fors_adr it il h i = fadr p il h i)
    (hmd : ∀ t, t < SPH_K → md.getD t 0 < 2 ^ 16) (S : List Nat) :
    ∀ (cnt tr hx ix : Nat) (roots : List Nat), tr + cnt ≤ SPH_K →
      24 * SPH_K ≤ roots.length →
      (∀ t, tr ≤ t → t < tr + cnt → sph_fors_at T P sk pre md it il S t) →
      ∃ hx' ix' R,
        verify_fors_trees P pre md cnt tr (fadr p il hx ix) (S.drop (24 + 408 * tr)) roots
          = (fadr p il hx' ix', S.drop (24 + 408 * (tr + cnt)), R) ∧
        R.length = roots.length ∧
        (∀ t, tr ≤ t → t < tr + cnt →
          slice R (24 * t) 24 = fors_node T P sk pre it il t SPH_A 0) ∧
        (∀ t, t < tr → slice R (24 * t) 24 = slice roots (24 * t) 24) := by
  have hK : SPH_K = 14 := rfl
  have hA : SPH_A = 16 := rfl
  intro cnt
  induction cnt with
  | zero =>
    intro tr hx ix roots _ _ _
    exact ⟨hx, ix, roots, rfl, rfl, fun t h1 h2 => by omega, fun _ _ => rfl⟩
  | succ cnt ih =>
    intro tr hx ix roots hc hl hf
    rw [hK] at hc hl
    obtain ⟨f1, f2⟩ := hf tr (Nat.le_refl _) (by omega)
    obtain ⟨hx1, ix1, w, hw, e⟩ := verify_fors_round T P sk pre md it il tr p hp hadr
      (by rw [hK]; omega) (hmd tr (by rw [hK]; omega)) cnt hx ix (S.drop (24 + 408 * tr)) roots
      (by omega)
      (by rw [← f1]; rfl)
      (by
        intro k hk
        rw [slice_drop]
        exact f2 k (by rw [hA]; exact hk))
    have hlen : (memcpy roots (24 * tr) w 24).length = roots.length :=
      memcpy_length _ _ _ _ (by omega)
    obtain ⟨hx2, ix2, R, r1, r2, r3, r4⟩ := ih (tr + 1) hx1 ix1 (memcpy roots (24 * tr) w 24)
      (by rw [hK]; omega) (by rw [hlen, hK]; exact hl)
      (fun t h1 h2 => hf t (by omega) (by omega))
    have ed : (S.drop (24 + 408 * tr)).drop 408 = S.drop (24 + 408 * (tr + 1)) := by
      rw [List.drop_drop]
      have e0 : 24 + 408 * tr + 408 = 24 + 408 * (tr + 1) := by omega
      rw [e0]
    have ec : tr + 1 + cnt = tr + (cnt + 1) := by omega
    rw [ed] at e
    rw [ec] at r1 r3
    refine ⟨hx2, ix2, R, by rw [e, r1], by rw [r2, hlen], ?_, ?_⟩
    · intro t h1 h2
      by_cases ht : t = tr
      · subst ht
        rw [r4 t (by omega), slice_memcpy_same _ _ _ _ (by omega), hw, hA]
      · exact r3 t (by omega) h2
    · intro t ht
      rw [r4 t (by omega), slice_memcpy_before _ _ _ _ _ _ (by omega) (by omega)]

theorem bytesN_succ_slice (l : List Nat) (k : Nat) :
    bytesN (24 * (k + 1)) l = bytesN (24 * k) l ++ slice l (24 * k) 24 := by
  have e : 24 * (k + 1) - 24 * k = 24 := by omega
  rw [← List.take_append_drop (24 * k) (bytesN (24 * (k + 1)) l),
    bytesN_take_le l _ _ (by omega), bytesN_drop_le l _ _ (by omega), e]
  rfl

theorem bytesN_of_slices (a b : List Nat) :
    ∀ k, (∀ t, t < k → slice a (24 * t) 24 = slice b (24 * t) 24) →
      bytesN (24 * k) a = bytesN (24 * k) b := by
  intro k
  induction k with
  | zero => intro _; rfl
  | succ k ih =>
    intro h
    rw [bytesN_succ_slice, bytesN_succ_slice, ih (fun t ht => h t (by omega)), h k (by omega)]

theorem fors_roots_length (T : Tune) (P : Prims) (sk pre : List Nat) (it il : Nat) :
    ∀ t, (fors_roots T P sk pre it il t).length = 24 * t := by
  intro t
  induction t with
  | zero => rfl
  | succ t ih =>
    simp only [fors_roots, List.length_append, ih, fors_node_length]
    omega

theorem fors_roots_slice (T : Tune) (P : Prims) (sk pre : List Nat) (it il : Nat) :
    ∀ k t, t < k →
      slice (fors_roots T P sk pre it il k) (24 * t) 24 = fors_node T P sk pre it il t SPH_A 0 := by
  intro k
  induction k with
  | zero => intro t ht; omega
  | succ k ih =>
    intro t ht
    simp only [fors_roots]
    by_cases h : t = k
    · subst h
      have := slice_append_skip (fors_roots T P sk pre it il t)
        (fors_node T P sk pre it il t SPH_A 0) 0 (24 * t) 24 (fors_roots_length T P sk pre it il t)
      rw [Nat.add_zero] at this
      rw [this]
      simp only [slice, List.drop_zero]
      exact bytesN_of_length (fors_node_length T P sk pre it il t SPH_A 0)
    · rw [slice_append_within _ _ _ _ (by rw [fors_roots_length]; omega)]
      exact ih t (by omega)

theorem fors_pk_of_roots (T : Tune) (P : Prims) (sk pre : List Nat) (it il : Nat)
    (R old : List Nat)
    (h : ∀ t, t < SPH_K → slice R (24 * t) 24 = fors_node T P sk pre it il t SPH_A 0) :
    hashInto
      (do_thash P (HASH_TYPE_SHA256 ||| HASH_LEN_192) pre
        (set_key_pair_address
          (set_type (set_tree_address (set_layer_address (zeros LEN_ADR) 0) it)
            FORS_TREE_ROOT_COMPRESS) il)
        R (SPH_K * 24)) old 24 = fors_pk T P sk pre it il := by
  have e : bytesN (SPH_K * 24) R = bytesN (SPH_K * 24) (fors_roots T P sk pre it il SPH_K) := by
    rw [Nat.mul_comm]
    apply bytesN_of_slices
    intro t ht
    rw [h t ht, fors_roots_slice T P sk pre it il SPH_K t ht]
  simp only [fors_pk]
  rw [do_thash_congr P _ pre _ R _ _ e]
  have h24 : hash_len (HASH_TYPE_SHA256 ||| HASH_LEN_192) = 24 := by decide
  simp only [do_thash, h24, hashInto]
  split_ifs <;> first | rfl | contradiction

theorem verify_merkle_levels_out (P : Prims) (pre p : List Nat) (hp : p.length = 10) :
    ∀ (cnt i idx hx ix : Nat) (sig buf : List Nat),
      (verify_merkle_levels P pre cnt i idx (tadr p hx ix) sig buf).2.1 = sig.drop (24 * cnt) ∧
      ∃ hx' ix', (verify_merkle_levels P pre cnt i idx (tadr p hx ix) sig buf).1
        = tadr p hx' ix' := by
  intro cnt
  induction cnt with
  | zero => intro i idx hx ix sig buf; exact ⟨rfl, hx, ix, rfl⟩
  | succ cnt ih =>
    intro i idx hx ix sig buf
    simp only [verify_merkle_levels]
    rw [tadr_facts _ _ _ _ _ hp]
    obtain ⟨a, b⟩ := ih (i + 1) (idx / 2) (i + 1) (idx / 2) (sig.drop 24)
      (if idx % 2 ≠ 0 then
        hashInto (do_H P (HASH_TYPE_SHA256 ||| HASH_LEN_192) pre
          (tadr p (i + 1) (idx / 2)) sig buf) buf 24
      else
        hashInto (do_H P (HASH_TYPE_SHA256 ||| HASH_LEN_192) pre
          (tadr p (i + 1) (idx / 2)) buf sig) buf 24)
    refine ⟨?_, b⟩
    rw [a, List.drop_drop]
    have e : 24 + 24 * cnt = 24 * (cnt + 1) := by omega
    rw [e]

theorem tadr_length (p : List Nat) (h i : Nat) (hp : p.length = 10) :
    (tadr p h i).length = 22 := by
  simp [tadr, hp]

theorem ht_idx_leaf_lt (it il : Nat) (hil : il < 2 ^ SPH_T) :
    ∀ L, (ht_idx it il L).2 < 2 ^ SPH_T := by
  intro L
  cases L with
  | zero => exact hil
  | succ L =>
    simp only [ht_idx]
    have h1 : (ht_idx it il L).1 &&& (2 ^ SPH_T - 1) ≤ 2 ^ SPH_T - 1 := Nat.and_le_right
    have h2 : (0 : Nat) < 2 ^ SPH_T := Nat.pow_pos (by norm_num)
    exact Nat.lt_of_le_of_lt (Nat.mod_le _ _) (by omega)

theorem ht_q_length (it il L : Nat) : (ht_q it il L).length = 9 := by
  simp [ht_q, put_bigendian_length]

theorem ht_wots_length (T : Tune) (P : Prims) (sk pre : List Nat) (it il L : Nat) :
    (ht_wots T P sk pre it il L).length = 1224 := by
  simp only [ht_wots, wots_sig_vals_length]

theorem ht_msg_length (T : Tune) (P : Prims) (sk pre : List Nat) (it il L : Nat) :
    (ht_msg T P sk pre it il L).length = 24 := by
  cases L with
  | zero =>
    have h24 : hash_len (HASH_TYPE_SHA256 ||| HASH_LEN_192) = 24 := by decide
    simp only [ht_msg, fors_pk, do_thash, h24, hashInto]
    split_ifs <;> simp [bytesN_length]
  | succ L => exact merkle_node_length _ _ _ _ _ _ _

theorem verify_level (T : Tune) (P : Prims) (sk pre : List Nat) (it il L : Nat)
    (S adr0 b : List Nat) (cnt : Nat)
    (hil : (ht_idx it il L).2 < 2 ^ SPH_T) (hadr0 : adr0.length = 22)
    (hb : bytesN 24 b = ht_msg T P sk pre it il L)
    (hf : sph_ht_at T P sk pre it il S L) :
    ∃ adr1 b1, adr1.length = 22 ∧ bytesN 24 b1 = ht_msg T P sk pre it il (L + 1) ∧
      verify_hypertree P pre (cnt + 1) L (ht_idx it il L).1 (ht_idx it il L).2 adr0
          (S.drop (5736 + 1416 * L)) b
        = verify_hypertree P pre cnt (L + 1) (ht_idx it il (L + 1)).1 (ht_idx it il (L + 1)).2
            adr1 (S.drop (5736 + 1416 * (L + 1))) b1 := by
  obtain ⟨f1, f2⟩ := hf
  have hT : SPH_T = 8 := rfl
  have hD : SPH_D = 8 := rfl
  have hql := ht_q_length it il L
  have hwl := ht_wots_length T P sk pre it il L
  have hlen : 1224 ≤ (S.drop (5736 + 1416 * L)).length := by
    have := congrArg List.length f1
    rw [hwl, List.length_take] at this
    omega
  obtain ⟨sg, hsg⟩ : ∃ sg : sh_signer, sg = { blank_signer with
      do_hyper_prev_root := ht_msg T P sk pre it il L, do_hyper_level := L,
      idx_tree := (ht_idx it il L).1, idx_leaf := (ht_idx it il L).2, sk_seed := sk,
      pk_seed_pre := pre, sphincs_sig_index := 0,
      next_sphincs_sig := S.drop (5736 + 1416 * L) } := ⟨_, rfl⟩
  obtain ⟨st, hst⟩ : ∃ st : build_merkle_state, st = { blank_merkle with
      adr := ht_q it il L ++ zeros 13, n := 24, hash := HASH_TYPE_SHA256 ||| HASH_LEN_192,
      wots_digits := 51, sk_seed := sk, pk_seed_pre := pre,
      current_node := (ht_idx it il L).2 } := ⟨_, rfl⟩
  have s1 : sg.do_hyper_prev_root = ht_msg T P sk pre it il L := by rw [hsg]
  have s2 : sg.do_hyper_level = L := by rw [hsg]
  have s3 : sg.idx_tree = (ht_idx it il L).1 := by rw [hsg]
  have s4 : sg.idx_leaf = (ht_idx it il L).2 := by rw [hsg]
  have s5 : sg.sk_seed = sk := by rw [hsg]
  have s6 : sg.pk_seed_pre = pre := by rw [hsg]
  have s7 : sg.sphincs_sig_index = 0 := by rw [hsg]
  have s8 : sg.next_sphincs_sig = S.drop (5736 + 1416 * L) := by rw [hsg]
  have t1 : st.adr = ht_q it il L ++ zeros 13 := by rw [hst]
  have t2 : st.n = 24 := by rw [hst]
  have t3 : st.hash = HASH_TYPE_SHA256 ||| HASH_LEN_192 := by rw [hst]
  have t4 : st.wots_digits = 51 := by rw [hst]
  have t5 : st.sk_seed = sk := by rw [hst]
  have t6 : st.pk_seed_pre = pre := by rw [hst]
  have t7 : st.current_node = (ht_idx it il L).2 := by rw [hst]
  clear hsg hst
  have tl : st.adr.length = 22 := by rw [t1]; simp [hql, zeros]
  have t9 : st.adr.take 9 = ht_q it il L := by
    rw [t1]; exact take_at _ _ _ hql
  have hsig : sg.sphincs_sig_index + 51 * 24 ≤ sg.next_sphincs_sig.length := by
    rw [s7, s8]; omega
  have hq : ht_q it il L = (sg.do_hyper_level % 256) :: put_bigendian (sg.idx_tree % 2 ^ 64) 8 := by
    rw [s2, s3]; rfl
  have hws : hyper_wots_sig T P sg = S.drop (5736 + 1416 * L) := by
    rw [hyper_wots_sig_eq T P sg (ht_q it il L) hq hsig, s7, s8, s5, s6, s1, s4, List.take_zero,
      List.nil_append, Nat.zero_add]
    have e : wots_sig_vals T P
        (init_private_key_gen T P sk 24
          (wadr (ht_q it il L ++ [WOTS_HASH_ADDRESS % 256]) (ht_idx it il L).2 0 0)
          ADR_CONST_FOR_TREE)
        pre (expand_wots_digits 51 (ht_msg T P sk pre it il L) 24).2
        (ht_q it il L ++ [WOTS_HASH_ADDRESS % 256]) (ht_idx it il L).2 51 0
        = ht_wots T P sk pre it il L := rfl
    rw [e, ← f1]
    exact List.take_append_drop _ _
  have hw := verify_wots_leaf_eq T P sg st adr0 b hsig hadr0 tl (by rw [t9, hq]) t2 t3 t4
    (by rw [t5, s5]) (by rw [t6, s6]) (by rw [t7, s4])
    (by rw [hb, s1, bytesN_of_length (ht_msg_length _ _ _ _ _ _ _)])
  rw [hws, s6, s2, s3, s4, s7, Nat.zero_add, List.drop_zero, List.drop_drop,
    merkle_leaf_eq T P st (ht_q it il L) tl t9 t2 t3 t4, t5, t6, t7] at hw
  rw [verify_hypertree_succ, hw]
  have hp1 : (ht_q it il L ++ [WOTS_KEY_COMPRESSION % 256]).length = 10 := by simp [hql]
  have hp2 : (ht_q it il L ++ [HASH_TREE_ADDRESS % 256]).length = 10 := by simp [hql]
  have ew : (wadr (ht_q it il L ++ [WOTS_KEY_COMPRESSION % 256]) (ht_idx it il L).2 0 0).take 9
      = ht_q it il L := by
    rw [(wadr_setters _ _ _ _ 0 hp1).2.2.2.2]
    exact take_at _ _ _ hql
  rw [set_type_tadr _ (ht_q it il L) HASH_TREE_ADDRESS (wadr_setters _ _ _ _ 0 hp1).2.2.2.1 ew]
  obtain ⟨W, hW⟩ : ∃ W, W = verify_merkle_levels P pre SPH_D 0 (ht_idx it il L).2
      (tadr (ht_q it il L ++ [HASH_TREE_ADDRESS % 256]) 0 0)
      (S.drop (5736 + 1416 * L + 51 * 24))
      (wots_pk T P sk pre (ht_q it il L) (ht_idx it il L).2) := ⟨_, rfl⟩
  rw [← hW]
  obtain ⟨o1, hx', ix', o2⟩ := verify_merkle_levels_out P pre
    (ht_q it il L ++ [HASH_TREE_ADDRESS % 256]) hp2 SPH_D 0 (ht_idx it il L).2 0 0
    (S.drop (5736 + 1416 * L + 51 * 24)) (wots_pk T P sk pre (ht_q it il L) (ht_idx it il L).2)
  have hwk := verify_walk T P sk pre (ht_q it il L) hql SPH_D 0 (ht_idx it il L).2 0 0
    (S.drop (5736 + 1416 * L + 51 * 24)) (wots_pk T P sk pre (ht_q it il L) (ht_idx it il L).2)
    (bytesN_node T P sk pre (ht_q it il L) 0 _)
    (by
      intro k hk
      rw [slice_drop, Nat.zero_add]
      exact f2 k (by rw [hT]; rw [hD] at hk; exact hk))
  rw [← hW] at o1 o2 hwk
  rw [Nat.zero_add, hD, ← hT, Nat.div_eq_of_lt hil] at hwk
  refine ⟨W.1, W.2.2.1, ?_, hwk, ?_⟩
  · rw [o2]
    exact tadr_length _ _ _ hp2
  · rw [o1, List.drop_drop, hD]
    have e : 5736 + 1416 * L + 51 * 24 + 24 * 8 = 5736 + 1416 * (L + 1) := by omega
    rw [e]
    rfl

theorem verify_hypertree_all (T : Tune) (P : Prims) (sk pre : List Nat) (it il : Nat)
    (S : List Nat) (hil : il < 2 ^ SPH_T) :
    ∀ (cnt L : Nat) (adr b : List Nat), L + cnt = SPH_D → adr.length = 22 →
      bytesN 24 b = ht_msg T P sk pre it il L →
      (∀ K, L ≤ K → K < SPH_D → sph_ht_at T P sk pre it il S K) →
      bytesN 24 (verify_hypertree P pre cnt L (ht_idx it il L).1 (ht_idx it il L).2 adr
          (S.drop (5736 + 1416 * L)) b)
        = ht_msg T P sk pre it il SPH_D := by
  intro cnt
  induction cnt with
  | zero =>
    intro L adr b hL _ hb _
    have : L = SPH_D := by omega
    subst this
    simp only [verify_hypertree]
    exact hb
  | succ cnt ih =>
    intro L adr b hL hadr hb hf
    obtain ⟨adr1, b1, a1, a2, a3⟩ := verify_level T P sk pre it il L S adr b cnt
      (ht_idx_leaf_lt it il hil L) hadr hb (hf L (Nat.le_refl _) (by omega))
    rw [a3]
    exact ih (L + 1) adr1 b1 (by omega) a1 a2 (fun K h1 h2 => hf K (by omega) h2)

theorem digest_md_lt (P : Prims) (r seed root msg : List Nat) (t : Nat) :
    (do_compute_digest_index P 24 r seed root msg 14 16 64 8).1.getD t 0 < 2 ^ 16 := by
  generalize hh0 : SHA256 P (bytesN 24 r ++ bytesN 24 seed ++ bytesN 24 root ++ msg) = h0
  generalize hS0 : SHA256 P (h0 ++ [0, 0, 0, 0]) = S0
  generalize hS1 : SHA256 P (h0 ++ [0, 0, 0, 1]) = S1
  have l0 : S0.length = 32 := by rw [← hS0]; exact SHA256_length _ _
  have l1 : S1.length = 32 := by rw [← hS1]; exact SHA256_length _ _
  have lh : h0.length = 32 := by rw [← hh0]; exact SHA256_length _ _
  have hB : mgf1_loop P h0 36 2 0 (zeros 67) = S0 ++ S1 ++ zeros 3 := by
    rw [mgf1_36, bytesN_of_length lh, hS0, hS1]
  obtain ⟨L1, L2, L3, p1, p2, p3⟩ := parse_digest (S0 ++ S1 ++ zeros 3)
    (by simp [l0, l1]) 36
  have hval : (do_compute_digest_index P 24 r seed root msg 14 16 64 8).1
      = (List.range 14).map (fun i =>
          (S0 ++ S1 ++ zeros 3).getD (2 * i) 0 % 256
            + 256 * ((S0 ++ S1 ++ zeros 3).getD (2 * i + 1) 0 % 256)) := by
    have hm : (14 * 16 + 7) / 8 + (64 - 64 / 8 + 7) / 8 + (64 / 8 + 7) / 8 = 36 := by norm_num
    have e67 : 36 + 31 = 67 := rfl
    have e2 : 36 / 32 + 1 = 2 := rfl
    simp only [do_compute_digest_index, hh0, hm, e67, e2, hB, init_bit_extract]
    have p1' : md_loop 16 14 { p := S0 ++ S1 ++ zeros 3, len := ((36 : Nat) : Int), bit_pos := 8 } []
        = _ := p1
    rw [p1']
  rw [hval]
  by_cases ht : t < 14
  · rw [List.getD_eq_getElem _ _ (by simp; exact ht)]
    simp only [List.getElem_map, List.getElem_range]
    have a1 : (S0 ++ S1 ++ zeros 3).getD (2 * t) 0 % 256 < 256 := Nat.mod_lt _ (by norm_num)
    have a2 : (S0 ++ S1 ++ zeros 3).getD (2 * t + 1) 0 % 256 < 256 := Nat.mod_lt _ (by norm_num)
    have : (2 : Nat) ^ 16 = 65536 := by norm_num
    omega
  · rw [List.getD_eq_default _ _ (by simp; omega)]
    norm_num

theorem fors_adr_p (it : Nat) :
    ((0 :: put_bigendian (it % 2 ^ 64) 8) ++ [FORS_TREE_ADDRESS % 256]).length = 10 ∧
      (∀ (a : List Nat) (il : Nat), a.length = 22 →
        a.take 9 = (0 :: put_bigendian (it % 2 ^ 64) 8) →
        set_key_pair_address (set_type a FORS_TREE_ADDRESS) il
          = fadr ((0 :: put_bigendian (it % 2 ^ 64) 8) ++ [FORS_TREE_ADDRESS % 256]) il 0 0) ∧
      (∀ il h i, fors_adr it il h i
        = fadr ((0 :: put_bigendian (it % 2 ^ 64) 8) ++ [FORS_TREE_ADDRESS % 256]) il h i) := by
  have hp : ((0 :: put_bigendian (it % 2 ^ 64) 8) ++ [FORS_TREE_ADDRESS % 256]).length = 10 := by
    simp [put_bigendian_length]
  refine ⟨hp, ?_, ?_⟩
  · intro a il ha h9
    rw [set_type_fadr a _ ha, h9, (fadr_setters _ 0 0 0 il hp).1]
  · intro il h i
    obtain ⟨t9, tl⟩ := layer_tree_take9 (zeros LEN_ADR) 0 it (by simp [zeros, LEN_ADR])
    simp only [fors_adr]
    rw [set_type_fadr _ _ tl, t9, (fadr_setters _ 0 0 0 il hp).1,
      (fadr_setters _ il 0 0 i hp).2.2.1, (fadr_setters _ il 0 i h hp).2.1]

theorem fors_compress_adr (it il hx ix : Nat) :
    set_key_pair_address
      (set_type (fadr ((0 :: put_bigendian (it % 2 ^ 64) 8) ++ [FORS_TREE_ADDRESS % 256]) il hx ix)
        FORS_TREE_ROOT_COMPRESS) il
    = set_key_pair_address
        (set_type (set_tree_address (set_layer_address (zeros LEN_ADR) 0) it)
          FORS_TREE_ROOT_COMPRESS) il := by
  have hp : ((0 :: put_bigendian (it % 2 ^ 64) 8) ++ [FORS_TREE_ADDRESS % 256]).length = 10 := by
    simp [put_bigendian_length]
  have hql : (0 :: put_bigendian (it % 2 ^ 64) 8).length = 9 := by
    simp [put_bigendian_length]
  obtain ⟨t9, tl⟩ := layer_tree_take9 (zeros LEN_ADR) 0 it (by simp [zeros, LEN_ADR])
  have e9 : (fadr ((0 :: put_bigendian (it % 2 ^ 64) 8) ++ [FORS_TREE_ADDRESS % 256])
      il hx ix).take 9 = 0 % 256 :: put_bigendian (it % 2 ^ 64) 8 := by
    simp only [fadr, List.append_assoc]
    exact take_at _ _ _ hql
  rw [set_type_canon _ _ (fadr_setters _ il hx ix 0 hp).2.2.2, set_type_canon _ _ tl, t9, e9]

theorem verify_sphincs_fields (T : Tune) (P : Prims) (sk buffer S lmpk pk : List Nat)
    (hf : ∀ t, t < SPH_K →
      sph_fors_at T P sk (SHA256_set_first_block (pk.drop 4) 24)
        (do_compute_digest_index P 24 S (pk.drop 4) (pk.drop 28) (bytesN 52 lmpk) 14 16 64 8).1
        (do_compute_digest_index P 24 S (pk.drop 4) (pk.drop 28) (bytesN 52 lmpk) 14 16 64 8).2.1
        (do_compute_digest_index P 24 S (pk.drop 4) (pk.drop 28) (bytesN 52 lmpk) 14 16 64 8).2.2
        S t)
    (hh : ∀ L, L < SPH_D →
      sph_ht_at T P sk (SHA256_set_first_block (pk.drop 4) 24)
        (do_compute_digest_index P 24 S (pk.drop 4) (pk.drop 28) (bytesN 52 lmpk) 14 16 64 8).2.1
        (do_compute_digest_index P 24 S (pk.drop 4) (pk.drop 28) (bytesN 52 lmpk) 14 16 64 8).2.2
        S L)
    (hr : bytesN 24 (pk.drop 28)
      = ht_msg T P sk (SHA256_set_first_block (pk.drop 4) 24)
        (do_compute_digest_index P 24 S (pk.drop 4) (pk.drop 28) (bytesN 52 lmpk) 14 16 64 8).2.1
        (do_compute_digest_index P 24 S (pk.drop 4) (pk.drop 28) (bytesN 52 lmpk) 14 16 64 8).2.2
        SPH_D) :
    verify_sphincs P buffer S lmpk pk = true := by
  have hK : SPH_K = 14 := rfl
  have hA : SPH_A = 16 := rfl
  have hH : SPH_H = 64 := rfl
  have hD : SPH_D = 8 := rfl
  have hLP : LEN_LMS_PUBLIC_KEY = 52 := rfl
  obtain ⟨b1, b2⟩ := digest_index_bounds P S (pk.drop 4) (pk.drop 28) (bytesN 52 lmpk)
  have hmd := digest_md_lt P S (pk.drop 4) (pk.drop 28) (bytesN 52 lmpk)
  simp only [verify_sphincs, memeq, hK, hA, hH, hD, hLP, decide_eq_true_eq]
  generalize do_compute_digest_index P 24 S (pk.drop 4) (pk.drop 28) (bytesN 52 lmpk)
    14 16 64 8 = dg at hf hh hr b1 b2 hmd ⊢
  obtain ⟨md, it, il⟩ := dg
  simp only at hf hh hr b1 b2 hmd ⊢
  generalize hpre : SHA256_set_first_block (pk.drop 4) 24 = pre at hf hh hr ⊢
  obtain ⟨hp, hp0, hadr⟩ := fors_adr_p it
  obtain ⟨t9, tl⟩ := layer_tree_take9 (zeros LEN_ADR) 0 it (by simp [zeros, LEN_ADR])
  obtain ⟨hx, ix, R, r1, r2, r3, r4⟩ := verify_fors_all T P sk pre md it il _ hp hadr
    (fun t _ => hmd t) S SPH_K 0 0 0 (zeros (SPH_K * 24)) (by omega)
    (by rw [zeros_length]; omega) (fun t _ h2 => hf t (by omega))
  rw [Nat.mul_zero, Nat.add_zero, Nat.zero_add] at r1
  have hfpk := fors_pk_of_roots T P sk pre it il R buffer
    (fun t ht => r3 t (Nat.zero_le _) (by omega))
  have hv := verify_hypertree_all T P sk pre it il S b2 SPH_D 0 (zeros LEN_ADR)
    (memcpy buffer 0 (fors_pk T P sk pre it il) 24) (by omega) (by simp [zeros, LEN_ADR])
    (by
      rw [bytesN_memcpy_zero]
      exact bytesN_of_length (ht_msg_length T P sk pre it il 0))
    (fun K _ h2 => hh K h2)
  rw [hK] at r1
  rw [hD] at hv hr
  rw [hp0 _ il tl t9, r1]
  simp only [fors_compress_adr]
  rw [hK] at hfpk
  rw [hfpk]
  have e : 24 + 408 * 14 = 5736 + 1416 * 0 := by norm_num
  have hv' : bytesN 24 (verify_hypertree P pre 8 0 it il (zeros LEN_ADR)
      (S.drop (5736 + 1416 * 0)) (memcpy buffer 0 (fors_pk T P sk pre it il) 24))
      = ht_msg T P sk pre it il 8 := hv
  rw [e, hv']
  exact hr.symm

theorem digest_r_congr (P : Prims) (r r' seed root msg : List Nat) (k a h d : Nat)
    (h1 : bytesN 24 r = bytesN 24 r') :
    do_compute_digest_index P 24 r seed root msg k a h d
      = do_compute_digest_index P 24 r' seed root msg k a h d := by
  simp only [do_compute_digest_index, h1]

theorem bytesN_of_take (a b : List Nat) (n k : Nat) (hk : n ≤ k) (h : a.take k = b.take k) :
    bytesN n a = bytesN n b := by
  have e : ∀ l : List Nat, bytesN n l = bytesN n (l.take k) := by
    intro l
    by_cases hl : k ≤ l.length
    · rw [bytesN_eq_take l n (by omega),
        bytesN_eq_take (l.take k) n (by rw [List.length_take]; omega), List.take_take,
        Nat.min_eq_left hk]
    · rw [List.take_of_length_le (show l.length ≤ k by omega)]
  rw [e a, e b, h]

theorem slice_of_take (a b : List Nat) (o n k : Nat) (hk : o + n ≤ k) (h : a.take k = b.take k) :
    slice a o n = slice b o n := by
  simp only [slice]
  apply bytesN_of_take _ _ n (k - o) (by omega)
  rw [← List.drop_take, ← List.drop_take]
  have e : o + (k - o) = k := by omega
  first
  | rw [h]
  | rw [e, h]

theorem take_of_take (a b : List Nat) (j k : Nat) (hk : j ≤ k) (h : a.take k = b.take k) :
    a.take j = b.take j := by
  have := congrArg (List.take j) h
  rw [List.take_take, List.take_take, Nat.min_eq_left hk] at this
  exact this

theorem fors_walk_frame (P : Prims) (target : Nat) (s0 : sh_signer)
    (hlen : s0.sphincs_sig_index + 24 * (1 + SPH_A) ≤ s0.next_sphincs_sig.length)
    (hstack : 24 * SPH_A ≤ s0.do_fors_stack.length) :
    ∀ (cnt level node name : Nat) (s : sh_signer) (adr buffer : List Nat),
      level + cnt ≤ SPH_A → fors_frame s0 s →
      fors_frame s0 (fors_walk P target cnt level node name s adr buffer).1 := by
  have hA : SPH_A = 16 := rfl
  intro cnt
  induction cnt with
  | zero => intro level node name s adr buffer _ h; exact h
  | succ cnt ih =>
    intro level node name s adr buffer hl h
    obtain ⟨h1, h2, h3, h4, h5, h6⟩ := h
    rw [hA] at hl hlen hstack
    have hmid : fors_frame s0
        (if node ^^^ 1 = target / 2 ^ level then
          { s with next_sphincs_sig :=
              memcpy s.next_sphincs_sig (s.sphincs_sig_index + 24 * (1 + level)) buffer 24 }
        else s) := by
      split
      · refine ⟨h1, h2, ?_, ?_, h5, h6⟩
        · show (memcpy s.next_sphincs_sig _ buffer 24).take _ = _
          rw [memcpy_take_before _ _ _ _ _ (by rw [h1]; omega) (by rw [h1, h4]; omega), h3]
        · show (memcpy s.next_sphincs_sig _ buffer 24).length = _
          rw [memcpy_length _ _ _ _ (by rw [h1, h4]; omega), h4]
      · exact ⟨h1, h2, h3, h4, h5, h6⟩
    simp only [fors_walk]
    split
    · exact ih _ _ _ _ _ _ (by rw [hA]; omega) hmid
    · obtain ⟨m1, m2, m3, m4, m5, m6⟩ := hmid
      refine ⟨m1, m2, m3, m4, m5, ?_⟩
      show (memcpy _ (level * 24) _ 24).length = _
      rw [memcpy_length _ _ _ _ (by rw [m6]; omega), m6]

theorem fors_loop_frame (T : Tune) (P : Prims) (gen : private_key_generator) (target : Nat)
    (hF : T.FAULT_STRATEGY = 0) (s0 : sh_signer)
    (hlen : s0.sphincs_sig_index + 24 * (1 + SPH_A) ≤ s0.next_sphincs_sig.length)
    (hstack : 24 * SPH_A ≤ s0.do_fors_stack.length)
    (hroots : 24 * (s0.do_fors_tree + 1) ≤ s0.do_fors_fors_roots.length) :
    ∀ (cnt : Nat) (s : sh_signer) (adr : List Nat) (leaf : Nat) (buffer : List Nat),
      fors_frame s0 s →
      fors_after s0 (fors_loop T P gen target cnt s adr leaf buffer).1 := by
  have hA : SPH_A = 16 := rfl
  intro cnt
  induction cnt with
  | zero =>
    intro s adr leaf buffer h
    obtain ⟨h1, h2, h3, h4, h5, h6⟩ := h
    exact ⟨h3, h4, by rw [← h5]; rfl, by rw [← h5]; rfl, h6⟩
  | succ k ih =>
    intro s adr leaf buffer h
    have h0 := h
    obtain ⟨h1, h2, h3, h4, h5, h6⟩ := h
    simp only [fors_loop, hF]
    have hs1 : ∀ x : List Nat, fors_frame s0
        (if leaf = target then
          { s with next_sphincs_sig := memcpy s.next_sphincs_sig s.sphincs_sig_index x 24 }
        else s) := by
      intro x
      split
      · refine ⟨h1, h2, ?_, ?_, h5, h6⟩
        · show (memcpy s.next_sphincs_sig _ _ 24).take _ = _
          rw [memcpy_take_before _ _ _ _ _ (by rw [h1]) (by rw [h1, h4]; omega), h3]
        · show (memcpy s.next_sphincs_sig _ _ 24).length = _
          rw [memcpy_length _ _ _ _ (by rw [h1, h4]; omega), h4]
      · exact h0
    generalize hw : fors_walk P target SPH_A 0 leaf _ _ _ _ = fw
    have hfw : fors_frame s0 fw.1 := by
      rw [← hw]
      exact fors_walk_frame P target s0 hlen hstack SPH_A 0 leaf _ _ _ _ (by omega) (hs1 _)
    obtain ⟨w1, w2, w3, w4, w5, w6⟩ := hfw
    split
    · simp only [ne_eq, not_true_eq_false, if_false]
      refine ⟨w3, w4, ?_, ?_, w6⟩
      · show (memcpy fw.1.do_fors_fors_roots _ _ 24).take _ = _
        rw [memcpy_take_before _ _ _ _ _ (by rw [w2]; omega) (by rw [w2, w5]; omega), w5]
      · show (memcpy fw.1.do_fors_fors_roots _ _ 24).length = _
        rw [memcpy_length _ _ _ _ (by rw [w2, w5]; omega), w5]
    · exact ih fw.1 fw.2.1 _ fw.2.2 ⟨w1, w2, w3, w4, w5, w6⟩

theorem merkle_up_take (P : Prims) (c : Nat) (hc : c < 2 ^ 8) (ap : Nat) :
    ∀ (fuel h : Nat) (st : build_merkle_state) (a r buf : List Nat),
      st.n = 24 → st.target_node < 2 ^ 8 → st.auth_path = some ap → ap + 192 ≤ a.length →
      (merkle_up P c fuel h st a r buf).authMem.take ap = a.take ap := by
  intro fuel
  induction fuel with
  | zero => intro h st a r buf _ _ _ _; rfl
  | succ f ih =>
    intro h st a r buf hn ht hap hlen
    simp only [merkle_up]
    generalize ha1 : (if st.auth_path.isSome ∧ (st.target_node ^^^ c) / 2 ^ h = 1 then
        memcpy a (st.auth_path.getD 0 + h * st.n) buf st.n else a) = a1
    have h1 : a1.length = a.length ∧ a1.take ap = a.take ap := by
      rw [← ha1]
      split
      · rename_i hcond
        have hh := xor_shift_small _ _ _ ht hc hcond.2
        rw [hap, hn]
        exact ⟨memcpy_length _ _ _ _ (by simp only [Option.getD_some]; omega),
          memcpy_take_before _ _ _ _ _ (by simp only [Option.getD_some]; omega)
            (by simp only [Option.getD_some]; omega)⟩
      · exact ⟨rfl, rfl⟩
    split_ifs
    all_goals first
      | exact h1.2
      | (refine Eq.trans (ih _ _ _ _ _ ?_ ?_ ?_ ?_) h1.2
         · exact hn
         · exact ht
         · exact hap
         · rw [h1.1]; exact hlen)

theorem merkle_leaves_take (T : Tune) (P : Prims) (ap : Nat) :
    ∀ (m : Nat) (st : build_merkle_state) (a r : List Nat) (flag : Bool),
      st.tree_height = 8 → st.n = 24 → st.target_node < 2 ^ 8 → st.auth_path = some ap →
      ap + 192 ≤ a.length →
      (merkle_leaves T P m st a r flag).authMem.take ap = a.take ap := by
  intro m
  induction m with
  | zero => intro st a r flag _ _ _ _ _; rfl
  | succ m ih =>
    intro st a r flag hth hn ht hap hlen
    by_cases hd : 2 ^ st.tree_height ≤ st.current_node
    · rw [merkle_leaves_done T P m st a r flag hd]
    · have hd' : ¬ (st.current_node ≥ 2 ^ st.tree_height) := hd
      have hc : st.current_node < 2 ^ st.tree_height := by omega
      simp only [merkle_leaves, hd', if_false]
      generalize hw : merkle_up P st.current_node 32 0 _ a r _ = w
      have u2 : merkErase w.state = merkErase st := by
        rw [← hw]
        have h0 : st.current_node % 2 ^ 0 = 2 ^ 0 - 1 := by rw [pow_zero, Nat.mod_one, Nat.sub_self]
        have h32 : st.tree_height - 0 < 32 := by omega
        exact (merkle_up_adr P st.current_node 32 0 st _ a r _ hc h0 h32).2.1
      have ulen : w.authMem.length = a.length := by
        rw [← hw]
        refine merkle_up_len P st.current_node (by rw [hth] at hc; exact hc) ap 32 0 _ a r _
          ?_ ?_ ?_ hlen
        · exact hn
        · exact ht
        · exact hap
      have utake : w.authMem.take ap = a.take ap := by
        rw [← hw]
        refine merkle_up_take P st.current_node (by rw [hth] at hc; exact hc) ap 32 0 _ a r _
          ?_ ?_ ?_ hlen
        · exact hn
        · exact ht
        · exact hap
      have hth' : w.state.tree_height = st.tree_height := by
        have := congrArg build_merkle_state.tree_height u2
        exact this
      have hn' : w.state.n = st.n := by
        have := congrArg build_merkle_state.n u2
        exact this
      have ht' : w.state.target_node = st.target_node := by
        have := congrArg build_merkle_state.target_node u2
        exact this
      have hap' : w.state.auth_path = st.auth_path := by
        have := congrArg build_merkle_state.auth_path u2
        exact this
      refine Eq.trans (ih _ _ _ _ ?_ ?_ ?_ ?_ ?_) utake
      · exact hth'.trans hth
      · exact hn'.trans hn
      · exact ht'.symm ▸ ht
      · exact hap'.trans hap
      · rw [ulen]; exact hlen

/-! ## The next SPHINCS+ signature while it is built -/

theorem fors_walk_sph_view (P : Prims) (target : Nat) (cnt level node name : Nat) (s : sh_signer)
    (adr buffer : List Nat) :
    sph_view (fors_walk P target cnt level node name s adr buffer).1 = sph_view s := by
  have := congrArg sph_view (fors_walk_erase P target cnt level node name s adr buffer)
  exact this

theorem fors_loop_sph_view (T : Tune) (P : Prims) (gen : private_key_generator) (target : Nat) :
    ∀ (cnt : Nat) (s : sh_signer) (adr : List Nat) (leaf : Nat) (buffer : List Nat),
      sph_view (fors_loop T P gen target cnt s adr leaf buffer).1 = sph_view s := by
  intro cnt
  induction cnt with
  | zero => intro s adr leaf buffer; rfl
  | succ k ih =>
    intro s adr leaf buffer
    simp only [fors_loop]
    generalize hw : fors_walk P target SPH_A 0 leaf _ _ _ _ = fw
    have hk : sph_view fw.1 = sph_view s := by
      rw [← hw]
      refine (fors_walk_sph_view P target SPH_A 0 leaf
        ((leaf + s.do_fors_tree * 2 ^ SPH_A) % 2 ^ 32) _ _ _).trans ?_
      split <;> rfl
    split
    · split
      · split
        · exact hk
        · split
          · split
            · exact hk
            · exact hk
          · exact hk
      · exact hk
    · exact (ih fw.1 fw.2.1 ((leaf + 1) % 2 ^ 32) fw.2.2).trans hk

theorem step_hypertree_sph_view (T : Tune) (P : Prims) (s : sh_signer) :
    sph_view (step_hypertree T P s).2 = sph_view s := by
  simp only [step_hypertree, failure_state]
  split_ifs <;> rfl

theorem step_next_sph_view (T : Tune) (P : Prims) (s : sh_signer)
    (hb : s.build_state = b_fors ∨ s.build_state = b_complete_fors ∨
      s.build_state = b_hypertree) :
    sph_view (step_next T P s).2 = sph_view s := by
  by_cases hf : s.got_fatal_error = true
  · rw [step_next_fatal T P s hf]
  · have hf : s.got_fatal_error = false := by simpa using hf
    simp only [step_next, hf, failure_state, Bool.false_eq_true, if_false]
    rcases hb with hs | hs | hs <;> simp only [hs]
    · split_ifs <;> exact fors_loop_sph_view T P _ _ _ _ _ _ _
    · split_ifs <;> rfl
    · exact step_hypertree_sph_view T P s

theorem sph_view_fields (x y : sh_signer) (h : sph_view x = sph_view y) :
    x.sk_seed = y.sk_seed ∧ x.pk_seed = y.pk_seed ∧ x.pk_seed_pre = y.pk_seed_pre ∧
    x.root = y.root ∧ x.next_lms_pub_key = y.next_lms_pub_key ∧ x.do_fors_md = y.do_fors_md :=
  ⟨congrArg (fun v => v.1) h, congrArg (fun v => v.2.1) h, congrArg (fun v => v.2.2.1) h,
    congrArg (fun v => v.2.2.2.1) h, congrArg (fun v => v.2.2.2.2.1) h,
    congrArg (fun v => v.2.2.2.2.2) h⟩

theorem sph_dg_eq (P : Prims) (x y : sh_signer) (h : sph_view x = sph_view y)
    (hs : bytesN 24 x.next_sphincs_sig = bytesN 24 y.next_sphincs_sig) :
    sph_dg P x = sph_dg P y := by
  obtain ⟨_, e2, _, e4, e5, _⟩ := sph_view_fields x y h
  simp only [sph_dg, e2, e4, e5]
  exact digest_r_congr P _ _ _ _ _ _ _ _ _ hs

theorem step_fors_frame (T : Tune) (P : Prims) (s : sh_signer) (hF : T.FAULT_STRATEGY = 0)
    (hI : build_inv T s) (hb : s.build_state = b_fors) (hS : sig_inv s)
    (hR : 24 * SPH_K ≤ s.do_fors_fors_roots.length)
    (hstack : 24 * SPH_A ≤ s.do_fors_stack.length) :
    fors_after s (step_next T P s).2 := by
  have hf : s.got_fatal_error = false := hI.1
  have h2 := hI.2
  simp only [hb] at h2
  obtain ⟨ht, hm, hl⟩ := h2
  have h16 : 2 ^ SPH_A = 65536 := by decide
  have hK : SPH_K = 14 := rfl
  have hA : SPH_A = 16 := rfl
  have h17 : LEN_SPHINCS_SIG = 17064 := by decide
  rw [h16] at hl
  rw [hK] at ht hR
  obtain ⟨hL, hSf⟩ := hS
  simp only [sig_fields, hb, hA] at hSf
  obtain ⟨hidx, hleaf⟩ := hSf
  rw [h17] at hL
  have hmod : s.do_fors_leaf % 2 ^ 32 = s.do_fors_leaf := Nat.mod_eq_of_lt (by omega)
  simp only [step_next, hf, hb, hmod, Bool.false_eq_true, if_false]
  generalize hfl : fors_loop T P _ _ (FORS_LEAFS_PER_ITER T) s _ s.do_fors_leaf _ = fl
  have a1 : fl.2.2 = false := by
    rw [← hfl]
    exact (fors_loop_spec T P _ _ hF _ s _ _ _ (by rw [h16]; exact hl)).1
  have fr : fors_after s fl.1 := by
    rw [← hfl]
    exact fors_loop_frame T P _ _ hF s (by rw [hidx, hL, hA]; omega) hstack (by omega) _ s _ _ _
      ⟨rfl, rfl, rfl, rfl, rfl, rfl⟩
  simp only [a1, Bool.false_eq_true, if_false]
  split <;> exact fr

theorem sph_fors_done_of (T : Tune) (P : Prims) (x y : sh_signer) (t k : Nat)
    (hv : sph_view x = sph_view y) (hk : 24 + 408 * t ≤ k)
    (ht : x.next_sphincs_sig.take k = y.next_sphincs_sig.take k)
    (h : sph_fors_done T P y t) : sph_fors_done T P x t := by
  obtain ⟨e1, _, e3, _, _, _⟩ := sph_view_fields x y hv
  have hd := sph_dg_eq P x y hv (bytesN_of_take _ _ 24 k (by omega) ht)
  have hA : SPH_A = 16 := rfl
  intro t' ht'
  obtain ⟨a, b⟩ := h t' ht'
  rw [hd, e1, e3]
  refine ⟨?_, ?_⟩
  · rw [slice_of_take _ _ _ _ k (by omega) ht]
    exact a
  · intro h hh
    rw [slice_of_take _ _ _ _ k (by rw [hA] at hh; omega) ht]
    exact b h hh

theorem sph_ht_done_of (T : Tune) (P : Prims) (x y : sh_signer) (L k : Nat)
    (hv : sph_view x = sph_view y) (hk : 5736 + 1416 * L ≤ k)
    (ht : x.next_sphincs_sig.take k = y.next_sphincs_sig.take k)
    (h : sph_ht_done T P y L) : sph_ht_done T P x L := by
  obtain ⟨e1, _, e3, _, _, _⟩ := sph_view_fields x y hv
  have hd := sph_dg_eq P x y hv (bytesN_of_take _ _ 24 k (by omega) ht)
  have hT : SPH_T = 8 := rfl
  intro K hK
  obtain ⟨a, b⟩ := h K hK
  rw [hd, e1, e3]
  refine ⟨?_, ?_⟩
  · rw [← a]
    have e : ∀ l : List Nat, (l.drop (5736 + 1416 * K)).take 1224
        = ((l.take k).drop (5736 + 1416 * K)).take 1224 := by
      intro l
      rw [List.drop_take, List.take_take, Nat.min_eq_left (by omega)]
    rw [e x.next_sphincs_sig, e y.next_sphincs_sig, ht]
  · intro h hh
    rw [slice_of_take _ _ _ _ k (by rw [hT] at hh; omega) ht]
    exact b h hh

theorem sph_roots_done_of (T : Tune) (P : Prims) (x y : sh_signer) (t k : Nat)
    (hv : sph_view x = sph_view y) (hk : 24 ≤ k)
    (ht : x.next_sphincs_sig.take k = y.next_sphincs_sig.take k)
    (hr : x.do_fors_fors_roots.take (24 * t) = y.do_fors_fors_roots.take (24 * t))
    (h : sph_roots_done T P y t) : sph_roots_done T P x t := by
  obtain ⟨e1, _, e3, _, _, _⟩ := sph_view_fields x y hv
  have hd := sph_dg_eq P x y hv (bytesN_of_take _ _ 24 k (by omega) ht)
  intro t' ht'
  rw [hd, e1, e3, slice_of_take _ _ _ _ (24 * t) (by omega) hr]
  exact h t' ht'

theorem sph_step_lms_finished (T : Tune) (P : Prims) (s : sh_signer)
    (hf : s.got_fatal_error = false) (hb : s.build_state = b_lms_finished) (hS : sig_inv s)
    (hp : sph_prog T P s) :
    sph_prog T P (step_next T P s).2 := by
  obtain ⟨⟨m1, m2, m3, m4, m5, m6⟩, _⟩ := hp
  obtain ⟨hS', hidx⟩ := sig_step_lms_finished T P s hf hb hS
  have hL' := hS'.1
  rw [step_next_lms_finished T P s hf hb] at hL' hidx ⊢
  have h17 : LEN_SPHINCS_SIG = 17064 := by decide
  have hA : SPH_A = 16 := rfl
  have hK : SPH_K = 14 := rfl
  have e1 : (step_lms_finished T P s).do_fors_stack = s.do_fors_stack := by
    simp only [step_lms_finished]; split <;> rfl
  have e2 : (step_lms_finished T P s).do_fors_fors_roots = s.do_fors_fors_roots := by
    simp only [step_lms_finished]; split <;> rfl
  have e3 : (step_lms_finished T P s).do_hyper_next_root = s.do_hyper_next_root := by
    simp only [step_lms_finished]; split <;> rfl
  have e4 : (step_lms_finished T P s).do_hyper_merk = s.do_hyper_merk := by
    simp only [step_lms_finished]; split <;> rfl
  have e5 : (step_lms_finished T P s).pk_seed_pre = s.pk_seed_pre := by
    simp only [step_lms_finished]; split <;> rfl
  have e6 : (step_lms_finished T P s).pk_seed = s.pk_seed := by
    simp only [step_lms_finished]; split <;> rfl
  have e7 : (step_lms_finished T P s).do_fors_tree = 0 := by
    simp only [step_lms_finished]
  have e8 : (step_lms_finished T P s).do_fors_leaf = 0 := by
    simp only [step_lms_finished]
  have e9 : (step_lms_finished T P s).do_fors_redundant_pass = false := by
    simp only [step_lms_finished]
  have e10 : (step_lms_finished T P s).got_fatal_error = false := by
    rw [step_lms_finished_fatal]; exact hf
  have hdg : (step_lms_finished T P s).do_fors_md = (sph_dg P (step_lms_finished T P s)).1 ∧
      (step_lms_finished T P s).idx_tree = (sph_dg P (step_lms_finished T P s)).2.1 ∧
      (step_lms_finished T P s).idx_leaf = (sph_dg P (step_lms_finished T P s)).2.2 := by
    have key : ∀ (R PUB SIG : List Nat),
        (do_compute_digest_index P 24 R s.pk_seed s.root PUB SPH_K SPH_A SPH_H SPH_D).1
          = (do_compute_digest_index P 24 (memcpy SIG 0 R 24) s.pk_seed s.root PUB
              SPH_K SPH_A SPH_H SPH_D).1 ∧
        (do_compute_digest_index P 24 R s.pk_seed s.root PUB SPH_K SPH_A SPH_H SPH_D).2.1
          = (do_compute_digest_index P 24 (memcpy SIG 0 R 24) s.pk_seed s.root PUB
              SPH_K SPH_A SPH_H SPH_D).2.1 ∧
        (do_compute_digest_index P 24 R s.pk_seed s.root PUB SPH_K SPH_A SPH_H SPH_D).2.2
          = (do_compute_digest_index P 24 (memcpy SIG 0 R 24) s.pk_seed s.root PUB
              SPH_K SPH_A SPH_H SPH_D).2.2 := by
      intro R PUB SIG
      rw [digest_r_congr P R (memcpy SIG 0 R 24) _ _ _ _ _ _ _ (bytesN_memcpy_zero _ _ _).symm]
      exact ⟨rfl, rfl, rfl⟩
    by_cases h : LMS_FAKE T = 0
    · simp only [sph_dg, step_lms_finished, h, ne_eq, not_true_eq_false, if_false]
      generalize final_hmac P _ _ _ = R
      generalize bytesN LEN_LMS_PUBLIC_KEY _ = PUB
      exact key R PUB _
    · simp only [sph_dg, step_lms_finished, h, ne_eq, not_false_eq_true, if_true]
      generalize final_hmac P _ _ _ = R
      generalize bytesN LEN_LMS_PUBLIC_KEY _ = PUB
      exact key R PUB _
  obtain ⟨d1, d2, d3⟩ := hdg
  refine ⟨⟨by rw [e1]; exact m1, by rw [e2]; exact m2, by rw [e3]; exact m3,
    by rw [e4]; exact m4, by rw [e4]; exact m5, by rw [e5, e6]; exact m6⟩, ?_⟩
  simp only [step_lms_finished_state]
  refine ⟨d1, d2, d3, e9, ?_, ?_, ?_⟩
  · intro t ht; rw [e7] at ht; omega
  · intro t ht; rw [e7] at ht; omega
  · have := fors_at_start T P (step_lms_finished T P s) 0 e10
      (step_lms_finished_state T P s) e7 e8 e9
      (by rw [hidx, hL', h17, hA]; norm_num) (by rw [e1]; exact m1)
      (by rw [e2]; rw [hK] at m2; omega)
    obtain ⟨_, _, _, _, _, _, _, _, fm, _, _⟩ := this
    rw [e7, e8]
    exact fm

theorem fors_walk_keep (P : Prims) (target : Nat) (cnt level node name : Nat) (s : sh_signer)
    (adr buffer : List Nat) :
    fors_keep (fors_walk P target cnt level node name s adr buffer).1 = fors_keep s := by
  have := congrArg fors_keep (fors_walk_erase P target cnt level node name s adr buffer)
  exact this

theorem fors_loop_keep (T : Tune) (P : Prims) (gen : private_key_generator) (target : Nat) :
    ∀ (cnt : Nat) (s : sh_signer) (adr : List Nat) (leaf : Nat) (buffer : List Nat),
      fors_keep (fors_loop T P gen target cnt s adr leaf buffer).1 = fors_keep s := by
  intro cnt
  induction cnt with
  | zero => intro s adr leaf buffer; rfl
  | succ k ih =>
    intro s adr leaf buffer
    simp only [fors_loop]
    generalize hw : fors_walk P target SPH_A 0 leaf _ _ _ _ = fw
    have hk : fors_keep fw.1 = fors_keep s := by
      rw [← hw]
      refine (fors_walk_keep P target SPH_A 0 leaf
        ((leaf + s.do_fors_tree * 2 ^ SPH_A) % 2 ^ 32) _ _ _).trans ?_
      split <;> rfl
    split
    · split
      · split
        · exact hk
        · split
          · split
            · exact hk
            · exact hk
          · exact hk
      · exact hk
    · exact (ih fw.1 fw.2.1 ((leaf + 1) % 2 ^ 32) fw.2.2).trans hk

theorem step_fors_keep (T : Tune) (P : Prims) (s : sh_signer) (hb : s.build_state = b_fors) :
    fors_keep (step_next T P s).2 = fors_keep s := by
  by_cases hf : s.got_fatal_error = true
  · rw [step_next_fatal T P s hf]
  · have hf : s.got_fatal_error = false := by simpa using hf
    simp only [step_next, hf, failure_state, Bool.false_eq_true, if_false, hb]
    split_ifs <;> exact fors_loop_keep T P _ _ _ _ _ _ _

theorem sph_step_fors (T : Tune) (P : Prims) (s : sh_signer) (hF : T.FAULT_STRATEGY = 0)
    (hI : build_inv T s) (hb : s.build_state = b_fors) (hS : sig_inv s)
    (hp : sph_prog T P s) :
    sph_prog T P (step_next T P s).2 := by
  have hf : s.got_fatal_error = false := hI.1
  have h2 := hI.2
  simp only [hb] at h2
  obtain ⟨ht, hm, hl⟩ := h2
  have hK : SPH_K = 14 := rfl
  have hA : SPH_A = 16 := rfl
  have h17 : LEN_SPHINCS_SIG = 17064 := by decide
  obtain ⟨⟨m1, m2, m3, m4, m5, m6⟩, hc⟩ := hp
  simp only [hb] at hc
  obtain ⟨c1, c2, c3, c4, c5, c6, c7⟩ := hc
  have hS0 := hS
  obtain ⟨hL, hSf⟩ := hS
  simp only [sig_fields, hb, hA] at hSf
  obtain ⟨hidx, hleaf⟩ := hSf
  rw [h17] at hL
  rw [hK] at ht
  have hbase : s.sphincs_sig_index = 24 + 408 * s.do_fors_tree := by rw [hidx]; ring
  have hS' := sig_step T P s hF hI hS0 (by rw [hb]; decide) (by intro h; rw [hb] at h; cases h)
  have hv := step_next_sph_view T P s (Or.inl hb)
  have hk := step_fors_keep T P s hb
  obtain ⟨f1, f2, f3, f4, f5⟩ := step_fors_frame T P s hF hI hb hS0 m2 m1
  have htg : s.do_fors_md.getD s.do_fors_tree 0 < 2 ^ 16 := by
    rw [c1]; exact digest_md_lt P _ _ _ _ _
  obtain ⟨k0, k1, _, k3⟩ := fors_step_built T P s.sk_seed s.pk_seed_pre s.idx_tree s.idx_leaf
    s.do_fors_tree (s.do_fors_md.getD s.do_fors_tree 0) s.sphincs_sig_index
    s.do_fors_fors_roots false s.do_fors_leaf s (by rw [hK]; exact ht) htg
    (by rw [hA] at hl; exact hl)
    ⟨hf, hb, rfl, rfl, rfl, rfl, rfl, c4, c7, by rw [hK] at m2; omega,
      fun h => Bool.noConfusion h⟩
  have hL' := hS'.1
  rw [h17] at hL'
  generalize (step_next T P s).2 = s' at hS' hv hk f1 f2 f3 f4 f5 k1 k3 hL' ⊢
  obtain ⟨e_sk, e_pk, e_pre, e_root, e_pub, e_md⟩ := sph_view_fields s' s hv
  have e_it : s'.idx_tree = s.idx_tree := congrArg (fun v => v.1) hk
  have e_il : s'.idx_leaf = s.idx_leaf := congrArg (fun v => v.2.1) hk
  have e_nr : s'.do_hyper_next_root = s.do_hyper_next_root := congrArg (fun v => v.2.2.2.1) hk
  have e_mk : s'.do_hyper_merk = s.do_hyper_merk := congrArg (fun v => v.2.2.2.2.1) hk
  have hdg : sph_dg P s' = sph_dg P s :=
    sph_dg_eq P s' s hv (bytesN_of_take _ _ 24 _ (by omega) f1)
  have mem' : sph_mem s' :=
    ⟨by rw [f5]; exact m1, by rw [f4]; exact m2, by rw [e_nr]; exact m3, by rw [e_mk]; exact m4,
      by rw [e_mk]; exact m5, by rw [e_pre, e_pk]; exact m6⟩
  have old_f : sph_fors_done T P s' s.do_fors_tree :=
    sph_fors_done_of T P s' s _ _ hv (by omega) f1 c5
  have old_r : sph_roots_done T P s' s.do_fors_tree :=
    sph_roots_done_of T P s' s _ _ hv (by omega) f1 f3 c6
  refine ⟨mem', ?_⟩
  by_cases hlt : s.do_fors_leaf + FORS_LEAFS_PER_ITER T < 2 ^ 16
  · obtain ⟨_, hb', _, _, _, _, hleaf', hrp', fm', _, _⟩ := k1 hlt
    have e_tr : s'.do_fors_tree = s.do_fors_tree := fm'.2.2.1
    have e_ix : s'.sphincs_sig_index = s.sphincs_sig_index := fm'.2.1
    have e_rt : s'.do_fors_fors_roots = s.do_fors_fors_roots := fm'.2.2.2.1
    simp only [hb']
    refine ⟨by rw [e_md, hdg]; exact c1, by rw [e_it, hdg]; exact c2,
      by rw [e_il, hdg]; exact c3, hrp', by rw [e_tr]; exact old_f,
      by rw [e_tr]; exact old_r, ?_⟩
    rw [e_sk, e_pre, e_it, e_il, e_tr, e_md, e_ix, e_rt, hleaf']
    exact fm'
  · obtain ⟨fd, g_f, g_tr, g_lf, g_rp, g_ix, g_st, g_sk, g_pre, g_it, g_il, g_md⟩ :=
      k3 (by omega) (Or.inl hF)
    have new_f : sph_fors_done T P s' (s.do_fors_tree + 1) := by
      intro t' ht'
      by_cases hq : t' = s.do_fors_tree
      · subst hq
        obtain ⟨d1, d2, _⟩ := fd
        rw [hbase] at d1 d2
        rw [hdg, e_sk, e_pre, ← c1, ← c2, ← c3]
        exact ⟨d1, d2⟩
      · exact old_f t' (by omega)
    have new_r : sph_roots_done T P s' (s.do_fors_tree + 1) := by
      intro t' ht'
      by_cases hq : t' = s.do_fors_tree
      · subst hq
        rw [hdg, e_sk, e_pre, ← c2, ← c3]
        exact fd.2.2
      · exact old_r t' (by omega)
    by_cases hlast : s.do_fors_tree + 1 = SPH_K
    · rw [if_pos hlast] at g_st
      simp only [g_st]
      rw [← hlast]
      exact ⟨by rw [e_it, hdg]; exact c2, by rw [e_il, hdg]; exact c3, new_f, new_r⟩
    · rw [if_neg hlast] at g_st
      rw [hK] at hlast
      have gix : s'.sphincs_sig_index = s.sphincs_sig_index + 408 := by
        rw [g_ix, hA]
        apply Nat.mod_eq_of_lt
        omega
      have fa := fors_at_start T P s' (s.do_fors_tree + 1) g_f g_st g_tr g_lf g_rp
        (by rw [gix, hL', hA]; omega) (by rw [f5]; exact m1)
        (by rw [f4]; rw [hK] at m2; omega)
      obtain ⟨_, _, _, _, _, _, _, _, fm', _, _⟩ := fa
      simp only [g_st]
      refine ⟨by rw [e_md, hdg]; exact c1, by rw [e_it, hdg]; exact c2,
        by rw [e_il, hdg]; exact c3, g_rp, by rw [g_tr]; exact new_f,
        by rw [g_tr]; exact new_r, ?_⟩
      rw [g_tr, g_lf]
      exact fm'

theorem ht_idx_zero (it il : Nat) : ht_idx it il 0 = (it, il) := rfl

theorem ht_idx_succ (it il L : Nat) :
    ht_idx it il (L + 1)
      = ((ht_idx it il L).1 / 2 ^ SPH_T, ((ht_idx it il L).1 &&& (2 ^ SPH_T - 1)) % 2 ^ 32) := rfl

theorem sph_prog_enter_hyper (T : Tune) (P : Prims) (s : sh_signer) (X : List Nat)
    (hb : s.build_state = b_complete_fors) (hp : sph_prog T P s)
    (hX : bytesN 24 X = fors_pk T P s.sk_seed s.pk_seed_pre (sph_dg P s).2.1 (sph_dg P s).2.2) :
    sph_prog T P { s with do_hyper_prev_root := X, do_hyper_level := 0, do_hyper_do_tree := 0,
                          build_state := b_hypertree } := by
  obtain ⟨⟨m1, m2, m3, m4, m5, m6⟩, hc⟩ := hp
  simp only [hb] at hc
  obtain ⟨c2, c3, c5, c6⟩ := hc
  obtain ⟨s', hs'⟩ : ∃ s' : sh_signer,
      s' = { s with do_hyper_prev_root := X, do_hyper_level := 0, do_hyper_do_tree := 0,
                    build_state := b_hypertree } := ⟨_, rfl⟩
  rw [← hs']
  have hv : sph_view s' = sph_view s := by rw [hs']; rfl
  have e1 : s'.next_sphincs_sig = s.next_sphincs_sig := by rw [hs']
  have e2 : s'.do_fors_stack = s.do_fors_stack := by rw [hs']
  have e3 : s'.do_fors_fors_roots = s.do_fors_fors_roots := by rw [hs']
  have e4 : s'.do_hyper_next_root = s.do_hyper_next_root := by rw [hs']
  have e5 : s'.do_hyper_merk = s.do_hyper_merk := by rw [hs']
  have e6 : s'.idx_tree = s.idx_tree := by rw [hs']
  have e7 : s'.idx_leaf = s.idx_leaf := by rw [hs']
  have e8 : s'.do_hyper_prev_root = X := by rw [hs']
  have e9 : s'.do_hyper_level = 0 := by rw [hs']
  have e10 : s'.do_hyper_do_tree = 0 := by rw [hs']
  have e11 : s'.build_state = b_hypertree := by rw [hs']
  clear hs'
  obtain ⟨e_sk, e_pk, e_pre, e_root, e_pub, e_md⟩ := sph_view_fields s' s hv
  have hdg : sph_dg P s' = sph_dg P s := sph_dg_eq P s' s hv (by rw [e1])
  refine ⟨⟨by rw [e2]; exact m1, by rw [e3]; exact m2, by rw [e4]; exact m3,
    by rw [e5]; exact m4, by rw [e5]; exact m5, by rw [e_pre, e_pk]; exact m6⟩, ?_⟩
  simp only [e11]
  simp only [e9, e10, ht_idx_zero]
  rw [hdg, e_sk, e_pre, e6, e7, e8]
  refine ⟨?_, fun K hK => absurd hK (Nat.not_lt_zero _), c2, c3, ?_, fun h => absurd rfl h⟩
  · exact sph_fors_done_of T P s' s SPH_K 17064 hv (by decide) (by rw [e1]) c5
  · exact hX

theorem sph_step_complete_fors (T : Tune) (P : Prims) (s : sh_signer)
    (hI : build_inv T s) (hb : s.build_state = b_complete_fors) (hp : sph_prog T P s) :
    sph_prog T P (step_next T P s).2 := by
  have hf : s.got_fatal_error = false := hI.1
  have hc := hp.2
  simp only [hb] at hc
  obtain ⟨c2, c3, c5, c6⟩ := hc
  have hfpk := fors_pk_of_roots T P s.sk_seed s.pk_seed_pre (sph_dg P s).2.1 (sph_dg P s).2.2
    s.do_fors_fors_roots (zeros MAX_HASH_LEN) c6
  rw [← c2, ← c3] at hfpk
  simp only [step_next, hf, hb, memeq_self, Bool.false_eq_true, if_false, not_true_eq_false]
  apply sph_prog_enter_hyper T P s _ hb hp
  rw [bytesN_memcpy_zero, hfpk, ← c2, ← c3]
  exact bytesN_of_length (ht_msg_length T P _ _ _ _ 0)

theorem step_hyper_start_state (T : Tune) (P : Prims) (s : sh_signer)
    (hf : s.got_fatal_error = false) (hb : s.build_state = b_hypertree)
    (h0 : s.do_hyper_do_tree = 0) (hidx : s.sphincs_sig_index + 51 * 24 < 2 ^ 32) :
    (step_next T P s).2
      = { s with
          do_hyper_save_sphincs_sig_index := s.sphincs_sig_index,
          next_sphincs_sig := hyper_wots_sig T P s,
          sphincs_sig_index := s.sphincs_sig_index + 51 * 24,
          do_hyper_do_tree := 1,
          do_hyper_merk := (init_build_merkle s.do_hyper_merk s.sk_seed s.pk_seed
            (HASH_TYPE_SHA256 ||| HASH_LEN_192) SPH_T s.do_hyper_level s.idx_tree
            s.idx_leaf (some (s.sphincs_sig_index + 51 * 24)) (some 0)).2 } := by
  have hnew : (s.sphincs_sig_index + 51 * 24) % 2 ^ 32 = s.sphincs_sig_index + 51 * 24 :=
    Nat.mod_eq_of_lt hidx
  simp only [step_next, hf, hb, step_hypertree, h0, expand_wots_digits_count, Bool.false_eq_true,
    if_false, if_true, ne_eq, not_true_eq_false, hnew]
  rfl

theorem take_drop_of_take (a b : List Nat) (o n k : Nat) (hk : o + n ≤ k)
    (h : a.take k = b.take k) : (a.drop o).take n = (b.drop o).take n := by
  have e : ∀ l : List Nat, (l.drop o).take n = ((l.take k).drop o).take n := by
    intro l
    rw [List.drop_take, List.take_take, Nat.min_eq_left (by omega)]
  rw [e a, e b, h]

theorem sph_step_hyper_start (T : Tune) (P : Prims) (s : sh_signer)
    (hI : build_inv T s) (hb : s.build_state = b_hypertree) (h0 : s.do_hyper_do_tree = 0)
    (hS : sig_inv s) (hp : sph_prog T P s) :
    sph_prog T P (step_next T P s).2 := by
  have hf : s.got_fatal_error = false := hI.1
  have h2 := hI.2
  simp only [hb] at h2
  have hlev : s.do_hyper_level < 8 := h2.1
  have hK : SPH_K = 14 := rfl
  have hA : SPH_A = 16 := rfl
  have hT : SPH_T = 8 := by decide
  have h17 : LEN_SPHINCS_SIG = 17064 := by decide
  obtain ⟨hL, hSf⟩ := hS
  simp only [sig_fields, hb, h0, if_true, hK, hA, hT, Nat.add_zero] at hSf
  obtain ⟨hleaf, hidx, _⟩ := hSf
  rw [h17] at hL
  have hbase : s.sphincs_sig_index = 5736 + 1416 * s.do_hyper_level := by rw [hidx]; ring
  obtain ⟨⟨m1, m2, m3, m4, m5, m6⟩, hc⟩ := hp
  simp only [hb] at hc
  obtain ⟨c1, c2, c3, c4, c5, _⟩ := hc
  rw [step_hyper_start_state T P s hf hb h0 (by omega)]
  obtain ⟨mk, hmk⟩ : ∃ mk, mk = (init_build_merkle s.do_hyper_merk s.sk_seed s.pk_seed
    (HASH_TYPE_SHA256 ||| HASH_LEN_192) SPH_T s.do_hyper_level s.idx_tree
    s.idx_leaf (some (s.sphincs_sig_index + 51 * 24)) (some 0)).2 := ⟨_, rfl⟩
  rw [← hmk]
  obtain ⟨s', hs'⟩ : ∃ s' : sh_signer,
      s' = { s with
              do_hyper_save_sphincs_sig_index := s.sphincs_sig_index,
              next_sphincs_sig := hyper_wots_sig T P s,
              sphincs_sig_index := s.sphincs_sig_index + 51 * 24,
              do_hyper_do_tree := 1,
              do_hyper_merk := mk } := ⟨_, rfl⟩
  rw [← hs']
  have hv : sph_view s' = sph_view s := by rw [hs']; rfl
  have e1 : s'.next_sphincs_sig = hyper_wots_sig T P s := by rw [hs']
  have e2 : s'.do_fors_stack = s.do_fors_stack := by rw [hs']
  have e3 : s'.do_fors_fors_roots = s.do_fors_fors_roots := by rw [hs']
  have e4 : s'.do_hyper_next_root = s.do_hyper_next_root := by rw [hs']
  have e5 : s'.do_hyper_merk = mk := by rw [hs']
  have e6 : s'.idx_tree = s.idx_tree := by rw [hs']
  have e7 : s'.idx_leaf = s.idx_leaf := by rw [hs']
  have e8 : s'.do_hyper_prev_root = s.do_hyper_prev_root := by rw [hs']
  have e9 : s'.do_hyper_level = s.do_hyper_level := by rw [hs']
  have e10 : s'.do_hyper_do_tree = 1 := by rw [hs']
  have e11 : s'.build_state = b_hypertree := by rw [hs']; exact hb
  have e12 : s'.sphincs_sig_index = s.sphincs_sig_index + 51 * 24 := by rw [hs']
  clear hs'
  obtain ⟨e_sk, e_pk, e_pre, e_root, e_pub, e_md⟩ := sph_view_fields s' s hv
  have hq : ht_q (sph_dg P s).2.1 (sph_dg P s).2.2 s.do_hyper_level
      = (s.do_hyper_level % 256) :: put_bigendian (s.idx_tree % 2 ^ 64) 8 := by
    rw [c3]; rfl
  have hsig : s.sphincs_sig_index + 51 * 24 ≤ s.next_sphincs_sig.length := by omega
  have hw := hyper_wots_sig_eq T P s _ hq hsig
  have hvals : wots_sig_vals T P
      (init_private_key_gen T P s.sk_seed 24
        (wadr (ht_q (sph_dg P s).2.1 (sph_dg P s).2.2 s.do_hyper_level
          ++ [WOTS_HASH_ADDRESS % 256]) s.idx_leaf 0 0) ADR_CONST_FOR_TREE)
      s.pk_seed_pre (expand_wots_digits 51 s.do_hyper_prev_root 24).2
      (ht_q (sph_dg P s).2.1 (sph_dg P s).2.2 s.do_hyper_level ++ [WOTS_HASH_ADDRESS % 256])
      s.idx_leaf 51 0
      = ht_wots T P s.sk_seed s.pk_seed_pre (sph_dg P s).2.1 (sph_dg P s).2.2
          s.do_hyper_level := by
    rw [expand_congr s.do_hyper_prev_root
      (ht_msg T P s.sk_seed s.pk_seed_pre (sph_dg P s).2.1 (sph_dg P s).2.2 s.do_hyper_level)
      (by rw [c5, bytesN_of_length (ht_msg_length _ _ _ _ _ _ _)]), c4]
    rfl
  rw [hvals] at hw
  have hwl := ht_wots_length T P s.sk_seed s.pk_seed_pre (sph_dg P s).2.1 (sph_dg P s).2.2
    s.do_hyper_level
  have htl : (s.next_sphincs_sig.take s.sphincs_sig_index).length = s.sphincs_sig_index := by
    rw [List.length_take]; omega
  have hlen' : s'.next_sphincs_sig.length = 17064 := by
    rw [e1, hw]
    simp only [List.length_append, htl, hwl, List.length_drop]
    omega
  have htake : s'.next_sphincs_sig.take s.sphincs_sig_index
      = s.next_sphincs_sig.take s.sphincs_sig_index := by
    rw [e1, hw, List.append_assoc, take_at _ _ _ htl]
  have hwots : (s'.next_sphincs_sig.drop s.sphincs_sig_index).take 1224
      = ht_wots T P s.sk_seed s.pk_seed_pre (sph_dg P s).2.1 (sph_dg P s).2.2
          s.do_hyper_level := by
    rw [e1, hw, List.append_assoc, List.drop_left' htl, take_at _ _ _ hwl]
  have hdg : sph_dg P s' = sph_dg P s :=
    sph_dg_eq P s' s hv (bytesN_of_take _ _ 24 _ (by omega) htake)
  obtain ⟨mm, mc⟩ := merkle_mid_init T P s.do_hyper_merk s.sk_seed s.pk_seed SPH_T
    s.do_hyper_level s.idx_tree s.idx_leaf (some (s.sphincs_sig_index + 51 * 24)) (some 0)
    s'.next_sphincs_sig s.do_hyper_next_root m4 m5
    (by
      intro o ho
      have := Option.some.inj ho
      rw [← this, hlen', hT]
      omega)
    (fun _ => m3)
  rw [← hmk, ← m6, ← hq] at mm
  rw [← hmk] at mc
  have mkl : mk.adr.length = 22 := mm.2.2.2.2.2.2.2.2.2.1
  have mks : 24 * SPH_T ≤ mk.stack.length := mm.2.2.2.2.2.2.2.2.2.2.2.1
  refine ⟨⟨by rw [e2]; exact m1, by rw [e3]; exact m2, by rw [e4]; exact m3,
    by rw [e5]; exact mkl, by rw [e5]; exact mks, by rw [e_pre, e_pk]; exact m6⟩, ?_⟩
  simp only [e11]
  rw [e9, hdg, e_sk, e_pre, e6, e7, e8, e12, e5, e4]
  refine ⟨?_, ?_, ?_, ?_, ?_, fun _ => ?_⟩
  · exact sph_fors_done_of T P s' s SPH_K s.sphincs_sig_index hv (by rw [hK]; omega) htake c1
  · exact sph_ht_done_of T P s' s s.do_hyper_level s.sphincs_sig_index hv (by omega) htake c2
  · exact c3
  · exact c4
  · exact c5
  · rw [← hbase]
    refine ⟨hwots, ?_⟩
    rw [mc]
    exact mm

theorem sph_prog_hyper_mid (T : Tune) (P : Prims) (s s' : sh_signer)
    (hb : s.build_state = b_hypertree) (h1 : s.do_hyper_do_tree ≠ 0)
    (hidx : s.sphincs_sig_index = 5736 + 1416 * s.do_hyper_level + 1224)
    (hp : sph_prog T P s)
    (hv : sph_view s' = sph_view s)
    (e2 : s'.do_fors_stack = s.do_fors_stack)
    (e3 : s'.do_fors_fors_roots = s.do_fors_fors_roots)
    (e6 : s'.idx_tree = s.idx_tree) (e7 : s'.idx_leaf = s.idx_leaf)
    (e8 : s'.do_hyper_prev_root = s.do_hyper_prev_root)
    (e9 : s'.do_hyper_level = s.do_hyper_level)
    (e11 : s'.build_state = b_hypertree)
    (e12 : s'.sphincs_sig_index = s.sphincs_sig_index)
    (htake : s'.next_sphincs_sig.take s.sphincs_sig_index
      = s.next_sphincs_sig.take s.sphincs_sig_index)
    (hmm : merkle_mid T P s.sk_seed s.pk_seed_pre
      (ht_q (sph_dg P s).2.1 (sph_dg P s).2.2 s.do_hyper_level) SPH_T s.idx_leaf
      (some s.sphincs_sig_index) (some 0) s'.do_hyper_merk.current_node 0 s'.do_hyper_merk
      s'.next_sphincs_sig s'.do_hyper_next_root) :
    sph_prog T P s' := by
  have hK : SPH_K = 14 := rfl
  obtain ⟨⟨m1, m2, m3, m4, m5, m6⟩, hc⟩ := hp
  simp only [hb] at hc
  obtain ⟨c1, c2, c3, c4, c5, c6⟩ := hc
  obtain ⟨cw, _⟩ := c6 h1
  obtain ⟨e_sk, e_pk, e_pre, e_root, e_pub, e_md⟩ := sph_view_fields s' s hv
  have hdg : sph_dg P s' = sph_dg P s :=
    sph_dg_eq P s' s hv (bytesN_of_take _ _ 24 _ (by omega) htake)
  have mkl : s'.do_hyper_merk.adr.length = 22 := hmm.2.2.2.2.2.2.2.2.2.1
  have mks : 24 * SPH_T ≤ s'.do_hyper_merk.stack.length := hmm.2.2.2.2.2.2.2.2.2.2.2.1
  have mkr : 24 ≤ s'.do_hyper_next_root.length := hmm.2.2.2.2.2.2.2.2.2.2.2.2.2.1 rfl
  refine ⟨⟨by rw [e2]; exact m1, by rw [e3]; exact m2, mkr, mkl, mks,
    by rw [e_pre, e_pk]; exact m6⟩, ?_⟩
  simp only [e11]
  rw [e9, hdg, e_sk, e_pre, e6, e7, e8, e12]
  refine ⟨?_, ?_, ?_, ?_, ?_, fun _ => ⟨?_, ?_⟩⟩
  · exact sph_fors_done_of T P s' s SPH_K s.sphincs_sig_index hv (by rw [hK]; omega) htake c1
  · exact sph_ht_done_of T P s' s s.do_hyper_level s.sphincs_sig_index hv (by omega) htake c2
  · exact c3
  · exact c4
  · exact c5
  · rw [take_drop_of_take _ _ _ _ s.sphincs_sig_index (by omega) htake]
    exact cw
  · exact hmm

theorem sph_prog_hyper_next (T : Tune) (P : Prims) (s s' : sh_signer)
    (hb : s.build_state = b_hypertree) (h1 : s.do_hyper_do_tree ≠ 0)
    (hidx : s.sphincs_sig_index = 5736 + 1416 * s.do_hyper_level + 1224)
    (hleaf : s.idx_leaf < 2 ^ SPH_T)
    (hp : sph_prog T P s)
    (hv : sph_view s' = sph_view s)
    (e2 : s'.do_fors_stack = s.do_fors_stack)
    (e3 : s'.do_fors_fors_roots = s.do_fors_fors_roots)
    (e6 : s'.idx_tree = s.idx_tree / 2 ^ SPH_T)
    (e7 : s'.idx_leaf = (s.idx_tree &&& (2 ^ SPH_T - 1)) % 2 ^ 32)
    (e8 : bytesN 24 s'.do_hyper_prev_root = bytesN 24 s'.do_hyper_next_root)
    (e9 : s'.do_hyper_level = s.do_hyper_level + 1)
    (e10 : s'.do_hyper_do_tree = 0)
    (htake : s'.next_sphincs_sig.take s.sphincs_sig_index
      = s.next_sphincs_sig.take s.sphincs_sig_index)
    (hmm : merkle_mid T P s.sk_seed s.pk_seed_pre
      (ht_q (sph_dg P s).2.1 (sph_dg P s).2.2 s.do_hyper_level) SPH_T s.idx_leaf
      (some s.sphincs_sig_index) (some 0) (2 ^ SPH_T) 0 s'.do_hyper_merk
      s'.next_sphincs_sig s'.do_hyper_next_root) :
    sph_fors_done T P s' SPH_K ∧ sph_ht_done T P s' (s.do_hyper_level + 1) ∧
    (s'.build_state = b_hypertree → sph_prog T P s') ∧
    sph_mem s' := by
  have hK : SPH_K = 14 := rfl
  have hT : SPH_T = 8 := by decide
  obtain ⟨⟨m1, m2, m3, m4, m5, m6⟩, hc⟩ := hp
  simp only [hb] at hc
  obtain ⟨c1, c2, c3, c4, c5, c6⟩ := hc
  obtain ⟨cw, _⟩ := c6 h1
  obtain ⟨e_sk, e_pk, e_pre, e_root, e_pub, e_md⟩ := sph_view_fields s' s hv
  have hdg : sph_dg P s' = sph_dg P s :=
    sph_dg_eq P s' s hv (bytesN_of_take _ _ 24 _ (by omega) htake)
  have mkl : s'.do_hyper_merk.adr.length = 22 := hmm.2.2.2.2.2.2.2.2.2.1
  have mks : 24 * SPH_T ≤ s'.do_hyper_merk.stack.length := hmm.2.2.2.2.2.2.2.2.2.2.2.1
  have mkr : 24 ≤ s'.do_hyper_next_root.length := hmm.2.2.2.2.2.2.2.2.2.2.2.2.2.1 rfl
  have mauth := hmm.2.2.2.2.2.2.2.2.2.2.2.2.2.2.2.1
  have mroot := hmm.2.2.2.2.2.2.2.2.2.2.2.2.2.2.2.2 rfl rfl
  have hmem : sph_mem s' := ⟨by rw [e2]; exact m1, by rw [e3]; exact m2, mkr, mkl, mks,
    by rw [e_pre, e_pk]; exact m6⟩
  have hfd : sph_fors_done T P s' SPH_K :=
    sph_fors_done_of T P s' s SPH_K s.sphincs_sig_index hv (by rw [hK]; omega) htake c1
  have hhd0 : sph_ht_done T P s' s.do_hyper_level :=
    sph_ht_done_of T P s' s s.do_hyper_level s.sphincs_sig_index hv (by omega) htake c2
  have hhd : sph_ht_done T P s' (s.do_hyper_level + 1) := by
    intro K hK
    by_cases hlt : K < s.do_hyper_level
    · exact hhd0 K hlt
    · have hKe : K = s.do_hyper_level := by omega
      rw [hKe, hdg, e_sk, e_pre]
      refine ⟨?_, ?_⟩
      · rw [take_drop_of_take _ _ _ _ s.sphincs_sig_index (by omega) htake]
        exact cw
      · intro h hh
        rw [← c4, ← hidx]
        refine mauth s.sphincs_sig_index h rfl hh (Or.inl ?_)
        exact in_sub_bound SPH_T h _ hh (sibling_lt s.idx_leaf h SPH_T hleaf hh)
  refine ⟨hfd, hhd, fun e11' => ⟨hmem, ?_⟩, hmem⟩
  simp only [e11']
  rw [e9, hdg, e_sk, e_pre, e6, e7]
  refine ⟨hfd, hhd, ?_, ?_, ?_, fun hne => absurd e10 hne⟩
  · rw [ht_idx_succ, ← c3]
  · rw [ht_idx_succ, ← c3]
  · rw [e8]
    have : bytesN 24 s'.do_hyper_next_root = slice s'.do_hyper_next_root 0 24 := by
      simp only [slice, List.drop_zero]
    rw [this, mroot]
    rfl

theorem sph_prog_hyper_accept (T : Tune) (P : Prims) (s s' : sh_signer)
    (hb : s.build_state = b_hypertree) (h1 : s.do_hyper_do_tree ≠ 0)
    (hidx : s.sphincs_sig_index = 5736 + 1416 * s.do_hyper_level + 1224)
    (hleaf : s.idx_leaf < 2 ^ SPH_T)
    (hp : sph_prog T P s)
    (hv : sph_view s' = sph_view s)
    (e2 : s'.do_fors_stack = s.do_fors_stack)
    (e3 : s'.do_fors_fors_roots = s.do_fors_fors_roots)
    (e6 : s'.idx_tree = s.idx_tree / 2 ^ SPH_T)
    (e7 : s'.idx_leaf = (s.idx_tree &&& (2 ^ SPH_T - 1)) % 2 ^ 32)
    (e8 : bytesN 24 s'.do_hyper_prev_root = bytesN 24 s'.do_hyper_next_root)
    (e9 : s'.do_hyper_level = s.do_hyper_level + 1)
    (e10 : s'.do_hyper_do_tree = 0)
    (e11 : s'.build_state = b_done ∧ s.do_hyper_level + 1 = SPH_D ∨
      s'.build_state = b_hypertree)
    (htake : s'.next_sphincs_sig.take s.sphincs_sig_index
      = s.next_sphincs_sig.take s.sphincs_sig_index)
    (hmm : merkle_mid T P s.sk_seed s.pk_seed_pre
      (ht_q (sph_dg P s).2.1 (sph_dg P s).2.2 s.do_hyper_level) SPH_T s.idx_leaf
      (some s.sphincs_sig_index) (some 0) (2 ^ SPH_T) 0 s'.do_hyper_merk
      s'.next_sphincs_sig s'.do_hyper_next_root) :
    sph_prog T P s' := by
  obtain ⟨r1, r2, r3, r4⟩ := sph_prog_hyper_next T P s s' hb h1 hidx hleaf hp hv e2 e3 e6 e7 e8
    e9 e10 htake hmm
  rcases e11 with ⟨ed, hlast⟩ | eh
  · refine ⟨r4, ?_⟩
    simp only [ed]
    rw [hlast] at r2
    exact ⟨r1, r2⟩
  · exact r3 eh

theorem sph_step_hyper_tree (T : Tune) (P : Prims) (s : sh_signer) (hF : T.FAULT_STRATEGY = 0)
    (hI : build_inv T s) (hb : s.build_state = b_hypertree) (h1 : s.do_hyper_do_tree = 1)
    (hS : sig_inv s) (hp : sph_prog T P s) :
    sph_prog T P (step_next T P s).2 := by
  have hf : s.got_fatal_error = false := hI.1
  have h2 := hI.2
  simp only [hb, h1, one_ne_zero, false_or, true_and] at h2
  obtain ⟨hlev, hth, hmod, hlt⟩ := h2
  have hT : SPH_T = 8 := by decide
  have hD : SPH_D = 8 := rfl
  have hK : SPH_K = 14 := rfl
  have hA : SPH_A = 16 := rfl
  have h17 : LEN_SPHINCS_SIG = 17064 := by decide
  obtain ⟨hL, hSf⟩ := hS
  simp only [sig_fields, hb, h1, one_ne_zero, if_false, hK, hA, ne_eq, not_false_eq_true,
    true_implies] at hSf
  obtain ⟨hleaf, hidx, hap, hn, htg⟩ := hSf
  rw [h17] at hL
  have hidx' : s.sphincs_sig_index = 5736 + 1416 * s.do_hyper_level + 1224 := by
    rw [hidx, hT]; ring
  have hM := MERKLE_CHAINS_pos T
  have h10 : ¬ (s.do_hyper_do_tree = 0) := by rw [h1]; exact one_ne_zero
  have hc := hp.2
  simp only [hb] at hc
  obtain ⟨_, _, _, _, _, c6⟩ := hc
  obtain ⟨_, hmm⟩ := c6 h10
  have hroot : s.do_hyper_merk.root = some 0 := hmm.2.2.2.2.2.2.2.2.1
  have hr1 : ¬ (s.do_hyper_merk.root = some 1) := by rw [hroot]; decide
  simp only [step_next, hf, hb, step_hypertree, h10, hF, hr1, Bool.false_eq_true,
    if_false, ne_eq, not_true_eq_false]
  obtain ⟨u1, _, _⟩ := merkle_leaves_spec T P (MERKLE_CHAINS_PER_ITER T) s.do_hyper_merk
    s.next_sphincs_sig s.do_hyper_next_root false (by rw [hth, hT]; omega)
  obtain ⟨b1, b2⟩ := merkle_leaves_built T P s.sk_seed s.pk_seed_pre
    (ht_q (sph_dg P s).2.1 (sph_dg P s).2.2 s.do_hyper_level) SPH_T s.idx_leaf
    (some s.sphincs_sig_index) (some 0) (by rw [hT]) hleaf
    (MERKLE_CHAINS_PER_ITER T) s.do_hyper_merk s.next_sphincs_sig s.do_hyper_next_root false
    (by omega) hmm
  have wtake := merkle_leaves_take T P s.sphincs_sig_index (MERKLE_CHAINS_PER_ITER T)
    s.do_hyper_merk s.next_sphincs_sig s.do_hyper_next_root false (by rw [hth, hT]) hn
    (by rw [← hT]; exact htg) hap (by rw [hL, hidx']; omega)
  simp only [step_build_merkle]
  generalize merkle_leaves T P (MERKLE_CHAINS_PER_ITER T) s.do_hyper_merk s.next_sphincs_sig
    s.do_hyper_next_root false = w at u1 b1 b2 wtake ⊢
  cases hfl : w.all_done_flag with
  | true =>
    simp only [if_true]
    have hdone : 2 ^ SPH_T ≤ s.do_hyper_merk.current_node + MERKLE_CHAINS_PER_ITER T := by
      rw [hfl, hth] at u1
      have h := u1.symm
      simp at h
      exact h.2
    rw [Nat.min_eq_right hdone] at b1
    by_cases hlast : s.do_hyper_level + 1 = SPH_D
    · rw [if_pos hlast]
      exact sph_prog_hyper_accept T P s _ hb h10 hidx' hleaf hp rfl rfl rfl rfl rfl
        (bytesN_memcpy_zero _ _ _) rfl rfl (Or.inl ⟨rfl, hlast⟩) wtake b1
    · rw [if_neg hlast]
      exact sph_prog_hyper_accept T P s _ hb h10 hidx' hleaf hp rfl rfl rfl rfl rfl
        (bytesN_memcpy_zero _ _ _) rfl rfl (Or.inr rfl) wtake b1
  | false =>
    simp only [Bool.false_eq_true, if_false]
    rw [← b2] at b1
    exact sph_prog_hyper_mid T P s _ hb h10 hidx' hp rfl rfl rfl rfl rfl rfl rfl rfl rfl wtake b1

/-! ## Signing and verifying: the invariant of a signer that signs -/

theorem sph_mem_lmsErase {x y : sh_signer} (h : lmsErase x = lmsErase y) :
    sph_mem x ↔ sph_mem y := by
  have h1 : sph_mem x = sph_mem (lmsErase x) := rfl
  have h2 : sph_mem y = sph_mem (lmsErase y) := rfl
  rw [h1, h2, h]

theorem key_view_lmsErase {x y : sh_signer} (h : lmsErase x = lmsErase y) :
    key_view x = key_view y := by
  have h1 : key_view x = key_view (lmsErase x) := rfl
  have h2 : key_view y = key_view (lmsErase y) := rfl
  rw [h1, h2, h]

theorem sph_prog_early (T : Tune) (P : Prims) (s : sh_signer)
    (hb : s.build_state = b_init ∨ s.build_state = b_do_lms ∨ s.build_state = b_lms_finished) :
    sph_prog T P s ↔ sph_mem s := by
  rcases hb with h | h | h <;> simp only [sph_prog, h, and_true]

theorem pub_prog_early (T : Tune) (s : sh_signer)
    (hb : s.build_state = b_init ∨ s.build_state = b_do_lms ∨ s.build_state = b_lms_finished) :
    pub_prog T s := by
  rcases hb with h | h | h <;> simp only [pub_prog, h]

theorem do_lms_loop_state (T : Tune) (P : Prims) (S : sh_signer) (hb : S.build_state = b_do_lms)
    (hev : S.do_lms_leaf % 2 = 0) (hlt : S.do_lms_leaf + 2 ≤ 2 ^ LMS_ACTUAL T) :
    (do_lms_loop T P LMS_LEAF_PER_ITER S).build_state = b_do_lms ∨
    (do_lms_loop T P LMS_LEAF_PER_ITER S).build_state = b_lms_finished := by
  have he := congrArg sh_signer.build_state (do_lms_loop_spec T P S hev hlt)
  have he' : (do_lms_loop T P LMS_LEAF_PER_ITER S).build_state
      = if S.do_lms_leaf + 2 = 2 ^ LMS_ACTUAL T then b_lms_finished else S.build_state := he
  rw [he']
  split
  · exact Or.inr rfl
  · exact Or.inl hb

theorem sph_do_lms (T : Tune) (P : Prims) (S : sh_signer) (hb : S.build_state = b_do_lms)
    (hev : S.do_lms_leaf % 2 = 0) (hlt : S.do_lms_leaf + 2 ≤ 2 ^ LMS_ACTUAL T)
    (hm : sph_mem S) :
    sph_prog T P (do_lms_loop T P LMS_LEAF_PER_ITER S) ∧
    pub_prog T (do_lms_loop T P LMS_LEAF_PER_ITER S) ∧
    key_view (do_lms_loop T P LMS_LEAF_PER_ITER S) = key_view S := by
  have he := do_lms_loop_spec T P S hev hlt
  have hst : (do_lms_loop T P LMS_LEAF_PER_ITER S).build_state = b_init ∨
      (do_lms_loop T P LMS_LEAF_PER_ITER S).build_state = b_do_lms ∨
      (do_lms_loop T P LMS_LEAF_PER_ITER S).build_state = b_lms_finished := by
    rcases do_lms_loop_state T P S hb hev hlt with h | h
    · exact Or.inr (Or.inl h)
    · exact Or.inr (Or.inr h)
  refine ⟨(sph_prog_early T P _ hst).mpr ((sph_mem_lmsErase he).mpr hm), pub_prog_early T _ hst,
    (key_view_lmsErase he).trans rfl⟩

theorem early_step_init (T : Tune) (P : Prims) (s : sh_signer)
    (hf : s.got_fatal_error = false) (hb : s.build_state = b_init)
    (hd : s.drbg.reseed_counter + 1 < 2 ^ 48) (hm : sph_mem s) :
    sph_prog T P (step_next T P s).2 ∧ pub_prog T (step_next T P s).2 ∧
    key_view (step_next T P s).2 = key_view s := by
  have hA := LMS_ACTUAL_ge T
  have h12 : 2 ^ 1 ≤ 2 ^ LMS_ACTUAL T := Nat.pow_le_pow_right (by norm_num) (by omega)
  obtain ⟨r1, r1c⟩ := read_drbg_ok P s.next_lms_seed 32 s.drbg (by omega)
  obtain ⟨r2, _⟩ := read_drbg_ok P s.next_lms_I 16 (read_drbg P s.next_lms_seed 32 s.drbg).2.2
    (by omega)
  simp only [step_next, hf, hb, r1, r2, Bool.false_eq_true, if_false, not_true_eq_false]
  refine sph_do_lms T P _ rfl ?_ ?_ hm
  · rfl
  · show 0 + 2 ≤ 2 ^ LMS_ACTUAL T
    norm_num at h12
    omega

theorem early_step_do_lms (T : Tune) (P : Prims) (s : sh_signer)
    (hI : build_inv T s) (hb : s.build_state = b_do_lms) (hm : sph_mem s) :
    sph_prog T P (step_next T P s).2 ∧ pub_prog T (step_next T P s).2 ∧
    key_view (step_next T P s).2 = key_view s := by
  have hf : s.got_fatal_error = false := hI.1
  have h2 := hI.2
  simp only [hb] at h2
  simp only [step_next, hf, hb, Bool.false_eq_true, if_false]
  exact sph_do_lms T P s hb h2.1 h2.2.2 hm

theorem memcpy_take_end (d src : List Nat) (off n : Nat) (h : off ≤ d.length) :
    (memcpy d off src n).take (off + n) = d.take off ++ bytesN n src ∧
    off + n ≤ (memcpy d off src n).length := by
  have hl : (d.take off).length = off := by rw [List.length_take]; omega
  have hl2 : (d.take off ++ bytesN n src).length = off + n := by
    rw [List.length_append, hl, bytesN_length]
  refine ⟨?_, ?_⟩
  · simp only [memcpy, blit]
    exact take_at _ _ _ hl2
  · simp only [memcpy, blit, List.length_append, hl, bytesN_length]
    omega

theorem hdr_bytes (pub a b c I root : List Nat) (ha : a.length = 4) (hb : b.length = 4)
    (hc : c.length = 4) :
    bytesN 28 (memcpy (memcpy (memcpy (memcpy (memcpy pub 0 a 4) 4 b 4) 8 c 4) 12 I 16)
      (12 + 16) root 24) = a ++ (b ++ (c ++ bytesN 16 I)) := by
  obtain ⟨t1, l1⟩ := memcpy_take_end pub a 0 4 (Nat.zero_le _)
  obtain ⟨t2, l2⟩ := memcpy_take_end (memcpy pub 0 a 4) b 4 4 (by omega)
  obtain ⟨t3, l3⟩ := memcpy_take_end (memcpy (memcpy pub 0 a 4) 4 b 4) c 8 4 (by omega)
  obtain ⟨t4, l4⟩ := memcpy_take_end (memcpy (memcpy (memcpy pub 0 a 4) 4 b 4) 8 c 4) I 12 16
    (by omega)
  generalize memcpy pub 0 a 4 = M1 at t1 l1 t2 l2 t3 l3 t4 l4 ⊢
  generalize memcpy M1 4 b 4 = M2 at t2 l2 t3 l3 t4 l4 ⊢
  generalize memcpy M2 8 c 4 = M3 at t3 l3 t4 l4 ⊢
  generalize memcpy M3 12 I 16 = M4 at t4 l4 ⊢
  rw [bytesN_eq_take _ _ (Nat.le_trans l4 (memcpy_length_ge _ _ _ _)),
    memcpy_take_before _ _ _ _ 28 (Nat.le_refl _) l4]
  have e1 : M1.take 4 = a := by
    have := t1
    simp only [Nat.zero_add, List.take_zero, List.nil_append, bytesN_of_length ha] at this
    exact this
  have e2 : M2.take 8 = a ++ b := by
    have := t2
    rw [e1, bytesN_of_length hb] at this
    exact this
  have e3 : M3.take 12 = a ++ b ++ c := by
    have := t3
    rw [e2, bytesN_of_length hc] at this
    exact this
  have e4 : M4.take 28 = a ++ b ++ c ++ bytesN 16 I := by
    have := t4
    rw [e3] at this
    exact this
  rw [e4]
  simp only [List.append_assoc]

theorem pub_hdr_finished (T : Tune) (P : Prims) (s : sh_signer) :
    pub_hdr T (step_lms_finished T P s).next_lms_I (step_lms_finished T P s).next_lms_pub_key := by
  have key : ∀ pub I root : List Nat,
      bytesN 28 (memcpy (memcpy (memcpy (memcpy (memcpy pub 0 (put_bigendian 1 4) 4) 4
        (put_bigendian 0xe0000028 4) 4) 8 (put_bigendian (LM_OTS_PARAM_ID T) 4) 4) 12 I 16)
        (12 + 16) root 24)
      = put_bigendian 1 4 ++ (put_bigendian 0xe0000028 4 ++
          (put_bigendian (LM_OTS_PARAM_ID T) 4 ++ bytesN I_LEN I)) := by
    intro pub I root
    exact hdr_bytes pub _ _ _ I root (by simp [put_bigendian_4]) (by simp [put_bigendian_4])
      (by simp [put_bigendian_4])
  by_cases hF : LMS_FAKE T = 0
  · simp only [pub_hdr, step_lms_finished, hF, ne_eq, not_true_eq_false, if_false]
    exact key _ _ _
  · simp only [pub_hdr, step_lms_finished, hF, ne_eq, not_false_eq_true, if_true]
    exact key _ _ _

theorem step_lms_finished_keys (T : Tune) (P : Prims) (s : sh_signer) :
    key_view (step_lms_finished T P s) = key_view s := by
  simp only [step_lms_finished, key_view]
  split <;> rfl

theorem pub_prog_of_hdr (T : Tune) (s : sh_signer)
    (h : pub_hdr T s.next_lms_I s.next_lms_pub_key) : pub_prog T s := by
  cases hs : s.build_state <;> simp only [pub_prog, hs] <;> exact h

theorem pub_hdr_of_prog (T : Tune) (s : sh_signer)
    (hb : s.build_state = b_fors ∨ s.build_state = b_complete_fors ∨
      s.build_state = b_hypertree ∨ s.build_state = b_done)
    (h : pub_prog T s) : pub_hdr T s.next_lms_I s.next_lms_pub_key := by
  rcases hb with hs | hs | hs | hs <;> simp only [pub_prog, hs] at h <;> exact h

theorem key_view_of_sph (x y : sh_signer) (h : sph_view x = sph_view y) :
    key_view x = key_view y := by
  obtain ⟨e1, e2, e3, e4, _, _⟩ := sph_view_fields x y h
  simp only [key_view, e1, e2, e3, e4]

theorem hybrid_step_next (T : Tune) (P : Prims) (s : sh_signer) (hF : T.FAULT_STRATEGY = 0)
    (hI : build_inv T s) (hnd : s.build_state ≠ b_done)
    (hd : s.build_state = b_init → s.drbg.reseed_counter + 1 < 2 ^ 48)
    (hS : sig_inv s) (hp : sph_prog T P s) (hq : pub_prog T s) :
    sph_prog T P (step_next T P s).2 ∧ pub_prog T (step_next T P s).2 ∧
    key_view (step_next T P s).2 = key_view s := by
  have hf : s.got_fatal_error = false := hI.1
  have late : (s.build_state = b_fors ∨ s.build_state = b_complete_fors ∨
      s.build_state = b_hypertree) →
      pub_prog T (step_next T P s).2 ∧ key_view (step_next T P s).2 = key_view s := by
    intro hb
    have hv := step_next_view T P s hb
    have hb4 : s.build_state = b_fors ∨ s.build_state = b_complete_fors ∨
        s.build_state = b_hypertree ∨ s.build_state = b_done := by
      rcases hb with h | h | h
      · exact Or.inl h
      · exact Or.inr (Or.inl h)
      · exact Or.inr (Or.inr (Or.inl h))
    have hh := pub_hdr_of_prog T s hb4 hq
    have e1 : (step_next T P s).2.next_lms_I = s.next_lms_I := congrArg (fun v => v.1) hv
    have e6 : (step_next T P s).2.next_lms_pub_key = s.next_lms_pub_key :=
      congrArg (fun v => v.2.2.2.2.2.1) hv
    refine ⟨pub_prog_of_hdr T _ (by rw [e1, e6]; exact hh), ?_⟩
    exact key_view_of_sph _ _ (step_next_sph_view T P s hb)
  cases hs : s.build_state with
  | b_init => exact early_step_init T P s hf hs (hd hs) hp.1
  | b_do_lms => exact early_step_do_lms T P s hI hs hp.1
  | b_lms_finished =>
    refine ⟨sph_step_lms_finished T P s hf hs hS hp, ?_, ?_⟩
    · rw [step_next_lms_finished T P s hf hs]
      exact pub_prog_of_hdr T _ (pub_hdr_finished T P s)
    · rw [step_next_lms_finished T P s hf hs]
      exact step_lms_finished_keys T P s
  | b_fors =>
    obtain ⟨l1, l2⟩ := late (Or.inl hs)
    exact ⟨sph_step_fors T P s hF hI hs hS hp, l1, l2⟩
  | b_complete_fors =>
    obtain ⟨l1, l2⟩ := late (Or.inr (Or.inl hs))
    exact ⟨sph_step_complete_fors T P s hI hs hp, l1, l2⟩
  | b_hypertree =>
    obtain ⟨l1, l2⟩ := late (Or.inr (Or.inr hs))
    have h2 := hI.2
    simp only [hs] at h2
    rcases h2.2 with h0 | h1
    · exact ⟨sph_step_hyper_start T P s hI hs h0 hS hp, l1, l2⟩
    · exact ⟨sph_step_hyper_tree T P s hF hI hs h1.1 hS hp, l1, l2⟩
  | b_done => exact absurd hs hnd
  | b_count =>
    have h2 := hI.2
    simp only [hs] at h2

theorem sph_cur_kept (T : Tune) (P : Prims) (x y : sh_signer)
    (hk : kept x = kept y) (hv : key_view x = key_view y) (h : sph_cur T P y) :
    sph_cur T P x := by
  have e3 : x.current_lms_I = y.current_lms_I := congrArg (fun v => v.1.2.2.1) hk
  have e4 : x.current_lms_pub_key = y.current_lms_pub_key := congrArg (fun v => v.1.2.2.2.1) hk
  have e8 : x.current_sphincs_sig = y.current_sphincs_sig :=
    congrArg (fun v => v.1.2.2.2.2.2.2.2) hk
  have k1 : x.sk_seed = y.sk_seed := congrArg (fun v => v.1) hv
  have k2 : x.pk_seed = y.pk_seed := congrArg (fun v => v.2.1) hv
  have k3 : x.pk_seed_pre = y.pk_seed_pre := congrArg (fun v => v.2.2.1) hv
  have k4 : x.root = y.root := congrArg (fun v => v.2.2.2) hv
  simp only [sph_cur, e3, e4, e8, k1, k2, k3, k4]
  exact h

theorem sph_keys_view (T : Tune) (P : Prims) (pk : List Nat) (x y : sh_signer)
    (hv : key_view x = key_view y) (h : sph_keys T P pk y) : sph_keys T P pk x := by
  have k1 : x.sk_seed = y.sk_seed := congrArg (fun v => v.1) hv
  have k2 : x.pk_seed = y.pk_seed := congrArg (fun v => v.2.1) hv
  have k3 : x.pk_seed_pre = y.pk_seed_pre := congrArg (fun v => v.2.2.1) hv
  have k4 : x.root = y.root := congrArg (fun v => v.2.2.2) hv
  simp only [sph_keys, k1, k2, k3, k4]
  exact h

theorem hybrid_rotate_of (T : Tune) (P : Prims) (s s' : sh_signer)
    (hb : s.build_state = b_done)
    (hS : sig_inv s) (hp : sph_prog T P s) (hq : pub_prog T s)
    (hl : s.current_sphincs_sig.length = LEN_SPHINCS_SIG)
    (e1 : s'.build_state = b_init)
    (e2 : s'.next_sphincs_sig = s.current_sphincs_sig)
    (e3 : s'.current_sphincs_sig = s.next_sphincs_sig)
    (e4 : s'.current_lms_pub_key
      = memcpy s.current_lms_pub_key 0 s.next_lms_pub_key LEN_LMS_PUBLIC_KEY)
    (e5 : s'.current_lms_I = memcpy s.current_lms_I 0 s.next_lms_I 16)
    (e6 : key_view s' = key_view s)
    (e7 : sph_mem s' ↔ sph_mem s) :
    sig_inv s' ∧ sph_prog T P s' ∧ pub_prog T s' ∧ sph_cur T P s' ∧
    key_view s' = key_view s := by
  obtain ⟨hm, hc⟩ := hp
  simp only [hb] at hc
  obtain ⟨c1, c2⟩ := hc
  have hh : pub_hdr T s.next_lms_I s.next_lms_pub_key := by
    simp only [pub_prog, hb] at hq
    exact hq
  have k1 : s'.sk_seed = s.sk_seed := congrArg (fun v => v.1) e6
  have k2 : s'.pk_seed = s.pk_seed := congrArg (fun v => v.2.1) e6
  have k3 : s'.pk_seed_pre = s.pk_seed_pre := congrArg (fun v => v.2.2.1) e6
  have k4 : s'.root = s.root := congrArg (fun v => v.2.2.2) e6
  have hpub : bytesN LEN_LMS_PUBLIC_KEY s'.current_lms_pub_key
      = bytesN LEN_LMS_PUBLIC_KEY s.next_lms_pub_key := by
    rw [e4]; exact bytesN_memcpy_zero _ _ _
  refine ⟨⟨by rw [e2]; exact hl, by simp only [sig_fields, e1]⟩,
    (sph_prog_early T P s' (Or.inl e1)).mpr (e7.mpr hm),
    pub_prog_early T s' (Or.inl e1), ⟨by rw [e3]; exact hS.1, ?_, ?_, ?_⟩, e6⟩
  · simp only [pub_hdr]
    rw [e4, e5, bytesN_memcpy_zero_le _ _ 28 LEN_LMS_PUBLIC_KEY (by decide)]
    have : bytesN I_LEN (memcpy s.current_lms_I 0 s.next_lms_I 16) = bytesN I_LEN s.next_lms_I :=
      bytesN_memcpy_zero _ _ _
    rw [this]
    exact hh
  · rw [hpub, e3, k1, k2, k3, k4]
    exact c1
  · rw [hpub, e3, k1, k2, k3, k4]
    exact c2

theorem hybrid_rotate (T : Tune) (P : Prims) (s : sh_signer)
    (hf : s.got_fatal_error = false) (hb : s.build_state = b_done)
    (hS : sig_inv s) (hp : sph_prog T P s) (hq : pub_prog T s)
    (hl : s.current_sphincs_sig.length = LEN_SPHINCS_SIG) :
    sig_inv (step_next T P s).2 ∧ sph_prog T P (step_next T P s).2 ∧
    pub_prog T (step_next T P s).2 ∧ sph_cur T P (step_next T P s).2 ∧
    key_view (step_next T P s).2 = key_view s := by
  simp only [step_next, hf, hb, Bool.false_eq_true, if_false]
  exact hybrid_rotate_of T P s _ hb hS hp hq hl rfl rfl rfl rfl rfl rfl Iff.rfl

theorem hybrid_side_current (T : Tune) (P : Prims) (pk : List Nat) (s : sh_signer) (b : List Nat)
    (i : Nat)
    (h : sig_inv s ∧ sph_prog T P s ∧ pub_prog T s ∧ sph_cur T P s ∧ sph_keys T P pk s) :
    sig_inv { s with current_lms_bottom_subtree := b, current_lms_index := i } ∧
    sph_prog T P { s with current_lms_bottom_subtree := b, current_lms_index := i } ∧
    pub_prog T { s with current_lms_bottom_subtree := b, current_lms_index := i } ∧
    sph_cur T P { s with current_lms_bottom_subtree := b, current_lms_index := i } ∧
    sph_keys T P pk { s with current_lms_bottom_subtree := b, current_lms_index := i } := by
  obtain ⟨h1, h2, h3, h4, h5⟩ := h
  refine ⟨?_, ?_, ?_, ?_, ?_⟩
  · obtain ⟨a, c⟩ := h1
    refine ⟨a, ?_⟩
    cases hs : s.build_state <;> simp only [sig_fields, hs] at c ⊢ <;> exact c
  · obtain ⟨a, c⟩ := h2
    refine ⟨a, ?_⟩
    cases hs : s.build_state <;> simp only [hs] at c ⊢ <;> exact c
  · cases hs : s.build_state <;> simp only [pub_prog, hs] at h3 ⊢ <;> exact h3
  · exact h4
  · exact h5

theorem hybrid_side_step (T : Tune) (P : Prims) (pk : List Nat) (x : sh_signer)
    (hF : T.FAULT_STRATEGY = 0) (hI : build_inv T x)
    (hnf : (step_next T P x).2.got_fatal_error = false)
    (h : sig_inv x ∧ sph_prog T P x ∧ pub_prog T x ∧ sph_cur T P x ∧ sph_keys T P pk x) :
    sig_inv (step_next T P x).2 ∧ sph_prog T P (step_next T P x).2 ∧
    pub_prog T (step_next T P x).2 ∧ sph_cur T P (step_next T P x).2 ∧
    sph_keys T P pk (step_next T P x).2 := by
  obtain ⟨h1, h2, h3, h4, h5⟩ := h
  have hf : x.got_fatal_error = false := hI.1
  by_cases hb : x.build_state = b_done
  · obtain ⟨r1, r2, r3, r4, r5⟩ := hybrid_rotate T P x hf hb h1 h2 h3 h4.1
    exact ⟨r1, r2, r3, r4, sph_keys_view T P pk _ x r5 h5⟩
  · have hd : x.build_state = b_init → x.drbg.reseed_counter + 1 < 2 ^ 48 := by
      intro hinit
      by_contra hc
      have hfail := (step_init_fail T P x hf hinit (by omega)).2
      rw [hfail] at hnf
      exact Bool.noConfusion hnf
    obtain ⟨r2, r3, r5⟩ := hybrid_step_next T P x hF hI hb hd h1 h2 h3
    exact ⟨sig_step T P x hF hI h1 hb hd, r2, r3,
      sph_cur_kept T P _ x (step_next_kept T P x hb) r5 h4, sph_keys_view T P pk _ x r5 h5⟩

theorem hybrid_inv_step (T : Tune) (P : Prims) (pk : List Nat) (s : sh_signer)
    (hF : T.FAULT_STRATEGY = 0) (hi : hybrid_inv T P pk s)
    (hnf : (sign_advance T P s).got_fatal_error = false) :
    hybrid_inv T P pk (sign_advance T P s) := by
  obtain ⟨i1, i2⟩ := hi
  obtain ⟨hI, _⟩ := i1.2.2.1.2 i1.2.1
  refine ⟨sign_inv_step T P s hF i1 hnf, ?_⟩
  exact hybrid_side_step T P pk _ hF hI hnf
    (hybrid_side_current T P pk s (sign_refreshed T P s) ((s.current_lms_index + 1) % 2 ^ 32) i2)

theorem hybrid_run_inv (T : Tune) (P : Prims) (pk : List Nat) (s0 : sh_signer)
    (hF : T.FAULT_STRATEGY = 0) (h0 : hybrid_inv T P pk s0) :
    ∀ k, (sign_run T P k s0).got_fatal_error = false →
      hybrid_inv T P pk (sign_run T P k s0) := by
  intro k
  induction k with
  | zero => intro _; exact h0
  | succ k ih =>
    intro hk
    rw [sign_run_succ] at hk ⊢
    have hprev : (sign_run T P k s0).got_fatal_error = false := by
      cases hc : (sign_run T P k s0).got_fatal_error with
      | false => rfl
      | true =>
        rw [sign_advance_fatal T P _ hc] at hk
        exact Bool.noConfusion hk
    exact hybrid_inv_step T P pk _ hF (ih hprev) hk

theorem run_side (T : Tune) (P : Prims) (s : sh_signer) (hF : T.FAULT_STRATEGY = 0)
    (hf : s.got_fatal_error = false) (hb : s.build_state = b_init)
    (hd : s.drbg.reseed_counter + 1 < 2 ^ 48) (hS : sig_inv s) (hm : sph_mem s) :
    ∀ k, k + 1 ≤ build_steps T →
      sig_inv (run T P k s) ∧ sph_prog T P (run T P k s) ∧ pub_prog T (run T P k s) ∧
      key_view (run T P k s) = key_view s := by
  have hI : build_inv T s := by simp only [build_inv, hf, hb, and_self]
  have hp0 := build_pos_init T s hI hb
  intro k
  induction k with
  | zero =>
    intro _
    exact ⟨hS, (sph_prog_early T P s (Or.inl hb)).mpr hm, pub_prog_early T s (Or.inl hb), rfl⟩
  | succ k ih =>
    intro hk
    obtain ⟨i1, i2, _, _⟩ := run_cycle T P s hF hI (fun _ => hd) k (by omega)
    have hnd : (run T P k s).build_state ≠ b_done := by
      intro h
      have := (build_pos_done T _ hF i1).2.mpr h
      omega
    have hd' : (run T P k s).build_state = b_init →
        (run T P k s).drbg.reseed_counter + 1 < 2 ^ 48 := by
      intro hinit
      have hk0 : k = 0 := by
        have := build_pos_init T _ i1 hinit
        omega
      subst hk0
      exact hd
    obtain ⟨a1, a2, a3, a4⟩ := ih (by omega)
    rw [run_succ]
    obtain ⟨r2, r3, r5⟩ := hybrid_step_next T P _ hF i1 hnd hd' a1 a2 a3
    exact ⟨sig_step T P _ hF i1 a1 hnd hd', r2, r3, r5.trans a4⟩

theorem hybrid_side_initialized (T : Tune) (P : Prims) (pk : List Nat) (s : sh_signer) (i : Bool)
    (h : sig_inv s ∧ sph_prog T P s ∧ pub_prog T s ∧ sph_cur T P s ∧ sph_keys T P pk s) :
    sig_inv { s with initialized := i } ∧
    sph_prog T P { s with initialized := i } ∧
    pub_prog T { s with initialized := i } ∧
    sph_cur T P { s with initialized := i } ∧
    sph_keys T P pk { s with initialized := i } := by
  obtain ⟨h1, h2, h3, h4, h5⟩ := h
  refine ⟨?_, ?_, ?_, ?_, ?_⟩
  · obtain ⟨a, c⟩ := h1
    refine ⟨a, ?_⟩
    cases hs : s.build_state <;> simp only [sig_fields, hs] at c ⊢ <;> exact c
  · obtain ⟨a, c⟩ := h2
    refine ⟨a, ?_⟩
    cases hs : s.build_state <;> simp only [hs] at c ⊢ <;> exact c
  · cases hs : s.build_state <;> simp only [pub_prog, hs] at h3 ⊢ <;> exact h3
  · exact h4
  · exact h5

theorem hybrid_load (T : Tune) (P : Prims) (fuel : Nat) (m : sh_signer)
    (sk_buffer : List Nat) (do_rand : Nat → Option (List Nat)) (s0 : sh_signer) (pk : List Nat)
    (d : hmac_drbg)
    (hF : T.FAULT_STRATEGY = 0) (hfuel : build_steps T ≤ fuel)
    (hsd : seed_drbg P m.drbg do_rand = some d)
    (hn : hash_len (sk_buffer.getD 3 0 % 256) = 24)
    (lb : 24 * (2 ^ (LMS_BOTTOM T + 1) - 2) ≤ m.next_lms_bottom_subtree.length)
    (ls : 24 * LMS_BOTTOM T ≤ m.do_lms_stack.length)
    (lt : 24 * (2 ^ (LMS_TOP T + 1) - 2) ≤ m.next_lms_top_subtree.length)
    (lr : 24 ≤ m.next_lms_root.length)
    (lf : LMS_FAKE T * 24 ≤ m.next_fake.length)
    (cb : 24 * (2 ^ (LMS_BOTTOM T + 1) - 2) ≤ m.current_lms_bottom_subtree.length)
    (ct : 24 * (2 ^ (LMS_TOP T + 1) - 2) ≤ m.current_lms_top_subtree.length)
    (fs : 24 * SPH_A ≤ m.do_fors_stack.length)
    (fr : 24 * SPH_K ≤ m.do_fors_fors_roots.length)
    (hr : 24 ≤ m.do_hyper_next_root.length)
    (ma : m.do_hyper_merk.adr.length = 22)
    (ms : 24 * SPH_T ≤ m.do_hyper_merk.stack.length)
    (ns : m.next_sphincs_sig.length = LEN_SPHINCS_SIG)
    (cs : m.current_sphincs_sig.length = LEN_SPHINCS_SIG)
    (hk : sph_keys T P pk (load_state m d sk_buffer))
    (h : sh_load_signer T P fuel (some m) sk_buffer do_rand = some (some s0)) :
    hybrid_inv T P pk s0 := by
  have hsi := load_sign_inv T P fuel m sk_buffer do_rand s0 hF hfuel lb ls lt lr lf cb ct h
  refine ⟨hsi, ?_⟩
  have hc := seed_drbg_counter P m.drbg d do_rand hsd
  have hn0 : ¬ hash_len (sk_buffer.getD 3 0 % 256) = 0 := by rw [hn]; decide
  rw [sh_load_signer_eq T P fuel m sk_buffer do_rand d hsd hn0] at h
  have hd : (load_state m d sk_buffer).drbg.reseed_counter + 1 < 2 ^ 48 := by
    show d.reseed_counter + 1 < 2 ^ 48
    rw [hc]; norm_num
  obtain ⟨l1, l2, l3, l4⟩ := load_loop_cycle T P fuel (load_state m d sk_buffer) hF hfuel
    rfl rfl hd
  rw [l1] at h
  have hs : { (step_next T P (run T P (build_steps T - 1) (load_state m d sk_buffer))).2 with
      initialized := true } = s0 := Option.some.inj (Option.some.inj h)
  have hN : 1 ≤ build_steps T := Nat.le_add_left 1 _
  have hS0 : sig_inv (load_state m d sk_buffer) := ⟨ns, by simp only [sig_fields, load_state]⟩
  have hm0 : sph_mem (load_state m d sk_buffer) := by
    refine ⟨fs, fr, hr, ma, ms, ?_⟩
    simp only [load_state, hn]
  obtain ⟨a1, a2, a3, a4⟩ := run_side T P (load_state m d sk_buffer) hF rfl rfl hd hS0 hm0
    (build_steps T - 1) (by omega)
  have hcl : (run T P (build_steps T - 1) (load_state m d sk_buffer)).current_sphincs_sig.length
      = LEN_SPHINCS_SIG := by
    have e : (run T P (build_steps T - 1) (load_state m d sk_buffer)).current_sphincs_sig
        = m.current_sphincs_sig := congrArg (fun v => v.1.2.2.2.2.2.2.2) l4
    rw [e]; exact cs
  obtain ⟨r1, r2, r3, r4, r5⟩ := hybrid_rotate T P _ l3 l2 a1 a2 a3 hcl
  rw [← hs]
  exact hybrid_side_initialized T P pk _ true
    ⟨r1, r2, r3, r4, sph_keys_view T P pk _ _ (r5.trans a4) hk⟩

/-! ## Signing and verifying: the LMS part of a signature -/

theorem iterBlock_I (I : List Nat) (q i j : Nat) (prev : List Nat) (n : Nat) :
    iterBlock (bytesN I_LEN I) q i j prev n = iterBlock I q i j prev n := by
  simp only [iterBlock, bytesN_bytesN]

theorem mesgBlock_I (I : List Nat) (q : Nat) (C : List Nat) (n : Nat) :
    mesgBlock (bytesN I_LEN I) q C n = mesgBlock I q C n := by
  simp only [mesgBlock, bytesN_bytesN]

theorem pblcBlock_I (I : List Nat) (q : Nat) : pblcBlock (bytesN I_LEN I) q = pblcBlock I q := by
  simp only [pblcBlock, bytesN_bytesN]

theorem leafBlock_I (I : List Nat) (r : Nat) (pk : List Nat) (n : Nat) :
    leafBlock (bytesN I_LEN I) r pk n = leafBlock I r pk n := by
  simp only [leafBlock, bytesN_bytesN]

theorem intrBlock_I (I : List Nat) (r : Nat) (a b : List Nat) (n : Nat) :
    intrBlock (bytesN I_LEN I) r a b n = intrBlock I r a b n := by
  simp only [intrBlock, bytesN_bytesN]

theorem lm_ots_chain_I (P : Prims) (I : List Nat) (q i n : Nat) :
    ∀ (cnt j : Nat) (prev : List Nat),
      lm_ots_chain P (bytesN I_LEN I) q i n cnt j prev = lm_ots_chain P I q i n cnt j prev := by
  intro cnt
  induction cnt with
  | zero => intro j prev; rfl
  | succ k ih =>
    intro j prev
    simp only [lm_ots_chain, iterBlock_I, ih]

theorem verify_ots_tops_I (P : Prims) (I : List Nat) (q : Nat) (buffer y : List Nat) (n w : Nat) :
    ∀ (cnt i : Nat),
      verify_ots_tops P (bytesN I_LEN I) q buffer y n w cnt i
        = verify_ots_tops P I q buffer y n w cnt i := by
  intro cnt
  induction cnt with
  | zero => intro i; rfl
  | succ k ih =>
    intro i
    simp only [verify_ots_tops, lm_ots_chain_I, ih]

theorem verify_lms_leaf_I (P : Prims) (message I sig : List Nat) (n w p ls q : Nat) :
    verify_lms_leaf P message (bytesN I_LEN I) sig n w p ls q
      = verify_lms_leaf P message I sig n w p ls q := by
  simp only [verify_lms_leaf, mesgBlock_I, pblcBlock_I, leafBlock_I, verify_ots_tops_I]

theorem verify_lms_walk_I (P : Prims) (I : List Nat) (n : Nat) :
    ∀ (fuel node : Nat) (y buffer : List Nat),
      verify_lms_walk P (bytesN I_LEN I) n fuel node y buffer
        = verify_lms_walk P I n fuel node y buffer := by
  intro fuel
  induction fuel with
  | zero => intro node y buffer; rfl
  | succ k ih =>
    intro node y buffer
    simp only [verify_lms_walk, intrBlock_I, ih]

theorem verify_lms_root_I (P : Prims) (message I sig lm_sig : List Nat) (n w p ls q : Nat) :
    verify_lms_root P message (bytesN I_LEN I) sig lm_sig n w p ls q
      = verify_lms_root P message I sig lm_sig n w p ls q := by
  simp only [verify_lms_root, verify_lms_leaf_I, verify_lms_walk_I]

theorem verify_lms_leaf_signed (T : Tune) (P : Prims) (I : List Nat) (q : Nat)
    (seed message w0 w1 rest : List Nat) (hq : q < 2 ^ 32) (h0 : w0.length = 4)
    (h1 : w1.length = 4) :
    bytesN 24 (verify_lms_leaf P message I
        (w0 ++ w1 ++ (lm_ots_generate_signature T P I q seed message).2 ++ rest)
        24 (LM_OTS_W T) (LM_OTS_P T) (LM_OTS_LS T) q)
      = lm_ots_generate_public_key T P I q seed := by
  have hqm : q % 2 ^ 32 = q := Nat.mod_eq_of_lt hq
  simp only [lm_ots_generate_signature, lm_ots_generate_public_key, verify_lms_leaf, hqm]
  generalize hgen : init_private_key_gen T P seed 32 [] 0 = gen
  generalize hC : do_private_key_gen T P 24 gen (priv_image q 0 (2 ^ 32 - 1)) = C
  have e1 : slice (w0 ++ w1 ++ (put_bigendian (LM_OTS_PARAM_ID T) 4 ++ bytesN 24 C ++
      lm_ots_sig_chains T P I q gen
        (memcpy (bytesN (MAX_HASH_LEN + 2) (SHA256 P (mesgBlock I q C 24 ++ message))) 24
          (put_bigendian (lm_ots_compute_checksum (SHA256 P (mesgBlock I q C 24 ++ message))
            24 (LM_OTS_W T) (LM_OTS_LS T)) 2) 2) 24 (LM_OTS_W T) (LM_OTS_P T) 0) ++ rest)
      12 24 = bytesN 24 C := by
    simp only [List.append_assoc]
    rw [← List.append_assoc w0, ← List.append_assoc (w0 ++ w1), ← List.append_assoc _ (bytesN 24 C)]
    exact slice_at _ _ _ 12 24 (by simp [h0, h1]) (bytesN_length _ _)
  have e2 : (w0 ++ w1 ++ (put_bigendian (LM_OTS_PARAM_ID T) 4 ++ bytesN 24 C ++
      lm_ots_sig_chains T P I q gen
        (memcpy (bytesN (MAX_HASH_LEN + 2) (SHA256 P (mesgBlock I q C 24 ++ message))) 24
          (put_bigendian (lm_ots_compute_checksum (SHA256 P (mesgBlock I q C 24 ++ message))
            24 (LM_OTS_W T) (LM_OTS_LS T)) 2) 2) 24 (LM_OTS_W T) (LM_OTS_P T) 0) ++ rest).drop
        (12 + 24)
      = lm_ots_sig_chains T P I q gen
        (memcpy (bytesN (MAX_HASH_LEN + 2) (SHA256 P (mesgBlock I q C 24 ++ message))) 24
          (put_bigendian (lm_ots_compute_checksum (SHA256 P (mesgBlock I q C 24 ++ message))
            24 (LM_OTS_W T) (LM_OTS_LS T)) 2) 2) 24 (LM_OTS_W T) (LM_OTS_P T) 0 ++ rest := by
    simp only [List.append_assoc]
    rw [← List.append_assoc w0, ← List.append_assoc (w0 ++ w1), ← List.append_assoc _ (bytesN 24 C)]
    exact List.drop_left' (by simp [h0, h1])
  have e3 : mesgBlock I q (bytesN 24 C) 24 = mesgBlock I q C 24 := by
    simp only [mesgBlock, bytesN_bytesN]
  rw [e1, e2, e3]
  generalize memcpy (bytesN (MAX_HASH_LEN + 2) (SHA256 P (mesgBlock I q C 24 ++ message))) 24
    (put_bigendian (lm_ots_compute_checksum (SHA256 P (mesgBlock I q C 24 ++ message))
      24 (LM_OTS_W T) (LM_OTS_LS T)) 2) 2 = Q
  have ht := verify_tops_eq T P I q gen Q
    (lm_ots_sig_chains T P I q gen Q 24 (LM_OTS_W T) (LM_OTS_P T) 0 ++ rest) (LM_OTS_W T)
    (LM_OTS_P T) 0 (fun k hk => by
      have := lm_ots_sig_chains_slice T P I q gen Q (LM_OTS_W T) (LM_OTS_P T) 0 k rest hk
      rw [Nat.zero_add] at this ⊢
      exact this)
  rw [ht, bytesN_memcpy_zero_le _ _ 24 32 (by omega)]
  simp only [leafBlock, bytesN_memcpy_zero_le _ _ 24 32 (by omega : 24 ≤ 32), bytesN_bytesN]
  rfl

theorem get_put4 (v : Nat) (rest : List Nat) (hv : v < 2 ^ 32) :
    get_bigendian (put_bigendian v 4 ++ rest) 4 = v := by
  rw [get_bigendian_append _ _ (by rw [put_bigendian_length]),
    get_bigendian_eq _ _ (put_bigendian_length v 4), be_fold_put 4 v (by norm_num)]
  exact Nat.mod_eq_of_lt hv

theorem drop_app (a r : List Nat) (k m j : Nat) (h : a.length = m) (hk : k = m + j) :
    (a ++ r).drop k = r.drop j := by
  subst hk
  exact drop_add_append a r m j h

theorem layout_drops (S b1 b2 b3 I16 R24 z4 q4 ots ty rest : List Nat) (p : Nat)
    (hS : S.length = 17064) (hb1 : b1.length = 4) (hb2 : b2.length = 4) (hb3 : b3.length = 4)
    (hI16 : I16.length = 16) (hR24 : R24.length = 24) (hz4 : z4.length = 4) (hq4 : q4.length = 4)
    (hots : ots.length = 4 + 24 + p * 24) (hty : ty.length = 4) :
    (S ++ (b1 ++ (b2 ++ (b3 ++ (I16 ++ (R24 ++ (z4 ++ (q4 ++ (ots ++ (ty ++ (rest))))))))))).drop (17064)
      = b1 ++ (b2 ++ (b3 ++ (I16 ++ (R24 ++ (z4 ++ (q4 ++ (ots ++ (ty ++ (rest))))))))) ∧
    (S ++ (b1 ++ (b2 ++ (b3 ++ (I16 ++ (R24 ++ (z4 ++ (q4 ++ (ots ++ (ty ++ (rest))))))))))).drop (17064 + 4)
      = b2 ++ (b3 ++ (I16 ++ (R24 ++ (z4 ++ (q4 ++ (ots ++ (ty ++ (rest)))))))) ∧
    (S ++ (b1 ++ (b2 ++ (b3 ++ (I16 ++ (R24 ++ (z4 ++ (q4 ++ (ots ++ (ty ++ (rest))))))))))).drop (17064 + 8)
      = b3 ++ (I16 ++ (R24 ++ (z4 ++ (q4 ++ (ots ++ (ty ++ (rest))))))) ∧
    (S ++ (b1 ++ (b2 ++ (b3 ++ (I16 ++ (R24 ++ (z4 ++ (q4 ++ (ots ++ (ty ++ (rest))))))))))).drop (17064 + 12)
      = I16 ++ (R24 ++ (z4 ++ (q4 ++ (ots ++ (ty ++ (rest)))))) ∧
    (S ++ (b1 ++ (b2 ++ (b3 ++ (I16 ++ (R24 ++ (z4 ++ (q4 ++ (ots ++ (ty ++ (rest))))))))))).drop (17064 + 28)
      = R24 ++ (z4 ++ (q4 ++ (ots ++ (ty ++ (rest))))) ∧
    (S ++ (b1 ++ (b2 ++ (b3 ++ (I16 ++ (R24 ++ (z4 ++ (q4 ++ (ots ++ (ty ++ (rest))))))))))).drop (17064 + 52)
      = z4 ++ (q4 ++ (ots ++ (ty ++ (rest)))) ∧
    (S ++ (b1 ++ (b2 ++ (b3 ++ (I16 ++ (R24 ++ (z4 ++ (q4 ++ (ots ++ (ty ++ (rest))))))))))).drop (17064 + 52 + 4)
      = q4 ++ (ots ++ (ty ++ (rest))) ∧
    (S ++ (b1 ++ (b2 ++ (b3 ++ (I16 ++ (R24 ++ (z4 ++ (q4 ++ (ots ++ (ty ++ (rest))))))))))).drop (17064 + 52 + 8)
      = ots ++ (ty ++ (rest)) ∧
    (S ++ (b1 ++ (b2 ++ (b3 ++ (I16 ++ (R24 ++ (z4 ++ (q4 ++ (ots ++ (ty ++ (rest))))))))))).drop (17064 + 52 + 12 + 24 * (1 + p))
      = ty ++ (rest) ∧
    (S ++ (b1 ++ (b2 ++ (b3 ++ (I16 ++ (R24 ++ (z4 ++ (q4 ++ (ots ++ (ty ++ (rest))))))))))).drop (17064 + 52 + 12 + 24 * (1 + p) + 4)
      = rest := by
  refine ⟨?_, ?_, ?_, ?_, ?_, ?_, ?_, ?_, ?_, ?_⟩
  · rw [drop_app S _ _ (17064) ((17064) - ((17064))) hS (by omega)]
    have e : (17064) - ((17064)) = 0 := by omega
    rw [e, List.drop_zero]
  · rw [drop_app S _ _ (17064) ((17064 + 4) - ((17064))) hS (by omega),
      drop_app b1 _ _ (4) ((17064 + 4) - ((17064) + (4))) hb1 (by omega)]
    have e : (17064 + 4) - ((17064) + (4)) = 0 := by omega
    rw [e, List.drop_zero]
  · rw [drop_app S _ _ (17064) ((17064 + 8) - ((17064))) hS (by omega),
      drop_app b1 _ _ (4) ((17064 + 8) - ((17064) + (4))) hb1 (by omega),
      drop_app b2 _ _ (4) ((17064 + 8) - ((17064) + (4) + (4))) hb2 (by omega)]
    have e : (17064 + 8) - ((17064) + (4) + (4)) = 0 := by omega
    rw [e, List.drop_zero]
  · rw [drop_app S _ _ (17064) ((17064 + 12) - ((17064))) hS (by omega),
      drop_app b1 _ _ (4) ((17064 + 12) - ((17064) + (4))) hb1 (by omega),
      drop_app b2 _ _ (4) ((17064 + 12) - ((17064) + (4) + (4))) hb2 (by omega),
      drop_app b3 _ _ (4) ((17064 + 12) - ((17064) + (4) + (4) + (4))) hb3 (by omega)]
    have e : (17064 + 12) - ((17064) + (4) + (4) + (4)) = 0 := by omega
    rw [e, List.drop_zero]
  · rw [drop_app S _ _ (17064) ((17064 + 28) - ((17064))) hS (by omega),
      drop_app b1 _ _ (4) ((17064 + 28) - ((17064) + (4))) hb1 (by omega),
      drop_app b2 _ _ (4) ((17064 + 28) - ((17064) + (4) + (4))) hb2 (by omega),
      drop_app b3 _ _ (4) ((17064 + 28) - ((17064) + (4) + (4) + (4))) hb3 (by omega),
      drop_app I16 _ _ (16) ((17064 + 28) - ((17064) + (4) + (4) + (4) + (16))) hI16 (by omega)]
    have e : (17064 + 28) - ((17064) + (4) + (4) + (4) + (16)) = 0 := by omega
    rw [e, List.drop_zero]
  · rw [drop_app S _ _ (17064) ((17064 + 52) - ((17064))) hS (by omega),
      drop_app b1 _ _ (4) ((17064 + 52) - ((17064) + (4))) hb1 (by omega),
      drop_app b2 _ _ (4) ((17064 + 52) - ((17064) + (4) + (4))) hb2 (by omega),
      drop_app b3 _ _ (4) ((17064 + 52) - ((17064) + (4) + (4) + (4))) hb3 (by omega),
      drop_app I16 _ _ (16) ((17064 + 52) - ((17064) + (4) + (4) + (4) + (16))) hI16 (by omega),
      drop_app R24 _ _ (24) ((17064 + 52) - ((17064) + (4) + (4) + (4) + (16) + (24))) hR24 (by omega)]
    have e : (17064 + 52) - ((17064) + (4) + (4) + (4) + (16) + (24)) = 0 := by omega
    rw [e, List.drop_zero]
  · rw [drop_app S _ _ (17064) ((17064 + 52 + 4) - ((17064))) hS (by omega),
      drop_app b1 _ _ (4) ((17064 + 52 + 4) - ((17064) + (4))) hb1 (by omega),
      drop_app b2 _ _ (4) ((17064 + 52 + 4) - ((17064) + (4) + (4))) hb2 (by omega),
      drop_app b3 _ _ (4) ((17064 + 52 + 4) - ((17064) + (4) + (4) + (4))) hb3 (by omega),
      drop_app I16 _ _ (16) ((17064 + 52 + 4) - ((17064) + (4) + (4) + (4) + (16))) hI16 (by omega),
      drop_app R24 _ _ (24) ((17064 + 52 + 4) - ((17064) + (4) + (4) + (4) + (16) + (24))) hR24 (by omega),
      drop_app z4 _ _ (4) ((17064 + 52 + 4) - ((17064) + (4) + (4) + (4) + (16) + (24) + (4))) hz4 (by omega)]
    have e : (17064 + 52 + 4) - ((17064) + (4) + (4) + (4) + (16) + (24) + (4)) = 0 := by omega
    rw [e, List.drop_zero]
  · rw [drop_app S _ _ (17064) ((17064 + 52 + 8) - ((17064))) hS (by omega),
      drop_app b1 _ _ (4) ((17064 + 52 + 8) - ((17064) + (4))) hb1 (by omega),
      drop_app b2 _ _ (4) ((17064 + 52 + 8) - ((17064) + (4) + (4))) hb2 (by omega),
      drop_app b3 _ _ (4) ((17064 + 52 + 8) - ((17064) + (4) + (4) + (4))) hb3 (by omega),
      drop_app I16 _ _ (16) ((17064 + 52 + 8) - ((17064) + (4) + (4) + (4) + (16))) hI16 (by omega),
      drop_app R24 _ _ (24) ((17064 + 52 + 8) - ((17064) + (4) + (4) + (4) + (16) + (24))) hR24 (by omega),
      drop_app z4 _ _ (4) ((17064 + 52 + 8) - ((17064) + (4) + (4) + (4) + (16) + (24) + (4))) hz4 (by omega),
      drop_app q4 _ _ (4) ((17064 + 52 + 8) - ((17064) + (4) + (4) + (4) + (16) + (24) + (4) + (4))) hq4 (by omega)]
    have e : (17064 + 52 + 8) - ((17064) + (4) + (4) + (4) + (16) + (24) + (4) + (4)) = 0 := by omega
    rw [e, List.drop_zero]
  · rw [drop_app S _ _ (17064) ((17064 + 52 + 12 + 24 * (1 + p)) - ((17064))) hS (by omega),
      drop_app b1 _ _ (4) ((17064 + 52 + 12 + 24 * (1 + p)) - ((17064) + (4))) hb1 (by omega),
      drop_app b2 _ _ (4) ((17064 + 52 + 12 + 24 * (1 + p)) - ((17064) + (4) + (4))) hb2 (by omega),
      drop_app b3 _ _ (4) ((17064 + 52 + 12 + 24 * (1 + p)) - ((17064) + (4) + (4) + (4))) hb3 (by omega),
      drop_app I16 _ _ (16) ((17064 + 52 + 12 + 24 * (1 + p)) - ((17064) + (4) + (4) + (4) + (16))) hI16 (by omega),
      drop_app R24 _ _ (24) ((17064 + 52 + 12 + 24 * (1 + p)) - ((17064) + (4) + (4) + (4) + (16) + (24))) hR24 (by omega),
      drop_app z4 _ _ (4) ((17064 + 52 + 12 + 24 * (1 + p)) - ((17064) + (4) + (4) + (4) + (16) + (24) + (4))) hz4 (by omega),
      drop_app q4 _ _ (4) ((17064 + 52 + 12 + 24 * (1 + p)) - ((17064) + (4) + (4) + (4) + (16) + (24) + (4) + (4))) hq4 (by omega),
      drop_app ots _ _ (4 + 24 + p * 24) ((17064 + 52 + 12 + 24 * (1 + p)) - ((17064) + (4) + (4) + (4) + (16) + (24) + (4) + (4) + (4 + 24 + p * 24))) hots (by omega)]
    have e : (17064 + 52 + 12 + 24 * (1 + p)) - ((17064) + (4) + (4) + (4) + (16) + (24) + (4) + (4) + (4 + 24 + p * 24)) = 0 := by omega
    rw [e, List.drop_zero]
  · rw [drop_app S _ _ (17064) ((17064 + 52 + 12 + 24 * (1 + p) + 4) - ((17064))) hS (by omega),
      drop_app b1 _ _ (4) ((17064 + 52 + 12 + 24 * (1 + p) + 4) - ((17064) + (4))) hb1 (by omega),
      drop_app b2 _ _ (4) ((17064 + 52 + 12 + 24 * (1 + p) + 4) - ((17064) + (4) + (4))) hb2 (by omega),
      drop_app b3 _ _ (4) ((17064 + 52 + 12 + 24 * (1 + p) + 4) - ((17064) + (4) + (4) + (4))) hb3 (by omega),
      drop_app I16 _ _ (16) ((17064 + 52 + 12 + 24 * (1 + p) + 4) - ((17064) + (4) + (4) + (4) + (16))) hI16 (by omega),
      drop_app R24 _ _ (24) ((17064 + 52 + 12 + 24 * (1 + p) + 4) - ((17064) + (4) + (4) + (4) + (16) + (24))) hR24 (by omega),
      drop_app z4 _ _ (4) ((17064 + 52 + 12 + 24 * (1 + p) + 4) - ((17064) + (4) + (4) + (4) + (16) + (24) + (4))) hz4 (by omega),
      drop_app q4 _ _ (4) ((17064 + 52 + 12 + 24 * (1 + p) + 4) - ((17064) + (4) + (4) + (4) + (16) + (24) + (4) + (4))) hq4 (by omega),
      drop_app ots _ _ (4 + 24 + p * 24) ((17064 + 52 + 12 + 24 * (1 + p) + 4) - ((17064) + (4) + (4) + (4) + (16) + (24) + (4) + (4) + (4 + 24 + p * 24))) hots (by omega),
      drop_app ty _ _ (4) ((17064 + 52 + 12 + 24 * (1 + p) + 4) - ((17064) + (4) + (4) + (4) + (16) + (24) + (4) + (4) + (4 + 24 + p * 24) + (4))) hty (by omega)]
    have e : (17064 + 52 + 12 + 24 * (1 + p) + 4) - ((17064) + (4) + (4) + (4) + (16) + (24) + (4) + (4) + (4 + 24 + p * 24) + (4)) = 0 := by omega
    rw [e, List.drop_zero]

theorem bytesN52_split (l : List Nat) : bytesN 52 l = bytesN 28 l ++ slice l 28 24 := by
  have e : 52 - 28 = 24 := by norm_num
  rw [← List.take_append_drop 28 (bytesN 52 l), bytesN_take_le l _ _ (by omega),
    bytesN_drop_le l _ _ (by omega), e]
  rfl

theorem param_choice (T : Tune) :
    (LM_OTS_PARAM_ID T = LM_OTS_W4_PARAM_ID ∨ LM_OTS_PARAM_ID T = LM_OTS_W2_PARAM_ID) ∧
    LM_OTS_PARAM_ID T < 2 ^ 32 ∧
    (if LM_OTS_PARAM_ID T = LM_OTS_W4_PARAM_ID then LM_OTS_W4_P else LM_OTS_W2_P) = LM_OTS_P T ∧
    (if LM_OTS_PARAM_ID T = LM_OTS_W4_PARAM_ID then LM_OTS_W4_W else LM_OTS_W2_W) = LM_OTS_W T ∧
    (if LM_OTS_PARAM_ID T = LM_OTS_W4_PARAM_ID then LM_OTS_W4_LS else LM_OTS_W2_LS)
      = LM_OTS_LS T := by
  by_cases h : T.SPEED_SETTING = 0
  · simp only [LM_OTS_PARAM_ID, LM_OTS_P, LM_OTS_W, LM_OTS_LS, h, ne_eq, not_true_eq_false,
      if_false]
    decide
  · simp only [LM_OTS_PARAM_ID, LM_OTS_P, LM_OTS_W, LM_OTS_LS, h, ne_eq, not_false_eq_true,
      if_true]
    decide

theorem lms_part_verifies (T : Tune) (P : Prims) (s : sh_signer) (buf message : List Nat)
    (hc : lms_cur T P s.current_lms_index s)
    (hh : pub_hdr T s.current_lms_I s.current_lms_pub_key)
    (hbuf : sh_sig_len T ≤ buf.length) :
    well_framed (sign_write T buf s (4 + 24 + LM_OTS_P T * 24)
      (lm_ots_generate_signature T P s.current_lms_I s.current_lms_index s.current_lms_seed
        message).2) ∧
    bytesN 24 (verify_lms_buffer P message (sign_write T buf s (4 + 24 + LM_OTS_P T * 24)
      (lm_ots_generate_signature T P s.current_lms_I s.current_lms_index s.current_lms_seed
        message).2))
      = bytesN 24 ((sign_write T buf s (4 + 24 + LM_OTS_P T * 24)
          (lm_ots_generate_signature T P s.current_lms_I s.current_lms_index s.current_lms_seed
            message).2).drop (17064 + 28)) ∧
    (sign_write T buf s (4 + 24 + LM_OTS_P T * 24)
      (lm_ots_generate_signature T P s.current_lms_I s.current_lms_index s.current_lms_seed
        message).2).take 17064 = bytesN LEN_SPHINCS_SIG s.current_sphincs_sig ∧
    bytesN 52 ((sign_write T buf s (4 + 24 + LM_OTS_P T * 24)
      (lm_ots_generate_signature T P s.current_lms_I s.current_lms_index s.current_lms_seed
        message).2).drop 17064) = bytesN 52 s.current_lms_pub_key ∧
    verify_off_end (sign_write T buf s (4 + 24 + LM_OTS_P T * 24)
      (lm_ots_generate_signature T P s.current_lms_I s.current_lms_index s.current_lms_seed
        message).2) = sh_sig_len T := by
  have h17 : LEN_SPHINCS_SIG = 17064 := by decide
  have h52 : LEN_LMS_PUBLIC_KEY = 52 := by decide
  have hH : LMS_H = 20 := rfl
  obtain ⟨p1, p2, p3, p4, p5⟩ := param_choice T
  have hq : s.current_lms_index < 2 ^ LMS_ACTUAL T := hc.2.1
  have hq20 : s.current_lms_index < 2 ^ 20 :=
    Nat.lt_of_lt_of_le hq (Nat.pow_le_pow_right (by norm_num) (LMS_ACTUAL_le T))
  have hlen : LEN_SPHINCS_SIG + LEN_LMS_PUBLIC_KEY + 12 + (4 + 24 + LM_OTS_P T * 24) + 24 * 20
      ≤ buf.length := by
    simp only [sh_sig_len, h17, h52] at hbuf
    rw [h17, h52]
    omega
  have hots := lm_ots_signature_length T P s.current_lms_I s.current_lms_index
    s.current_lms_seed message
  have hleaf := verify_lms_leaf_signed T P s.current_lms_I s.current_lms_index
    s.current_lms_seed message (put_bigendian 0 4) (put_bigendian s.current_lms_index 4)
  have hreg := sign_path_region T P s.current_lms_index s buf
    (lm_ots_generate_signature T P s.current_lms_I s.current_lms_index s.current_lms_seed
      message).2 hc hbuf
  have heq := sign_write_eq T s buf (4 + 24 + LM_OTS_P T * 24)
    (lm_ots_generate_signature T P s.current_lms_I s.current_lms_index s.current_lms_seed
      message).2 hlen
  have hwl := (sign_write_tail T s buf (4 + 24 + LM_OTS_P T * 24)
    (lm_ots_generate_signature T P s.current_lms_I s.current_lms_index s.current_lms_seed
      message).2 hlen).2
  obtain ⟨C, chains, eo, hC, hch⟩ := lm_ots_signature_parts T P s.current_lms_I
    s.current_lms_index s.current_lms_seed message
  generalize (lm_ots_generate_signature T P s.current_lms_I s.current_lms_index
    s.current_lms_seed message).2 = ots at hots hleaf hreg heq hwl eo
  generalize sign_write T buf s (4 + 24 + LM_OTS_P T * 24) ots = out at hreg heq hwl ⊢
  rw [h17, h52, bytesN52_split, hh, bytesN_of_length hots] at heq
  simp only [List.append_assoc] at heq
  generalize bytesN (24 * LMS_BOTTOM T) _ ++ _ = REST at heq
  obtain ⟨d0, d4, d8, d12, d28, d52, d56, d60, dty, drest⟩ :=
    layout_drops (bytesN 17064 s.current_sphincs_sig) (put_bigendian 1 4)
      (put_bigendian 0xe0000028 4) (put_bigendian (LM_OTS_PARAM_ID T) 4)
      (bytesN I_LEN s.current_lms_I) (slice s.current_lms_pub_key 28 24) (put_bigendian 0 4)
      (put_bigendian s.current_lms_index 4) ots (put_bigendian 0xe0000028 4) REST (LM_OTS_P T)
      (bytesN_length _ _) (put_bigendian_length _ _) (put_bigendian_length _ _)
      (put_bigendian_length _ _) (bytesN_length _ _) (bytesN_length _ _)
      (put_bigendian_length _ _) (put_bigendian_length _ _) hots (put_bigendian_length _ _)
  rw [← heq] at d0 d4 d8 d12 d28 d52 d56 d60 dty drest
  have r_param : get_bigendian (out.drop (17064 + 8)) 4 = LM_OTS_PARAM_ID T := by
    rw [d8]; exact get_put4 _ _ p2
  have r_q : get_bigendian (out.drop (17064 + 52 + 4)) 4 = s.current_lms_index := by
    rw [d56]; exact get_put4 _ _ (by omega)
  have e_end : 17064 + 52 + 12 + 24 * (1 + LM_OTS_P T) + 4 + 24 * LMS_H - 4 - 480
      = 17064 + 52 + 12 + 24 * (1 + LM_OTS_P T) := by
    rw [hH]; omega
  have e_reg : sh_sig_len T - 24 * 20 = 17064 + 52 + 12 + 24 * (1 + LM_OTS_P T) + 4 := by
    simp only [sh_sig_len, h17, h52]
    omega
  refine ⟨?_, ?_, ?_, ?_, ?_⟩
  · simp only [well_framed, verify_off_end, r_param, p3, e_end]
    refine ⟨?_, p1, ?_, ?_, ?_, ?_, ?_, ?_, ?_⟩
    · rw [hwl]; simp only [sh_sig_len, h17, h52] at hbuf; omega
    · rw [hwl, hH]; simp only [sh_sig_len, h17, h52] at hbuf; omega
    · rw [d52]; exact get_put4 _ _ (by norm_num)
    · rw [d60, eo]
      simp only [List.append_assoc]
      exact get_put4 _ _ p2
    · rw [dty]; exact get_put4 _ _ (by norm_num)
    · rw [d0]; exact get_put4 _ _ (by norm_num)
    · rw [d4]; exact get_put4 _ _ (by norm_num)
    · rw [r_q]; exact hq20
  · simp only [verify_lms_buffer, r_param, p3, p4, p5, r_q, verify_lms_root]
    rw [Nat.mod_eq_of_lt (show s.current_lms_index < 2 ^ 32 by omega)]
    rw [bytesN_memcpy_zero_le _ _ 24 32 (by norm_num)]
    have hI : slice (out.drop 17064) 12 I_LEN = bytesN I_LEN s.current_lms_I := by
      rw [slice_drop, show 17064 + 12 = 17064 + 12 from rfl]
      simp only [slice]
      rw [d12]
      exact bytesN_append_left _ _ _ (bytesN_length _ _)
    rw [hI, verify_lms_leaf_I, verify_lms_walk_I, List.drop_drop]
    rw [show 17064 + 52 + 12 + 24 * (1 + LM_OTS_P T) + 4 = sh_sig_len T - 24 * 20 from e_reg.symm,
      hreg]
    have hlf := hleaf (put_bigendian 0xe0000028 4 ++ REST)
      (by omega) (put_bigendian_length _ _) (put_bigendian_length _ _)
    simp only [List.append_assoc] at hlf
    rw [d52]
    rw [lms_walk_to_root T P s.current_lms_index s _ _ hc hlf]
    have : bytesN 24 (out.drop (17064 + 28)) = slice s.current_lms_pub_key 28 24 := by
      rw [d28]
      exact bytesN_append_left _ _ _ (bytesN_length _ _)
    rw [this]
  · rw [heq, h17]
    exact take_at _ _ _ (bytesN_length _ _)
  · rw [d0, bytesN52_split s.current_lms_pub_key, hh]
    have e : ∀ a b c d r x : List Nat,
        a ++ (b ++ (c ++ (d ++ (r ++ x)))) = ((a ++ (b ++ (c ++ d))) ++ r) ++ x := by
      intro a b c d r x
      simp only [List.append_assoc]
    rw [e]
    apply bytesN_append_left
    simp only [List.length_append, put_bigendian_length, bytesN_length, slice]
    rfl
  · simp only [verify_off_end, r_param, p3, sh_sig_len, h17, h52, hH]

/-! ## Signing and verifying: the composition -/

theorem sph_fors_at_take (T : Tune) (P : Prims) (sk pre md : List Nat) (it il : Nat)
    (a b : List Nat) (t : Nat) (ht : t < SPH_K) (h : a.take 17064 = b.take 17064)
    (hb : sph_fors_at T P sk pre md it il b t) : sph_fors_at T P sk pre md it il a t := by
  have hK : SPH_K = 14 := rfl
  have hA : SPH_A = 16 := rfl
  obtain ⟨x, y⟩ := hb
  refine ⟨?_, ?_⟩
  · rw [slice_of_take a b _ _ 17064 (by omega) h]
    exact x
  · intro l hl
    rw [slice_of_take a b _ _ 17064 (by omega) h]
    exact y l hl

theorem sph_ht_at_take (T : Tune) (P : Prims) (sk pre : List Nat) (it il : Nat)
    (a b : List Nat) (L : Nat) (hL : L < SPH_D) (h : a.take 17064 = b.take 17064)
    (hb : sph_ht_at T P sk pre it il b L) : sph_ht_at T P sk pre it il a L := by
  have hD : SPH_D = 8 := rfl
  have hT : SPH_T = 8 := by decide
  obtain ⟨x, y⟩ := hb
  refine ⟨?_, ?_⟩
  · rw [take_drop_of_take a b _ _ 17064 (by omega) h]
    exact x
  · intro l hl
    rw [slice_of_take a b _ _ 17064 (by omega) h]
    exact y l hl

theorem ht_idx_fst (it il : Nat) : ∀ L, (ht_idx it il L).1 = it / 2 ^ (SPH_T * L) := by
  intro L
  induction L with
  | zero => simp [ht_idx]
  | succ L ih =>
    rw [ht_idx_succ]
    show (ht_idx it il L).1 / 2 ^ SPH_T = _
    rw [ih, Nat.div_div_eq_div_mul, ← pow_add]
    rfl

theorem ht_q_top (it il : Nat) (h : it < 2 ^ 56) :
    ht_q it il 7 = (7 % 256) :: put_bigendian (0 % 2 ^ 64) 8 := by
  have hT : SPH_T = 8 := by decide
  have e : (ht_idx it il 7).1 = 0 := by
    rw [ht_idx_fst, hT]
    exact Nat.div_eq_of_lt (by norm_num at h ⊢; exact h)
  simp only [ht_q, e]

theorem sphincs_part_verifies (T : Tune) (P : Prims) (pk : List Nat) (s : sh_signer)
    (out B : List Nat) (hm : sph_mem s) (hcur : sph_cur T P s) (hk : sph_keys T P pk s)
    (htake : out.take 17064 = bytesN LEN_SPHINCS_SIG s.current_sphincs_sig)
    (hpub : bytesN 52 (out.drop 17064) = bytesN 52 s.current_lms_pub_key) :
    verify_sphincs P B out (out.drop 17064) pk = true := by
  have h17 : LEN_SPHINCS_SIG = 17064 := by decide
  obtain ⟨hl, _, cf, ch⟩ := hcur
  obtain ⟨k1, k2, k3⟩ := hk
  have m6 := hm.2.2.2.2.2
  rw [h17] at hl htake
  have htake' : out.take 17064 = s.current_sphincs_sig.take 17064 := by
    rw [htake, bytesN_of_length hl, List.take_of_length_le (by omega)]
  have hpre : s.pk_seed_pre = SHA256_set_first_block (pk.drop 4) 24 := by
    rw [m6]
    simp only [SHA256_set_first_block]
    rw [k1]
    rfl
  have hdg : do_compute_digest_index P 24 out (pk.drop 4) (pk.drop 28)
      (bytesN 52 (out.drop 17064)) 14 16 64 8
      = do_compute_digest_index P 24 s.current_sphincs_sig s.pk_seed s.root
          (bytesN LEN_LMS_PUBLIC_KEY s.current_lms_pub_key) SPH_K SPH_A SPH_H SPH_D := by
    rw [hpub, digest_r_congr P out s.current_sphincs_sig _ _ _ _ _ _ _
      (bytesN_of_take _ _ 24 17064 (by norm_num) htake'),
      digest_index_congr P _ (pk.drop 4) s.pk_seed (pk.drop 28) s.root _ _ _ _ _
        k1.symm k2.symm]
    rfl
  generalize hD : do_compute_digest_index P 24 s.current_sphincs_sig s.pk_seed s.root
    (bytesN LEN_LMS_PUBLIC_KEY s.current_lms_pub_key) SPH_K SPH_A SPH_H SPH_D = D at hdg cf ch
  have hit : D.2.1 < 2 ^ 56 := by
    rw [← hD]
    exact (digest_index_bounds P _ _ _ _).1
  apply verify_sphincs_fields T P s.sk_seed B out (out.drop 17064) pk
  · intro t ht
    rw [← hpre, hdg]
    exact sph_fors_at_take T P _ _ _ _ _ out s.current_sphincs_sig t ht htake' (cf t ht)
  · intro L hL
    rw [← hpre, hdg]
    exact sph_ht_at_take T P _ _ _ _ out s.current_sphincs_sig L hL htake' (ch L hL)
  · rw [← hpre, hdg]
    show bytesN 24 (pk.drop 28)
      = merkle_node T P s.sk_seed s.pk_seed_pre (ht_q D.2.1 D.2.2 7) SPH_T 0
    rw [ht_q_top _ _ hit]
    exact k3

theorem gen_sk24 (T : Tune) (P : Prims) (sk extra : List Nat) (l : Nat) :
    init_private_key_gen T P (bytesN 24 sk) 24 extra l = init_private_key_gen T P sk 24 extra l := by
  have h : ¬ (24 ≥ 32) := by decide
  simp only [init_private_key_gen, h, if_false, bytesN_bytesN]

theorem merkle_node_sk (T : Tune) (P : Prims) (sk pre q : List Nat) :
    ∀ h j, merkle_node T P (bytesN 24 sk) pre q h j = merkle_node T P sk pre q h j := by
  intro h
  induction h with
  | zero =>
    intro j
    simp only [merkle_node, wots_pk, gen_sk24]
  | succ h ih =>
    intro j
    simp only [merkle_node, ih]

theorem keygen_keys (T : Tune) (P : Prims) (m : sh_signer) (d : hmac_drbg) (sk pk : List Nat)
    (h4 : sk.take 4 = [0x01, 0x18, 0x00, 0x05])
    (h7 : slice pk 4 24 = slice sk 52 24) (h8 : slice pk 28 24 = slice sk 76 24)
    (hroot : slice pk 28 24
      = merkle_node T P (slice sk 4 24) (SHA256_set_first_block (slice sk 52 24) 24)
          ((7 % 256) :: put_bigendian (0 % 2 ^ 64) 8) 8 0) :
    hash_len (sk.getD 3 0 % 256) = 24 ∧ sph_keys T P pk (load_state m d sk) := by
  have h3 : sk.getD 3 0 = 5 := getD_of_take4 _ 1 24 0 5 h4
  have hn : hash_len (sk.getD 3 0 % 256) = 24 := by rw [h3]; decide
  refine ⟨hn, ?_⟩
  have e1 : (load_state m d sk).pk_seed = memcpy m.pk_seed 0 (sk.drop (4 + 2 * 24)) 24 := by
    simp only [load_state, hn]
  have e2 : (load_state m d sk).root = memcpy m.root 0 (sk.drop (4 + 3 * 24)) 24 := by
    simp only [load_state, hn]
  have e3 : (load_state m d sk).sk_seed = memcpy m.sk_seed 0 (sk.drop 4) 24 := by
    simp only [load_state, hn]
  have e4 : (load_state m d sk).pk_seed_pre
      = SHA256_set_first_block (memcpy m.pk_seed 0 (sk.drop (4 + 2 * 24)) 24) 24 := by
    simp only [load_state, hn]
  have b1 : bytesN 24 (memcpy m.pk_seed 0 (sk.drop (4 + 2 * 24)) 24) = slice sk 52 24 :=
    bytesN_memcpy_zero _ _ _
  have b2 : bytesN 24 (memcpy m.root 0 (sk.drop (4 + 3 * 24)) 24) = slice sk 76 24 :=
    bytesN_memcpy_zero _ _ _
  have b3 : bytesN 24 (memcpy m.sk_seed 0 (sk.drop 4) 24) = slice sk 4 24 :=
    bytesN_memcpy_zero _ _ _
  simp only [sph_keys]
  rw [e1, e2, e3, e4]
  refine ⟨by rw [b1, h7], by rw [b2, h8], ?_⟩
  rw [hroot, ← merkle_node_sk T P (memcpy m.sk_seed 0 (sk.drop 4) 24), b3]
  have e5 : SHA256_set_first_block (memcpy m.pk_seed 0 (sk.drop (4 + 2 * 24)) 24) 24
      = SHA256_set_first_block (slice sk 52 24) 24 := by
    have e6 : bytesN 24 (slice sk 52 24) = slice sk 52 24 := bytesN_bytesN 24 _
    simp only [SHA256_set_first_block]
    rw [b1, e6]
  rw [e5]
  rfl

theorem sh_sign_true_len (T : Tune) (P : Prims) (buf : List Nat) (s : sh_signer)
    (message : List Nat) (o : Option (List Nat)) (s' : Option sh_signer)
    (h : sh_sign T P (some buf) (some s) message = (true, o, s')) :
    sh_sig_len T ≤ buf.length := by
  by_contra hlt
  have hl : buf.length < 0 + LEN_SPHINCS_SIG + LEN_LMS_PUBLIC_KEY + 12 + 24 * (1 + LM_OTS_P T)
      + 4 + 24 * 20 := by
    simp only [sh_sig_len] at hlt
    omega
  simp only [sh_sign, hl, if_true] at h
  split at h <;> exact Bool.noConfusion (congrArg Prod.fst h)

theorem hybrid_sign_round_trip (T : Tune) (P : Prims) (pk : List Nat) (s : sh_signer)
    (hi : hybrid_inv T P pk s) :
    (∀ buf message, sh_sig_len T ≤ buf.length →
      ∃ out, sh_sign T P (some buf) (some s) message
          = (true, some out, some (sign_advance T P s)) ∧
        out.length = buf.length ∧
        sh_verify P message out pk = true ∧
        sh_verify P message (out.take (sh_sig_len T)) pk = true) ∧
    (∀ buf message out S', sh_sign T P (some buf) (some s) message = (true, some out, S') →
      sh_verify P message out pk = true) := by
  have key : ∀ buf message, sh_sig_len T ≤ buf.length →
      ∃ out, sh_sign T P (some buf) (some s) message
          = (true, some out, some (sign_advance T P s)) ∧
        out.length = buf.length ∧
        sh_verify P message out pk = true ∧
        sh_verify P message (out.take (sh_sig_len T)) pk = true := by
    intro buf message hbuf
    obtain ⟨⟨i1, i2, _, i4, _⟩, _, hp, _, hcur, hk⟩ := hi
    have h17 : LEN_SPHINCS_SIG = 17064 := by decide
    have h52 : LEN_LMS_PUBLIC_KEY = 52 := by decide
    have hlen : LEN_SPHINCS_SIG + LEN_LMS_PUBLIC_KEY + 12 + (4 + 24 + LM_OTS_P T * 24) + 24 * 20
        ≤ buf.length := by
      simp only [sh_sig_len, h17, h52] at hbuf
      rw [h17, h52]
      omega
    have hwl := (sign_write_tail T s buf (4 + 24 + LM_OTS_P T * 24)
      (lm_ots_generate_signature T P s.current_lms_I s.current_lms_index s.current_lms_seed
        message).2 hlen).2
    obtain ⟨a1, a2, a3, a4, a5⟩ := lms_part_verifies T P s buf message i4 hcur.2.1 hbuf
    have hv : sh_verify P message (sign_write T buf s (4 + 24 + LM_OTS_P T * 24)
        (lm_ots_generate_signature T P s.current_lms_I s.current_lms_index s.current_lms_seed
          message).2) pk = true := by
      rw [sh_verify_parts]
      exact ⟨a1, a2, sphincs_part_verifies T P pk s _ _ hp.1 hcur hk a3 a4⟩
    refine ⟨_, sh_sign_ok T P buf s message i1 i2 hbuf, hwl, hv, ?_⟩
    rw [← a5, ← sh_verify_take P message _ pk (by rw [a5, hwl]; exact hbuf)]
    exact hv
  refine ⟨key, ?_⟩
  intro buf message out S' h
  obtain ⟨out', e, _, hv, _⟩ := key buf message (sh_sign_true_len T P buf s message _ _ h)
  rw [h] at e
  have : out = out' := Option.some.inj (congrArg (fun v => v.2.1) e)
  rw [this]
  exact hv

/-- C1: signature round trip.  `sh_keygen(1, 192, 1, ...)` with a random
callback that succeeds (buffers of at least 100 and 52 bytes, the builder
memory of `sh_keygen`, at least 256 iterations allowed to its Merkle loop)
returns a key pair `kr`; under the shipped `FAULT_STRATEGY 0`, with fuel for
one build cycle, a DRBG that seeds and signer memory of the size of the arrays
of the structure, `sh_load_signer` on the secret key of `kr` returns a signer
`s0`, whose first `build_steps` signatures meet no fatal error; and in every
state `sign_run k s0` this signer reaches by `k` successful signatures (the
first one and every later one, across tree rotations) and for every message:
`sh_sign` into a buffer of at least `sh_sig_len` bytes returns true, hands on
the state `sign_run (k + 1) s0`, and `sh_verify` of the message, of the buffer
written (also cut to its `sh_sig_len` bytes) and of the public key of `kr`
returns true; and every signature that a call of `sh_sign` returning true
emits in this state makes `sh_verify` return true. -/
theorem signature_round_trip (T : Tune) (P : Prims) (kfuel fuel : Nat)
    (state0 : build_merkle_state) (m : sh_signer)
    (rand do_rand : Nat → Option (List Nat)) (sk_buffer : List Nat) (size_sk : Option Nat)
    (pk_buffer : List Nat) (size_pk : Option Nat) (bytes : List Nat) (d : hmac_drbg)
    (hF : T.FAULT_STRATEGY = 0)
    (hsk : 100 ≤ sk_buffer.length) (hpk : 52 ≤ pk_buffer.length)
    (hadr : state0.adr.length = 22) (hstack : 24 * 8 ≤ state0.stack.length)
    (hr : rand 72 = some bytes) (hkf : 256 ≤ kfuel)
    (hfuel : build_steps T ≤ fuel)
    (hsd : seed_drbg P m.drbg do_rand = some d)
    (lb : 24 * (2 ^ (LMS_BOTTOM T + 1) - 2) ≤ m.next_lms_bottom_subtree.length)
    (ls : 24 * LMS_BOTTOM T ≤ m.do_lms_stack.length)
    (lt : 24 * (2 ^ (LMS_TOP T + 1) - 2) ≤ m.next_lms_top_subtree.length)
    (lr : 24 ≤ m.next_lms_root.length)
    (lf : LMS_FAKE T * 24 ≤ m.next_fake.length)
    (cb : 24 * (2 ^ (LMS_BOTTOM T + 1) - 2) ≤ m.current_lms_bottom_subtree.length)
    (ct : 24 * (2 ^ (LMS_TOP T + 1) - 2) ≤ m.current_lms_top_subtree.length)
    (fs : 24 * SPH_A ≤ m.do_fors_stack.length)
    (fr : 24 * SPH_K ≤ m.do_fors_fors_roots.length)
    (nr : 24 ≤ m.do_hyper_next_root.length)
    (ma : m.do_hyper_merk.adr.length = 22)
    (ms : 24 * SPH_T ≤ m.do_hyper_merk.stack.length)
    (ns : m.next_sphincs_sig.length = LEN_SPHINCS_SIG)
    (cs : m.current_sphincs_sig.length = LEN_SPHINCS_SIG) :
    ∃ kr s0,
      sh_keygen T P kfuel state0 1 192 1 (some rand) sk_buffer size_sk pk_buffer size_pk
        = some kr ∧
      kr.ok = true ∧
      sh_load_signer T P fuel (some m) kr.sk_buffer do_rand = some (some s0) ∧
      (∀ k, k < build_steps T → (sign_run T P k s0).got_fatal_error = false) ∧
      ∀ k, (sign_run T P k s0).got_fatal_error = false →
        (∀ buf message, sh_sig_len T ≤ buf.length →
          ∃ out, sh_sign T P (some buf) (some (sign_run T P k s0)) message
              = (true, some out, some (sign_run T P (k + 1) s0)) ∧
            out.length = buf.length ∧
            sh_verify P message out kr.pk_buffer = true ∧
            sh_verify P message (out.take (sh_sig_len T)) kr.pk_buffer = true) ∧
        (∀ buf message out S',
          sh_sign T P (some buf) (some (sign_run T P k s0)) message = (true, some out, S') →
          sh_verify P message out kr.pk_buffer = true) := by
  obtain ⟨kr, st, rootMem, e, c1, _, _, c4, _, _, c7, c8, c9, c10, c11, _⟩ :=
    sh_keygen_layout T P kfuel state0 rand sk_buffer size_sk pk_buffer size_pk bytes hsk hpk hr
      hkf
  have hroot : slice kr.pk_buffer 28 24
      = merkle_node T P (slice kr.sk_buffer 4 24)
          (SHA256_set_first_block (slice kr.sk_buffer 52 24) 24)
          ((7 % 256) :: put_bigendian (0 % 2 ^ 64) 8) 8 0 := by
    rw [c11]
    exact keygen_root_built T P kfuel state0 _ _ (slice pk_buffer 28 24) rootMem st hadr hstack
      (by simp [slice, bytesN_length]) hkf c9 c10
  obtain ⟨hn, hk⟩ := keygen_keys T P m d kr.sk_buffer kr.pk_buffer c4 c7 c8 hroot
  have hn0 : ¬ hash_len (kr.sk_buffer.getD 3 0 % 256) = 0 := by rw [hn]; decide
  have hc := seed_drbg_counter P m.drbg d do_rand hsd
  have hd : (load_state m d kr.sk_buffer).drbg.reseed_counter + 1 < 2 ^ 48 := by
    show d.reseed_counter + 1 < 2 ^ 48
    rw [hc]; norm_num
  obtain ⟨l1, _⟩ := load_loop_cycle T P fuel (load_state m d kr.sk_buffer) hF hfuel rfl rfl hd
  have hload : sh_load_signer T P fuel (some m) kr.sk_buffer do_rand
      = some (some { (step_next T P (run T P (build_steps T - 1)
          (load_state m d kr.sk_buffer))).2 with initialized := true }) := by
    rw [sh_load_signer_eq T P fuel m kr.sk_buffer do_rand d hsd hn0, l1]
    rfl
  have h0 := hybrid_load T P fuel m kr.sk_buffer do_rand _ kr.pk_buffer d hF hfuel hsd hn
    lb ls lt lr lf cb ct fs fr nr ma ms ns cs hk hload
  refine ⟨kr, _, e, c1, hload, fun k hk => (sign_run_cycle T P _ hF
    (loaded_fresh T P fuel (some m) kr.sk_buffer do_rand _ hF hfuel hload) k hk).1, ?_⟩
  intro k hk
  rw [sign_run_succ]
  exact hybrid_sign_round_trip T P kr.pk_buffer _ (hybrid_run_inv T P kr.pk_buffer _ hF h0 k hk)

/-- Witness for `signature_round_trip`: the key pair of the call of `test.c`
with zero-filled buffers and a zero-filled builder, zero-filled signer memory
and the random callback of `test.c` under the shipped tuning; the first
signature of the signer returned verifies under the public key. -/
theorem signature_round_trip_witness :
    ∃ kr s0,
      sh_keygen tune zero_prims 256 blank_merkle 1 192 1 (some test_rand)
        (zeros 100) (some 0) (zeros 52) (some 0) = some kr ∧
      kr.ok = true ∧
      sh_load_signer tune zero_prims 14423 (some blank_signer) kr.sk_buffer test_rand
        = some (some s0) ∧
      ∀ buf message, sh_sig_len tune ≤ buf.length →
        ∃ out, sh_sign tune zero_prims (some buf) (some s0) message
            = (true, some out, some (sign_run tune zero_prims 1 s0)) ∧
          sh_verify zero_prims message out kr.pk_buffer = true := by
  obtain ⟨kr, s0, e1, e2, e3, e4, h⟩ := signature_round_trip tune zero_prims 256 14423
    blank_merkle blank_signer test_rand test_rand (zeros 100) (some 0) (zeros 52) (some 0) _ _ rfl
    (by rw [zeros_length]) (by rw [zeros_length]) (zeros_length 22)
    (by show 24 * 8 ≤ (zeros 256).length; rw [zeros_length]; norm_num)
    rfl (by decide) (by decide) rfl
    (by show _ ≤ (zeros _).length; rw [zeros_length]; decide)
    (by show _ ≤ (zeros _).length; rw [zeros_length]; decide)
    (by show _ ≤ (zeros _).length; rw [zeros_length]; decide)
    (by decide)
    (by show _ ≤ (zeros _).length; rw [zeros_length]; decide)
    (by show _ ≤ (zeros _).length; rw [zeros_length]; decide)
    (by show _ ≤ (zeros _).length; rw [zeros_length]; decide)
    (by show _ ≤ (zeros _).length; rw [zeros_length]; decide)
    (by show _ ≤ (zeros _).length; rw [zeros_length]; decide)
    (by show _ ≤ (zeros _).length; rw [zeros_length]; decide)
    (zeros_length 22)
    (by show _ ≤ (zeros 256).length; rw [zeros_length]; decide)
    (by show (zeros _).length = _; rw [zeros_length]; decide)
    (by show (zeros _).length = _; rw [zeros_length]; decide)
  refine ⟨kr, s0, e1, e2, e3, fun buf message hbuf => ?_⟩
  obtain ⟨out, o1, _, o3, _⟩ := (h 0 (e4 0 (by decide))).1 buf message hbuf
  exact ⟨out, o1, o3⟩

end SphincsHybrid
